import Mathlib

/-!
# libsas (Structured Additive Synthesis): a shallow embedding

Conventions of the embedding.

* A C `double` is an exact rational number (`ℚ`) and its operations are exact,
  except in `distance_index` and in the definitions whose name ends in
  `_double`: there every operation delivers the value rounded to double
  precision by `double_round`.
* A C `int` is an `Int`; an `unsigned int` is a `Nat` taken modulo `2 ^ 32`
  where the code can wrap.
* A pointer is an index: a partial is named by the identifier of its source
  and its position in the source's array, a slot of the active-track array by
  its position in that array.
* `assert` failures, accesses through a dangling pointer or outside an
  allocation and `exit (EXIT_FAILURE)` are results of type `fault`; every
  function that can reach one returns `Except fault _`.
* The functions of the C library (`sqrt`, `pow`, `exp`, `log`, `log10`, `cos`,
  `sin`, `random`, `qsort`) are not part of the repository: they are the fields
  of a record `libc` that the functions calling them take as an argument.
-/

namespace SAS

/-! ## Results -/

/-- The ways a call can fail to return normally: a failed `assert`, an access
through a dangling pointer or outside an allocation, `exit (EXIT_FAILURE)`, and
a loop of the model that used up its iteration bound. -/
inductive fault where
  | assertion
  | invalid_access
  | exit_failure
  | diverged
  deriving DecidableEq, Repr

deriving instance DecidableEq for Except

/-- The C cast `(int) t` of a double: truncation toward zero. -/
def c_int (t : ℚ) : Int :=
  t.num.tdiv t.den

/-- The value of a C comparison used as an integer. -/
def c_bool (b : Bool) : Int :=
  if b then 1 else 0

/-! ## Rounding to double precision -/

/-- The power `2 ^ e` of two, for an exponent of either sign. -/
def pow2 (e : Int) : ℚ :=
  if 0 ≤ e then ((2 ^ e.toNat : Nat) : ℚ) else 1 / ((2 ^ (-e).toNat : Nat) : ℚ)

/-- The integer nearest to `q`, the even one of the two when `q` is half-way
between two integers. -/
def round_half_even (q : ℚ) : Int :=
  let f := ⌊q⌋
  let r := q - f
  if r < 1 / 2 then f
  else if 1 / 2 < r then f + 1
  else if f % 2 = 0 then f else f + 1

/-- The number of halvings that bring `n` below 2, at most `fuel` of them. -/
def halvings : Nat → Nat → Nat
  | 0, _ => 0
  | fuel + 1, n => if n < 2 then 0 else halvings fuel (n / 2) + 1

/-- The exponent of `x`: for `x ≠ 0`, the `e` with `2 ^ e ≤ |x| < 2 ^ (e + 1)`. -/
def binade (x : ℚ) : Int :=
  let e0 : Int := (halvings x.num.natAbs x.num.natAbs : Int) - (halvings x.den x.den : Int)
  if pow2 e0 ≤ |x| then e0 else e0 - 1

/-- The value that an operation of the type `double` delivers when its exact
result is `x`: the nearest number with a significand of 53 bits, the one with
an even significand when `x` is half-way between two of them (the default
rounding of IEEE 754).  The range of the exponent is taken as unbounded:
overflow and subnormal numbers are left out. -/
def double_round (x : ℚ) : ℚ :=
  if x = 0 then 0
  else (round_half_even (x / pow2 (binade x - 52)) : ℚ) * pow2 (binade x - 52)

/-- Read of cell `i` of an array. -/
def array_get {α : Type} (xs : List α) (i : Nat) : Except fault α :=
  match xs.get? i with
  | some v => .ok v
  | none => .error .invalid_access

/-- Write of cell `i` of an array. -/
def array_set {α : Type} (xs : List α) (i : Nat) (v : α) : Except fault (List α) :=
  if i < xs.length then .ok (xs.set i v) else .error .invalid_access

/-- A counted loop: `body` is run for `i = start, start + 1, ...`, `count`
times.  It stands for the C loops `while (i < bound)` whose bound the body
leaves alone, with `count = bound - i`. -/
def for_loop {σ : Type} (body : Nat → σ → Except fault σ) : Nat → Nat → σ → Except fault σ
  | 0, _, st => .ok st
  | n + 1, i, st => (body i st).bind (fun st1 => for_loop body n (i + 1) st1)

/-! ## Constants of sas_synthesizer.h, sas_envelope_private.c and math.h -/

def SAS_SAMPLING_RATE : ℚ := 44100

def SAS_MAX_AUDIBLE_FREQUENCY : ℚ := SAS_SAMPLING_RATE / 2

def SAS_SAMPLES : Nat := 512

def SAS_ENVELOPE_STDSIZE : Nat := 512

def SAS_ENVELOPE_STDBASE : ℚ := SAS_MAX_AUDIBLE_FREQUENCY / SAS_ENVELOPE_STDSIZE

def M_PI : ℚ := 3.14159265358979323846

def M_LN2 : ℚ := 0.69314718055994530942

def M_LOG2E : ℚ := 1.4426950408889634074

def RAND_MAX : ℚ := 2147483647

/-! ## sas_envelope_private.c, sas_envelope.c -/

/-- The record `struct sas_envelope_s`.  The field `cells` is the block
returned by `calloc (2 + size + 2, ...)`; the C field `data` points two cells
into that block, so that `e->data[i]` is cell `i + 2`. -/
structure sas_envelope_s where
  base : ℚ
  size : Int
  cells : List ℚ
  refcount : Nat
  lock : Int
  deriving DecidableEq, Repr

/-- The type `sas_envelope_t`: the address of an envelope. -/
abbrev sas_envelope_t := Nat

/-- The memory of the process outside the synthesizer: the allocated envelopes
(`none` once freed), the three static pointers of sas_envelope.c, the state of
the generator behind `random ()` and the two static variables of
`random_level`. -/
structure globals where
  envelopes : List (Option sas_envelope_s)
  color_0 : Option sas_envelope_t
  warp_identity : Option sas_envelope_t
  amplitude_threshold : Option sas_envelope_t
  random_state : Nat
  random_bits : Nat
  bits_left : Nat
  deriving DecidableEq, Repr

/-- The memory of a process that has not called the library yet. -/
def globals_start : globals :=
  { envelopes := [], color_0 := none, warp_identity := none, amplitude_threshold := none,
    random_state := 1, random_bits := 0, bits_left := 0 }

/-- Read of `*e`. -/
def envelope_load (g : globals) (e : sas_envelope_t) : Except fault sas_envelope_s :=
  match g.envelopes.get? e with
  | some (some v) => .ok v
  | _ => .error .invalid_access

/-- Write of `*e`. -/
def envelope_store (g : globals) (e : sas_envelope_t) (v : sas_envelope_s) : globals :=
  { g with envelopes := g.envelopes.set e (some v) }

/-- Read of `e->data[i]`. -/
def data_get (e : sas_envelope_s) (i : Int) : Except fault ℚ :=
  if 0 ≤ i + 2 then array_get e.cells (i + 2).toNat else .error .invalid_access

/-- Write `e->data[i] = v`. -/
def data_set (e : sas_envelope_s) (i : Int) (v : ℚ) : Except fault sas_envelope_s :=
  if 0 ≤ i + 2 then
    (array_set e.cells (i + 2).toNat v).bind (fun cs => .ok { e with cells := cs })
  else .error .invalid_access

/-- The record that `sas_envelope_make` allocates: a zeroed block of
`2 + size + 2` cells whose cells `2 .. size + 1` receive
`values[0 .. size - 1]`. -/
def envelope_make (base : ℚ) (size : Int) (values : List ℚ) : sas_envelope_s :=
  { base := base
    size := size
    cells := [0, 0] ++ (List.range size.toNat).map (fun i => values.getD i 0) ++ [0, 0]
    refcount := 0
    lock := 0 }

/-- The function `sas_envelope_make`: the new envelope is placed at a fresh
address. -/
def sas_envelope_make (g : globals) (base : ℚ) (size : Int) (values : List ℚ) :
    globals × sas_envelope_t :=
  ({ g with envelopes := g.envelopes ++ [some (envelope_make base size values)] },
    g.envelopes.length)

/-- The function `sas_envelope_keep`. -/
def sas_envelope_keep (g : globals) (e : sas_envelope_t) : Except fault globals := do
  let v ← envelope_load g e
  pure (envelope_store g e { v with refcount := (v.refcount + 1) % 2 ^ 32 })

/-- The function `sas_envelope_free`: the counter is an `unsigned int`, so the
decrement wraps and `refcount <= 0` means `refcount == 0`. -/
def sas_envelope_free (g : globals) (e : sas_envelope_t) : Except fault globals := do
  let v ← envelope_load g e
  let v := { v with refcount := (v.refcount + (2 ^ 32 - 1)) % 2 ^ 32 }
  if v.refcount = 0 ∧ v.lock = 0 then
    pure { g with envelopes := g.envelopes.set e none }
  else
    pure (envelope_store g e v)

/-- The body of `sas_envelope_adjust_for_color` on the record. -/
def envelope_adjust_for_color (e : sas_envelope_s) : Except fault sas_envelope_s := do
  let d0 ← data_get e 0
  let e ← data_set e (-2) (-d0)
  let e ← data_set e (-1) 0
  let e ← data_set e e.size 0
  let dl ← data_get e (e.size - 1)
  data_set e (e.size + 1) (-dl)

/-- The function `sas_envelope_adjust_for_color`. -/
def sas_envelope_adjust_for_color (g : globals) (e : sas_envelope_t) : Except fault globals := do
  let v ← envelope_load g e
  let v ← envelope_adjust_for_color v
  pure (envelope_store g e v)

/-- The body of `sas_envelope_adjust_for_warp` on the record. -/
def envelope_adjust_for_warp (e : sas_envelope_s) : Except fault sas_envelope_s := do
  let d0 ← data_get e 0
  let e ← data_set e (-2) (-d0)
  let e ← data_set e (-1) 0
  let a1 ← data_get e (e.size - 1)
  let a2 ← data_get e (e.size - 2)
  let e ← data_set e e.size (2 * a1 - a2)
  let b1 ← data_get e (e.size - 1)
  let b3 ← data_get e (e.size - 3)
  data_set e (e.size + 1) (2 * b1 - b3)

/-- The function `sas_envelope_adjust_for_warp`. -/
def sas_envelope_adjust_for_warp (g : globals) (e : sas_envelope_t) : Except fault globals := do
  let v ← envelope_load g e
  let v ← envelope_adjust_for_warp v
  pure (envelope_store g e v)

/-- The body of `sas_envelope_get_value_inline` on the record. -/
def envelope_get_value (e : sas_envelope_s) (frequency : ℚ) : Except fault ℚ :=
  if ¬ (frequency > 0) then .error .assertion
  else
    let t := frequency / e.base
    let i := c_int t
    let t := t - i
    if i < 0 ∨ i > e.size then .ok 0
    else do
      let t2 := t * t
      let t3 := t * t2
      let c0 := (1 / 2 : ℚ) * (-t + 2 * t2 - t3)
      let c1 := (1 / 2 : ℚ) * (2 - 5 * t2 + 3 * t3)
      let c2 := (1 / 2 : ℚ) * (t + 4 * t2 - 3 * t3)
      let c3 := (1 / 2 : ℚ) * (-t2 + t3)
      let d0 ← data_get e (i - 2)
      let d1 ← data_get e (i - 1)
      let d2 ← data_get e i
      let d3 ← data_get e (i + 1)
      let value := c0 * d0 + c1 * d1 + c2 * d2 + c3 * d3
      .ok (if value < 0 then 0 else value)

/-- The body of `sas_envelope_get_value_inline` with the arithmetic of the
type `double`: every operation delivers the rounded value of its exact result.
The multiplications by 0.5 and by 2.0 and the negations are exact; they are
rounded here like the others, which changes nothing. -/
def envelope_get_value_double (e : sas_envelope_s) (frequency : ℚ) : Except fault ℚ :=
  if ¬ (frequency > 0) then .error .assertion
  else
    let t := double_round (frequency / e.base)
    let i := c_int t
    let t := double_round (t - i)
    if i < 0 ∨ i > e.size then .ok 0
    else do
      let t2 := double_round (t * t)
      let t3 := double_round (t * t2)
      let c0 := double_round ((1 / 2 : ℚ) *
        double_round (double_round (-t + double_round (2 * t2)) - t3))
      let c1 := double_round ((1 / 2 : ℚ) *
        double_round (double_round (2 - double_round (5 * t2)) + double_round (3 * t3)))
      let c2 := double_round ((1 / 2 : ℚ) *
        double_round (double_round (t + double_round (4 * t2)) - double_round (3 * t3)))
      let c3 := double_round ((1 / 2 : ℚ) * double_round (-t2 + t3))
      let d0 ← data_get e (i - 2)
      let d1 ← data_get e (i - 1)
      let d2 ← data_get e i
      let d3 ← data_get e (i + 1)
      let value := double_round (double_round (double_round
        (double_round (c0 * d0) + double_round (c1 * d1)) + double_round (c2 * d2)) +
          double_round (c3 * d3))
      .ok (if value < 0 then 0 else value)

/-- The function `sas_envelope_get_value_inline`. -/
def sas_envelope_get_value_inline (g : globals) (e : sas_envelope_t) (frequency : ℚ) :
    Except fault ℚ :=
  (envelope_load g e).bind (fun v => envelope_get_value v frequency)

/-- The function `sas_envelope_get_value`. -/
def sas_envelope_get_value (g : globals) (e : sas_envelope_t) (frequency : ℚ) : Except fault ℚ :=
  sas_envelope_get_value_inline g e frequency

/-- The function `sas_envelope_get_value_inline` with the arithmetic of the
type `double`. -/
def sas_envelope_get_value_inline_double (g : globals) (e : sas_envelope_t) (frequency : ℚ) :
    Except fault ℚ :=
  (envelope_load g e).bind (fun v => envelope_get_value_double v frequency)

/-- The function `sas_envelope_get_value` with the arithmetic of the type
`double`. -/
def sas_envelope_get_value_double (g : globals) (e : sas_envelope_t) (frequency : ℚ) :
    Except fault ℚ :=
  sas_envelope_get_value_inline_double g e frequency

/-- The function `sas_envelope_get_base`. -/
def sas_envelope_get_base (g : globals) (e : sas_envelope_t) : Except fault ℚ :=
  (envelope_load g e).bind (fun v => .ok v.base)

/-- The function `sas_envelope_get_size`. -/
def sas_envelope_get_size (g : globals) (e : sas_envelope_t) : Except fault Int :=
  (envelope_load g e).bind (fun v => .ok v.size)

/-- Assignment `e->lock = 1`. -/
def envelope_lock (g : globals) (e : sas_envelope_t) : Except fault globals :=
  (envelope_load g e).bind (fun v => .ok (envelope_store g e { v with lock := 1 }))

/-- The function `sas_envelope_color_0`. -/
def sas_envelope_color_0 (g : globals) : Except fault (globals × sas_envelope_t) :=
  match g.color_0 with
  | some e => .ok (g, e)
  | none => do
    let (g, e) := sas_envelope_make g SAS_MAX_AUDIBLE_FREQUENCY 1 [0]
    let g := { g with color_0 := some e }
    let g ← envelope_lock g e
    let g ← sas_envelope_adjust_for_color g e
    pure (g, e)

/-- The function `sas_envelope_warp_identity`. -/
def sas_envelope_warp_identity (g : globals) : Except fault (globals × sas_envelope_t) :=
  match g.warp_identity with
  | some e => .ok (g, e)
  | none => do
    let (g, e) := sas_envelope_make g SAS_MAX_AUDIBLE_FREQUENCY 1 [SAS_MAX_AUDIBLE_FREQUENCY]
    let g := { g with warp_identity := some e }
    let g ← envelope_lock g e
    let g ← sas_envelope_adjust_for_warp g e
    pure (g, e)

/-! ## sas_frame.c -/

/-- The record `struct sas_frame_s`; the two envelopes are held by address. -/
structure sas_frame_s where
  amplitude : ℚ
  frequency : ℚ
  color : sas_envelope_t
  warp : sas_envelope_t
  deriving DecidableEq, Repr

/-- The function `sas_frame_make`. -/
def sas_frame_make (g : globals) : Except fault (globals × sas_frame_s) := do
  let (g, c) ← sas_envelope_color_0 g
  let g ← sas_envelope_keep g c
  let (g, w) ← sas_envelope_warp_identity g
  let g ← sas_envelope_keep g w
  pure (g, { amplitude := 0, frequency := 440, color := c, warp := w })

/-- The function `sas_frame_free`. -/
def sas_frame_free (g : globals) (f : sas_frame_s) : Except fault globals := do
  let g ← sas_envelope_free g f.color
  sas_envelope_free g f.warp

/-- The function `sas_frame_set_amplitude`. -/
def sas_frame_set_amplitude (f : sas_frame_s) (amplitude : ℚ) : sas_frame_s :=
  { f with amplitude := amplitude }

/-- The function `sas_frame_get_amplitude`. -/
def sas_frame_get_amplitude (f : sas_frame_s) : ℚ := f.amplitude

/-- The function `sas_frame_set_frequency`. -/
def sas_frame_set_frequency (f : sas_frame_s) (frequency : ℚ) : sas_frame_s :=
  { f with frequency := frequency }

/-- The function `sas_frame_get_frequency`. -/
def sas_frame_get_frequency (f : sas_frame_s) : ℚ := f.frequency

/-- The function `sas_frame_get_color`. -/
def sas_frame_get_color (f : sas_frame_s) : sas_envelope_t := f.color

/-- The function `sas_frame_get_warp`. -/
def sas_frame_get_warp (f : sas_frame_s) : sas_envelope_t := f.warp

/-- The function `sas_frame_set_color`. -/
def sas_frame_set_color (g : globals) (f : sas_frame_s) (e : sas_envelope_t) :
    Except fault (globals × sas_frame_s) :=
  if f.color ≠ e then do
    let g ← sas_envelope_free g f.color
    let g ← sas_envelope_keep g e
    pure (g, { f with color := e })
  else .ok (g, f)

/-- The function `sas_frame_set_warp`. -/
def sas_frame_set_warp (g : globals) (f : sas_frame_s) (e : sas_envelope_t) :
    Except fault (globals × sas_frame_s) :=
  if f.warp ≠ e then do
    let g ← sas_envelope_free g f.warp
    let g ← sas_envelope_keep g e
    pure (g, { f with warp := e })
  else .ok (g, f)

/-- The function `sas_frame_copy`. -/
def sas_frame_copy (g : globals) (dest f : sas_frame_s) : Except fault (globals × sas_frame_s) := do
  let dest := { dest with amplitude := f.amplitude, frequency := f.frequency }
  let (g, dest) ← sas_frame_set_color g dest (sas_frame_get_color f)
  sas_frame_set_warp g dest (sas_frame_get_warp f)

/-! ## sas_synthesizer.c: constants and records -/

def MAX_PARTIALS_PER_SOURCE : Nat := 1024

def MAX_PARTIALS_PER_SYNTH : Nat := MAX_PARTIALS_PER_SOURCE * 5

def INTERPOLATION_STEPS : Nat := 8

def STEP_SAMPLES : Nat := SAS_SAMPLES / INTERPOLATION_STEPS

def FREQCOEFF : ℚ := (2 * M_PI) / SAS_SAMPLING_RATE

def MIN_BARK : ℚ := 0.2

def MAX_BARK : ℚ := 27

def MIN_DB : ℚ := -100

def MIN_AMP : ℚ := 0.00001

def DB_DIFF : ℚ := 10

def LEFT_LINE_COEFF : ℚ := 27

def RIGHT_LINE_COEFF : ℚ := -15

def SOUND_CELERITY : ℚ := 350

def MAX_PROPAGATION_DISTANCE : ℚ := 2000

/-- The macro `MAX_PROPAGATED_FRAMES`:
`(int) ((MAX_PROPAGATION_DISTANCE / SOUND_CELERITY) * (SAS_SAMPLING_RATE / SAS_SAMPLES))`. -/
def MAX_PROPAGATED_FRAMES : Nat :=
  (c_int ((MAX_PROPAGATION_DISTANCE / SOUND_CELERITY) * (SAS_SAMPLING_RATE / SAS_SAMPLES))).toNat

/-- The macro `BELOW_MIN_AMP` (`USE_RESONATOR` is not defined). -/
def BELOW_MIN_AMP : ℚ := 0

def ALPHA : ℚ := 0.05

/-- The type `partial_t`: a pointer to a partial, that is the address of the
source that owns it and its position in `source->tracks`. -/
structure partial_t where
  source : Nat
  index : Nat
  deriving DecidableEq, Repr

/-- The functions of the C library that the repository calls.  `random` maps
the state of the generator to the value returned and the next state; `qsort`
is taken at the only element type it is used with here. -/
structure libc where
  sqrt : ℚ → ℚ
  pow : ℚ → ℚ → ℚ
  exp : ℚ → ℚ
  log : ℚ → ℚ
  log10 : ℚ → ℚ
  cos : ℚ → ℚ
  sin : ℚ → ℚ
  random : Nat → Nat × Nat
  qsort : (partial_t → partial_t → Int) → List partial_t → List partial_t

/-- A C array `double [4]`. -/
structure double4 where
  x0 : ℚ
  x1 : ℚ
  x2 : ℚ
  x3 : ℚ
  deriving DecidableEq, Repr

/-- The record `struct sas_position_s`. -/
structure sas_position_s where
  x : ℚ
  y : ℚ
  z : ℚ
  deriving DecidableEq, Repr

/-- The record `struct partial_s`.  `link` is the slot of `s->tracks` the
partial is linked to, `none` for `NULL`. -/
structure partial_s where
  source : Nat
  link : Option Nat
  a : ℚ
  f : ℚ
  fenv : double4
  aenv : double4
  state : Int
  v1 : ℚ
  v2 : ℚ
  deriving DecidableEq, Repr

/-- The type `sas_update_callback_t`.  The callback receives `call_data` and
the memory of the process, which it may change, and leaves a frame and a
position, or `none` for a pointer it left `NULL`.  It does not call back into
the synthesizer. -/
abbrev sas_update_callback_t :=
  Nat → globals → globals × Option sas_frame_s × Option sas_position_s

/-- The record `struct sas_source_s`.  `id` is the address of the record; the
field `next` is the order of the list `sources` of the synthesizer. -/
structure sas_source_s where
  id : Nat
  update : sas_update_callback_t
  call_data : Nat
  propagated_frames : List sas_frame_s
  emission_index : Int
  position : sas_position_s
  distance : ℚ
  cos_angle : ℚ
  doppler : ℚ
  l_ratio : ℚ
  r_ratio : ℚ
  tracks : List partial_s
  active_tracks : Int
  linked_tracks : Int
  delayed_free : Int

/-- The record `struct masking_partial_s`. -/
structure masking_partial_s where
  p : partial_t
  min_vdB : ℚ
  max_vdB : ℚ
  freqB : ℚ
  deriving DecidableEq, Repr

/-- The record `struct pool_of_masking_partials_s`; a masking partial is named
by its position in `partials`. -/
structure pool_of_masking_partials_s where
  partials : List (Option masking_partial_s)
  allocated : Int
  used : Int
  deriving DecidableEq, Repr

/-! ## skip_list.c -/

def SKIP_LIST_MAX_LEVEL : Nat := 32

def MAX_POOL_ENTRIES : Nat := MAX_PARTIALS_PER_SYNTH

/-- The size of `struct skip_list_cell_s` (three pointers), for 8-byte
pointers. -/
def sizeof_cell : Nat := 24

/-- The size of `skip_list_cell_t` (a pointer), for 8-byte pointers. -/
def sizeof_cell_t : Nat := 8

def SIZEOF_POOL : Nat := MAX_POOL_ENTRIES * (sizeof_cell + SKIP_LIST_MAX_LEVEL * sizeof_cell_t)

/-- The record `struct skip_list_cell_s`: the forward pointers (as many as the
level of the cell), the backward pointer and the stored masking partial.  A
cell is named by its offset in the pool; a pointer is `none` while not yet
assigned. -/
structure skip_list_cell_s where
  fwps : List (Option Nat)
  prev : Option Nat
  data : Option Nat
  deriving DecidableEq, Repr

/-- The record `struct skip_list_s`.  `cell_pool` maps the offsets in use to
the cells placed there, the most recent first.  The field `compare` is left
out: `skip_list_wrap_compare` calls `compare_frequencies` directly. -/
structure skip_list_s where
  level : Int
  header : Nat
  NIL : Nat
  update : List Nat
  cell_pool : List (Nat × skip_list_cell_s)
  cell_pool_top : Nat
  initial_cell_pool_top : Nat
  deriving DecidableEq, Repr

/-- Read of `*mp` for a pointer into the pool of masking partials. -/
def masking_partial_load (pool : pool_of_masking_partials_s) (mp : Nat) :
    Except fault masking_partial_s :=
  match pool.partials.get? mp with
  | some (some v) => .ok v
  | _ => .error .invalid_access

/-- The function `compare_frequencies`. -/
def compare_frequencies (pool : pool_of_masking_partials_s) (e1 e2 : Nat) : Except fault Int := do
  let mp1 ← masking_partial_load pool e1
  let mp2 ← masking_partial_load pool e2
  pure (c_bool (mp2.freqB < mp1.freqB) - c_bool (mp1.freqB < mp2.freqB))

/-- Read of the cell at offset `a` of the pool. -/
def cell_load (sl : skip_list_s) (a : Nat) : Except fault skip_list_cell_s :=
  match sl.cell_pool.lookup a with
  | some c => .ok c
  | none => .error .invalid_access

/-- Write of the cell at offset `a` of the pool. -/
def cell_store (sl : skip_list_s) (a : Nat) (c : skip_list_cell_s) : skip_list_s :=
  { sl with cell_pool := (a, c) :: sl.cell_pool.filter (fun x => x.1 != a) }

/-- Read of `a->fwps[i]`. -/
def fwps_get (sl : skip_list_s) (a : Nat) (i : Nat) : Except fault Nat := do
  let c ← cell_load sl a
  match c.fwps.get? i with
  | some (some v) => pure v
  | _ => .error .invalid_access

/-- Write `a->fwps[i] = v`. -/
def fwps_set (sl : skip_list_s) (a : Nat) (i : Nat) (v : Nat) : Except fault skip_list_s := do
  let c ← cell_load sl a
  let fw ← array_set c.fwps i (some v)
  pure (cell_store sl a { c with fwps := fw })

/-- Read of `a->prev`. -/
def prev_get (sl : skip_list_s) (a : Nat) : Except fault Nat := do
  let c ← cell_load sl a
  match c.prev with
  | some v => pure v
  | none => .error .invalid_access

/-- Write `a->prev = v`. -/
def prev_set (sl : skip_list_s) (a : Nat) (v : Nat) : Except fault skip_list_s := do
  let c ← cell_load sl a
  pure (cell_store sl a { c with prev := some v })

/-- The function `skip_list_cell_make`: the cell and its `level` forward
pointers are carved from the pool at `cell_pool_top`. -/
def skip_list_cell_make (sl : skip_list_s) (level : Nat) (data : Option Nat) :
    Except fault (skip_list_s × Nat) :=
  let slc := sl.cell_pool_top
  let top := sl.cell_pool_top + sizeof_cell + level * sizeof_cell_t
  let sl := { sl with cell_pool_top := top }
  if top ≥ SIZEOF_POOL then .error .exit_failure
  else
    .ok (cell_store sl slc { fwps := List.replicate level none, prev := none, data := data }, slc)

/-- The loop of `skip_list_make` and `skip_list_reset`:
`header->fwps[i] = NIL; update[i] = header` for `i < SKIP_LIST_MAX_LEVEL`. -/
def skip_list_clear (sl : skip_list_s) : Except fault skip_list_s :=
  for_loop (fun i sl => do
      let sl ← fwps_set sl sl.header i sl.NIL
      let up ← array_set sl.update i sl.header
      pure { sl with update := up })
    SKIP_LIST_MAX_LEVEL 0 sl

/-- The function `skip_list_make`; `tv_sec` is the time read by `gettimeofday`,
which seeds the generator. -/
def skip_list_make (g : globals) (tv_sec : Nat) : Except fault (globals × skip_list_s) := do
  let sl : skip_list_s :=
    { level := 1, header := 0, NIL := 0, update := List.replicate SKIP_LIST_MAX_LEVEL 0,
      cell_pool := [], cell_pool_top := 0, initial_cell_pool_top := 0 }
  let (sl, header) ← skip_list_cell_make sl SKIP_LIST_MAX_LEVEL none
  let sl := { sl with header := header }
  let (sl, nil) ← skip_list_cell_make sl 0 none
  let sl := { sl with NIL := nil }
  let sl := { sl with initial_cell_pool_top := sl.cell_pool_top }
  let sl ← skip_list_clear sl
  let sl ← prev_set sl sl.NIL sl.header
  pure ({ g with random_state := tv_sec }, sl)

/-- The function `skip_list_reset`. -/
def skip_list_reset (sl : skip_list_s) : Except fault skip_list_s := do
  let sl := { sl with level := 1 }
  let sl ← skip_list_clear sl
  let sl ← prev_set sl sl.NIL sl.header
  pure { sl with cell_pool_top := sl.initial_cell_pool_top }

def INT_MIN : Int := -2147483648

/-- The function `skip_list_wrap_compare`. -/
def skip_list_wrap_compare (sl : skip_list_s) (pool : pool_of_masking_partials_s)
    (e1 : Nat) (slc : Nat) : Except fault Int :=
  if slc = sl.NIL then .ok INT_MIN
  else do
    let c ← cell_load sl slc
    match c.data with
    | some d => compare_frequencies pool e1 d
    | none => .error .invalid_access

/-- The inner loop of `skip_list_search`:
`while (skip_list_wrap_compare (sl, data, slc->fwps[i]) > 0) slc = slc->fwps[i];`
with a bound on the number of steps. -/
def search_walk (sl : skip_list_s) (pool : pool_of_masking_partials_s) (data : Nat) (i : Nat) :
    Nat → Nat → Except fault Nat
  | 0, _ => .error .diverged
  | fuel + 1, slc => do
    let nxt ← fwps_get sl slc i
    let cmp ← skip_list_wrap_compare sl pool data nxt
    if cmp > 0 then search_walk sl pool data i fuel nxt else pure slc

/-- The outer loop of `skip_list_search`, for `i = n - 1` down to `0`. -/
def search_levels (pool : pool_of_masking_partials_s) (data : Nat) :
    Nat → skip_list_s → Nat → Except fault (skip_list_s × Nat)
  | 0, sl, slc => .ok (sl, slc)
  | n + 1, sl, slc => do
    let slc ← search_walk sl pool data n (sl.cell_pool.length + 1) slc
    let up ← array_set sl.update n slc
    search_levels pool data n { sl with update := up } slc

/-- The function `skip_list_search`. -/
def skip_list_search (sl : skip_list_s) (pool : pool_of_masking_partials_s) (data : Nat) :
    Except fault (skip_list_s × Option Nat) := do
  let u0 ← array_get sl.update 0
  let last_search_cell ← fwps_get sl u0 0
  let cmp ← skip_list_wrap_compare sl pool data last_search_cell
  if cmp = 0 then
    let c ← cell_load sl last_search_cell
    pure (sl, c.data)
  else
    let (sl, slc) ← search_levels pool data sl.level.toNat sl sl.header
    let slc ← fwps_get sl slc 0
    let cmp ← skip_list_wrap_compare sl pool data slc
    if cmp = 0 then
      let c ← cell_load sl slc
      pure (sl, c.data)
    else pure (sl, none)

/-- The loop of `random_level`, with a bound on the number of steps (the
counter `level` is an `int`). -/
def random_level_loop (c : libc) : Nat → globals → Int → Except fault (globals × Int)
  | 0, _, _ => .error .diverged
  | fuel + 1, g, level =>
    let g :=
      if g.bits_left = 0 then
        let r := c.random g.random_state
        { g with random_bits := r.1 % 2 ^ 32, random_state := r.2, bits_left := 4 }
      else g
    let b := g.random_bits % 2
    let level := if b = 0 then level + 1 else level
    let g := { g with random_bits := g.random_bits / 2, bits_left := g.bits_left - 1 }
    if b = 0 then random_level_loop c fuel g level else .ok (g, level)

/-- The function `random_level`. -/
def random_level (c : libc) (g : globals) : Except fault (globals × Int) := do
  let (g, level) ← random_level_loop c (2 ^ 31) g 1
  pure (g, if level ≤ SKIP_LIST_MAX_LEVEL then level else SKIP_LIST_MAX_LEVEL)

/-- The statement `if (sl->level < level) ...` of `skip_list_insert`: the
levels that the list did not have yet start at the header. -/
def raise_level (sl : skip_list_s) (level : Int) : Except fault skip_list_s :=
  if sl.level < level then do
    let sl ← for_loop (fun i sl => do
        let up ← array_set sl.update i sl.header
        pure { sl with update := up })
      (level - sl.level).toNat sl.level.toNat sl
    pure { sl with level := level }
  else pure sl

/-- The body of the last loop of `skip_list_insert`, for the level `i`: the
cell `slc` is linked in after the cell `update[i]`. -/
def link_level (slc : Nat) (i : Nat) (sl : skip_list_s) : Except fault skip_list_s := do
  let u ← array_get sl.update i
  let f ← fwps_get sl u i
  let sl ← fwps_set sl slc i f
  fwps_set sl u i slc

/-- The statements of `skip_list_insert` after the cell `slc` has been made:
its backward pointer is set, and the cell is linked in at each of its
levels. -/
def link_cell (sl : skip_list_s) (slc : Nat) (level : Nat) : Except fault skip_list_s := do
  let u0 ← array_get sl.update 0
  let nxt ← fwps_get sl u0 0
  let pv ← prev_get sl nxt
  let sl ← prev_set sl slc pv
  let sl ← prev_set sl nxt slc
  for_loop (link_level slc) level 0 sl

/-- The function `skip_list_insert`. -/
def skip_list_insert (c : libc) (g : globals) (sl : skip_list_s)
    (pool : pool_of_masking_partials_s) (data : Nat) : Except fault (globals × skip_list_s) := do
  let (sl, _) ← skip_list_search sl pool data
  let (g, level) ← random_level c g
  let sl ← raise_level sl level
  let (sl, slc) ← skip_list_cell_make sl level.toNat (some data)
  let sl ← link_cell sl slc level.toNat
  pure (g, sl)

/-- The first loop of `skip_list_remove`, from level `i`, `n` levels being
left: it stops at the first level whose `update` cell does not point to
`slc`. -/
def remove_levels (slc : Nat) : Nat → Nat → skip_list_s → Except fault skip_list_s
  | 0, _, sl => .ok sl
  | n + 1, i, sl => do
    let u ← array_get sl.update i
    let f ← fwps_get sl u i
    if f ≠ slc then pure sl
    else
      let nf ← fwps_get sl slc i
      let sl ← fwps_set sl u i nf
      remove_levels slc n (i + 1) sl

/-- The last loop of `skip_list_remove`:
`while ((sl->level > 0) && (sl->header->fwps[sl->level - 1] == sl->NIL)) sl->level--;`. -/
def lower_level : Nat → skip_list_s → Except fault skip_list_s
  | 0, sl => .ok sl
  | n + 1, sl =>
    if sl.level > 0 then do
      let f ← fwps_get sl sl.header (sl.level - 1).toNat
      if f = sl.NIL then lower_level n { sl with level := sl.level - 1 } else pure sl
    else .ok sl

/-- The function `skip_list_remove`. -/
def skip_list_remove (sl : skip_list_s) : Except fault skip_list_s := do
  let u0 ← array_get sl.update 0
  let slc ← fwps_get sl u0 0
  let nxt ← fwps_get sl slc 0
  let c ← cell_load sl slc
  let nc ← cell_load sl nxt
  let sl := cell_store sl nxt { nc with prev := c.prev }
  let sl ← remove_levels slc sl.level.toNat 0 sl
  lower_level sl.level.toNat sl

/-- The function `skip_list_previous`. -/
def skip_list_previous (sl : skip_list_s) : Except fault (Option Nat) := do
  let u0 ← array_get sl.update 0
  let cur ← fwps_get sl u0 0
  let slc ← prev_get sl cur
  if slc = sl.header then pure none
  else
    let c ← cell_load sl slc
    pure c.data

/-- The function `skip_list_next`. -/
def skip_list_next (sl : skip_list_s) : Except fault (Option Nat) := do
  let u0 ← array_get sl.update 0
  let cur ← fwps_get sl u0 0
  let slc ← fwps_get sl cur 0
  if slc = sl.NIL then pure none
  else
    let c ← cell_load sl slc
    pure c.data

/-- The record `struct sas_synthesizer_s`.  `tracks` and `tracks2` are the two
arrays of `allocated` pointers to partials, `none` for `NULL`. -/
structure sas_synthesizer_s where
  sources : List sas_source_s
  number_of_sources : Int
  amplitude_factor : ℚ
  tracks : List (Option partial_t)
  allocated : Int
  active_tracks : Int
  audible_tracks : Int
  masked_tracks : Int
  threshold : sas_envelope_t
  tracks2 : List (Option partial_t)
  mask : skip_list_s
  pool : pool_of_masking_partials_s

/-! ## sas_synthesizer.c: local functions -/

/-- The macro `MIN`. -/
def MIN {α : Type} [LT α] [DecidableRel (fun (a b : α) => a < b)] (x y : α) : α :=
  if y < x then y else x

/-- The macro `MAX`. -/
def MAX {α : Type} [LT α] [DecidableRel (fun (a b : α) => a < b)] (x y : α) : α :=
  if y > x then y else x

/-- The macro `SQR`. -/
def SQR (x : ℚ) : ℚ := x * x

/-- The macro `DISTANCE`. -/
def DISTANCE (c : libc) (x y z : ℚ) : ℚ := c.sqrt (SQR x + SQR y + SQR z)

/-- Read of `*source` for a source of the synthesizer. -/
def source_load (s : sas_synthesizer_s) (source : Nat) : Except fault sas_source_s :=
  match s.sources.find? (fun x => x.id = source) with
  | some v => .ok v
  | none => .error .invalid_access

/-- Write of `*source` for a source of the synthesizer. -/
def source_store (s : sas_synthesizer_s) (v : sas_source_s) : sas_synthesizer_s :=
  { s with sources := s.sources.map (fun x => if x.id = v.id then v else x) }

/-- Read of `*p` for a pointer to a partial. -/
def partial_load (s : sas_synthesizer_s) (p : partial_t) : Except fault partial_s := do
  let src ← source_load s p.source
  array_get src.tracks p.index

/-- Write of `*p` for a pointer to a partial. -/
def partial_store (s : sas_synthesizer_s) (p : partial_t) (v : partial_s) :
    Except fault sas_synthesizer_s := do
  let src ← source_load s p.source
  let ts ← array_set src.tracks p.index v
  pure (source_store s { src with tracks := ts })

/-- The table `icoeffs`, as `sas_synthesizer_make` fills it. -/
def icoeffs (step : Nat) : double4 :=
  let t0 : ℚ := (step : ℚ) / (INTERPOLATION_STEPS : ℚ)
  let t1 := t0 * t0
  let t2 := t0 * t1
  { x0 := (1 / 2 : ℚ) * (-t0 + 2 * t1 - t2)
    x1 := (1 / 2 : ℚ) * (2 - 5 * t1 + 3 * t2)
    x2 := (1 / 2 : ℚ) * (t0 + 4 * t1 - 3 * t2)
    x3 := (1 / 2 : ℚ) * (-t1 + t2) }

/-- The function `interpolate_value`. -/
def interpolate_value (envelope : double4) (step : Nat) : ℚ :=
  (icoeffs step).x0 * envelope.x0 + (icoeffs step).x1 * envelope.x1 +
    (icoeffs step).x2 * envelope.x2 + (icoeffs step).x3 * envelope.x3

/-- The value `1.0 / ((log (n) * (1.0 / M_LN2)) + 1.0)`. -/
def amplitude_factor_of (c : libc) (n : Int) : ℚ :=
  1 / ((c.log (n : ℚ) * (1 / M_LN2)) + 1)

/-- The function `sas_synthesizer_source_delayed_free`. -/
def sas_synthesizer_source_delayed_free (c : libc) (g : globals) (s : sas_synthesizer_s)
    (source : Nat) : Except fault (globals × sas_synthesizer_s) :=
  match s.sources.find? (fun x => x.id = source) with
  | none => .ok (g, s)
  | some src => do
    let s := { s with sources := s.sources.filter (fun x => x.id ≠ source) }
    let s ← for_loop (fun i (s : sas_synthesizer_s) => do
        let p ← array_get src.tracks i
        match p.link with
        | some l => do
          let ts ← array_set s.tracks l none
          pure { s with tracks := ts }
        | none => .error .invalid_access)
      src.linked_tracks.toNat 0 s
    let g ← for_loop (fun i (g : globals) => do
        let f ← array_get src.propagated_frames i
        sas_frame_free g f)
      MAX_PROPAGATED_FRAMES 0 g
    let s : sas_synthesizer_s := { s with number_of_sources := s.number_of_sources - 1 }
    if s.number_of_sources = 0 then
      pure (g, { s with amplitude_factor := 0 })
    else
      pure (g, { s with amplitude_factor := amplitude_factor_of c s.number_of_sources })

/-- The function `amplitude_threshold`. -/
def amplitude_threshold (g : globals) (s : sas_synthesizer_s) (frequency : ℚ) : Except fault ℚ :=
  sas_envelope_get_value_inline g s.threshold frequency

/-- The function `shift_envelope`. -/
def shift_envelope (envelope : double4) (value : ℚ) : double4 :=
  { x0 := envelope.x1, x1 := envelope.x2, x2 := envelope.x3, x3 := value }

/-- The function `update_source_spatial_information`. -/
def update_source_spatial_information (c : libc) (source : sas_source_s) : sas_source_s :=
  let previous_distance := source.distance
  let source := { source with
    distance := DISTANCE c source.position.x source.position.y source.position.z }
  let new_cos_angle : ℚ :=
    if source.distance > 0 then source.position.x / source.distance else 0
  let source := { source with cos_angle := (1 - ALPHA) * source.cos_angle + ALPHA * new_cos_angle }
  let pow2cos := c.pow 2 source.cos_angle
  let source := { source with r_ratio := (1 / 2 : ℚ) * pow2cos }
  let source := { source with l_ratio := (1 / 2 : ℚ) / pow2cos }
  let sspeed := (source.distance - previous_distance) * (SAS_SAMPLING_RATE / (SAS_SAMPLES : ℚ))
  let new_doppler : ℚ :=
    if -SOUND_CELERITY ≤ sspeed ∧ sspeed ≤ SOUND_CELERITY then
      (SOUND_CELERITY - sspeed) / SOUND_CELERITY
    else 1
  { source with doppler := (1 - ALPHA) * source.doppler + ALPHA * new_doppler }

/-- The function `compute_distance_attenuation_factor`; `distance` is
`p->source->distance`. -/
def compute_distance_attenuation_factor (c : libc) (p : partial_s) (distance : ℚ) : ℚ :=
  let h : ℚ := 50
  let mu := (85 / h) * SQR (p.f / 1000) * 0.0001 * 8.7
  c.exp (-mu * distance) / (distance + 1)

/-- The local variables of the harmonic scan of `update_source`, with the
array of partials it writes to. -/
structure scan_state where
  tracks : List partial_s
  amp : ℚ
  harmonics : Int

/-- The body of the loop `Scan harmonics` of `update_source`, for harmonic
`i`. -/
def scan_harmonic (g : globals) (s : sas_synthesizer_s) (frameA frameF : ℚ)
    (frameC frameW : sas_envelope_t) (i : Nat) (st : scan_state) : Except fault scan_state := do
  let p ← array_get st.tracks i
  let f ← sas_envelope_get_value_inline g frameW (frameF * ((i : ℚ) + 1))
  let p := { p with f := f }
  if p.f < SAS_MAX_AUDIBLE_FREQUENCY then do
    let a ← sas_envelope_get_value_inline g frameC p.f
    let p := { p with a := a }
    let th ← amplitude_threshold g s p.f
    if p.a * frameA < th then
      let p := { p with a := BELOW_MIN_AMP }
      let ts ← array_set st.tracks i p
      pure { st with tracks := ts }
    else
      let ts ← array_set st.tracks i p
      pure { tracks := ts, amp := st.amp + p.a, harmonics := (i : Int) + 1 }
  else do
    let ts ← array_set st.tracks i p
    pure { st with tracks := ts }

/-- The loop `Scan harmonics` of `update_source`, from harmonic `i`; the first
argument is `MAX_PARTIALS_PER_SOURCE - i`. -/
def scan_harmonics (g : globals) (s : sas_synthesizer_s) (frameA frameF : ℚ)
    (frameC frameW : sas_envelope_t) : Nat → Nat → scan_state → Except fault scan_state
  | 0, _, st => .ok st
  | n + 1, i, st =>
    if frameF * ((i : ℚ) + 1) < SAS_MAX_AUDIBLE_FREQUENCY then
      (scan_harmonic g s frameA frameF frameC frameW i st).bind
        (fun st1 => scan_harmonics g s frameA frameF frameC frameW n (i + 1) st1)
    else .ok st

/-- What `update_source` has computed when it reaches the label
`after_harmonic_scan`. -/
structure scan_result where
  g : globals
  source : sas_source_s
  harmonics : Int
  active : Int

/-- The value of the variable `distance_index` of `update_source`: the place
in the circular buffer of the frame that was emitted when the sound heard now
left the source.  The product, the quotient and the sum are operations of the
type `double`, each of them rounded; the assignment to the `int` truncates the
rounded sum. -/
def distance_index (emission_index : Int) (distance : ℚ) : Int :=
  let distance_index : Int :=
    c_int (double_round ((emission_index : ℚ) +
      double_round (double_round (distance * (MAX_PROPAGATED_FRAMES : ℚ)) /
        MAX_PROPAGATION_DISTANCE)))
  distance_index.tmod (MAX_PROPAGATED_FRAMES : Int)

/-- The first part of `update_source`, up to the label `after_harmonic_scan`. -/
def harmonic_scan (c : libc) (g : globals) (s : sas_synthesizer_s) (source : sas_source_s) :
    Except fault scan_result :=
  match source.update source.call_data g with
  | (g, some frame, some pos) => do
    let dest ← array_get source.propagated_frames source.emission_index.toNat
    let (g, dest) ← sas_frame_copy g dest frame
    let frames ← array_set source.propagated_frames source.emission_index.toNat dest
    let source := { source with
      propagated_frames := frames, position := { x := pos.x, y := pos.y, z := pos.z } }
    let source := update_source_spatial_information c source
    if source.distance ≥ MAX_PROPAGATION_DISTANCE then
      pure { g := g, source := source, harmonics := 0, active := 0 }
    else
      let distance_index := distance_index source.emission_index source.distance
      if distance_index < 0 then .error .invalid_access
      else
        let frame ← array_get source.propagated_frames distance_index.toNat
        let frameA := sas_frame_get_amplitude frame
        if frameA = 0 then
          pure { g := g, source := source, harmonics := 0, active := 0 }
        else
          let frameF := sas_frame_get_frequency frame
          let frameC := sas_frame_get_color frame
          let frameW := sas_frame_get_warp frame
          let st ← scan_harmonics g s frameA frameF frameC frameW MAX_PARTIALS_PER_SOURCE 0
            { tracks := source.tracks, amp := 0, harmonics := 0 }
          let amp : ℚ := if st.harmonics > 0 ∧ st.amp > 0 then frameA / st.amp else 0
          let amp := amp * s.amplitude_factor
          let ts ← for_loop (fun i ts => do
              let p ← array_get ts i
              let p := { p with a := p.a * amp }
              let p := { p with a := p.a * compute_distance_attenuation_factor c p source.distance }
              let p := { p with f := p.f * source.doppler }
              array_set ts i p)
            st.harmonics.toNat 0 st.tracks
          pure { g := g, source := { source with tracks := ts }, harmonics := st.harmonics,
                 active := MIN st.harmonics source.active_tracks }
  | (g, _, _) =>
    .ok { g := g, source := source, harmonics := 0, active := source.active_tracks }

/-- The objects that the four track loops of `update_source` work on, and its
local counters. -/
structure update_state where
  g : globals
  s : sas_synthesizer_s
  source : sas_source_s
  birth : Int
  death : Int
  links : Int

/-- The body of the loop `while (i < active)` of `update_source`. -/
def continuing_harmonic (c : libc) (i : Nat) (st : update_state) : Except fault update_state := do
  let p ← array_get st.source.tracks i
  let p := { p with state := p.state + 1 }
  if p.link ≠ none then
    let p := { p with aenv := shift_envelope p.aenv p.a }
    let p := { p with fenv := shift_envelope p.fenv p.f }
    let ts ← array_set st.source.tracks i p
    pure { st with source := { st.source with tracks := ts } }
  else if p.state = 1 then
    let p := { p with aenv := shift_envelope p.aenv p.a }
    let p := { p with fenv := shift_envelope p.fenv p.f }
    let ts ← array_set st.source.tracks i p
    pure { st with source := { st.source with tracks := ts } }
  else if p.state = 2 then
    if st.s.active_tracks < st.s.allocated then
      let p := { p with aenv := shift_envelope p.aenv p.a }
      let p := { p with fenv := shift_envelope p.fenv p.f }
      let p := { p with aenv := { p.aenv with x0 := 2 * p.aenv.x1 - p.aenv.x2 } }
      let p := { p with fenv := { x0 := p.f, x1 := p.f, x2 := p.f, x3 := p.f } }
      let r := c.random st.g.random_state
      let g := { st.g with random_state := r.2 }
      let phi : ℚ := (r.1 : ℚ) / RAND_MAX
      let p := { p with v1 := c.cos phi }
      let p := { p with v2 := c.sin phi }
      if st.s.active_tracks < 0 then .error .invalid_access
      else
        let p := { p with link := some st.s.active_tracks.toNat }
        let tr ← array_set st.s.tracks st.s.active_tracks.toNat
          (some { source := st.source.id, index := i })
        let s := { st.s with tracks := tr, active_tracks := st.s.active_tracks + 1 }
        let ts ← array_set st.source.tracks i p
        pure { st with g := g, s := s, source := { st.source with tracks := ts },
                       links := st.links + 1 }
    else
      let ts ← array_set st.source.tracks i p
      pure { st with source := { st.source with tracks := ts } }
  else .error .exit_failure

/-- The body of the loop `while (i < harmonics)` of `update_source`. -/
def birth_of_harmonic (i : Nat) (st : update_state) : Except fault update_state := do
  let p ← array_get st.source.tracks i
  let p := { p with state := 0 }
  let p := { p with aenv := shift_envelope p.aenv BELOW_MIN_AMP }
  let p := { p with fenv := shift_envelope p.fenv p.f }
  let ts ← array_set st.source.tracks i p
  pure { st with source := { st.source with tracks := ts }, birth := st.birth + 1 }

/-- The body of the loop `while (i < source->active_tracks)` of
`update_source`. -/
def death_of_harmonic (i : Nat) (st : update_state) : Except fault update_state := do
  let p ← array_get st.source.tracks i
  let p := { p with state := 0 }
  let p := { p with a := BELOW_MIN_AMP }
  let p := { p with aenv := shift_envelope p.aenv p.a }
  let p := { p with fenv := shift_envelope p.fenv p.f }
  let ts ← array_set st.source.tracks i p
  pure { st with source := { st.source with tracks := ts }, death := st.death + 1 }

/-- The body of the loop `while (i < source->linked_tracks)` of
`update_source`. -/
def dying_harmonic (i : Nat) (st : update_state) : Except fault update_state := do
  let p ← array_get st.source.tracks i
  let p := { p with state := p.state - 1 }
  if p.state = -2 then
    match p.link with
    | none => .error .invalid_access
    | some l =>
      let tr ← array_set st.s.tracks l none
      let p := { p with link := none }
      let ts ← array_set st.source.tracks i p
      pure { st with s := { st.s with tracks := tr }, source := { st.source with tracks := ts },
                     links := st.links - 1 }
  else
    let p := { p with aenv := shift_envelope p.aenv (2 * p.aenv.x3 - p.aenv.x2) }
    let p := { p with fenv := shift_envelope p.fenv p.f }
    let ts ← array_set st.source.tracks i p
    pure { st with source := { st.source with tracks := ts } }

/-- The four track loops of `update_source`, from the label
`after_harmonic_scan` to the update of the two counters of the source. -/
def update_partials (c : libc) (g : globals) (s : sas_synthesizer_s) (source : sas_source_s)
    (harmonics active : Int) : Except fault update_state := do
  let st : update_state := { g := g, s := s, source := source, birth := 0, death := 0, links := 0 }
  let i : Nat := 0
  let st ← for_loop (continuing_harmonic c) (active - i).toNat i st
  let i := i + (active - i).toNat
  let st ← for_loop birth_of_harmonic (harmonics - i).toNat i st
  let i := i + (harmonics - i).toNat
  let st ← for_loop death_of_harmonic (source.active_tracks - i).toNat i st
  let i := i + (source.active_tracks - i).toNat
  let st ← for_loop dying_harmonic (source.linked_tracks - i).toNat i st
  pure st

/-- The source after the track loops of `update_source`: the two counters
are updated and the emission point moves one step in the circular buffer. -/
def step_source (st : update_state) : sas_source_s :=
  let source := { st.source with
    active_tracks := st.source.active_tracks + (st.birth - st.death) }
  let source := { source with linked_tracks := source.linked_tracks + st.links }
  { source with
    emission_index :=
      if source.emission_index = 0 then (MAX_PROPAGATED_FRAMES : Int) - 1
      else source.emission_index - 1 }

/-- The second part of `update_source`, from the label `after_harmonic_scan`
to the end. -/
def update_source_tracks (c : libc) (g : globals) (s : sas_synthesizer_s) (source : sas_source_s)
    (harmonics active : Int) : Except fault (globals × sas_synthesizer_s) := do
  let st ← update_partials c g s source harmonics active
  let source := step_source st
  let s := source_store st.s source
  if source.delayed_free ≠ 0 ∧ source.linked_tracks = 0 then
    sas_synthesizer_source_delayed_free c st.g s source.id
  else
    pure (st.g, s)

/-- The function `update_source`. -/
def update_source (c : libc) (g : globals) (s : sas_synthesizer_s) (source : Nat) :
    Except fault (globals × sas_synthesizer_s) := do
  let src ← source_load s source
  let r ← harmonic_scan c g s src
  update_source_tracks c r.g s r.source r.harmonics r.active

/-- The pointer `source->next`, `none` for `NULL`. -/
def source_next (s : sas_synthesizer_s) (source : Nat) : Except fault (Option Nat) :=
  match s.sources.dropWhile (fun x => x.id ≠ source) with
  | [] => .error .invalid_access
  | _ :: rest => .ok (rest.head?.map (fun x => x.id))

/-- The loop of `update_sources`; the first argument bounds the number of
steps by the number of sources.  `current->next` is read after
`update_source`, so it is an invalid access when that call has freed
`current`. -/
def update_sources_loop (c : libc) :
    Nat → Option Nat → globals → sas_synthesizer_s → Except fault (globals × sas_synthesizer_s)
  | _, none, g, s => .ok (g, s)
  | 0, some _, _, _ => .error .diverged
  | n + 1, some current, g, s => do
    let (g, s) ← update_source c g s current
    let nxt ← source_next s current
    update_sources_loop c n nxt g s

/-- The function `update_sources`. -/
def update_sources (c : libc) (g : globals) (s : sas_synthesizer_s) :
    Except fault (globals × sas_synthesizer_s) :=
  update_sources_loop c s.sources.length (s.sources.head?.map (fun x => x.id)) g s

/-- The amplitude `p->a` read through a pointer of `tracks2`; the array only
holds pointers that `update_tracks` has just read through. -/
def partial_amplitude (s : sas_synthesizer_s) (p : partial_t) : ℚ :=
  match partial_load s p with
  | .ok v => v.a
  | .error _ => 0

/-- The function `compare_amplitudes`, on the two pointers that `e1` and `e2`
point to. -/
def compare_amplitudes (s : sas_synthesizer_s) (p1 p2 : partial_t) : Int :=
  c_bool (partial_amplitude s p1 < partial_amplitude s p2) -
    c_bool (partial_amplitude s p2 < partial_amplitude s p1)

/-- The function `my_qsort` on the first `nmemb` cells of `tracks2`. -/
def my_qsort (c : libc) (s : sas_synthesizer_s) (nmemb : Nat) : sas_synthesizer_s :=
  { s with tracks2 :=
      (c.qsort (compare_amplitudes s) (s.tracks2.take nmemb).reduceOption).map some ++
        s.tracks2.drop nmemb }

/-- The synthesizer and the local variables `dst` and `closed_tracks` of
`update_tracks`. -/
structure tracks_state where
  s : sas_synthesizer_s
  dst : Nat
  closed_tracks : Int

/-- The body of the loop of `update_tracks`; `src` is `s->tracks + i`. -/
def compact_track (i : Nat) (st : tracks_state) : Except fault tracks_state := do
  let p ← array_get st.s.tracks i
  match p with
  | some p => do
    let v ← partial_load st.s p
    let s ←
      if v.a > BELOW_MIN_AMP then
        if st.s.audible_tracks < 0 then .error .invalid_access
        else do
          let t2 ← array_set st.s.tracks2 st.s.audible_tracks.toNat (some p)
          pure { st.s with tracks2 := t2, audible_tracks := st.s.audible_tracks + 1 }
      else pure st.s
    let tr ← array_set s.tracks st.dst (some p)
    let s := { s with tracks := tr }
    let s ← partial_store s p { v with link := some st.dst }
    pure { st with s := s, dst := st.dst + 1 }
  | none => pure { st with closed_tracks := st.closed_tracks + 1 }

/-- The function `update_tracks`. -/
def update_tracks (c : libc) (s : sas_synthesizer_s) : Except fault sas_synthesizer_s := do
  let s := { s with audible_tracks := 0 }
  let st ← for_loop compact_track s.active_tracks.toNat 0 { s := s, dst := 0, closed_tracks := 0 }
  let s := my_qsort c st.s st.s.audible_tracks.toNat
  pure { s with active_tracks := s.active_tracks - st.closed_tracks }

/-- The function `f2B`. -/
def f2B (c : libc) (f : ℚ) : ℚ :=
  if f ≤ 0 then MIN_BARK
  else if f ≤ 500 then f * 0.01
  else 9 + 4 * M_LOG2E * c.log (f * 0.001)

/-- The function `a2dB`. -/
def a2dB (c : libc) (amplitude : ℚ) : ℚ :=
  if amplitude ≤ MIN_AMP then MIN_DB else 20 * c.log10 amplitude

/-- The function `masking_partial_make`; it returns the position of the new
masking partial in the pool. -/
def masking_partial_make (c : libc) (s : sas_synthesizer_s) (p : partial_t) :
    Except fault (sas_synthesizer_s × Nat) := do
  let pool :=
    if s.pool.used = s.pool.allocated then
      { s.pool with
        allocated := s.pool.allocated + MAX_PARTIALS_PER_SYNTH
        partials := s.pool.partials ++ List.replicate MAX_PARTIALS_PER_SYNTH none }
    else s.pool
  if pool.used < 0 then .error .invalid_access
  else
    let mp := pool.used.toNat
    let v ← partial_load s p
    let src ← source_load s v.source
    let vdB_left := a2dB c (v.a * src.l_ratio)
    let vdB_right := a2dB c (v.a * src.r_ratio)
    let rec_ : masking_partial_s :=
      if vdB_left < vdB_right then
        { p := p, freqB := f2B c v.f, min_vdB := vdB_left, max_vdB := vdB_right }
      else
        { p := p, freqB := f2B c v.f, min_vdB := vdB_right, max_vdB := vdB_left }
    let ps ← array_set pool.partials mp (some rec_)
    pure ({ s with pool := { pool with partials := ps, used := pool.used + 1 } }, mp)

/-- The contribution of a neighbour `mp` of the mask to the threshold at
`new_mp`, with line coefficient `coeff`; `MIN_DB` without neighbour. -/
def mask_contribution (pool : pool_of_masking_partials_s) (coeff : ℚ) (new_mp : masking_partial_s)
    (mp : Option Nat) : Except fault ℚ :=
  match mp with
  | none => .ok MIN_DB
  | some m => do
    let n ← masking_partial_load pool m
    pure (coeff * (new_mp.freqB - n.freqB) + n.min_vdB - DB_DIFF)

/-- The function `add_partial_to_mask`. -/
def add_partial_to_mask (c : libc) (g : globals) (s : sas_synthesizer_s) (p : partial_t) :
    Except fault (globals × sas_synthesizer_s × Int) := do
  let (s, mp) ← masking_partial_make c s p
  let new_mp ← masking_partial_load s.pool mp
  let (g, mask) ← skip_list_insert c g s.mask s.pool mp
  let mp_lowf ← skip_list_previous mask
  let v_lowf ← mask_contribution s.pool RIGHT_LINE_COEFF new_mp mp_lowf
  let mp_highf ← skip_list_next mask
  let v_highf ← mask_contribution s.pool LEFT_LINE_COEFF new_mp mp_highf
  let v := MAX v_lowf v_highf
  let mask ← (if new_mp.min_vdB - DB_DIFF < v then skip_list_remove mask else .ok mask)
  pure (g, { s with mask := mask }, c_bool (new_mp.max_vdB > v))

/-- The function `reset_mask`. -/
def reset_mask (s : sas_synthesizer_s) : Except fault sas_synthesizer_s := do
  let mask ← skip_list_reset s.mask
  pure { s with mask := mask, pool := { s.pool with used := 0 } }

/-- The end of the body of the loop of `update_mask`: what is done with the
value `r` that `add_partial_to_mask` returned for the partial `p`. -/
def mark_masked (p : partial_t) (g : globals) (s : sas_synthesizer_s) (r : Int) :
    Except fault (globals × sas_synthesizer_s) :=
  if r = 0 then do
    let s := { s with masked_tracks := s.masked_tracks + 1 }
    let v ← partial_load s p
    let s ← partial_store s p { v with aenv := { v.aenv with x3 := BELOW_MIN_AMP } }
    pure (g, s)
  else .ok (g, s)

/-- The body of the loop of `update_mask`. -/
def mask_track (c : libc) (i : Nat) (st : globals × sas_synthesizer_s) :
    Except fault (globals × sas_synthesizer_s) := do
  let cell ← array_get st.2.tracks2 i
  match cell with
  | none => .error .invalid_access
  | some p => do
    let r ← add_partial_to_mask c st.1 st.2 p
    mark_masked p r.1 r.2.1 r.2.2

/-- The function `update_mask`. -/
def update_mask (c : libc) (g : globals) (s : sas_synthesizer_s) :
    Except fault (globals × sas_synthesizer_s) := do
  let s ← reset_mask s
  let s := { s with masked_tracks := 0 }
  let (g, s) ← for_loop (mask_track c) s.audible_tracks.toNat 0 (g, s)
  pure (g, { s with audible_tracks := s.audible_tracks - s.masked_tracks })

/-- The local variables of the sample loop of `partial_forward_synthesis`,
with the buffer it adds to. -/
structure oscillator_state where
  buffer : List ℚ
  l_a : ℚ
  r_a : ℚ
  r_exp : ℚ
  i_exp : ℚ

/-- The body of the loop of `partial_forward_synthesis`, for sample `i` of the
step. -/
def forward_sample (l_a_inc r_a_inc r_inc i_inc : ℚ) (offset : Nat) (i : Nat)
    (st : oscillator_state) : Except fault oscillator_state := do
  let b0 ← array_get st.buffer (offset + 2 * i)
  let buf ← array_set st.buffer (offset + 2 * i) (b0 + st.l_a * st.i_exp)
  let b1 ← array_get buf (offset + 2 * i + 1)
  let buf ← array_set buf (offset + 2 * i + 1) (b1 + st.r_a * st.i_exp)
  let r := st.r_exp
  pure { buffer := buf, l_a := st.l_a + l_a_inc, r_a := st.r_a + r_a_inc,
         r_exp := r * r_inc - st.i_exp * i_inc, i_exp := r * i_inc + st.i_exp * r_inc }

/-- The function `partial_forward_synthesis` (`USE_RESONATOR` is not
defined); `offset` is the position in the buffer that the argument `buffer`
points to, `l_ratio` and `r_ratio` are those of `p->source`. -/
def partial_forward_synthesis (c : libc) (l_ratio r_ratio : ℚ) (p : partial_s)
    (a a_next f : ℚ) (buffer : List ℚ) (offset : Nat) : Except fault (partial_s × List ℚ) := do
  let a_inc := (a_next - a) / (STEP_SAMPLES : ℚ)
  let l_a_inc := l_ratio * a_inc
  let r_a_inc := r_ratio * a_inc
  let omega := FREQCOEFF * f
  let r_inc := c.cos omega
  let i_inc := c.sin omega
  let st ← for_loop (forward_sample l_a_inc r_a_inc r_inc i_inc offset) STEP_SAMPLES 0
    { buffer := buffer, l_a := l_ratio * a, r_a := r_ratio * a, r_exp := p.v1, i_exp := p.v2 }
  pure ({ p with v1 := st.r_exp, v2 := st.i_exp }, st.buffer)

/-- The function `partial_fast_forward` (`USE_RESONATOR` is not defined). -/
def partial_fast_forward (c : libc) (p : partial_s) (f : ℚ) : partial_s :=
  let omega := (FREQCOEFF * (STEP_SAMPLES : ℚ)) * f
  let r_inc := c.cos omega
  let i_inc := c.sin omega
  let r := p.v1
  { p with v1 := r * r_inc - p.v2 * i_inc, v2 := r * i_inc + p.v2 * r_inc }

/-! ## sas_synthesizer.c: interface -/

/-- The function `sas_envelope_amplitude_threshold` of sas_envelope.c. -/
def sas_envelope_amplitude_threshold (c : libc) (g : globals) :
    Except fault (globals × sas_envelope_t) :=
  match g.amplitude_threshold with
  | some e => .ok (g, e)
  | none => do
    let values := (List.range SAS_ENVELOPE_STDSIZE).map (fun i =>
      let f := SAS_ENVELOPE_STDBASE * ((i : ℚ) + 1)
      let x := 0.001 * f
      let v := (3.64 * c.pow x (-0.8)) - (6.5 * c.exp (-0.6 * c.pow (x - 3.3) 2)) +
        (0.001 * c.pow x 4) - 119.3
      c.pow 10 (v * 0.05))
    let (g, e) := sas_envelope_make g SAS_ENVELOPE_STDBASE SAS_ENVELOPE_STDSIZE values
    let g := { g with amplitude_threshold := some e }
    let g ← envelope_lock g e
    let g ← sas_envelope_adjust_for_warp g e
    pure (g, e)

/-- The function `sas_synthesizer_make`; `tv_sec` is the time that
`skip_list_make` reads. -/
def sas_synthesizer_make (c : libc) (g : globals) (tv_sec : Nat) :
    Except fault (globals × sas_synthesizer_s) := do
  let (g, threshold) ← sas_envelope_amplitude_threshold c g
  let (g, mask) ← skip_list_make g tv_sec
  pure (g,
    { sources := []
      number_of_sources := 0
      amplitude_factor := 0
      allocated := MAX_PARTIALS_PER_SYNTH
      tracks := List.replicate MAX_PARTIALS_PER_SYNTH none
      active_tracks := 0
      masked_tracks := 0
      audible_tracks := 0
      threshold := threshold
      tracks2 := List.replicate MAX_PARTIALS_PER_SYNTH none
      mask := mask
      pool := { allocated := MAX_PARTIALS_PER_SYNTH
                partials := List.replicate MAX_PARTIALS_PER_SYNTH none
                used := 0 } })

/-- The loop of `sas_synthesizer_free`:
`while (s->sources != NULL) sas_synthesizer_source_delayed_free (s, s->sources);`. -/
def free_sources (c : libc) :
    Nat → globals → sas_synthesizer_s → Except fault (globals × sas_synthesizer_s)
  | 0, g, s =>
    match s.sources with
    | [] => .ok (g, s)
    | _ :: _ => .error .diverged
  | n + 1, g, s =>
    match s.sources with
    | [] => .ok (g, s)
    | src :: _ => do
      let (g, s) ← sas_synthesizer_source_delayed_free c g s src.id
      free_sources c n g s

/-- The function `sas_synthesizer_free`; the synthesizer is gone afterwards. -/
def sas_synthesizer_free (c : libc) (g : globals) (s : sas_synthesizer_s) : Except fault globals :=
  (free_sources c s.sources.length g s).bind (fun r => .ok r.1)

/-- The address that `malloc` gives to a new source: one that no source of
the synthesizer has. -/
def source_malloc (s : sas_synthesizer_s) : Nat :=
  (s.sources.map (fun x => x.id)).foldr max 0 + 1

/-- The function `sas_synthesizer_source_make`; `pos` is the position that
the argument points to, and the address of the new source is returned. -/
def sas_synthesizer_source_make (c : libc) (g : globals) (s : sas_synthesizer_s)
    (pos : sas_position_s) (update : sas_update_callback_t) (call_data : Nat) :
    Except fault (globals × sas_synthesizer_s × Nat) :=
  if call_data = 0 then .error .assertion
  else do
    let id := source_malloc s
    let (g, frames) ← for_loop (fun _ (st : globals × List sas_frame_s) => do
        let (g, f) ← sas_frame_make st.1
        pure (g, st.2 ++ [f]))
      MAX_PROPAGATED_FRAMES 0 (g, [])
    let distance := DISTANCE c pos.x pos.y pos.z
    let source : sas_source_s :=
      { id := id
        update := update
        call_data := call_data
        propagated_frames := frames
        emission_index := 0
        position := { x := pos.x, y := pos.y, z := pos.z }
        distance := distance
        cos_angle := if distance > 0 then pos.x / distance else 0
        doppler := 1
        l_ratio := 0
        r_ratio := 0
        tracks := []
        active_tracks := 0
        linked_tracks := 0
        delayed_free := 0 }
    let source := update_source_spatial_information c source
    let p : partial_s :=
      { source := id, link := none, a := 0, f := 440,
        aenv := { x0 := 0, x1 := 0, x2 := 0, x3 := 0 },
        fenv := { x0 := 440, x1 := 440, x2 := 440, x3 := 440 },
        state := 0, v1 := 0, v2 := 0 }
    let source := { source with
      tracks := List.replicate MAX_PARTIALS_PER_SOURCE p
      active_tracks := 0
      linked_tracks := 0
      delayed_free := 0 }
    let s := { s with sources := source :: s.sources }
    let s := { s with number_of_sources := s.number_of_sources + 1 }
    let s := { s with amplitude_factor := amplitude_factor_of c s.number_of_sources }
    pure (g, s, id)

/-- The envelopes that the first `MAX_PROPAGATED_FRAMES` frames of a source
hold, in the order in which `sas_synthesizer_source_delayed_free` releases
them: the color of a frame, then its warp. -/
def held_envelopes (frames : List sas_frame_s) : List sas_envelope_t :=
  ((frames.take MAX_PROPAGATED_FRAMES).map (fun f => [f.color, f.warp])).flatten

/-- Every envelope of the list is allocated, its counter is an `unsigned int`,
and unless the envelope is locked the counter is at least the number of its
occurrences in the list: each occurrence stands for a holder that has called
`sas_envelope_keep`. -/
def envelopes_held (g : globals) (refs : List sas_envelope_t) : Prop :=
  ∀ a ∈ refs, ∃ v, envelope_load g a = .ok v ∧ v.refcount < 2 ^ 32 ∧
    (v.lock ≠ 0 ∨ refs.count a ≤ v.refcount)

/-- The propagated frames of a source hold their envelopes, as they do from
`sas_frame_make` and `sas_frame_copy` on. -/
def frames_held (g : globals) (frames : List sas_frame_s) : Prop :=
  envelopes_held g (held_envelopes frames)

/-- The function `sas_synthesizer_source_free`. -/
def sas_synthesizer_source_free (c : libc) (g : globals) (s : sas_synthesizer_s) (source : Nat) :
    Except fault (globals × sas_synthesizer_s) := do
  let src ← source_load s source
  if src.delayed_free ≠ 0 then .error .assertion
  else if src.linked_tracks = 0 then
    sas_synthesizer_source_delayed_free c g s source
  else
    let frames ← for_loop (fun i (fs : List sas_frame_s) => do
        let f ← array_get fs i
        array_set fs i (sas_frame_set_amplitude f 0))
      MAX_PROPAGATED_FRAMES 0 src.propagated_frames
    pure (g, source_store s { src with propagated_frames := frames, delayed_free := 1 })

/-- The body of the loop over the interpolation steps in
`sas_synthesizer_synthesize`, for the step `step` of one partial: the state is
the partial and the output buffer. -/
def synthesize_step (c : libc) (l_ratio r_ratio : ℚ) (inta intf : Nat → ℚ) (step : Nat)
    (st : partial_s × List ℚ) : Except fault (partial_s × List ℚ) :=
  let a := inta step
  let a_next := inta (step + 1)
  let f := intf step
  if a < MIN_AMP ∧ a_next < MIN_AMP then
    .ok (partial_fast_forward c st.1 f, st.2)
  else
    partial_forward_synthesis c l_ratio r_ratio st.1 a a_next f st.2 (step * 2 * STEP_SAMPLES)

/-- The synthesis of one partial in `sas_synthesizer_synthesize`: the loop
over the interpolation steps, from step `step`, `n` steps being left. -/
def synthesize_steps (c : libc) (l_ratio r_ratio : ℚ) (inta intf : Nat → ℚ) :
    Nat → Nat → partial_s × List ℚ → Except fault (partial_s × List ℚ) :=
  for_loop (synthesize_step c l_ratio r_ratio inta intf)

/-- The array `inta` (resp. `intf`) that `sas_synthesizer_synthesize` fills
from the interpolation envelope `env` of a partial. -/
def interpolated (env : double4) (step : Nat) : ℚ :=
  if step = 0 then env.x1
  else if step < INTERPOLATION_STEPS then interpolate_value env step
  else env.x2

/-- The body of the loop of `sas_synthesizer_synthesize` over the active
tracks. -/
def synthesize_track (c : libc) (i : Nat) (st : sas_synthesizer_s × List ℚ) :
    Except fault (sas_synthesizer_s × List ℚ) := do
  let cell ← array_get st.1.tracks i
  match cell with
  | none => .error .invalid_access
  | some p => do
    let v ← partial_load st.1 p
    let src ← source_load st.1 v.source
    let (v, buffer) ← synthesize_steps c src.l_ratio src.r_ratio
      (interpolated v.aenv) (interpolated v.fenv) INTERPOLATION_STEPS 0 (v, st.2)
    let s ← partial_store st.1 p v
    pure (s, buffer)

/-- The function `sas_synthesizer_synthesize`. -/
def sas_synthesizer_synthesize (c : libc) (g : globals) (s : sas_synthesizer_s)
    (buffer : List ℚ) : Except fault (globals × sas_synthesizer_s × List ℚ) := do
  let buffer ← for_loop (fun i (b : List ℚ) => array_set b i 0) (2 * SAS_SAMPLES) 0 buffer
  let (g, s) ← update_sources c g s
  let s ← update_tracks c s
  let (g, s) ← update_mask c g s
  let (s, buffer) ← for_loop (synthesize_track c) s.active_tracks.toNat 0 (s, buffer)
  pure (g, s, buffer)

/-- The record `struct sas_synthesizer_statistics_s`. -/
structure sas_synthesizer_statistics_s where
  number_of_sources : Int
  number_of_active_tracks : Int
  number_of_masked_tracks : Int
  number_of_audible_tracks : Int
  deriving DecidableEq, Repr

/-- The function `sas_synthesizer_statistics`. -/
def sas_synthesizer_statistics (s : sas_synthesizer_s) : sas_synthesizer_statistics_s :=
  { number_of_sources := s.number_of_sources
    number_of_active_tracks := s.active_tracks
    number_of_masked_tracks := s.masked_tracks
    number_of_audible_tracks := s.audible_tracks }

/-! ## sas_frame.c: morphing and filtering -/

/-- The macro `MORPH(a,b,x)`: `pow ((a), 1.0 - (x)) * pow ((b), (x))`. -/
def MORPH (c : libc) (a b x : ℚ) : ℚ :=
  c.pow a (1 - x) * c.pow b x

/-- The body of the loop of `sas_frame_morphing`: cell `i` of the arrays
`cvalues` and `wvalues`. -/
def morph_values (c : libc) (g : globals) (C1 W1 C2 W2 : sas_envelope_t) (coeff : ℚ) (i : Nat)
    (st : List ℚ × List ℚ) : Except fault (List ℚ × List ℚ) := do
  let frequency := SAS_ENVELOPE_STDBASE * (((i : Int) + 1 : Int) : ℚ)
  let c1 ← sas_envelope_get_value_inline g C1 frequency
  let c2 ← sas_envelope_get_value_inline g C2 frequency
  let cvalues ← array_set st.1 i (MORPH c c1 c2 coeff)
  let w1 ← sas_envelope_get_value_inline g W1 frequency
  let w2 ← sas_envelope_get_value_inline g W2 frequency
  let wvalues ← array_set st.2 i (MORPH c w1 w2 coeff)
  pure (cvalues, wvalues)

/-- The function `sas_frame_morphing`; the two local arrays start with
arbitrary contents, here zeros, and every cell is written by the loop. -/
def sas_frame_morphing (c : libc) (g : globals) (dest f1 f2 : sas_frame_s) (coeff : ℚ) :
    Except fault (globals × sas_frame_s) :=
  if ¬ (0 ≤ coeff ∧ coeff ≤ 1) then .error .assertion
  else do
    let dest := { dest with
      amplitude := MORPH c f1.amplitude f2.amplitude coeff
      frequency := MORPH c f1.frequency f2.frequency coeff }
    let C1 := sas_frame_get_color f1
    let W1 := sas_frame_get_warp f1
    let C2 := sas_frame_get_color f2
    let W2 := sas_frame_get_warp f2
    let values ← for_loop (morph_values c g C1 W1 C2 W2 coeff) SAS_ENVELOPE_STDSIZE 0
      (List.replicate SAS_ENVELOPE_STDSIZE 0, List.replicate SAS_ENVELOPE_STDSIZE 0)
    let gC := sas_envelope_make g SAS_ENVELOPE_STDBASE SAS_ENVELOPE_STDSIZE values.1
    let gW := sas_envelope_make gC.1 SAS_ENVELOPE_STDBASE SAS_ENVELOPE_STDSIZE values.2
    let g ← sas_envelope_adjust_for_color gW.1 gC.2
    let g ← sas_envelope_adjust_for_warp g gW.2
    let r ← sas_frame_set_color g dest gC.2
    sas_frame_set_warp r.1 r.2 gW.2

/-- The body of the loop of `sas_frame_filter`: cell `i` of the array
`cvalues`. -/
def filter_values (g : globals) (Cf Cfilter : sas_envelope_t) (i : Nat) (cvalues : List ℚ) :
    Except fault (List ℚ) := do
  let frequency := SAS_ENVELOPE_STDBASE * (((i : Int) + 1 : Int) : ℚ)
  let a ← sas_envelope_get_value_inline g Cf frequency
  let b ← sas_envelope_get_value_inline g Cfilter frequency
  array_set cvalues i (a * b)

/-- The function `sas_frame_filter`. -/
def sas_frame_filter (g : globals) (dest f filter : sas_frame_s) :
    Except fault (globals × sas_frame_s) := do
  let dest := { dest with amplitude := f.amplitude, frequency := f.frequency }
  let Cf := sas_frame_get_color f
  let Cfilter := sas_frame_get_color filter
  let cvalues ← for_loop (filter_values g Cf Cfilter) SAS_ENVELOPE_STDSIZE 0
    (List.replicate SAS_ENVELOPE_STDSIZE 0)
  let gC := sas_envelope_make g SAS_ENVELOPE_STDBASE SAS_ENVELOPE_STDSIZE cvalues
  let g ← sas_envelope_adjust_for_color gC.1 gC.2
  let r ← sas_frame_set_color g dest gC.2
  sas_frame_set_warp r.1 r.2 (sas_frame_get_warp f)

/-! ## sas_file_partial.c, sas_file_spectral.c -/

/-- The record `struct sas_file_partial_s`, with the fields that
`sas_file_partial_make` sets; each of the three arrays is the block of
`allocated` cells that it allocates. -/
structure sas_file_partial_s where
  start : Int
  length : Int
  allocated : Int
  frequency : List ℚ
  amplitude : List ℚ
  phase : List ℚ
  deriving DecidableEq, Repr

/-- The function `sas_file_partial_make`. -/
def sas_file_partial_make (birth_time allocated : Int) : Except fault sas_file_partial_s :=
  if ¬ (birth_time ≥ 0 ∧ allocated ≥ 0) then .error .assertion
  else
    .ok { start := birth_time
          length := allocated
          allocated := allocated
          frequency := List.replicate allocated.toNat 0
          amplitude := List.replicate allocated.toNat 0
          phase := List.replicate allocated.toNat 0 }

/-- The record `struct sas_file_spectral_s`.  The array `tracks` holds the
partials that were added; a cell that has not been written yet is `none`. -/
structure sas_file_spectral_s where
  filename : Option String
  rate : ℚ
  tracks : List (Option sas_file_partial_s)
  allocated : Int
  used : Int
  t_min : Int
  t_max : Int
  deriving DecidableEq, Repr

/-- The function `sas_file_spectral_number_of_frames`. -/
def sas_file_spectral_number_of_frames (sp : sas_file_spectral_s) : Int :=
  sp.t_max - sp.t_min

def MAX_NUMBER_OF_PARTIALS : Nat := 1024

/-- The function `modf` of math.h: the fractional part and the integral part
of `x`, each with the sign of `x`. -/
def modf (x : ℚ) : ℚ × ℚ :=
  (x - (c_int x : ℚ), (c_int x : ℚ))

/-- The statements `fp = modf (x, &ip); if (fp >= 0.5) { ip += 1; fp -= 1; }`
of `sas_file_spectral_get_frame`: the values of `fp` and `ip` after them. -/
def modf_nearest (x : ℚ) : ℚ × ℚ :=
  let (fp, ip) := modf x
  if fp ≥ 0.5 then (fp - 1, ip + 1) else (fp, ip)

/-- Read of `sp->tracks[i]` and of the partial it points to. -/
def track_load (sp : sas_file_spectral_s) (i : Nat) : Except fault sas_file_partial_s := do
  match ← array_get sp.tracks i with
  | some p => pure p
  | none => .error .invalid_access

/-- Read of cell `i` of an array of a partial, for an index of type `int`. -/
def sample_get (xs : List ℚ) (i : Int) : Except fault ℚ :=
  if i < 0 then .error .invalid_access else array_get xs i.toNat

/-- The body of the first loop of `sas_file_spectral_get_frame`, which updates
`f_min` and `f_max`, for the partial `i` at time `t`. -/
def frequency_bounds (sp : sas_file_spectral_s) (t : Int) (i : Nat) (st : ℚ × ℚ) :
    Except fault (ℚ × ℚ) := do
  let (f_min, f_max) := st
  let p ← track_load sp i
  if p.start ≤ t ∧ t < p.start + p.length then
    let f ← sample_get p.frequency (t - p.start)
    let f_min := if f < f_min then f else f_min
    let f_max := if f > f_max then f else f_max
    pure (f_min, f_max)
  else pure (f_min, f_max)

/-- The block `Find out fundamental and number of harmonics` of
`sas_file_spectral_get_frame`: the values of `fundamental` and `harmonics`
after it. -/
def find_fundamental (sp : sas_file_spectral_s) (n : Int) : Except fault (ℚ × Int) := do
  let t := sp.t_min + n
  let (f_min, f_max) ← for_loop (frequency_bounds sp t) sp.used.toNat 0
    (SAS_MAX_AUDIBLE_FREQUENCY, 0)
  if ¬ (f_min > 0) then .error .assertion
  else
    let (_, ip) := modf_nearest (f_max / f_min)
    pure (f_min, c_int ip)

/-- The three arrays of `sas_file_spectral_get_frame` and its variables
`frequency` and `coefficient`. -/
structure harmonics_state where
  amplitudes : List ℚ
  frequencies : List ℚ
  coefficients : List Int
  frequency : ℚ
  coefficient : ℚ
  deriving DecidableEq, Repr

/-- The body of the loop `Zero arrays`. -/
def zero_cell (i : Nat) (st : harmonics_state) : Except fault harmonics_state := do
  let amplitudes ← array_set st.amplitudes i 0
  let frequencies ← array_set st.frequencies i 0
  let coefficients ← array_set st.coefficients i 0
  pure { st with amplitudes := amplitudes, frequencies := frequencies,
                 coefficients := coefficients }

/-- The body of the loop `Scan partials` of `sas_file_spectral_get_frame`, for
the partial `i` at time `t`. -/
def scan_file_track (sp : sas_file_spectral_s) (t : Int) (fundamental : ℚ) (harmonics : Int)
    (i : Nat) (st : harmonics_state) : Except fault harmonics_state := do
  let p ← track_load sp i
  if p.start ≤ t ∧ t < p.start + p.length then
    let f ← sample_get p.frequency (t - p.start)
    let (_, ip) := modf_nearest (f / fundamental)
    let h : Int := c_int ip - 1
    if ¬ (h < harmonics) then .error .assertion
    else if h < 0 then .error .invalid_access
    else
      let ah ← array_get st.amplitudes h.toNat
      let a ← sample_get p.amplitude (t - p.start)
      if ah < a then
        let amplitudes ← array_set st.amplitudes h.toNat a
        let fh ← array_get st.frequencies h.toNat
        let frequency := st.frequency - fh
        let ch ← array_get st.coefficients h.toNat
        let coefficient := st.coefficient - ch
        let frequencies ← array_set st.frequencies h.toNat f
        let coefficients ← array_set st.coefficients h.toNat (c_int ip)
        let frequency := frequency + f
        let coefficient := coefficient + c_int ip
        pure { amplitudes := amplitudes, frequencies := frequencies,
               coefficients := coefficients, frequency := frequency,
               coefficient := coefficient }
      else pure st
  else pure st

/-- The body of the loop that adds up the amplitudes. -/
def add_amplitude (amplitudes : List ℚ) (i : Nat) (A : ℚ) : Except fault ℚ := do
  let a ← array_get amplitudes i
  pure (A + a)

/-- The function `sas_file_spectral_get_frame`.  The three arrays are on the
stack with `MAX_NUMBER_OF_PARTIALS` cells each; C does not say what they hold
at first, the model starts them with zeros.  The message on `stderr` is left
out. -/
def sas_file_spectral_get_frame (g : globals) (sp : sas_file_spectral_s) (dest : sas_frame_s)
    (n : Int) : Except fault (globals × sas_frame_s) := do
  let length := sp.t_max - sp.t_min
  if ¬ (n < length) then .error .assertion
  else
    let (fundamental, harmonics) ← find_fundamental sp n
    let harmonics : Int :=
      if harmonics > MAX_NUMBER_OF_PARTIALS then MAX_NUMBER_OF_PARTIALS else harmonics
    let t := sp.t_min + n
    let st : harmonics_state :=
      { amplitudes := List.replicate MAX_NUMBER_OF_PARTIALS 0
        frequencies := List.replicate MAX_NUMBER_OF_PARTIALS 0
        coefficients := List.replicate MAX_NUMBER_OF_PARTIALS 0
        frequency := 0
        coefficient := 0 }
    let st ← for_loop zero_cell harmonics.toNat 0 st
    let st ← for_loop (scan_file_track sp t fundamental harmonics) sp.used.toNat 0 st
    let frequency := st.frequency / st.coefficient
    let fundamental := frequency
    let A ← for_loop (add_amplitude st.amplitudes) harmonics.toNat 0 0
    let A := if A > 1 then 1 else A
    let dest := sas_frame_set_amplitude dest A
    let dest := sas_frame_set_frequency dest fundamental
    let (g, C) := sas_envelope_make g fundamental harmonics st.amplitudes
    let g ← sas_envelope_adjust_for_color g C
    sas_frame_set_color g dest C

/-! ## Predicates of the statements -/

/-- The partial `v` without its back-pointer. -/
def without_link (v : partial_s) : partial_s := { v with link := none }

/-- The non-`NULL` entries among the first `n` cells of an array of pointers
to partials, in the order of the array. -/
def live_entries (tracks : List (Option partial_t)) (n : Nat) : List partial_t :=
  (tracks.take n).reduceOption

/-- A comparison function is a consistent ordering: antisymmetric and
transitive. -/
def consistent_ordering (compar : partial_t → partial_t → Int) : Prop :=
  (∀ a b, compar a b = -compar b a) ∧
    (∀ a b d, compar a b ≤ 0 → compar b d ≤ 0 → compar a d ≤ 0)

/-- The contract of `qsort`: called with a consistent ordering, it leaves a
rearrangement of the array in which no element is after one it compares
greater than. -/
def qsort_contract (c : libc) : Prop :=
  ∀ (compar : partial_t → partial_t → Int) (xs : List partial_t), consistent_ordering compar →
    (c.qsort compar xs).Perm xs ∧ (c.qsort compar xs).Pairwise (fun a b => compar a b ≤ 0)

/-- The state of the loop of `update_tracks` before it reads cell `i`, in
terms of the synthesizer `s` the loop started from. -/
structure compact_inv (s : sas_synthesizer_s) (i : Nat) (st : tracks_state) : Prop where
  len : st.s.tracks.length = s.tracks.length
  dst_eq : st.dst = (live_entries s.tracks i).length
  head : st.s.tracks.take st.dst = (live_entries s.tracks i).map some
  tail : st.s.tracks.drop i = s.tracks.drop i
  closed : st.closed_tracks = (i : Int) - (st.dst : Int)
  same : ∀ p, (partial_load st.s p).map without_link = (partial_load s p).map without_link
  links : ∀ j p, (live_entries s.tracks i)[j]? = some p →
    (partial_load st.s p).map (fun v => v.link) = .ok (some j)
  len2 : st.s.tracks2.length = s.tracks2.length
  aud : ∃ k : Nat, st.s.audible_tracks = (k : Int) ∧
    k = ((live_entries s.tracks i).filter
      (fun p => decide (partial_amplitude s p > BELOW_MIN_AMP))).length ∧
    st.s.tracks2.take k = ((live_entries s.tracks i).filter
      (fun p => decide (partial_amplitude s p > BELOW_MIN_AMP))).map some
  active : st.s.active_tracks = s.active_tracks

/-- The walk along the level-0 chain of a skip list from the cell `a`, which
collects the stored pointers up to `NIL`. -/
def chain_from (sl : skip_list_s) : Nat → Nat → Except fault (List Nat)
  | 0, _ => .error .diverged
  | fuel + 1, a =>
    if a = sl.NIL then .ok []
    else do
      let c ← cell_load sl a
      let nxt ← fwps_get sl a 0
      let rest ← chain_from sl fuel nxt
      match c.data with
      | some d => pure (d :: rest)
      | none => pure rest

/-- The masking partials stored in the mask index, in the order of its level-0
chain. -/
def mask_elements (sl : skip_list_s) : Except fault (List Nat) :=
  chain_from sl (sl.cell_pool.length + 1) sl.header

/-- The value that `add_partial_to_mask` returns for the track `tracks2[i]` in
`update_mask`: the mask is reset, the loop runs for the `i` tracks before it,
and the track is added. -/
def mask_verdict (c : libc) (g : globals) (s : sas_synthesizer_s) (i : Nat) : Except fault Int := do
  let s ← reset_mask s
  let s := { s with masked_tracks := 0 }
  let (g, s) ← for_loop (mask_track c) i 0 (g, s)
  let cell ← array_get s.tracks2 i
  match cell with
  | none => .error .invalid_access
  | some p => do
    let (_, _, r) ← add_partial_to_mask c g s p
    pure r

/-- The synthesizer `s` with another secondary array and another count of
audible tracks. -/
def with_tracks2 (t : List (Option partial_t)) (k : Int) (s : sas_synthesizer_s) :
    sas_synthesizer_s :=
  { s with tracks2 := t, audible_tracks := k }

/-- What the four track loops of `update_source` leave alone: every field of
the source but its partials, every field of the synthesizer but the
active-track array and its counter, and the memory but the state of the random
generator. -/
structure loops_frame (st st1 : update_state) : Prop where
  source_fields : { st1.source with tracks := [] } = { st.source with tracks := [] }
  tracks_length : st1.source.tracks.length = st.source.tracks.length
  synth_fields : { st1.s with tracks := [], active_tracks := 0 } =
    { st.s with tracks := [], active_tracks := 0 }
  slots_length : st1.s.tracks.length = st.s.tracks.length
  memory : { st1.g with random_state := 0 } = { st.g with random_state := 0 }

/-- The target amplitude and frequency of a partial. -/
def targets (p : partial_s) : ℚ × ℚ := (p.a, p.f)

/-- The partial `p` without its target amplitude and frequency: what the
harmonic scan of `update_source` leaves alone in a partial. -/
def lifecycle (p : partial_s) : partial_s := { p with a := 0, f := 0 }

/-- What the harmonic scan of `update_source` keeps of the source `src`, and
the range of the counts it computes. -/
def scan_keeps (src : sas_source_s) (r : scan_result) : Prop :=
  r.source.id = src.id ∧ r.source.update = src.update ∧
    r.source.call_data = src.call_data ∧ r.source.emission_index = src.emission_index ∧
    r.source.active_tracks = src.active_tracks ∧
    r.source.linked_tracks = src.linked_tracks ∧
    r.source.delayed_free = src.delayed_free ∧
    r.source.tracks.map lifecycle = src.tracks.map lifecycle ∧
    0 ≤ r.harmonics ∧ r.harmonics ≤ MAX_PARTIALS_PER_SOURCE ∧
    (r.active = MIN r.harmonics src.active_tracks ∨ (r.harmonics = 0 ∧ r.active = 0) ∨
      (r.harmonics = 0 ∧ r.active = src.active_tracks))

/-- A call that a holder of an envelope makes on it: `sas_envelope_keep` or
`sas_envelope_free`. -/
inductive envelope_call where
  | keep
  | free
  deriving DecidableEq, Repr

/-- A client that makes the calls `calls`, in order, on the envelope `e`. -/
def envelope_calls (e : sas_envelope_t) : List envelope_call → globals → Except fault globals
  | [], g => .ok g
  | .keep :: cs, g => (sas_envelope_keep g e).bind (envelope_calls e cs)
  | .free :: cs, g => (sas_envelope_free g e).bind (envelope_calls e cs)

/-- The number of holders after the calls `calls`, from `n` holders. -/
def count_after : Nat → List envelope_call → Nat
  | n, [] => n
  | n, .keep :: cs => count_after (n + 1) cs
  | n, .free :: cs => count_after (n - 1) cs

/-- From `n` holders, no call of `calls` is a release by the last holder, and
the number of holders stays below `2 ^ 32`. -/
def counts_live : Nat → List envelope_call → Bool
  | _, [] => true
  | n, .keep :: cs => decide (n + 1 < 2 ^ 32) && counts_live (n + 1) cs
  | n, .free :: cs => decide (2 ≤ n) && counts_live (n - 1) cs

/-- The number of the fields `color` and `warp` of the frames `dest` and `f`
that hold the envelope `a`. -/
def holders (dest f : sas_frame_s) (a : sas_envelope_t) : Nat :=
  (if dest.color = a then 1 else 0) + (if dest.warp = a then 1 else 0) +
    (if f.color = a then 1 else 0) + (if f.warp = a then 1 else 0)

/-- The memory `g1` is the memory `g` after a holder of the envelope `old` has
taken the envelope `e` instead: nothing has changed when they are the same
envelope; otherwise the counter of `e` is one more, the counter of `old` is one
less, or `old` is destroyed when that makes it 0 and `old` is unlocked, and no
other envelope has changed. -/
def reference_moved (g g1 : globals) (old e : sas_envelope_t) : Prop :=
  if old = e then g1 = g
  else
    (∃ vo ve, envelope_load g old = .ok vo ∧ envelope_load g e = .ok ve ∧
      envelope_load g1 e = .ok { ve with refcount := ve.refcount + 1 } ∧
      (if vo.refcount = 1 ∧ vo.lock = 0 then envelope_load g1 old = .error .invalid_access
        else envelope_load g1 old = .ok { vo with refcount := vo.refcount - 1 })) ∧
    ∀ q, q ≠ old → q ≠ e → envelope_load g1 q = envelope_load g q

/-- The value that a call returns, 0 for a call that does not return. -/
def returned (x : Except fault ℚ) : ℚ :=
  match x with
  | .ok v => v
  | .error _ => 0

/-- The envelope at the address `a` is allocated, its size is not negative and
its block has the `2 + size + 2` cells that `sas_envelope_make` gives it. -/
def well_formed (g : globals) (a : sas_envelope_t) : Prop :=
  ∃ v, envelope_load g a = .ok v ∧ 0 ≤ v.size ∧ v.cells.length = (v.size + 4).toNat

/-- The frame `dest` is a holder of its two envelopes: both are allocated,
their counters are at least 1, and at least 2 for an envelope that is both the
color and the warp of the frame. -/
def holds_envelopes (g : globals) (dest : sas_frame_s) : Prop :=
  ∃ vc vw, envelope_load g dest.color = .ok vc ∧ envelope_load g dest.warp = .ok vw ∧
    1 ≤ vc.refcount ∧ 1 ≤ vw.refcount ∧ vc.refcount < 2 ^ 32 ∧ vw.refcount < 2 ^ 32 ∧
    (dest.color = dest.warp → 2 ≤ vc.refcount)

/-- The grid frequency `SAS_ENVELOPE_STDBASE * (i + 1)` of the loops of
sas_frame.c. -/
def grid_frequency (i : Nat) : ℚ :=
  SAS_ENVELOPE_STDBASE * (((i : Int) + 1 : Int) : ℚ)

/-- The loudness factor of the synthesizer `s` is the one of its number of
sources: 0 for no source, `1 / (log (n) * (1 / M_LN2) + 1)` for `n >= 1`
sources. -/
def loudness_invariant (c : libc) (s : sas_synthesizer_s) : Prop :=
  (s.number_of_sources = 0 → s.amplitude_factor = 0) ∧
    (1 ≤ s.number_of_sources →
      s.amplitude_factor = 1 / (c.log (s.number_of_sources : ℚ) * (1 / M_LN2) + 1))

/-- The partial `v1` is the partial `v` but for the newest entry `aenv[3]` of
its amplitude history, which is the one of `v` or `BELOW_MIN_AMP`. -/
def only_newest_amplitude (v v1 : partial_s) : Prop :=
  v1 = { v with aenv := { v.aenv with x3 := v1.aenv.x3 } } ∧
    (v1.aenv.x3 = v.aenv.x3 ∨ v1.aenv.x3 = BELOW_MIN_AMP)

/-- The number of the tracks `tracks2[i]`, `i < n`, for which
`add_partial_to_mask` returns 0 in `update_mask`. -/
def masked_count (c : libc) (g : globals) (s : sas_synthesizer_s) (n : Nat) : Nat :=
  ((List.range n).filter (fun i => decide (mask_verdict c g s i = .ok 0))).length

/-- What the loop of `update_mask` has done after `j` tracks, from the state
`sR` that follows the reset of the mask. -/
structure mask_progress (c : libc) (g : globals) (s sR : sas_synthesizer_s) (j : Nat)
    (st : globals × sas_synthesizer_s) : Prop where
  reach : for_loop (mask_track c) j 0 (g, sR) = .ok st
  fields : st.2.tracks = sR.tracks ∧ st.2.tracks2 = sR.tracks2 ∧
    st.2.active_tracks = sR.active_tracks ∧ st.2.audible_tracks = sR.audible_tracks
  count : st.2.masked_tracks = masked_count c g s j
  partials : ∀ q v, partial_load sR q = .ok v →
    ∃ v1, partial_load st.2 q = .ok v1 ∧ only_newest_amplitude v v1
  marked : ∀ i p, i < j → sR.tracks2[i]? = some (some p) → mask_verdict c g s i = .ok 0 →
    ∃ v1, partial_load st.2 p = .ok v1 ∧ v1.aenv.x3 = BELOW_MIN_AMP
  others : ∀ q, partial_load st.2 q ≠ partial_load sR q →
    ∃ i, i < j ∧ sR.tracks2[i]? = some (some q) ∧ mask_verdict c g s i = .ok 0

/-- In the state `t` of the track loops of `update_source`, started on the
synthesizer `s` for the source `id`, the partial `i` of the source is linked to
slot `l` with state counter `σ`, and every slot of the active-track array that
points to it did so in `s`. -/
def linked_at (s : sas_synthesizer_s) (id i l : Nat) (σ : Int) (t : update_state) : Prop :=
  t.source.id = id ∧ (∃ q, t.source.tracks[i]? = some q ∧ q.link = some l ∧ q.state = σ) ∧
    ∀ k : Nat, t.s.tracks[k]? = some (some (partial_t.mk id i)) →
      s.tracks[k]? = some (some (partial_t.mk id i))

/-- Every active partial of the source that is not linked has the state
counter 0 or 1: it was born in the last block or in the one before. -/
def young_unlinked (src : sas_source_s) : Prop :=
  0 ≤ src.active_tracks ∧
    ∀ (i : Nat) (p : partial_s), (i : Int) < src.active_tracks → src.tracks[i]? = some p →
      p.link = none → p.state = 0 ∨ p.state = 1

/-- The first loop of `update_source`, run on the synthesizer `s` for the
source `source` with `active` continuing harmonics, skips an insertion for
lack of capacity: it reaches a harmonic `i` that is unlinked and enters state
2 while the active-track array is full. -/
def insertion_skipped (c : libc) (g : globals) (s : sas_synthesizer_s) (source : sas_source_s)
    (active : Int) : Prop :=
  ∃ (i : Nat) (st : update_state) (p : partial_s), (i : Int) < active ∧
    for_loop (continuing_harmonic c) i 0
      { g := g, s := s, source := source, birth := 0, death := 0, links := 0 } = .ok st ∧
    st.source.tracks[i]? = some p ∧ p.link = none ∧ p.state + 1 = 2 ∧
    ¬ st.s.active_tracks < st.s.allocated

/-- The numbers of iterations of the four track loops of `update_source`, for
`harmonics` harmonics found and `active` continuing ones. -/
def loop_counts (source : sas_source_s) (harmonics active : Int) : Nat × Nat × Nat × Nat :=
  let n1 := active.toNat
  let n2 := (harmonics - n1).toNat
  let n3 := (source.active_tracks - (n1 + n2 : Nat)).toNat
  let n4 := (source.linked_tracks - (n1 + n2 + n3 : Nat)).toNat
  (n1, n2, n3, n4)

/-- Every source of the synthesizer satisfies `young_unlinked`. -/
def all_young_unlinked (s : sas_synthesizer_s) : Prop :=
  ∀ id src, source_load s id = .ok src → young_unlinked src

/-- Every source of `s1` is a source of `s` with other partials, and every
partial of `s1` is at the same place in `s`, the two being related by `R`. -/
def partials_follow (R : partial_s → partial_s → Prop) (s s1 : sas_synthesizer_s) : Prop :=
  (∀ id src1, source_load s1 id = .ok src1 →
    ∃ src, source_load s id = .ok src ∧ { src1 with tracks := [] } = { src with tracks := [] }) ∧
  (∀ q v1, partial_load s1 q = .ok v1 → ∃ v, partial_load s q = .ok v ∧ R v v1)

/-- The partial `v1` is the partial `v`, or `v` linked to a slot. -/
def relinked (v v1 : partial_s) : Prop :=
  v1 = v ∨ ∃ l, v1 = { v with link := some l }

/-- The partial `v1` is the partial `v` with another phase state. -/
def rotated (v v1 : partial_s) : Prop :=
  { v1 with v1 := 0, v2 := 0 } = { v with v1 := 0, v2 := 0 }

/-- The shape of the partials of a source between two blocks, for a young
boundary `b` and a dying boundary `d`: the linked partials are those below
`linked_tracks`; the unlinked partials below `active_tracks` have state 1 below
`b` and state 0 from `b` on; the linked partials from `active_tracks` on have
state 0 below `d` and state -1 from `d` on. -/
structure lifecycle_inv (src : sas_source_s) (b d : Int) : Prop where
  active_nonneg : 0 ≤ src.active_tracks
  linked_nonneg : 0 ≤ src.linked_tracks
  prefix_linked : ∀ (i : Nat) (p : partial_s), src.tracks[i]? = some p →
    (p.link ≠ none ↔ (i : Int) < src.linked_tracks)
  young : ∀ (i : Nat) (p : partial_s), src.tracks[i]? = some p →
    src.linked_tracks ≤ (i : Int) → (i : Int) < src.active_tracks →
    ((i : Int) < b → p.state = 1) ∧ (b ≤ (i : Int) → p.state = 0)
  dying : ∀ (i : Nat) (p : partial_s), src.tracks[i]? = some p →
    src.active_tracks ≤ (i : Int) → (i : Int) < src.linked_tracks →
    ((i : Int) < d → p.state = 0) ∧ (d ≤ (i : Int) → p.state = -1)

/-- An element of the mask index as the invariant of the skip list sees it: the
place of its cell in the pool, the number of its forward pointers and the
masking partial it stores. -/
structure index_cell where
  place : Nat
  height : Nat
  data : Nat
  deriving DecidableEq, Repr

/-- The frequency in Bark of the masking partial `d` of the pool, by which the
index is ordered. -/
def key_of (pool : pool_of_masking_partials_s) (d : Nat) : ℚ :=
  match masking_partial_load pool d with
  | .ok mp => mp.freqB
  | .error _ => 0

/-- The forward pointers of level `i` lead from the cell at `x` through the
cells of `rest` that have more than `i` forward pointers, in order, to NIL. -/
def chained (sl : skip_list_s) (i : Nat) : Nat → List index_cell → Prop
  | x, [] => fwps_get sl x i = .ok sl.NIL
  | x, c :: rest =>
    if i < c.height then fwps_get sl x i = .ok c.place ∧ chained sl i c.place rest
    else chained sl i x rest

/-- The backward pointers lead from NIL through the cells of `rest`, in
reverse order, to the cell at `x`. -/
def back_chained (sl : skip_list_s) : Nat → List index_cell → Prop
  | x, [] => prev_get sl sl.NIL = .ok x
  | x, c :: rest => prev_get sl c.place = .ok x ∧ back_chained sl c.place rest

/-- The last cell of `pre` with more than `i` forward pointers, and `x` when
there is none. -/
def pred_at (i : Nat) : Nat → List index_cell → Nat
  | x, [] => x
  | x, c :: rest => pred_at i (if i < c.height then c.place else x) rest

/-- The first cell of `post` with more than `i` forward pointers, and `nil`
when there is none. -/
def first_at (nil : Nat) (i : Nat) : List index_cell → Nat
  | [] => nil
  | c :: rest => if i < c.height then c.place else first_at nil i rest

/-- The cell `c` is in the pool of `sl`, away from NIL, with its forward
pointers allocated and its masking partial in `pool`. -/
def cell_known (sl : skip_list_s) (pool : pool_of_masking_partials_s) (c : index_cell) : Prop :=
  c.place ≠ sl.NIL ∧
    (∃ v, cell_load sl c.place = .ok v ∧ v.fwps.length = c.height ∧ v.data = some c.data) ∧
    ∃ mp, masking_partial_load pool c.data = .ok mp

/-- The skip list `t` is the skip list `sl` with other pointers in its cells:
it has the cells of `sl`, with as many forward pointers and the same data, and
the other fields of `sl`. -/
structure same_cells (sl t : skip_list_s) : Prop where
  level : t.level = sl.level
  header : t.header = sl.header
  nil : t.NIL = sl.NIL
  update : t.update = sl.update
  top : t.cell_pool_top = sl.cell_pool_top
  initial : t.initial_cell_pool_top = sl.initial_cell_pool_top
  cells : ∀ b w, cell_load sl b = .ok w →
    ∃ w1, cell_load t b = .ok w1 ∧ w1.fwps.length = w.fwps.length ∧ w1.data = w.data

/-- The invariant of the skip list `sl` that indexes masking partials of
`pool`: the index holds the cells `pre ++ post`, in this order, and the array
`update` designates the place between `pre` and `post`. -/
structure index_inv (sl : skip_list_s) (pool : pool_of_masking_partials_s)
    (pre post : List index_cell) : Prop where
  header_ne : sl.header ≠ sl.NIL
  header_cell : ∃ v, cell_load sl sl.header = .ok v ∧ v.fwps.length = SKIP_LIST_MAX_LEVEL
  nil_cell : ∃ v, cell_load sl sl.NIL = .ok v
  base : sl.header < sl.initial_cell_pool_top ∧ sl.NIL < sl.initial_cell_pool_top ∧
    sl.initial_cell_pool_top ≤ sl.cell_pool_top
  update_length : sl.update.length = SKIP_LIST_MAX_LEVEL
  level_range : 0 ≤ sl.level ∧ sl.level ≤ SKIP_LIST_MAX_LEVEL
  places : ((pre ++ post).map (fun c => c.place)).Nodup
  cells : ∀ c ∈ pre ++ post, sl.initial_cell_pool_top ≤ c.place ∧ c.place < sl.cell_pool_top ∧
    1 ≤ c.height ∧ (c.height : Int) ≤ sl.level ∧
    (∃ v, cell_load sl c.place = .ok v ∧ v.fwps.length = c.height ∧ v.data = some c.data) ∧
    ∃ mp, masking_partial_load pool c.data = .ok mp
  chains : ∀ i, i < SKIP_LIST_MAX_LEVEL → chained sl i sl.header (pre ++ post)
  back : back_chained sl sl.header (pre ++ post)
  sorted : ((pre ++ post).map (fun c => key_of pool c.data)).Pairwise (fun a b => a ≤ b)
  cursor : ∀ i, i < SKIP_LIST_MAX_LEVEL → sl.update[i]? = some (pred_at i sl.header pre)
  bound : ∃ K : ℚ, (∀ c ∈ pre, key_of pool c.data < K) ∧ (∀ c ∈ post, K ≤ key_of pool c.data)

/-- What `skip_list_make` sets up for good: the header, with its
`SKIP_LIST_MAX_LEVEL` forward pointers, and NIL are two cells at the bottom of
the pool, and `update` has `SKIP_LIST_MAX_LEVEL` cells. -/
structure index_shape (sl : skip_list_s) : Prop where
  header_ne : sl.header ≠ sl.NIL
  header_cell : ∃ v, cell_load sl sl.header = .ok v ∧ v.fwps.length = SKIP_LIST_MAX_LEVEL
  nil_cell : ∃ v, cell_load sl sl.NIL = .ok v
  base : sl.header < sl.initial_cell_pool_top ∧ sl.NIL < sl.initial_cell_pool_top
  update_length : sl.update.length = SKIP_LIST_MAX_LEVEL

/-- The elements of an index that held `l` after the insertion of `x`: the new
element stands before the first element whose `freqB` is not below its own. -/
def ordered_insert (pool : pool_of_masking_partials_s) (x : Nat) (l : List Nat) : List Nat :=
  l.takeWhile (fun d => decide (key_of pool d < key_of pool x)) ++
    x :: l.dropWhile (fun d => decide (key_of pool d < key_of pool x))

/-- One step of a use of the index: `skip_list_insert (sl, x)`, followed when
`x.2` holds by `skip_list_remove (sl)`. -/
def index_step (c : libc) (pool : pool_of_masking_partials_s) (st : globals × skip_list_s)
    (x : Nat × Bool) : Except fault (globals × skip_list_s) := do
  let (g, sl) ← skip_list_insert c st.1 st.2 pool x.1
  if x.2 then do
    let sl ← skip_list_remove sl
    pure (g, sl)
  else pure (g, sl)

/-- A sequence of steps `index_step`. -/
def index_run (c : libc) (pool : pool_of_masking_partials_s) :
    List (Nat × Bool) → globals × skip_list_s → Except fault (globals × skip_list_s)
  | [], st => .ok st
  | x :: xs, st => do
    let st ← index_step c pool st x
    index_run c pool xs st

/-- The function `skip_list_reset` followed by a sequence of steps. -/
def index_session (c : libc) (pool : pool_of_masking_partials_s) (g : globals)
    (sl : skip_list_s) (steps : List (Nat × Bool)) : Except fault (globals × skip_list_s) := do
  let sl ← skip_list_reset sl
  index_run c pool steps (g, sl)

/-- The elements that a sequence of steps leaves in an index that held `l`. -/
def kept (pool : pool_of_masking_partials_s) : List (Nat × Bool) → List Nat → List Nat
  | [], l => l
  | x :: xs, l => kept pool xs (if x.2 then l else ordered_insert pool x.1 l)

/-- The generator after `n` calls of `random_level`. -/
def draws (c : libc) : Nat → globals → Except fault globals
  | 0, g => .ok g
  | n + 1, g => do
    let r ← random_level c g
    draws c n r.1

/-- The cells met from the cell `x` to NIL, both left out, along the forward
pointers of level `i`, each with the element it stores; at most `n` pointers
are followed. -/
def chain_walk (sl : skip_list_s) (i : Nat) : Nat → Nat → Except fault (List (Nat × Option Nat))
  | 0, _ => .error .diverged
  | n + 1, x => do
    let y ← fwps_get sl x i
    if y = sl.NIL then pure []
    else do
      let v ← cell_load sl y
      let rest ← chain_walk sl i n y
      pure ((y, v.data) :: rest)

/-- The size of a cell with `SKIP_LIST_MAX_LEVEL` forward pointers. -/
def sizeof_tall_cell : Nat := sizeof_cell + SKIP_LIST_MAX_LEVEL * sizeof_cell_t

/-- The answer `r` of `skip_list_previous` designates, among the elements `l`,
one of greatest `freqB` below that of `x`; it is NULL when there is none. -/
def greatest_below (pool : pool_of_masking_partials_s) (x : Nat) (l : List Nat)
    (r : Option Nat) : Prop :=
  match r with
  | none => ∀ d ∈ l, key_of pool x ≤ key_of pool d
  | some p => p ∈ l ∧ key_of pool p < key_of pool x ∧
      ∀ d ∈ l, key_of pool d < key_of pool x → key_of pool d ≤ key_of pool p

/-- The answer `r` of `skip_list_next` designates, among the elements `l`, one
of least `freqB` not below that of `x`; it is NULL when there is none. -/
def least_above (pool : pool_of_masking_partials_s) (x : Nat) (l : List Nat)
    (r : Option Nat) : Prop :=
  match r with
  | none => ∀ d ∈ l, key_of pool d < key_of pool x
  | some n => n ∈ l ∧ key_of pool x ≤ key_of pool n ∧
      ∀ d ∈ l, key_of pool x ≤ key_of pool d → key_of pool n ≤ key_of pool d

/-- The level `min_vdB` of the masking partial `d` of the pool. -/
def floor_of (pool : pool_of_masking_partials_s) (d : Nat) : ℚ :=
  match masking_partial_load pool d with
  | .ok mp => mp.min_vdB
  | .error _ => 0

/-- The threshold that the neighbour `o` of the mask sets at the frequency `b`
in Bark, on the line of slope `coeff`; it is `MIN_DB` without neighbour. -/
def neighbour_threshold (pool : pool_of_masking_partials_s) (coeff b : ℚ) (o : Option Nat) : ℚ :=
  match o with
  | none => MIN_DB
  | some m => coeff * (b - key_of pool m) + floor_of pool m - DB_DIFF

/-- What the loop of `update_mask` has done to the mask after `j` tracks, from
the state `sR` that follows the reset of the mask: the masking partial of the
track `tracks2[i]` is the one of index `i`, and the index holds none but
masking partials for which `add_partial_to_mask` returned 1. -/
structure mask_sound (c : libc) (g : globals) (s sR : sas_synthesizer_s) (j : Nat)
    (st : globals × sas_synthesizer_s) : Prop where
  reach : for_loop (mask_track c) j 0 (g, sR) = .ok st
  tracks2 : st.2.tracks2 = sR.tracks2
  used : st.2.pool.used = (j : Int)
  index : ∃ pre post, index_inv st.2.mask st.2.pool pre post ∧ (pre ++ post).length ≤ j ∧
    ∀ d ∈ (pre ++ post).map (fun c => c.data), d < j ∧ mask_verdict c g s d = .ok 1 ∧
      ∃ mp p, masking_partial_load st.2.pool d = .ok mp ∧ sR.tracks2[d]? = some (some p) ∧
        mp.p = p

/-- The shape of the partials of a source between two blocks: the two counters
are within the array, the linked partials are those below `linked_tracks`, the
unlinked partials below `active_tracks` (the young ones) have state counters
that do not increase with the index, from 2 down to 0, and the linked partials
from `active_tracks` on (the dying ones) have state counters that do not
increase with the index, from 0 down to -1. -/
structure source_inv (src : sas_source_s) : Prop where
  tracks_length : src.tracks.length = MAX_PARTIALS_PER_SOURCE
  active_range : 0 ≤ src.active_tracks ∧ src.active_tracks ≤ MAX_PARTIALS_PER_SOURCE
  linked_range : 0 ≤ src.linked_tracks ∧ src.linked_tracks ≤ MAX_PARTIALS_PER_SOURCE
  prefix_linked : ∀ (i : Nat) (p : partial_s), src.tracks[i]? = some p →
    (p.link ≠ none ↔ (i : Int) < src.linked_tracks)
  young : ∀ (i j : Nat) (p q : partial_s), src.linked_tracks ≤ (i : Int) → i ≤ j →
    (j : Int) < src.active_tracks → src.tracks[i]? = some p → src.tracks[j]? = some q →
    0 ≤ q.state ∧ q.state ≤ p.state ∧ p.state ≤ 2
  dying : ∀ (i j : Nat) (p q : partial_s), src.active_tracks ≤ (i : Int) → i ≤ j →
    (j : Int) < src.linked_tracks → src.tracks[i]? = some p → src.tracks[j]? = some q →
    -1 ≤ q.state ∧ q.state ≤ p.state ∧ p.state ≤ 0

/-- The bookkeeping of the links between the partials of the sources and the
active-track array of the synthesizer: every source has the shape `source_inv`,
`active_tracks` is within the allocation, the link of a linked partial
designates a cell below `active_tracks` that holds the partial, and a cell
below `active_tracks` that is not `NULL` holds a partial whose link designates
it. -/
structure link_inv (s : sas_synthesizer_s) : Prop where
  shape : ∀ id src, source_load s id = .ok src → source_inv src
  active_range : 0 ≤ s.active_tracks ∧ s.active_tracks ≤ s.allocated
  links : ∀ (q : partial_t) (v : partial_s) (l : Nat), partial_load s q = .ok v →
    v.link = some l → (l : Int) < s.active_tracks ∧ s.tracks[l]? = some (some q)
  slots : ∀ (l : Nat) (q : partial_t), (l : Int) < s.active_tracks →
    s.tracks[l]? = some (some q) → ∃ v, partial_load s q = .ok v ∧ v.link = some l

/-- What an iteration of a track loop of `update_source` does to the links,
for the partial `j` of the source: it keeps the link, or it links the partial
to the first free cell of the active-track array, or it unlinks the partial
and clears its cell. -/
def link_move (j : Nat) (t t1 : update_state) : Prop :=
  t1.source.id = t.source.id ∧ t1.s.allocated = t.s.allocated ∧
    t1.s.sources = t.s.sources ∧
    ∃ p p1, t.source.tracks[j]? = some p ∧ t1.source.tracks = t.source.tracks.set j p1 ∧
      ((p1.link = p.link ∧ t1.s.tracks = t.s.tracks ∧
          t1.s.active_tracks = t.s.active_tracks) ∨
        (p.link = none ∧ 0 ≤ t.s.active_tracks ∧ t.s.active_tracks < t.s.allocated ∧
          t.s.active_tracks.toNat < t.s.tracks.length ∧
          p1.link = some t.s.active_tracks.toNat ∧
          t1.s.tracks = t.s.tracks.set t.s.active_tracks.toNat (some ⟨t.source.id, j⟩) ∧
          t1.s.active_tracks = t.s.active_tracks + 1) ∨
        (∃ l, p.link = some l ∧ l < t.s.tracks.length ∧ p1.link = none ∧
          t1.s.tracks = t.s.tracks.set l none ∧ t1.s.active_tracks = t.s.active_tracks))

/-- The bookkeeping of the links during the track loops of `update_source` on
the source `t.source`, a copy of a source of the synthesizer `s` the loops
started from: the links of the partials of the copy and of the partials of the
other sources designate cells that hold them, and conversely. -/
structure loop_links (s : sas_synthesizer_s) (t : update_state) : Prop where
  sources : t.s.sources = s.sources
  active_range : 0 ≤ t.s.active_tracks ∧ t.s.active_tracks ≤ t.s.allocated
  mine : ∀ (i l : Nat) (p : partial_s), t.source.tracks[i]? = some p → p.link = some l →
    (l : Int) < t.s.active_tracks ∧ t.s.tracks[l]? = some (some ⟨t.source.id, i⟩)
  others : ∀ (q : partial_t) (v : partial_s) (l : Nat), q.source ≠ t.source.id →
    partial_load s q = .ok v → v.link = some l →
    (l : Int) < t.s.active_tracks ∧ t.s.tracks[l]? = some (some q)
  slots : ∀ (l : Nat) (q : partial_t), (l : Int) < t.s.active_tracks →
    t.s.tracks[l]? = some (some q) →
    (q.source = t.source.id → ∃ p, t.source.tracks[q.index]? = some p ∧ p.link = some l) ∧
    (q.source ≠ t.source.id → ∃ v, partial_load s q = .ok v ∧ v.link = some l)

/-- The bookkeeping of the links during the loop of `update_tracks`, before it
reads the cell `i`, for the synthesizer `s` the loop started from: the cells
below `dst` hold the partials moved so far, whose links designate them; the
cells from `i` on are as they were; and every link designates one of these
cells. -/
structure compact_links (s : sas_synthesizer_s) (i : Nat) (t : tracks_state) : Prop where
  dst_le : t.dst ≤ i
  closed : t.closed_tracks = (i : Int) - (t.dst : Int)
  active : t.s.active_tracks = s.active_tracks
  allocated : t.s.allocated = s.allocated
  shape : ∀ id src1, source_load t.s id = .ok src1 → source_inv src1
  moved : ∀ l, l < t.dst →
    ∃ q v, t.s.tracks[l]? = some (some q) ∧ partial_load t.s q = .ok v ∧ v.link = some l
  rest : ∀ l q, i ≤ l → (l : Int) < s.active_tracks → t.s.tracks[l]? = some (some q) →
    ∃ v, partial_load t.s q = .ok v ∧ v.link = some l
  links : ∀ q v l, partial_load t.s q = .ok v → v.link = some l →
    t.s.tracks[l]? = some (some q) ∧ (l < t.dst ∨ (i ≤ l ∧ (l : Int) < s.active_tracks))

/-- Every partial of the list that has a link has a phase state `(v1, v2)` of
magnitude 1. -/
def unit_tracks (ts : List partial_s) : Prop :=
  ∀ (i : Nat) (p : partial_s), ts[i]? = some p → p.link ≠ none → p.v1 ^ 2 + p.v2 ^ 2 = 1

/-- Every linked partial of the synthesizer has a phase state `(v1, v2)` of
magnitude 1. -/
def unit_phases (s : sas_synthesizer_s) : Prop :=
  ∀ (q : partial_t) (v : partial_s), partial_load s q = .ok v → v.link ≠ none →
    v.v1 ^ 2 + v.v2 ^ 2 = 1

/-- If the partial `v1` is linked, then so is the partial `v`, and the two
phase states have the same magnitude. -/
def phase_kept (v v1 : partial_s) : Prop :=
  v1.link ≠ none → v.link ≠ none ∧ v1.v1 ^ 2 + v1.v2 ^ 2 = v.v1 ^ 2 + v.v2 ^ 2

/-- The partial `v1` has the link, the state counter and the magnitude of the
phase state of the partial `v`. -/
def turned (v v1 : partial_s) : Prop :=
  v1.link = v.link ∧ v1.state = v.state ∧ v1.v1 ^ 2 + v1.v2 ^ 2 = v.v1 ^ 2 + v.v2 ^ 2

/-- A number of successive calls of `sas_synthesizer_synthesize` on the same
buffer. -/
def synthesize_blocks (c : libc) :
    Nat → globals × sas_synthesizer_s × List ℚ →
      Except fault (globals × sas_synthesizer_s × List ℚ)
  | 0, st => .ok st
  | n + 1, st => do
    let st ← sas_synthesizer_synthesize c st.1 st.2.1 st.2.2
    synthesize_blocks c n st

/-- The partials of the source `b` have the lifecycle of those of the source
`a`: the two counters of the sources are equal and, at every index, the state
counters are equal and one partial is linked exactly when the other is. -/
structure same_lifecycle (a b : sas_source_s) : Prop where
  active : b.active_tracks = a.active_tracks
  linked : b.linked_tracks = a.linked_tracks
  tracks : ∀ (i : Nat) (p : partial_s), a.tracks[i]? = some p →
    ∃ q, b.tracks[i]? = some q ∧ q.state = p.state ∧ (q.link ≠ none ↔ p.link ≠ none)

/-- The blocks `n` to `last` of one source, as the track loops of
`update_source` see them.  In block `k` the callback has left a frame in which
the harmonic scan has found `H k` harmonics, so that the number of continuing
harmonics is `MIN (H k) active_tracks`; the loops run on the source `src k`, in
the memory `g k` and the synthesizer `s k`, and end in the state `st k`; and
the source that the loops of the next block run on has the lifecycle of the
source that `update_source` stores at the end of block `k`. -/
structure block_chain (c : libc) (n last : Nat) (g : Nat → globals)
    (s : Nat → sas_synthesizer_s) (src : Nat → sas_source_s) (H : Nat → Int)
    (st : Nat → update_state) : Prop where
  shape : ∀ k, n ≤ k → k ≤ last → source_inv (src k)
  counts : ∀ k, n ≤ k → k ≤ last → 0 ≤ H k ∧ H k ≤ MAX_PARTIALS_PER_SOURCE
  run : ∀ k, n ≤ k → k ≤ last →
    update_partials c (g k) (s k) (src k) (H k) (MIN (H k) (src k).active_tracks) = .ok (st k)
  next : ∀ k, n ≤ k → k < last → same_lifecycle (step_source (st k)) (src (k + 1))

/-! ## Concrete inputs -/

/-- The memory after an envelope of base 100 with the control points 3 and 5
has been made as the first allocation and adjusted for color. -/
def two_point_globals : globals :=
  { globals_start with
    envelopes := [some (sas_envelope_s.mk 100 2 [-3, 0, 3, 5, 0, -5] 0 0)] }

/-- The loop of `isqrt`: Newton's iteration from the guess `g`. -/
def isqrt_loop (n : Nat) : Nat → Nat → Nat
  | 0, g => g
  | fuel + 1, g =>
    if g = 0 then 0
    else
      let g1 := (g + n / g) / 2
      if g1 < g then isqrt_loop n fuel g1 else g

/-- The integer square root, rounded down. -/
def isqrt (n : Nat) : Nat := isqrt_loop n 200 (n + 1)

/-- The exponent `k` when `x` is `10 ^ k`, searched from `x` by at most `fuel`
multiplications or divisions by 10. -/
def power_of_ten : Nat → ℚ → Int → Option Int
  | 0, _, _ => none
  | fuel + 1, x, k =>
    if x = 1 then some k
    else if x > 1 then power_of_ten fuel (x / 10) (k + 1)
    else power_of_ten fuel (x * 10) (k - 1)

/-- An instance of `libc` over the rationals, to run the model on concrete
inputs.  `sqrt` is exact on the squares of the multiples of `10 ^ (-6)` and
rounds down elsewhere, `pow` is exact for an integer exponent, `log10` is
exact on the powers of ten, `exp`, `cos` and `sin` are their Taylor polynomials
of degree 4 or 5 (exact at 0), `log` is a truncated series that is exact at 1,
`random` is a linear congruential generator and `qsort` is an insertion
sort. -/
def libc_rational : libc :=
  let exp : ℚ → ℚ := fun x => 1 + x + x ^ 2 / 2 + x ^ 3 / 6 + x ^ 4 / 24
  let log : ℚ → ℚ := fun x =>
    let y := (x - 1) / (x + 1)
    2 * (y + y ^ 3 / 3 + y ^ 5 / 5)
  { sqrt := fun x =>
      if x ≤ 0 then 0
      else (isqrt (x.num.toNat * x.den * 10 ^ 12) : ℚ) / ((x.den : ℚ) * 10 ^ 6)
    pow := fun x y => if y.den = 1 then x ^ y.num else exp (y * log x)
    exp := exp
    log := log
    log10 := fun x =>
      match power_of_ten 64 x 0 with
      | some k => (k : ℚ)
      | none => log x / log 10
    cos := fun x => 1 - x ^ 2 / 2 + x ^ 4 / 24
    sin := fun x => x - x ^ 3 / 6 + x ^ 5 / 120
    random := fun st =>
      ((1103515245 * st + 12345) % 2147483648, (1103515245 * st + 12345) % 2147483648)
    qsort := fun compar xs => xs.insertionSort (fun a b => compar a b ≤ 0) }

/-- A callback that always declines. -/
def decline : sas_update_callback_t := fun _ g => (g, none, none)

/-- A partial of source 1 with amplitude `a`, linked to slot `l`. -/
def track_with (a : ℚ) (l : Option Nat) : partial_s :=
  { source := 1, link := l, a := a, f := 440,
    aenv := { x0 := a, x1 := a, x2 := a, x3 := a },
    fenv := { x0 := 440, x1 := 440, x2 := 440, x3 := 440 },
    state := 5, v1 := 0, v2 := 1 }

/-- A source at address 1, at the position of the listener, that owns the
partials `tracks`. -/
def small_source (update : sas_update_callback_t) (tracks : List partial_s)
    (active linked : Int) : sas_source_s :=
  { id := 1, update := update, call_data := 1, propagated_frames := [], emission_index := 0,
    position := { x := 0, y := 0, z := 0 }, distance := 0, cos_angle := 0, doppler := 1,
    l_ratio := 1 / 2, r_ratio := 1 / 2, tracks := tracks, active_tracks := active,
    linked_tracks := linked, delayed_free := 0 }

/-- An empty skip list, as `skip_list_make` leaves it. -/
def empty_mask : skip_list_s :=
  { level := 1, header := 0, NIL := 280, update := List.replicate 32 0,
    cell_pool := [(280, { fwps := [], prev := some 0, data := none }),
      (0, { fwps := List.replicate 32 (some 280), prev := none, data := none })],
    cell_pool_top := 304, initial_cell_pool_top := 304 }

/-- A synthesizer with four slots and the single source `source`. -/
def synth_with (source : sas_source_s) (tracks tracks2 : List (Option partial_t))
    (active audible : Int) : sas_synthesizer_s :=
  { sources := [source]
    number_of_sources := 1
    amplitude_factor := 1
    tracks := tracks
    allocated := 4
    active_tracks := active
    audible_tracks := audible
    masked_tracks := 0
    threshold := 0
    tracks2 := tracks2
    mask := empty_mask
    pool := { partials := [none, none, none, none], allocated := 4, used := 0 } }

/-- A synthesizer with four slots and the source `small_source`; its
active-track array holds, in this order, the third partial of the source, a
gap, the first partial and the second partial. -/
def small_synth : sas_synthesizer_s :=
  synth_with
    (small_source decline
      [track_with (1 / 4) (some 2), track_with 0 (some 3), track_with (1 / 2) (some 0)] 3 3)
    [some ⟨1, 2⟩, none, some ⟨1, 0⟩, some ⟨1, 1⟩] [none, none, none, none] 4 0

/-- A partial of source 1 with amplitude `a` and frequency `f`, linked to slot
`l`. -/
def track_at (a f : ℚ) (l : Option Nat) : partial_s :=
  { track_with a l with f := f, fenv := { x0 := f, x1 := f, x2 := f, x3 := f } }

/-- A synthesizer whose secondary array holds two audible partials of one
centred source (both pan ratios 1/2): the first with amplitude 1/5 at 100 Hz
(-20 dB in each channel, 1 Bark), the second with amplitude 1/50 at 200 Hz
(-40 dB in each channel, 2 Bark). -/
def two_track_synth : sas_synthesizer_s :=
  synth_with
    (small_source decline [track_at (1 / 5) 100 (some 0), track_at (1 / 50) 200 (some 1)] 2 2)
    [some ⟨1, 0⟩, some ⟨1, 1⟩, none, none] [some ⟨1, 0⟩, some ⟨1, 1⟩, none, none] 2 2

/-- A synthesizer like `small_synth` whose source has its
`MAX_PROPAGATED_FRAMES` propagated frames, each of amplitude 1/2. -/
def framed_synth : sas_synthesizer_s :=
  synth_with
    { small_source decline
        [track_with (1 / 4) (some 2), track_with 0 (some 3), track_with (1 / 2) (some 0)] 3 3 with
      propagated_frames := List.replicate MAX_PROPAGATED_FRAMES ⟨1 / 2, 440, 0, 1⟩ }
    [some ⟨1, 2⟩, none, some ⟨1, 0⟩, some ⟨1, 1⟩] [none, none, none, none] 4 0

/-- A memory with two envelopes: the first is held twice, the second is not
held yet. -/
def two_envelope_globals : globals :=
  { globals_start with
    envelopes := [some (sas_envelope_s.mk 100 2 [-3, 0, 3, 5, 0, -5] 2 0),
      some (sas_envelope_s.mk 100 1 [-1, 0, 1, 0, -1] 0 0)] }

/-- A memory with two envelopes: the first has three holders, the second has
one. -/
def shared_globals : globals :=
  { globals_start with
    envelopes := [some (sas_envelope_s.mk 100 2 [-3, 0, 3, 5, 0, -5] 3 0),
      some (sas_envelope_s.mk 100 1 [-1, 0, 1, 0, -1] 1 0)] }

/-- The frame that receives the result in the examples of sas_frame.c: it
holds the first envelope of `shared_globals` as color and as warp. -/
def receiving_frame : sas_frame_s := ⟨1, 440, 0, 0⟩

/-- A frame of amplitude 2 at 220 Hz that holds the second envelope of
`shared_globals` as color and the first as warp. -/
def first_frame : sas_frame_s := ⟨2, 220, 1, 0⟩

/-- A frame of amplitude 3 at 330 Hz that holds the first envelope of
`shared_globals` as color and the second as warp. -/
def second_frame : sas_frame_s := ⟨3, 330, 0, 1⟩

/-- A synthesizer with four slots and no source. -/
def empty_synth : sas_synthesizer_s :=
  { small_synth with
    sources := [], number_of_sources := 0, amplitude_factor := 0,
    tracks := [none, none, none, none], active_tracks := 0 }

/-- The point `(3/5 + 4/5 i) ^ n` of the unit circle. -/
def rotation : Nat → ℚ × ℚ
  | 0 => (1, 0)
  | n + 1 => ((rotation n).1 * (3 / 5) - (rotation n).2 * (4 / 5),
      (rotation n).1 * (4 / 5) + (rotation n).2 * (3 / 5))

/-- An instance of `libc` whose `cos` and `sin` are exact rotations on the
multiples of the angle `FREQCOEFF` (the angle of one sample at 1 Hz), taken as
the angle of the point `3/5 + 4/5 i`: at `x` they give the coordinates of
`rotation n` for `n` the integer part of `x / FREQCOEFF`. -/
def libc_rotation : libc :=
  { libc_rational with
    cos := fun x => (rotation ⌊x / FREQCOEFF⌋.toNat).1
    sin := fun x => (rotation ⌊x / FREQCOEFF⌋.toNat).2 }

/-- A memory with three envelopes of base 10000 and two control points each,
made by `sas_envelope_make` and adjusted: a threshold that is 0 everywhere, a
color that is 1 at 10000 Hz and at 20000 Hz, and a warp that sends 10000 Hz to
30000 Hz, above `SAS_MAX_AUDIBLE_FREQUENCY`, and 20000 Hz to itself.  The
color and the warp are held by the frames of `heard_synth`. -/
def heard_globals : globals :=
  { globals_start with
    envelopes := [some (sas_envelope_s.mk 10000 2 [0, 0, 0, 0, 0, 0] 0 0),
      some (sas_envelope_s.mk 10000 2 [-1, 0, 1, 1, 0, -1] 493 0),
      some (sas_envelope_s.mk 10000 2 [-30000, 0, 30000, 20000, 10000, 40000] 493 0)] }

/-- A callback that leaves a frame of amplitude 1/2 at 10000 Hz with the color
and the warp of `heard_globals`, at the position of the listener. -/
def hears : sas_update_callback_t :=
  fun _ g => (g, some ⟨1 / 2, 10000, 1, 2⟩, some ⟨0, 0, 0⟩)

/-- A synthesizer with loudness factor 1 and one source at the position of the
listener, whose two harmonics were audible in the block before, each with
target amplitude 1/4. -/
def heard_synth : sas_synthesizer_s :=
  synth_with
    { small_source hears [track_at (1 / 4) 10000 (some 0), track_at (1 / 4) 20000 (some 1)] 2 2 with
      propagated_frames := List.replicate MAX_PROPAGATED_FRAMES ⟨1 / 2, 10000, 1, 2⟩ }
    [some ⟨1, 0⟩, some ⟨1, 1⟩, none, none] [none, none, none, none] 2 0

/-- A partial of source 1 that is not linked and has been eligible for two
blocks (state 1). -/
def young_track : partial_s := { track_with (1 / 2) none with state := 1 }

/-- A synthesizer with four slots, all of them taken by the four linked
partials of the source at address 2, and a second source, at address 1, whose
only partial is `young_track`. -/
def full_synth : sas_synthesizer_s :=
  { synth_with (small_source decline [young_track] 1 0)
      [some ⟨2, 0⟩, some ⟨2, 1⟩, some ⟨2, 2⟩, some ⟨2, 3⟩] [none, none, none, none] 4 0 with
    sources := [small_source decline [young_track] 1 0,
      { small_source decline
          [{ track_with (1 / 4) (some 0) with source := 2 },
            { track_with (1 / 4) (some 1) with source := 2 },
            { track_with (1 / 4) (some 2) with source := 2 },
            { track_with (1 / 4) (some 3) with source := 2 }] 4 4 with id := 2 }]
    number_of_sources := 2 }

/-- A spectral object of one frame with two partials, of 1 Hz and 2000 Hz. -/
def wide_spectral : sas_file_spectral_s :=
  { filename := none, rate := 11025 / 128
    tracks := [some { start := 0, length := 1, allocated := 1, frequency := [1],
                      amplitude := [1 / 2], phase := [0] },
      some { start := 0, length := 1, allocated := 1, frequency := [2000],
             amplitude := [1 / 4], phase := [0] }]
    allocated := 2, used := 2, t_min := 0, t_max := 1 }

/-- A pool of three masking partials: at 2 Bark and -20 dB, at 1 Bark and
-40 dB, and at 2 Bark and -30 dB. -/
def bark_pool : pool_of_masking_partials_s :=
  { partials := [some ⟨⟨1, 0⟩, -20, -20, 2⟩, some ⟨⟨1, 1⟩, -40, -40, 1⟩,
      some ⟨⟨1, 2⟩, -30, -30, 2⟩, none],
    allocated := 4, used := 3 }

/-- An instance of `libc` whose `random` returns 0 seven times out of eight
and 8 the eighth time: `random_level`, which takes four bits of each value,
counts 31 zero bits before the first one bit. -/
def libc_tall : libc :=
  { libc_rational with random := fun st => (if st % 8 = 0 then 8 else 0, st + 1) }

/-- A pool of `n` masking partials at 1 Bark. -/
def uniform_pool (n : Nat) : pool_of_masking_partials_s :=
  { partials := List.replicate n (some ⟨⟨1, 0⟩, 0, 0, 1⟩), allocated := n, used := n }

/-- The insertions of the elements `0`, ..., `n - 1`, none removed. -/
def insertions (n : Nat) : List (Nat × Bool) :=
  (List.range n).map (fun k => (k, false))

/-- A partial as `sas_synthesizer_source_make` leaves it, for the source at
address 1. -/
def silent_partial : partial_s :=
  { source := 1, link := none, a := 0, f := 440,
    aenv := { x0 := 0, x1 := 0, x2 := 0, x3 := 0 },
    fenv := { x0 := 440, x1 := 440, x2 := 440, x3 := 440 },
    state := 0, v1 := 0, v2 := 0 }

/-- A source at address 1 with its `MAX_PARTIALS_PER_SOURCE` partials, none of
them active or linked. -/
def fresh_source : sas_source_s :=
  small_source decline (List.replicate MAX_PARTIALS_PER_SOURCE silent_partial) 0 0

/-- A synthesizer with four free slots and the source `fresh_source`. -/
def fresh_synth : sas_synthesizer_s :=
  synth_with fresh_source [none, none, none, none] [none, none, none, none] 0 0

/-- What the track loops of `update_source` run on in block `k` of
`fresh_source`, when the harmonic scan finds `H j` harmonics in block `j` and
nothing else touches the source or the active-track array between two blocks:
the memory, the synthesizer and the source, with the three local counters at
0. -/
def block_input (c : libc) (H : Nat → Int) : Nat → update_state
  | 0 =>
    { g := globals_start, s := fresh_synth, source := fresh_source,
      birth := 0, death := 0, links := 0 }
  | k + 1 =>
    match update_partials c (block_input c H k).g (block_input c H k).s
        (block_input c H k).source (H k) (MIN (H k) (block_input c H k).source.active_tracks) with
    | .ok st => { g := st.g, s := st.s, source := step_source st, birth := 0, death := 0, links := 0 }
    | .error _ => block_input c H k

/-- The state in which the track loops of `update_source` end in block `k` of
`fresh_source`. -/
def block_output (c : libc) (H : Nat → Int) (k : Nat) : update_state :=
  match update_partials c (block_input c H k).g (block_input c H k).s
      (block_input c H k).source (H k) (MIN (H k) (block_input c H k).source.active_tracks) with
  | .ok st => st
  | .error _ => block_input c H k

/-- The numbers of harmonics of a sound that has one harmonic during the
blocks 0, 1 and 2. -/
def three_blocks (k : Nat) : Int := if k ≤ 2 then 1 else 0

/-- The numbers of harmonics of a sound that has one harmonic during block
0. -/
def one_block (k : Nat) : Int := if k = 0 then 1 else 0

/-- Block `k` of `fresh_source` with the numbers of harmonics `H`: the track
loops of `update_source` return, and they leave the first partial of the
source without link, no active track in the synthesizer and an empty
active-track array. -/
def unrendered_block (c : libc) (H : Nat → Int) (k : Nat) : Prop :=
  update_partials c (block_input c H k).g (block_input c H k).s (block_input c H k).source (H k)
      (MIN (H k) (block_input c H k).source.active_tracks) = .ok (block_output c H k) ∧
    (block_output c H k).s.active_tracks = 0 ∧
    (block_output c H k).s.tracks = [none, none, none, none] ∧
    ∃ p, (block_output c H k).source.tracks[0]? = some p ∧ p.link = none

/-- A callback that leaves the frame of `hears` at 3000 metres from the
listener, beyond `MAX_PROPAGATION_DISTANCE`. -/
def far_hears : sas_update_callback_t :=
  fun _ g => (g, some ⟨1 / 2, 10000, 1, 2⟩, some ⟨0, 3000, 0⟩)

/-- A synthesizer whose only source was at the position of the listener in
the block before, where its first harmonic was rendered with amplitude 1/4 at
440 Hz, and is now moved by its callback `far_hears`. -/
def fading_synth : sas_synthesizer_s :=
  synth_with
    { small_source far_hears [track_at (1 / 4) 440 (some 0)] 1 1 with
      propagated_frames := List.replicate MAX_PROPAGATED_FRAMES ⟨1 / 2, 10000, 1, 2⟩ }
    [some ⟨1, 0⟩, none, none, none] [none, none, none, none] 1 0

/-- A synthesizer without active track whose only source has the callback
`far_hears` and no active harmonic. -/
def distant_synth : sas_synthesizer_s :=
  synth_with
    { small_source far_hears [] 0 0 with
      propagated_frames := List.replicate MAX_PROPAGATED_FRAMES ⟨1 / 2, 10000, 1, 2⟩ }
    [none, none, none, none] [none, none, none, none] 0 0

/-- The three updates of `sas_synthesizer_synthesize` that come before the
synthesis loop. -/
def block_updates (c : libc) (g : globals) (s : sas_synthesizer_s) :
    Except fault (globals × sas_synthesizer_s) := do
  let (g, s) ← update_sources c g s
  let s ← update_tracks c s
  update_mask c g s

/-- One step of a run of the engine on a synthesizer: a call of
`update_source` on one of the sources (the body of the loop of
`update_sources`), a call of `update_tracks` or of `update_mask`, the loop of
`sas_synthesizer_synthesize` over the active tracks, or a call of
`sas_synthesizer_source_make` or of `sas_synthesizer_source_free` by the
application.  A run in which `update_source` completes a deferred deletion is
a sequence of such steps, whatever the read of `current->next` in the freed
source delivers. -/
inductive engine_step (c : libc) : sas_synthesizer_s → sas_synthesizer_s → Prop
  | source (g g1 : globals) (s s1 : sas_synthesizer_s) (id : Nat) :
    update_source c g s id = .ok (g1, s1) → engine_step c s s1
  | tracks (s s1 : sas_synthesizer_s) : update_tracks c s = .ok s1 → engine_step c s s1
  | mask (g g1 : globals) (s s1 : sas_synthesizer_s) :
    update_mask c g s = .ok (g1, s1) → engine_step c s s1
  | synthesis (s s1 : sas_synthesizer_s) (buffer buffer1 : List ℚ) :
    for_loop (synthesize_track c) s.active_tracks.toNat 0 (s, buffer) = .ok (s1, buffer1) →
    engine_step c s s1
  | make (g g1 : globals) (s s1 : sas_synthesizer_s) (pos : sas_position_s)
      (update : sas_update_callback_t) (call_data id : Nat) :
    sas_synthesizer_source_make c g s pos update call_data = .ok (g1, s1, id) →
    engine_step c s s1
  | free (g g1 : globals) (s s1 : sas_synthesizer_s) (id : Nat) :
    sas_synthesizer_source_free c g s id = .ok (g1, s1) → engine_step c s s1

/-- A synthesizer like `fading_synth` whose source has its
`MAX_PARTIALS_PER_SOURCE` partials: the first one is linked to cell 0, has the
phase state (0, 1) and was rendered with amplitude 1/4 at 440 Hz in the block
before; the other ones are silent. -/
def turning_synth : sas_synthesizer_s :=
  synth_with
    { small_source far_hears
        (track_at (1 / 4) 440 (some 0) ::
          List.replicate (MAX_PARTIALS_PER_SOURCE - 1) silent_partial) 1 1 with
      propagated_frames := List.replicate MAX_PROPAGATED_FRAMES ⟨1 / 2, 10000, 1, 2⟩ }
    [some ⟨1, 0⟩, none, none, none] [none, none, none, none] 1 0

/-- A synthesizer whose source is being deleted (`delayed_free` is set): its
last linked partial has faded out, is no longer active and has the state
counter -1, so that the next `update_source` unlinks it. -/
def ending_synth : sas_synthesizer_s :=
  synth_with
    { small_source far_hears
        ({ track_at 0 440 (some 0) with state := -1 } ::
          List.replicate (MAX_PARTIALS_PER_SOURCE - 1) silent_partial) 0 1 with
      propagated_frames := List.replicate MAX_PROPAGATED_FRAMES ⟨0, 10000, 1, 2⟩
      delayed_free := 1 }
    [some ⟨1, 0⟩, none, none, none] [none, none, none, none] 1 0

/-! # Theorems -/

/-! ## Rounding to double precision -/

theorem pow2_eq (e : Int) : pow2 e = (2 : ℚ) ^ e := by
  unfold pow2
  split_ifs with h
  · have he : (e.toNat : Int) = e := Int.toNat_of_nonneg h
    rw [← he, Int.toNat_ofNat, zpow_natCast]
    push_cast
    rfl
  · have he : ((-e).toNat : Int) = -e := Int.toNat_of_nonneg (by omega)
    have he2 : e = -((-e).toNat : Int) := by omega
    rw [he2, Int.neg_neg, Int.toNat_ofNat, zpow_neg, zpow_natCast]
    push_cast
    rw [one_div]

theorem pow2_pos (e : Int) : 0 < pow2 e := by
  rw [pow2_eq]
  positivity

theorem round_half_even_nonneg (q : ℚ) (h : 0 ≤ q) : 0 ≤ round_half_even q := by
  have h0 : 0 ≤ ⌊q⌋ := Int.floor_nonneg.mpr h
  unfold round_half_even
  simp only []
  split_ifs <;> omega

theorem halvings_spec (fuel : Nat) :
    ∀ n : Nat, n ≤ fuel → 0 < n → 2 ^ halvings fuel n ≤ n ∧ n < 2 ^ (halvings fuel n + 1) := by
  induction fuel with
  | zero =>
    intro n h1 h2
    omega
  | succ fuel ih =>
    intro n h1 h2
    unfold halvings
    split_ifs with h
    · have : n = 1 := by omega
      subst this
      exact ⟨by norm_num, by norm_num⟩
    · obtain ⟨a, b⟩ := ih (n / 2) (by omega) (by omega)
      have e1 : 2 ^ (halvings fuel (n / 2) + 1) = 2 * 2 ^ halvings fuel (n / 2) := by
        rw [pow_succ]
        ring
      have e2 : 2 ^ (halvings fuel (n / 2) + 1 + 1) = 4 * 2 ^ halvings fuel (n / 2) := by
        rw [pow_succ, pow_succ]
        ring
      rw [e1] at b
      rw [e1, e2]
      constructor <;> omega

theorem abs_num_den (x : ℚ) : |x| = (x.num.natAbs : ℚ) / (x.den : ℚ) := by
  have hd : (0 : ℚ) < (x.den : ℚ) := by exact_mod_cast x.den_pos
  conv_lhs => rw [← Rat.num_div_den x]
  rw [abs_div, abs_of_pos hd, Nat.cast_natAbs, Int.cast_abs]

theorem binade_lt (x : ℚ) (hx : x ≠ 0) : |x| < pow2 (binade x + 1) := by
  unfold binade
  simp only []
  split_ifs with h
  · have hn : 0 < x.num.natAbs := Int.natAbs_pos.mpr (Rat.num_ne_zero.mpr hx)
    obtain ⟨-, a2⟩ := halvings_spec x.num.natAbs x.num.natAbs (le_refl _) hn
    obtain ⟨b1, -⟩ := halvings_spec x.den x.den (le_refl _) x.den_pos
    have hd : (0 : ℚ) < (x.den : ℚ) := by exact_mod_cast x.den_pos
    have a2q : (x.num.natAbs : ℚ) < (2 : ℚ) ^ (halvings x.num.natAbs x.num.natAbs + 1) := by
      exact_mod_cast a2
    have b1q : (2 : ℚ) ^ halvings x.den x.den ≤ (x.den : ℚ) := by
      exact_mod_cast b1
    rw [pow2_eq, abs_num_den,
      show ((halvings x.num.natAbs x.num.natAbs : Int) - (halvings x.den x.den : Int) + 1) =
        ((halvings x.num.natAbs x.num.natAbs + 1 : Nat) : Int) -
          ((halvings x.den x.den : Nat) : Int) by
        push_cast; ring,
      zpow_sub₀ (by norm_num : (2 : ℚ) ≠ 0), zpow_natCast, zpow_natCast]
    rw [div_lt_div_iff₀ hd (by positivity)]
    calc (x.num.natAbs : ℚ) * (2 : ℚ) ^ halvings x.den x.den
        ≤ (x.num.natAbs : ℚ) * (x.den : ℚ) := by
          exact mul_le_mul_of_nonneg_left b1q (by positivity)
      _ < (2 : ℚ) ^ (halvings x.num.natAbs x.num.natAbs + 1) * (x.den : ℚ) := by
          exact mul_lt_mul_of_pos_right a2q hd
  · rw [sub_add_cancel]
    exact not_le.mp h

theorem double_round_zero : double_round 0 = 0 := by
  unfold double_round
  rw [if_pos rfl]

theorem double_round_nonneg (x : ℚ) (h : 0 ≤ x) : 0 ≤ double_round x := by
  unfold double_round
  split_ifs with h0
  · exact le_refl _
  · have hp := pow2_pos (binade x - 52)
    have hq : 0 ≤ x / pow2 (binade x - 52) := div_nonneg h (le_of_lt hp)
    have hr := round_half_even_nonneg _ hq
    exact mul_nonneg (by exact_mod_cast hr) (le_of_lt hp)

theorem data_get_ok (e : sas_envelope_s) (i : Int) (h0 : 0 ≤ i + 2)
    (h1 : (i + 2).toNat < e.cells.length) :
    data_get e i = .ok (e.cells.getD (i + 2).toNat 0) := by
  have h2 : e.cells[(i + 2).toNat]? = some (e.cells[(i + 2).toNat]) :=
    List.getElem?_eq_getElem h1
  simp [data_get, array_get, h0, h2]

theorem bind_ok_iff {α β : Type} (x : Except fault α) (f : α → Except fault β) (b : β) :
    (x >>= f) = .ok b ↔ ∃ a, x = .ok a ∧ f a = .ok b := by
  cases x with
  | error e => simp [bind, Except.bind]
  | ok a => simp [bind, Except.bind]

theorem data_set_ok (e e1 : sas_envelope_s) (i : Int) (v : ℚ) (h : data_set e i v = .ok e1) :
    e1.base = e.base ∧ e1.size = e.size ∧ 0 ≤ i + 2 ∧ (i + 2).toNat < e.cells.length ∧
      e1.cells = e.cells.set (i + 2).toNat v := by
  unfold data_set array_set at h
  split_ifs at h with h1 h2
  · simp only [Except.bind, Except.ok.injEq] at h
    subst h
    exact ⟨rfl, rfl, h1, h2, rfl⟩
  · simp [Except.bind] at h

theorem adjust_for_color_ok (e e1 : sas_envelope_s) (h : envelope_adjust_for_color e = .ok e1) :
    e1.base = e.base ∧ e1.size = e.size ∧ e1.cells.length = e.cells.length ∧
      ∀ j : Nat, 2 ≤ j → (j : Int) < e.size + 2 → e1.cells.getD j 0 = e.cells.getD j 0 := by
  unfold envelope_adjust_for_color at h
  simp only [bind_ok_iff] at h
  obtain ⟨d0, -, a, ha, b, hb, c, hc, dl, -, hd⟩ := h
  obtain ⟨a1, a2, a3, a4, a5⟩ := data_set_ok _ _ _ _ ha
  obtain ⟨b1, b2, b3, b4, b5⟩ := data_set_ok _ _ _ _ hb
  obtain ⟨c1, c2, c3, c4, c5⟩ := data_set_ok _ _ _ _ hc
  obtain ⟨d1, d2, d3, d4, d5⟩ := data_set_ok _ _ _ _ hd
  refine ⟨by rw [d1, c1, b1, a1], by rw [d2, c2, b2, a2], by simp [d5, c5, b5, a5], ?_⟩
  intro j hj1 hj2
  rw [d5, c5, b5, a5]
  simp only [List.getD_eq_getElem?_getD]
  rw [List.getElem?_set_ne (by omega), List.getElem?_set_ne (by omega),
    List.getElem?_set_ne (by omega), List.getElem?_set_ne (by omega)]

theorem adjust_for_warp_ok (e e1 : sas_envelope_s) (h : envelope_adjust_for_warp e = .ok e1) :
    e1.base = e.base ∧ e1.size = e.size ∧ e1.cells.length = e.cells.length ∧
      ∀ j : Nat, 2 ≤ j → (j : Int) < e.size + 2 → e1.cells.getD j 0 = e.cells.getD j 0 := by
  unfold envelope_adjust_for_warp at h
  simp only [bind_ok_iff] at h
  obtain ⟨d0, -, a, ha, b, hb, x1, -, x2, -, c, hc, y1, -, y3, -, hd⟩ := h
  obtain ⟨a1, a2, a3, a4, a5⟩ := data_set_ok _ _ _ _ ha
  obtain ⟨b1, b2, b3, b4, b5⟩ := data_set_ok _ _ _ _ hb
  obtain ⟨c1, c2, c3, c4, c5⟩ := data_set_ok _ _ _ _ hc
  obtain ⟨d1, d2, d3, d4, d5⟩ := data_set_ok _ _ _ _ hd
  refine ⟨by rw [d1, c1, b1, a1], by rw [d2, c2, b2, a2], by simp [d5, c5, b5, a5], ?_⟩
  intro j hj1 hj2
  rw [d5, c5, b5, a5]
  simp only [List.getD_eq_getElem?_getD]
  rw [List.getElem?_set_ne (by omega), List.getElem?_set_ne (by omega),
    List.getElem?_set_ne (by omega), List.getElem?_set_ne (by omega)]

theorem envelope_load_store (g : globals) (e : sas_envelope_t) (v : sas_envelope_s)
    (h : e < g.envelopes.length) : envelope_load (envelope_store g e v) e = .ok v := by
  simp [envelope_load, envelope_store, List.getElem?_set_self h]

theorem envelope_load_lt (g : globals) (e : sas_envelope_t) (v : sas_envelope_s)
    (h : envelope_load g e = .ok v) : e < g.envelopes.length := by
  unfold envelope_load at h
  by_contra hlt
  have hn : g.envelopes.get? e = none := by
    rw [List.get?_eq_getElem?]
    exact List.getElem?_eq_none_iff.mpr (Nat.le_of_not_lt hlt)
  rw [hn] at h
  simp at h

theorem envelope_load_make (g : globals) (base : ℚ) (size : Int) (values : List ℚ) :
    envelope_load (sas_envelope_make g base size values).1 (sas_envelope_make g base size values).2
      = .ok (envelope_make base size values) := by
  simp [envelope_load, sas_envelope_make]

theorem envelope_make_cells (base : ℚ) (size : Int) (values : List ℚ) (k : Int)
    (hk1 : 1 ≤ k) (hk2 : k ≤ size) :
    (envelope_make base size values).cells.getD (k + 1).toNat 0 = values.getD (k - 1).toNat 0 := by
  obtain ⟨n, rfl⟩ : ∃ n : Nat, k = (n : Int) + 1 := ⟨(k - 1).toNat, by omega⟩
  have h1 : ((n : Int) + 1 + 1).toNat = n + 2 := by omega
  have h2 : ((n : Int) + 1 - 1).toNat = n := by omega
  have h3 : n < size.toNat := by omega
  rw [h1, h2]
  simp only [envelope_make, List.getD_eq_getElem?_getD]
  have : ([0, 0] ++ List.map (fun i => values[i]?.getD 0) (List.range size.toNat) ++ [0, 0] : List ℚ)
      = 0 :: 0 :: (List.map (fun i => values[i]?.getD 0) (List.range size.toNat) ++ [0, 0]) := by
    simp
  rw [this]
  simp only [List.getElem?_cons_succ]
  rw [List.getElem?_append_left (by simpa using h3)]
  simp [h3]

/-- The hypothesis on the quotient in the amended C10 cannot be dropped: with
the base `0.1` (the nearest double), the product `base * 3` divided by the base
is `3 + 2 ^ (-51)`, and the envelope with the control points 1, 2, 4 and 8,
adjusted for color, has at the frequency `base * 3` the value `4 + 2 ^ (-49)`,
not its third control point 4. -/
theorem control_point_quotient_rounded :
    double_round (double_round (double_round (1 / 10) * 3) / double_round (1 / 10)) =
        3 + 1 / 2 ^ 51 ∧
      ((sas_envelope_adjust_for_color
          (sas_envelope_make globals_start (double_round (1 / 10)) 4 [1, 2, 4, 8]).1 0).bind
        (fun g => sas_envelope_get_value_double g 0 (double_round (double_round (1 / 10) * 3)))) =
        .ok (4 + 1 / 2 ^ 49) := by
  decide!

/-! ## Loops and pointers -/

theorem for_loop_inv {σ : Type} (body : Nat → σ → Except fault σ) (P : Nat → σ → Prop) :
    ∀ (n i : Nat) (st : σ), P i st →
      (∀ j t, i ≤ j → j < i + n → P j t → ∃ t1, body j t = .ok t1 ∧ P (j + 1) t1) →
      ∃ t1, for_loop body n i st = .ok t1 ∧ P (i + n) t1 := by
  intro n
  induction n with
  | zero =>
    intro i st h0 _
    exact ⟨st, rfl, h0⟩
  | succ n ih =>
    intro i st h0 hstep
    obtain ⟨t1, ht1, hP1⟩ := hstep i st (Nat.le_refl i) (by omega) h0
    obtain ⟨t2, ht2, hP2⟩ := ih (i + 1) t1 hP1 (fun j t hj1 hj2 hP =>
      hstep j t (by omega) (by omega) hP)
    refine ⟨t2, ?_, ?_⟩
    · simp only [for_loop, ht1, Except.bind]
      exact ht2
    · have : i + (n + 1) = i + 1 + n := by omega
      rw [this]
      exact hP2

theorem array_get_ok {α : Type} (xs : List α) (i : Nat) (h : i < xs.length) :
    array_get xs i = .ok (xs.get ⟨i, h⟩) := by
  simp [array_get, List.getElem?_eq_getElem h]

theorem array_get_eq_ok {α : Type} (xs : List α) (i : Nat) (v : α) :
    array_get xs i = .ok v ↔ xs[i]? = some v := by
  unfold array_get
  rw [List.get?_eq_getElem?]
  cases h : xs[i]? with
  | none => simp
  | some w => simp

theorem array_set_ok {α : Type} (xs : List α) (i : Nat) (v : α) (h : i < xs.length) :
    array_set xs i v = .ok (xs.set i v) := by
  simp [array_set, h]

theorem array_set_eq_ok {α : Type} (xs ys : List α) (i : Nat) (v : α) :
    array_set xs i v = .ok ys ↔ i < xs.length ∧ ys = xs.set i v := by
  unfold array_set
  split_ifs with h
  · simp [h, eq_comm]
  · simp [h]

theorem source_store_id (v x : sas_source_s) :
    (if x.id = v.id then v else x).id = x.id := by
  split_ifs with h
  · exact h.symm
  · rfl

theorem source_load_store (s : sas_synthesizer_s) (v : sas_source_s) (q : Nat) :
    source_load (source_store s v) q =
      (source_load s q).map (fun x => if x.id = v.id then v else x) := by
  unfold source_load source_store
  simp only [List.find?_map]
  have hfun : ((fun x => decide (x.id = q)) ∘ fun x : sas_source_s => if x.id = v.id then v else x)
      = fun x => decide (x.id = q) := by
    funext x
    simp only [Function.comp, source_store_id v x]
  rw [hfun]
  cases s.sources.find? (fun x => decide (x.id = q)) with
  | none => rfl
  | some w => rfl

theorem source_load_id (s : sas_synthesizer_s) (q : Nat) (v : sas_source_s)
    (h : source_load s q = .ok v) : v.id = q := by
  unfold source_load at h
  cases hf : s.sources.find? (fun x => decide (x.id = q)) with
  | none => simp [hf] at h
  | some w =>
    simp only [hf, Except.ok.injEq] at h
    subst h
    simpa using List.find?_some hf

theorem partial_load_store_same (s s1 : sas_synthesizer_s) (p : partial_t) (v : partial_s)
    (h : partial_store s p v = .ok s1) : partial_load s1 p = .ok v := by
  unfold partial_store at h
  simp only [bind_ok_iff, pure, Except.pure, Except.ok.injEq] at h
  obtain ⟨src, hsrc, ts, hts, rfl⟩ := h
  obtain ⟨hlt, rfl⟩ := (array_set_eq_ok _ _ _ _).mp hts
  have hid := source_load_id s p.source src hsrc
  unfold partial_load
  rw [source_load_store, hsrc]
  simp only [Except.map, hid, if_true, bind, Except.bind]
  rw [array_get_eq_ok]
  simp [hlt]

theorem partial_load_store_other (s s1 : sas_synthesizer_s) (p q : partial_t) (v : partial_s)
    (h : partial_store s p v = .ok s1) (hne : q ≠ p) : partial_load s1 q = partial_load s q := by
  unfold partial_store at h
  simp only [bind_ok_iff, pure, Except.pure, Except.ok.injEq] at h
  obtain ⟨src, hsrc, ts, hts, rfl⟩ := h
  obtain ⟨hlt, rfl⟩ := (array_set_eq_ok _ _ _ _).mp hts
  have hid := source_load_id s p.source src hsrc
  unfold partial_load
  rw [source_load_store]
  cases hq : source_load s q.source with
  | error e => rfl
  | ok w =>
    have hwid := source_load_id s q.source w hq
    simp only [Except.map, bind, Except.bind]
    by_cases hs : q.source = p.source
    · have hw : w = src := by
        rw [hs] at hq
        rw [hq] at hsrc
        exact Except.ok.inj hsrc
      subst hw
      have hidx : q.index ≠ p.index := by
        intro hi
        apply hne
        cases q
        cases p
        simp_all
      simp only [if_true]
      unfold array_get
      simp only [List.get?_eq_getElem?]
      rw [List.getElem?_set_ne (fun h => hidx h.symm)]
    · have : ¬ w.id = src.id := by
        rw [hwid, hid]
        exact hs
      simp only [this, if_false]

theorem partial_store_ok (s : sas_synthesizer_s) (p : partial_t) (v0 v : partial_s)
    (h : partial_load s p = .ok v0) : ∃ s1, partial_store s p v = .ok s1 := by
  unfold partial_load at h
  simp only [bind_ok_iff] at h
  obtain ⟨src, hsrc, hget⟩ := h
  have hlt : p.index < src.tracks.length := by
    rw [array_get_eq_ok] at hget
    exact (List.getElem?_eq_some_iff.mp hget).1
  refine ⟨source_store s { src with tracks := src.tracks.set p.index v }, ?_⟩
  simp [partial_store, hsrc, bind, Except.bind, array_set_ok _ _ _ hlt, pure, Except.pure]

theorem partial_store_fields (s s1 : sas_synthesizer_s) (p : partial_t) (v : partial_s)
    (h : partial_store s p v = .ok s1) :
    s1.tracks = s.tracks ∧ s1.tracks2 = s.tracks2 ∧ s1.active_tracks = s.active_tracks ∧
      s1.audible_tracks = s.audible_tracks ∧ s1.masked_tracks = s.masked_tracks ∧
      s1.allocated = s.allocated ∧ s1.number_of_sources = s.number_of_sources ∧
      s1.mask = s.mask ∧ s1.pool = s.pool ∧ s1.threshold = s.threshold ∧
      s1.amplitude_factor = s.amplitude_factor := by
  unfold partial_store at h
  simp only [bind_ok_iff, pure, Except.pure, Except.ok.injEq] at h
  obtain ⟨src, -, ts, -, rfl⟩ := h
  simp [source_store]

theorem partial_load_congr (s1 s2 : sas_synthesizer_s) (p : partial_t)
    (h : s1.sources = s2.sources) : partial_load s1 p = partial_load s2 p := by
  unfold partial_load source_load
  rw [h]

theorem live_entries_succ_none (tracks : List (Option partial_t)) (i : Nat)
    (h : tracks[i]? = some none) : live_entries tracks (i + 1) = live_entries tracks i := by
  simp [live_entries, List.take_succ, h, List.reduceOption_append]

theorem live_entries_succ_some (tracks : List (Option partial_t)) (i : Nat) (p : partial_t)
    (h : tracks[i]? = some (some p)) :
    live_entries tracks (i + 1) = live_entries tracks i ++ [p] := by
  simp [live_entries, List.take_succ, h, List.reduceOption_append]

theorem live_entries_length_le (tracks : List (Option partial_t)) (i : Nat) :
    (live_entries tracks i).length ≤ i := by
  unfold live_entries
  exact le_trans (List.reduceOption_length_le _) (List.length_take_le _ _)

theorem live_entries_split (tracks : List (Option partial_t)) (i n : Nat) (h : i ≤ n) :
    ∃ r, live_entries tracks n = live_entries tracks i ++ r := by
  refine ⟨((tracks.take n).drop i).reduceOption, ?_⟩
  unfold live_entries
  rw [← List.reduceOption_append]
  congr 1
  have h1 : tracks.take i = (tracks.take n).take i := by
    rw [List.take_take, Nat.min_eq_left h]
  rw [h1, List.take_append_drop]

theorem take_succ_set {α : Type} (l : List α) (d : Nat) (x : α) (h : d < l.length) :
    (l.set d x).take (d + 1) = l.take d ++ [x] := by
  rw [List.take_succ, List.getElem?_set_self h, List.set_take,
    List.set_eq_of_length_le (by simp)]
  rfl

theorem compact_link (s1 : sas_synthesizer_s) (dst : Nat) (p : partial_t) (v : partial_s)
    (hl : partial_load s1 p = .ok v) :
    ∃ s3, partial_store { s1 with tracks := s1.tracks.set dst (some p) } p
        { v with link := some dst } = .ok s3 ∧
      s3.tracks = s1.tracks.set dst (some p) ∧ s3.tracks2 = s1.tracks2 ∧
      s3.audible_tracks = s1.audible_tracks ∧ s3.active_tracks = s1.active_tracks ∧
      partial_load s3 p = .ok { v with link := some dst } ∧
      ∀ q, q ≠ p → partial_load s3 q = partial_load s1 q := by
  have hl2 : partial_load { s1 with tracks := s1.tracks.set dst (some p) } p = .ok v :=
    (partial_load_congr _ s1 p rfl).trans hl
  obtain ⟨s3, hs3⟩ := partial_store_ok _ p v { v with link := some dst } hl2
  refine ⟨s3, hs3, ?_⟩
  obtain ⟨f1, f2, f3, f4, -⟩ := partial_store_fields _ _ _ _ hs3
  refine ⟨f1, f2, f4, f3, partial_load_store_same _ _ _ _ hs3, ?_⟩
  intro q hq
  rw [partial_load_store_other _ _ _ _ _ hs3 hq]
  exact partial_load_congr _ s1 q rfl

theorem compact_track_step (s : sas_synthesizer_s) (n i : Nat) (st : tracks_state)
    (hi : i < n) (hlen : n ≤ s.tracks.length) (hlen2 : n ≤ s.tracks2.length)
    (hvalid : ∀ p ∈ live_entries s.tracks n, ∃ v, partial_load s p = .ok v)
    (hnodup : (live_entries s.tracks n).Nodup)
    (inv : compact_inv s i st) :
    ∃ st1, compact_track i st = .ok st1 ∧ compact_inv s (i + 1) st1 := by
  have hilt : i < s.tracks.length := by omega
  have hcell : st.s.tracks[i]? = s.tracks[i]? := by
    have := congrArg (fun l => l[0]?) inv.tail
    simpa [List.getElem?_drop] using this
  have hdst : st.dst ≤ i := by
    rw [inv.dst_eq]
    exact live_entries_length_le _ _
  have htail : st.s.tracks.drop (i + 1) = s.tracks.drop (i + 1) := by
    have := congrArg (List.drop 1) inv.tail
    simpa [List.drop_drop, Nat.add_comm] using this
  cases hc : s.tracks[i]? with
  | none =>
    exfalso
    rw [List.getElem?_eq_none_iff] at hc
    omega
  | some cell =>
    rw [hc] at hcell
    have harr : array_get st.s.tracks i = .ok cell := (array_get_eq_ok _ _ _).mpr hcell
    cases cell with
    | none =>
      refine ⟨{ st with closed_tracks := st.closed_tracks + 1 }, ?_, ?_⟩
      · simp [compact_track, harr, bind, Except.bind, pure, Except.pure]
      · have hle := live_entries_succ_none s.tracks i hc
        exact
          { len := inv.len
            dst_eq := by rw [hle]; exact inv.dst_eq
            head := by rw [hle]; exact inv.head
            tail := htail
            closed := by
              show st.closed_tracks + 1 = ((i + 1 : Nat) : Int) - (st.dst : Int)
              rw [inv.closed]
              push_cast
              ring
            same := inv.same
            links := by rw [hle]; exact inv.links
            len2 := inv.len2
            aud := by rw [hle]; exact inv.aud
            active := inv.active }
    | some p =>
      have hle := live_entries_succ_some s.tracks i p hc
      obtain ⟨r, hr⟩ := live_entries_split s.tracks (i + 1) n (by omega)
      rw [hle] at hr
      have hpmem : p ∈ live_entries s.tracks n := by
        rw [hr]
        simp
      have hpnot : p ∉ live_entries s.tracks i := by
        rw [hr] at hnodup
        have h1 := (List.nodup_append.mp hnodup).1
        have h2 := (List.nodup_append.mp h1).2.2
        intro hp
        exact h2 hp (List.mem_singleton_self p)
      obtain ⟨v0, hv0⟩ := hvalid p hpmem
      have hsame := inv.same p
      rw [hv0] at hsame
      cases hv : partial_load st.s p with
      | error e =>
        rw [hv] at hsame
        simp [Except.map] at hsame
      | ok v =>
        rw [hv] at hsame
        simp only [Except.map, Except.ok.injEq] at hsame
        have hva : v.a = v0.a := by
          have := congrArg partial_s.a hsame
          simpa [without_link] using this
        have hamp : partial_amplitude s p = v.a := by
          simp [partial_amplitude, hv0, hva]
        obtain ⟨k, hk1, hkl, hk2⟩ := inv.aud
        have hfl : ((live_entries s.tracks i).filter
            (fun p => decide (partial_amplitude s p > BELOW_MIN_AMP))).length ≤ i :=
          le_trans (List.length_filter_le _ _) (live_entries_length_le _ _)
        have hkle : k ≤ i := by
          rw [hkl]
          exact hfl
        have hdlt : st.dst < st.s.tracks.length := by
          rw [inv.len]
          omega
        have finish : ∀ s1 : sas_synthesizer_s, s1.sources = st.s.sources →
            s1.tracks = st.s.tracks → s1.active_tracks = st.s.active_tracks →
            s1.tracks2.length = st.s.tracks2.length →
            (∃ k1 : Nat, s1.audible_tracks = (k1 : Int) ∧
              k1 = ((live_entries s.tracks (i + 1)).filter
                (fun p => decide (partial_amplitude s p > BELOW_MIN_AMP))).length ∧
              s1.tracks2.take k1 = ((live_entries s.tracks (i + 1)).filter
                (fun p => decide (partial_amplitude s p > BELOW_MIN_AMP))).map some) →
            ∃ s3, partial_store { s1 with tracks := s1.tracks.set st.dst (some p) } p
                { v with link := some st.dst } = .ok s3 ∧
              compact_inv s (i + 1) { st with s := s3, dst := st.dst + 1 } := by
          intro s1 e1 e2 e3 e4 e5
          have hl1 : partial_load s1 p = .ok v := (partial_load_congr s1 st.s p e1).trans hv
          obtain ⟨s3, h3, t1, t2, t3, t4, t5, t6⟩ := compact_link s1 st.dst p v hl1
          refine ⟨s3, h3, ?_⟩
          have hload : ∀ q, q ≠ p → partial_load s3 q = partial_load st.s q := fun q hq =>
            (t6 q hq).trans (partial_load_congr s1 st.s q e1)
          exact
            { len := by
                show s3.tracks.length = s.tracks.length
                rw [t1, List.length_set, e2, inv.len]
              dst_eq := by
                show st.dst + 1 = (live_entries s.tracks (i + 1)).length
                rw [hle, List.length_append, ← inv.dst_eq]
                rfl
              head := by
                show s3.tracks.take (st.dst + 1) = (live_entries s.tracks (i + 1)).map some
                rw [t1, e2, take_succ_set _ _ _ hdlt, inv.head, hle, List.map_append]
                rfl
              tail := by
                show s3.tracks.drop (i + 1) = s.tracks.drop (i + 1)
                rw [t1, e2, List.drop_set_of_lt _ _ (by omega), htail]
              closed := by
                show st.closed_tracks = ((i + 1 : Nat) : Int) - ((st.dst + 1 : Nat) : Int)
                rw [inv.closed]
                push_cast
                ring
              same := by
                intro q
                show (partial_load s3 q).map without_link = (partial_load s q).map without_link
                by_cases hq : q = p
                · subst hq
                  rw [t5, hv0]
                  simp only [Except.map, Except.ok.injEq]
                  rw [← hsame]
                  rfl
                · rw [hload q hq]
                  exact inv.same q
              links := by
                intro j q hjq
                show (partial_load s3 q).map (fun v => v.link) = .ok (some j)
                rw [hle] at hjq
                by_cases hj : j < (live_entries s.tracks i).length
                · rw [List.getElem?_append_left hj] at hjq
                  have hqmem : q ∈ live_entries s.tracks i := List.getElem?_mem hjq
                  have hq : q ≠ p := fun h => hpnot (h ▸ hqmem)
                  rw [hload q hq]
                  exact inv.links j q hjq
                · rw [List.getElem?_append_right (by omega)] at hjq
                  have hj0 : j - (live_entries s.tracks i).length = 0 := by
                    by_contra hne
                    obtain ⟨m, hm⟩ := Nat.exists_eq_succ_of_ne_zero hne
                    rw [hm] at hjq
                    simp at hjq
                  rw [hj0] at hjq
                  simp only [List.getElem?_cons_zero, Option.some.injEq] at hjq
                  subst hjq
                  rw [t5]
                  simp only [Except.map, Except.ok.injEq, Option.some.injEq]
                  rw [inv.dst_eq]
                  omega
              len2 := by
                show s3.tracks2.length = s.tracks2.length
                rw [t2, e4, inv.len2]
              aud := by
                obtain ⟨k1, hk3, hk5, hk4⟩ := e5
                refine ⟨k1, ?_, hk5, ?_⟩
                · show s3.audible_tracks = (k1 : Int)
                  rw [t3, hk3]
                · show s3.tracks2.take k1 = _
                  rw [t2, hk4]
              active := by
                show s3.active_tracks = s.active_tracks
                rw [t4, e3, inv.active] }
        by_cases ha : v.a > BELOW_MIN_AMP
        · have hk2lt : k < st.s.tracks2.length := by
            have := inv.len2
            omega
          obtain ⟨s3, h3, hinv⟩ := finish
            { st.s with tracks2 := st.s.tracks2.set k (some p),
                        audible_tracks := st.s.audible_tracks + 1 }
            rfl rfl rfl (by simp) (by
              have hp : decide (partial_amplitude s p > BELOW_MIN_AMP) = true := by
                rw [hamp]
                exact decide_eq_true ha
              refine ⟨k + 1, ?_, ?_, ?_⟩
              · show st.s.audible_tracks + 1 = ((k + 1 : Nat) : Int)
                rw [hk1]
                push_cast
                rfl
              · rw [hle, List.filter_append, List.length_append, ← hkl]
                simp [List.filter_cons_of_pos, hp]
              · show (st.s.tracks2.set k (some p)).take (k + 1) = _
                rw [take_succ_set _ _ _ hk2lt, hk2, hle, List.filter_append, List.map_append]
                simp [List.filter_cons_of_pos, hp])
          refine ⟨_, ?_, hinv⟩
          have hneg : ¬ ((k : Int) < 0) := by omega
          simp only [compact_track, harr, hv, bind, Except.bind, ha, if_true, hk1, hneg, if_false,
            Int.toNat_ofNat, array_set_ok _ _ _ hk2lt, array_set_ok _ _ _ hdlt, pure, Except.pure]
          simp only [← hk1]
          rw [h3]
        · obtain ⟨s3, h3, hinv⟩ := finish st.s rfl rfl rfl rfl (by
            have hp : decide (partial_amplitude s p > BELOW_MIN_AMP) = false := by
              rw [hamp]
              exact decide_eq_false ha
            refine ⟨k, hk1, ?_, ?_⟩
            · rw [hle, List.filter_append, List.length_append, ← hkl]
              simp [hp]
            · rw [hk2, hle, List.filter_append]
              simp [hp])
          refine ⟨_, ?_, hinv⟩
          simp only [compact_track, harr, hv, bind, Except.bind, ha, if_false,
            array_set_ok _ _ _ hdlt, pure, Except.pure]
          rw [h3]

theorem compact_inv_start (s : sas_synthesizer_s) (h0 : s.audible_tracks = 0) :
    compact_inv s 0 { s := s, dst := 0, closed_tracks := 0 } :=
  { len := rfl
    dst_eq := rfl
    head := rfl
    tail := rfl
    closed := rfl
    same := fun _ => rfl
    links := by
      intro j p h
      simp [live_entries] at h
    len2 := rfl
    aud := ⟨0, h0, rfl, rfl⟩
    active := rfl }

theorem update_tracks_loop (s : sas_synthesizer_s) (n : Nat) (h0 : s.audible_tracks = 0)
    (hlen : n ≤ s.tracks.length) (hlen2 : n ≤ s.tracks2.length)
    (hvalid : ∀ p ∈ live_entries s.tracks n, ∃ v, partial_load s p = .ok v)
    (hnodup : (live_entries s.tracks n).Nodup) :
    ∃ st, for_loop compact_track n 0 { s := s, dst := 0, closed_tracks := 0 } = .ok st ∧
      compact_inv s n st := by
  have := for_loop_inv compact_track (fun i st => compact_inv s i st) n 0
    { s := s, dst := 0, closed_tracks := 0 } (compact_inv_start s h0)
    (fun j t _ hj hinv => compact_track_step s n j t (by omega) hlen hlen2 hvalid hnodup hinv)
  simpa using this

theorem update_tracks_result (c : libc) (s : sas_synthesizer_s)
    (hlen : s.active_tracks.toNat ≤ s.tracks.length)
    (hlen2 : s.active_tracks.toNat ≤ s.tracks2.length)
    (hvalid : ∀ p ∈ live_entries s.tracks s.active_tracks.toNat, ∃ v, partial_load s p = .ok v)
    (hnodup : (live_entries s.tracks s.active_tracks.toNat).Nodup) :
    ∃ st, update_tracks c s = .ok
        { my_qsort c st.s st.s.audible_tracks.toNat with
          active_tracks := st.s.active_tracks - st.closed_tracks } ∧
      compact_inv { s with audible_tracks := 0 } s.active_tracks.toNat st := by
  obtain ⟨st, hst, inv⟩ := update_tracks_loop { s with audible_tracks := 0 }
    s.active_tracks.toNat rfl hlen hlen2 hvalid hnodup
  refine ⟨st, ?_, inv⟩
  unfold update_tracks
  simp only [bind, Except.bind, pure, Except.pure]
  rw [hst]
  rfl

/-! ## Compaction of the active-track array -/

/-- C1: for an active-track array whose first `active_tracks` cells hold
distinct valid pointers to partials, with `NULL` gaps, `update_tracks` returns
normally; afterwards `active_tracks` is the number of the previously non-`NULL`
cells, the first `active_tracks` cells hold exactly those pointers in their
original order, and the partial that cell `j` points to has the link `j`. -/
theorem update_tracks_compaction (c : libc) (s : sas_synthesizer_s)
    (hact : 0 ≤ s.active_tracks)
    (hlen : s.active_tracks.toNat ≤ s.tracks.length)
    (hlen2 : s.active_tracks.toNat ≤ s.tracks2.length)
    (hvalid : ∀ p ∈ live_entries s.tracks s.active_tracks.toNat, ∃ v, partial_load s p = .ok v)
    (hnodup : (live_entries s.tracks s.active_tracks.toNat).Nodup) :
    ∃ s1, update_tracks c s = .ok s1 ∧
      s1.active_tracks = ((live_entries s.tracks s.active_tracks.toNat).length : Int) ∧
      s1.tracks.take s1.active_tracks.toNat =
        (live_entries s.tracks s.active_tracks.toNat).map some ∧
      ∀ j p, j < s1.active_tracks.toNat → s1.tracks[j]? = some (some p) →
        (partial_load s1 p).map (fun v => v.link) = .ok (some j) := by
  obtain ⟨st, hst, inv⟩ := update_tracks_result c s hlen hlen2 hvalid hnodup
  have hcount : st.s.active_tracks - st.closed_tracks =
      ((live_entries s.tracks s.active_tracks.toNat).length : Int) := by
    have h1 := inv.active
    have h2 := inv.closed
    have h3 := inv.dst_eq
    have h4 : st.s.active_tracks = s.active_tracks := h1
    have h5 : st.dst = (live_entries s.tracks s.active_tracks.toNat).length := h3
    rw [h4, h2, h5]
    have h6 : ((s.active_tracks.toNat : Nat) : Int) = s.active_tracks := Int.toNat_of_nonneg hact
    omega
  refine ⟨_, hst, hcount, ?_, ?_⟩
  · show st.s.tracks.take (st.s.active_tracks - st.closed_tracks).toNat = _
    rw [hcount, Int.toNat_ofNat]
    have h := inv.head
    rw [inv.dst_eq] at h
    exact h
  · intro j p hj hjp
    have hj1 : j < (st.s.active_tracks - st.closed_tracks).toNat := hj
    rw [hcount, Int.toNat_ofNat] at hj1
    have hjp1 : st.s.tracks[j]? = some (some p) := hjp
    have h := inv.head
    rw [inv.dst_eq] at h
    have h2 : (st.s.tracks.take (live_entries s.tracks s.active_tracks.toNat).length)[j]? =
        some (some p) := by
      rw [List.getElem?_take_of_lt hj1]
      exact hjp1
    have h2b : ((live_entries s.tracks s.active_tracks.toNat).map some)[j]? = some (some p) := by
      have h3 : st.s.tracks.take (live_entries s.tracks s.active_tracks.toNat).length =
          (live_entries s.tracks s.active_tracks.toNat).map some := h
      rw [← h3]
      exact h2
    have h4 : (live_entries s.tracks s.active_tracks.toNat)[j]? = some p := by
      rw [List.getElem?_map] at h2b
      cases hx : (live_entries s.tracks s.active_tracks.toNat)[j]? with
      | none => simp [hx] at h2b
      | some q =>
        simp only [hx, Option.map_some', Option.some.injEq] at h2b
        rw [h2b]
    exact inv.links j p h4

theorem small_synth_valid :
    ∀ p ∈ live_entries small_synth.tracks small_synth.active_tracks.toNat,
      ∃ v, partial_load small_synth p = .ok v := by
  intro p hp
  have h : p = ⟨1, 2⟩ ∨ p = ⟨1, 0⟩ ∨ p = ⟨1, 1⟩ := by
    simpa [live_entries, small_synth, synth_with, List.reduceOption] using hp
  rcases h with rfl | rfl | rfl <;> exact ⟨_, rfl⟩

/-- Witness for C1: the array `[p2, NULL, p0, p1]` of `small_synth` is
compacted to `[p2, p0, p1]`. -/
theorem update_tracks_compaction_witness :
    ∃ s1, update_tracks libc_rational small_synth = .ok s1 ∧
      s1.active_tracks = 3 ∧
      s1.tracks.take s1.active_tracks.toNat = [some ⟨1, 2⟩, some ⟨1, 0⟩, some ⟨1, 1⟩] ∧
      ∀ j p, j < s1.active_tracks.toNat → s1.tracks[j]? = some (some p) →
        (partial_load s1 p).map (fun v => v.link) = .ok (some j) :=
  update_tracks_compaction libc_rational small_synth (by decide) (by decide) (by decide)
    small_synth_valid (by decide)

/-! ## The secondary array -/

theorem reduceOption_map_some {α : Type} (l : List α) : (l.map some).reduceOption = l := by
  induction l with
  | nil => rfl
  | cons a l ih => simp [List.reduceOption_cons_of_some, ih]

theorem compare_amplitudes_le (s : sas_synthesizer_s) (p q : partial_t) :
    compare_amplitudes s p q ≤ 0 ↔ partial_amplitude s q ≤ partial_amplitude s p := by
  unfold compare_amplitudes c_bool
  by_cases h1 : partial_amplitude s p < partial_amplitude s q
  · have h2 : ¬ partial_amplitude s q < partial_amplitude s p := not_lt.mpr (le_of_lt h1)
    simp [h1, h2]
  · by_cases h2 : partial_amplitude s q < partial_amplitude s p
    · simp [h1, h2, le_of_lt h2]
    · simp [h1, h2, not_lt.mp h1]

theorem compare_amplitudes_consistent (s : sas_synthesizer_s) :
    consistent_ordering (compare_amplitudes s) := by
  refine ⟨?_, ?_⟩
  · intro a b
    unfold compare_amplitudes
    ring
  · intro a b d h1 h2
    rw [compare_amplitudes_le] at h1 h2 ⊢
    exact le_trans h2 h1

theorem partial_amplitude_of_same (s1 s : sas_synthesizer_s) (p : partial_t)
    (h : (partial_load s1 p).map without_link = (partial_load s p).map without_link) :
    partial_amplitude s1 p = partial_amplitude s p := by
  unfold partial_amplitude
  cases h1 : partial_load s1 p with
  | error e1 =>
    cases h2 : partial_load s p with
    | error e2 => rfl
    | ok v2 => simp [h1, h2, Except.map] at h
  | ok v1 =>
    cases h2 : partial_load s p with
    | error e2 => simp [h1, h2, Except.map] at h
    | ok v2 =>
      simp only [h1, h2, Except.map, Except.ok.injEq] at h
      have := congrArg partial_s.a h
      simpa [without_link] using this

/-- C7: when `qsort` keeps its contract, `update_tracks` leaves in
`tracks2[0 .. audible_tracks)` a rearrangement of exactly the surviving
(non-`NULL`) tracks whose amplitude `a` is above `BELOW_MIN_AMP`, in which no
track comes after one of smaller amplitude, the amplitudes being those before
the call; and `compare_amplitudes` is antisymmetric and transitive. -/
theorem update_tracks_secondary_array (c : libc) (s : sas_synthesizer_s)
    (hq : qsort_contract c)
    (hlen : s.active_tracks.toNat ≤ s.tracks.length)
    (hlen2 : s.active_tracks.toNat ≤ s.tracks2.length)
    (hvalid : ∀ p ∈ live_entries s.tracks s.active_tracks.toNat, ∃ v, partial_load s p = .ok v)
    (hnodup : (live_entries s.tracks s.active_tracks.toNat).Nodup) :
    consistent_ordering (compare_amplitudes s) ∧
    ∃ (s1 : sas_synthesizer_s) (sorted : List partial_t), update_tracks c s = .ok s1 ∧
      s1.audible_tracks = (sorted.length : Int) ∧
      s1.tracks2.take sorted.length = sorted.map some ∧
      sorted.Perm ((live_entries s.tracks s.active_tracks.toNat).filter
        (fun p => decide (partial_amplitude s p > BELOW_MIN_AMP))) ∧
      sorted.Pairwise (fun p q => partial_amplitude s1 q ≤ partial_amplitude s1 p) ∧
      ∀ p, partial_amplitude s1 p = partial_amplitude s p := by
  refine ⟨compare_amplitudes_consistent s, ?_⟩
  obtain ⟨st, hst, inv⟩ := update_tracks_result c s hlen hlen2 hvalid hnodup
  obtain ⟨k, hk1, hkl0, hk0⟩ := inv.aud
  have hk2 : st.s.tracks2.take k = ((live_entries s.tracks s.active_tracks.toNat).filter
      (fun p => decide (partial_amplitude s p > BELOW_MIN_AMP))).map some := hk0
  clear hk0
  have hamp : ∀ p, partial_amplitude st.s p = partial_amplitude s p := fun p =>
    partial_amplitude_of_same st.s { s with audible_tracks := 0 } p (inv.same p)
  obtain ⟨hperm, hsorted⟩ := hq (compare_amplitudes st.s)
    ((live_entries s.tracks s.active_tracks.toNat).filter
      (fun p => decide (partial_amplitude s p > BELOW_MIN_AMP)))
    (compare_amplitudes_consistent st.s)
  have hklen : k = ((live_entries s.tracks s.active_tracks.toNat).filter
      (fun p => decide (partial_amplitude s p > BELOW_MIN_AMP))).length := hkl0
  have htoNat : st.s.audible_tracks.toNat = k := by
    rw [hk1, Int.toNat_ofNat]
  refine ⟨_, c.qsort (compare_amplitudes st.s)
    ((live_entries s.tracks s.active_tracks.toNat).filter
      (fun p => decide (partial_amplitude s p > BELOW_MIN_AMP))), hst, ?_, ?_, hperm, ?_, ?_⟩
  · show st.s.audible_tracks = _
    rw [hk1, hperm.length_eq, ← hklen]
  · show ((c.qsort (compare_amplitudes st.s)
        (st.s.tracks2.take st.s.audible_tracks.toNat).reduceOption).map some ++
        st.s.tracks2.drop st.s.audible_tracks.toNat).take _ = _
    rw [htoNat, hk2, reduceOption_map_some]
    exact List.take_left' (by rw [List.length_map, hperm.length_eq, ← hklen])
  · refine hsorted.imp ?_
    intro a b hab
    rw [compare_amplitudes_le] at hab
    exact hab
  · intro p
    exact hamp p

theorem libc_rational_qsort : qsort_contract libc_rational := by
  intro compar xs ⟨hanti, htrans⟩
  haveI : IsTotal partial_t (fun a b => compar a b ≤ 0) := ⟨fun a b => by
    have := hanti a b
    by_cases h : compar a b ≤ 0
    · exact Or.inl h
    · exact Or.inr (by omega)⟩
  haveI : IsTrans partial_t (fun a b => compar a b ≤ 0) := ⟨fun a b d => htrans a b d⟩
  exact ⟨List.perm_insertionSort _ xs, List.sorted_insertionSort _ xs⟩

/-- Witness for C7: in `small_synth` the surviving tracks are `p2` (1/2),
`p0` (1/4) and `p1` (0); the two above the floor are sorted by the insertion
sort of `libc_rational`. -/
theorem update_tracks_secondary_array_witness :
    consistent_ordering (compare_amplitudes small_synth) ∧
    ∃ (s1 : sas_synthesizer_s) (sorted : List partial_t),
      update_tracks libc_rational small_synth = .ok s1 ∧
      s1.audible_tracks = (sorted.length : Int) ∧
      s1.tracks2.take sorted.length = sorted.map some ∧
      sorted.Perm ((live_entries small_synth.tracks small_synth.active_tracks.toNat).filter
        (fun p => decide (partial_amplitude small_synth p > BELOW_MIN_AMP))) ∧
      sorted.Pairwise (fun p q => partial_amplitude s1 q ≤ partial_amplitude s1 p) ∧
      ∀ p, partial_amplitude s1 p = partial_amplitude small_synth p :=
  update_tracks_secondary_array libc_rational small_synth libc_rational_qsort (by decide)
    (by decide) small_synth_valid (by decide)

/-! ## The masking verdict -/

theorem MAX_eq_max (x y : ℚ) : MAX x y = max x y := by
  unfold MAX
  split_ifs with h
  · exact (max_eq_right (le_of_lt h)).symm
  · exact (max_eq_left (not_lt.mp h)).symm

theorem c_bool_eq_zero (b : Bool) : c_bool b = 0 ↔ b = false := by
  cases b <;> simp [c_bool]

/-- C5, as stated, fails: in `two_track_synth`, once the first track (-20 dB
at 1 Bark) is in the mask, the second track (-40 dB in both channels, at
2 Bark) has its level above the threshold `v = -15 * 1 - 20 - 10 = -45`; it
is not marked masked (the value returned is 1), yet it is removed again from
the mask index, which holds the first masking partial only. -/
theorem masked_condition_counterexample :
    ((reset_mask two_track_synth).bind (fun s =>
      (mask_track libc_rational 0 (globals_start, { s with masked_tracks := 0 })).bind (fun st =>
        (masking_partial_make libc_rational st.2 ⟨1, 1⟩).bind (fun m =>
          (masking_partial_load m.1.pool m.2).bind (fun new_mp =>
            (skip_list_insert libc_rational st.1 m.1.mask m.1.pool m.2).bind (fun ins =>
              (skip_list_previous ins.2).bind (fun lo =>
                (mask_contribution m.1.pool RIGHT_LINE_COEFF new_mp lo).bind (fun v_lowf =>
                  (skip_list_next ins.2).bind (fun hi =>
                    (mask_contribution m.1.pool LEFT_LINE_COEFF new_mp hi).bind (fun v_highf =>
                      .ok (new_mp.min_vdB, new_mp.max_vdB, v_lowf, v_highf,
                        MAX v_lowf v_highf))))))))))
      = .ok (-40, -40, -45, -100, -45)) ∧
    ((reset_mask two_track_synth).bind (fun s =>
      (mask_track libc_rational 0 (globals_start, { s with masked_tracks := 0 })).bind (fun st =>
        (add_partial_to_mask libc_rational st.1 st.2 ⟨1, 1⟩).bind (fun r =>
          (mask_elements r.2.1.mask).bind (fun els => .ok (r.2.2, els)))))
      = .ok (1, [0])) := by
  decide!

/-- C5 (amended): when `add_partial_to_mask` returns, with `v` the greater of
the contributions of the two neighbours that `skip_list_previous` and
`skip_list_next` give after the insertion, the value returned is 0 (the track
is marked masked) exactly when the maximum-channel level `max_vdB` of the
track is at or below `v`, and the track is removed again from the mask index
exactly when its minimum-channel level minus `DB_DIFF` is below `v`. -/
theorem add_partial_to_mask_verdict (c : libc) (g g1 : globals) (s s1 : sas_synthesizer_s)
    (p : partial_t) (r : Int) (h : add_partial_to_mask c g s p = .ok (g1, s1, r)) :
    ∃ (s0 : sas_synthesizer_s) (mp : Nat) (new_mp : masking_partial_s) (mask : skip_list_s)
      (lo hi : Option Nat) (v_lowf v_highf : ℚ),
      masking_partial_make c s p = .ok (s0, mp) ∧
      masking_partial_load s0.pool mp = .ok new_mp ∧
      skip_list_insert c g s0.mask s0.pool mp = .ok (g1, mask) ∧
      skip_list_previous mask = .ok lo ∧
      mask_contribution s0.pool RIGHT_LINE_COEFF new_mp lo = .ok v_lowf ∧
      skip_list_next mask = .ok hi ∧
      mask_contribution s0.pool LEFT_LINE_COEFF new_mp hi = .ok v_highf ∧
      (r = 0 ↔ new_mp.max_vdB ≤ max v_lowf v_highf) ∧
      (r ≠ 0 ↔ r = 1) ∧
      (new_mp.min_vdB - DB_DIFF < max v_lowf v_highf → skip_list_remove mask = .ok s1.mask) ∧
      (¬ new_mp.min_vdB - DB_DIFF < max v_lowf v_highf → s1.mask = mask) := by
  unfold add_partial_to_mask at h
  simp only [bind_ok_iff] at h
  obtain ⟨⟨s0, mp⟩, h1, new_mp, h2, ⟨g2, mask⟩, h3, lo, h4, v_lowf, h5, hi, h6, v_highf, h7,
    mask1, h8, h9⟩ := h
  simp only [pure, Except.pure, Except.ok.injEq, Prod.mk.injEq] at h9
  obtain ⟨rfl, rfl, rfl⟩ := h9
  refine ⟨s0, mp, new_mp, mask, lo, hi, v_lowf, v_highf, h1, h2, h3, h4, h5, h6, h7, ?_, ?_, ?_, ?_⟩
  · rw [c_bool_eq_zero, MAX_eq_max, decide_eq_false_iff_not]
    exact not_lt
  · unfold c_bool
    split_ifs <;> simp
  · intro hlt
    rw [MAX_eq_max] at h8
    simpa [hlt] using h8
  · intro hlt
    rw [MAX_eq_max] at h8
    simp only [hlt, if_false, pure, Except.pure, Except.ok.injEq] at h8
    exact h8.symm

/-- Witness for C5 (amended): the second track of `two_track_synth`, added
after the first. -/
theorem add_partial_to_mask_verdict_witness :
    ∃ (st : globals × sas_synthesizer_s) (g1 : globals) (s1 : sas_synthesizer_s) (r : Int),
      (reset_mask two_track_synth).bind (fun s =>
        mask_track libc_rational 0 (globals_start, { s with masked_tracks := 0 })) = .ok st ∧
      add_partial_to_mask libc_rational st.1 st.2 ⟨1, 1⟩ = .ok (g1, s1, r) ∧
      ∃ (s0 : sas_synthesizer_s) (mp : Nat) (new_mp : masking_partial_s) (mask : skip_list_s)
        (lo hi : Option Nat) (v_lowf v_highf : ℚ),
        masking_partial_make libc_rational st.2 ⟨1, 1⟩ = .ok (s0, mp) ∧
        masking_partial_load s0.pool mp = .ok new_mp ∧
        skip_list_insert libc_rational st.1 s0.mask s0.pool mp = .ok (g1, mask) ∧
        skip_list_previous mask = .ok lo ∧
        mask_contribution s0.pool RIGHT_LINE_COEFF new_mp lo = .ok v_lowf ∧
        skip_list_next mask = .ok hi ∧
        mask_contribution s0.pool LEFT_LINE_COEFF new_mp hi = .ok v_highf ∧
        (r = 0 ↔ new_mp.max_vdB ≤ max v_lowf v_highf) ∧
        (r ≠ 0 ↔ r = 1) ∧
        (new_mp.min_vdB - DB_DIFF < max v_lowf v_highf → skip_list_remove mask = .ok s1.mask) ∧
        (¬ new_mp.min_vdB - DB_DIFF < max v_lowf v_highf → s1.mask = mask) := by
  have hok : ((reset_mask two_track_synth).bind (fun s =>
      (mask_track libc_rational 0 (globals_start, { s with masked_tracks := 0 })).bind (fun st =>
        add_partial_to_mask libc_rational st.1 st.2 ⟨1, 1⟩))).isOk = true := by
    decide!
  cases h1 : (reset_mask two_track_synth).bind (fun s =>
      mask_track libc_rational 0 (globals_start, { s with masked_tracks := 0 })) with
  | error e =>
    exfalso
    cases h0 : reset_mask two_track_synth with
    | error e0 => simp [h0, Except.bind, Except.isOk, Except.toBool] at hok
    | ok s0 =>
      simp only [h0, Except.bind] at h1 hok
      simp [h1, Except.bind, Except.isOk, Except.toBool] at hok
  | ok st =>
    cases h2 : add_partial_to_mask libc_rational st.1 st.2 ⟨1, 1⟩ with
    | error e =>
      exfalso
      cases h0 : reset_mask two_track_synth with
      | error e0 => simp [h0, Except.bind] at h1
      | ok s0 =>
        simp only [h0, Except.bind] at h1 hok
        simp [h1, h2, Except.bind, Except.isOk, Except.toBool] at hok
    | ok res =>
      obtain ⟨g1, s1, r⟩ := res
      exact ⟨st, g1, s1, r, rfl, h2, add_partial_to_mask_verdict _ _ _ _ _ _ _ h2⟩

/-! ## The verdict on a track does not depend on the tracks after it -/

theorem map_bind {α β γ : Type} (x : Except fault α) (f : α → Except fault β) (h : β → γ) :
    (x >>= f).map h = x >>= (fun a => (f a).map h) := by
  cases x <;> rfl

theorem map_ok {β γ : Type} (b : β) (h : β → γ) :
    (pure b : Except fault β).map h = pure (h b) := rfl

theorem map_error {β γ : Type} (e : fault) (h : β → γ) :
    (Except.error e : Except fault β).map h = Except.error e := rfl

theorem map_ite {β γ : Type} (P : Prop) [Decidable P] (x y : Except fault β) (h : β → γ) :
    (if P then x else y).map h = if P then x.map h else y.map h := by
  split_ifs <;> rfl

theorem masking_partial_make_frame (c : libc) (t : List (Option partial_t)) (k : Int)
    (s : sas_synthesizer_s) (p : partial_t) :
    masking_partial_make c (with_tracks2 t k s) p =
      (masking_partial_make c s p).map (fun r => (with_tracks2 t k r.1, r.2)) := by
  unfold masking_partial_make
  simp only [map_ite, map_bind, map_ok, map_error]
  rfl

theorem add_partial_to_mask_frame (c : libc) (g : globals) (t : List (Option partial_t))
    (k : Int) (s : sas_synthesizer_s) (p : partial_t) :
    add_partial_to_mask c g (with_tracks2 t k s) p =
      (add_partial_to_mask c g s p).map (fun r => (r.1, with_tracks2 t k r.2.1, r.2.2)) := by
  unfold add_partial_to_mask
  rw [masking_partial_make_frame]
  simp only [map_bind, map_ok]
  cases masking_partial_make c s p with
  | error e => rfl
  | ok r => rfl

theorem partial_store_frame (t : List (Option partial_t)) (k : Int) (s : sas_synthesizer_s)
    (p : partial_t) (v : partial_s) :
    partial_store (with_tracks2 t k s) p v = (partial_store s p v).map (with_tracks2 t k) := by
  unfold partial_store
  simp only [map_bind, map_ok]
  rfl

theorem reset_mask_frame (t : List (Option partial_t)) (k : Int) (s : sas_synthesizer_s) :
    reset_mask (with_tracks2 t k s) = (reset_mask s).map (with_tracks2 t k) := by
  unfold reset_mask
  simp only [map_bind, map_ok]
  rfl

theorem mark_masked_frame (t : List (Option partial_t)) (k : Int) (p : partial_t)
    (g : globals) (s : sas_synthesizer_s) (r : Int) :
    mark_masked p g (with_tracks2 t k s) r =
      (mark_masked p g s r).map (fun x => (x.1, with_tracks2 t k x.2)) := by
  unfold mark_masked
  have h4 : ({ with_tracks2 t k s with
      masked_tracks := (with_tracks2 t k s).masked_tracks + 1 } : sas_synthesizer_s) =
      with_tracks2 t k { s with masked_tracks := s.masked_tracks + 1 } := rfl
  simp only [map_ite, map_bind, map_ok, h4, partial_store_frame]
  split_ifs with hr
  · have h2 : partial_load (with_tracks2 t k { s with masked_tracks := s.masked_tracks + 1 }) p =
        partial_load ({ s with masked_tracks := s.masked_tracks + 1 }) p := rfl
    rw [h2]
    cases partial_load ({ s with masked_tracks := s.masked_tracks + 1 }) p with
    | error e => rfl
    | ok v =>
      simp only [bind, Except.bind]
      cases partial_store { s with masked_tracks := s.masked_tracks + 1 } p
        { v with aenv := { v.aenv with x3 := BELOW_MIN_AMP } } with
      | error e => rfl
      | ok s2 => rfl
  · rfl

theorem mask_track_frame (c : libc) (g : globals) (t : List (Option partial_t)) (k : Int)
    (s : sas_synthesizer_s) (i : Nat) (ht : t[i]? = s.tracks2[i]?) :
    mask_track c i (g, with_tracks2 t k s) =
      (mask_track c i (g, s)).map (fun r => (r.1, with_tracks2 t k r.2)) := by
  unfold mask_track
  have h1 : array_get (g, with_tracks2 t k s).2.tracks2 i = array_get (g, s).2.tracks2 i := by
    show array_get t i = array_get s.tracks2 i
    unfold array_get
    rw [List.get?_eq_getElem?, List.get?_eq_getElem?, ht]
  rw [h1]
  simp only [map_bind]
  cases array_get (g, s).2.tracks2 i with
  | error e => rfl
  | ok cell =>
    cases cell with
    | none => rfl
    | some p =>
      simp only [bind, Except.bind, add_partial_to_mask_frame]
      cases add_partial_to_mask c g s p with
      | error e => rfl
      | ok r =>
        simp only [Except.map, mark_masked_frame]

theorem with_tracks2_self (s : sas_synthesizer_s) :
    with_tracks2 s.tracks2 s.audible_tracks s = s := rfl

theorem mask_track_tracks2 (c : libc) (i : Nat) (g g1 : globals) (s s1 : sas_synthesizer_s)
    (h : mask_track c i (g, s) = .ok (g1, s1)) : s1.tracks2 = s.tracks2 := by
  have hf := mask_track_frame c g s.tracks2 s.audible_tracks s i rfl
  rw [with_tracks2_self, h] at hf
  simp only [Except.map, Except.ok.injEq, Prod.mk.injEq, true_and] at hf
  rw [hf]
  rfl

theorem mask_loop_frame (c : libc) (t : List (Option partial_t)) (k : Int) :
    ∀ (n i : Nat) (g : globals) (s : sas_synthesizer_s),
      (∀ j, i ≤ j → j < i + n → t[j]? = s.tracks2[j]?) →
      for_loop (mask_track c) n i (g, with_tracks2 t k s) =
        (for_loop (mask_track c) n i (g, s)).map (fun r => (r.1, with_tracks2 t k r.2)) := by
  intro n
  induction n with
  | zero =>
    intro i g s _
    rfl
  | succ n ih =>
    intro i g s ht
    simp only [for_loop]
    rw [mask_track_frame c g t k s i (ht i (Nat.le_refl i) (by omega))]
    cases hm : mask_track c i (g, s) with
    | error e => rfl
    | ok r =>
      obtain ⟨g1, s1⟩ := r
      have hpres := mask_track_tracks2 c i g g1 s s1 hm
      simp only [Except.map, Except.bind]
      exact ih (i + 1) g1 s1 (fun j hj1 hj2 => by
        rw [hpres]
        exact ht j (by omega) (by omega))

theorem mask_loop_tracks2 (c : libc) (n i : Nat) (g g1 : globals) (s s1 : sas_synthesizer_s)
    (h : for_loop (mask_track c) n i (g, s) = .ok (g1, s1)) : s1.tracks2 = s.tracks2 := by
  have hf := mask_loop_frame c s.tracks2 s.audible_tracks n i g s (fun _ _ _ => rfl)
  rw [with_tracks2_self, h] at hf
  simp only [Except.map, Except.ok.injEq, Prod.mk.injEq, true_and] at hf
  rw [hf]
  rfl

theorem mask_verdict_frame (c : libc) (g : globals) (t : List (Option partial_t)) (k : Int)
    (s : sas_synthesizer_s) (i : Nat) (ht : ∀ j, j ≤ i → t[j]? = s.tracks2[j]?) :
    mask_verdict c g (with_tracks2 t k s) i = mask_verdict c g s i := by
  unfold mask_verdict
  rw [reset_mask_frame]
  cases hr : reset_mask s with
  | error e => rfl
  | ok s0 =>
    have hs0 : s0.tracks2 = s.tracks2 := by
      unfold reset_mask at hr
      simp only [bind_ok_iff, pure, Except.pure, Except.ok.injEq] at hr
      obtain ⟨m, -, rfl⟩ := hr
      rfl
    simp only [Except.map, bind, Except.bind]
    have h1 : ({ with_tracks2 t k s0 with masked_tracks := 0 } : sas_synthesizer_s) =
        with_tracks2 t k { s0 with masked_tracks := 0 } := rfl
    rw [h1, mask_loop_frame c t k i 0 g { s0 with masked_tracks := 0 } (fun j _ hj => by
      show t[j]? = s0.tracks2[j]?
      rw [hs0]
      exact ht j (by omega))]
    cases hl : for_loop (mask_track c) i 0 (g, { s0 with masked_tracks := 0 }) with
    | error e => rfl
    | ok r =>
      obtain ⟨g1, s1⟩ := r
      have hs1 : s1.tracks2 = s.tracks2 := by
        rw [mask_loop_tracks2 c i 0 g g1 _ s1 hl]
        exact hs0
      simp only [Except.map]
      have h2 : array_get (with_tracks2 t k s1).tracks2 i = array_get s1.tracks2 i := by
        show array_get t i = array_get s1.tracks2 i
        unfold array_get
        rw [List.get?_eq_getElem?, List.get?_eq_getElem?, hs1, ht i (Nat.le_refl i)]
      rw [h2]
      cases array_get s1.tracks2 i with
      | error e => rfl
      | ok cell =>
        cases cell with
        | none => rfl
        | some p =>
          simp only [add_partial_to_mask_frame]
          cases add_partial_to_mask c g1 s1 p with
          | error e => rfl
          | ok x => rfl

theorem for_loop_split {σ : Type} (body : Nat → σ → Except fault σ) :
    ∀ (m n i : Nat) (st : σ),
      for_loop body (m + n) i st = (for_loop body m i st).bind (for_loop body n (i + m)) := by
  intro m
  induction m with
  | zero =>
    intro n i st
    simp [for_loop, Except.bind]
  | succ m ih =>
    intro n i st
    have e1 : m + 1 + n = (m + n) + 1 := by omega
    rw [e1]
    simp only [for_loop]
    cases body i st with
    | error e => rfl
    | ok st1 =>
      simp only [Except.bind]
      rw [ih n (i + 1) st1]
      have e2 : i + 1 + m = i + (m + 1) := by omega
      rw [e2]
      rfl

/-- C6: in a secondary array sorted by non-increasing amplitude, as
`update_tracks` hands it to `update_mask`, a partial that is louder than
another one stands before it, and the value that `add_partial_to_mask` returns
for the louder partial is the one it returns when the quieter partial is taken
out of the array; this holds for any two frequencies, equal ones included. -/
theorem masking_monotonicity (c : libc) (g : globals) (s : sas_synthesizer_s) (n i j : Nat)
    (pi pj : partial_t)
    (hsorted : ∀ a b pa pb, a < b → b < n → s.tracks2[a]? = some (some pa) →
      s.tracks2[b]? = some (some pb) → partial_amplitude s pb ≤ partial_amplitude s pa)
    (hin : i < n) (hi : s.tracks2[i]? = some (some pi)) (hj : s.tracks2[j]? = some (some pj))
    (hamp : partial_amplitude s pj < partial_amplitude s pi) :
    i < j ∧
      mask_verdict c g (with_tracks2 (s.tracks2.eraseIdx j) (s.audible_tracks - 1) s) i =
        mask_verdict c g s i := by
  have hij : i < j := by
    rcases Nat.lt_trichotomy i j with h | h | h
    · exact h
    · exfalso
      subst h
      rw [hi] at hj
      simp only [Option.some.injEq] at hj
      subst hj
      exact lt_irrefl _ hamp
    · exfalso
      exact absurd (hsorted j i pj pi h hin hj hi) (not_le.mpr hamp)
  refine ⟨hij, ?_⟩
  apply mask_verdict_frame
  intro m hm
  exact List.getElem?_eraseIdx_of_lt _ _ _ (by omega)

/-- Witness for C6: the two tracks of `two_track_synth`, of amplitudes 1/5
and 1/50. -/
theorem masking_monotonicity_witness :
    0 < 1 ∧
      mask_verdict libc_rational globals_start
          (with_tracks2 (two_track_synth.tracks2.eraseIdx 1) (two_track_synth.audible_tracks - 1)
            two_track_synth) 0 =
        mask_verdict libc_rational globals_start two_track_synth 0 :=
  masking_monotonicity libc_rational globals_start two_track_synth 2 0 1 ⟨1, 0⟩ ⟨1, 1⟩
    (by
      intro a b pa pb hab hb ha1 hb1
      have ha0 : a = 0 := by omega
      have hb0 : b = 1 := by omega
      subst ha0 hb0
      have e1 : pa = ⟨1, 0⟩ := by
        simpa [two_track_synth, synth_with, eq_comm] using ha1
      have e2 : pb = ⟨1, 1⟩ := by
        simpa [two_track_synth, synth_with, eq_comm] using hb1
      subst e1 e2
      decide!)
    (by decide) rfl rfl (by decide!)

/-! ## The track loops of update_source -/

theorem for_loop_preserves {σ : Type} (body : Nat → σ → Except fault σ) (P : Nat → σ → Prop) :
    ∀ (n i : Nat) (st st1 : σ),
      (∀ j t t1, i ≤ j → j < i + n → body j t = .ok t1 → P j t → P (j + 1) t1) →
      for_loop body n i st = .ok st1 → P i st → P (i + n) st1 := by
  intro n
  induction n with
  | zero =>
    intro i st st1 _ h h0
    simp only [for_loop, Except.ok.injEq] at h
    subst h
    exact h0
  | succ n ih =>
    intro i st st1 hstep h h0
    simp only [for_loop] at h
    cases hb : body i st with
    | error e => simp [hb, Except.bind] at h
    | ok t1 =>
      simp only [hb, Except.bind] at h
      have := ih (i + 1) t1 st1 (fun j t t2 hj1 hj2 => hstep j t t2 (by omega) (by omega)) h
        (hstep i st t1 (Nat.le_refl i) (by omega) hb h0)
      have e : i + (n + 1) = i + 1 + n := by omega
      rw [e]
      exact this

theorem loops_frame_refl (st : update_state) : loops_frame st st :=
  ⟨rfl, rfl, rfl, rfl, rfl⟩

theorem loops_frame_trans (a b d : update_state) (h1 : loops_frame a b) (h2 : loops_frame b d) :
    loops_frame a d :=
  ⟨h2.source_fields.trans h1.source_fields, h2.tracks_length.trans h1.tracks_length,
    h2.synth_fields.trans h1.synth_fields, h2.slots_length.trans h1.slots_length,
    h2.memory.trans h1.memory⟩

theorem map_set_same {α β : Type} (f : α → β) (l : List α) (i : Nat) (x y : α)
    (h : l[i]? = some x) (hf : f y = f x) : (l.set i y).map f = l.map f := by
  apply List.ext_getElem?
  intro j
  simp only [List.getElem?_map]
  by_cases hj : i = j
  · subst hj
    have hlt : i < l.length := (List.getElem?_eq_some_iff.mp h).1
    rw [List.getElem?_set_self hlt, h]
    simp [hf]
  · rw [List.getElem?_set_ne hj]

theorem continuing_harmonic_frame (c : libc) (i : Nat) (st st1 : update_state)
    (h : continuing_harmonic c i st = .ok st1) :
    loops_frame st st1 ∧ st1.source.tracks.map targets = st.source.tracks.map targets ∧
      st1.birth = st.birth ∧ st1.death = st.death := by
  unfold continuing_harmonic at h
  simp only [bind_ok_iff] at h
  obtain ⟨p, hp, h⟩ := h
  rw [array_get_eq_ok] at hp
  split_ifs at h with h1 h2 h3 h4 h5
  all_goals first
    | (simp only [bind_ok_iff, pure, Except.pure, Except.ok.injEq, array_set_eq_ok] at h
       obtain ⟨ts, ⟨hlt, rfl⟩, rfl⟩ := h
       exact ⟨⟨rfl, by simp, rfl, rfl, rfl⟩, map_set_same targets _ _ _ _ hp rfl, rfl, rfl⟩)
    | (simp only [bind_ok_iff, pure, Except.pure, Except.ok.injEq, array_set_eq_ok] at h
       obtain ⟨tr, ⟨hlt0, rfl⟩, ts, ⟨hlt, rfl⟩, rfl⟩ := h
       exact ⟨⟨rfl, by simp, rfl, by simp, rfl⟩, map_set_same targets _ _ _ _ hp rfl, rfl, rfl⟩)

theorem birth_of_harmonic_frame (i : Nat) (st st1 : update_state)
    (h : birth_of_harmonic i st = .ok st1) :
    loops_frame st st1 ∧ st1.source.tracks.map targets = st.source.tracks.map targets ∧
      st1.s = st.s ∧ st1.g = st.g := by
  unfold birth_of_harmonic at h
  simp only [bind_ok_iff, pure, Except.pure, Except.ok.injEq, array_set_eq_ok] at h
  obtain ⟨p, hp, ts, ⟨hlt, rfl⟩, rfl⟩ := h
  rw [array_get_eq_ok] at hp
  exact ⟨⟨rfl, by simp, rfl, rfl, rfl⟩, map_set_same targets _ _ _ _ hp rfl, rfl, rfl⟩

theorem death_of_harmonic_frame (i : Nat) (st st1 : update_state)
    (h : death_of_harmonic i st = .ok st1) :
    loops_frame st st1 ∧ st1.s = st.s ∧ st1.g = st.g := by
  unfold death_of_harmonic at h
  simp only [bind_ok_iff, pure, Except.pure, Except.ok.injEq, array_set_eq_ok] at h
  obtain ⟨p, hp, ts, ⟨hlt, rfl⟩, rfl⟩ := h
  exact ⟨⟨rfl, by simp, rfl, rfl, rfl⟩, rfl, rfl⟩

theorem dying_harmonic_frame (i : Nat) (st st1 : update_state)
    (h : dying_harmonic i st = .ok st1) :
    loops_frame st st1 ∧ st1.source.tracks.map targets = st.source.tracks.map targets ∧
      st1.birth = st.birth ∧ st1.death = st.death ∧ st1.g = st.g ∧
      st1.s.active_tracks = st.s.active_tracks := by
  unfold dying_harmonic at h
  simp only [bind_ok_iff] at h
  obtain ⟨p, hp, h⟩ := h
  rw [array_get_eq_ok] at hp
  split_ifs at h with h1
  · cases hl : p.link with
    | none => simp [hl] at h
    | some l =>
      simp only [hl, bind_ok_iff, pure, Except.pure, Except.ok.injEq, array_set_eq_ok] at h
      obtain ⟨tr, ⟨hlt0, rfl⟩, ts, ⟨hlt, rfl⟩, rfl⟩ := h
      exact ⟨⟨rfl, by simp, rfl, by simp, rfl⟩, map_set_same targets _ _ _ _ hp rfl, rfl, rfl,
        rfl, rfl⟩
  · simp only [bind_ok_iff, pure, Except.pure, Except.ok.injEq, array_set_eq_ok] at h
    obtain ⟨ts, ⟨hlt, rfl⟩, rfl⟩ := h
    exact ⟨⟨rfl, by simp, rfl, rfl, rfl⟩, map_set_same targets _ _ _ _ hp rfl, rfl, rfl, rfl, rfl⟩

theorem loop_frame (body : Nat → update_state → Except fault update_state)
    (hbody : ∀ j t t1, body j t = .ok t1 → loops_frame t t1) (n i : Nat)
    (st st1 : update_state) (h : for_loop body n i st = .ok st1) : loops_frame st st1 :=
  for_loop_preserves body (fun _ t => loops_frame st t) n i st st1
    (fun j t t1 _ _ hb ht => loops_frame_trans st t t1 ht (hbody j t t1 hb)) h
    (loops_frame_refl st)

theorem update_partials_frame (c : libc) (g : globals) (s : sas_synthesizer_s)
    (source : sas_source_s) (harmonics active : Int) (st : update_state)
    (h : update_partials c g s source harmonics active = .ok st) :
    loops_frame { g := g, s := s, source := source, birth := 0, death := 0, links := 0 } st := by
  unfold update_partials at h
  simp only [bind_ok_iff, pure, Except.pure, Except.ok.injEq] at h
  obtain ⟨st1, h1, st2, h2, st3, h3, st4, h4, rfl⟩ := h
  have f1 := loop_frame _ (fun j t t1 hb => (continuing_harmonic_frame c j t t1 hb).1) _ _ _ _ h1
  have f2 := loop_frame _ (fun j t t1 hb => (birth_of_harmonic_frame j t t1 hb).1) _ _ _ _ h2
  have f3 := loop_frame _ (fun j t t1 hb => (death_of_harmonic_frame j t t1 hb).1) _ _ _ _ h3
  have f4 := loop_frame _ (fun j t t1 hb => (dying_harmonic_frame j t t1 hb).1) _ _ _ _ h4
  exact loops_frame_trans _ _ _ (loops_frame_trans _ _ _ (loops_frame_trans _ _ _ f1 f2) f3) f4

theorem find_filter_none (l : List sas_source_s) (id : Nat) :
    (l.filter (fun x => decide (x.id ≠ id))).find? (fun x => decide (x.id = id)) = none := by
  rw [List.find?_eq_none]
  intro x hx
  have := (List.mem_filter.mp hx).2
  simpa using this

theorem delayed_free_effect (c : libc) (g g2 : globals) (s s2 : sas_synthesizer_s) (id : Nat)
    (h : sas_synthesizer_source_delayed_free c g s id = .ok (g2, s2)) :
    (∀ e, source_load s id = .error e → g2 = g ∧ s2 = s) ∧
    (∀ src, source_load s id = .ok src →
      s2.sources = s.sources.filter (fun x => decide (x.id ≠ id)) ∧
      s2.number_of_sources = s.number_of_sources - 1) := by
  unfold sas_synthesizer_source_delayed_free at h
  unfold source_load
  cases hf : s.sources.find? (fun x => decide (x.id = id)) with
  | none =>
    simp only [hf, Except.ok.injEq, Prod.mk.injEq] at h
    refine ⟨fun _ _ => ⟨h.1.symm, h.2.symm⟩, ?_⟩
    intro src hs
    cases hs
  | some src0 =>
    refine ⟨fun e he => (by cases he), ?_⟩
    intro src _
    simp only [hf, bind_ok_iff] at h
    obtain ⟨s1, h1, g1, -, h3⟩ := h
    have hs1 : s1.sources = s.sources.filter (fun x => decide (x.id ≠ id)) ∧
        s1.number_of_sources = s.number_of_sources := by
      refine for_loop_preserves _ (fun _ (t : sas_synthesizer_s) =>
        t.sources = s.sources.filter (fun x => decide (x.id ≠ id)) ∧
          t.number_of_sources = s.number_of_sources) _ _ _ _ ?_ h1 ⟨rfl, rfl⟩
      intro j t t1 _ _ hb ht
      simp only [bind_ok_iff] at hb
      obtain ⟨p, -, hb⟩ := hb
      cases hl : p.link with
      | none => simp [hl] at hb
      | some l =>
        simp only [hl, bind_ok_iff, pure, Except.pure, Except.ok.injEq] at hb
        obtain ⟨ts, -, rfl⟩ := hb
        exact ht
    split_ifs at h3 with h0
    all_goals
      simp only [pure, Except.pure, Except.ok.injEq, Prod.mk.injEq] at h3
      obtain ⟨-, rfl⟩ := h3
      exact ⟨hs1.1, by show s1.number_of_sources - 1 = _; rw [hs1.2]⟩

theorem harmonic_scan_decline (c : libc) (g : globals) (s : sas_synthesizer_s)
    (src : sas_source_s)
    (hdecl : (src.update src.call_data g).2.1 = none ∨ (src.update src.call_data g).2.2 = none) :
    harmonic_scan c g s src =
      .ok ⟨(src.update src.call_data g).1, src, 0, src.active_tracks⟩ := by
  unfold harmonic_scan
  rcases hu : src.update src.call_data g with ⟨g1, fr, po⟩
  rw [hu] at hdecl
  cases fr with
  | none => rfl
  | some f =>
    cases po with
    | none => rfl
    | some q => simp at hdecl

theorem update_partials_decline (c : libc) (g : globals) (s : sas_synthesizer_s)
    (src : sas_source_s) (st : update_state)
    (h : update_partials c g s src 0 src.active_tracks = .ok st) :
    st.source.tracks.map targets = src.tracks.map targets ∧ st.birth = 0 ∧ st.death = 0 := by
  unfold update_partials at h
  simp only [bind_ok_iff, pure, Except.pure, Except.ok.injEq] at h
  obtain ⟨st1, h1, st2, h2, st3, h3, st4, h4, rfl⟩ := h
  have e2 : ((0 : Int) - ((0 + (src.active_tracks - ((0 : Nat) : Int)).toNat : Nat) : Int)).toNat = 0 := by
    omega
  have e3 : (src.active_tracks - ((0 + (src.active_tracks - ((0 : Nat) : Int)).toNat +
      ((0 : Int) - ((0 + (src.active_tracks - ((0 : Nat) : Int)).toNat : Nat) : Int)).toNat : Nat) : Int)).toNat
      = 0 := by
    omega
  rw [e2] at h2
  rw [e3] at h3
  simp only [for_loop, Except.ok.injEq] at h2 h3
  subst h2
  subst h3
  have p1 := for_loop_preserves _ (fun _ (t : update_state) =>
    t.source.tracks.map targets = src.tracks.map targets ∧ t.birth = 0 ∧ t.death = 0)
    _ _ _ _ (fun j t t1 _ _ hb ht => by
      obtain ⟨-, a1, a2, a3⟩ := continuing_harmonic_frame c j t t1 hb
      exact ⟨a1.trans ht.1, a2.trans ht.2.1, a3.trans ht.2.2⟩) h1 ⟨rfl, rfl, rfl⟩
  exact for_loop_preserves _ (fun _ (t : update_state) =>
    t.source.tracks.map targets = src.tracks.map targets ∧ t.birth = 0 ∧ t.death = 0)
    _ _ _ _ (fun j t t1 _ _ hb ht => by
      obtain ⟨-, a1, a2, a3, -⟩ := dying_harmonic_frame j t t1 hb
      exact ⟨a1.trans ht.1, a2.trans ht.2.1, a3.trans ht.2.2⟩) h4 p1

theorem loops_frame_source (st st1 : update_state) (h : loops_frame st st1) :
    st1.source.id = st.source.id ∧ st1.source.update = st.source.update ∧
      st1.source.call_data = st.source.call_data ∧
      st1.source.propagated_frames = st.source.propagated_frames ∧
      st1.source.emission_index = st.source.emission_index ∧
      st1.source.position = st.source.position ∧ st1.source.distance = st.source.distance ∧
      st1.source.cos_angle = st.source.cos_angle ∧ st1.source.doppler = st.source.doppler ∧
      st1.source.l_ratio = st.source.l_ratio ∧ st1.source.r_ratio = st.source.r_ratio ∧
      st1.source.active_tracks = st.source.active_tracks ∧
      st1.source.linked_tracks = st.source.linked_tracks ∧
      st1.source.delayed_free = st.source.delayed_free := by
  have hs := h.source_fields
  refine ⟨?_, ?_, ?_, ?_, ?_, ?_, ?_, ?_, ?_, ?_, ?_, ?_, ?_, ?_⟩
  · have := congrArg sas_source_s.id hs; exact this
  · have := congrArg sas_source_s.update hs; exact this
  · have := congrArg sas_source_s.call_data hs; exact this
  · have := congrArg sas_source_s.propagated_frames hs; exact this
  · have := congrArg sas_source_s.emission_index hs; exact this
  · have := congrArg sas_source_s.position hs; exact this
  · have := congrArg sas_source_s.distance hs; exact this
  · have := congrArg sas_source_s.cos_angle hs; exact this
  · have := congrArg sas_source_s.doppler hs; exact this
  · have := congrArg sas_source_s.l_ratio hs; exact this
  · have := congrArg sas_source_s.r_ratio hs; exact this
  · have := congrArg sas_source_s.active_tracks hs; exact this
  · have := congrArg sas_source_s.linked_tracks hs; exact this
  · have := congrArg sas_source_s.delayed_free hs; exact this

theorem loops_frame_synth (st st1 : update_state) (h : loops_frame st st1) :
    st1.s.sources = st.s.sources ∧ st1.s.number_of_sources = st.s.number_of_sources ∧
      st1.s.amplitude_factor = st.s.amplitude_factor ∧ st1.s.allocated = st.s.allocated ∧
      st1.s.audible_tracks = st.s.audible_tracks ∧ st1.s.masked_tracks = st.s.masked_tracks ∧
      st1.s.threshold = st.s.threshold ∧ st1.s.tracks2 = st.s.tracks2 ∧
      st1.s.mask = st.s.mask ∧ st1.s.pool = st.s.pool := by
  have hs := h.synth_fields
  refine ⟨?_, ?_, ?_, ?_, ?_, ?_, ?_, ?_, ?_, ?_⟩
  · have := congrArg sas_synthesizer_s.sources hs; exact this
  · have := congrArg sas_synthesizer_s.number_of_sources hs; exact this
  · have := congrArg sas_synthesizer_s.amplitude_factor hs; exact this
  · have := congrArg sas_synthesizer_s.allocated hs; exact this
  · have := congrArg sas_synthesizer_s.audible_tracks hs; exact this
  · have := congrArg sas_synthesizer_s.masked_tracks hs; exact this
  · have := congrArg sas_synthesizer_s.threshold hs; exact this
  · have := congrArg sas_synthesizer_s.tracks2 hs; exact this
  · have := congrArg sas_synthesizer_s.mask hs; exact this
  · have := congrArg sas_synthesizer_s.pool hs; exact this

theorem source_load_store_self (s : sas_synthesizer_s) (src v : sas_source_s) (id : Nat)
    (h : source_load s id = .ok src) (hv : v.id = src.id) :
    source_load (source_store s v) id = .ok v := by
  have hid := source_load_id s id src h
  rw [source_load_store, h]
  simp [Except.map, hv]

theorem step_source_fields (st : update_state) :
    (step_source st).id = st.source.id ∧ (step_source st).update = st.source.update ∧
      (step_source st).call_data = st.source.call_data ∧
      (step_source st).propagated_frames = st.source.propagated_frames ∧
      (step_source st).position = st.source.position ∧
      (step_source st).distance = st.source.distance ∧
      (step_source st).cos_angle = st.source.cos_angle ∧
      (step_source st).doppler = st.source.doppler ∧
      (step_source st).l_ratio = st.source.l_ratio ∧
      (step_source st).r_ratio = st.source.r_ratio ∧
      (step_source st).tracks = st.source.tracks ∧
      (step_source st).delayed_free = st.source.delayed_free ∧
      (step_source st).active_tracks = st.source.active_tracks + (st.birth - st.death) ∧
      (step_source st).linked_tracks = st.source.linked_tracks + st.links :=
  ⟨rfl, rfl, rfl, rfl, rfl, rfl, rfl, rfl, rfl, rfl, rfl, rfl, rfl, rfl⟩

/-! ## A producer that declines -/

/-- C8: when the callback leaves the frame or the position unset and
`update_source` returns, the source, if it is still registered, has the same
count of active tracks, position, distance, cosine, Doppler factor and pan
ratios, the same propagated frames, and every partial of it has the same
target amplitude and frequency; when no deletion of the source is pending it
is still registered and the memory, the state of the random generator apart,
is the one that a single call of the callback has left. -/
theorem update_source_decline (c : libc) (g g2 : globals) (s s2 : sas_synthesizer_s) (id : Nat)
    (src : sas_source_s) (hsrc : source_load s id = .ok src)
    (hdecl : (src.update src.call_data g).2.1 = none ∨ (src.update src.call_data g).2.2 = none)
    (h : update_source c g s id = .ok (g2, s2)) :
    (src.delayed_free = 0 →
      { g2 with random_state := (src.update src.call_data g).1.random_state } =
          (src.update src.call_data g).1 ∧
        ∃ src2, source_load s2 id = .ok src2) ∧
    ∀ src2, source_load s2 id = .ok src2 →
      src2.active_tracks = src.active_tracks ∧ src2.position = src.position ∧
      src2.distance = src.distance ∧ src2.cos_angle = src.cos_angle ∧
      src2.doppler = src.doppler ∧ src2.l_ratio = src.l_ratio ∧ src2.r_ratio = src.r_ratio ∧
      src2.propagated_frames = src.propagated_frames ∧
      src2.tracks.map targets = src.tracks.map targets := by
  unfold update_source at h
  rw [hsrc] at h
  simp only [bind, Except.bind] at h
  rw [harmonic_scan_decline c g s src hdecl] at h
  simp only [] at h
  unfold update_source_tracks at h
  simp only [bind_ok_iff] at h
  obtain ⟨st, hst, h⟩ := h
  have hfr := update_partials_frame c _ s src 0 src.active_tracks st hst
  obtain ⟨htg, hb, hd⟩ := update_partials_decline c _ s src st hst
  obtain ⟨q1, q2, q3, q4, q5, q6, q7, q8, q9, q10, q11, q12, q13, q14⟩ := step_source_fields st
  obtain ⟨f1, f2, f3, f4, f5, f6, f7, f8, f9, f10, f11, f12, f13, f14⟩ :=
    loops_frame_source _ st hfr
  simp only [] at f1 f2 f3 f4 f5 f6 f7 f8 f9 f10 f11 f12 f13 f14
  have hsrcs : st.s.sources = s.sources := (loops_frame_synth _ st hfr).1
  have hload : source_load st.s id = .ok src := by
    unfold source_load
    rw [hsrcs]
    exact hsrc
  have hsid : st.source.id = src.id := f1
  have hid : src.id = id := source_load_id s id src hsrc
  have hstored : source_load (source_store st.s (step_source st)) id = .ok (step_source st) :=
    source_load_store_self st.s src _ id hload (q1.trans hsid)
  have hfields : (step_source st).active_tracks = src.active_tracks ∧
      (step_source st).position = src.position ∧
      (step_source st).distance = src.distance ∧ (step_source st).cos_angle = src.cos_angle ∧
      (step_source st).doppler = src.doppler ∧ (step_source st).l_ratio = src.l_ratio ∧
      (step_source st).r_ratio = src.r_ratio ∧
      (step_source st).propagated_frames = src.propagated_frames ∧
      (step_source st).tracks.map targets = src.tracks.map targets := by
    refine ⟨?_, ?_, ?_, ?_, ?_, ?_, ?_, ?_, ?_⟩
    · rw [q13, hb, hd, f12]
      ring
    · rw [q5]; exact f6
    · rw [q6]; exact f7
    · rw [q7]; exact f8
    · rw [q8]; exact f9
    · rw [q9]; exact f10
    · rw [q10]; exact f11
    · rw [q4]; exact f4
    · rw [q11]; exact htg
  have hdf : (step_source st).delayed_free = src.delayed_free := by
    rw [q12]
    exact f14
  split_ifs at h with hcond
  · refine ⟨fun h0 => absurd (hdf.trans h0) hcond.1, ?_⟩
    intro src2 h2
    exfalso
    have heff := (delayed_free_effect c _ g2 _ s2 _ h).2 (step_source st)
      (by rw [q1, hsid, hid]; exact hstored)
    unfold source_load at h2
    rw [heff.1, q1, hsid, hid, find_filter_none] at h2
    cases h2
  · simp only [pure, Except.pure, Except.ok.injEq, Prod.mk.injEq] at h
    obtain ⟨rfl, rfl⟩ := h
    refine ⟨fun _ => ⟨?_, _, hstored⟩, ?_⟩
    · have hm := hfr.memory
      have := congrArg (fun x : globals =>
        { x with random_state := (src.update src.call_data g).1.random_state }) hm
      exact this
    · intro src2 h2
      rw [hstored] at h2
      cases h2
      exact hfields

theorem exists_of_isOk {α : Type} (x : Except fault α) (h : x.isOk = true) : ∃ r, x = .ok r := by
  cases x with
  | error e => simp [Except.isOk, Except.toBool] at h
  | ok r => exact ⟨r, rfl⟩

/-- Witness for C8: the source of `small_synth`, whose callback declines. -/
theorem update_source_decline_witness :
    ∃ (g2 : globals) (s2 : sas_synthesizer_s) (src : sas_source_s),
      source_load small_synth 1 = .ok src ∧
      update_source libc_rational globals_start small_synth 1 = .ok (g2, s2) ∧
      (src.delayed_free = 0 →
        { g2 with random_state := (src.update src.call_data globals_start).1.random_state } =
            (src.update src.call_data globals_start).1 ∧
          ∃ src2, source_load s2 1 = .ok src2) ∧
      ∀ src2, source_load s2 1 = .ok src2 →
        src2.active_tracks = src.active_tracks ∧ src2.position = src.position ∧
        src2.distance = src.distance ∧ src2.cos_angle = src.cos_angle ∧
        src2.doppler = src.doppler ∧ src2.l_ratio = src.l_ratio ∧ src2.r_ratio = src.r_ratio ∧
        src2.propagated_frames = src.propagated_frames ∧
        src2.tracks.map targets = src.tracks.map targets := by
  obtain ⟨r, hr⟩ := exists_of_isOk (update_source libc_rational globals_start small_synth 1)
    (by decide!)
  obtain ⟨g2, s2⟩ := r
  exact ⟨g2, s2, _, rfl, hr,
    update_source_decline libc_rational globals_start g2 small_synth s2 1 _ rfl (Or.inl rfl) hr⟩

/-! ## The harmonic scan -/

theorem scan_harmonic_lifecycle (g : globals) (s : sas_synthesizer_s) (frameA frameF : ℚ)
    (frameC frameW : sas_envelope_t) (i : Nat) (st st2 : scan_state)
    (hst2 : scan_harmonic g s frameA frameF frameC frameW i st = .ok st2) :
    st2.tracks.map lifecycle = st.tracks.map lifecycle ∧
      (0 ≤ st.harmonics → st.harmonics ≤ i → 0 ≤ st2.harmonics ∧ st2.harmonics ≤ i + 1) := by
  unfold scan_harmonic at hst2
  simp only [bind_ok_iff] at hst2
  obtain ⟨p, hp, f, -, hst2⟩ := hst2
  rw [array_get_eq_ok] at hp
  split_ifs at hst2 with h1
  · simp only [bind_ok_iff] at hst2
    obtain ⟨a, -, th, -, hst2⟩ := hst2
    split_ifs at hst2 with h2
    · simp only [bind_ok_iff, pure, Except.pure, Except.ok.injEq, array_set_eq_ok] at hst2
      obtain ⟨ts, ⟨-, rfl⟩, rfl⟩ := hst2
      exact ⟨map_set_same lifecycle _ _ _ _ hp rfl, fun h0 h1 => ⟨h0, by
        show st.harmonics ≤ _
        omega⟩⟩
    · simp only [bind_ok_iff, pure, Except.pure, Except.ok.injEq, array_set_eq_ok] at hst2
      obtain ⟨ts, ⟨-, rfl⟩, rfl⟩ := hst2
      exact ⟨map_set_same lifecycle _ _ _ _ hp rfl, fun _ _ => ⟨by
        show (0 : Int) ≤ (i : Int) + 1
        omega, by
        show (i : Int) + 1 ≤ _
        omega⟩⟩
  · simp only [bind_ok_iff, pure, Except.pure, Except.ok.injEq, array_set_eq_ok] at hst2
    obtain ⟨ts, ⟨-, rfl⟩, rfl⟩ := hst2
    exact ⟨map_set_same lifecycle _ _ _ _ hp rfl, fun h0 h1 => ⟨h0, by
      show st.harmonics ≤ _
      omega⟩⟩

theorem scan_harmonics_lifecycle (g : globals) (s : sas_synthesizer_s) (frameA frameF : ℚ)
    (frameC frameW : sas_envelope_t) :
    ∀ (n i : Nat) (st st1 : scan_state),
      scan_harmonics g s frameA frameF frameC frameW n i st = .ok st1 →
      st1.tracks.map lifecycle = st.tracks.map lifecycle ∧
        (0 ≤ st.harmonics → st.harmonics ≤ i → 0 ≤ st1.harmonics ∧ st1.harmonics ≤ i + n) := by
  intro n
  induction n with
  | zero =>
    intro i st st1 h
    simp only [scan_harmonics, Except.ok.injEq] at h
    subst h
    exact ⟨rfl, fun h0 h1 => ⟨h0, by omega⟩⟩
  | succ n ih =>
    intro i st st1 h
    unfold scan_harmonics at h
    split_ifs at h with hF
    · cases hb : scan_harmonic g s frameA frameF frameC frameW i st with
      | error e => simp [hb, Except.bind] at h
      | ok st2 =>
        simp only [hb, Except.bind] at h
        obtain ⟨ih1, ih2⟩ := ih (i + 1) st2 st1 h
        have key := scan_harmonic_lifecycle g s frameA frameF frameC frameW i st st2 hb
        refine ⟨ih1.trans key.1, fun h0 h1 => ?_⟩
        obtain ⟨k1, k2⟩ := key.2 h0 h1
        obtain ⟨r1, r2⟩ := ih2 k1 (by push_cast; omega)
        exact ⟨r1, by push_cast at r2 ⊢; omega⟩
    · simp only [Except.ok.injEq] at h
      subst h
      exact ⟨rfl, fun h0 h1 => ⟨h0, by omega⟩⟩

theorem spatial_fields (c : libc) (src : sas_source_s) :
    (update_source_spatial_information c src).id = src.id ∧
      (update_source_spatial_information c src).update = src.update ∧
      (update_source_spatial_information c src).call_data = src.call_data ∧
      (update_source_spatial_information c src).emission_index = src.emission_index ∧
      (update_source_spatial_information c src).active_tracks = src.active_tracks ∧
      (update_source_spatial_information c src).linked_tracks = src.linked_tracks ∧
      (update_source_spatial_information c src).delayed_free = src.delayed_free ∧
      (update_source_spatial_information c src).tracks = src.tracks ∧
      (update_source_spatial_information c src).propagated_frames = src.propagated_frames ∧
      (update_source_spatial_information c src).position = src.position ∧
      (update_source_spatial_information c src).distance =
        DISTANCE c src.position.x src.position.y src.position.z :=
  ⟨rfl, rfl, rfl, rfl, rfl, rfl, rfl, rfl, rfl, rfl, rfl⟩

theorem harmonic_scan_fields (c : libc) (g : globals) (s : sas_synthesizer_s)
    (src : sas_source_s) (r : scan_result) (h : harmonic_scan c g s src = .ok r) :
    scan_keeps src r := by
  unfold harmonic_scan at h
  rcases hu : src.update src.call_data g with ⟨g1, fr, po⟩
  rw [hu] at h
  have hmax : (0 : Int) ≤ (MAX_PARTIALS_PER_SOURCE : Int) := by decide
  cases fr with
  | none =>
    simp only [Except.ok.injEq] at h
    subst h
    exact ⟨rfl, rfl, rfl, rfl, rfl, rfl, rfl, rfl, le_refl _, hmax,
      Or.inr (Or.inr ⟨rfl, rfl⟩)⟩
  | some frame =>
    cases po with
    | none =>
      simp only [Except.ok.injEq] at h
      subst h
      exact ⟨rfl, rfl, rfl, rfl, rfl, rfl, rfl, rfl, le_refl _, hmax,
        Or.inr (Or.inr ⟨rfl, rfl⟩)⟩
    | some pos =>
      simp only [bind_ok_iff] at h
      obtain ⟨dest, -, ⟨g2, dest2⟩, -, frames, -, h⟩ := h
      split_ifs at h with hd hneg
      · simp only [pure, Except.pure, Except.ok.injEq] at h
        subst h
        exact ⟨rfl, rfl, rfl, rfl, rfl, rfl, rfl, rfl, le_refl _, hmax,
          Or.inr (Or.inl ⟨rfl, rfl⟩)⟩
      · simp only [bind_ok_iff] at h
        obtain ⟨fr2, -, h⟩ := h
        split_ifs at h with hA
        · simp only [pure, Except.pure, Except.ok.injEq] at h
          subst h
          exact ⟨rfl, rfl, rfl, rfl, rfl, rfl, rfl, rfl, le_refl _, hmax,
            Or.inr (Or.inl ⟨rfl, rfl⟩)⟩
        · simp only [bind_ok_iff, pure, Except.pure, Except.ok.injEq] at h
          obtain ⟨st, hst, ts, hts, rfl⟩ := h
          obtain ⟨l1, l2⟩ := scan_harmonics_lifecycle _ _ _ _ _ _ _ _ _ _ hst
          obtain ⟨b1, b2⟩ := l2 (le_refl _) (le_refl _)
          have hts2 : ts.map lifecycle = st.tracks.map lifecycle := by
            refine for_loop_preserves _ (fun _ (t : List partial_s) =>
              t.map lifecycle = st.tracks.map lifecycle) _ _ _ _ ?_ hts rfl
            intro j t t1 _ _ hb ht
            simp only [bind_ok_iff, array_set_eq_ok] at hb
            obtain ⟨p, hp, -, rfl⟩ := hb
            rw [array_get_eq_ok] at hp
            refine Eq.trans (map_set_same lifecycle t j p _ hp ?_) ht
            rfl
          refine ⟨rfl, rfl, rfl, rfl, rfl, rfl, rfl, hts2.trans l1, b1, ?_, Or.inl rfl⟩
          simpa using b2

theorem update_source_cases (c : libc) (g g2 : globals) (s s2 : sas_synthesizer_s) (id : Nat)
    (h : update_source c g s id = .ok (g2, s2)) :
    ∃ (src : sas_source_s) (r : scan_result) (st : update_state),
      source_load s id = .ok src ∧ harmonic_scan c g s src = .ok r ∧
      update_partials c r.g s r.source r.harmonics r.active = .ok st ∧
      (((step_source st).delayed_free ≠ 0 ∧ (step_source st).linked_tracks = 0 ∧
          sas_synthesizer_source_delayed_free c st.g (source_store st.s (step_source st))
            (step_source st).id = .ok (g2, s2)) ∨
        (¬ ((step_source st).delayed_free ≠ 0 ∧ (step_source st).linked_tracks = 0) ∧
          g2 = st.g ∧ s2 = source_store st.s (step_source st))) := by
  unfold update_source at h
  simp only [bind_ok_iff] at h
  obtain ⟨src, hsrc, r, hr, h⟩ := h
  unfold update_source_tracks at h
  simp only [bind_ok_iff] at h
  obtain ⟨st, hst, h⟩ := h
  refine ⟨src, r, st, hsrc, hr, hst, ?_⟩
  split_ifs at h with hc
  · exact Or.inl ⟨hc.1, hc.2, h⟩
  · simp only [pure, Except.pure, Except.ok.injEq, Prod.mk.injEq] at h
    exact Or.inr ⟨hc, h.1.symm, h.2.symm⟩

theorem source_store_fields (s : sas_synthesizer_s) (v : sas_source_s) :
    (source_store s v).number_of_sources = s.number_of_sources ∧
      (source_store s v).tracks = s.tracks ∧ (source_store s v).active_tracks = s.active_tracks ∧
      (source_store s v).allocated = s.allocated ∧
      (source_store s v).sources.map (fun x => x.id) = s.sources.map (fun x => x.id) := by
  refine ⟨rfl, rfl, rfl, rfl, ?_⟩
  unfold source_store
  simp only [List.map_map]
  apply List.map_congr_left
  intro x _
  exact source_store_id v x

theorem source_load_store_ne (s : sas_synthesizer_s) (v : sas_source_s) (q : Nat)
    (h : q ≠ v.id) : source_load (source_store s v) q = source_load s q := by
  rw [source_load_store]
  cases hq : source_load s q with
  | error e => rfl
  | ok w =>
    have := source_load_id s q w hq
    simp only [Except.map]
    rw [if_neg (by rw [this]; exact h)]

theorem ok_bind {α β : Type} (a : α) (f : α → Except fault β) :
    (Except.ok a >>= f) = f a := rfl

theorem mute_frames (frames : List sas_frame_s)
    (hlen : MAX_PROPAGATED_FRAMES ≤ frames.length) :
    ∃ fs, for_loop (fun i (fs : List sas_frame_s) => do
        let f ← array_get fs i
        array_set fs i (sas_frame_set_amplitude f 0))
        MAX_PROPAGATED_FRAMES 0 frames = .ok fs ∧
      fs.length = frames.length ∧
      ∀ i f, i < MAX_PROPAGATED_FRAMES → fs[i]? = some f → f.amplitude = 0 := by
  have := for_loop_inv (fun i (fs : List sas_frame_s) =>
      (array_get fs i).bind (fun f => array_set fs i (sas_frame_set_amplitude f 0)))
    (fun i fs => fs.length = frames.length ∧ ∀ k f, k < i → fs[k]? = some f → f.amplitude = 0)
    MAX_PROPAGATED_FRAMES 0 frames ⟨rfl, fun k f hk => by omega⟩
    (fun j t hj1 hj2 ht => by
      have hlt : j < t.length := by
        have := ht.1
        omega
      refine ⟨t.set j (sas_frame_set_amplitude (t.get ⟨j, hlt⟩) 0), ?_, ?_, ?_⟩
      · show (array_get t j).bind (fun f => array_set t j (sas_frame_set_amplitude f 0)) = _
        rw [array_get_ok t j hlt]
        simp only [Except.bind]
        exact array_set_ok _ _ _ hlt
      · rw [List.length_set]
        exact ht.1
      · intro k f hk hf
        by_cases hkj : k = j
        · subst hkj
          rw [List.getElem?_set_self hlt] at hf
          cases hf
          rfl
        · rw [List.getElem?_set_ne (fun h => hkj h.symm)] at hf
          exact ht.2 k f (by omega) hf)
  simpa using this

/-! ## Range and domain of the envelope lookup -/

theorem c_int_eq_floor (t : ℚ) (h : 0 ≤ t) : c_int t = ⌊t⌋ := by
  unfold c_int
  rw [Rat.floor_def]
  exact Int.tdiv_eq_ediv (Rat.num_nonneg.mpr h) (by exact_mod_cast Nat.zero_le _)

theorem envelope_get_value_ok (e : sas_envelope_s) (frequency : ℚ) (hs : 0 ≤ e.size)
    (hlen : e.cells.length = (e.size + 4).toNat) (hf : 0 < frequency) :
    ∃ v, envelope_get_value e frequency = .ok v ∧ 0 ≤ v ∧
      ((c_int (frequency / e.base) < 0 ∨ e.size < c_int (frequency / e.base)) → v = 0) := by
  unfold envelope_get_value
  rw [if_neg (not_not.mpr hf)]
  simp only []
  by_cases hi : c_int (frequency / e.base) < 0 ∨ c_int (frequency / e.base) > e.size
  · rw [if_pos hi]
    exact ⟨0, rfl, le_refl _, fun _ => rfl⟩
  · rw [if_neg hi]
    have hi1 : 0 ≤ c_int (frequency / e.base) := by omega
    have hi2 : c_int (frequency / e.base) ≤ e.size := by omega
    rw [data_get_ok e (c_int (frequency / e.base) - 2) (by omega) (by omega),
      data_get_ok e (c_int (frequency / e.base) - 1) (by omega) (by omega),
      data_get_ok e (c_int (frequency / e.base)) (by omega) (by omega),
      data_get_ok e (c_int (frequency / e.base) + 1) (by omega) (by omega)]
    simp only [bind, Except.bind]
    refine ⟨_, rfl, ?_, fun h => absurd h hi⟩
    split_ifs with hv
    · exact le_refl _
    · exact not_lt.mp hv

theorem data_set_total (e : sas_envelope_s) (i : Int) (v : ℚ) (h0 : 0 ≤ i + 2)
    (h1 : (i + 2).toNat < e.cells.length) :
    ∃ e1, data_set e i v = .ok e1 ∧ e1.base = e.base ∧ e1.size = e.size ∧
      e1.refcount = e.refcount ∧ e1.lock = e.lock ∧
      e1.cells = e.cells.set (i + 2).toNat v := by
  refine ⟨{ e with cells := e.cells.set (i + 2).toNat v }, ?_, rfl, rfl, rfl, rfl, rfl⟩
  unfold data_set array_set
  rw [if_pos h0, if_pos h1]
  rfl

theorem getD_set (cells : List ℚ) (k j : Nat) (v : ℚ) (hk : k < cells.length) :
    (cells.set k v).getD j 0 = if j = k then v else cells.getD j 0 := by
  simp only [List.getD_eq_getElem?_getD]
  split_ifs with h
  · subst h
    rw [List.getElem?_set_self hk]
    rfl
  · rw [List.getElem?_set_ne (fun h1 => h h1.symm)]

theorem toNat_eq (z : Int) (m : Nat) (h : z = m) : z.toNat = m := by
  subst h
  rfl

theorem warp_index (z : Int) (n : Nat) (hz : z = n + 1) :
    (0 ≤ z - 1 + 2 ∧ (z - 1 + 2).toNat = n + 2) ∧ (0 ≤ z - 2 + 2 ∧ (z - 2 + 2).toNat = n + 1) ∧
      (0 ≤ z + 2 ∧ (z + 2).toNat = n + 3) ∧ (0 ≤ z - 3 + 2 ∧ (z - 3 + 2).toNat = n) ∧
      (0 ≤ z + 1 + 2 ∧ (z + 1 + 2).toNat = n + 4) := by
  subst hz
  refine ⟨⟨?_, ?_⟩, ⟨?_, ?_⟩, ⟨?_, ?_⟩, ⟨?_, ?_⟩, ⟨?_, ?_⟩⟩ <;> omega

theorem bind_ok_of {α β : Type} (x : Except fault α) (f : α → Except fault β) (a : α) (b : β)
    (hx : x = .ok a) (hf : f a = .ok b) : (x >>= f) = .ok b := by
  subst hx
  exact hf

theorem data_get_at (e : sas_envelope_s) (i : Int) (m : Nat) (h0 : 0 ≤ i + 2)
    (hm : (i + 2).toNat = m) (h1 : m < e.cells.length) :
    data_get e i = .ok (e.cells.getD m 0) := by
  subst hm
  exact data_get_ok e i h0 h1

theorem data_set_at (e : sas_envelope_s) (i : Int) (m : Nat) (v : ℚ) (h0 : 0 ≤ i + 2)
    (hm : (i + 2).toNat = m) (h1 : m < e.cells.length) :
    ∃ e1, data_set e i v = .ok e1 ∧ e1.base = e.base ∧ e1.size = e.size ∧
      e1.refcount = e.refcount ∧ e1.lock = e.lock ∧ e1.cells = e.cells.set m v := by
  subst hm
  exact data_set_total e i v h0 h1

theorem adjust_for_warp_cells (e : sas_envelope_s) (n : Nat) (hs : e.size = n + 1)
    (hlen : e.cells.length = n + 5) :
    ∃ e1 cA cB cC, envelope_adjust_for_warp e = .ok e1 ∧ e1.base = e.base ∧ e1.size = e.size ∧
      e1.refcount = e.refcount ∧ e1.lock = e.lock ∧
      cA = e.cells.set 0 (-(e.cells.getD 2 0)) ∧ cB = cA.set 1 0 ∧
      cC = cB.set (n + 3) (2 * cB.getD (n + 2) 0 - cB.getD (n + 1) 0) ∧
      e1.cells = cC.set (n + 4) (2 * cC.getD (n + 2) 0 - cC.getD n 0) := by
  have n0 : 0 < n + 5 := Nat.succ_pos _
  have n1 : 1 < n + 5 := Nat.lt_add_left n (by decide)
  have n2 : 2 < n + 5 := Nat.lt_add_left n (by decide)
  have m0 : n < n + 5 := Nat.lt_add_of_pos_right (by decide)
  have m1 : n + 1 < n + 5 := Nat.add_lt_add_left (by decide) n
  have m2 : n + 2 < n + 5 := Nat.add_lt_add_left (by decide) n
  have m3 : n + 3 < n + 5 := Nat.add_lt_add_left (by decide) n
  have m4 : n + 4 < n + 5 := Nat.add_lt_add_left (by decide) n
  have hg0 : data_get e 0 = .ok (e.cells.getD 2 0) :=
    data_get_at e 0 2 (by norm_num) (by decide) (hlen ▸ n2)
  obtain ⟨e1, he1, b1, s1, r1, l1, c1⟩ := data_set_at e (-2) 0 (-(e.cells.getD 2 0))
    (by norm_num) (by decide) (hlen ▸ n0)
  have len1 : e1.cells.length = n + 5 := by rw [c1, List.length_set, hlen]
  obtain ⟨e2, he2, b2, s2, r2, l2, c2⟩ := data_set_at e1 (-1) 1 0
    (by norm_num) (by decide) (len1 ▸ n1)
  have len2 : e2.cells.length = n + 5 := by rw [c2, List.length_set, len1]
  have sz2 : e2.size = n + 1 := by rw [s2, s1, hs]
  have w2 := warp_index e2.size n sz2
  have hga1 : data_get e2 (e2.size - 1) = .ok (e2.cells.getD (n + 2) 0) :=
    data_get_at e2 _ _ w2.1.1 w2.1.2 (len2 ▸ m2)
  have hga2 : data_get e2 (e2.size - 2) = .ok (e2.cells.getD (n + 1) 0) :=
    data_get_at e2 _ _ w2.2.1.1 w2.2.1.2 (len2 ▸ m1)
  obtain ⟨e3, he3, b3, s3, r3, l3, c3⟩ := data_set_at e2 e2.size (n + 3)
    (2 * e2.cells.getD (n + 2) 0 - e2.cells.getD (n + 1) 0)
    w2.2.2.1.1 w2.2.2.1.2 (len2 ▸ m3)
  have len3 : e3.cells.length = n + 5 := by rw [c3, List.length_set, len2]
  have sz3 : e3.size = n + 1 := by rw [s3, sz2]
  have w3 := warp_index e3.size n sz3
  have hgb1 : data_get e3 (e3.size - 1) = .ok (e3.cells.getD (n + 2) 0) :=
    data_get_at e3 _ _ w3.1.1 w3.1.2 (len3 ▸ m2)
  have hgb3 : data_get e3 (e3.size - 3) = .ok (e3.cells.getD n 0) :=
    data_get_at e3 _ _ w3.2.2.2.1.1 w3.2.2.2.1.2 (len3 ▸ m0)
  obtain ⟨e4, he4, b4, s4, r4, l4, c4⟩ := data_set_at e3 (e3.size + 1) (n + 4)
    (2 * e3.cells.getD (n + 2) 0 - e3.cells.getD n 0)
    w3.2.2.2.2.1 w3.2.2.2.2.2 (len3 ▸ m4)
  refine ⟨e4, e1.cells, e2.cells, e3.cells, ?_, by rw [b4, b3, b2, b1], by rw [s4, s3, s2, s1],
    by rw [r4, r3, r2, r1], by rw [l4, l3, l2, l1], c1, c2, c3, c4⟩
  unfold envelope_adjust_for_warp
  refine bind_ok_of _ _ _ _ hg0 ?_
  refine bind_ok_of _ _ _ _ he1 ?_
  refine bind_ok_of _ _ _ _ he2 ?_
  refine bind_ok_of _ _ _ _ hga1 ?_
  refine bind_ok_of _ _ _ _ hga2 ?_
  refine bind_ok_of _ _ _ _ he3 ?_
  refine bind_ok_of _ _ _ _ hgb1 ?_
  refine bind_ok_of _ _ _ _ hgb3 ?_
  exact he4

theorem warp_cells_linear (cells cA cB cC cD : List ℚ) (L : ℚ) (n : Nat)
    (hlen : cells.length = n + 5)
    (hlin : ∀ j : Nat, 2 ≤ j → j < n + 3 → cells.getD j 0 = L * ((j : ℚ) - 1))
    (hA : cA = cells.set 0 (-(cells.getD 2 0))) (hB : cB = cA.set 1 0)
    (hC : cC = cB.set (n + 3) (2 * cB.getD (n + 2) 0 - cB.getD (n + 1) 0))
    (hD : cD = cC.set (n + 4) (2 * cC.getD (n + 2) 0 - cC.getD n 0)) :
    cD.length = n + 5 ∧ ∀ j : Nat, j < n + 5 → cD.getD j 0 = L * ((j : ℚ) - 1) := by
  have lenA : cA.length = n + 5 := by rw [hA, List.length_set, hlen]
  have lenB : cB.length = n + 5 := by rw [hB, List.length_set, lenA]
  have lenC : cC.length = n + 5 := by rw [hC, List.length_set, lenB]
  have lenD : cD.length = n + 5 := by rw [hD, List.length_set, lenC]
  have q1 : ∀ j : Nat, cA.getD j 0 = if j = 0 then -(cells.getD 2 0) else cells.getD j 0 := by
    intro j
    rw [hA]
    exact getD_set _ _ _ _ (by rw [hlen]; omega)
  have q2 : ∀ j : Nat, cB.getD j 0 = if j = 1 then 0 else cA.getD j 0 := by
    intro j
    rw [hB]
    exact getD_set _ _ _ _ (by rw [lenA]; omega)
  have p2 : ∀ j : Nat, j < n + 3 → cB.getD j 0 = L * ((j : ℚ) - 1) := by
    intro j hj
    rw [q2, q1]
    by_cases h1 : j = 1
    · subst h1
      simp
    · rw [if_neg h1]
      by_cases h0 : j = 0
      · subst h0
        rw [if_pos rfl, hlin 2 (le_refl _) (by omega)]
        push_cast
        ring
      · rw [if_neg h0]
        exact hlin j (by omega) hj
  have q3 : ∀ j : Nat, cC.getD j 0 =
      if j = n + 3 then 2 * cB.getD (n + 2) 0 - cB.getD (n + 1) 0 else cB.getD j 0 := by
    intro j
    rw [hC]
    exact getD_set _ _ _ _ (by rw [lenB]; omega)
  have p3 : ∀ j : Nat, j < n + 4 → cC.getD j 0 = L * ((j : ℚ) - 1) := by
    intro j hj
    rw [q3]
    by_cases h3 : j = n + 3
    · subst h3
      rw [if_pos rfl, p2 (n + 2) (by omega), p2 (n + 1) (by omega)]
      push_cast
      ring
    · rw [if_neg h3]
      exact p2 j (by omega)
  refine ⟨lenD, ?_⟩
  intro j hj
  rw [hD, getD_set _ _ _ _ (by rw [lenC]; omega)]
  by_cases h4 : j = n + 4
  · subst h4
    rw [if_pos rfl, p3 (n + 2) (by omega), p3 n (by omega)]
    push_cast
    ring
  · rw [if_neg h4]
    exact p3 j (by omega)

theorem adjust_for_warp_linear (e : sas_envelope_s) (L : ℚ) (n : Nat) (hs : e.size = n + 1)
    (hlen : e.cells.length = n + 5)
    (hlin : ∀ j : Nat, 2 ≤ j → j < n + 3 → e.cells.getD j 0 = L * ((j : ℚ) - 1)) :
    ∃ e1, envelope_adjust_for_warp e = .ok e1 ∧ e1.base = e.base ∧ e1.size = e.size ∧
      e1.refcount = e.refcount ∧ e1.lock = e.lock ∧
      e1.cells.length = n + 5 ∧ ∀ j : Nat, j < n + 5 → e1.cells.getD j 0 = L * ((j : ℚ) - 1) := by
  obtain ⟨e1, cA, cB, cC, h, b, s, r, l, hA, hB, hC, hD⟩ := adjust_for_warp_cells e n hs hlen
  obtain ⟨k1, k2⟩ := warp_cells_linear e.cells cA cB cC e1.cells L n hlen hlin hA hB hC hD
  exact ⟨e1, h, b, s, r, l, k1, k2⟩

theorem get_value_linear (e : sas_envelope_s) (L f : ℚ) (n : Nat) (hb : 0 < e.base)
    (hs : e.size = n + 1) (hlen : e.cells.length = n + 5)
    (hlin : ∀ j : Nat, j < n + 5 → e.cells.getD j 0 = L * ((j : ℚ) - 1))
    (hL : 0 ≤ L) (hf0 : 0 < f) (hf1 : f < ((n : ℚ) + 2) * e.base) :
    envelope_get_value e f = .ok (L * (f / e.base)) := by
  have ht0 : 0 ≤ f / e.base := le_of_lt (div_pos hf0 hb)
  have ht1 : f / e.base < (n : ℚ) + 2 := by rwa [div_lt_iff₀ hb]
  have hfl := c_int_eq_floor _ ht0
  have hfl0 : 0 ≤ ⌊f / e.base⌋ := Int.floor_nonneg.mpr ht0
  have hfl1 : ⌊f / e.base⌋ < (n : Int) + 2 := Int.floor_lt.mpr (by push_cast; exact ht1)
  obtain ⟨m, hm⟩ : ∃ m : Nat, c_int (f / e.base) = m :=
    ⟨⌊f / e.base⌋.toNat, by rw [hfl]; exact (Int.toNat_of_nonneg hfl0).symm⟩
  have hmn : m ≤ n + 1 := by
    rw [hfl] at hm
    omega
  have g0 := data_get_at e ((m : Int) - 2) m (by omega) (by omega) (by omega)
  have g1 := data_get_at e ((m : Int) - 1) (m + 1) (by omega) (by omega) (by omega)
  have g2 := data_get_at e (m : Int) (m + 2) (by omega) (by omega) (by omega)
  have g3 := data_get_at e ((m : Int) + 1) (m + 3) (by omega) (by omega) (by omega)
  have hn : ¬ ((m : Int) < 0 ∨ (m : Int) > e.size) := by omega
  simp only [envelope_get_value, hm, gt_iff_lt, hf0, not_true_eq_false, if_false, hn, g0, g1, g2,
    g3]
  simp only [bind, Except.bind]
  rw [hlin m (by omega), hlin (m + 1) (by omega), hlin (m + 2) (by omega),
    hlin (m + 3) (by omega)]
  have key : ∀ x : ℚ, x = L * (f / e.base) →
      (Except.ok (if x < 0 then 0 else x) : Except fault ℚ) = .ok (L * (f / e.base)) := by
    intro x hx
    rw [hx, if_neg (not_lt.mpr (mul_nonneg hL ht0))]
  refine key _ ?_
  push_cast
  ring

theorem warp_linear_heap (g : globals) (a : sas_envelope_t) (e : sas_envelope_s) (s : ℚ)
    (n : Nat) (hload : envelope_load g a = .ok e) (hb : 0 < e.base) (hs : 0 ≤ s)
    (hsize : e.size = n + 1) (hlen : e.cells.length = n + 5)
    (hlin : ∀ j : Nat, 2 ≤ j → j < n + 3 → e.cells.getD j 0 = s * e.base * ((j : ℚ) - 1)) :
    ∃ e1, sas_envelope_adjust_for_warp g a = .ok (envelope_store g a e1) ∧
      e1.lock = e.lock ∧ e1.refcount = e.refcount ∧
      ∀ f : ℚ, 0 < f → f < ((n : ℚ) + 2) * e.base →
        sas_envelope_get_value (envelope_store g a e1) a f = .ok (s * f) := by
  obtain ⟨e1, h1, b1, s1, r1, l1, len1, lin1⟩ :=
    adjust_for_warp_linear e (s * e.base) n hsize hlen hlin
  refine ⟨e1, ?_, l1, r1, ?_⟩
  · unfold sas_envelope_adjust_for_warp
    rw [hload]
    simp only [ok_bind]
    rw [h1]
    rfl
  · intro f hf0 hf1
    unfold sas_envelope_get_value sas_envelope_get_value_inline
    rw [envelope_load_store _ _ _ (envelope_load_lt _ _ _ hload)]
    simp only [Except.bind]
    rw [get_value_linear e1 (s * e.base) f n (by rw [b1]; exact hb) (by rw [s1]; exact hsize) len1
      lin1 (mul_nonneg hs (le_of_lt hb)) hf0 (by rw [b1]; exact hf1), b1]
    congr 1
    field_simp
    ring

theorem envelope_make_linear (base s : ℚ) (size : Int) (values : List ℚ) (n : Nat)
    (hsize : size = n + 1)
    (hvals : ∀ k : Nat, (k : Int) < size → values.getD k 0 = s * base * ((k : ℚ) + 1)) :
    (envelope_make base size values).cells.length = n + 5 ∧
      ∀ j : Nat, 2 ≤ j → j < n + 3 →
        (envelope_make base size values).cells.getD j 0 = s * base * ((j : ℚ) - 1) := by
  constructor
  · simp [envelope_make]
    omega
  · intro j hj1 hj2
    obtain ⟨k, rfl⟩ : ∃ k : Nat, j = k + 2 := ⟨j - 2, by omega⟩
    have h := envelope_make_cells base size values ((k : Int) + 1) (by omega) (by omega)
    have e1 : ((k : Int) + 1 + 1).toNat = k + 2 := by omega
    have e2 : ((k : Int) + 1 - 1).toNat = k := by omega
    rw [e1, e2] at h
    rw [h, hvals k (by omega)]
    push_cast
    ring

/-- In exact arithmetic an envelope made with `base > 0` from `size >= 1`
control points `values[k] = s * base * (k + 1)`, `s >= 0`, is adjusted for warp
without fault, and its value at every frequency `f` with
`0 < f < (size + 1) * base` is `s * f`; the same holds for the envelope of
`sas_envelope_warp_identity` with `s = 1`. -/
theorem linear_warp_exact (g : globals) (base s : ℚ) (size : Int) (values : List ℚ)
    (hb : 0 < base) (hs : 0 ≤ s) (hsize : 1 ≤ size)
    (hvals : ∀ k : Nat, (k : Int) < size → values.getD k 0 = s * base * ((k : ℚ) + 1)) :
    (∃ g2, sas_envelope_adjust_for_warp (sas_envelope_make g base size values).1
          (sas_envelope_make g base size values).2 = .ok g2 ∧
        ∀ f : ℚ, 0 < f → f < ((size : ℚ) + 1) * base →
          sas_envelope_get_value g2 (sas_envelope_make g base size values).2 f = .ok (s * f)) ∧
    (g.warp_identity = none →
      ∃ g1 e, sas_envelope_warp_identity g = .ok (g1, e) ∧
        sas_envelope_warp_identity g1 = .ok (g1, e) ∧
        ∀ f : ℚ, 0 < f → f < SAS_MAX_AUDIBLE_FREQUENCY →
          sas_envelope_get_value g1 e f = .ok f) := by
  constructor
  · obtain ⟨n, hn⟩ : ∃ n : Nat, size = n + 1 := ⟨(size - 1).toNat, by omega⟩
    obtain ⟨hlen, hlin⟩ := envelope_make_linear base s size values n hn hvals
    obtain ⟨e1, h1, -, -, h2⟩ := warp_linear_heap _ _ _ s n (envelope_load_make g base size values)
      hb hs hn hlen hlin
    refine ⟨_, h1, ?_⟩
    intro f hf0 hf1
    refine h2 f hf0 ?_
    have : (size : ℚ) = (n : ℚ) + 1 := by exact_mod_cast hn
    rw [this] at hf1
    show f < ((n : ℚ) + 2) * base
    linarith
  · intro hnone
    have hM : (0 : ℚ) < SAS_MAX_AUDIBLE_FREQUENCY := by
      norm_num [SAS_MAX_AUDIBLE_FREQUENCY, SAS_SAMPLING_RATE]
    obtain ⟨hlen, hlin⟩ := envelope_make_linear SAS_MAX_AUDIBLE_FREQUENCY 1 1
      [SAS_MAX_AUDIBLE_FREQUENCY] 0 rfl (by
        intro k hk
        have : k = 0 := by omega
        subst this
        simp)
    have hload := envelope_load_make g SAS_MAX_AUDIBLE_FREQUENCY 1 [SAS_MAX_AUDIBLE_FREQUENCY]
    have hlt := envelope_load_lt _ _ _ hload
    obtain ⟨G, hG⟩ : ∃ G : globals, G = envelope_store
        { (sas_envelope_make g SAS_MAX_AUDIBLE_FREQUENCY 1 [SAS_MAX_AUDIBLE_FREQUENCY]).1 with
          warp_identity := some g.envelopes.length } g.envelopes.length
        { envelope_make SAS_MAX_AUDIBLE_FREQUENCY 1 [SAS_MAX_AUDIBLE_FREQUENCY] with lock := 1 } :=
      ⟨_, rfl⟩
    have hlock : envelope_load G g.envelopes.length =
        .ok { envelope_make SAS_MAX_AUDIBLE_FREQUENCY 1 [SAS_MAX_AUDIBLE_FREQUENCY] with
          lock := 1 } := by
      rw [hG]
      exact envelope_load_store _ _ _ hlt
    have hwi : G.warp_identity = some g.envelopes.length := by
      rw [hG]
      rfl
    obtain ⟨e1, h1, -, -, h2⟩ := warp_linear_heap _ _ _ 1 0 hlock hM (by norm_num) rfl hlen hlin
    refine ⟨envelope_store G g.envelopes.length e1, g.envelopes.length, ?_, ?_, ?_⟩
    · unfold sas_envelope_warp_identity
      rw [hnone]
      have hstep : envelope_lock
          { (sas_envelope_make g SAS_MAX_AUDIBLE_FREQUENCY 1 [SAS_MAX_AUDIBLE_FREQUENCY]).1 with
            warp_identity := some g.envelopes.length } g.envelopes.length = .ok G := by
        rw [hG]
        unfold envelope_lock
        exact bind_ok_of _ _ _ _ hload rfl
      simp only []
      refine bind_ok_of _ _ _ _ hstep ?_
      exact bind_ok_of _ _ _ _ h1 rfl
    · unfold sas_envelope_warp_identity
      have : (envelope_store G g.envelopes.length e1).warp_identity = some g.envelopes.length :=
        hwi
      rw [this]
    · intro f hf0 hf1
      have := h2 f hf0 (by
        show f < ((0 : Nat) + 2 : ℚ) * SAS_MAX_AUDIBLE_FREQUENCY
        push_cast
        linarith)
      rw [one_mul] at this
      exact this

/-! ## Reference counting of the envelopes -/

theorem keep_step (g : globals) (e : sas_envelope_t) (v : sas_envelope_s)
    (hload : envelope_load g e = .ok v) :
    sas_envelope_keep g e =
      .ok (envelope_store g e { v with refcount := (v.refcount + 1) % 2 ^ 32 }) := by
  unfold sas_envelope_keep
  exact bind_ok_of _ _ _ _ hload rfl

theorem free_step_live (g : globals) (e : sas_envelope_t) (v : sas_envelope_s)
    (hload : envelope_load g e = .ok v)
    (h : ¬ ((v.refcount + (2 ^ 32 - 1)) % 2 ^ 32 = 0 ∧ v.lock = 0)) :
    sas_envelope_free g e =
      .ok (envelope_store g e { v with refcount := (v.refcount + (2 ^ 32 - 1)) % 2 ^ 32 }) := by
  unfold sas_envelope_free
  refine bind_ok_of _ _ _ _ hload ?_
  simp only []
  rw [if_neg h]
  rfl

theorem free_step_destroy (g : globals) (e : sas_envelope_t) (v : sas_envelope_s)
    (hload : envelope_load g e = .ok v)
    (h : (v.refcount + (2 ^ 32 - 1)) % 2 ^ 32 = 0 ∧ v.lock = 0) :
    sas_envelope_free g e = .ok { g with envelopes := g.envelopes.set e none } := by
  unfold sas_envelope_free
  refine bind_ok_of _ _ _ _ hload ?_
  simp only []
  rw [if_pos h]
  rfl

theorem envelope_load_store_ne (g : globals) (e q : sas_envelope_t) (v : sas_envelope_s)
    (h : q ≠ e) : envelope_load (envelope_store g e v) q = envelope_load g q := by
  simp only [envelope_load, envelope_store, List.get?_eq_getElem?]
  rw [List.getElem?_set_ne (fun h1 => h h1.symm)]

theorem envelope_load_destroyed (g : globals) (e : sas_envelope_t) (v : sas_envelope_s)
    (hload : envelope_load g e = .ok v) :
    envelope_load { g with envelopes := g.envelopes.set e none } e = .error .invalid_access ∧
      ∀ q, q ≠ e →
        envelope_load { g with envelopes := g.envelopes.set e none } q = envelope_load g q := by
  have hlt := envelope_load_lt g e v hload
  constructor
  · simp only [envelope_load, List.get?_eq_getElem?]
    rw [List.getElem?_set_self hlt]
  · intro q hq
    simp only [envelope_load, List.get?_eq_getElem?]
    rw [List.getElem?_set_ne (fun h1 => hq h1.symm)]

theorem calls_unlocked (e : sas_envelope_t) (calls : List envelope_call) :
    ∀ (g : globals) (v : sas_envelope_s), envelope_load g e = .ok v → v.refcount < 2 ^ 32 →
      v.lock = 0 → counts_live v.refcount calls = true →
      ∃ g1, envelope_calls e calls g = .ok g1 ∧
        envelope_load g1 e = .ok { v with refcount := count_after v.refcount calls } ∧
        ∀ q, q ≠ e → envelope_load g1 q = envelope_load g q := by
  induction calls with
  | nil =>
    intro g v hload _ _ _
    exact ⟨g, rfl, hload, fun _ _ => rfl⟩
  | cons c cs ih =>
    intro g v hload hr hlock hlive
    have hlt := envelope_load_lt g e v hload
    cases c with
    | keep =>
      simp only [counts_live, Bool.and_eq_true, decide_eq_true_eq] at hlive
      have hmod : (v.refcount + 1) % 2 ^ 32 = v.refcount + 1 := Nat.mod_eq_of_lt hlive.1
      obtain ⟨g1, h1, h2, h3⟩ := ih (envelope_store g e { v with refcount := v.refcount + 1 })
        { v with refcount := v.refcount + 1 } (envelope_load_store _ _ _ hlt) hlive.1 hlock hlive.2
      refine ⟨g1, ?_, h2, ?_⟩
      · show (sas_envelope_keep g e).bind (envelope_calls e cs) = _
        rw [keep_step g e v hload, hmod]
        exact h1
      · intro q hq
        rw [h3 q hq, envelope_load_store_ne g e q _ hq]
    | free =>
      simp only [counts_live, Bool.and_eq_true, decide_eq_true_eq] at hlive
      have hmod : (v.refcount + (2 ^ 32 - 1)) % 2 ^ 32 = v.refcount - 1 := by omega
      obtain ⟨g1, h1, h2, h3⟩ := ih (envelope_store g e { v with refcount := v.refcount - 1 })
        { v with refcount := v.refcount - 1 } (envelope_load_store _ _ _ hlt)
        (lt_of_le_of_lt (Nat.sub_le _ _) hr) hlock hlive.2
      refine ⟨g1, ?_, h2, ?_⟩
      · show (sas_envelope_free g e).bind (envelope_calls e cs) = _
        rw [free_step_live g e v hload (by rw [hmod]; omega), hmod]
        exact h1
      · intro q hq
        rw [h3 q hq, envelope_load_store_ne g e q _ hq]

theorem calls_locked (e : sas_envelope_t) (calls : List envelope_call) :
    ∀ (g : globals) (v : sas_envelope_s), envelope_load g e = .ok v → v.lock ≠ 0 →
      ∃ g1 v1, envelope_calls e calls g = .ok g1 ∧ envelope_load g1 e = .ok v1 ∧
        v1.lock = v.lock ∧ v1.base = v.base ∧ v1.size = v.size ∧ v1.cells = v.cells := by
  induction calls with
  | nil =>
    intro g v hload _
    exact ⟨g, v, rfl, hload, rfl, rfl, rfl, rfl⟩
  | cons c cs ih =>
    intro g v hload hlock
    have hlt := envelope_load_lt g e v hload
    cases c with
    | keep =>
      obtain ⟨g1, v1, h1, h2, h3⟩ := ih
        (envelope_store g e { v with refcount := (v.refcount + 1) % 2 ^ 32 })
        { v with refcount := (v.refcount + 1) % 2 ^ 32 } (envelope_load_store _ _ _ hlt) hlock
      refine ⟨g1, v1, ?_, h2, h3⟩
      show (sas_envelope_keep g e).bind (envelope_calls e cs) = _
      rw [keep_step g e v hload]
      exact h1
    | free =>
      obtain ⟨g1, v1, h1, h2, h3⟩ := ih
        (envelope_store g e { v with refcount := (v.refcount + (2 ^ 32 - 1)) % 2 ^ 32 })
        { v with refcount := (v.refcount + (2 ^ 32 - 1)) % 2 ^ 32 }
        (envelope_load_store _ _ _ hlt) hlock
      refine ⟨g1, v1, ?_, h2, h3⟩
      show (sas_envelope_free g e).bind (envelope_calls e cs) = _
      rw [free_step_live g e v hload (fun h => hlock h.2)]
      exact h1

/-- C13: on an allocated envelope whose counter is that of its holders:
(1) if it is unlocked and, from that number of holders, no call of a sequence
of `sas_envelope_keep` / `sas_envelope_free` calls is a release by the last
holder (the count staying below `2 ^ 32`), then all the calls return, the
envelope is still allocated, its counter is the number of holders and no other
envelope has changed; if exactly one holder is left, its release destroys the
envelope, no other envelope changes, and any further call on the envelope is
an access to freed memory; (2) if it is locked, every sequence of calls returns
and leaves it allocated with the same lock, base, size and cells. -/
theorem envelope_reference_counting (g : globals) (e : sas_envelope_t) (v : sas_envelope_s)
    (calls : List envelope_call) (hload : envelope_load g e = .ok v)
    (hr : v.refcount < 2 ^ 32) :
    (v.lock = 0 → counts_live v.refcount calls = true →
      ∃ g1, envelope_calls e calls g = .ok g1 ∧
        envelope_load g1 e = .ok { v with refcount := count_after v.refcount calls } ∧
        (∀ q, q ≠ e → envelope_load g1 q = envelope_load g q) ∧
        (count_after v.refcount calls = 1 →
          ∃ g2, sas_envelope_free g1 e = .ok g2 ∧
            envelope_load g2 e = .error .invalid_access ∧
            (∀ q, q ≠ e → envelope_load g2 q = envelope_load g q) ∧
            ∀ c, envelope_calls e [c] g2 = .error .invalid_access)) ∧
    (v.lock ≠ 0 →
      ∃ g1 v1, envelope_calls e calls g = .ok g1 ∧ envelope_load g1 e = .ok v1 ∧
        v1.lock = v.lock ∧ v1.base = v.base ∧ v1.size = v.size ∧ v1.cells = v.cells) := by
  refine ⟨?_, calls_locked e calls g v hload⟩
  intro hlock hlive
  obtain ⟨g1, h1, h2, h3⟩ := calls_unlocked e calls g v hload hr hlock hlive
  refine ⟨g1, h1, h2, h3, ?_⟩
  intro hone
  obtain ⟨d1, d2⟩ := envelope_load_destroyed g1 e _ h2
  refine ⟨{ g1 with envelopes := g1.envelopes.set e none }, ?_, d1, ?_, ?_⟩
  · refine free_step_destroy g1 e _ h2 ⟨?_, hlock⟩
    show (count_after v.refcount calls + (2 ^ 32 - 1)) % 2 ^ 32 = 0
    rw [hone]
    rfl
  · intro q hq
    rw [d2 q hq, h3 q hq]
  · intro c
    cases c with
    | keep =>
      show (sas_envelope_keep _ e).bind _ = _
      unfold sas_envelope_keep
      rw [d1]
      rfl
    | free =>
      show (sas_envelope_free _ e).bind _ = _
      unfold sas_envelope_free
      rw [d1]
      rfl

/-- Witness for C13: the envelope of `two_point_globals`, not yet held, is kept
by two holders and released by one of them; the release by the other destroys
it. -/
theorem envelope_reference_counting_witness :
    ∃ g1, envelope_calls 0 [.keep, .keep, .free] two_point_globals = .ok g1 ∧
      envelope_load g1 0 = .ok (sas_envelope_s.mk 100 2 [-3, 0, 3, 5, 0, -5] 1 0) ∧
      ∃ g2, sas_envelope_free g1 0 = .ok g2 ∧ envelope_load g2 0 = .error .invalid_access := by
  obtain ⟨g1, h1, h2, -, h4⟩ := (envelope_reference_counting two_point_globals 0
    (sas_envelope_s.mk 100 2 [-3, 0, 3, 5, 0, -5] 0 0) [.keep, .keep, .free] rfl
    (by decide)).1 rfl rfl
  obtain ⟨g2, h5, h6, -⟩ := h4 rfl
  exact ⟨g1, h1, h2, g2, h5, h6⟩

/-! ## Envelopes held by frames -/

theorem envelope_swap (g : globals) (old e : sas_envelope_t) (vo ve : sas_envelope_s)
    (hne : old ≠ e) (ho : envelope_load g old = .ok vo) (he : envelope_load g e = .ok ve)
    (h1 : 1 ≤ vo.refcount) (h2 : vo.refcount < 2 ^ 32) (h3 : ve.refcount + 1 < 2 ^ 32) :
    ∃ g0 g1, sas_envelope_free g old = .ok g0 ∧ sas_envelope_keep g0 e = .ok g1 ∧
      envelope_load g1 e = .ok { ve with refcount := ve.refcount + 1 } ∧
      (if vo.refcount = 1 ∧ vo.lock = 0 then envelope_load g1 old = .error .invalid_access
        else envelope_load g1 old = .ok { vo with refcount := vo.refcount - 1 }) ∧
      ∀ q, q ≠ old → q ≠ e → envelope_load g1 q = envelope_load g q := by
  have hmod : (vo.refcount + (2 ^ 32 - 1)) % 2 ^ 32 = vo.refcount - 1 := by omega
  have hmod1 : (ve.refcount + 1) % 2 ^ 32 = ve.refcount + 1 := Nat.mod_eq_of_lt h3
  have hlto := envelope_load_lt g old vo ho
  by_cases hd : vo.refcount = 1 ∧ vo.lock = 0
  · obtain ⟨d1, d2⟩ := envelope_load_destroyed g old vo ho
    have he0 : envelope_load { g with envelopes := g.envelopes.set old none } e = .ok ve := by
      rw [d2 e (fun h => hne h.symm)]
      exact he
    have hlte := envelope_load_lt _ e ve he0
    refine ⟨_, _, free_step_destroy g old vo ho ⟨by rw [hmod, hd.1], hd.2⟩,
      keep_step _ e ve he0, ?_, ?_, ?_⟩
    · rw [hmod1]
      exact envelope_load_store _ _ _ hlte
    · rw [if_pos hd, envelope_load_store_ne _ e old _ hne]
      exact d1
    · intro q hq1 hq2
      rw [envelope_load_store_ne _ e q _ hq2, d2 q hq1]
  · have he0 : envelope_load
        (envelope_store g old { vo with refcount := (vo.refcount + (2 ^ 32 - 1)) % 2 ^ 32 }) e =
        .ok ve := by
      rw [envelope_load_store_ne g old e _ (fun h => hne h.symm)]
      exact he
    have hlte := envelope_load_lt _ e ve he0
    refine ⟨_, _, free_step_live g old vo ho (by
        rw [hmod]
        intro h
        exact hd ⟨by omega, h.2⟩),
      keep_step _ e ve he0, ?_, ?_, ?_⟩
    · rw [hmod1]
      exact envelope_load_store _ _ _ hlte
    · rw [if_neg hd, envelope_load_store_ne _ e old _ hne, hmod]
      exact envelope_load_store _ _ _ hlto
    · intro q hq1 hq2
      rw [envelope_load_store_ne _ e q _ hq2, envelope_load_store_ne g old q _ hq1]

/-- C14: `sas_frame_set_color` and `sas_frame_set_warp` with the envelope that
the frame already holds change neither the memory nor the frame; with another
allocated envelope `e`, the envelope `old` that the frame holds being allocated
with a counter of at least 1, they return, the frame holds `e` and is otherwise
unchanged, the counter of `e` is one more, the counter of `old` is one less, or
`old` is destroyed when that makes it 0 and `old` is unlocked, and no other
envelope has changed. -/
theorem frame_set_envelope (g : globals) (f : sas_frame_s) (e : sas_envelope_t) :
    (e = f.color → sas_frame_set_color g f e = .ok (g, f)) ∧
    (e = f.warp → sas_frame_set_warp g f e = .ok (g, f)) ∧
    (∀ vo ve, e ≠ f.color → envelope_load g f.color = .ok vo → envelope_load g e = .ok ve →
      1 ≤ vo.refcount → vo.refcount < 2 ^ 32 → ve.refcount + 1 < 2 ^ 32 →
      ∃ g1, sas_frame_set_color g f e =
          .ok (g1, sas_frame_s.mk f.amplitude f.frequency e f.warp) ∧
        envelope_load g1 e = .ok { ve with refcount := ve.refcount + 1 } ∧
        (if vo.refcount = 1 ∧ vo.lock = 0 then
          envelope_load g1 f.color = .error .invalid_access
        else envelope_load g1 f.color = .ok { vo with refcount := vo.refcount - 1 }) ∧
        ∀ q, q ≠ f.color → q ≠ e → envelope_load g1 q = envelope_load g q) ∧
    (∀ vo ve, e ≠ f.warp → envelope_load g f.warp = .ok vo → envelope_load g e = .ok ve →
      1 ≤ vo.refcount → vo.refcount < 2 ^ 32 → ve.refcount + 1 < 2 ^ 32 →
      ∃ g1, sas_frame_set_warp g f e =
          .ok (g1, sas_frame_s.mk f.amplitude f.frequency f.color e) ∧
        envelope_load g1 e = .ok { ve with refcount := ve.refcount + 1 } ∧
        (if vo.refcount = 1 ∧ vo.lock = 0 then
          envelope_load g1 f.warp = .error .invalid_access
        else envelope_load g1 f.warp = .ok { vo with refcount := vo.refcount - 1 }) ∧
        ∀ q, q ≠ f.warp → q ≠ e → envelope_load g1 q = envelope_load g q) := by
  refine ⟨?_, ?_, ?_, ?_⟩
  · intro h
    unfold sas_frame_set_color
    rw [if_neg (not_not.mpr h.symm)]
  · intro h
    unfold sas_frame_set_warp
    rw [if_neg (not_not.mpr h.symm)]
  · intro vo ve hne ho he h1 h2 h3
    obtain ⟨g0, g1, k1, k2, k3, k4, k5⟩ :=
      envelope_swap g f.color e vo ve (fun h => hne h.symm) ho he h1 h2 h3
    refine ⟨g1, ?_, k3, k4, k5⟩
    unfold sas_frame_set_color
    rw [if_pos (fun h => hne h.symm)]
    refine bind_ok_of _ _ _ _ k1 ?_
    exact bind_ok_of _ _ _ _ k2 rfl
  · intro vo ve hne ho he h1 h2 h3
    obtain ⟨g0, g1, k1, k2, k3, k4, k5⟩ :=
      envelope_swap g f.warp e vo ve (fun h => hne h.symm) ho he h1 h2 h3
    refine ⟨g1, ?_, k3, k4, k5⟩
    unfold sas_frame_set_warp
    rw [if_pos (fun h => hne h.symm)]
    refine bind_ok_of _ _ _ _ k1 ?_
    exact bind_ok_of _ _ _ _ k2 rfl

/-- Witness for C14: a frame that holds the first envelope of
`two_envelope_globals` as color and as warp takes the second one as color. -/
theorem frame_set_envelope_witness :
    ∃ g1, sas_frame_set_color two_envelope_globals ⟨1, 440, 0, 0⟩ 1 =
        .ok (g1, sas_frame_s.mk 1 440 1 0) ∧
      envelope_load g1 1 = .ok (sas_envelope_s.mk 100 1 [-1, 0, 1, 0, -1] 1 0) ∧
      envelope_load g1 0 = .ok (sas_envelope_s.mk 100 2 [-3, 0, 3, 5, 0, -5] 1 0) := by
  obtain ⟨g1, k1, k2, k3, -⟩ := (frame_set_envelope two_envelope_globals ⟨1, 440, 0, 0⟩ 1).2.2.1
    (sas_envelope_s.mk 100 2 [-3, 0, 3, 5, 0, -5] 2 0)
    (sas_envelope_s.mk 100 1 [-1, 0, 1, 0, -1] 0 0) (by decide) rfl rfl (by decide) (by decide)
    (by decide)
  rw [if_neg (by decide)] at k3
  exact ⟨g1, k1, k2, k3⟩

theorem set_color_moved (g : globals) (d : sas_frame_s) (e : sas_envelope_t)
    (h : d.color ≠ e → ∃ vo ve, envelope_load g d.color = .ok vo ∧ envelope_load g e = .ok ve ∧
      1 ≤ vo.refcount ∧ vo.refcount < 2 ^ 32 ∧ ve.refcount + 1 < 2 ^ 32) :
    ∃ g1, sas_frame_set_color g d e = .ok (g1, sas_frame_s.mk d.amplitude d.frequency e d.warp) ∧
      reference_moved g g1 d.color e := by
  by_cases hne : d.color = e
  · refine ⟨g, ?_, ?_⟩
    · unfold sas_frame_set_color
      rw [if_neg (not_not.mpr hne)]
      subst hne
      rfl
    · unfold reference_moved
      rw [if_pos hne]
  · obtain ⟨vo, ve, ho, he, h1, h2, h3⟩ := h hne
    obtain ⟨g0, g1, k1, k2, k3, k4, k5⟩ := envelope_swap g d.color e vo ve hne ho he h1 h2 h3
    refine ⟨g1, ?_, ?_⟩
    · unfold sas_frame_set_color
      rw [if_pos hne]
      refine bind_ok_of _ _ _ _ k1 ?_
      exact bind_ok_of _ _ _ _ k2 rfl
    · unfold reference_moved
      rw [if_neg hne]
      exact ⟨⟨vo, ve, ho, he, k3, k4⟩, k5⟩

theorem set_warp_moved (g : globals) (d : sas_frame_s) (e : sas_envelope_t)
    (h : d.warp ≠ e → ∃ vo ve, envelope_load g d.warp = .ok vo ∧ envelope_load g e = .ok ve ∧
      1 ≤ vo.refcount ∧ vo.refcount < 2 ^ 32 ∧ ve.refcount + 1 < 2 ^ 32) :
    ∃ g1, sas_frame_set_warp g d e = .ok (g1, sas_frame_s.mk d.amplitude d.frequency d.color e) ∧
      reference_moved g g1 d.warp e := by
  by_cases hne : d.warp = e
  · refine ⟨g, ?_, ?_⟩
    · unfold sas_frame_set_warp
      rw [if_neg (not_not.mpr hne)]
      subst hne
      rfl
    · unfold reference_moved
      rw [if_pos hne]
  · obtain ⟨vo, ve, ho, he, h1, h2, h3⟩ := h hne
    obtain ⟨g0, g1, k1, k2, k3, k4, k5⟩ := envelope_swap g d.warp e vo ve hne ho he h1 h2 h3
    refine ⟨g1, ?_, ?_⟩
    · unfold sas_frame_set_warp
      rw [if_pos hne]
      refine bind_ok_of _ _ _ _ k1 ?_
      exact bind_ok_of _ _ _ _ k2 rfl
    · unfold reference_moved
      rw [if_neg hne]
      exact ⟨⟨vo, ve, ho, he, k3, k4⟩, k5⟩

theorem moved_load (g g1 : globals) (old e q : sas_envelope_t) (v : sas_envelope_s)
    (hm : reference_moved g g1 old e) (hq : envelope_load g q = .ok v)
    (hsafe : q = old → old ≠ e → 2 ≤ v.refcount) :
    ∃ v1, envelope_load g1 q = .ok v1 ∧ v1.base = v.base ∧ v1.size = v.size ∧
      v1.cells = v.cells ∧ v1.lock = v.lock ∧
      v1.refcount = v.refcount + (if old ≠ e ∧ q = e then 1 else 0) -
        (if old ≠ e ∧ q = old then 1 else 0) := by
  unfold reference_moved at hm
  by_cases hne : old = e
  · rw [if_pos hne] at hm
    subst hm
    refine ⟨v, hq, rfl, rfl, rfl, rfl, ?_⟩
    rw [if_neg (fun h => h.1 hne), if_neg (fun h => h.1 hne)]
    rfl
  · rw [if_neg hne] at hm
    obtain ⟨⟨vo, ve, ho, he, k3, k4⟩, k5⟩ := hm
    by_cases hqe : q = e
    · subst hqe
      rw [he] at hq
      cases hq
      refine ⟨_, k3, rfl, rfl, rfl, rfl, ?_⟩
      rw [if_pos ⟨hne, rfl⟩, if_neg (fun h => hne h.2.symm)]
      rfl
    · by_cases hqo : q = old
      · subst hqo
        rw [ho] at hq
        cases hq
        have h2 := hsafe rfl hne
        rw [if_neg (fun h => by omega)] at k4
        refine ⟨_, k4, rfl, rfl, rfl, rfl, ?_⟩
        rw [if_neg (fun h => hqe h.2), if_pos ⟨hne, rfl⟩]
        rfl
      · refine ⟨v, by rw [k5 q hqo hqe]; exact hq, rfl, rfl, rfl, rfl, ?_⟩
        rw [if_neg (fun h => hqe h.2), if_neg (fun h => hqo h.2)]
        rfl

/-- C15: when every envelope that `dest` or `f` holds is allocated with a
counter that is at least the number of fields of the two frames that hold it
(and at most `2 ^ 32 - 3`), `sas_frame_copy` returns; the frame `dest` then has
the amplitude and the frequency of `f` and holds the very envelopes of `f`; for
the color, then for the warp, the reference of `dest` has moved from its
previous envelope to the one of `f` (nothing when they are the same, else one
reference more for the one of `f` and one less for the previous one); and the
envelopes of `f` are still allocated, with the same base, size, cells and
lock. -/
theorem frame_copy_shares (g : globals) (dest f : sas_frame_s)
    (hheld : ∀ a, 1 ≤ holders dest f a →
      ∃ v, envelope_load g a = .ok v ∧ holders dest f a ≤ v.refcount ∧
        v.refcount + 2 < 2 ^ 32) :
    ∃ g1 g2 d, sas_frame_copy g dest f = .ok (g2, d) ∧
      d.amplitude = f.amplitude ∧ d.frequency = f.frequency ∧
      d.color = f.color ∧ d.warp = f.warp ∧
      reference_moved g g1 dest.color f.color ∧ reference_moved g1 g2 dest.warp f.warp ∧
      ∀ a v, (a = f.color ∨ a = f.warp) → envelope_load g a = .ok v →
        ∃ v2, envelope_load g2 a = .ok v2 ∧ v2.base = v.base ∧ v2.size = v.size ∧
          v2.cells = v.cells ∧ v2.lock = v.lock := by
  obtain ⟨vA, lA, cA, bA⟩ := hheld dest.color (by unfold holders; simp only [if_true]; omega)
  obtain ⟨vB, lB, cB, bB⟩ := hheld dest.warp (by unfold holders; simp only [if_true]; omega)
  obtain ⟨vC, lC, cC, bC⟩ := hheld f.color (by unfold holders; simp only [if_true]; omega)
  obtain ⟨vD, lD, cD, bD⟩ := hheld f.warp (by unfold holders; simp only [if_true]; omega)
  unfold holders at cA cB cC cD
  simp only [if_true] at cA cB cC cD
  -- the color
  obtain ⟨g1, s1, m1⟩ := set_color_moved g
    (sas_frame_s.mk f.amplitude f.frequency dest.color dest.warp) f.color
    (fun _ => ⟨vA, vC, lA, lC, by omega, by omega, by omega⟩)
  simp only [] at s1 m1
  -- the envelopes in the memory after the first move
  obtain ⟨vB1, lB1, -, -, -, -, rB1⟩ := moved_load g g1 dest.color f.color dest.warp vB m1 lB
    (fun h _ => by
      rw [if_pos h.symm] at cB
      omega)
  obtain ⟨vD1, lD1, xD1, yD1, zD1, wD1, rD1⟩ := moved_load g g1 dest.color f.color f.warp vD m1 lD
    (fun h _ => by
      rw [if_pos h.symm] at cD
      omega)
  obtain ⟨vC1, lC1, xC1, yC1, zC1, wC1, rC1⟩ := moved_load g g1 dest.color f.color f.color vC m1 lC
    (fun h hne => absurd h.symm hne)
  -- the warp
  obtain ⟨g2, s2, m2⟩ := set_warp_moved g1
    (sas_frame_s.mk f.amplitude f.frequency f.color dest.warp) f.warp
    (fun _ => ⟨vB1, vD1, lB1, lD1, by
      rw [rB1]
      split_ifs with h1 h2 h2
      · exact absurd (h1.2.symm.trans h2.2) h1.1.symm
      · omega
      · rw [if_pos h2.2.symm] at cB
        omega
      · omega, by
      rw [rB1]
      split_ifs <;> omega, by
      rw [rD1]
      split_ifs <;> omega⟩)
  simp only [] at s2 m2
  refine ⟨g1, g2, _, ?_, rfl, rfl, rfl, rfl, m1, m2, ?_⟩
  · unfold sas_frame_copy
    simp only [sas_frame_get_color, sas_frame_get_warp]
    refine bind_ok_of _ _ _ _ s1 ?_
    exact s2
  · intro a v ha hv
    rcases ha with rfl | rfl
    · rw [lC] at hv
      cases hv
      obtain ⟨v2, l2, x2, y2, z2, w2, -⟩ := moved_load g1 g2 dest.warp f.warp f.color vC1 m2 lC1
        (fun h hne => by
          rw [rC1]
          rw [if_pos h.symm] at cC
          split_ifs with h1 h2 h2
          · exact absurd h2.2.symm h2.1
          · omega
          · exact absurd h2.2.symm h2.1
          · have h3 : dest.color = f.color := by
              by_contra hcon
              exact h1 ⟨hcon, rfl⟩
            rw [if_pos h3] at cC
            omega)
      exact ⟨v2, l2, x2.trans xC1, y2.trans yC1, z2.trans zC1, w2.trans wC1⟩
    · rw [lD] at hv
      cases hv
      obtain ⟨v2, l2, x2, y2, z2, w2, -⟩ := moved_load g1 g2 dest.warp f.warp f.warp vD1 m2 lD1
        (fun h hne => absurd h.symm hne)
      exact ⟨v2, l2, x2.trans xD1, y2.trans yD1, z2.trans zD1, w2.trans wD1⟩

/-- Witness for C15: in `shared_globals`, a frame that holds the first
envelope twice receives the copy of a frame that holds the second envelope as
color and the first as warp. -/
theorem frame_copy_shares_witness :
    ∃ g1 g2 d, sas_frame_copy shared_globals ⟨1, 440, 0, 0⟩ ⟨2, 220, 1, 0⟩ = .ok (g2, d) ∧
      d.amplitude = 2 ∧ d.frequency = 220 ∧ d.color = 1 ∧ d.warp = 0 ∧
      reference_moved shared_globals g1 0 1 ∧ reference_moved g1 g2 0 0 ∧
      ∀ a v, (a = 1 ∨ a = 0) → envelope_load shared_globals a = .ok v →
        ∃ v2, envelope_load g2 a = .ok v2 ∧ v2.base = v.base ∧ v2.size = v.size ∧
          v2.cells = v.cells ∧ v2.lock = v.lock :=
  frame_copy_shares shared_globals ⟨1, 440, 0, 0⟩ ⟨2, 220, 1, 0⟩ (by
    intro a ha
    by_cases h0 : a = 0
    · subst h0
      exact ⟨_, rfl, by decide, by decide⟩
    · by_cases h1 : a = 1
      · subst h1
        exact ⟨_, rfl, by decide, by decide⟩
      · exfalso
        unfold holders at ha
        simp only [] at ha
        rw [if_neg (fun h => h0 h.symm), if_neg (fun h => h1 h.symm)] at ha
        omega)

/-! ## Morphing and filtering of frames -/

theorem adjust_for_color_total (e : sas_envelope_s) (n : Nat) (hs : e.size = n + 1)
    (hlen : e.cells.length = n + 5) :
    ∃ e1, envelope_adjust_for_color e = .ok e1 ∧ e1.refcount = e.refcount ∧
      e1.lock = e.lock := by
  have n0 : 0 < n + 5 := Nat.succ_pos _
  have n1 : 1 < n + 5 := Nat.lt_add_left n (by decide)
  have n2 : 2 < n + 5 := Nat.lt_add_left n (by decide)
  have m2 : n + 2 < n + 5 := Nat.add_lt_add_left (by decide) n
  have m3 : n + 3 < n + 5 := Nat.add_lt_add_left (by decide) n
  have m4 : n + 4 < n + 5 := Nat.add_lt_add_left (by decide) n
  have hg0 : data_get e 0 = .ok (e.cells.getD 2 0) :=
    data_get_at e 0 2 (by norm_num) (by decide) (hlen ▸ n2)
  obtain ⟨e1, he1, b1, s1, r1, l1, c1⟩ := data_set_at e (-2) 0 (-(e.cells.getD 2 0))
    (by norm_num) (by decide) (hlen ▸ n0)
  have len1 : e1.cells.length = n + 5 := by rw [c1, List.length_set, hlen]
  obtain ⟨e2, he2, b2, s2, r2, l2, c2⟩ := data_set_at e1 (-1) 1 0
    (by norm_num) (by decide) (len1 ▸ n1)
  have len2 : e2.cells.length = n + 5 := by rw [c2, List.length_set, len1]
  have sz2 : e2.size = n + 1 := by rw [s2, s1, hs]
  have w2 := warp_index e2.size n sz2
  obtain ⟨e3, he3, b3, s3, r3, l3, c3⟩ := data_set_at e2 e2.size (n + 3) 0
    w2.2.2.1.1 w2.2.2.1.2 (len2 ▸ m3)
  have len3 : e3.cells.length = n + 5 := by rw [c3, List.length_set, len2]
  have sz3 : e3.size = n + 1 := by rw [s3, sz2]
  have w3 := warp_index e3.size n sz3
  have hgl : data_get e3 (e3.size - 1) = .ok (e3.cells.getD (n + 2) 0) :=
    data_get_at e3 _ _ w3.1.1 w3.1.2 (len3 ▸ m2)
  obtain ⟨e4, he4, b4, s4, r4, l4, c4⟩ := data_set_at e3 (e3.size + 1) (n + 4)
    (-(e3.cells.getD (n + 2) 0)) w3.2.2.2.2.1 w3.2.2.2.2.2 (len3 ▸ m4)
  refine ⟨e4, ?_, by rw [r4, r3, r2, r1], by rw [l4, l3, l2, l1]⟩
  unfold envelope_adjust_for_color
  refine bind_ok_of _ _ _ _ hg0 ?_
  refine bind_ok_of _ _ _ _ he1 ?_
  refine bind_ok_of _ _ _ _ he2 ?_
  refine bind_ok_of _ _ _ _ he3 ?_
  refine bind_ok_of _ _ _ _ hgl ?_
  exact he4

theorem adjust_color_heap (g : globals) (a : sas_envelope_t) (e : sas_envelope_s) (n : Nat)
    (hload : envelope_load g a = .ok e) (hs : e.size = n + 1) (hlen : e.cells.length = n + 5) :
    ∃ e1, sas_envelope_adjust_for_color g a = .ok (envelope_store g a e1) ∧
      e1.base = e.base ∧ e1.size = e.size ∧ e1.refcount = e.refcount ∧ e1.lock = e.lock ∧
      e1.cells.length = e.cells.length ∧
      ∀ j : Nat, 2 ≤ j → (j : Int) < e.size + 2 → e1.cells.getD j 0 = e.cells.getD j 0 := by
  obtain ⟨e1, h1, r1, l1⟩ := adjust_for_color_total e n hs hlen
  obtain ⟨b1, s1, len1, c1⟩ := adjust_for_color_ok e e1 h1
  refine ⟨e1, ?_, b1, s1, r1, l1, len1, c1⟩
  unfold sas_envelope_adjust_for_color
  refine bind_ok_of _ _ _ _ hload ?_
  exact bind_ok_of _ _ _ _ h1 rfl

theorem adjust_warp_heap (g : globals) (a : sas_envelope_t) (e : sas_envelope_s) (n : Nat)
    (hload : envelope_load g a = .ok e) (hs : e.size = n + 1) (hlen : e.cells.length = n + 5) :
    ∃ e1, sas_envelope_adjust_for_warp g a = .ok (envelope_store g a e1) ∧
      e1.base = e.base ∧ e1.size = e.size ∧ e1.refcount = e.refcount ∧ e1.lock = e.lock ∧
      e1.cells.length = e.cells.length ∧
      ∀ j : Nat, 2 ≤ j → (j : Int) < e.size + 2 → e1.cells.getD j 0 = e.cells.getD j 0 := by
  obtain ⟨e1, cA, cB, cC, h1, -, -, r1, l1, -⟩ := adjust_for_warp_cells e n hs hlen
  obtain ⟨b1, s1, len1, c1⟩ := adjust_for_warp_ok e e1 h1
  refine ⟨e1, ?_, b1, s1, r1, l1, len1, c1⟩
  unfold sas_envelope_adjust_for_warp
  refine bind_ok_of _ _ _ _ hload ?_
  exact bind_ok_of _ _ _ _ h1 rfl

theorem envelope_load_make_lt (g : globals) (base : ℚ) (size : Int) (values : List ℚ)
    (q : sas_envelope_t) (hq : q < g.envelopes.length) :
    envelope_load (sas_envelope_make g base size values).1 q = envelope_load g q := by
  simp only [envelope_load, sas_envelope_make, List.get?_eq_getElem?]
  rw [List.getElem?_append_left hq]

theorem lookup_well_formed (g : globals) (a : sas_envelope_t) (fr : ℚ) (h : well_formed g a)
    (hf : 0 < fr) :
    ∃ v, sas_envelope_get_value_inline g a fr = .ok v ∧ 0 ≤ v ∧
      returned (sas_envelope_get_value_inline g a fr) = v := by
  obtain ⟨e, hload, hs, hlen⟩ := h
  obtain ⟨v, h1, h2, -⟩ := envelope_get_value_ok e fr hs hlen hf
  have : sas_envelope_get_value_inline g a fr = .ok v := by
    unfold sas_envelope_get_value_inline
    rw [hload]
    exact h1
  refine ⟨v, this, h2, ?_⟩
  rw [this]
  rfl

theorem grid_frequency_pos (i : Nat) : 0 < grid_frequency i := by
  unfold grid_frequency
  have h1 : (0 : ℚ) < SAS_ENVELOPE_STDBASE := by
    norm_num [SAS_ENVELOPE_STDBASE, SAS_MAX_AUDIBLE_FREQUENCY, SAS_SAMPLING_RATE,
      SAS_ENVELOPE_STDSIZE]
  have h2 : (0 : ℚ) < (((i : Int) + 1 : Int) : ℚ) := by
    push_cast
    positivity
  exact mul_pos h1 h2

theorem morph_loop (c : libc) (g : globals) (C1 W1 C2 W2 : sas_envelope_t) (coeff : ℚ)
    (h1 : well_formed g C1) (h2 : well_formed g W1) (h3 : well_formed g C2)
    (h4 : well_formed g W2) :
    ∃ values, for_loop (morph_values c g C1 W1 C2 W2 coeff) SAS_ENVELOPE_STDSIZE 0
        (List.replicate SAS_ENVELOPE_STDSIZE 0, List.replicate SAS_ENVELOPE_STDSIZE 0) =
          .ok values ∧
      ∀ k, k < SAS_ENVELOPE_STDSIZE →
        values.1.getD k 0 =
          MORPH c (returned (sas_envelope_get_value_inline g C1 (grid_frequency k)))
            (returned (sas_envelope_get_value_inline g C2 (grid_frequency k))) coeff ∧
        values.2.getD k 0 =
          MORPH c (returned (sas_envelope_get_value_inline g W1 (grid_frequency k)))
            (returned (sas_envelope_get_value_inline g W2 (grid_frequency k))) coeff := by
  obtain ⟨t1, hrun, -, -, hP⟩ := for_loop_inv (morph_values c g C1 W1 C2 W2 coeff)
    (fun i st => st.1.length = SAS_ENVELOPE_STDSIZE ∧ st.2.length = SAS_ENVELOPE_STDSIZE ∧
      ∀ k, k < i →
        st.1.getD k 0 =
          MORPH c (returned (sas_envelope_get_value_inline g C1 (grid_frequency k)))
            (returned (sas_envelope_get_value_inline g C2 (grid_frequency k))) coeff ∧
        st.2.getD k 0 =
          MORPH c (returned (sas_envelope_get_value_inline g W1 (grid_frequency k)))
            (returned (sas_envelope_get_value_inline g W2 (grid_frequency k))) coeff)
    SAS_ENVELOPE_STDSIZE 0
    (List.replicate SAS_ENVELOPE_STDSIZE 0, List.replicate SAS_ENVELOPE_STDSIZE 0)
    ⟨List.length_replicate _ _, List.length_replicate _ _, fun k hk => absurd hk (Nat.not_lt_zero k)⟩
    (fun j t _ hj ht => by
      obtain ⟨l1, l2, hprev⟩ := ht
      have hjl : j < SAS_ENVELOPE_STDSIZE := by omega
      obtain ⟨a1, ha1, -, ra1⟩ := lookup_well_formed g C1 _ h1 (grid_frequency_pos j)
      obtain ⟨a2, ha2, -, ra2⟩ := lookup_well_formed g C2 _ h3 (grid_frequency_pos j)
      obtain ⟨b1, hb1, -, rb1⟩ := lookup_well_formed g W1 _ h2 (grid_frequency_pos j)
      obtain ⟨b2, hb2, -, rb2⟩ := lookup_well_formed g W2 _ h4 (grid_frequency_pos j)
      refine ⟨(t.1.set j (MORPH c a1 a2 coeff), t.2.set j (MORPH c b1 b2 coeff)), ?_, ?_, ?_, ?_⟩
      · unfold morph_values
        refine bind_ok_of _ _ _ _ ha1 ?_
        refine bind_ok_of _ _ _ _ ha2 ?_
        refine bind_ok_of _ _ _ _ (array_set_ok _ _ _ (l1 ▸ hjl)) ?_
        refine bind_ok_of _ _ _ _ hb1 ?_
        refine bind_ok_of _ _ _ _ hb2 ?_
        exact bind_ok_of _ _ _ _ (array_set_ok _ _ _ (l2 ▸ hjl)) rfl
      · show (t.1.set j _).length = _
        rw [List.length_set]
        exact l1
      · show (t.2.set j _).length = _
        rw [List.length_set]
        exact l2
      · intro k hk
        show (t.1.set j _).getD k 0 = _ ∧ (t.2.set j _).getD k 0 = _
        rw [getD_set _ _ _ _ (l1 ▸ hjl), getD_set _ _ _ _ (l2 ▸ hjl)]
        by_cases hkj : k = j
        · subst hkj
          rw [if_pos rfl, if_pos rfl, ra1, ra2, rb1, rb2]
          exact ⟨rfl, rfl⟩
        · rw [if_neg hkj, if_neg hkj]
          exact hprev k (by omega))
  refine ⟨t1, hrun, ?_⟩
  intro k hk
  exact hP k (by omega)

theorem filter_loop (g : globals) (Cf Cfilter : sas_envelope_t)
    (h1 : well_formed g Cf) (h2 : well_formed g Cfilter) :
    ∃ values, for_loop (filter_values g Cf Cfilter) SAS_ENVELOPE_STDSIZE 0
        (List.replicate SAS_ENVELOPE_STDSIZE 0) = .ok values ∧
      ∀ k, k < SAS_ENVELOPE_STDSIZE →
        values.getD k 0 =
          returned (sas_envelope_get_value_inline g Cf (grid_frequency k)) *
            returned (sas_envelope_get_value_inline g Cfilter (grid_frequency k)) := by
  obtain ⟨t1, hrun, -, hP⟩ := for_loop_inv (filter_values g Cf Cfilter)
    (fun i st => st.length = SAS_ENVELOPE_STDSIZE ∧
      ∀ k, k < i →
        st.getD k 0 =
          returned (sas_envelope_get_value_inline g Cf (grid_frequency k)) *
            returned (sas_envelope_get_value_inline g Cfilter (grid_frequency k)))
    SAS_ENVELOPE_STDSIZE 0 (List.replicate SAS_ENVELOPE_STDSIZE 0)
    ⟨List.length_replicate _ _, fun k hk => absurd hk (Nat.not_lt_zero k)⟩
    (fun j t _ hj ht => by
      obtain ⟨l1, hprev⟩ := ht
      have hjl : j < SAS_ENVELOPE_STDSIZE := by omega
      obtain ⟨a1, ha1, -, ra1⟩ := lookup_well_formed g Cf _ h1 (grid_frequency_pos j)
      obtain ⟨a2, ha2, -, ra2⟩ := lookup_well_formed g Cfilter _ h2 (grid_frequency_pos j)
      refine ⟨t.set j (a1 * a2), ?_, ?_, ?_⟩
      · unfold filter_values
        refine bind_ok_of _ _ _ _ ha1 ?_
        refine bind_ok_of _ _ _ _ ha2 ?_
        exact array_set_ok _ _ _ (l1 ▸ hjl)
      · rw [List.length_set]
        exact l1
      · intro k hk
        rw [getD_set _ _ _ _ (l1 ▸ hjl)]
        by_cases hkj : k = j
        · subst hkj
          rw [if_pos rfl, ra1, ra2]
        · rw [if_neg hkj]
          exact hprev k (by omega))
  refine ⟨t1, hrun, ?_⟩
  intro k hk
  exact hP k (by omega)

theorem made_cells (vs : List ℚ) :
    (envelope_make SAS_ENVELOPE_STDBASE SAS_ENVELOPE_STDSIZE vs).size = ((511 : Nat) : Int) + 1 ∧
      (envelope_make SAS_ENVELOPE_STDBASE SAS_ENVELOPE_STDSIZE vs).cells.length = 511 + 5 ∧
      ∀ k : Nat, k < SAS_ENVELOPE_STDSIZE →
        (envelope_make SAS_ENVELOPE_STDBASE SAS_ENVELOPE_STDSIZE vs).cells.getD (k + 2) 0 =
          vs.getD k 0 := by
  refine ⟨rfl, ?_, ?_⟩
  · simp [envelope_make, SAS_ENVELOPE_STDSIZE]
  · intro k hk
    have hk2 : k < 512 := hk
    have h := envelope_make_cells SAS_ENVELOPE_STDBASE SAS_ENVELOPE_STDSIZE vs ((k : Int) + 1)
      (by omega) (by
        show (k : Int) + 1 ≤ ((512 : Nat) : Int)
        omega)
    have e1 : ((k : Int) + 1 + 1).toNat = k + 2 := by omega
    have e2 : ((k : Int) + 1 - 1).toNat = k := by omega
    rw [e1, e2] at h
    exact h

theorem fresh_pair (g : globals) (cv wv : List ℚ) (gC gW : globals × sas_envelope_t)
    (hC : gC = sas_envelope_make g SAS_ENVELOPE_STDBASE SAS_ENVELOPE_STDSIZE cv)
    (hW : gW = sas_envelope_make gC.1 SAS_ENVELOPE_STDBASE SAS_ENVELOPE_STDSIZE wv) :
    ∃ g3 g4 e1 e2, sas_envelope_adjust_for_color gW.1 gC.2 = .ok g3 ∧
      sas_envelope_adjust_for_warp g3 gW.2 = .ok g4 ∧
      gC.2 = g.envelopes.length ∧ gW.2 = g.envelopes.length + 1 ∧
      envelope_load g4 gC.2 = .ok e1 ∧ envelope_load g4 gW.2 = .ok e2 ∧
      (∀ q, q < g.envelopes.length → envelope_load g4 q = envelope_load g q) ∧
      (e1.base = SAS_ENVELOPE_STDBASE ∧ e1.size = SAS_ENVELOPE_STDSIZE ∧ e1.refcount = 0 ∧
        e1.cells.length = 516 ∧
        ∀ k : Nat, k < SAS_ENVELOPE_STDSIZE → e1.cells.getD (k + 2) 0 = cv.getD k 0) ∧
      (e2.base = SAS_ENVELOPE_STDBASE ∧ e2.size = SAS_ENVELOPE_STDSIZE ∧ e2.refcount = 0 ∧
        e2.cells.length = 516 ∧
        ∀ k : Nat, k < SAS_ENVELOPE_STDSIZE → e2.cells.getD (k + 2) 0 = wv.getD k 0) := by
  have hC2 : @Eq Nat gC.2 g.envelopes.length := by rw [hC]; rfl
  have hlenC : gC.1.envelopes.length = g.envelopes.length + 1 := by
    rw [hC]
    simp [sas_envelope_make]
  have hW2 : @Eq Nat gW.2 (g.envelopes.length + 1) := by rw [hW]; exact hlenC
  have hlenW : gW.1.envelopes.length = g.envelopes.length + 2 := by
    rw [hW]
    simp [sas_envelope_make, hlenC]
  have hne : gC.2 ≠ gW.2 := fun h => by
    have h1 : @Eq Nat gC.2 gW.2 := h
    omega
  have hlt1 : gC.2 < gC.1.envelopes.length := by
    rw [hlenC, hC2]
    exact Nat.lt_succ_self _
  have hlt2 : gC.2 < gW.1.envelopes.length := by
    rw [hlenW, hC2]
    exact Nat.lt_add_of_pos_right (by decide)
  have hlt3 : gW.2 < gW.1.envelopes.length := by
    rw [hlenW, hW2]
    exact Nat.add_lt_add_left (by decide) _
  -- the two envelopes after the allocations
  have lC : envelope_load gW.1 gC.2 =
      .ok (envelope_make SAS_ENVELOPE_STDBASE SAS_ENVELOPE_STDSIZE cv) := by
    have k1 : envelope_load gW.1 gC.2 = envelope_load gC.1 gC.2 := by
      rw [hW]
      exact envelope_load_make_lt gC.1 _ _ _ gC.2 hlt1
    rw [k1, hC]
    exact envelope_load_make g _ _ _
  have lW : envelope_load gW.1 gW.2 =
      .ok (envelope_make SAS_ENVELOPE_STDBASE SAS_ENVELOPE_STDSIZE wv) := by
    rw [hW]
    exact envelope_load_make gC.1 _ _ _
  obtain ⟨sC, nC, cC⟩ := made_cells cv
  obtain ⟨sW, nW, cW⟩ := made_cells wv
  obtain ⟨e1, a1, b1, s1, r1, -, len1, c1⟩ := adjust_color_heap gW.1 gC.2 _ 511 lC sC nC
  have lW3 : envelope_load (envelope_store gW.1 gC.2 e1) gW.2 =
      .ok (envelope_make SAS_ENVELOPE_STDBASE SAS_ENVELOPE_STDSIZE wv) := by
    rw [envelope_load_store_ne _ _ _ _ (fun h => hne h.symm)]
    exact lW
  obtain ⟨e2, a2, b2, s2, r2, -, len2, c2⟩ :=
    adjust_warp_heap (envelope_store gW.1 gC.2 e1) gW.2 _ 511 lW3 sW nW
  refine ⟨_, _, e1, e2, a1, a2, hC2, hW2, ?_, ?_, ?_, ⟨b1, s1, r1, by rw [len1, nC], ?_⟩,
    ⟨b2, s2, r2, by rw [len2, nW], ?_⟩⟩
  · rw [envelope_load_store_ne _ _ _ _ hne]
    exact envelope_load_store _ _ _ hlt2
  · exact envelope_load_store _ _ _ (by
      show gW.2 < (envelope_store gW.1 gC.2 e1).envelopes.length
      simp only [envelope_store, List.length_set]
      exact hlt3)
  · intro q hq
    have q1 : q ≠ gW.2 := fun h => by
      have h1 : @Eq Nat q gW.2 := h
      omega
    have q2 : q ≠ gC.2 := fun h => by
      have h1 : @Eq Nat q gC.2 := h
      omega
    have q3 : q < gC.1.envelopes.length := by
      rw [hlenC]
      exact Nat.lt_succ_of_lt hq
    have k1 : envelope_load gW.1 q = envelope_load gC.1 q := by
      rw [hW]
      exact envelope_load_make_lt gC.1 _ _ _ q q3
    have k2 : envelope_load gC.1 q = envelope_load g q := by
      rw [hC]
      exact envelope_load_make_lt g _ _ _ q hq
    rw [envelope_load_store_ne _ _ _ _ q1, envelope_load_store_ne _ _ _ _ q2, k1, k2]
  · intro k hk
    rw [c1 (k + 2) (by omega) (by
      rw [sC]
      have : k < 512 := hk
      omega)]
    exact cC k hk
  · intro k hk
    rw [c2 (k + 2) (by omega) (by
      rw [sW]
      have : k < 512 := hk
      omega)]
    exact cW k hk

theorem dest_takes (G : globals) (d : sas_frame_s) (C W : sas_envelope_t)
    (e1 e2 : sas_envelope_s) (hd : holds_envelopes G d) (hCW : C ≠ W) (h1 : d.color ≠ C)
    (h2 : d.color ≠ W) (h3 : d.warp ≠ C) (h4 : d.warp ≠ W)
    (lC : envelope_load G C = .ok e1) (lW : envelope_load G W = .ok e2)
    (rC : e1.refcount + 2 < 2 ^ 32) (rW : e2.refcount + 2 < 2 ^ 32) :
    ∃ g5 g6 v1 v2,
      sas_frame_set_color G d C = .ok (g5, sas_frame_s.mk d.amplitude d.frequency C d.warp) ∧
      sas_frame_set_warp g5 (sas_frame_s.mk d.amplitude d.frequency C d.warp) W =
        .ok (g6, sas_frame_s.mk d.amplitude d.frequency C W) ∧
      reference_moved G g5 d.color C ∧ reference_moved g5 g6 d.warp W ∧
      envelope_load g6 C = .ok v1 ∧ v1.base = e1.base ∧ v1.size = e1.size ∧
      v1.cells = e1.cells ∧ v1.refcount = e1.refcount + 1 ∧
      envelope_load g6 W = .ok v2 ∧ v2.base = e2.base ∧ v2.size = e2.size ∧
      v2.cells = e2.cells ∧ v2.refcount = e2.refcount + 1 := by
  obtain ⟨vc, vw, lc, lw, c1, c2, c3, c4, c5⟩ := hd
  obtain ⟨g5, s1, m1⟩ := set_color_moved G d C (fun _ => ⟨vc, e1, lc, lC, c1, c3, by omega⟩)
  obtain ⟨vw5, lw5, -, -, -, -, rw5⟩ := moved_load G g5 d.color C d.warp vw m1 lw (fun h _ => by
    rw [h, lc] at lw
    cases lw
    exact c5 h.symm)
  obtain ⟨vW5, lW5, bW5, sW5, cW5, -, rW5⟩ := moved_load G g5 d.color C W e2 m1 lW
    (fun h _ => absurd h.symm h2)
  obtain ⟨vC5, lC5, bC5, sC5, cC5, -, rC5⟩ := moved_load G g5 d.color C C e1 m1 lC
    (fun h _ => absurd h.symm h1)
  rw [if_pos ⟨h1, rfl⟩, if_neg (fun h => h1 h.2.symm)] at rC5
  rw [if_neg (fun h => hCW h.2.symm), if_neg (fun h => h2 h.2.symm)] at rW5
  rw [if_neg (fun h => h3 h.2)] at rw5
  have hw5 : 1 ≤ vw5.refcount ∧ vw5.refcount < 2 ^ 32 := by
    rw [rw5]
    by_cases hcw : d.warp = d.color
    · have h2w : 2 ≤ vw.refcount := by
        rw [hcw, lc] at lw
        cases lw
        exact c5 hcw.symm
      rw [if_pos ⟨h1, hcw⟩]
      omega
    · rw [if_neg (fun h => hcw h.2)]
      omega
  obtain ⟨g6, s2, m2⟩ := set_warp_moved g5 (sas_frame_s.mk d.amplitude d.frequency C d.warp) W
    (fun _ => ⟨vw5, vW5, lw5, lW5, hw5.1, hw5.2, by rw [rW5]; omega⟩)
  obtain ⟨v1, l1, b1, z1, k1, -, r1⟩ := moved_load g5 g6 d.warp W C vC5 m2 lC5
    (fun h _ => absurd h.symm h3)
  obtain ⟨v2, l2, b2, z2, k2, -, r2⟩ := moved_load g5 g6 d.warp W W vW5 m2 lW5
    (fun h _ => absurd h.symm h4)
  rw [if_neg (fun h => hCW h.2), if_neg (fun h => h3 h.2.symm)] at r1
  rw [if_pos ⟨h4, rfl⟩, if_neg (fun h => h4 h.2.symm)] at r2
  refine ⟨g5, g6, v1, v2, s1, s2, m1, m2, l1, b1.trans bC5, z1.trans sC5, k1.trans cC5, ?_, l2,
    b2.trans bW5, z2.trans sW5, k2.trans cW5, ?_⟩
  · rw [r1, rC5]
    rfl
  · rw [r2, rW5]
    rfl

theorem holds_envelopes_of_load (g G : globals) (d : sas_frame_s) (hd : holds_envelopes g d)
    (h : ∀ q, q < g.envelopes.length → envelope_load G q = envelope_load g q) :
    holds_envelopes G d ∧ d.color < g.envelopes.length ∧ d.warp < g.envelopes.length := by
  obtain ⟨vc, vw, lc, lw, c⟩ := hd
  have h1 := envelope_load_lt g _ _ lc
  have h2 := envelope_load_lt g _ _ lw
  refine ⟨⟨vc, vw, ?_, ?_, c⟩, h1, h2⟩
  · rw [h _ h1]
    exact lc
  · rw [h _ h2]
    exact lw

theorem morph_run (c : libc) (g : globals) (dest f1 f2 : sas_frame_s) (coeff : ℚ)
    (hc : 0 ≤ coeff ∧ coeff ≤ 1) (hd : holds_envelopes g dest)
    (h1 : well_formed g f1.color) (h2 : well_formed g f1.warp)
    (h3 : well_formed g f2.color) (h4 : well_formed g f2.warp) :
    ∃ g6 d vC vW, sas_frame_morphing c g dest f1 f2 coeff = .ok (g6, d) ∧
      d.amplitude = MORPH c f1.amplitude f2.amplitude coeff ∧
      d.frequency = MORPH c f1.frequency f2.frequency coeff ∧
      d.color = g.envelopes.length ∧ d.warp = g.envelopes.length + 1 ∧
      envelope_load g6 d.color = .ok vC ∧ envelope_load g6 d.warp = .ok vW ∧
      (vC.base = SAS_ENVELOPE_STDBASE ∧ vC.size = SAS_ENVELOPE_STDSIZE ∧
        vC.cells.length = 516 ∧ vC.refcount = 1 ∧
        ∀ k : Nat, k < SAS_ENVELOPE_STDSIZE → vC.cells.getD (k + 2) 0 =
          MORPH c (returned (sas_envelope_get_value_inline g f1.color (grid_frequency k)))
            (returned (sas_envelope_get_value_inline g f2.color (grid_frequency k))) coeff) ∧
      (vW.base = SAS_ENVELOPE_STDBASE ∧ vW.size = SAS_ENVELOPE_STDSIZE ∧
        vW.cells.length = 516 ∧ vW.refcount = 1 ∧
        ∀ k : Nat, k < SAS_ENVELOPE_STDSIZE → vW.cells.getD (k + 2) 0 =
          MORPH c (returned (sas_envelope_get_value_inline g f1.warp (grid_frequency k)))
            (returned (sas_envelope_get_value_inline g f2.warp (grid_frequency k))) coeff) := by
  obtain ⟨values, hloop, hvals⟩ := morph_loop c g f1.color f1.warp f2.color f2.warp coeff h1 h2 h3 h4
  obtain ⟨g3, g4, e1, e2, a1, a2, hC2, hW2, lC, lW, hframe, ⟨b1, z1, r1, n1, k1⟩,
    ⟨b2, z2, r2, n2, k2⟩⟩ := fresh_pair g values.1 values.2 _ _ rfl rfl
  obtain ⟨hd4, dc, dw⟩ := holds_envelopes_of_load g g4 dest hd hframe
  have hd4b : holds_envelopes g4 (sas_frame_s.mk (MORPH c f1.amplitude f2.amplitude coeff)
      (MORPH c f1.frequency f2.frequency coeff) dest.color dest.warp) := hd4
  have q1 : dest.color ≠ g.envelopes.length := Nat.ne_of_lt dc
  have q2 : dest.color ≠ g.envelopes.length + 1 := Nat.ne_of_lt (Nat.lt_succ_of_lt dc)
  have q3 : dest.warp ≠ g.envelopes.length := Nat.ne_of_lt dw
  have q4 : dest.warp ≠ g.envelopes.length + 1 := Nat.ne_of_lt (Nat.lt_succ_of_lt dw)
  rw [hC2] at lC a1
  rw [hW2] at lW a2
  obtain ⟨g5, g6, v1, v2, s1, s2, -, -, l1, vb1, vz1, vk1, vr1, l2, vb2, vz2, vk2, vr2⟩ :=
    dest_takes g4 _ g.envelopes.length (g.envelopes.length + 1) e1 e2 hd4b
      (Nat.ne_of_lt (Nat.lt_succ_self _)) q1 q2 q3 q4 lC lW (by rw [r1]; decide)
      (by rw [r2]; decide)
  refine ⟨g6, sas_frame_s.mk (MORPH c f1.amplitude f2.amplitude coeff)
      (MORPH c f1.frequency f2.frequency coeff) g.envelopes.length (g.envelopes.length + 1),
    v1, v2, ?_, rfl, rfl, rfl, rfl, l1, l2,
    ⟨vb1.trans b1, vz1.trans z1, by rw [vk1, n1], by rw [vr1, r1], ?_⟩,
    ⟨vb2.trans b2, vz2.trans z2, by rw [vk2, n2], by rw [vr2, r2], ?_⟩⟩
  · unfold sas_frame_morphing
    rw [if_neg (not_not.mpr hc)]
    refine bind_ok_of _ _ _ _ hloop ?_
    simp only []
    rw [hW2]
    refine bind_ok_of _ _ _ _ a1 ?_
    refine bind_ok_of _ _ _ _ a2 ?_
    refine bind_ok_of _ _ _ _ s1 ?_
    exact s2
  · intro k hk
    rw [vk1, k1 k hk]
    exact (hvals k hk).1
  · intro k hk
    rw [vk2, k2 k hk]
    exact (hvals k hk).2

theorem morph_zero (c : libc) (a b : ℚ) (hpow0 : ∀ x : ℚ, 0 ≤ x → c.pow x 0 = 1)
    (hpow1 : ∀ x : ℚ, 0 ≤ x → c.pow x 1 = x) (ha : 0 ≤ a) (hb : 0 ≤ b) :
    MORPH c a b 0 = a := by
  unfold MORPH
  rw [sub_zero, hpow1 a ha, hpow0 b hb, mul_one]

theorem morph_one (c : libc) (a b : ℚ) (hpow0 : ∀ x : ℚ, 0 ≤ x → c.pow x 0 = 1)
    (hpow1 : ∀ x : ℚ, 0 ≤ x → c.pow x 1 = x) (ha : 0 ≤ a) (hb : 0 ≤ b) :
    MORPH c a b 1 = b := by
  unfold MORPH
  rw [sub_self, hpow0 a ha, hpow1 b hb, one_mul]

theorem shared_globals_valid :
    holds_envelopes shared_globals receiving_frame ∧ well_formed shared_globals 0 ∧
      well_formed shared_globals 1 :=
  ⟨⟨_, _, rfl, rfl, by decide, by decide, by decide, by decide, fun _ => by decide⟩,
    ⟨_, rfl, by decide, by decide⟩, ⟨_, rfl, by decide, by decide⟩⟩

theorem libc_rational_pow :
    (∀ x : ℚ, 0 ≤ x → libc_rational.pow x 0 = 1) ∧
      (∀ x : ℚ, 0 ≤ x → libc_rational.pow x 1 = x) := by
  constructor
  · intro x _
    simp [libc_rational]
  · intro x _
    simp [libc_rational]

/-- C16: with a `pow` that gives `pow (x, 0) = 1` and `pow (x, 1) = x` for
`x >= 0`, frames `f1`, `f2` of amplitude at least 0 and frequency above 0 whose
envelopes are well formed, and a frame `dest` that holds its envelopes,
`sas_frame_morphing` with `coeff = 0` returns and gives `dest` the amplitude and
the frequency of `f1`, and with `coeff = 1` it returns and gives those of
`f2`. -/
theorem morph_endpoints (c : libc) (g : globals) (dest f1 f2 : sas_frame_s)
    (hpow0 : ∀ x : ℚ, 0 ≤ x → c.pow x 0 = 1) (hpow1 : ∀ x : ℚ, 0 ≤ x → c.pow x 1 = x)
    (ha1 : 0 ≤ f1.amplitude) (ha2 : 0 ≤ f2.amplitude) (hf1 : 0 < f1.frequency)
    (hf2 : 0 < f2.frequency) (hd : holds_envelopes g dest)
    (h1 : well_formed g f1.color) (h2 : well_formed g f1.warp)
    (h3 : well_formed g f2.color) (h4 : well_formed g f2.warp) :
    (∃ g1 d, sas_frame_morphing c g dest f1 f2 0 = .ok (g1, d) ∧
      d.amplitude = f1.amplitude ∧ d.frequency = f1.frequency) ∧
    (∃ g1 d, sas_frame_morphing c g dest f1 f2 1 = .ok (g1, d) ∧
      d.amplitude = f2.amplitude ∧ d.frequency = f2.frequency) := by
  constructor
  · obtain ⟨g6, d, -, -, hr, da, df, -⟩ :=
      morph_run c g dest f1 f2 0 ⟨le_refl _, zero_le_one⟩ hd h1 h2 h3 h4
    refine ⟨g6, d, hr, ?_, ?_⟩
    · rw [da]
      exact morph_zero c _ _ hpow0 hpow1 ha1 ha2
    · rw [df]
      exact morph_zero c _ _ hpow0 hpow1 (le_of_lt hf1) (le_of_lt hf2)
  · obtain ⟨g6, d, -, -, hr, da, df, -⟩ :=
      morph_run c g dest f1 f2 1 ⟨zero_le_one, le_refl _⟩ hd h1 h2 h3 h4
    refine ⟨g6, d, hr, ?_, ?_⟩
    · rw [da]
      exact morph_one c _ _ hpow0 hpow1 ha1 ha2
    · rw [df]
      exact morph_one c _ _ hpow0 hpow1 (le_of_lt hf1) (le_of_lt hf2)

/-- Witness for C16: the frames `first_frame` and `second_frame` morphed into
`receiving_frame` in `shared_globals`, with the `pow` of `libc_rational`. -/
theorem morph_endpoints_witness :
    (∃ g1 d, sas_frame_morphing libc_rational shared_globals receiving_frame first_frame
        second_frame 0 = .ok (g1, d) ∧ d.amplitude = 2 ∧ d.frequency = 220) ∧
    (∃ g1 d, sas_frame_morphing libc_rational shared_globals receiving_frame first_frame
        second_frame 1 = .ok (g1, d) ∧ d.amplitude = 3 ∧ d.frequency = 330) :=
  morph_endpoints libc_rational shared_globals receiving_frame first_frame second_frame
    libc_rational_pow.1 libc_rational_pow.2 (by decide!) (by decide!) (by decide!) (by decide!)
    shared_globals_valid.1 shared_globals_valid.2.2 shared_globals_valid.2.1
    shared_globals_valid.2.1 shared_globals_valid.2.2

theorem fresh_color (g : globals) (cv : List ℚ) (gC : globals × sas_envelope_t)
    (hC : gC = sas_envelope_make g SAS_ENVELOPE_STDBASE SAS_ENVELOPE_STDSIZE cv) :
    ∃ g3 e1, sas_envelope_adjust_for_color gC.1 gC.2 = .ok g3 ∧
      gC.2 = g.envelopes.length ∧ envelope_load g3 gC.2 = .ok e1 ∧
      (∀ q, q < g.envelopes.length → envelope_load g3 q = envelope_load g q) ∧
      e1.base = SAS_ENVELOPE_STDBASE ∧ e1.size = SAS_ENVELOPE_STDSIZE ∧ e1.refcount = 0 ∧
      e1.cells.length = 516 ∧
      ∀ k : Nat, k < SAS_ENVELOPE_STDSIZE → e1.cells.getD (k + 2) 0 = cv.getD k 0 := by
  have hC2 : @Eq Nat gC.2 g.envelopes.length := by rw [hC]; rfl
  have hlenC : gC.1.envelopes.length = g.envelopes.length + 1 := by
    rw [hC]
    simp [sas_envelope_make]
  have hlt1 : gC.2 < gC.1.envelopes.length := by
    rw [hlenC, hC2]
    exact Nat.lt_succ_self _
  have lC : envelope_load gC.1 gC.2 =
      .ok (envelope_make SAS_ENVELOPE_STDBASE SAS_ENVELOPE_STDSIZE cv) := by
    rw [hC]
    exact envelope_load_make g _ _ _
  obtain ⟨sC, nC, cC⟩ := made_cells cv
  obtain ⟨e1, a1, b1, s1, r1, -, len1, c1⟩ := adjust_color_heap gC.1 gC.2 _ 511 lC sC nC
  refine ⟨_, e1, a1, hC2, envelope_load_store _ _ _ hlt1, ?_, b1, s1, r1, by rw [len1, nC], ?_⟩
  · intro q hq
    have q2 : q ≠ gC.2 := fun h => by
      have h1 : @Eq Nat q gC.2 := h
      omega
    have k2 : envelope_load gC.1 q = envelope_load g q := by
      rw [hC]
      exact envelope_load_make_lt g _ _ _ q hq
    rw [envelope_load_store_ne _ _ _ _ q2, k2]
  · intro k hk
    rw [c1 (k + 2) (by omega) (by
      rw [sC]
      have : k < 512 := hk
      omega)]
    exact cC k hk

/-- C18: when the envelopes that `dest` and `f` hold are allocated with
counters at least the number of fields of the two frames that hold them, and
the colors of `f` and `filter` are well formed, `sas_frame_filter` returns;
`dest` has the amplitude and the frequency of `f`, its warp is the envelope of
`f` (still allocated, with the same contents), and its color is a new envelope
(at an address that was not allocated before) of base `SAS_ENVELOPE_STDBASE`
and size 512 whose control point `i` (cell `i + 2` of the block), for
`i < 512`, is the product of the values of the colors of `f` and of `filter` at
the frequency `SAS_ENVELOPE_STDBASE * (i + 1)`. -/
theorem frame_filter_product (g : globals) (dest f filter : sas_frame_s)
    (hheld : ∀ a, 1 ≤ holders dest f a →
      ∃ v, envelope_load g a = .ok v ∧ holders dest f a ≤ v.refcount ∧
        v.refcount + 2 < 2 ^ 32)
    (h1 : well_formed g f.color) (h2 : well_formed g filter.color) :
    ∃ g6 d vC vW, sas_frame_filter g dest f filter = .ok (g6, d) ∧
      d.amplitude = f.amplitude ∧ d.frequency = f.frequency ∧
      d.color = g.envelopes.length ∧ d.warp = f.warp ∧
      envelope_load g6 d.color = .ok vC ∧
      vC.base = SAS_ENVELOPE_STDBASE ∧ vC.size = SAS_ENVELOPE_STDSIZE ∧
      vC.cells.length = 516 ∧ vC.refcount = 1 ∧
      (∀ k : Nat, k < SAS_ENVELOPE_STDSIZE → vC.cells.getD (k + 2) 0 =
        returned (sas_envelope_get_value_inline g f.color (grid_frequency k)) *
          returned (sas_envelope_get_value_inline g filter.color (grid_frequency k))) ∧
      envelope_load g6 f.warp = .ok vW ∧
      ∀ v, envelope_load g f.warp = .ok v →
        vW.base = v.base ∧ vW.size = v.size ∧ vW.cells = v.cells ∧ vW.lock = v.lock := by
  obtain ⟨values, hloop, hvals⟩ := filter_loop g f.color filter.color h1 h2
  obtain ⟨g3, e1, a1, hC2, lC, hframe, b1, z1, r1, n1, k1⟩ := fresh_color g values _ rfl
  obtain ⟨vA, lA, cA, bA⟩ := hheld dest.color (by unfold holders; simp only [if_true]; omega)
  obtain ⟨vB, lB, cB, bB⟩ := hheld dest.warp (by unfold holders; simp only [if_true]; omega)
  obtain ⟨vD, lD, cD, bD⟩ := hheld f.warp (by unfold holders; simp only [if_true]; omega)
  unfold holders at cA cB cD
  simp only [if_true] at cA cB cD
  have dA := envelope_load_lt g _ _ lA
  have dB := envelope_load_lt g _ _ lB
  have dD := envelope_load_lt g _ _ lD
  have lA3 : envelope_load g3 dest.color = .ok vA := by rw [hframe _ dA]; exact lA
  have lB3 : envelope_load g3 dest.warp = .ok vB := by rw [hframe _ dB]; exact lB
  have lD3 : envelope_load g3 f.warp = .ok vD := by rw [hframe _ dD]; exact lD
  have qA : dest.color ≠ g.envelopes.length := Nat.ne_of_lt dA
  have qB : dest.warp ≠ g.envelopes.length := Nat.ne_of_lt dB
  have qD : f.warp ≠ g.envelopes.length := Nat.ne_of_lt dD
  rw [hC2] at lC a1
  -- the color
  obtain ⟨g5, s1, m1⟩ := set_color_moved g3
    (sas_frame_s.mk f.amplitude f.frequency dest.color dest.warp) g.envelopes.length
    (fun _ => ⟨vA, e1, lA3, lC, by omega, by omega, by rw [r1]; decide⟩)
  simp only [] at s1 m1
  obtain ⟨vB5, lB5, -, -, -, -, rB5⟩ := moved_load g3 g5 dest.color g.envelopes.length dest.warp
    vB m1 lB3 (fun h _ => by
      rw [if_pos h.symm] at cB
      omega)
  obtain ⟨vD5, lD5, xD5, yD5, zD5, wD5, rD5⟩ := moved_load g3 g5 dest.color g.envelopes.length
    f.warp vD m1 lD3 (fun h _ => by
      rw [if_pos h.symm] at cD
      omega)
  obtain ⟨vC5, lC5, xC5, yC5, zC5, -, rC5⟩ := moved_load g3 g5 dest.color g.envelopes.length
    g.envelopes.length e1 m1 lC (fun h _ => absurd h.symm qA)
  rw [if_pos ⟨qA, rfl⟩, if_neg (fun h => qA h.2.symm)] at rC5
  rw [if_neg (fun h => qB h.2)] at rB5
  rw [if_neg (fun h => qD h.2)] at rD5
  -- the warp
  obtain ⟨g6, s2, m2⟩ := set_warp_moved g5
    (sas_frame_s.mk f.amplitude f.frequency g.envelopes.length dest.warp) f.warp
    (fun _ => ⟨vB5, vD5, lB5, lD5, by
      rw [rB5]
      split_ifs with h
      · rw [if_pos h.2.symm] at cB
        omega
      · omega, by
      rw [rB5]
      split_ifs <;> omega, by
      rw [rD5]
      split_ifs <;> omega⟩)
  simp only [] at s2 m2
  obtain ⟨v1, l1, x1, y1, w1, -, q1⟩ := moved_load g5 g6 dest.warp f.warp g.envelopes.length
    vC5 m2 lC5 (fun h _ => absurd h.symm qB)
  rw [if_neg (fun h => qD h.2.symm), if_neg (fun h => qB h.2.symm)] at q1
  obtain ⟨v2, l2, x2, y2, w2, u2, -⟩ := moved_load g5 g6 dest.warp f.warp f.warp vD5 m2 lD5
    (fun h hne => absurd h.symm hne)
  refine ⟨g6, sas_frame_s.mk f.amplitude f.frequency g.envelopes.length f.warp, v1, v2, ?_, rfl,
    rfl, rfl, rfl, l1, x1.trans (xC5.trans b1), y1.trans (yC5.trans z1),
    by rw [w1, zC5, n1], by rw [q1, rC5, r1], ?_, l2, ?_⟩
  · unfold sas_frame_filter
    refine bind_ok_of _ _ _ _ hloop ?_
    refine bind_ok_of _ _ _ _ a1 ?_
    refine bind_ok_of _ _ _ _ s1 ?_
    exact s2
  · intro k hk
    rw [w1, zC5, k1 k hk]
    exact hvals k hk
  · intro v hv
    rw [lD] at hv
    cases hv
    exact ⟨x2.trans xD5, y2.trans yD5, w2.trans zD5, u2.trans wD5⟩

theorem shared_globals_held :
    ∀ a, 1 ≤ holders receiving_frame first_frame a →
      ∃ v, envelope_load shared_globals a = .ok v ∧
        holders receiving_frame first_frame a ≤ v.refcount ∧ v.refcount + 2 < 2 ^ 32 := by
  intro a ha
  by_cases h0 : a = 0
  · subst h0
    exact ⟨_, rfl, by decide, by decide⟩
  · by_cases h1 : a = 1
    · subst h1
      exact ⟨_, rfl, by decide, by decide⟩
    · exfalso
      unfold holders receiving_frame first_frame at ha
      simp only [] at ha
      rw [if_neg (fun h => h0 h.symm), if_neg (fun h => h1 h.symm)] at ha
      omega

/-- Witness for C18: `first_frame` filtered by `second_frame` into
`receiving_frame`, in `shared_globals`. -/
theorem frame_filter_product_witness :
    ∃ g6 d vC vW, sas_frame_filter shared_globals receiving_frame first_frame second_frame =
        .ok (g6, d) ∧
      d.amplitude = first_frame.amplitude ∧ d.frequency = first_frame.frequency ∧
      d.color = shared_globals.envelopes.length ∧ d.warp = first_frame.warp ∧
      envelope_load g6 d.color = .ok vC ∧
      vC.base = SAS_ENVELOPE_STDBASE ∧ vC.size = SAS_ENVELOPE_STDSIZE ∧
      vC.cells.length = 516 ∧ vC.refcount = 1 ∧
      (∀ k : Nat, k < SAS_ENVELOPE_STDSIZE → vC.cells.getD (k + 2) 0 =
        returned (sas_envelope_get_value_inline shared_globals first_frame.color
            (grid_frequency k)) *
          returned (sas_envelope_get_value_inline shared_globals second_frame.color
            (grid_frequency k))) ∧
      envelope_load g6 first_frame.warp = .ok vW ∧
      ∀ v, envelope_load shared_globals first_frame.warp = .ok v →
        vW.base = v.base ∧ vW.size = v.size ∧ vW.cells = v.cells ∧ vW.lock = v.lock :=
  frame_filter_product shared_globals receiving_frame first_frame second_frame
    shared_globals_held shared_globals_valid.2.2 shared_globals_valid.2.1

/-! ## The loudness factor -/

theorem source_make_count (c : libc) (g g1 : globals) (s s1 : sas_synthesizer_s)
    (pos : sas_position_s) (update : sas_update_callback_t) (call_data id : Nat)
    (h : sas_synthesizer_source_make c g s pos update call_data = .ok (g1, s1, id)) :
    s1.number_of_sources = s.number_of_sources + 1 ∧
      s1.amplitude_factor = amplitude_factor_of c (s.number_of_sources + 1) ∧
      s1.sources.length = s.sources.length + 1 := by
  unfold sas_synthesizer_source_make at h
  split_ifs at h with h0
  simp only [bind_ok_iff] at h
  obtain ⟨r, -, h⟩ := h
  simp only [pure, Except.pure, Except.ok.injEq, Prod.mk.injEq] at h
  obtain ⟨-, rfl, -⟩ := h
  exact ⟨rfl, rfl, rfl⟩

theorem delayed_free_factor (c : libc) (g g2 : globals) (s s2 : sas_synthesizer_s) (id : Nat)
    (src : sas_source_s) (hsrc : source_load s id = .ok src)
    (h : sas_synthesizer_source_delayed_free c g s id = .ok (g2, s2)) :
    s2.number_of_sources = s.number_of_sources - 1 ∧
      (s.number_of_sources - 1 = 0 → s2.amplitude_factor = 0) ∧
      (s.number_of_sources - 1 ≠ 0 →
        s2.amplitude_factor = amplitude_factor_of c (s.number_of_sources - 1)) := by
  have hn := ((delayed_free_effect c g g2 s s2 id h).2 src hsrc).2
  unfold sas_synthesizer_source_delayed_free at h
  unfold source_load at hsrc
  cases hf : s.sources.find? (fun x => decide (x.id = id)) with
  | none =>
    rw [hf] at hsrc
    cases hsrc
  | some src0 =>
    simp only [hf, bind_ok_iff] at h
    obtain ⟨s1, -, g1, -, h3⟩ := h
    refine ⟨hn, ?_, ?_⟩
    · intro h0
      split_ifs at h3 with hc
      · simp only [pure, Except.pure, Except.ok.injEq, Prod.mk.injEq] at h3
        obtain ⟨-, rfl⟩ := h3
        rfl
      · simp only [pure, Except.pure, Except.ok.injEq, Prod.mk.injEq] at h3
        obtain ⟨-, rfl⟩ := h3
        exact absurd (hn.trans h0) hc
    · intro h0
      split_ifs at h3 with hc
      · simp only [pure, Except.pure, Except.ok.injEq, Prod.mk.injEq] at h3
        obtain ⟨-, rfl⟩ := h3
        exact absurd (hn.symm.trans hc) h0
      · simp only [pure, Except.pure, Except.ok.injEq, Prod.mk.injEq] at h3
        obtain ⟨-, rfl⟩ := h3
        show amplitude_factor_of c (s1.number_of_sources - 1) = _
        have : s1.number_of_sources - 1 = s.number_of_sources - 1 := hn
        rw [this]

/-- C19: (1) after `sas_synthesizer_source_make` on a synthesizer with `n >= 0`
sources there are `n + 1` sources and the loudness factor is
`1 / (log (n + 1) * (1 / M_LN2) + 1)`; (2) after
`sas_synthesizer_source_delayed_free`, which completes every deletion, of a
registered source of a synthesizer with `n >= 1` sources there are `n - 1`
sources and the factor is 0 for `n - 1 = 0` and
`1 / (log (n - 1) * (1 / M_LN2) + 1)` otherwise; (3) with `log (1) = 0` the
factor of a single source is 1. -/
theorem loudness_factor_invariant (c : libc) (g : globals) (s : sas_synthesizer_s) :
    (∀ pos update call_data g1 s1 id, 0 ≤ s.number_of_sources →
      sas_synthesizer_source_make c g s pos update call_data = .ok (g1, s1, id) →
      s1.number_of_sources = s.number_of_sources + 1 ∧ loudness_invariant c s1) ∧
    (∀ id src g1 s1, 1 ≤ s.number_of_sources → source_load s id = .ok src →
      sas_synthesizer_source_delayed_free c g s id = .ok (g1, s1) →
      s1.number_of_sources = s.number_of_sources - 1 ∧ loudness_invariant c s1) ∧
    (c.log 1 = 0 → loudness_invariant c s → s.number_of_sources = 1 →
      s.amplitude_factor = 1) := by
  refine ⟨?_, ?_, ?_⟩
  · intro pos update call_data g1 s1 id hn h
    obtain ⟨h1, h2, -⟩ := source_make_count c g g1 s s1 pos update call_data id h
    refine ⟨h1, ?_, ?_⟩
    · intro h0
      omega
    · intro _
      rw [h2, h1]
      rfl
  · intro id src g1 s1 hn hsrc h
    obtain ⟨h1, h2, h3⟩ := delayed_free_factor c g g1 s s1 id src hsrc h
    refine ⟨h1, ?_, ?_⟩
    · intro h0
      exact h2 (h1.symm.trans h0)
    · intro hge
      rw [h3 (by omega), h1]
      rfl
  · intro hlog hinv h1
    have := hinv.2 (by omega)
    rw [this, h1]
    norm_num [hlog]

/-- Witness for C19: the first source of `empty_synth`. -/
theorem loudness_factor_invariant_witness :
    ∃ g1 s1 id, sas_synthesizer_source_make libc_rational globals_start empty_synth ⟨0, 0, 0⟩
        decline 1 = .ok (g1, s1, id) ∧
      s1.number_of_sources = 1 ∧ loudness_invariant libc_rational s1 ∧
      s1.amplitude_factor = 1 := by
  obtain ⟨r, hr⟩ := exists_of_isOk (sas_synthesizer_source_make libc_rational globals_start
    empty_synth ⟨0, 0, 0⟩ decline 1) (by decide!)
  obtain ⟨g1, s1, id⟩ := r
  obtain ⟨h1, h2⟩ := (loudness_factor_invariant libc_rational globals_start empty_synth).1
    ⟨0, 0, 0⟩ decline 1 g1 s1 id (le_refl _) hr
  exact ⟨g1, s1, id, hr, h1, h2,
    (loudness_factor_invariant libc_rational g1 s1).2.2 (by decide!) h2 h1⟩

/-! ## The oscillator -/

theorem forward_sample_ok (l_a_inc r_a_inc r_inc i_inc : ℚ) (offset i : Nat)
    (st : oscillator_state) (h : offset + 2 * i + 1 < st.buffer.length) :
    ∃ st1, forward_sample l_a_inc r_a_inc r_inc i_inc offset i st = .ok st1 ∧
      st1.buffer.length = st.buffer.length ∧
      st1.r_exp = st.r_exp * r_inc - st.i_exp * i_inc ∧
      st1.i_exp = st.r_exp * i_inc + st.i_exp * r_inc := by
  have h0 : offset + 2 * i < st.buffer.length := by omega
  have h1 : offset + 2 * i + 1 < (st.buffer.set (offset + 2 * i)
      (st.buffer.get ⟨offset + 2 * i, h0⟩ + st.l_a * st.i_exp)).length := by
    rw [List.length_set]
    exact h
  refine ⟨oscillator_state.mk ((st.buffer.set (offset + 2 * i)
        (st.buffer.get ⟨offset + 2 * i, h0⟩ + st.l_a * st.i_exp)).set (offset + 2 * i + 1)
        ((st.buffer.set (offset + 2 * i)
          (st.buffer.get ⟨offset + 2 * i, h0⟩ + st.l_a * st.i_exp)).get
            ⟨offset + 2 * i + 1, h1⟩ + st.r_a * st.i_exp))
      (st.l_a + l_a_inc) (st.r_a + r_a_inc)
      (st.r_exp * r_inc - st.i_exp * i_inc)
      (st.r_exp * i_inc + st.i_exp * r_inc), ?_, ?_, rfl, rfl⟩
  · unfold forward_sample
    refine bind_ok_of _ _ _ _ (array_get_ok _ _ h0) ?_
    refine bind_ok_of _ _ _ _ (array_set_ok _ _ _ h0) ?_
    refine bind_ok_of _ _ _ _ (array_get_ok _ _ h1) ?_
    exact bind_ok_of _ _ _ _ (array_set_ok _ _ _ h1) rfl
  · simp only [List.length_set]

theorem forward_sample_effect (l_a_inc r_a_inc r_inc i_inc : ℚ) (offset i : Nat)
    (st st1 : oscillator_state)
    (h : forward_sample l_a_inc r_a_inc r_inc i_inc offset i st = .ok st1) :
    st1.r_exp = st.r_exp * r_inc - st.i_exp * i_inc ∧
      st1.i_exp = st.r_exp * i_inc + st.i_exp * r_inc := by
  unfold forward_sample at h
  simp only [bind_ok_iff, pure, Except.pure, Except.ok.injEq] at h
  obtain ⟨b0, -, buf, -, b1, -, buf1, -, rfl⟩ := h
  exact ⟨rfl, rfl⟩

/-- C27: if `cos` and `sin` satisfy the addition formulas at the multiples
`k * omega`, `1 <= k < STEP_SAMPLES`, of `omega = FREQCOEFF * f`, and the buffer
has room for the `2 * STEP_SAMPLES` samples of the step, then
`partial_forward_synthesis` returns and leaves the partial that
`partial_fast_forward` leaves (the same `v1` and `v2`, every other field as it
was), for any `a` and `a_next`; and a step of `sas_synthesizer_synthesize`
whose two amplitudes are below `MIN_AMP` is `partial_fast_forward` and leaves
the buffer as it was. -/
theorem fast_forward_phase (c : libc) (l_ratio r_ratio : ℚ) (p : partial_s) (a a_next f : ℚ)
    (buffer : List ℚ) (offset : Nat)
    (hadd : ∀ k : Nat, 1 ≤ k → k < STEP_SAMPLES →
      c.cos (((k : ℚ) + 1) * (FREQCOEFF * f)) =
          c.cos ((k : ℚ) * (FREQCOEFF * f)) * c.cos (FREQCOEFF * f) -
            c.sin ((k : ℚ) * (FREQCOEFF * f)) * c.sin (FREQCOEFF * f) ∧
        c.sin (((k : ℚ) + 1) * (FREQCOEFF * f)) =
          c.sin ((k : ℚ) * (FREQCOEFF * f)) * c.cos (FREQCOEFF * f) +
            c.cos ((k : ℚ) * (FREQCOEFF * f)) * c.sin (FREQCOEFF * f))
    (hlen : offset + 2 * STEP_SAMPLES ≤ buffer.length) :
    (∃ buf, partial_forward_synthesis c l_ratio r_ratio p a a_next f buffer offset =
        .ok (partial_fast_forward c p f, buf) ∧ buf.length = buffer.length) ∧
    ∀ (inta intf : Nat → ℚ) (step : Nat) (st : partial_s × List ℚ),
      inta step < MIN_AMP → inta (step + 1) < MIN_AMP →
      synthesize_steps c l_ratio r_ratio inta intf 1 step st =
        .ok (partial_fast_forward c st.1 (intf step), st.2) := by
  constructor
  · obtain ⟨st1, hrun, hl, h0, h1⟩ := for_loop_inv
      (forward_sample (l_ratio * ((a_next - a) / (STEP_SAMPLES : ℚ)))
        (r_ratio * ((a_next - a) / (STEP_SAMPLES : ℚ))) (c.cos (FREQCOEFF * f))
        (c.sin (FREQCOEFF * f)) offset)
      (fun i st => st.buffer.length = buffer.length ∧
        (i = 0 → st.r_exp = p.v1 ∧ st.i_exp = p.v2) ∧
        (1 ≤ i → st.r_exp = p.v1 * c.cos ((i : ℚ) * (FREQCOEFF * f)) -
            p.v2 * c.sin ((i : ℚ) * (FREQCOEFF * f)) ∧
          st.i_exp = p.v1 * c.sin ((i : ℚ) * (FREQCOEFF * f)) +
            p.v2 * c.cos ((i : ℚ) * (FREQCOEFF * f))))
      STEP_SAMPLES 0
      { buffer := buffer, l_a := l_ratio * a, r_a := r_ratio * a, r_exp := p.v1, i_exp := p.v2 }
      ⟨rfl, fun _ => ⟨rfl, rfl⟩, fun h => absurd h (by decide)⟩
      (fun j t _ hj ht => by
        obtain ⟨tl, t0, t1⟩ := ht
        obtain ⟨t2, hb, hl2, hr, hi⟩ := forward_sample_ok
          (l_ratio * ((a_next - a) / (STEP_SAMPLES : ℚ)))
          (r_ratio * ((a_next - a) / (STEP_SAMPLES : ℚ))) (c.cos (FREQCOEFF * f))
          (c.sin (FREQCOEFF * f)) offset j t (by rw [tl]; omega)
        refine ⟨t2, hb, hl2.trans tl, fun h => absurd h (Nat.succ_ne_zero j), fun _ => ?_⟩
        rw [hr, hi]
        by_cases hj0 : j = 0
        · subst hj0
          obtain ⟨e1, e2⟩ := t0 rfl
          have hc : (((0 + 1 : Nat) : ℚ)) * (FREQCOEFF * f) = FREQCOEFF * f := by norm_num
          rw [e1, e2, hc]
          exact ⟨rfl, rfl⟩
        · obtain ⟨e1, e2⟩ := t1 (by omega)
          obtain ⟨a1, a2⟩ := hadd j (by omega) (by omega)
          rw [e1, e2]
          push_cast
          rw [a1, a2]
          constructor <;> ring)
    obtain ⟨e1, e2⟩ := h1 (by decide)
    refine ⟨st1.buffer, ?_, hl⟩
    unfold partial_forward_synthesis
    refine bind_ok_of _ _ _ _ hrun ?_
    have hw : (FREQCOEFF * (STEP_SAMPLES : ℚ)) * f = ((STEP_SAMPLES : Nat) : ℚ) * (FREQCOEFF * f) := by
      ring
    rw [Nat.zero_add] at e1 e2
    unfold partial_fast_forward
    simp only [pure, Except.pure]
    rw [hw, e1, e2]
  · intro inta intf step st h1 h2
    unfold synthesize_steps
    show (synthesize_step c l_ratio r_ratio inta intf step st).bind (fun st1 => .ok st1) = _
    unfold synthesize_step
    simp only []
    rw [if_pos ⟨h1, h2⟩]
    rfl

theorem rotation_succ (n : Nat) :
    rotation (n + 1) = ((rotation n).1 * (3 / 5) - (rotation n).2 * (4 / 5),
      (rotation n).1 * (4 / 5) + (rotation n).2 * (3 / 5)) := rfl

theorem rotation_angle (w : ℚ) (hw : w ≠ 0) (k : Nat) :
    ⌊((k : ℚ) * (w * 1)) / w⌋.toNat = k := by
  have h : ((k : ℚ) * (w * 1)) / w = ((k : Int) : ℚ) := by
    field_simp
  rw [h, Int.floor_intCast]
  rfl

theorem rotation_addition (w : ℚ) (hw : w ≠ 0) (k : Nat) :
    (rotation ⌊(((k : ℚ) + 1) * (w * 1)) / w⌋.toNat).1 =
        (rotation ⌊((k : ℚ) * (w * 1)) / w⌋.toNat).1 * (rotation ⌊(w * 1) / w⌋.toNat).1 -
          (rotation ⌊((k : ℚ) * (w * 1)) / w⌋.toNat).2 * (rotation ⌊(w * 1) / w⌋.toNat).2 ∧
      (rotation ⌊(((k : ℚ) + 1) * (w * 1)) / w⌋.toNat).2 =
        (rotation ⌊((k : ℚ) * (w * 1)) / w⌋.toNat).2 * (rotation ⌊(w * 1) / w⌋.toNat).1 +
          (rotation ⌊((k : ℚ) * (w * 1)) / w⌋.toNat).1 * (rotation ⌊(w * 1) / w⌋.toNat).2 := by
  have h1 : ⌊(((k : ℚ) + 1) * (w * 1)) / w⌋.toNat = k + 1 := by
    have := rotation_angle w hw (k + 1)
    rw [Nat.cast_add, Nat.cast_one] at this
    exact this
  have h0 := rotation_angle w hw k
  have hone : ⌊(w * 1) / w⌋.toNat = 1 := by
    have := rotation_angle w hw 1
    rw [Nat.cast_one, one_mul] at this
    exact this
  have r1 : rotation 1 = (3 / 5, 4 / 5) := by
    rw [rotation_succ]
    simp [rotation]
  rw [h1, h0, hone, r1, rotation_succ]
  constructor
  · ring
  · ring

theorem libc_rotation_cos (x : ℚ) :
    libc_rotation.cos x = (rotation ⌊x / FREQCOEFF⌋.toNat).1 := rfl

theorem libc_rotation_sin (x : ℚ) :
    libc_rotation.sin x = (rotation ⌊x / FREQCOEFF⌋.toNat).2 := rfl

theorem libc_rotation_addition (k : Nat) :
    libc_rotation.cos (((k : ℚ) + 1) * (FREQCOEFF * 1)) =
        libc_rotation.cos ((k : ℚ) * (FREQCOEFF * 1)) * libc_rotation.cos (FREQCOEFF * 1) -
          libc_rotation.sin ((k : ℚ) * (FREQCOEFF * 1)) * libc_rotation.sin (FREQCOEFF * 1) ∧
      libc_rotation.sin (((k : ℚ) + 1) * (FREQCOEFF * 1)) =
        libc_rotation.sin ((k : ℚ) * (FREQCOEFF * 1)) * libc_rotation.cos (FREQCOEFF * 1) +
          libc_rotation.cos ((k : ℚ) * (FREQCOEFF * 1)) * libc_rotation.sin (FREQCOEFF * 1) := by
  have hF : FREQCOEFF ≠ 0 := by
    norm_num [FREQCOEFF, M_PI, SAS_SAMPLING_RATE]
  have h := rotation_addition FREQCOEFF hF k
  rw [libc_rotation_cos, libc_rotation_cos, libc_rotation_cos, libc_rotation_sin,
    libc_rotation_sin, libc_rotation_sin]
  exact h

theorem rotation_unit (n : Nat) : (rotation n).1 ^ 2 + (rotation n).2 ^ 2 = 1 := by
  induction n with
  | zero => simp [rotation]
  | succ n ih =>
    show ((rotation n).1 * (3 / 5) - (rotation n).2 * (4 / 5)) ^ 2 +
      ((rotation n).1 * (4 / 5) + (rotation n).2 * (3 / 5)) ^ 2 = 1
    have : ((rotation n).1 * (3 / 5) - (rotation n).2 * (4 / 5)) ^ 2 +
        ((rotation n).1 * (4 / 5) + (rotation n).2 * (3 / 5)) ^ 2 =
        (rotation n).1 ^ 2 + (rotation n).2 ^ 2 := by ring
    rw [this, ih]

/-- Witness for C27: a partial with phase state (0, 1) at 1 Hz, with the exact
rotations of `libc_rotation`, on a buffer of 128 samples. -/
theorem fast_forward_phase_witness :
    (∃ buf, partial_forward_synthesis libc_rotation (1 / 2) (1 / 2) (track_with (1 / 4) (some 0))
        (1 / 4) (1 / 2) 1 (List.replicate 128 0) 0 =
        .ok (partial_fast_forward libc_rotation (track_with (1 / 4) (some 0)) 1, buf) ∧
      buf.length = (List.replicate 128 (0 : ℚ)).length) ∧
    ∀ (inta intf : Nat → ℚ) (step : Nat) (st : partial_s × List ℚ),
      inta step < MIN_AMP → inta (step + 1) < MIN_AMP →
      synthesize_steps libc_rotation (1 / 2) (1 / 2) inta intf 1 step st =
        .ok (partial_fast_forward libc_rotation st.1 (intf step), st.2) :=
  fast_forward_phase libc_rotation (1 / 2) (1 / 2) (track_with (1 / 4) (some 0)) (1 / 4) (1 / 2) 1
    (List.replicate 128 0) 0 (fun k _ _ => libc_rotation_addition k)
    (by rw [List.length_replicate]; decide)

theorem rotate_magnitude (v1 v2 co si : ℚ) (h : co ^ 2 + si ^ 2 = 1) :
    (v1 * co - v2 * si) ^ 2 + (v1 * si + v2 * co) ^ 2 = v1 ^ 2 + v2 ^ 2 := by
  have : (v1 * co - v2 * si) ^ 2 + (v1 * si + v2 * co) ^ 2 =
      (v1 ^ 2 + v2 ^ 2) * (co ^ 2 + si ^ 2) := by ring
  rw [this, h, mul_one]

theorem fast_forward_magnitude (c : libc) (p : partial_s) (f : ℚ)
    (hpyth : ∀ x : ℚ, c.cos x ^ 2 + c.sin x ^ 2 = 1) :
    (partial_fast_forward c p f).v1 ^ 2 + (partial_fast_forward c p f).v2 ^ 2 =
        p.v1 ^ 2 + p.v2 ^ 2 ∧
      { partial_fast_forward c p f with v1 := 0, v2 := 0 } = { p with v1 := 0, v2 := 0 } :=
  ⟨rotate_magnitude _ _ _ _ (hpyth _), rfl⟩

theorem forward_synthesis_magnitude (c : libc) (l_ratio r_ratio : ℚ) (p p1 : partial_s)
    (a a_next f : ℚ) (buffer buf : List ℚ) (offset : Nat)
    (hpyth : ∀ x : ℚ, c.cos x ^ 2 + c.sin x ^ 2 = 1)
    (h : partial_forward_synthesis c l_ratio r_ratio p a a_next f buffer offset = .ok (p1, buf)) :
    p1.v1 ^ 2 + p1.v2 ^ 2 = p.v1 ^ 2 + p.v2 ^ 2 ∧
      { p1 with v1 := 0, v2 := 0 } = { p with v1 := 0, v2 := 0 } := by
  unfold partial_forward_synthesis at h
  simp only [bind_ok_iff, pure, Except.pure, Except.ok.injEq, Prod.mk.injEq] at h
  obtain ⟨st, hst, rfl, -⟩ := h
  refine ⟨?_, rfl⟩
  exact for_loop_preserves _ (fun _ (t : oscillator_state) =>
      t.r_exp ^ 2 + t.i_exp ^ 2 = p.v1 ^ 2 + p.v2 ^ 2) _ _ _ _ (fun j t t1 _ _ hb ht => by
        obtain ⟨e1, e2⟩ := forward_sample_effect _ _ _ _ _ _ _ _ hb
        rw [e1, e2, rotate_magnitude _ _ _ _ (hpyth _)]
        exact ht) hst rfl

theorem synthesize_steps_magnitude (c : libc) (l_ratio r_ratio : ℚ) (inta intf : Nat → ℚ)
    (hpyth : ∀ x : ℚ, c.cos x ^ 2 + c.sin x ^ 2 = 1) (n i : Nat)
    (st st1 : partial_s × List ℚ)
    (h : synthesize_steps c l_ratio r_ratio inta intf n i st = .ok st1) :
    st1.1.v1 ^ 2 + st1.1.v2 ^ 2 = st.1.v1 ^ 2 + st.1.v2 ^ 2 ∧
      { st1.1 with v1 := 0, v2 := 0 } = { st.1 with v1 := 0, v2 := 0 } := by
  unfold synthesize_steps at h
  exact for_loop_preserves _ (fun _ (t : partial_s × List ℚ) =>
      t.1.v1 ^ 2 + t.1.v2 ^ 2 = st.1.v1 ^ 2 + st.1.v2 ^ 2 ∧
        { t.1 with v1 := 0, v2 := 0 } = { st.1 with v1 := 0, v2 := 0 }) _ _ _ _
    (fun j t t1 _ _ hb ht => by
      unfold synthesize_step at hb
      simp only [] at hb
      split_ifs at hb with hc
      · cases hb
        obtain ⟨m1, m2⟩ := fast_forward_magnitude c t.1 (intf j) hpyth
        exact ⟨m1.trans ht.1, m2.trans ht.2⟩
      · obtain ⟨p1, buf⟩ := t1
        obtain ⟨m1, m2⟩ := forward_synthesis_magnitude c _ _ _ _ _ _ _ _ _ _ hpyth hb
        exact ⟨m1.trans ht.1, m2.trans ht.2⟩) h ⟨rfl, rfl⟩

/-! ## The pan ratios -/

theorem add_partial_to_mask_fields (c : libc) (g g1 : globals) (s s1 : sas_synthesizer_s)
    (p : partial_t) (r : Int) (h : add_partial_to_mask c g s p = .ok (g1, s1, r)) :
    s1.sources = s.sources ∧ s1.tracks = s.tracks ∧ s1.tracks2 = s.tracks2 ∧
      s1.active_tracks = s.active_tracks ∧ s1.audible_tracks = s.audible_tracks ∧
      s1.masked_tracks = s.masked_tracks := by
  unfold add_partial_to_mask at h
  simp only [bind_ok_iff] at h
  obtain ⟨⟨s0, mp⟩, h1, new_mp, h2, ⟨g2, mask⟩, h3, lo, h4, v_lowf, h5, hi, h6, v_highf, h7,
    mask1, h8, h9⟩ := h
  simp only [pure, Except.pure, Except.ok.injEq, Prod.mk.injEq] at h9
  obtain ⟨-, rfl, -⟩ := h9
  unfold masking_partial_make at h1
  by_cases hu : s.pool.used = s.pool.allocated
  · simp only [hu, if_true] at h1
    split_ifs at h1 with hneg
    simp only [bind_ok_iff, pure, Except.pure, Except.ok.injEq, Prod.mk.injEq] at h1
    obtain ⟨v, -, src, -, ps, -, rfl, -⟩ := h1
    exact ⟨rfl, rfl, rfl, rfl, rfl, rfl⟩
  · simp only [hu, if_false] at h1
    split_ifs at h1 with hneg
    simp only [bind_ok_iff, pure, Except.pure, Except.ok.injEq, Prod.mk.injEq] at h1
    obtain ⟨v, -, src, -, ps, -, rfl, -⟩ := h1
    exact ⟨rfl, rfl, rfl, rfl, rfl, rfl⟩

theorem only_newest_refl (v : partial_s) : only_newest_amplitude v v :=
  ⟨rfl, Or.inl rfl⟩

theorem only_newest_trans (v v1 v2 : partial_s) (h1 : only_newest_amplitude v v1)
    (h2 : only_newest_amplitude v1 v2) : only_newest_amplitude v v2 := by
  obtain ⟨a1, b1⟩ := h1
  obtain ⟨a2, b2⟩ := h2
  constructor
  · rw [a2, a1]
  · rcases b2 with e | e
    · rw [e]
      exact b1
    · exact Or.inr e

theorem mark_masked_partials (p : partial_t) (g g1 : globals) (s s1 : sas_synthesizer_s) (r : Int)
    (h : mark_masked p g s r = .ok (g1, s1)) :
    g1 = g ∧ s1.tracks = s.tracks ∧ s1.tracks2 = s.tracks2 ∧
      s1.active_tracks = s.active_tracks ∧ s1.audible_tracks = s.audible_tracks ∧
      s1.masked_tracks = s.masked_tracks + (if r = 0 then 1 else 0) ∧
      (∀ q v, partial_load s q = .ok v →
        ∃ v1, partial_load s1 q = .ok v1 ∧ only_newest_amplitude v v1) ∧
      (r = 0 → ∃ v1, partial_load s1 p = .ok v1 ∧ v1.aenv.x3 = BELOW_MIN_AMP) ∧
      (∀ q, q ≠ p ∨ r ≠ 0 → partial_load s1 q = partial_load s q) := by
  unfold mark_masked at h
  split_ifs at h with hr
  · simp only [bind_ok_iff, pure, Except.pure, Except.ok.injEq, Prod.mk.injEq] at h
    obtain ⟨v0, hv0, s2, hs2, rfl, rfl⟩ := h
    obtain ⟨f1, f2, f3, f4, f5, -⟩ := partial_store_fields _ _ _ _ hs2
    have hsame := partial_load_store_same _ _ _ _ hs2
    refine ⟨rfl, f1, f2, f3, f4, ?_, ?_, fun _ => ⟨_, hsame, rfl⟩, ?_⟩
    rotate_left 2
    · intro q hq
      rcases hq with hq | hq
      · rw [partial_load_store_other _ _ _ _ _ hs2 hq]
        exact partial_load_congr _ _ _ rfl
      · exact absurd hr hq
    · rw [f5, if_pos hr]
    · intro q v hq
      by_cases hqp : q = p
      · subst hqp
        have hv : partial_load { s with masked_tracks := s.masked_tracks + 1 } q =
            partial_load s q := partial_load_congr _ _ _ rfl
        rw [hv, hq] at hv0
        cases hv0
        exact ⟨_, hsame, rfl, Or.inr rfl⟩
      · refine ⟨v, ?_, only_newest_refl v⟩
        rw [partial_load_store_other _ _ _ _ _ hs2 hqp]
        exact hq
  · simp only [Except.ok.injEq, Prod.mk.injEq] at h
    obtain ⟨rfl, rfl⟩ := h
    exact ⟨rfl, rfl, rfl, rfl, rfl, by rw [if_neg hr, add_zero],
      fun q v hq => ⟨v, hq, only_newest_refl v⟩, fun h => absurd h hr, fun _ _ => rfl⟩

theorem mask_track_partials (c : libc) (i : Nat) (g g1 : globals) (s s1 : sas_synthesizer_s)
    (h : mask_track c i (g, s) = .ok (g1, s1)) :
    ∃ p ga sa r, s.tracks2[i]? = some (some p) ∧
      add_partial_to_mask c g s p = .ok (ga, sa, r) ∧
      s1.tracks = s.tracks ∧ s1.tracks2 = s.tracks2 ∧
      s1.active_tracks = s.active_tracks ∧ s1.audible_tracks = s.audible_tracks ∧
      s1.masked_tracks = s.masked_tracks + (if r = 0 then 1 else 0) ∧
      (∀ q v, partial_load s q = .ok v →
        ∃ v1, partial_load s1 q = .ok v1 ∧ only_newest_amplitude v v1) ∧
      (r = 0 → ∃ v1, partial_load s1 p = .ok v1 ∧ v1.aenv.x3 = BELOW_MIN_AMP) ∧
      (∀ q, q ≠ p ∨ r ≠ 0 → partial_load s1 q = partial_load s q) := by
  unfold mask_track at h
  simp only [bind_ok_iff] at h
  obtain ⟨cell, hcell, h⟩ := h
  rw [array_get_eq_ok] at hcell
  cases cell with
  | none => simp at h
  | some p =>
    simp only [bind_ok_iff] at h
    obtain ⟨⟨ga, sa, r⟩, ha, hm⟩ := h
    obtain ⟨a1, a2, a3, a4, a5, a6⟩ := add_partial_to_mask_fields c g ga s sa p r ha
    obtain ⟨-, m2, m3, m4, m5, m6, m7, m8, m9⟩ := mark_masked_partials p ga g1 sa s1 r hm
    refine ⟨p, ga, sa, r, hcell, ha, m2.trans a2, m3.trans a3, m4.trans a4, m5.trans a5,
      by rw [m6, a6], ?_, m8, ?_⟩
    · intro q v hq
      exact m7 q v (by rw [partial_load_congr sa s q a1]; exact hq)
    · intro q hq
      rw [m9 q hq]
      exact partial_load_congr sa s q a1

theorem for_loop_succ {σ : Type} (body : Nat → σ → Except fault σ) (j : Nat) (st t t1 : σ)
    (h : for_loop body j 0 st = .ok t) (hb : body j t = .ok t1) :
    for_loop body (j + 1) 0 st = .ok t1 := by
  rw [for_loop_split body j 1 0 st, h]
  show for_loop body 1 (0 + j) t = .ok t1
  rw [Nat.zero_add]
  show (body j t).bind (fun st1 => for_loop body 0 (j + 1) st1) = .ok t1
  rw [hb]
  rfl

theorem mask_verdict_of_run (c : libc) (g g1 ga : globals) (s s0 s1 sa : sas_synthesizer_s)
    (j : Nat) (p : partial_t) (r : Int) (hreset : reset_mask s = .ok s0)
    (hrun : for_loop (mask_track c) j 0 (g, { s0 with masked_tracks := 0 }) = .ok (g1, s1))
    (hp : s1.tracks2[j]? = some (some p))
    (ha : add_partial_to_mask c g1 s1 p = .ok (ga, sa, r)) :
    mask_verdict c g s j = .ok r := by
  unfold mask_verdict
  rw [hreset]
  simp only [ok_bind]
  rw [hrun]
  simp only [ok_bind]
  have hget : array_get s1.tracks2 j = .ok (some p) := by
    rw [array_get_eq_ok]
    exact hp
  rw [hget]
  simp only [ok_bind]
  rw [ha]
  rfl

theorem masked_count_succ (c : libc) (g : globals) (s : sas_synthesizer_s) (j : Nat) (r : Int)
    (h : mask_verdict c g s j = .ok r) :
    masked_count c g s (j + 1) = masked_count c g s j + (if r = 0 then 1 else 0) := by
  unfold masked_count
  rw [List.range_succ, List.filter_append, List.length_append]
  congr 1
  by_cases hr : r = 0
  · subst hr
    simp [List.filter, h]
  · have : ¬ ((Except.ok r : Except fault Int) = Except.ok 0) := by
      intro he
      cases he
      exact hr rfl
    simp [List.filter, h, hr, this]

theorem reset_mask_fields (s s0 : sas_synthesizer_s) (h : reset_mask s = .ok s0) :
    s0.sources = s.sources ∧ s0.tracks = s.tracks ∧ s0.tracks2 = s.tracks2 ∧
      s0.active_tracks = s.active_tracks ∧ s0.audible_tracks = s.audible_tracks := by
  unfold reset_mask at h
  simp only [bind_ok_iff, pure, Except.pure, Except.ok.injEq] at h
  obtain ⟨m, -, rfl⟩ := h
  exact ⟨rfl, rfl, rfl, rfl, rfl⟩

theorem mask_progress_step (c : libc) (g : globals) (s s0 : sas_synthesizer_s)
    (hreset : reset_mask s = .ok s0) (j : Nat) (t t1 : globals × sas_synthesizer_s)
    (hb : mask_track c j t = .ok t1)
    (ht : mask_progress c g s { s0 with masked_tracks := 0 } j t) :
    mask_progress c g s { s0 with masked_tracks := 0 } (j + 1) t1 := by
  obtain ⟨gt, st⟩ := t
  obtain ⟨g1, s1⟩ := t1
  obtain ⟨p, ga, sa, r, hp, ha, f1, f2, f3, f4, f5, f6, f7, f8⟩ :=
    mask_track_partials c j gt g1 st s1 hb
  have hv := mask_verdict_of_run c g gt ga s s0 st sa j p r hreset ht.reach hp ha
  have hpR : ({ s0 with masked_tracks := 0 } : sas_synthesizer_s).tracks2[j]? =
      some (some p) := by
    rw [← ht.fields.2.1]
    exact hp
  refine ⟨for_loop_succ _ j _ _ _ ht.reach hb,
    ⟨f1.trans ht.fields.1, f2.trans ht.fields.2.1, f3.trans ht.fields.2.2.1,
      f4.trans ht.fields.2.2.2⟩, ?_, ?_, ?_, ?_⟩
  · show s1.masked_tracks = _
    rw [f5, masked_count_succ c g s j r hv]
    have := ht.count
    simp only [] at this
    rw [this]
    push_cast
    split_ifs <;> rfl
  · intro q v hq
    obtain ⟨v1, l1, o1⟩ := ht.partials q v hq
    obtain ⟨v2, l2, o2⟩ := f6 q v1 l1
    exact ⟨v2, l2, only_newest_trans v v1 v2 o1 o2⟩
  · intro i q hi hq hvi
    by_cases hij : i = j
    · subst hij
      rw [hpR] at hq
      cases hq
      rw [hv] at hvi
      cases hvi
      exact f7 rfl
    · obtain ⟨v1, l1, x1⟩ := ht.marked i q (by omega) hq hvi
      obtain ⟨v2, l2, o2⟩ := f6 q v1 l1
      refine ⟨v2, l2, ?_⟩
      rcases o2.2 with e | e
      · rw [e, x1]
      · exact e
  · intro q hne
    by_cases hold : partial_load st q = partial_load { s0 with masked_tracks := 0 } q
    · have hch : partial_load s1 q ≠ partial_load st q := by
        rw [hold]
        exact hne
      have hqp : q = p ∧ r = 0 := by
        by_contra hcon
        apply hch
        apply f8
        by_cases h1 : q = p
        · exact Or.inr (fun h2 => hcon ⟨h1, h2⟩)
        · exact Or.inl h1
      obtain ⟨rfl, rfl⟩ := hqp
      exact ⟨j, Nat.lt_succ_self j, hpR, hv⟩
    · obtain ⟨i, hi, h1, h2⟩ := ht.others q hold
      exact ⟨i, Nat.lt_succ_of_lt hi, h1, h2⟩

/-- C30: when `update_mask` returns, every partial of every source is as it
was but for the newest entry `aenv[3]` of its amplitude history, which is as it
was or `BELOW_MIN_AMP` (state counter, link, `a`, `f`, `fenv`, `v1`, `v2` and the
three older entries are unchanged); a partial has changed only if it is a track
`tracks2[i]`, `i < audible_tracks`, for which `add_partial_to_mask` returned 0,
and every such track has `aenv[3] = BELOW_MIN_AMP`; the two arrays and
`active_tracks` are unchanged, `masked_tracks` is the number of the tracks for
which `add_partial_to_mask` returned 0, and `audible_tracks` is its value
before the call minus `masked_tracks`. -/
theorem update_mask_frame (c : libc) (g g1 : globals) (s s1 : sas_synthesizer_s)
    (h : update_mask c g s = .ok (g1, s1)) :
    (∀ q v, partial_load s q = .ok v →
      ∃ v1, partial_load s1 q = .ok v1 ∧ only_newest_amplitude v v1) ∧
    (∀ q, partial_load s1 q ≠ partial_load s q →
      ∃ i, i < s.audible_tracks.toNat ∧ s.tracks2[i]? = some (some q) ∧
        mask_verdict c g s i = .ok 0) ∧
    (∀ i p, i < s.audible_tracks.toNat → s.tracks2[i]? = some (some p) →
      mask_verdict c g s i = .ok 0 →
      ∃ v1, partial_load s1 p = .ok v1 ∧ v1.aenv.x3 = BELOW_MIN_AMP) ∧
    s1.tracks = s.tracks ∧ s1.tracks2 = s.tracks2 ∧ s1.active_tracks = s.active_tracks ∧
    s1.masked_tracks = masked_count c g s s.audible_tracks.toNat ∧
    s1.audible_tracks = s.audible_tracks - s1.masked_tracks := by
  unfold update_mask at h
  simp only [bind_ok_iff] at h
  obtain ⟨s0, hreset, ⟨g2, s2⟩, hloop, h⟩ := h
  simp only [pure, Except.pure, Except.ok.injEq, Prod.mk.injEq] at h
  obtain ⟨rfl, rfl⟩ := h
  obtain ⟨r1, r2, r3, r4, r5⟩ := reset_mask_fields s s0 hreset
  have hn : ({ s0 with masked_tracks := 0 } : sas_synthesizer_s).audible_tracks.toNat =
      s.audible_tracks.toNat := by
    show s0.audible_tracks.toNat = _
    rw [r5]
  rw [hn] at hloop
  have hP := for_loop_preserves (mask_track c)
    (mask_progress c g s { s0 with masked_tracks := 0 }) s.audible_tracks.toNat 0
    (g, { s0 with masked_tracks := 0 }) (g2, s2)
    (fun j t t1 _ _ hb ht => mask_progress_step c g s s0 hreset j t t1 hb ht) hloop
    ⟨rfl, ⟨rfl, rfl, rfl, rfl⟩, rfl, fun q v hq => ⟨v, hq, only_newest_refl v⟩,
      fun i p hi => absurd hi (Nat.not_lt_zero i), fun q hne => absurd rfl hne⟩
  rw [Nat.zero_add] at hP
  have hloadR : ∀ q, partial_load ({ s0 with masked_tracks := 0 } : sas_synthesizer_s) q =
      partial_load s q := fun q => partial_load_congr _ _ q r1
  refine ⟨?_, ?_, ?_, hP.fields.1.trans r2, hP.fields.2.1.trans r3, hP.fields.2.2.1.trans r4,
    hP.count, ?_⟩
  · intro q v hq
    obtain ⟨v1, l1, o1⟩ := hP.partials q v (by rw [hloadR]; exact hq)
    exact ⟨v1, l1, o1⟩
  · intro q hne
    obtain ⟨i, hi, h1, h2⟩ := hP.others q (by rw [hloadR]; exact hne)
    exact ⟨i, hi, by rw [← r3]; exact h1, h2⟩
  · intro i p hi hp hv
    exact hP.marked i p hi (by show s0.tracks2[i]? = _; rw [r3]; exact hp) hv
  · show s2.audible_tracks - s2.masked_tracks = s.audible_tracks - s2.masked_tracks
    rw [hP.fields.2.2.2]
    show s0.audible_tracks - _ = _
    rw [r5]

/-- Witness for C30: the two tracks of `two_track_synth`. -/
theorem update_mask_frame_witness :
    ∃ g1 s1, update_mask libc_rational globals_start two_track_synth = .ok (g1, s1) ∧
      (∀ q v, partial_load two_track_synth q = .ok v →
        ∃ v1, partial_load s1 q = .ok v1 ∧ only_newest_amplitude v v1) ∧
      s1.masked_tracks =
        masked_count libc_rational globals_start two_track_synth
          two_track_synth.audible_tracks.toNat ∧
      s1.audible_tracks = two_track_synth.audible_tracks - s1.masked_tracks := by
  obtain ⟨r, hr⟩ := exists_of_isOk (update_mask libc_rational globals_start two_track_synth)
    (by decide!)
  obtain ⟨g1, s1⟩ := r
  obtain ⟨h1, -, -, -, -, -, h7, h8⟩ :=
    update_mask_frame libc_rational globals_start g1 two_track_synth s1 hr
  exact ⟨g1, s1, hr, h1, h7, h8⟩

/-! ## Renormalisation of the amplitudes -/

/-- C26 fails on the source of `heard_synth`: the frame heard has amplitude
1/2, the loudness factor is 1 and the attenuation factor is 1 (distance 0).
The scan finds two harmonics; the first one is warped to 30000 Hz, above
`SAS_MAX_AUDIBLE_FREQUENCY`, so its amplitude is not assigned and keeps the
target 1/4 of the block before, which the last loop scales like the others.
The targets are 1/8 and 1/2 and their sum is 5/8, not 1/2. -/
theorem renormalisation_stale_amplitude :
    (∃ src r, source_load heard_synth 1 = .ok src ∧
      harmonic_scan libc_rational heard_globals heard_synth src = .ok r ∧
      r.harmonics = 2 ∧ r.source.tracks.map targets = [(1 / 8, 30000), (1 / 2, 20000)] ∧
      r.source.distance = 0 ∧ r.source.doppler = 1 ∧
      (r.source.tracks.map
        (fun p => p.a / compute_distance_attenuation_factor libc_rational p r.source.distance)).sum
        = 5 / 8) ∧
    heard_synth.amplitude_factor = 1 ∧
    (5 / 8 : ℚ) ≠ 1 / 2 * heard_synth.amplitude_factor := by
  refine ⟨?_, rfl, by decide!⟩
  obtain ⟨src, hsrc⟩ := exists_of_isOk (source_load heard_synth 1) (by decide!)
  obtain ⟨r, hr⟩ := exists_of_isOk
    ((source_load heard_synth 1).bind (harmonic_scan libc_rational heard_globals heard_synth))
    (by decide!)
  rw [hsrc] at hr
  refine ⟨src, r, hsrc, hr, ?_⟩
  have h : ((source_load heard_synth 1).bind (fun src =>
      (harmonic_scan libc_rational heard_globals heard_synth src).bind (fun r =>
        .ok (decide (r.harmonics = 2 ∧
          r.source.tracks.map targets = [(1 / 8, 30000), (1 / 2, 20000)] ∧
          r.source.distance = 0 ∧ r.source.doppler = 1 ∧
          (r.source.tracks.map (fun p =>
            p.a / compute_distance_attenuation_factor libc_rational p r.source.distance)).sum
            = 5 / 8))))) = (.ok true : Except fault Bool) := by
    decide!
  rw [hsrc] at h
  simp only [Except.bind] at hr h
  rw [hr] at h
  simpa using h

/-! ## The life of a partial -/

theorem continuing_harmonic_step (c : libc) (i : Nat) (st st1 : update_state)
    (h : continuing_harmonic c i st = .ok st1) :
    ∃ p p1, st.source.tracks[i]? = some p ∧
      st1.source = { st.source with tracks := st.source.tracks.set i p1 } ∧
      p1.state = p.state + 1 ∧ p1.a = p.a ∧ p1.f = p.f ∧ p1.source = p.source ∧
      st1.birth = st.birth ∧ st1.death = st.death ∧
      (((p.link ≠ none ∨ p.state + 1 = 1 ∨
            (p.state + 1 = 2 ∧ ¬ st.s.active_tracks < st.s.allocated)) ∧
          p1.link = p.link ∧ p1.v1 = p.v1 ∧ p1.v2 = p.v2 ∧
          st1.s = st.s ∧ st1.g = st.g ∧ st1.links = st.links) ∨
        (p.link = none ∧ p.state + 1 = 2 ∧ st.s.active_tracks < st.s.allocated ∧
          0 ≤ st.s.active_tracks ∧ st.s.active_tracks.toNat < st.s.tracks.length ∧
          p1.link = some st.s.active_tracks.toNat ∧
          p1.v1 = c.cos (((c.random st.g.random_state).1 : ℚ) / RAND_MAX) ∧
          p1.v2 = c.sin (((c.random st.g.random_state).1 : ℚ) / RAND_MAX) ∧
          st1.s = { st.s with
            tracks := st.s.tracks.set st.s.active_tracks.toNat (some ⟨st.source.id, i⟩)
            active_tracks := st.s.active_tracks + 1 } ∧
          st1.g = { st.g with random_state := (c.random st.g.random_state).2 } ∧
          st1.links = st.links + 1)) := by
  unfold continuing_harmonic at h
  simp only [bind_ok_iff] at h
  obtain ⟨p, hp, h⟩ := h
  rw [array_get_eq_ok] at hp
  refine ⟨p, ?_⟩
  split_ifs at h with h1 h2 h3 h4 h5
  · simp only [bind_ok_iff, pure, Except.pure, Except.ok.injEq, array_set_eq_ok] at h
    obtain ⟨ts, ⟨hlt, rfl⟩, rfl⟩ := h
    exact ⟨_, hp, rfl, rfl, rfl, rfl, rfl, rfl, rfl, Or.inl ⟨Or.inl h1, rfl, rfl, rfl, rfl, rfl, rfl⟩⟩
  · simp only [bind_ok_iff, pure, Except.pure, Except.ok.injEq, array_set_eq_ok] at h
    obtain ⟨ts, ⟨hlt, rfl⟩, rfl⟩ := h
    exact ⟨_, hp, rfl, rfl, rfl, rfl, rfl, rfl, rfl,
      Or.inl ⟨Or.inr (Or.inl h2), rfl, rfl, rfl, rfl, rfl, rfl⟩⟩
  · simp only [bind_ok_iff, pure, Except.pure, Except.ok.injEq, array_set_eq_ok] at h
    obtain ⟨tr, ⟨hlt0, rfl⟩, ts, ⟨hlt, rfl⟩, rfl⟩ := h
    exact ⟨_, hp, rfl, rfl, rfl, rfl, rfl, rfl, rfl,
      Or.inr ⟨not_not.mp h1, h3, h4, not_lt.mp h5, hlt0, rfl, rfl, rfl, rfl, rfl, rfl⟩⟩
  · simp only [bind_ok_iff, pure, Except.pure, Except.ok.injEq, array_set_eq_ok] at h
    obtain ⟨ts, ⟨hlt, rfl⟩, rfl⟩ := h
    exact ⟨_, hp, rfl, rfl, rfl, rfl, rfl, rfl, rfl,
      Or.inl ⟨Or.inr (Or.inr ⟨h3, h4⟩), rfl, rfl, rfl, rfl, rfl, rfl⟩⟩

theorem birth_of_harmonic_step (i : Nat) (st st1 : update_state)
    (h : birth_of_harmonic i st = .ok st1) :
    ∃ p, st.source.tracks[i]? = some p ∧
      st1 = { st with
        source := { st.source with
          tracks := st.source.tracks.set i { p with
            state := 0
            aenv := shift_envelope p.aenv BELOW_MIN_AMP
            fenv := shift_envelope p.fenv p.f } }
        birth := st.birth + 1 } := by
  unfold birth_of_harmonic at h
  simp only [bind_ok_iff, pure, Except.pure, Except.ok.injEq, array_set_eq_ok] at h
  obtain ⟨p, hp, ts, ⟨hlt, rfl⟩, rfl⟩ := h
  rw [array_get_eq_ok] at hp
  exact ⟨p, hp, rfl⟩

theorem death_of_harmonic_step (i : Nat) (st st1 : update_state)
    (h : death_of_harmonic i st = .ok st1) :
    ∃ p, st.source.tracks[i]? = some p ∧
      st1 = { st with
        source := { st.source with
          tracks := st.source.tracks.set i { p with
            state := 0
            a := BELOW_MIN_AMP
            aenv := shift_envelope p.aenv BELOW_MIN_AMP
            fenv := shift_envelope p.fenv p.f } }
        death := st.death + 1 } := by
  unfold death_of_harmonic at h
  simp only [bind_ok_iff, pure, Except.pure, Except.ok.injEq, array_set_eq_ok] at h
  obtain ⟨p, hp, ts, ⟨hlt, rfl⟩, rfl⟩ := h
  rw [array_get_eq_ok] at hp
  exact ⟨p, hp, rfl⟩

theorem dying_harmonic_step (i : Nat) (st st1 : update_state)
    (h : dying_harmonic i st = .ok st1) :
    ∃ p, st.source.tracks[i]? = some p ∧
      ((p.state - 1 = -2 ∧ ∃ l, p.link = some l ∧ l < st.s.tracks.length ∧
          st1 = { st with
            s := { st.s with tracks := st.s.tracks.set l none }
            source := { st.source with
              tracks := st.source.tracks.set i { p with state := p.state - 1, link := none } }
            links := st.links - 1 }) ∨
        (p.state - 1 ≠ -2 ∧
          st1 = { st with
            source := { st.source with
              tracks := st.source.tracks.set i { p with
                state := p.state - 1
                aenv := shift_envelope p.aenv (2 * p.aenv.x3 - p.aenv.x2)
                fenv := shift_envelope p.fenv p.f } } })) := by
  unfold dying_harmonic at h
  simp only [bind_ok_iff] at h
  obtain ⟨p, hp, h⟩ := h
  rw [array_get_eq_ok] at hp
  refine ⟨p, hp, ?_⟩
  split_ifs at h with h1
  · cases hl : p.link with
    | none => simp [hl] at h
    | some l =>
      simp only [hl, bind_ok_iff, pure, Except.pure, Except.ok.injEq, array_set_eq_ok] at h
      obtain ⟨tr, ⟨hlt0, rfl⟩, ts, ⟨hlt, rfl⟩, rfl⟩ := h
      exact Or.inl ⟨h1, l, rfl, hlt0, rfl⟩
  · simp only [bind_ok_iff, pure, Except.pure, Except.ok.injEq, array_set_eq_ok] at h
    obtain ⟨ts, ⟨hlt, rfl⟩, rfl⟩ := h
    exact Or.inr ⟨h1, rfl⟩

theorem loop_untouched (body : Nat → update_state → Except fault update_state)
    (hbody : ∀ j t t1, body j t = .ok t1 →
      ∀ k, k ≠ j → t1.source.tracks[k]? = t.source.tracks[k]?)
    (n i : Nat) (st st1 : update_state) (h : for_loop body n i st = .ok st1)
    (k : Nat) (hk : k < i ∨ i + n ≤ k) :
    st1.source.tracks[k]? = st.source.tracks[k]? :=
  for_loop_preserves body (fun _ t => t.source.tracks[k]? = st.source.tracks[k]?) n i st st1
    (fun j t t1 hj1 hj2 hb ht => (hbody j t t1 hb k (by omega)).trans ht) h rfl

theorem loop_at {σ : Type} (body : Nat → σ → Except fault σ) (n i : Nat) (st st1 : σ)
    (h : for_loop body n i st = .ok st1) (k : Nat) (hk1 : i ≤ k) (hk2 : k < i + n) :
    ∃ sa sb, for_loop body (k - i) i st = .ok sa ∧ body k sa = .ok sb ∧
      for_loop body (i + n - (k + 1)) (k + 1) sb = .ok st1 := by
  have e : n = (k - i) + (1 + (i + n - (k + 1))) := by omega
  have e2 : i + (k - i) = k := by omega
  rw [e, for_loop_split, e2] at h
  cases h1 : for_loop body (k - i) i st with
  | error e0 => simp [h1, Except.bind] at h
  | ok sa =>
    simp only [h1, Except.bind] at h
    rw [for_loop_split] at h
    cases h3 : for_loop body 1 k sa with
    | error e0 => simp [h3, Except.bind] at h
    | ok sb =>
      simp only [h3, Except.bind] at h
      refine ⟨sa, sb, rfl, ?_, h⟩
      simp only [for_loop] at h3
      cases hb : body k sa with
      | error e0 => simp [hb, Except.bind] at h3
      | ok t =>
        simp only [hb, Except.bind, Except.ok.injEq] at h3
        rw [h3]

theorem toNat_range (z : Int) (i : Nat) : (i : Int) ≤ z → i + (z - i).toNat = z.toNat := by
  intro h
  omega

theorem toNat_range_ge (z : Int) (i : Nat) : z ≤ (i : Int) → i + (z - i).toNat = i := by
  intro h
  omega

theorem continuing_keeps_link (c : libc) (s : sas_synthesizer_s) (id i l : Nat) (σ : Int)
    (j : Nat) (t t1 : update_state) (hb : continuing_harmonic c j t = .ok t1)
    (ht : linked_at s id i l σ t) :
    linked_at s id i l (if j = i then σ + 1 else σ) t1 := by
  obtain ⟨hid, ⟨q, hq, hql, hqs⟩, hslots⟩ := ht
  obtain ⟨p, p1, hp, hsrc, hst, -, -, -, -, -, hcase⟩ := continuing_harmonic_step c j t t1 hb
  have hlt : j < t.source.tracks.length := (List.getElem?_eq_some_iff.mp hp).1
  rcases hcase with ⟨-, hlink, -, -, hs, -, -⟩ | ⟨hnone, -, -, -, hlt0, -, -, -, hs, -, -⟩
  · refine ⟨by rw [hsrc]; exact hid, ?_, by rw [hs]; exact hslots⟩
    rw [hsrc]
    by_cases hji : j = i
    · subst hji
      rw [hp] at hq
      cases hq
      exact ⟨p1, List.getElem?_set_self hlt, by rw [hlink, hql],
        by rw [if_pos rfl, hst, hqs]⟩
    · exact ⟨q, by simp only [List.getElem?_set_ne hji]; exact hq, hql, by rw [if_neg hji, hqs]⟩
  · have hji : j ≠ i := by
      intro hji
      subst hji
      rw [hp] at hq
      cases hq
      rw [hnone] at hql
      cases hql
    refine ⟨by rw [hsrc]; exact hid, ?_, ?_⟩
    · rw [hsrc]
      exact ⟨q, by simp only [List.getElem?_set_ne hji]; exact hq, hql, by rw [if_neg hji, hqs]⟩
    · intro k hk
      rw [hs] at hk
      simp only [] at hk
      by_cases hka : t.s.active_tracks.toNat = k
      · subst hka
        rw [List.getElem?_set_self hlt0] at hk
        simp only [Option.some.injEq, partial_t.mk.injEq] at hk
        exact absurd hk.2 hji
      · rw [List.getElem?_set_ne hka] at hk
        exact hslots k hk

theorem birth_keeps_link (s : sas_synthesizer_s) (id i l : Nat) (σ : Int)
    (j : Nat) (t t1 : update_state) (hb : birth_of_harmonic j t = .ok t1)
    (ht : linked_at s id i l σ t) :
    linked_at s id i l (if j = i then 0 else σ) t1 := by
  obtain ⟨hid, ⟨q, hq, hql, hqs⟩, hslots⟩ := ht
  obtain ⟨p, hp, rfl⟩ := birth_of_harmonic_step j t t1 hb
  have hlt : j < t.source.tracks.length := (List.getElem?_eq_some_iff.mp hp).1
  refine ⟨hid, ?_, hslots⟩
  by_cases hji : j = i
  · subst hji
    rw [hp] at hq
    cases hq
    refine ⟨_, List.getElem?_set_self hlt, hql, ?_⟩
    rw [if_pos rfl]
  · exact ⟨q, by simp only [List.getElem?_set_ne hji]; exact hq, hql, by rw [if_neg hji, hqs]⟩

theorem death_keeps_link (s : sas_synthesizer_s) (id i l : Nat) (σ : Int)
    (j : Nat) (t t1 : update_state) (hb : death_of_harmonic j t = .ok t1)
    (ht : linked_at s id i l σ t) :
    linked_at s id i l (if j = i then 0 else σ) t1 := by
  obtain ⟨hid, ⟨q, hq, hql, hqs⟩, hslots⟩ := ht
  obtain ⟨p, hp, rfl⟩ := death_of_harmonic_step j t t1 hb
  have hlt : j < t.source.tracks.length := (List.getElem?_eq_some_iff.mp hp).1
  refine ⟨hid, ?_, hslots⟩
  by_cases hji : j = i
  · subst hji
    rw [hp] at hq
    cases hq
    refine ⟨_, List.getElem?_set_self hlt, hql, ?_⟩
    rw [if_pos rfl]
  · exact ⟨q, by simp only [List.getElem?_set_ne hji]; exact hq, hql, by rw [if_neg hji, hqs]⟩

theorem dying_keeps_link (s : sas_synthesizer_s) (id i l : Nat) (σ : Int)
    (j : Nat) (t t1 : update_state) (hb : dying_harmonic j t = .ok t1) (hji : j ≠ i)
    (ht : linked_at s id i l σ t) :
    linked_at s id i l σ t1 := by
  obtain ⟨hid, ⟨q, hq, hql, hqs⟩, hslots⟩ := ht
  obtain ⟨p, hp, hcase⟩ := dying_harmonic_step j t t1 hb
  rcases hcase with ⟨-, l1, -, hl1, rfl⟩ | ⟨-, rfl⟩
  · refine ⟨hid, ⟨q, by simp only [List.getElem?_set_ne hji]; exact hq, hql, hqs⟩, ?_⟩
    intro k hk
    simp only [] at hk
    by_cases hka : l1 = k
    · subst hka
      rw [List.getElem?_set_self hl1] at hk
      cases hk
    · rw [List.getElem?_set_ne hka] at hk
      exact hslots k hk
  · exact ⟨hid, ⟨q, by simp only [List.getElem?_set_ne hji]; exact hq, hql, hqs⟩, hslots⟩

/-- C22: in the update of a block by `update_source`, a partial that is linked
to a slot `l` (in any state, in particular dying with state 0 or -1) and
eligible again, that is below the number of harmonics found, keeps the link
`l`: it is handled as a continuing harmonic (state counter incremented) when it
is below the number `active` of continuing harmonics and as a birth (state
counter 0) otherwise, never by the last loop, which is the only one that
unlinks; and every slot of the active-track array that points to it at the end
pointed to it before, so that it is not inserted a second time. -/
theorem reappearing_partial_keeps_link (c : libc) (g : globals) (s : sas_synthesizer_s)
    (source : sas_source_s) (harmonics active : Int) (st1 : update_state) (i l : Nat)
    (p : partial_s) (h : update_partials c g s source harmonics active = .ok st1)
    (hp : source.tracks[i]? = some p) (hl : p.link = some l) (hi : (i : Int) < harmonics) :
    ∃ q, st1.source.tracks[i]? = some q ∧ q.link = some l ∧
      q.state = (if (i : Int) < active then p.state + 1 else 0) ∧
      ∀ k : Nat, st1.s.tracks[k]? = some (some (partial_t.mk source.id i)) →
        s.tracks[k]? = some (some (partial_t.mk source.id i)) := by
  unfold update_partials at h
  simp only [bind_ok_iff, pure, Except.pure, Except.ok.injEq] at h
  obtain ⟨t1, h1, t2, h2, t3, h3, t4, h4, rfl⟩ := h
  generalize hn1 : (active - ((0 : Nat) : Int)).toNat = n1 at h1 h2 h3 h4
  generalize hn2 : (harmonics - ((0 + n1 : Nat) : Int)).toNat = n2 at h2 h3 h4
  generalize hn3 : (source.active_tracks - ((0 + n1 + n2 : Nat) : Int)).toNat = n3 at h3 h4
  generalize hn4 : (source.linked_tracks - ((0 + n1 + n2 + n3 : Nat) : Int)).toNat = n4 at h4
  have k0 : linked_at s source.id i l p.state
      { g := g, s := s, source := source, birth := 0, death := 0, links := 0 } :=
    ⟨rfl, ⟨p, hp, hl, rfl⟩, fun _ hk => hk⟩
  have k1 : linked_at s source.id i l (if i < 0 + n1 then p.state + 1 else p.state) t1 := by
    refine for_loop_preserves _ (fun j t =>
      linked_at s source.id i l (if i < j then p.state + 1 else p.state) t) _ _ _ _ ?_ h1
      (by simpa using k0)
    intro j t t1 _ _ hb ht
    have := continuing_keeps_link c s source.id i l _ j t t1 hb ht
    split_ifs at this ⊢ <;> first | exact this | omega
  have k2 : linked_at s source.id i l (if (i : Int) < active then p.state + 1
      else if i < 0 + n1 + n2 then 0 else p.state) t2 := by
    refine for_loop_preserves _ (fun j t =>
      linked_at s source.id i l (if (i : Int) < active then p.state + 1
        else if i < j then 0 else p.state) t) _ _ _ _ ?_ h2 ?_
    · intro j t t1 hj1 _ hb ht
      have := birth_keeps_link s source.id i l _ j t t1 hb ht
      split_ifs at this ⊢ <;> first | exact this | omega
    · beta_reduce
      split_ifs at k1 ⊢ <;> first | exact k1 | omega
  have k2a : linked_at s source.id i l (if (i : Int) < active then p.state + 1 else 0) t2 := by
    by_cases hia : (i : Int) < active
    · simp only [hia, if_true] at k2 ⊢
      exact k2
    · simp only [hia, if_false] at k2 ⊢
      rw [if_pos (show i < 0 + n1 + n2 by omega)] at k2
      exact k2
  have k3 : linked_at s source.id i l (if (i : Int) < active then p.state + 1 else 0) t3 := by
    refine for_loop_preserves _ (fun _ t =>
      linked_at s source.id i l (if (i : Int) < active then p.state + 1 else 0) t) _ _ _ _ ?_ h3
      k2a
    intro j t t1 hj1 _ hb ht
    have := death_keeps_link s source.id i l _ j t t1 hb ht
    rw [if_neg (show j ≠ i by omega)] at this
    exact this
  have k4 : linked_at s source.id i l (if (i : Int) < active then p.state + 1 else 0) t4 := by
    refine for_loop_preserves _ (fun _ t =>
      linked_at s source.id i l (if (i : Int) < active then p.state + 1 else 0) t) _ _ _ _ ?_ h4
      k3
    intro j t t1 hj1 _ hb ht
    exact dying_keeps_link s source.id i l _ j t t1 hb (by omega) ht
  obtain ⟨-, ⟨q, hq, hql, hqs⟩, hslots⟩ := k4
  exact ⟨q, hq, hql, hqs, hslots⟩

/-- Witness for C22: the second partial of the source of `small_synth`, linked
to slot 3, in a block with three harmonics. -/
theorem reappearing_partial_keeps_link_witness :
    ∃ st1, update_partials libc_rational globals_start small_synth
        (small_source decline
          [track_with (1 / 4) (some 2), track_with 0 (some 3), track_with (1 / 2) (some 0)] 3 3)
        3 3 = .ok st1 ∧
      ∃ q, st1.source.tracks[1]? = some q ∧ q.link = some 3 ∧ q.state = 6 ∧
        ∀ k : Nat, st1.s.tracks[k]? = some (some (partial_t.mk 1 1)) →
          small_synth.tracks[k]? = some (some (partial_t.mk 1 1)) := by
  obtain ⟨st1, h⟩ := exists_of_isOk (update_partials libc_rational globals_start small_synth
    (small_source decline
      [track_with (1 / 4) (some 2), track_with 0 (some 3), track_with (1 / 2) (some 0)] 3 3)
    3 3) (by decide!)
  exact ⟨st1, h, reappearing_partial_keeps_link libc_rational globals_start small_synth _ 3 3 st1
    1 3 (track_with 0 (some 3)) h rfl rfl (by decide)⟩

theorem bind_error_iff {α β : Type} (x : Except fault α) (f : α → Except fault β) (e : fault) :
    (x >>= f) = .error e ↔ x = .error e ∨ ∃ a, x = .ok a ∧ f a = .error e := by
  cases x with
  | error e0 =>
    show Except.error e0 = Except.error e ↔ _
    simp
  | ok a =>
    show f a = .error e ↔ _
    simp

theorem for_loop_error {σ : Type} (body : Nat → σ → Except fault σ) :
    ∀ (n i : Nat) (st : σ) (e : fault), for_loop body n i st = .error e →
      ∃ j t, i ≤ j ∧ j < i + n ∧ for_loop body (j - i) i st = .ok t ∧ body j t = .error e := by
  intro n
  induction n with
  | zero =>
    intro i st e h
    simp [for_loop] at h
  | succ n ih =>
    intro i st e h
    simp only [for_loop] at h
    cases hb : body i st with
    | error e0 =>
      simp only [hb, Except.bind, Except.error.injEq] at h
      subst h
      exact ⟨i, st, Nat.le_refl i, by omega, by simp [for_loop], hb⟩
    | ok t1 =>
      simp only [hb, Except.bind] at h
      obtain ⟨j, t, hj1, hj2, hrun, hbj⟩ := ih (i + 1) t1 e h
      refine ⟨j, t, by omega, by omega, ?_, hbj⟩
      have e1 : j - i = 1 + (j - (i + 1)) := by omega
      rw [e1, for_loop_split]
      simp only [for_loop, hb, Except.bind]
      exact hrun

theorem update_partials_loops (c : libc) (g : globals) (s : sas_synthesizer_s)
    (source : sas_source_s) (harmonics active : Int) :
    update_partials c g s source harmonics active =
      (for_loop (continuing_harmonic c) (loop_counts source harmonics active).1 0
        { g := g, s := s, source := source, birth := 0, death := 0, links := 0 }).bind (fun t1 =>
      (for_loop birth_of_harmonic (loop_counts source harmonics active).2.1
        (loop_counts source harmonics active).1 t1).bind (fun t2 =>
      (for_loop death_of_harmonic (loop_counts source harmonics active).2.2.1
        ((loop_counts source harmonics active).1 + (loop_counts source harmonics active).2.1)
        t2).bind (fun t3 =>
      for_loop dying_harmonic (loop_counts source harmonics active).2.2.2
        ((loop_counts source harmonics active).1 + (loop_counts source harmonics active).2.1 +
          (loop_counts source harmonics active).2.2.1) t3))) := by
  unfold update_partials loop_counts
  simp only [Nat.cast_zero, sub_zero, Nat.zero_add, bind, pure, Except.pure]
  congr 1
  funext t1
  congr 1
  funext t2
  congr 1
  funext t3
  cases for_loop dying_harmonic _ _ t3 <;> rfl

theorem loop_counts_eq (source : sas_source_s) (harmonics active : Int) (n1 n2 n3 n4 : Nat)
    (h : loop_counts source harmonics active = (n1, n2, n3, n4)) :
    n1 = active.toNat ∧ n2 = (harmonics - n1).toNat ∧
      n3 = (source.active_tracks - (n1 + n2 : Nat)).toNat ∧
      n4 = (source.linked_tracks - (n1 + n2 + n3 : Nat)).toNat := by
  unfold loop_counts at h
  simp only [Prod.mk.injEq] at h
  obtain ⟨rfl, rfl, rfl, rfl⟩ := h
  exact ⟨rfl, rfl, rfl, rfl⟩

theorem update_partials_ok (c : libc) (g : globals) (s : sas_synthesizer_s)
    (source : sas_source_s) (harmonics active : Int) (st1 : update_state) (n1 n2 n3 n4 : Nat)
    (hn : loop_counts source harmonics active = (n1, n2, n3, n4))
    (h : update_partials c g s source harmonics active = .ok st1) :
    ∃ t1 t2 t3,
      for_loop (continuing_harmonic c) n1 0
        { g := g, s := s, source := source, birth := 0, death := 0, links := 0 } = .ok t1 ∧
      for_loop birth_of_harmonic n2 n1 t1 = .ok t2 ∧
      for_loop death_of_harmonic n3 (n1 + n2) t2 = .ok t3 ∧
      for_loop dying_harmonic n4 (n1 + n2 + n3) t3 = .ok st1 := by
  rw [update_partials_loops, hn] at h
  simp only [] at h
  cases h1 : for_loop (continuing_harmonic c) n1 0
      { g := g, s := s, source := source, birth := 0, death := 0, links := 0 } with
  | error e => simp [h1, Except.bind] at h
  | ok t1 =>
    simp only [h1, Except.bind] at h
    cases h2 : for_loop birth_of_harmonic n2 n1 t1 with
    | error e => simp [h2] at h
    | ok t2 =>
      simp only [h2] at h
      cases h3 : for_loop death_of_harmonic n3 (n1 + n2) t2 with
      | error e => simp [h3] at h
      | ok t3 =>
        simp only [h3] at h
        exact ⟨t1, t2, t3, rfl, h2, h3, h⟩

theorem continuing_untouched (c : libc) (j : Nat) (t t1 : update_state)
    (hb : continuing_harmonic c j t = .ok t1) (k : Nat) (hk : k ≠ j) :
    t1.source.tracks[k]? = t.source.tracks[k]? := by
  obtain ⟨p, p1, -, hsrc, -⟩ := continuing_harmonic_step c j t t1 hb
  rw [hsrc]
  exact List.getElem?_set_ne (Ne.symm hk)

theorem birth_untouched (j : Nat) (t t1 : update_state)
    (hb : birth_of_harmonic j t = .ok t1) (k : Nat) (hk : k ≠ j) :
    t1.source.tracks[k]? = t.source.tracks[k]? := by
  obtain ⟨p, -, rfl⟩ := birth_of_harmonic_step j t t1 hb
  exact List.getElem?_set_ne (Ne.symm hk)

theorem death_untouched (j : Nat) (t t1 : update_state)
    (hb : death_of_harmonic j t = .ok t1) (k : Nat) (hk : k ≠ j) :
    t1.source.tracks[k]? = t.source.tracks[k]? := by
  obtain ⟨p, -, rfl⟩ := death_of_harmonic_step j t t1 hb
  exact List.getElem?_set_ne (Ne.symm hk)

theorem dying_untouched (j : Nat) (t t1 : update_state)
    (hb : dying_harmonic j t = .ok t1) (k : Nat) (hk : k ≠ j) :
    t1.source.tracks[k]? = t.source.tracks[k]? := by
  obtain ⟨p, -, hcase⟩ := dying_harmonic_step j t t1 hb
  rcases hcase with ⟨-, l, -, -, rfl⟩ | ⟨-, rfl⟩
  · exact List.getElem?_set_ne (Ne.symm hk)
  · exact List.getElem?_set_ne (Ne.symm hk)

/-- What the four track loops do to the partial `i` when it is below the
number of continuing harmonics: the first loop reaches it in a state `sa` in
which it is as it was, and its body leaves it as it is at the end. -/
theorem update_partials_continuing (c : libc) (g : globals) (s : sas_synthesizer_s)
    (source : sas_source_s) (harmonics active : Int) (st1 : update_state) (i : Nat)
    (h : update_partials c g s source harmonics active = .ok st1) (hi : (i : Int) < active) :
    ∃ sa sb, for_loop (continuing_harmonic c) i 0
        { g := g, s := s, source := source, birth := 0, death := 0, links := 0 } = .ok sa ∧
      continuing_harmonic c i sa = .ok sb ∧
      sa.source.tracks[i]? = source.tracks[i]? ∧
      st1.source.tracks[i]? = sb.source.tracks[i]? := by
  obtain ⟨n1, n2, n3, n4, hn⟩ : ∃ n1 n2 n3 n4,
    loop_counts source harmonics active = (n1, n2, n3, n4) := ⟨_, _, _, _, rfl⟩
  obtain ⟨e1, e2, e3, e4⟩ := loop_counts_eq _ _ _ _ _ _ _ hn
  obtain ⟨t1, t2, t3, h1, h2, h3, h4⟩ := update_partials_ok c g s source harmonics active st1
    n1 n2 n3 n4 hn h
  obtain ⟨sa, sb, ha, hb, hrest⟩ := loop_at _ _ _ _ _ h1 i (Nat.zero_le i) (by omega)
  refine ⟨sa, sb, ha, hb, ?_, ?_⟩
  · exact loop_untouched _ (continuing_untouched c) _ _ _ _ ha i (by omega)
  · have u1 := loop_untouched _ (continuing_untouched c) _ _ _ _ hrest i (by omega)
    have u2 := loop_untouched _ birth_untouched _ _ _ _ h2 i (by omega)
    have u3 := loop_untouched _ death_untouched _ _ _ _ h3 i (by omega)
    have u4 := loop_untouched _ dying_untouched _ _ _ _ h4 i (by omega)
    rw [u4, u3, u2, u1]

/-- What the four track loops do to the partial `i` when it is in the range of
the second loop: the state counter is set to 0, the two histories are shifted,
and the rest is kept. -/
theorem update_partials_birth (c : libc) (g : globals) (s : sas_synthesizer_s)
    (source : sas_source_s) (harmonics active : Int) (st1 : update_state) (i : Nat)
    (p : partial_s) (h : update_partials c g s source harmonics active = .ok st1)
    (hp : source.tracks[i]? = some p) (h0 : 0 ≤ active)
    (hi1 : active ≤ (i : Int)) (hi2 : (i : Int) < harmonics) :
    st1.source.tracks[i]? = some { p with
      state := 0
      aenv := shift_envelope p.aenv BELOW_MIN_AMP
      fenv := shift_envelope p.fenv p.f } := by
  obtain ⟨n1, n2, n3, n4, hn⟩ : ∃ n1 n2 n3 n4,
    loop_counts source harmonics active = (n1, n2, n3, n4) := ⟨_, _, _, _, rfl⟩
  obtain ⟨e1, e2, e3, e4⟩ := loop_counts_eq _ _ _ _ _ _ _ hn
  obtain ⟨t1, t2, t3, h1, h2, h3, h4⟩ := update_partials_ok c g s source harmonics active st1
    n1 n2 n3 n4 hn h
  obtain ⟨sa, sb, ha, hb, hrest⟩ := loop_at _ _ _ _ _ h2 i (by omega) (by omega)
  have u0 := loop_untouched _ (continuing_untouched c) _ _ _ _ h1 i (by omega)
  have ua := loop_untouched _ birth_untouched _ _ _ _ ha i (by omega)
  have u1 := loop_untouched _ birth_untouched _ _ _ _ hrest i (by omega)
  have u3 := loop_untouched _ death_untouched _ _ _ _ h3 i (by omega)
  have u4 := loop_untouched _ dying_untouched _ _ _ _ h4 i (by omega)
  obtain ⟨q, hq, rfl⟩ := birth_of_harmonic_step i sa sb hb
  rw [ua, u0, hp] at hq
  cases hq
  rw [u4, u3, u1]
  exact List.getElem?_set_self (List.getElem?_eq_some_iff.mp (by rw [ua, u0]; exact hp)).1

theorem array_get_error {α : Type} (xs : List α) (i : Nat) (e : fault)
    (h : array_get xs i = .error e) : e = .invalid_access := by
  unfold array_get at h
  cases hx : xs[i]? with
  | none =>
    rw [List.get?_eq_getElem?, hx] at h
    simp only [Except.error.injEq] at h
    exact h.symm
  | some v =>
    rw [List.get?_eq_getElem?, hx] at h
    cases h

theorem array_set_error {α : Type} (xs : List α) (i : Nat) (v : α) (e : fault)
    (h : array_set xs i v = .error e) : e = .invalid_access := by
  unfold array_set at h
  split_ifs at h
  simp only [Except.error.injEq] at h
  exact h.symm

theorem continuing_harmonic_exit (c : libc) (j : Nat) (t : update_state)
    (h : continuing_harmonic c j t = .error .exit_failure) :
    ∃ p, t.source.tracks[j]? = some p ∧ p.link = none ∧ p.state + 1 ≠ 1 ∧ p.state + 1 ≠ 2 := by
  unfold continuing_harmonic at h
  simp only [bind_error_iff] at h
  rcases h with h | ⟨p, hp, h⟩
  · cases array_get_error _ _ _ h
  rw [array_get_eq_ok] at hp
  refine ⟨p, hp, ?_⟩
  split_ifs at h with h1 h2 h3 h4 h5
  · simp only [bind_error_iff, pure, Except.pure] at h
    rcases h with h | ⟨ts, -, h⟩
    · cases array_set_error _ _ _ _ h
    · cases h
  · simp only [bind_error_iff, pure, Except.pure] at h
    rcases h with h | ⟨ts, -, h⟩
    · cases array_set_error _ _ _ _ h
    · cases h
  · cases h
  · simp only [bind_error_iff, pure, Except.pure] at h
    rcases h with h | ⟨tr, -, h⟩
    · cases array_set_error _ _ _ _ h
    · rcases h with h | ⟨ts, -, h⟩
      · cases array_set_error _ _ _ _ h
      · cases h
  · simp only [bind_error_iff, pure, Except.pure] at h
    rcases h with h | ⟨ts, -, h⟩
    · cases array_set_error _ _ _ _ h
    · cases h
  · exact ⟨not_not.mp h1, h2, h3⟩

theorem birth_of_harmonic_error (j : Nat) (t : update_state) (e : fault)
    (h : birth_of_harmonic j t = .error e) : e = .invalid_access := by
  unfold birth_of_harmonic at h
  simp only [bind_error_iff, pure, Except.pure] at h
  rcases h with h | ⟨p, -, h | ⟨ts, -, h⟩⟩
  · exact array_get_error _ _ _ h
  · exact array_set_error _ _ _ _ h
  · cases h

theorem death_of_harmonic_error (j : Nat) (t : update_state) (e : fault)
    (h : death_of_harmonic j t = .error e) : e = .invalid_access := by
  unfold death_of_harmonic at h
  simp only [bind_error_iff, pure, Except.pure] at h
  rcases h with h | ⟨p, -, h | ⟨ts, -, h⟩⟩
  · exact array_get_error _ _ _ h
  · exact array_set_error _ _ _ _ h
  · cases h

theorem dying_harmonic_error (j : Nat) (t : update_state) (e : fault)
    (h : dying_harmonic j t = .error e) : e = .invalid_access := by
  unfold dying_harmonic at h
  simp only [bind_error_iff] at h
  rcases h with h | ⟨p, -, h⟩
  · exact array_get_error _ _ _ h
  split_ifs at h with h1
  · cases hl : p.link with
    | none =>
      simp only [hl, Except.error.injEq] at h
      exact h.symm
    | some l =>
      simp only [hl, bind_error_iff, pure, Except.pure] at h
      rcases h with h | ⟨tr, -, h | ⟨ts, -, h⟩⟩
      · exact array_set_error _ _ _ _ h
      · exact array_set_error _ _ _ _ h
      · cases h
  · simp only [bind_error_iff, pure, Except.pure] at h
    rcases h with h | ⟨ts, -, h⟩
    · exact array_set_error _ _ _ _ h
    · cases h

theorem loop_error_access (body : Nat → update_state → Except fault update_state)
    (hbody : ∀ j t e, body j t = .error e → e = .invalid_access) (n i : Nat)
    (st : update_state) (e : fault) (h : for_loop body n i st = .error e) :
    e = .invalid_access := by
  obtain ⟨j, t, -, -, -, hb⟩ := for_loop_error body n i st e h
  exact hbody j t e hb

/-- The track loops of `update_source` end in `exit (EXIT_FAILURE)` only when
the first loop reaches a harmonic that is unlinked and whose state counter,
once incremented, is neither 1 nor 2. -/
theorem update_partials_exit (c : libc) (g : globals) (s : sas_synthesizer_s)
    (source : sas_source_s) (harmonics active : Int)
    (h : update_partials c g s source harmonics active = .error .exit_failure) :
    ∃ (j : Nat) (t : update_state) (p : partial_s), (j : Int) < active ∧
      for_loop (continuing_harmonic c) j 0
        { g := g, s := s, source := source, birth := 0, death := 0, links := 0 } = .ok t ∧
      source.tracks[j]? = some p ∧ p.link = none ∧ p.state + 1 ≠ 1 ∧ p.state + 1 ≠ 2 := by
  obtain ⟨n1, n2, n3, n4, hn⟩ : ∃ n1 n2 n3 n4,
    loop_counts source harmonics active = (n1, n2, n3, n4) := ⟨_, _, _, _, rfl⟩
  obtain ⟨e1, -, -, -⟩ := loop_counts_eq _ _ _ _ _ _ _ hn
  rw [update_partials_loops, hn] at h
  simp only [] at h
  cases h1 : for_loop (continuing_harmonic c) n1 0
      { g := g, s := s, source := source, birth := 0, death := 0, links := 0 } with
  | error e =>
    simp only [h1, Except.bind, Except.error.injEq] at h
    subst h
    obtain ⟨j, t, -, hj, hrun, hb⟩ := for_loop_error _ _ _ _ _ h1
    obtain ⟨p, hp, hl, hs1, hs2⟩ := continuing_harmonic_exit c j t hb
    have hu := loop_untouched _ (continuing_untouched c) _ _ _ _ hrun j (by omega)
    rw [Nat.sub_zero] at hrun
    exact ⟨j, t, p, by omega, hrun, hu.symm.trans hp, hl, hs1, hs2⟩
  | ok t1 =>
    exfalso
    simp only [h1, Except.bind] at h
    cases h2 : for_loop birth_of_harmonic n2 n1 t1 with
    | error e =>
      simp only [h2, Except.error.injEq] at h
      subst h
      cases loop_error_access _ birth_of_harmonic_error _ _ _ _ h2
    | ok t2 =>
      simp only [h2] at h
      cases h3 : for_loop death_of_harmonic n3 (n1 + n2) t2 with
      | error e =>
        simp only [h3, Except.error.injEq] at h
        subst h
        cases loop_error_access _ death_of_harmonic_error _ _ _ _ h3
      | ok t3 =>
        simp only [h3] at h
        cases loop_error_access _ dying_harmonic_error _ _ _ _ h

theorem update_partials_counts (c : libc) (g : globals) (s : sas_synthesizer_s)
    (source : sas_source_s) (harmonics active : Int) (st1 : update_state) (n1 n2 n3 n4 : Nat)
    (hn : loop_counts source harmonics active = (n1, n2, n3, n4))
    (h : update_partials c g s source harmonics active = .ok st1) :
    st1.birth = n2 ∧ st1.death = n3 ∧ st1.source.active_tracks = source.active_tracks ∧
      st1.source.linked_tracks = source.linked_tracks ∧ st1.source.id = source.id := by
  have hf := (update_partials_frame c g s source harmonics active st1 h).source_fields
  obtain ⟨t1, t2, t3, h1, h2, h3, h4⟩ := update_partials_ok c g s source harmonics active st1
    n1 n2 n3 n4 hn h
  have k1 : t1.birth = 0 ∧ t1.death = 0 := by
    refine for_loop_preserves _ (fun _ t => t.birth = 0 ∧ t.death = 0) _ _ _ _ ?_ h1 ⟨rfl, rfl⟩
    intro j t t1 _ _ hb ht
    obtain ⟨e1, e2⟩ := (continuing_harmonic_frame c j t t1 hb).2.2
    exact ⟨e1.trans ht.1, e2.trans ht.2⟩
  have k2 : t2.birth = ((n1 + n2 : Nat) : Int) - n1 ∧ t2.death = 0 := by
    refine for_loop_preserves _ (fun j t => t.birth = (j : Int) - n1 ∧ t.death = 0) _ _ _ _ ?_ h2
      ⟨by rw [k1.1]; omega, k1.2⟩
    intro j t t1 _ _ hb ht
    obtain ⟨p, -, rfl⟩ := birth_of_harmonic_step j t t1 hb
    exact ⟨by show t.birth + 1 = _; rw [ht.1]; push_cast; ring, ht.2⟩
  have k3 : t3.birth = n2 ∧ t3.death = ((n1 + n2 + n3 : Nat) : Int) - (n1 + n2 : Nat) := by
    refine for_loop_preserves _ (fun j t => t.birth = (n2 : Int) ∧
      t.death = (j : Int) - ((n1 + n2 : Nat) : Int)) _ _ _ _ ?_ h3
      ⟨by rw [k2.1]; push_cast; ring, by rw [k2.2]; omega⟩
    intro j t t1 _ _ hb ht
    obtain ⟨p, -, rfl⟩ := death_of_harmonic_step j t t1 hb
    exact ⟨ht.1, by show t.death + 1 = _; rw [ht.2]; push_cast; ring⟩
  have k4 : st1.birth = n2 ∧ st1.death = n3 := by
    refine for_loop_preserves _ (fun _ t => t.birth = (n2 : Int) ∧ t.death = (n3 : Int)) _ _ _ _
      ?_ h4 ⟨k3.1, by rw [k3.2]; push_cast; ring⟩
    intro j t t1 _ _ hb ht
    obtain ⟨-, -, e1, e2, -⟩ := dying_harmonic_frame j t t1 hb
    exact ⟨e1.trans ht.1, e2.trans ht.2⟩
  exact ⟨k4.1, k4.2, congrArg (fun x => x.active_tracks) hf,
    congrArg (fun x => x.linked_tracks) hf, congrArg (fun x => x.id) hf⟩

/-- After the track loops, the number of active harmonics of the source is the
end of the range of the second loop, for the counts that the harmonic scan
hands over: `active` is at most the former number, and equal to it unless no
harmonic is above it. -/
theorem step_source_active (c : libc) (g : globals) (s : sas_synthesizer_s)
    (source : sas_source_s) (harmonics active : Int) (st1 : update_state) (n1 n2 n3 n4 : Nat)
    (hn : loop_counts source harmonics active = (n1, n2, n3, n4))
    (h : update_partials c g s source harmonics active = .ok st1)
    (h0 : 0 ≤ active) (hA : active ≤ source.active_tracks)
    (hcase : active = source.active_tracks ∨ harmonics ≤ active) :
    (step_source st1).active_tracks = ((n1 + n2 : Nat) : Int) ∧
      (step_source st1).tracks = st1.source.tracks := by
  obtain ⟨b, d, ha, -, -⟩ := update_partials_counts c g s source harmonics active st1
    n1 n2 n3 n4 hn h
  obtain ⟨e1, e2, e3, -⟩ := loop_counts_eq _ _ _ _ _ _ _ hn
  have hs := step_source_fields st1
  refine ⟨?_, hs.2.2.2.2.2.2.2.2.2.2.1⟩
  rw [hs.2.2.2.2.2.2.2.2.2.2.2.2.1, b, d, ha]
  omega

theorem young_unlinked_safe (c : libc) (g : globals) (s : sas_synthesizer_s)
    (source : sas_source_s) (harmonics active : Int) (hY : young_unlinked source)
    (hA : active ≤ source.active_tracks) :
    update_partials c g s source harmonics active ≠ .error .exit_failure := by
  intro h
  obtain ⟨j, t, p, hj, -, hp, hl, hs1, hs2⟩ := update_partials_exit c g s source harmonics active h
  rcases hY.2 j p (by omega) hp hl with h0 | h1
  · exact hs1 (by rw [h0]; rfl)
  · exact hs2 (by rw [h1]; rfl)

theorem young_unlinked_step (c : libc) (g : globals) (s : sas_synthesizer_s)
    (source : sas_source_s) (harmonics active : Int) (st1 : update_state)
    (hY : young_unlinked source)
    (h : update_partials c g s source harmonics active = .ok st1)
    (h0 : 0 ≤ active) (hA : active ≤ source.active_tracks)
    (hcase : active = source.active_tracks ∨ harmonics ≤ active)
    (hskip : ¬ insertion_skipped c g s source active) :
    young_unlinked (step_source st1) := by
  obtain ⟨n1, n2, n3, n4, hn⟩ : ∃ n1 n2 n3 n4,
    loop_counts source harmonics active = (n1, n2, n3, n4) := ⟨_, _, _, _, rfl⟩
  obtain ⟨e1, e2, e3, e4⟩ := loop_counts_eq _ _ _ _ _ _ _ hn
  obtain ⟨hact, htr⟩ := step_source_active c g s source harmonics active st1 n1 n2 n3 n4 hn h
    h0 hA hcase
  refine ⟨by rw [hact]; omega, ?_⟩
  intro i q hi hq hl
  rw [hact] at hi
  rw [htr] at hq
  by_cases hi1 : (i : Int) < active
  · obtain ⟨sa, sb, hrun, hb, ha, hfin⟩ := update_partials_continuing c g s source harmonics
      active st1 i h hi1
    obtain ⟨p, p1, hp, hsrc, hst, -, -, -, -, -, hcase2⟩ := continuing_harmonic_step c i sa sb hb
    have hlt : i < sa.source.tracks.length := (List.getElem?_eq_some_iff.mp hp).1
    rw [hfin, hsrc] at hq
    simp only [List.getElem?_set_self hlt, Option.some.injEq] at hq
    subst hq
    rcases hcase2 with ⟨hkeep, hlink, -⟩ | ⟨-, -, -, -, -, hlink, -⟩
    · rw [hlink] at hl
      rcases hY.2 i p (by omega) (ha.symm.trans hp) hl with hs0 | hs1
      · exact Or.inr (by rw [hst, hs0]; rfl)
      · exfalso
        rcases hkeep with hk | hk | ⟨-, hfull⟩
        · exact hk hl
        · rw [hs1] at hk
          exact absurd hk (by decide)
        · exact hskip ⟨i, sa, p, hi1, hrun, hp, hl, by rw [hs1]; rfl, hfull⟩
    · rw [hlink] at hl
      cases hl
  · obtain ⟨p, hp⟩ : ∃ p, source.tracks[i]? = some p := by
      have hlen := (update_partials_frame c g s source harmonics active st1 h).tracks_length
      have hlt : i < st1.source.tracks.length := (List.getElem?_eq_some_iff.mp hq).1
      exact ⟨_, List.getElem?_eq_getElem (by rw [← hlen]; exact hlt)⟩
    have hb := update_partials_birth c g s source harmonics active st1 i p h hp h0
      (by omega) (by omega)
    rw [hb] at hq
    cases hq
    exact Or.inl rfl

theorem partial_load_iff (s : sas_synthesizer_s) (q : partial_t) (v : partial_s) :
    partial_load s q = .ok v ↔
      ∃ src, source_load s q.source = .ok src ∧ src.tracks[q.index]? = some v := by
  unfold partial_load
  simp only [bind_ok_iff, array_get_eq_ok]

theorem partials_follow_refl (R : partial_s → partial_s → Prop) (hR : ∀ v, R v v)
    (s : sas_synthesizer_s) : partials_follow R s s :=
  ⟨fun _ src1 h => ⟨src1, h, rfl⟩, fun _ v1 h => ⟨v1, h, hR v1⟩⟩

theorem partials_follow_trans (R : partial_s → partial_s → Prop)
    (hR : ∀ a b d, R a b → R b d → R a d) (s s1 s2 : sas_synthesizer_s)
    (h1 : partials_follow R s s1) (h2 : partials_follow R s1 s2) : partials_follow R s s2 := by
  refine ⟨?_, ?_⟩
  · intro id src2 h
    obtain ⟨src1, hs1, e1⟩ := h2.1 id src2 h
    obtain ⟨src, hs, e⟩ := h1.1 id src1 hs1
    exact ⟨src, hs, e1.trans e⟩
  · intro q v2 h
    obtain ⟨v1, hv1, r1⟩ := h2.2 q v2 h
    obtain ⟨v, hv, r⟩ := h1.2 q v1 hv1
    exact ⟨v, hv, hR _ _ _ r r1⟩

theorem partials_follow_sources (R : partial_s → partial_s → Prop) (hR : ∀ v, R v v)
    (s s1 : sas_synthesizer_s) (h : s1.sources = s.sources) : partials_follow R s s1 := by
  have e1 : ∀ id, source_load s1 id = source_load s id := by
    intro id
    unfold source_load
    rw [h]
  refine ⟨fun id src1 h1 => ⟨src1, by rw [← e1]; exact h1, rfl⟩, fun q v1 h1 => ⟨v1, ?_, hR v1⟩⟩
  rw [← partial_load_congr s1 s q h]
  exact h1

theorem partials_follow_store (R : partial_s → partial_s → Prop) (hR : ∀ v, R v v)
    (s s1 : sas_synthesizer_s) (p : partial_t) (v0 v : partial_s)
    (h0 : partial_load s p = .ok v0) (hv : R v0 v) (h : partial_store s p v = .ok s1) :
    partials_follow R s s1 := by
  refine ⟨?_, ?_⟩
  · intro id src1 h1
    unfold partial_store at h
    simp only [bind_ok_iff, pure, Except.pure, Except.ok.injEq] at h
    obtain ⟨src, hsrc, ts, hts, rfl⟩ := h
    rw [source_load_store] at h1
    cases hq : source_load s id with
    | error e => simp [hq, Except.map] at h1
    | ok w =>
      simp only [hq, Except.map, Except.ok.injEq] at h1
      refine ⟨w, rfl, ?_⟩
      split_ifs at h1 with hid
      · subst h1
        have e1 := source_load_id s id w hq
        have e2 := source_load_id s p.source src hsrc
        have : id = p.source := by
          simp only [] at hid
          rw [← e1, hid, e2]
        subst this
        rw [hsrc] at hq
        cases hq
        rfl
      · subst h1
        rfl
  · intro q v1 h1
    by_cases hq : q = p
    · subst hq
      rw [partial_load_store_same s s1 q v h] at h1
      cases h1
      exact ⟨v0, h0, hv⟩
    · rw [partial_load_store_other s s1 p q v h hq] at h1
      exact ⟨v1, h1, hR v1⟩

theorem all_young_unlinked_follow (R : partial_s → partial_s → Prop)
    (hR : ∀ v v1, R v v1 → v1.state = v.state ∧ (v1.link = none → v.link = none))
    (s s1 : sas_synthesizer_s) (h : partials_follow R s s1) (hY : all_young_unlinked s) :
    all_young_unlinked s1 := by
  intro id src1 h1
  obtain ⟨src, hs, e⟩ := h.1 id src1 h1
  have ha : src1.active_tracks = src.active_tracks := congrArg (fun x => x.active_tracks) e
  obtain ⟨y0, y1⟩ := hY id src hs
  refine ⟨by rw [ha]; exact y0, ?_⟩
  intro i p hi hp hl
  obtain ⟨v, hv, r⟩ := h.2 ⟨id, i⟩ p ((partial_load_iff s1 ⟨id, i⟩ p).mpr ⟨src1, h1, hp⟩)
  obtain ⟨src', hs', hv'⟩ := (partial_load_iff s ⟨id, i⟩ v).mp hv
  simp only [] at hs' hv'
  rw [hs] at hs'
  cases hs'
  obtain ⟨r1, r2⟩ := hR v p r
  rw [r1]
  exact y1 i v (by rw [← ha]; exact hi) hv' (r2 hl)

theorem relinked_trans (a b d : partial_s) (h1 : relinked a b) (h2 : relinked b d) :
    relinked a d := by
  rcases h1 with rfl | ⟨l, rfl⟩
  · exact h2
  · rcases h2 with rfl | ⟨l2, rfl⟩
    · exact Or.inr ⟨l, rfl⟩
    · exact Or.inr ⟨l2, rfl⟩

theorem compact_track_follow (j : Nat) (t t1 : tracks_state)
    (h : compact_track j t = .ok t1) : partials_follow relinked t.s t1.s := by
  unfold compact_track at h
  simp only [bind_ok_iff] at h
  obtain ⟨cell, -, h⟩ := h
  cases cell with
  | none =>
    simp only [pure, Except.pure, Except.ok.injEq] at h
    subst h
    exact partials_follow_refl _ (fun _ => Or.inl rfl) _
  | some p =>
    simp only [bind_ok_iff] at h
    obtain ⟨v, hv, h⟩ := h
    have key : ∀ s1 : sas_synthesizer_s, s1.sources = t.s.sources →
        (∃ tr s2, partial_store { s1 with tracks := tr } p { v with link := some t.dst } = .ok s2 ∧
          t1.s = s2) → partials_follow relinked t.s t1.s := by
      intro s1 e1 ⟨tr, s2, hs2, e2⟩
      rw [e2]
      have f1 : partials_follow relinked t.s { s1 with tracks := tr } :=
        partials_follow_sources _ (fun _ => Or.inl rfl) _ _ e1
      have hv2 : partial_load { s1 with tracks := tr } p = .ok v :=
        (partial_load_congr _ t.s p e1).trans hv
      exact partials_follow_trans _ relinked_trans _ _ _ f1
        (partials_follow_store _ (fun _ => Or.inl rfl) _ _ p v _ hv2 (Or.inr ⟨_, rfl⟩) hs2)
    split_ifs at h with h1 h2
    · simp only [bind_ok_iff] at h
      obtain ⟨y, hy, -⟩ := h
      cases hy
    · simp only [bind_ok_iff, pure, Except.pure, Except.ok.injEq] at h
      obtain ⟨t2, -, y, rfl, tr, -, s2, hs2, rfl⟩ := h
      exact key { t.s with tracks2 := t2, audible_tracks := t.s.audible_tracks + 1 } rfl
        ⟨tr, s2, hs2, rfl⟩
    · simp only [bind_ok_iff, pure, Except.pure, Except.ok.injEq] at h
      obtain ⟨y, rfl, tr, -, s2, hs2, rfl⟩ := h
      exact key t.s rfl ⟨tr, s2, hs2, rfl⟩

theorem update_tracks_follow (c : libc) (s s1 : sas_synthesizer_s)
    (h : update_tracks c s = .ok s1) : partials_follow relinked s s1 := by
  unfold update_tracks at h
  simp only [bind_ok_iff, pure, Except.pure, Except.ok.injEq] at h
  obtain ⟨st, hst, rfl⟩ := h
  have k : partials_follow relinked s st.s := by
    refine for_loop_preserves _ (fun _ t => partials_follow relinked s t.s) _ _ _ _ ?_ hst
      (partials_follow_sources _ (fun _ => Or.inl rfl) _ _ rfl)
    intro j t t1 _ _ hb ht
    exact partials_follow_trans _ relinked_trans _ _ _ ht (compact_track_follow j t t1 hb)
  exact partials_follow_trans _ relinked_trans _ _ _ k
    (partials_follow_sources _ (fun _ => Or.inl rfl) _ _ rfl)

theorem mask_track_follow (c : libc) (i : Nat) (t t1 : globals × sas_synthesizer_s)
    (h : mask_track c i t = .ok t1) : partials_follow only_newest_amplitude t.2 t1.2 := by
  unfold mask_track at h
  simp only [bind_ok_iff] at h
  obtain ⟨cell, -, h⟩ := h
  cases cell with
  | none => cases h
  | some p =>
    simp only [bind_ok_iff] at h
    obtain ⟨⟨ga, sa, r⟩, hadd, h⟩ := h
    have e1 := (add_partial_to_mask_fields c t.1 ga t.2 sa p r hadd).1
    have f1 : partials_follow only_newest_amplitude t.2 sa :=
      partials_follow_sources _ only_newest_refl _ _ e1
    refine partials_follow_trans _ only_newest_trans _ _ _ f1 ?_
    unfold mark_masked at h
    simp only [] at h
    split_ifs at h with hr
    · simp only [bind_ok_iff, pure, Except.pure, Except.ok.injEq] at h
      obtain ⟨v0, hv0, s2, hs2, rfl⟩ := h
      have f2 : partials_follow only_newest_amplitude sa
          { sa with masked_tracks := sa.masked_tracks + 1 } :=
        partials_follow_sources _ only_newest_refl _ _ rfl
      exact partials_follow_trans _ only_newest_trans _ _ _ f2
        (partials_follow_store _ only_newest_refl _ _ p v0 _ hv0 ⟨rfl, Or.inr rfl⟩ hs2)
    · simp only [Except.ok.injEq] at h
      subst h
      exact partials_follow_refl _ only_newest_refl _

theorem update_mask_follow (c : libc) (g g1 : globals) (s s1 : sas_synthesizer_s)
    (h : update_mask c g s = .ok (g1, s1)) : partials_follow only_newest_amplitude s s1 := by
  unfold update_mask at h
  simp only [bind_ok_iff, pure, Except.pure, Except.ok.injEq, Prod.mk.injEq] at h
  obtain ⟨s0, hreset, ⟨g2, s2⟩, hloop, -, rfl⟩ := h
  have f0 : partials_follow only_newest_amplitude s { s0 with masked_tracks := 0 } :=
    partials_follow_sources _ only_newest_refl _ _ (reset_mask_fields s s0 hreset).1
  have k : partials_follow only_newest_amplitude s s2 := by
    refine for_loop_preserves _ (fun _ (t : globals × sas_synthesizer_s) =>
      partials_follow only_newest_amplitude s t.2) _ _ _ _ ?_ hloop f0
    intro j t t1 _ _ hb ht
    exact partials_follow_trans _ only_newest_trans _ _ _ ht (mask_track_follow c j t t1 hb)
  exact partials_follow_trans _ only_newest_trans _ _ _ k
    (partials_follow_sources _ only_newest_refl _ _ rfl)

theorem rotated_trans (a b d : partial_s) (h1 : rotated a b) (h2 : rotated b d) :
    rotated a d := by
  unfold rotated at *
  exact h2.trans h1

theorem synthesize_steps_rotated (c : libc) (l_ratio r_ratio : ℚ) (inta intf : Nat → ℚ)
    (n i : Nat) (st st1 : partial_s × List ℚ)
    (h : synthesize_steps c l_ratio r_ratio inta intf n i st = .ok st1) :
    rotated st.1 st1.1 := by
  unfold synthesize_steps at h
  refine for_loop_preserves _ (fun _ (t : partial_s × List ℚ) => rotated st.1 t.1) _ _ _ _ ?_ h
    rfl
  intro j t t1 _ _ hb ht
  refine rotated_trans _ _ _ ht ?_
  unfold synthesize_step at hb
  simp only [] at hb
  split_ifs at hb with hc
  · cases hb
    rfl
  · unfold partial_forward_synthesis at hb
    simp only [bind_ok_iff, pure, Except.pure, Except.ok.injEq] at hb
    obtain ⟨os, -, rfl⟩ := hb
    rfl

theorem synthesize_track_follow (c : libc) (i : Nat) (t t1 : sas_synthesizer_s × List ℚ)
    (h : synthesize_track c i t = .ok t1) : partials_follow rotated t.1 t1.1 := by
  unfold synthesize_track at h
  simp only [bind_ok_iff] at h
  obtain ⟨cell, -, h⟩ := h
  cases cell with
  | none => cases h
  | some p =>
    simp only [bind_ok_iff, pure, Except.pure, Except.ok.injEq] at h
    obtain ⟨v, hv, src, -, ⟨v2, b2⟩, hsteps, s2, hs2, rfl⟩ := h
    exact partials_follow_store rotated (fun _ => rfl) _ _ p v v2 hv
      (synthesize_steps_rotated c _ _ _ _ _ _ _ _ hsteps) hs2

theorem synthesis_follow (c : libc) (n : Nat) (t t1 : sas_synthesizer_s × List ℚ)
    (h : for_loop (synthesize_track c) n 0 t = .ok t1) : partials_follow rotated t.1 t1.1 := by
  refine for_loop_preserves _ (fun _ (x : sas_synthesizer_s × List ℚ) =>
    partials_follow rotated t.1 x.1) _ _ _ _ ?_ h (partials_follow_refl rotated (fun _ => rfl) _)
  intro j x x1 _ _ hb hx
  exact partials_follow_trans _ rotated_trans _ _ _ hx (synthesize_track_follow c j x x1 hb)

theorem young_unlinked_scan (c : libc) (g : globals) (s : sas_synthesizer_s)
    (src : sas_source_s) (r : scan_result) (h : harmonic_scan c g s src = .ok r)
    (hY : young_unlinked src) :
    young_unlinked r.source ∧ 0 ≤ r.active ∧ r.active ≤ r.source.active_tracks ∧
      (r.active = r.source.active_tracks ∨ r.harmonics ≤ r.active) ∧ r.source.id = src.id := by
  obtain ⟨hid, -, -, -, hact, -, -, hmap, hH, -, hcase⟩ := harmonic_scan_fields c g s src r h
  obtain ⟨y0, y1⟩ := hY
  refine ⟨⟨by rw [hact]; exact y0, ?_⟩, ?_, ?_, ?_, hid⟩
  · intro i p hi hp hl
    have hm := congrArg (fun l => l[i]?) hmap
    simp only [List.getElem?_map, hp, Option.map_some'] at hm
    cases hq : src.tracks[i]? with
    | none => simp [hq] at hm
    | some q =>
      simp only [hq, Option.map_some', Option.some.injEq] at hm
      have e1 : p.state = q.state := congrArg (fun x => x.state) hm
      have e2 : p.link = q.link := congrArg (fun x => x.link) hm
      rw [e1]
      exact y1 i q (by rw [← hact]; exact hi) hq (by rw [← e2]; exact hl)
  · rcases hcase with e | ⟨-, e⟩ | ⟨-, e⟩
    · rw [e]
      unfold MIN
      split_ifs <;> omega
    · omega
    · omega
  · rcases hcase with e | ⟨-, e⟩ | ⟨-, e⟩
    · rw [e, hact]
      unfold MIN
      split_ifs <;> omega
    · omega
    · omega
  · rcases hcase with e | ⟨e0, e⟩ | ⟨-, e⟩
    · rw [e, hact]
      unfold MIN
      split_ifs with hlt
      · exact Or.inl rfl
      · exact Or.inr (le_refl _)
    · exact Or.inr (by omega)
    · exact Or.inl (by rw [e, hact])

theorem find_filter_some (l : List sas_source_s) (id q : Nat) (w : sas_source_s)
    (h : (l.filter (fun x => decide (x.id ≠ id))).find? (fun x => decide (x.id = q)) = some w) :
    l.find? (fun x => decide (x.id = q)) = some w := by
  have hw := List.find?_some h
  have hmem := List.mem_of_find?_eq_some h
  have hne : w.id ≠ id := by simpa using (List.mem_filter.mp hmem).2
  have hqid : q ≠ id := by
    have : w.id = q := by simpa using hw
    rw [← this]
    exact hne
  induction l with
  | nil => simp at h
  | cons x xs ih =>
    by_cases hx : x.id = id
    · have hxq : ¬ x.id = q := by
        rw [hx]
        exact Ne.symm hqid
      rw [List.filter_cons_of_neg (by simpa using hx)] at h hmem
      rw [List.find?_cons_of_neg _ (by simpa using hxq)]
      exact ih h hmem
    · rw [List.filter_cons_of_pos (by simpa using hx)] at h hmem
      by_cases hxq : x.id = q
      · rw [List.find?_cons_of_pos _ (by simpa using hxq)] at h ⊢
        exact h
      · rw [List.find?_cons_of_neg _ (by simpa using hxq)] at h ⊢
        have hmem2 : w ∈ xs.filter (fun x => decide (x.id ≠ id)) := List.mem_of_find?_eq_some h
        exact ih h hmem2

theorem source_load_filter (s s2 : sas_synthesizer_s) (id q : Nat) (v : sas_source_s)
    (h : s2.sources = s.sources.filter (fun x => decide (x.id ≠ id)))
    (hq : source_load s2 q = .ok v) : source_load s q = .ok v := by
  unfold source_load at hq ⊢
  rw [h] at hq
  cases hf : (s.sources.filter (fun x => decide (x.id ≠ id))).find?
      (fun x => decide (x.id = q)) with
  | none =>
    rw [hf] at hq
    cases hq
  | some w =>
    rw [hf] at hq
    rw [find_filter_some _ _ _ _ hf]
    exact hq

theorem update_source_young (c : libc) (g g2 : globals) (s s2 : sas_synthesizer_s) (id : Nat)
    (hY : all_young_unlinked s) (h : update_source c g s id = .ok (g2, s2))
    (hskip : ∀ src r, source_load s id = .ok src → harmonic_scan c g s src = .ok r →
      ¬ insertion_skipped c r.g s r.source r.active) :
    all_young_unlinked s2 := by
  obtain ⟨src, r, st, hsrc, hr, hst, hcase⟩ := update_source_cases c g g2 s s2 id h
  obtain ⟨yr, a0, a1, a2, hid⟩ := young_unlinked_scan c g s src r hr (hY id src hsrc)
  have ystep := young_unlinked_step c r.g s r.source r.harmonics r.active st yr hst a0 a1 a2
    (hskip src r hsrc hr)
  have hsources : st.s.sources = s.sources :=
    (loops_frame_synth _ _ (update_partials_frame c r.g s r.source r.harmonics r.active st hst)).1
  have hstid : (step_source st).id = id := by
    rw [(step_source_fields st).1,
      (loops_frame_source _ _ (update_partials_frame c r.g s r.source r.harmonics r.active st
        hst)).1]
    exact hid.trans (source_load_id s id src hsrc)
  have hload : ∀ q, source_load st.s q = source_load s q := by
    intro q
    unfold source_load
    rw [hsources]
  have key : all_young_unlinked (source_store st.s (step_source st)) := by
    intro q v hv
    by_cases hq : q = id
    · subst hq
      have hself := source_load_store_self st.s src (step_source st) q
        ((hload q).trans hsrc) (hstid.trans (source_load_id s q src hsrc).symm)
      rw [hself] at hv
      cases hv
      exact ystep
    · rw [source_load_store_ne _ _ _ (by rw [hstid]; exact hq), hload] at hv
      exact hY q v hv
  rcases hcase with ⟨-, -, hfree⟩ | ⟨-, -, rfl⟩
  · intro q v hv
    cases hl : source_load (source_store st.s (step_source st)) (step_source st).id with
    | error e =>
      obtain ⟨-, rfl⟩ := (delayed_free_effect c _ _ _ _ _ hfree).1 e hl
      exact key q v hv
    | ok w =>
      have hfilter := ((delayed_free_effect c _ _ _ _ _ hfree).2 w hl).1
      exact key q v (source_load_filter _ _ _ _ _ hfilter hv)
  · exact key

theorem source_load_cons (l : List sas_source_s) (x : sas_source_s) (q : Nat)
    (v : sas_source_s)
    (h : (match (x :: l).find? (fun y => decide (y.id = q)) with
      | some w => Except.ok w
      | none => Except.error fault.invalid_access) = .ok v) :
    v = x ∨ (match l.find? (fun y => decide (y.id = q)) with
      | some w => Except.ok w
      | none => Except.error fault.invalid_access) = .ok v := by
  by_cases hx : x.id = q
  · rw [List.find?_cons_of_pos _ (by simpa using hx)] at h
    simp only [Except.ok.injEq] at h
    exact Or.inl h.symm
  · rw [List.find?_cons_of_neg _ (by simpa using hx)] at h
    exact Or.inr h

theorem source_make_young (c : libc) (g g1 : globals) (s s1 : sas_synthesizer_s)
    (pos : sas_position_s) (update : sas_update_callback_t) (call_data id : Nat)
    (hY : all_young_unlinked s)
    (h : sas_synthesizer_source_make c g s pos update call_data = .ok (g1, s1, id)) :
    all_young_unlinked s1 := by
  unfold sas_synthesizer_source_make at h
  split_ifs at h with h0
  simp only [bind_ok_iff] at h
  obtain ⟨r, -, h⟩ := h
  simp only [pure, Except.pure, Except.ok.injEq, Prod.mk.injEq] at h
  obtain ⟨-, rfl, -⟩ := h
  intro q v hv
  rcases source_load_cons _ _ q v hv with rfl | hv2
  · exact ⟨le_refl _, fun i p hi => absurd hi (by simp)⟩
  · exact hY q v hv2

theorem source_free_young (c : libc) (g g1 : globals) (s s1 : sas_synthesizer_s) (id : Nat)
    (hY : all_young_unlinked s)
    (h : sas_synthesizer_source_free c g s id = .ok (g1, s1)) :
    all_young_unlinked s1 := by
  unfold sas_synthesizer_source_free at h
  simp only [bind_ok_iff] at h
  obtain ⟨src, hsrc, h⟩ := h
  split_ifs at h with h1 h2
  · intro q v hv
    have hfilter := ((delayed_free_effect c _ _ _ _ _ h).2 src hsrc).1
    exact hY q v (source_load_filter _ _ _ _ _ hfilter hv)
  · simp only [bind_ok_iff, pure, Except.pure, Except.ok.injEq, Prod.mk.injEq] at h
    obtain ⟨frames, -, -, rfl⟩ := h
    intro q v hv
    by_cases hq : q = id
    · subst hq
      have hself := source_load_store_self s src
        { src with propagated_frames := frames, delayed_free := 1 } q hsrc rfl
      rw [hself] at hv
      cases hv
      exact hY q src hsrc
    · have hne := source_load_store_ne s
        { src with propagated_frames := frames, delayed_free := 1 } q (by
          show q ≠ src.id
          rw [source_load_id s id src hsrc]
          exact hq)
      rw [hne] at hv
      exact hY q v hv

/-- C21: the fatal branch "unlinked adult harmonic" is not reachable from
freshly created sources while no insertion is skipped.  `all_young_unlinked`
(every unlinked partial below the number of active harmonics of its source has
state 0 or 1) holds once `sas_synthesizer_source_make` has added a source to a
synthesizer where it holds; where it holds, the track loops of `update_source`
do not end in `exit (EXIT_FAILURE)`, for any source and whatever the callback
delivers; and it holds again after `update_source` unless the first loop
skipped an insertion for lack of capacity, after `update_tracks`, after
`update_mask`, after the synthesis loop of `sas_synthesizer_synthesize` and
after `sas_synthesizer_source_free`. -/
theorem unlinked_adult_unreachable (c : libc) (g : globals) (s : sas_synthesizer_s)
    (hY : all_young_unlinked s) :
    (∀ id src r, source_load s id = .ok src → harmonic_scan c g s src = .ok r →
      update_partials c r.g s r.source r.harmonics r.active ≠ .error .exit_failure) ∧
    (∀ id g2 s2, update_source c g s id = .ok (g2, s2) →
      (∀ src r, source_load s id = .ok src → harmonic_scan c g s src = .ok r →
        ¬ insertion_skipped c r.g s r.source r.active) → all_young_unlinked s2) ∧
    (∀ s1, update_tracks c s = .ok s1 → all_young_unlinked s1) ∧
    (∀ g1 s1, update_mask c g s = .ok (g1, s1) → all_young_unlinked s1) ∧
    (∀ n buffer s1 buffer1, for_loop (synthesize_track c) n 0 (s, buffer) = .ok (s1, buffer1) →
      all_young_unlinked s1) ∧
    (∀ pos update call_data g1 s1 id,
      sas_synthesizer_source_make c g s pos update call_data = .ok (g1, s1, id) →
      all_young_unlinked s1) ∧
    (∀ id g1 s1, sas_synthesizer_source_free c g s id = .ok (g1, s1) →
      all_young_unlinked s1) := by
  refine ⟨?_, ?_, ?_, ?_, ?_, ?_, ?_⟩
  · intro id src r hsrc hr
    obtain ⟨yr, -, a1, -, -⟩ := young_unlinked_scan c g s src r hr (hY id src hsrc)
    exact young_unlinked_safe c r.g s r.source r.harmonics r.active yr a1
  · intro id g2 s2 h hskip
    exact update_source_young c g g2 s s2 id hY h hskip
  · intro s1 h
    refine all_young_unlinked_follow relinked ?_ s s1 (update_tracks_follow c s s1 h) hY
    intro v v1 hr
    rcases hr with rfl | ⟨l, rfl⟩
    · exact ⟨rfl, fun hl => hl⟩
    · exact ⟨rfl, fun hl => by cases hl⟩
  · intro g1 s1 h
    refine all_young_unlinked_follow only_newest_amplitude ?_ s s1
      (update_mask_follow c g g1 s s1 h) hY
    intro v v1 hr
    rw [hr.1]
    exact ⟨rfl, fun hl => hl⟩
  · intro n buffer s1 buffer1 h
    refine all_young_unlinked_follow rotated ?_ s s1 (synthesis_follow c n _ _ h) hY
    intro v v1 hr
    exact ⟨congrArg (fun x => x.state) hr, fun hl =>
      (congrArg (fun x => x.link) hr).symm.trans hl⟩
  · intro pos update call_data g1 s1 id h
    exact source_make_young c g g1 s s1 pos update call_data id hY h
  · intro id g1 s1 h
    exact source_free_young c g g1 s s1 id hY h

/-- Witness for C21: `empty_synth`, which has no source, and the first source
made on it. -/
theorem unlinked_adult_unreachable_witness :
    all_young_unlinked empty_synth ∧
      ∃ g1 s1 id, sas_synthesizer_source_make libc_rational globals_start empty_synth ⟨0, 0, 0⟩
          decline 1 = .ok (g1, s1, id) ∧ all_young_unlinked s1 := by
  have h0 : all_young_unlinked empty_synth := by
    intro id src h
    cases h
  obtain ⟨r, hr⟩ := exists_of_isOk (sas_synthesizer_source_make libc_rational globals_start
    empty_synth ⟨0, 0, 0⟩ decline 1) (by decide!)
  obtain ⟨g1, s1, id⟩ := r
  exact ⟨h0, g1, s1, id, hr,
    (unlinked_adult_unreachable libc_rational globals_start empty_synth h0).2.2.2.2.2.1
      ⟨0, 0, 0⟩ decline 1 g1 s1 id hr⟩

/-! ## A skipped insertion -/

theorem continuing_harmonic_adult (c : libc) (i : Nat) (st : update_state) (p : partial_s)
    (hp : st.source.tracks[i]? = some p) (hl : p.link = none) (h1 : p.state + 1 ≠ 1)
    (h2 : p.state + 1 ≠ 2) : continuing_harmonic c i st = .error .exit_failure := by
  unfold continuing_harmonic
  rw [(array_get_eq_ok _ _ _).mpr hp]
  simp only [bind, Except.bind, hl, ne_eq, not_true_eq_false, if_false, h1, h2]

theorem first_loop_capacity (c : libc) (st0 : update_state) (n : Nat) (sa : update_state)
    (h : for_loop (continuing_harmonic c) n 0 st0 = .ok sa) :
    sa.s.allocated = st0.s.allocated ∧ st0.s.active_tracks ≤ sa.s.active_tracks := by
  refine for_loop_preserves _ (fun _ t =>
    t.s.allocated = st0.s.allocated ∧ st0.s.active_tracks ≤ t.s.active_tracks) _ _ _ _ ?_ h
    ⟨rfl, le_refl _⟩
  intro j t t1 _ _ hb ht
  obtain ⟨p, p1, -, -, -, -, -, -, -, -, hcase⟩ := continuing_harmonic_step c j t t1 hb
  rcases hcase with ⟨-, -, -, -, hs, -, -⟩ | ⟨-, -, -, -, -, -, -, -, hs, -, -⟩
  · rw [hs]
    exact ht
  · rw [hs]
    exact ⟨ht.1, by show _ ≤ t.s.active_tracks + 1; omega⟩

theorem update_partials_adult (c : libc) (g : globals) (s : sas_synthesizer_s)
    (source : sas_source_s) (harmonics active : Int) (i : Nat) (p : partial_s)
    (sa : update_state) (hp : source.tracks[i]? = some p) (hl : p.link = none)
    (h1 : p.state + 1 ≠ 1) (h2 : p.state + 1 ≠ 2) (hi : (i : Int) < active)
    (hrun : for_loop (continuing_harmonic c) i 0
      { g := g, s := s, source := source, birth := 0, death := 0, links := 0 } = .ok sa) :
    update_partials c g s source harmonics active = .error .exit_failure := by
  obtain ⟨n1, n2, n3, n4, hn⟩ : ∃ n1 n2 n3 n4,
    loop_counts source harmonics active = (n1, n2, n3, n4) := ⟨_, _, _, _, rfl⟩
  obtain ⟨e1, -, -, -⟩ := loop_counts_eq _ _ _ _ _ _ _ hn
  have hu := loop_untouched _ (continuing_untouched c) _ _ _ _ hrun i (by omega)
  have hb := continuing_harmonic_adult c i sa p (hu.trans hp) hl h1 h2
  have hloop : for_loop (continuing_harmonic c) n1 0
      { g := g, s := s, source := source, birth := 0, death := 0, links := 0 } =
      .error .exit_failure := by
    have e : n1 = i + (1 + (n1 - (i + 1))) := by omega
    rw [e, for_loop_split, hrun]
    show for_loop (continuing_harmonic c) (1 + (n1 - (i + 1))) (0 + i) sa = _
    rw [for_loop_split, Nat.zero_add]
    simp only [for_loop, hb, Except.bind]
  rw [update_partials_loops, hn]
  simp only [hloop, Except.bind]

/-- C4 fails in the block after the skipped insertion.  When the active-track
array is full at the start of the track loops (`allocated <= active_tracks`), a
continuing harmonic that is unlinked with state 1 is not inserted and is left
unlinked with state 2, without any other effect on it; and in any later run of
the track loops in which this partial is still unlinked with state 2 and
eligible, the first loop ends in `exit (EXIT_FAILURE)` when it reaches it. -/
theorem capacity_skip_fatal (c : libc) (g : globals) (s : sas_synthesizer_s)
    (source : sas_source_s) (harmonics active : Int) (st1 : update_state) (i : Nat)
    (p : partial_s) (h : update_partials c g s source harmonics active = .ok st1)
    (hp : source.tracks[i]? = some p) (hl : p.link = none) (hs : p.state = 1)
    (hi : (i : Int) < active) (hfull : s.allocated ≤ s.active_tracks) :
    st1.source.tracks[i]? = some { p with state := 2 } ∧
      ∀ (c2 : libc) (g2 : globals) (s2 : sas_synthesizer_s) (source2 : sas_source_s)
        (harmonics2 active2 : Int) (q : partial_s) (sa : update_state),
        source2.tracks[i]? = some q → q.link = none → q.state = 2 → (i : Int) < active2 →
        for_loop (continuing_harmonic c2) i 0
          { g := g2, s := s2, source := source2, birth := 0, death := 0, links := 0 } = .ok sa →
        update_partials c2 g2 s2 source2 harmonics2 active2 = .error .exit_failure := by
  refine ⟨?_, ?_⟩
  · obtain ⟨sa, sb, hrun, hb, ha, hfin⟩ := update_partials_continuing c g s source harmonics
      active st1 i h hi
    obtain ⟨cap1, cap2⟩ := first_loop_capacity c _ i sa hrun
    simp only [] at cap1 cap2
    rw [hfin]
    unfold continuing_harmonic at hb
    rw [(array_get_eq_ok _ _ _).mpr (ha.trans hp)] at hb
    have hfull2 : ¬ sa.s.active_tracks < sa.s.allocated := by omega
    simp only [bind, Except.bind, hl, ne_eq, not_true_eq_false, if_false, hs, hfull2] at hb
    norm_num at hb
    have hlt : i < sa.source.tracks.length :=
      (List.getElem?_eq_some_iff.mp (ha.trans hp)).1
    rw [array_set_ok _ _ _ hlt] at hb
    simp only [pure, Except.pure, Except.ok.injEq] at hb
    subst hb
    simp only [List.getElem?_set_self hlt, Option.some.injEq]
    rw [hl]
  · intro c2 g2 s2 source2 harmonics2 active2 q sa hq hql hqs hi2 hrun
    exact update_partials_adult c2 g2 s2 source2 harmonics2 active2 i q sa hq hql
      (by rw [hqs]; decide) (by rw [hqs]; decide) hi2 hrun

/-- Witness for C4: the young partial of `full_synth`, whose four slots are
taken: the block leaves it unlinked with state 2, and the track loops of the
next block end in `exit (EXIT_FAILURE)`. -/
theorem capacity_skip_fatal_witness :
    ∃ st1, update_partials libc_rational globals_start full_synth
        (small_source decline [young_track] 1 0) 1 1 = .ok st1 ∧
      st1.source.tracks[0]? = some { young_track with state := 2 } ∧
      update_partials libc_rational globals_start full_synth
        (small_source decline [{ young_track with state := 2 }] 1 0) 1 1 =
        .error .exit_failure := by
  obtain ⟨st1, h⟩ := exists_of_isOk (update_partials libc_rational globals_start full_synth
    (small_source decline [young_track] 1 0) 1 1) (by decide!)
  obtain ⟨k1, k2⟩ := capacity_skip_fatal libc_rational globals_start full_synth
    (small_source decline [young_track] 1 0) 1 1 st1 0 young_track h rfl rfl rfl (by decide)
    (by decide)
  exact ⟨st1, h, k1, k2 libc_rational globals_start full_synth
    (small_source decline [{ young_track with state := 2 }] 1 0) 1 1
    { young_track with state := 2 } _ rfl rfl rfl (by decide) rfl⟩

/-! ## The schedule of a harmonic -/

/-- What the four track loops do to the partial `i` when it is in the range of
the third loop: the state counter is set to 0 and the target amplitude to
`BELOW_MIN_AMP`, the two histories are shifted, and the link is kept. -/
theorem update_partials_death (c : libc) (g : globals) (s : sas_synthesizer_s)
    (source : sas_source_s) (harmonics active : Int) (st1 : update_state) (i : Nat)
    (p : partial_s) (h : update_partials c g s source harmonics active = .ok st1)
    (hp : source.tracks[i]? = some p) (h0 : 0 ≤ active)
    (hi0 : active ≤ (i : Int)) (hi1 : harmonics ≤ (i : Int))
    (hi2 : (i : Int) < source.active_tracks) :
    st1.source.tracks[i]? = some { p with
      state := 0
      a := BELOW_MIN_AMP
      aenv := shift_envelope p.aenv BELOW_MIN_AMP
      fenv := shift_envelope p.fenv p.f } := by
  obtain ⟨n1, n2, n3, n4, hn⟩ : ∃ n1 n2 n3 n4,
    loop_counts source harmonics active = (n1, n2, n3, n4) := ⟨_, _, _, _, rfl⟩
  obtain ⟨e1, e2, e3, e4⟩ := loop_counts_eq _ _ _ _ _ _ _ hn
  obtain ⟨t1, t2, t3, h1, h2, h3, h4⟩ := update_partials_ok c g s source harmonics active st1
    n1 n2 n3 n4 hn h
  obtain ⟨sa, sb, ha, hb, hrest⟩ := loop_at _ _ _ _ _ h3 i (by omega) (by omega)
  have u0 := loop_untouched _ (continuing_untouched c) _ _ _ _ h1 i (by omega)
  have u1 := loop_untouched _ birth_untouched _ _ _ _ h2 i (by omega)
  have ua := loop_untouched _ death_untouched _ _ _ _ ha i (by omega)
  have u3 := loop_untouched _ death_untouched _ _ _ _ hrest i (by omega)
  have u4 := loop_untouched _ dying_untouched _ _ _ _ h4 i (by omega)
  obtain ⟨q, hq, rfl⟩ := death_of_harmonic_step i sa sb hb
  rw [ua, u1, u0, hp] at hq
  cases hq
  rw [u4, u3]
  exact List.getElem?_set_self (List.getElem?_eq_some_iff.mp (by rw [ua, u1, u0]; exact hp)).1

/-- What the four track loops do to the partial `i` when it is in the range of
the last loop: the state counter is decremented; when it reaches -2 the
partial is unlinked and its slot is cleared, otherwise the link is kept and
the two histories are shifted. -/
theorem update_partials_dying (c : libc) (g : globals) (s : sas_synthesizer_s)
    (source : sas_source_s) (harmonics active : Int) (st1 : update_state) (i : Nat)
    (p : partial_s) (h : update_partials c g s source harmonics active = .ok st1)
    (hp : source.tracks[i]? = some p) (h0 : 0 ≤ active)
    (hi0 : active ≤ (i : Int)) (hi1 : harmonics ≤ (i : Int))
    (hi2 : source.active_tracks ≤ (i : Int)) (hi3 : (i : Int) < source.linked_tracks) :
    (p.state - 1 = -2 ∧ p.link ≠ none ∧
        st1.source.tracks[i]? = some { p with state := p.state - 1, link := none }) ∨
      (p.state - 1 ≠ -2 ∧
        st1.source.tracks[i]? = some { p with
          state := p.state - 1
          aenv := shift_envelope p.aenv (2 * p.aenv.x3 - p.aenv.x2)
          fenv := shift_envelope p.fenv p.f }) := by
  obtain ⟨n1, n2, n3, n4, hn⟩ : ∃ n1 n2 n3 n4,
    loop_counts source harmonics active = (n1, n2, n3, n4) := ⟨_, _, _, _, rfl⟩
  obtain ⟨e1, e2, e3, e4⟩ := loop_counts_eq _ _ _ _ _ _ _ hn
  obtain ⟨t1, t2, t3, h1, h2, h3, h4⟩ := update_partials_ok c g s source harmonics active st1
    n1 n2 n3 n4 hn h
  obtain ⟨sa, sb, ha, hb, hrest⟩ := loop_at _ _ _ _ _ h4 i (by omega) (by omega)
  have u0 := loop_untouched _ (continuing_untouched c) _ _ _ _ h1 i (by omega)
  have u1 := loop_untouched _ birth_untouched _ _ _ _ h2 i (by omega)
  have u2 := loop_untouched _ death_untouched _ _ _ _ h3 i (by omega)
  have ua := loop_untouched _ dying_untouched _ _ _ _ ha i (by omega)
  have u4 := loop_untouched _ dying_untouched _ _ _ _ hrest i (by omega)
  obtain ⟨q, hq, hcase⟩ := dying_harmonic_step i sa sb hb
  have hlt : i < sa.source.tracks.length := (List.getElem?_eq_some_iff.mp hq).1
  rw [ua, u2, u1, u0, hp] at hq
  cases hq
  rcases hcase with ⟨hs, l, hl, -, rfl⟩ | ⟨hs, rfl⟩
  · refine Or.inl ⟨hs, by rw [hl]; simp, ?_⟩
    rw [u4]
    exact List.getElem?_set_self hlt
  · refine Or.inr ⟨hs, ?_⟩
    rw [u4]
    exact List.getElem?_set_self hlt

/-- The four track loops leave alone a partial that is in the range of none of
them. -/
theorem update_partials_rest (c : libc) (g : globals) (s : sas_synthesizer_s)
    (source : sas_source_s) (harmonics active : Int) (st1 : update_state) (i : Nat)
    (h : update_partials c g s source harmonics active = .ok st1)
    (hi0 : active ≤ (i : Int)) (hi1 : harmonics ≤ (i : Int))
    (hi2 : source.active_tracks ≤ (i : Int)) (hi3 : source.linked_tracks ≤ (i : Int)) :
    st1.source.tracks[i]? = source.tracks[i]? := by
  obtain ⟨n1, n2, n3, n4, hn⟩ : ∃ n1 n2 n3 n4,
    loop_counts source harmonics active = (n1, n2, n3, n4) := ⟨_, _, _, _, rfl⟩
  obtain ⟨e1, e2, e3, e4⟩ := loop_counts_eq _ _ _ _ _ _ _ hn
  obtain ⟨t1, t2, t3, h1, h2, h3, h4⟩ := update_partials_ok c g s source harmonics active st1
    n1 n2 n3 n4 hn h
  have u0 := loop_untouched _ (continuing_untouched c) _ _ _ _ h1 i (by omega)
  have u1 := loop_untouched _ birth_untouched _ _ _ _ h2 i (by omega)
  have u2 := loop_untouched _ death_untouched _ _ _ _ h3 i (by omega)
  have u3 := loop_untouched _ dying_untouched _ _ _ _ h4 i (by omega)
  rw [u3, u2, u1, u0]

theorem first_loop_lifecycle (c : libc) (g : globals) (s : sas_synthesizer_s)
    (source : sas_source_s) (active b d : Int) (hI : lifecycle_inv source b d) (n1 : Nat)
    (hn1 : (n1 : Int) ≤ active) (hA : active ≤ source.active_tracks)
    (hskip : ¬ insertion_skipped c g s source active) (t1 : update_state)
    (h1 : for_loop (continuing_harmonic c) n1 0
      { g := g, s := s, source := source, birth := 0, death := 0, links := 0 } = .ok t1) :
    t1.links = max 0 (min b n1 - source.linked_tracks) ∧
      ∀ (k : Nat) (q : partial_s), k < n1 → t1.source.tracks[k]? = some q →
        ∃ p, source.tracks[k]? = some p ∧ q.state = p.state + 1 ∧ q.a = p.a ∧
          (q.link ≠ none ↔ ((k : Int) < source.linked_tracks ∨ (k : Int) < b)) := by
  have key := for_loop_preserves (continuing_harmonic c) (fun j t =>
      for_loop (continuing_harmonic c) j 0
        { g := g, s := s, source := source, birth := 0, death := 0, links := 0 } = .ok t ∧
      t.links = max 0 (min b j - source.linked_tracks) ∧
      ∀ (k : Nat) (q : partial_s), k < j → t.source.tracks[k]? = some q →
        ∃ p, source.tracks[k]? = some p ∧ q.state = p.state + 1 ∧ q.a = p.a ∧
          (q.link ≠ none ↔ ((k : Int) < source.linked_tracks ∨ (k : Int) < b))) n1 0 _ t1
    (fun j t t2 _ hj hb ht => by
      obtain ⟨hrun, hlinks, hdone⟩ := ht
      have hu := loop_untouched _ (continuing_untouched c) _ _ _ _ hrun j (by omega)
      simp only [] at hu
      obtain ⟨p, p1, hp, hsrc, hst, hpa, -, -, -, -, hcase⟩ :=
        continuing_harmonic_step c j t t2 hb
      have hlt : j < t.source.tracks.length := (List.getElem?_eq_some_iff.mp hp).1
      have hp0 : source.tracks[j]? = some p := hu.symm.trans hp
      have hpre := hI.prefix_linked j p hp0
      have hl0 := hI.linked_nonneg
      refine ⟨for_loop_succ _ j _ t t2 hrun hb, ?_, ?_⟩
      · rcases hcase with ⟨hkeep, -, -, -, -, -, hl⟩ | ⟨hnone, hs2, hcap, -, -, -, -, -, -, -, hl⟩
        · rw [hl, hlinks]
          by_cases hjL : (j : Int) < source.linked_tracks
          · omega
          · have hnone : p.link = none := by
              by_contra hne
              exact hjL (hpre.mp hne)
            obtain ⟨y1, y0⟩ := hI.young j p hp0 (by omega) (by omega)
            by_cases hjb : (j : Int) < b
            · exfalso
              have hs1 := y1 hjb
              rcases hkeep with hk | hk | ⟨-, hfull⟩
              · exact hk hnone
              · rw [hs1] at hk
                exact absurd hk (by decide)
              · exact hskip ⟨j, t, p, by omega, hrun, hp, hnone, by rw [hs1]; rfl, hfull⟩
            · push_cast
              omega
        · rw [hl, hlinks]
          have hjL : ¬ (j : Int) < source.linked_tracks := fun hlt2 => (hpre.mpr hlt2) hnone
          obtain ⟨y1, y0⟩ := hI.young j p hp0 (by omega) (by omega)
          have hjb : (j : Int) < b := by
            by_contra hnb
            have hs0 := y0 (by omega)
            rw [hs0] at hs2
            exact absurd hs2 (by decide)
          push_cast
          omega
      · intro k q hk hq
        rw [hsrc] at hq
        by_cases hkj : k = j
        · subst hkj
          simp only [List.getElem?_set_self hlt, Option.some.injEq] at hq
          subst hq
          refine ⟨p, hp0, hst, hpa, ?_⟩
          rcases hcase with ⟨hkeep, hlink, -⟩ | ⟨hnone, hs2, -, -, -, hlink, -⟩
          · rw [hlink]
            constructor
            · intro hne
              exact Or.inl (hpre.mp hne)
            · intro hor
              intro hnone
              have hjL : ¬ (k : Int) < source.linked_tracks := fun hlt2 => (hpre.mpr hlt2) hnone
              rcases hor with hor | hor
              · exact hjL hor
              · obtain ⟨y1, -⟩ := hI.young k p hp0 (by omega) (by omega)
                have hs1 := y1 hor
                rcases hkeep with hk | hk | ⟨-, hfull⟩
                · exact hk hnone
                · rw [hs1] at hk
                  exact absurd hk (by decide)
                · exact hskip ⟨k, t, p, by omega, hrun, hp, hnone, by rw [hs1]; rfl, hfull⟩
          · rw [hlink]
            have hjL : ¬ (k : Int) < source.linked_tracks := fun hlt2 => (hpre.mpr hlt2) hnone
            obtain ⟨-, y0⟩ := hI.young k p hp0 (by omega) (by omega)
            have hjb : (k : Int) < b := by
              by_contra hnb
              have hs0 := y0 (by omega)
              rw [hs0] at hs2
              exact absurd hs2 (by decide)
            exact ⟨fun _ => Or.inr hjb, fun _ => by simp⟩
        · simp only [List.getElem?_set_ne (Ne.symm hkj)] at hq
          exact hdone k q (by omega) hq) h1
    ⟨rfl, by
      have := hI.linked_nonneg
      show (0 : Int) = _
      push_cast
      omega, fun k q hk => absurd hk (Nat.not_lt_zero k)⟩
  simp only [Nat.zero_add] at key
  exact ⟨key.2.1, key.2.2⟩

theorem last_loop_lifecycle (source : sas_source_s) (b d : Int) (hI : lifecycle_inv source b d)
    (e3 n4 : Nat) (hA : source.active_tracks ≤ (e3 : Int))
    (hL : n4 = 0 ∨ ((e3 + n4 : Nat) : Int) ≤ source.linked_tracks) (t3 st1 : update_state)
    (hu3 : ∀ k : Nat, e3 ≤ k → t3.source.tracks[k]? = source.tracks[k]?)
    (h4 : for_loop dying_harmonic n4 e3 t3 = .ok st1) :
    st1.links = t3.links - max 0 (((e3 + n4 : Nat) : Int) - max d e3) ∧
      ∀ (k : Nat) (q : partial_s), e3 ≤ k → k < e3 + n4 → st1.source.tracks[k]? = some q →
        ∃ p, source.tracks[k]? = some p ∧ q.state = p.state - 1 ∧
          (q.link ≠ none ↔ (k : Int) < d) := by
  have key := for_loop_preserves dying_harmonic (fun j t =>
      (∀ k : Nat, j ≤ k → t.source.tracks[k]? = source.tracks[k]?) ∧
      t.links = t3.links - max 0 ((j : Int) - max d e3) ∧
      ∀ (k : Nat) (q : partial_s), e3 ≤ k → k < j → t.source.tracks[k]? = some q →
        ∃ p, source.tracks[k]? = some p ∧ q.state = p.state - 1 ∧
          (q.link ≠ none ↔ (k : Int) < d)) n4 e3 t3 st1
    (fun j t t2 hj1 hj2 hb ht => by
      obtain ⟨hun, hlinks, hdone⟩ := ht
      obtain ⟨p, hp, hcase⟩ := dying_harmonic_step j t t2 hb
      have hlt : j < t.source.tracks.length := (List.getElem?_eq_some_iff.mp hp).1
      have hp0 : source.tracks[j]? = some p := (hun j (Nat.le_refl j)).symm.trans hp
      have hjL : (j : Int) < source.linked_tracks := by omega
      have hlinked := (hI.prefix_linked j p hp0).mpr hjL
      obtain ⟨y0, y1⟩ := hI.dying j p hp0 (by omega) hjL
      rcases hcase with ⟨hs, l, hl, -, rfl⟩ | ⟨hs, rfl⟩
      · have hjd : d ≤ (j : Int) := by
          by_contra hnd
          have := y0 (by omega)
          rw [this] at hs
          exact absurd hs (by decide)
        refine ⟨?_, ?_, ?_⟩
        · intro k hk
          simp only [List.getElem?_set_ne (show j ≠ k by omega)]
          exact hun k (by omega)
        · show t.links - 1 = _
          rw [hlinks]
          push_cast
          omega
        · intro k q hk1 hk2 hq
          by_cases hkj : k = j
          · subst hkj
            simp only [List.getElem?_set_self hlt, Option.some.injEq] at hq
            subst hq
            exact ⟨p, hp0, rfl, by simp; omega⟩
          · simp only [List.getElem?_set_ne (Ne.symm hkj)] at hq
            exact hdone k q hk1 (by omega) hq
      · have hjd : (j : Int) < d := by
          by_contra hnd
          have := y1 (by omega)
          rw [this] at hs
          exact hs (by decide)
        refine ⟨?_, ?_, ?_⟩
        · intro k hk
          simp only [List.getElem?_set_ne (show j ≠ k by omega)]
          exact hun k (by omega)
        · show t.links = _
          rw [hlinks]
          push_cast
          omega
        · intro k q hk1 hk2 hq
          by_cases hkj : k = j
          · subst hkj
            simp only [List.getElem?_set_self hlt, Option.some.injEq] at hq
            subst hq
            exact ⟨p, hp0, rfl, fun _ => hjd, fun _ => hlinked⟩
          · simp only [List.getElem?_set_ne (Ne.symm hkj)] at hq
            exact hdone k q hk1 (by omega) hq) h4
    ⟨hu3, by omega, fun k q hk1 hk2 => absurd hk2 (by omega)⟩
  exact ⟨key.2.1, key.2.2⟩

theorem middle_loops_links (n2 n3 i2 i3 : Nat) (t1 t2 t3 : update_state)
    (h2 : for_loop birth_of_harmonic n2 i2 t1 = .ok t2)
    (h3 : for_loop death_of_harmonic n3 i3 t2 = .ok t3) : t3.links = t1.links := by
  have k2 : t2.links = t1.links := by
    refine for_loop_preserves _ (fun _ t => t.links = t1.links) _ _ _ _ ?_ h2 rfl
    intro j t t' _ _ hb ht
    obtain ⟨p, -, rfl⟩ := birth_of_harmonic_step j t t' hb
    exact ht
  refine for_loop_preserves _ (fun _ t => t.links = t1.links) _ _ _ _ ?_ h3 k2
  intro j t t' _ _ hb ht
  obtain ⟨p, -, rfl⟩ := death_of_harmonic_step j t t' hb
  exact ht

/-! ## Releasing an envelope that was never kept -/

/-- C37: `sas_envelope_free` on an envelope whose counter is 0, as
`sas_envelope_make` leaves it, returns without destroying the envelope, locked
or not: the unsigned counter wraps to 2^32 - 1, which is not `<= 0`, and the
envelope stays allocated with that counter and its other fields unchanged. -/
theorem free_of_unkept_envelope (g : globals) (e : sas_envelope_t) (v : sas_envelope_s)
    (hload : envelope_load g e = .ok v) (hcount : v.refcount = 0) :
    ∃ g1, sas_envelope_free g e = .ok g1 ∧
      envelope_load g1 e = .ok { v with refcount := 2 ^ 32 - 1 } ∧
      ¬ ((2 ^ 32 - 1 : Nat) ≤ 0) := by
  have hstep := free_step_live g e v hload (by
    rw [hcount]
    intro hzero
    exact absurd hzero.1 (by decide))
  rw [hcount] at hstep
  exact ⟨_, hstep, envelope_load_store g e _ (envelope_load_lt g e v hload), by decide⟩

/-- Witness for C37: the envelope that `sas_envelope_make` has just returned is
released. -/
theorem free_of_unkept_envelope_witness :
    ∃ g1, sas_envelope_free (sas_envelope_make globals_start 100 2 [3, 5]).1 0 = .ok g1 ∧
      envelope_load g1 0 = .ok (sas_envelope_s.mk 100 2 [0, 0, 3, 5, 0, 0] (2 ^ 32 - 1) 0) := by
  obtain ⟨g1, h1, h2, -⟩ := free_of_unkept_envelope
    (sas_envelope_make globals_start 100 2 [3, 5]).1 0
    (sas_envelope_s.mk 100 2 [0, 0, 3, 5, 0, 0] 0 0) rfl rfl
  exact ⟨g1, h1, h2⟩

/-! ## The circular buffer of propagated frames -/

theorem propagated_frames_count : MAX_PROPAGATED_FRAMES = 492 := by decide!

theorem small_index_exact (e : Int) (h0 : 0 ≤ e) (h1 : e < 492) :
    double_round (e : ℚ) = e := by
  have hall : (List.range 492).all (fun n => decide (double_round ((n : Int) : ℚ) = (n : Int))) =
      true := by decide!
  rw [List.all_eq_true] at hall
  have := hall e.toNat (List.mem_range.mpr (by omega))
  rw [Int.toNat_of_nonneg h0] at this
  exact of_decide_eq_true this

theorem distance_index_sum (e : Int) (distance : ℚ) (he : 0 ≤ e) (hd : 0 ≤ distance) :
    0 ≤ double_round ((e : ℚ) + double_round (double_round (distance * 492) / 2000)) := by
  have h1 : 0 ≤ double_round (distance * 492) := double_round_nonneg _ (by positivity)
  have h2 : 0 ≤ double_round (double_round (distance * 492) / 2000) :=
    double_round_nonneg _ (by positivity)
  exact double_round_nonneg _ (add_nonneg (by exact_mod_cast he) h2)

theorem distance_index_eq (e : Int) (distance : ℚ) (he : 0 ≤ e) (hd : 0 ≤ distance) :
    distance_index e distance =
      c_int (double_round ((e : ℚ) + double_round (double_round (distance * 492) / 2000))) %
        492 := by
  have hsum := distance_index_sum e distance he hd
  unfold distance_index
  simp only [propagated_frames_count, MAX_PROPAGATION_DISTANCE]
  push_cast
  rw [c_int_eq_floor _ hsum]
  exact Int.tmod_eq_emod (Int.floor_nonneg.mpr hsum) (by decide)

/-- C38, as stated, fails: for the emission index 491 and the distance
`1000 - 2 ^ (-43)`, a number of the type `double` below
`MAX_PROPAGATION_DISTANCE`, the delay `distance * 492 / 2000` is just below
246 and the sum `491 + 246 - ...` is rounded to 737, so that `update_source`
computes the index 245, where the formula of the claim gives
`(491 + 245) mod 492 = 244`. -/
theorem propagation_delay_counterexample :
    double_round (1000 - 1 / 2 ^ 43) = 1000 - 1 / 2 ^ 43 ∧
      (0 : ℚ) ≤ 1000 - 1 / 2 ^ 43 ∧ (1000 - 1 / 2 ^ 43 : ℚ) < MAX_PROPAGATION_DISTANCE ∧
      distance_index 491 (1000 - 1 / 2 ^ 43) = 245 ∧
      (491 + c_int ((1000 - 1 / 2 ^ 43 : ℚ) * 492 / 2000)) % 492 = 244 := by
  decide!

/-- C38 (amended): `MAX_PROPAGATED_FRAMES` is 492; for an emission index in
[0, 492) and a distance in [0, MAX_PROPAGATION_DISTANCE), the index
`distance_index` that `update_source` computes is the truncated value of the
sum `emission_index + distance * 492 / 2000` as the type `double` delivers it,
modulo 492; it lies in [0, 492), is the emission index when the distance is 0,
and is the emission index plus the truncated delay, modulo 492, whenever the
product, the quotient and the sum are delivered without rounding.  The step at
the end of `update_source` keeps the emission index in [0, 492): it goes from 0
to 491 and otherwise one down. -/
theorem propagation_delay_in_bounds :
    MAX_PROPAGATED_FRAMES = 492 ∧
      (∀ (e : Int) (distance : ℚ), 0 ≤ e → e < 492 → 0 ≤ distance →
        distance < MAX_PROPAGATION_DISTANCE →
        distance_index e distance =
            c_int (double_round ((e : ℚ) +
              double_round (double_round (distance * 492) / 2000))) % 492 ∧
          0 ≤ distance_index e distance ∧ distance_index e distance < 492 ∧
          distance_index e 0 = e ∧
          (double_round (distance * 492) = distance * 492 →
            double_round (distance * 492 / 2000) = distance * 492 / 2000 →
            double_round ((e : ℚ) + distance * 492 / 2000) = (e : ℚ) + distance * 492 / 2000 →
            distance_index e distance = (e + c_int (distance * 492 / 2000)) % 492)) ∧
      ∀ st : update_state, 0 ≤ st.source.emission_index → st.source.emission_index < 492 →
        (step_source st).emission_index =
            (if st.source.emission_index = 0 then 491 else st.source.emission_index - 1) ∧
          0 ≤ (step_source st).emission_index ∧ (step_source st).emission_index < 492 := by
  refine ⟨propagated_frames_count, ?_, ?_⟩
  · intro e distance he0 he1 hd0 _
    have h1 := distance_index_eq e distance he0 hd0
    refine ⟨h1, ?_, ?_, ?_, ?_⟩
    · rw [h1]
      exact Int.emod_nonneg _ (by decide)
    · rw [h1]
      exact Int.emod_lt_of_pos _ (by decide)
    · rw [distance_index_eq e 0 he0 (le_refl 0), zero_mul, double_round_zero, zero_div,
        double_round_zero, add_zero, small_index_exact e he0 he1,
        c_int_eq_floor _ (by exact_mod_cast he0), Int.floor_intCast]
      exact Int.emod_eq_of_lt he0 he1
    · intro x1 x2 x3
      have hx : (0 : ℚ) ≤ distance * 492 / 2000 := by positivity
      have hsum : (0 : ℚ) ≤ (e : ℚ) + distance * 492 / 2000 :=
        add_nonneg (by exact_mod_cast he0) hx
      rw [h1, x1, x2, x3, c_int_eq_floor _ hsum, c_int_eq_floor _ hx, Int.floor_int_add]
  · intro st h0 h1
    have hstep : (step_source st).emission_index =
        (if st.source.emission_index = 0 then 491 else st.source.emission_index - 1) := by
      unfold step_source
      simp only [propagated_frames_count]
      rfl
    refine ⟨hstep, ?_, ?_⟩
    · rw [hstep]
      split_ifs <;> omega
    · rw [hstep]
      split_ifs <;> omega

/-- Witness for C38: the last place of the buffer and a source 1999 metres
away: the sum `491 + 1999 * 492 / 2000`, as the type `double` delivers it, has
the truncated value 982, and the index is `982 mod 492 = 490`; a source that
emits at place 0 emits at place 491 in the next block. -/
theorem propagation_delay_in_bounds_witness :
    (distance_index 491 1999 = 490 ∧
      0 ≤ distance_index 491 1999 ∧ distance_index 491 1999 < 492 ∧
      distance_index 491 0 = 491) ∧
    (step_source (update_state.mk globals_start small_synth (small_source decline [] 0 0)
      0 0 0)).emission_index = 491 := by
  obtain ⟨h1, h2, h3, h4, -⟩ :=
    propagation_delay_in_bounds.2.1 491 1999 (by decide) (by decide) (by decide!) (by decide!)
  exact ⟨⟨h1.trans (by decide!), h2, h3, h4⟩,
    (propagation_delay_in_bounds.2.2 (update_state.mk globals_start small_synth
      (small_source decline [] 0 0) 0 0 0) (by decide) (by decide)).1⟩

/-! ## The Bark scale -/

theorem libc_rational_log_mono (x y : ℚ) (hx : 0 < x) (hxy : x ≤ y) :
    libc_rational.log x ≤ libc_rational.log y := by
  have hy : 0 < y := lt_of_lt_of_le hx hxy
  have hfrac : (x - 1) / (x + 1) ≤ (y - 1) / (y + 1) := by
    rw [div_le_div_iff₀ (by linarith) (by linarith)]
    nlinarith
  have h3 := Odd.strictMono_pow (show Odd 3 by decide) |>.monotone hfrac
  have h5 := Odd.strictMono_pow (show Odd 5 by decide) |>.monotone hfrac
  show 2 * ((x - 1) / (x + 1) + ((x - 1) / (x + 1)) ^ 3 / 3 + ((x - 1) / (x + 1)) ^ 5 / 5) ≤
    2 * ((y - 1) / (y + 1) + ((y - 1) / (y + 1)) ^ 3 / 3 + ((y - 1) / (y + 1)) ^ 5 / 5)
  simp only [] at h3 h5
  linarith

/-- C31: what `f2B` returns on [0, SAS_MAX_AUDIBLE_FREQUENCY], for a logarithm
that is monotone and within the bounds `log2 (1/2) >= -2.2` and
`log2 (22.05) <= 4.5`: at 0 and from 20 Hz on the value lies in
[MIN_BARK, MAX_BARK]; strictly between 0 and 20 Hz it is `f / 100`, which is
below MIN_BARK. -/
theorem f2B_range (c : libc)
    (hmono : ∀ x y : ℚ, 0 < x → x ≤ y → c.log x ≤ c.log y)
    (hlo : -(11 / 5) ≤ M_LOG2E * c.log (1 / 2))
    (hhi : M_LOG2E * c.log (441 / 20) ≤ 9 / 2)
    (f : ℚ) (h0 : 0 ≤ f) (h1 : f ≤ SAS_MAX_AUDIBLE_FREQUENCY) :
    (f = 0 ∨ 20 ≤ f → MIN_BARK ≤ f2B c f ∧ f2B c f ≤ MAX_BARK) ∧
      (0 < f → f < 20 → f2B c f = f / 100 ∧ f2B c f < MIN_BARK) := by
  have hmax : SAS_MAX_AUDIBLE_FREQUENCY = 22050 := by decide!
  have hminb : MIN_BARK = 1 / 5 := by decide!
  have hmaxb : MAX_BARK = 27 := rfl
  have hlog2e : (0 : ℚ) < M_LOG2E := by decide!
  rw [hmax] at h1
  constructor
  · intro hf
    unfold f2B
    rcases hf with rfl | hf
    · rw [if_pos (le_refl 0), hminb, hmaxb]
      constructor <;> norm_num
    · rw [if_neg (by linarith)]
      split_ifs with h500
      · rw [hminb, hmaxb]
        constructor <;> linarith
      · have hl := hmono (1 / 2) (f * 0.001) (by norm_num) (by linarith)
        have hu := hmono (f * 0.001) (441 / 20) (by linarith) (by linarith)
        have hl2 := mul_le_mul_of_nonneg_left hl hlog2e.le
        have hu2 := mul_le_mul_of_nonneg_left hu hlog2e.le
        rw [hminb, hmaxb]
        constructor <;> linarith
  · intro hpos hlt
    unfold f2B
    rw [if_neg (by linarith), if_pos (by linarith), hminb]
    constructor <;> linarith

/-- Witness for C31: a partial of 10 Hz gets the Bark value 1/10. -/
theorem f2B_range_witness :
    f2B libc_rational 10 = 10 / 100 ∧ f2B libc_rational 10 < MIN_BARK :=
  (f2B_range libc_rational libc_rational_log_mono (by decide!) (by decide!) 10 (by decide!)
    (by decide!)).2 (by decide!) (by decide!)

/-! ## The block after a skipped insertion -/

/-- The source that `update_source` has updated is, when it still exists after
the call, the source that the track loops leave, with its counters stepped. -/
theorem update_source_result (c : libc) (g g2 : globals) (s s2 : sas_synthesizer_s) (id : Nat)
    (src : sas_source_s) (r : scan_result) (h : update_source c g s id = .ok (g2, s2))
    (hsrc : source_load s id = .ok src) (hr : harmonic_scan c g s src = .ok r) :
    ∃ st, update_partials c r.g s r.source r.harmonics r.active = .ok st ∧
      ∀ v, source_load s2 id = .ok v → v = step_source st := by
  obtain ⟨src0, r0, st, hsrc0, hr0, hst, hcase⟩ := update_source_cases c g g2 s s2 id h
  rw [hsrc] at hsrc0
  cases hsrc0
  rw [hr] at hr0
  cases hr0
  refine ⟨st, hst, ?_⟩
  have hkeep := harmonic_scan_fields c g s src r hr
  have hsources : st.s.sources = s.sources :=
    (loops_frame_synth _ _ (update_partials_frame c r.g s r.source r.harmonics r.active st hst)).1
  have hstid : (step_source st).id = src.id := by
    rw [(step_source_fields st).1,
      (loops_frame_source _ _ (update_partials_frame c r.g s r.source r.harmonics r.active st
        hst)).1]
    exact hkeep.1
  have hload : source_load st.s id = .ok src := by
    unfold source_load
    rw [hsources]
    exact hsrc
  have hself := source_load_store_self st.s src (step_source st) id hload hstid
  intro v hv
  rcases hcase with ⟨-, -, hfree⟩ | ⟨-, -, rfl⟩
  · cases hl : source_load (source_store st.s (step_source st)) (step_source st).id with
    | error e =>
      obtain ⟨-, rfl⟩ := (delayed_free_effect c _ _ _ _ _ hfree).1 e hl
      rw [hself] at hv
      cases hv
      rfl
    | ok w =>
      have hfilter := ((delayed_free_effect c _ _ _ _ _ hfree).2 w hl).1
      have := source_load_filter _ _ _ _ _ hfilter hv
      rw [hself] at this
      cases this
      rfl
  · rw [hself] at hv
    cases hv
    rfl

theorem scan_keeps_partial (src : sas_source_s) (r : scan_result) (hk : scan_keeps src r)
    (i : Nat) (q : partial_s) (hq : src.tracks[i]? = some q) :
    ∃ q1, r.source.tracks[i]? = some q1 ∧ q1.state = q.state ∧ q1.link = q.link := by
  obtain ⟨-, -, -, -, -, -, -, hmap, -⟩ := hk
  have hm := congrArg (fun l => l[i]?) hmap
  simp only [List.getElem?_map, hq, Option.map_some'] at hm
  cases hq1 : r.source.tracks[i]? with
  | none => simp [hq1] at hm
  | some q1 =>
    simp only [hq1, Option.map_some', Option.some.injEq] at hm
    exact ⟨q1, rfl, congrArg (fun x => x.state) hm, congrArg (fun x => x.link) hm⟩

/-- The track loops do not return when a continuing harmonic is unlinked with a
state counter that is neither 0 nor 1: they end in `exit (EXIT_FAILURE)` when
the first loop reaches that harmonic. -/
theorem update_partials_adult_error (c : libc) (g : globals) (s : sas_synthesizer_s)
    (source : sas_source_s) (harmonics active : Int) (i : Nat) (p : partial_s)
    (hp : source.tracks[i]? = some p) (hl : p.link = none)
    (h1 : p.state + 1 ≠ 1) (h2 : p.state + 1 ≠ 2) (hi : (i : Int) < active) :
    ∃ e, update_partials c g s source harmonics active = .error e ∧
      ∀ sa, for_loop (continuing_harmonic c) i 0
        { g := g, s := s, source := source, birth := 0, death := 0, links := 0 } = .ok sa →
        e = .exit_failure := by
  cases hrun : for_loop (continuing_harmonic c) i 0
      { g := g, s := s, source := source, birth := 0, death := 0, links := 0 } with
  | ok sa =>
    exact ⟨.exit_failure, update_partials_adult c g s source harmonics active i p sa hp hl h1 h2
      hi hrun, fun _ _ => rfl⟩
  | error e =>
    refine ⟨e, ?_, fun sa hsa => by cases hsa⟩
    obtain ⟨n1, n2, n3, n4, hn⟩ : ∃ n1 n2 n3 n4,
      loop_counts source harmonics active = (n1, n2, n3, n4) := ⟨_, _, _, _, rfl⟩
    obtain ⟨e1, -, -, -⟩ := loop_counts_eq _ _ _ _ _ _ _ hn
    have hloop : for_loop (continuing_harmonic c) n1 0
        { g := g, s := s, source := source, birth := 0, death := 0, links := 0 } = .error e := by
      have e2 : n1 = i + (n1 - i) := by omega
      rw [e2, for_loop_split, hrun]
      rfl
    rw [update_partials_loops, hn]
    simp only [hloop, Except.bind]

/-- C34: a harmonic that enters state 2 unlinked because the active-track array
is full when the first loop of `update_source` reaches it (`active_tracks =
allocated`) is left unlinked with state 2 in the source; and a later
`update_source` on that source in which the harmonic is still unlinked with
state 2 and among the continuing harmonics does not return, whatever the
synthesizer has become in between (free slots included): it ends in
`exit (EXIT_FAILURE)` as soon as its first loop reaches the harmonic. -/
theorem skipped_harmonic_fatal (c : libc) (g g1 : globals) (s s1 : sas_synthesizer_s) (id : Nat)
    (src : sas_source_s) (r : scan_result) (i : Nat) (p : partial_s) (sa : update_state)
    (h : update_source c g s id = .ok (g1, s1))
    (hsrc : source_load s id = .ok src) (hr : harmonic_scan c g s src = .ok r)
    (hp : src.tracks[i]? = some p) (hl : p.link = none) (hs : p.state = 1)
    (hi : (i : Int) < r.active)
    (hrun : for_loop (continuing_harmonic c) i 0
      { g := r.g, s := s, source := r.source, birth := 0, death := 0, links := 0 } = .ok sa)
    (hfull : sa.s.active_tracks = sa.s.allocated) :
    (∀ src1, source_load s1 id = .ok src1 →
        ∃ q, src1.tracks[i]? = some q ∧ q.link = none ∧ q.state = 2) ∧
      ∀ (c2 : libc) (g2 : globals) (s2 : sas_synthesizer_s) (src2 : sas_source_s)
        (r2 : scan_result) (q : partial_s),
        source_load s2 id = .ok src2 → src2.tracks[i]? = some q → q.link = none →
        q.state = 2 → harmonic_scan c2 g2 s2 src2 = .ok r2 → (i : Int) < r2.active →
        (∃ e, update_source c2 g2 s2 id = .error e) ∧
          ∀ sa2, for_loop (continuing_harmonic c2) i 0
            { g := r2.g, s := s2, source := r2.source, birth := 0, death := 0, links := 0 } =
              .ok sa2 →
            update_source c2 g2 s2 id = .error .exit_failure := by
  constructor
  · intro src1 hsrc1
    obtain ⟨st, hst, hres⟩ := update_source_result c g g1 s s1 id src r h hsrc hr
    have hv := hres src1 hsrc1
    subst hv
    obtain ⟨p0, hp0, hs0, hl0⟩ := scan_keeps_partial src r (harmonic_scan_fields c g s src r hr)
      i p hp
    obtain ⟨sa0, sb, hrun0, hb, ha, hfin⟩ := update_partials_continuing c r.g s r.source
      r.harmonics r.active st i hst hi
    rw [hrun] at hrun0
    cases hrun0
    obtain ⟨p', p1, hp', hsrc', hst', -, -, -, -, -, hcase⟩ := continuing_harmonic_step c i sa sb hb
    rw [ha, hp0] at hp'
    cases hp'
    have hlt : i < sa.source.tracks.length :=
      (List.getElem?_eq_some_iff.mp (ha.trans hp0)).1
    refine ⟨p1, ?_, ?_, ?_⟩
    · show st.source.tracks[i]? = some p1
      rw [hfin, hsrc']
      exact List.getElem?_set_self hlt
    · rcases hcase with ⟨-, hlink, -⟩ | ⟨-, -, hcap, -⟩
      · rw [hlink, hl0, hl]
      · omega
    · rw [hst', hs0, hs]
      rfl
  · intro c2 g2 s2 src2 r2 q hsrc2 hq hql hqs hr2 hi2
    obtain ⟨q0, hq0, hs0, hl0⟩ := scan_keeps_partial src2 r2
      (harmonic_scan_fields c2 g2 s2 src2 r2 hr2) i q hq
    obtain ⟨e, he, hexit⟩ := update_partials_adult_error c2 r2.g s2 r2.source r2.harmonics
      r2.active i q0 hq0 (by rw [hl0, hql]) (by rw [hs0, hqs]; decide) (by rw [hs0, hqs]; decide)
      hi2
    have hrun2 : update_source c2 g2 s2 id = .error e := by
      unfold update_source
      rw [hsrc2]
      simp only [bind, Except.bind]
      rw [hr2]
      simp only []
      unfold update_source_tracks
      simp only [bind, Except.bind]
      rw [he]
    refine ⟨⟨e, hrun2⟩, ?_⟩
    intro sa2 hsa2
    rw [hrun2, hexit sa2 hsa2]

/-- Witness for C34: the young partial of `full_synth`, whose four slots are
taken, is skipped by `update_source`; in a synthesizer whose four slots are
free again, `update_source` on the source with that partial ends in
`exit (EXIT_FAILURE)`. -/
theorem skipped_harmonic_fatal_witness :
    ∃ g1 s1, update_source libc_rational globals_start full_synth 1 = .ok (g1, s1) ∧
      (∀ src1, source_load s1 1 = .ok src1 →
        ∃ q, src1.tracks[0]? = some q ∧ q.link = none ∧ q.state = 2) ∧
      update_source libc_rational globals_start
        (synth_with (small_source decline [{ young_track with state := 2 }] 1 0)
          [none, none, none, none] [none, none, none, none] 0 0) 1 = .error .exit_failure := by
  obtain ⟨r, hr⟩ := exists_of_isOk (update_source libc_rational globals_start full_synth 1)
    (by decide!)
  obtain ⟨g1, s1⟩ := r
  obtain ⟨k1, k2⟩ := skipped_harmonic_fatal libc_rational globals_start g1 full_synth s1 1
    (small_source decline [young_track] 1 0)
    { g := globals_start, source := small_source decline [young_track] 1 0, harmonics := 0,
      active := 1 } 0 young_track
    { g := globals_start, s := full_synth, source := small_source decline [young_track] 1 0,
      birth := 0, death := 0, links := 0 } hr rfl rfl rfl rfl rfl (by decide) rfl rfl
  exact ⟨g1, s1, hr, k1,
    (k2 libc_rational globals_start
      (synth_with (small_source decline [{ young_track with state := 2 }] 1 0)
        [none, none, none, none] [none, none, none, none] 0 0)
      (small_source decline [{ young_track with state := 2 }] 1 0)
      { g := globals_start, source := small_source decline [{ young_track with state := 2 }] 1 0,
        harmonics := 0, active := 1 }
      { young_track with state := 2 } rfl rfl rfl rfl rfl (by decide)).2 _ rfl⟩

/-! ## The accesses to the storage of an envelope -/

theorem data_get_in_bounds (e : sas_envelope_s) (hs : 0 ≤ e.size)
    (hlen : e.cells.length = (e.size + 4).toNat) (i : Int) :
    (∃ v, data_get e i = .ok v) ↔ (-2 ≤ i ∧ i ≤ e.size + 1) := by
  constructor
  · rintro ⟨v, hv⟩
    unfold data_get at hv
    split_ifs at hv with h0
    · rw [array_get_eq_ok] at hv
      have := (List.getElem?_eq_some_iff.mp hv).1
      omega
  · rintro ⟨h0, h1⟩
    exact ⟨_, data_get_ok e i (by omega) (by omega)⟩

theorem data_set_in_bounds (e : sas_envelope_s) (hs : 0 ≤ e.size)
    (hlen : e.cells.length = (e.size + 4).toNat) (i : Int) (v : ℚ) :
    (∃ e1, data_set e i v = .ok e1) ↔ (-2 ≤ i ∧ i ≤ e.size + 1) := by
  constructor
  · rintro ⟨e1, h1⟩
    obtain ⟨-, -, h0, hlt, -⟩ := data_set_ok e e1 i v h1
    omega
  · rintro ⟨h0, h1⟩
    obtain ⟨e1, he1, -⟩ := data_set_total e i v (by omega) (by omega)
    exact ⟨e1, he1⟩

/-- C39: in the model every read or write of `e->data[i]` outside the
allocated cells `-2 .. size + 1` is an invalid access.  For an envelope of size
at least 1 with its `size + 4` cells, `sas_envelope_adjust_for_color` and
`sas_envelope_adjust_for_warp` return without any invalid access and keep the
size and the number of cells; and for a frequency above 0 the lookup returns:
when the index `i = (int) (frequency / base)` is outside [0, size] it returns 0
and reads nothing (the result is the same on an envelope without cells), and
otherwise the four reads of `data[i - 2 .. i + 1]` are inside the cells. -/
theorem envelope_accesses_in_bounds (e : sas_envelope_s) (hs : 1 ≤ e.size)
    (hlen : e.cells.length = (e.size + 4).toNat) :
    (∀ i : Int, ((∃ v, data_get e i = .ok v) ↔ (-2 ≤ i ∧ i ≤ e.size + 1)) ∧
        ∀ v, ((∃ e1, data_set e i v = .ok e1) ↔ (-2 ≤ i ∧ i ≤ e.size + 1))) ∧
      (∃ e1, envelope_adjust_for_color e = .ok e1 ∧ e1.size = e.size ∧
        e1.cells.length = e.cells.length) ∧
      (∃ e1, envelope_adjust_for_warp e = .ok e1 ∧ e1.size = e.size ∧
        e1.cells.length = e.cells.length) ∧
      ∀ frequency : ℚ, 0 < frequency →
        ∃ v, envelope_get_value e frequency = .ok v ∧
          ((c_int (frequency / e.base) < 0 ∨ e.size < c_int (frequency / e.base)) →
            v = 0 ∧ envelope_get_value { e with cells := [] } frequency = .ok 0) ∧
          ((0 ≤ c_int (frequency / e.base) ∧ c_int (frequency / e.base) ≤ e.size) →
            ∃ d0 d1 d2 d3, data_get e (c_int (frequency / e.base) - 2) = .ok d0 ∧
              data_get e (c_int (frequency / e.base) - 1) = .ok d1 ∧
              data_get e (c_int (frequency / e.base)) = .ok d2 ∧
              data_get e (c_int (frequency / e.base) + 1) = .ok d3) := by
  obtain ⟨n, hn⟩ : ∃ n : Nat, e.size = n + 1 := ⟨(e.size - 1).toNat, by omega⟩
  have hlen2 : e.cells.length = n + 5 := by omega
  refine ⟨fun i => ⟨data_get_in_bounds e (by omega) hlen i,
    fun v => data_set_in_bounds e (by omega) hlen i v⟩, ?_, ?_, ?_⟩
  · obtain ⟨e1, h1, -⟩ := adjust_for_color_total e n hn hlen2
    obtain ⟨-, k2, k3, -⟩ := adjust_for_color_ok e e1 h1
    exact ⟨e1, h1, k2, k3⟩
  · obtain ⟨e1, cA, cB, cC, h1, -⟩ := adjust_for_warp_cells e n hn hlen2
    obtain ⟨-, k2, k3, -⟩ := adjust_for_warp_ok e e1 h1
    exact ⟨e1, h1, k2, k3⟩
  · intro frequency hf
    obtain ⟨v, hv, -, hzero⟩ := envelope_get_value_ok e frequency (by omega) hlen hf
    refine ⟨v, hv, ?_, ?_⟩
    · intro hout
      refine ⟨hzero hout, ?_⟩
      unfold envelope_get_value
      rw [if_neg (not_not.mpr hf)]
      simp only []
      rw [if_pos hout]
    · rintro ⟨h0, h1⟩
      exact ⟨_, _, _, _, data_get_ok e _ (by omega) (by omega),
        data_get_ok e _ (by omega) (by omega), data_get_ok e _ (by omega) (by omega),
        data_get_ok e _ (by omega) (by omega)⟩

/-- Witness for C39: an envelope of size 1, for which `data[size - 2]` and
`data[size - 3]` are the cells -1 and -2. -/
theorem envelope_accesses_in_bounds_witness :
    (∃ e1, envelope_adjust_for_color (envelope_make 100 1 [3]) = .ok e1 ∧ e1.size = 1 ∧
        e1.cells.length = 5) ∧
      (∃ e1, envelope_adjust_for_warp (envelope_make 100 1 [3]) = .ok e1 ∧ e1.size = 1 ∧
        e1.cells.length = 5) ∧
      ∃ v, envelope_get_value (envelope_make 100 1 [3]) 150 = .ok v := by
  obtain ⟨-, k1, k2, k3⟩ := envelope_accesses_in_bounds (envelope_make 100 1 [3]) (by decide)
    (by decide)
  obtain ⟨v, hv, -⟩ := k3 150 (by decide)
  exact ⟨k1, k2, v, hv⟩

/-! ## Partials added to a spectral object -/

theorem frequency_bounds_step (sp : sas_file_spectral_s) (t : Int) (i : Nat) (st st1 : ℚ × ℚ)
    (h : frequency_bounds sp t i st = .ok st1) :
    ∃ p, track_load sp i = .ok p ∧
      ((¬ (p.start ≤ t ∧ t < p.start + p.length) ∧ st1 = st) ∨
        ((p.start ≤ t ∧ t < p.start + p.length) ∧
          ∃ f, sample_get p.frequency (t - p.start) = .ok f ∧
            st1 = (if f < st.1 then f else st.1, if f > st.2 then f else st.2))) := by
  unfold frequency_bounds at h
  obtain ⟨f_min, f_max⟩ := st
  simp only [bind_ok_iff] at h
  obtain ⟨p, hp, h⟩ := h
  refine ⟨p, hp, ?_⟩
  split_ifs at h with halive
  · simp only [bind_ok_iff, pure, Except.pure, Except.ok.injEq] at h
    obtain ⟨f, hf, rfl⟩ := h
    exact Or.inr ⟨halive, f, hf, rfl⟩
  · simp only [pure, Except.pure, Except.ok.injEq] at h
    exact Or.inl ⟨halive, h.symm⟩

/-- The greatest frequency that the first loop of `sas_file_spectral_get_frame`
finds is 0 or the frequency at time `t` of a partial alive then. -/
theorem frequency_bounds_max (sp : sas_file_spectral_s) (t : Int) (n : Nat) (f_min f_max : ℚ)
    (h : for_loop (frequency_bounds sp t) n 0 (SAS_MAX_AUDIBLE_FREQUENCY, 0) =
      .ok (f_min, f_max)) :
    f_max = 0 ∨ ∃ (j : Nat) (p : sas_file_partial_s), j < n ∧ track_load sp j = .ok p ∧
      (p.start ≤ t ∧ t < p.start + p.length) ∧
      sample_get p.frequency (t - p.start) = .ok f_max := by
  have key := for_loop_preserves (frequency_bounds sp t) (fun k st =>
      st.2 = 0 ∨ ∃ (j : Nat) (p : sas_file_partial_s), j < k ∧ track_load sp j = .ok p ∧
        (p.start ≤ t ∧ t < p.start + p.length) ∧
        sample_get p.frequency (t - p.start) = .ok st.2) n 0 _ _
    (fun k st st1 _ _ hb ht => by
      obtain ⟨p, hp, hcase⟩ := frequency_bounds_step sp t k st st1 hb
      rcases hcase with ⟨-, rfl⟩ | ⟨halive, f, hf, rfl⟩
      · rcases ht with h0 | ⟨j, q, hj, hq⟩
        · exact Or.inl h0
        · exact Or.inr ⟨j, q, by omega, hq⟩
      · simp only []
        split_ifs with hgt
        · exact Or.inr ⟨k, p, by omega, hp, halive, hf⟩
        · rcases ht with h0 | ⟨j, q, hj, hq⟩
          · exact Or.inl h0
          · exact Or.inr ⟨j, q, by omega, hq⟩) h (Or.inl rfl)
  simpa using key

theorem find_fundamental_ok (sp : sas_file_spectral_s) (n : Int) (fundamental : ℚ)
    (harmonics : Int) (h : find_fundamental sp n = .ok (fundamental, harmonics)) :
    ∃ f_max, for_loop (frequency_bounds sp (sp.t_min + n)) sp.used.toNat 0
        (SAS_MAX_AUDIBLE_FREQUENCY, 0) = .ok (fundamental, f_max) ∧ 0 < fundamental ∧
      harmonics = c_int (modf_nearest (f_max / fundamental)).2 := by
  unfold find_fundamental at h
  simp only [bind_ok_iff] at h
  obtain ⟨⟨f_min, f_max⟩, hloop, h⟩ := h
  simp only [] at h
  split_ifs at h with hpos
  simp only [pure, Except.pure, Except.ok.injEq, Prod.mk.injEq] at h
  obtain ⟨rfl, rfl⟩ := h
  exact ⟨f_max, hloop, hpos, rfl⟩

theorem scan_file_track_overflow (sp : sas_file_spectral_s) (t : Int) (fundamental f : ℚ)
    (harmonics : Int) (i : Nat) (st : harmonics_state) (p : sas_file_partial_s)
    (hp : track_load sp i = .ok p) (halive : p.start ≤ t ∧ t < p.start + p.length)
    (hf : sample_get p.frequency (t - p.start) = .ok f)
    (hh : harmonics < c_int (modf_nearest (f / fundamental)).2) :
    scan_file_track sp t fundamental harmonics i st = .error .assertion := by
  unfold scan_file_track
  rw [hp]
  simp only [bind, Except.bind]
  rw [if_pos halive, hf]
  simp only []
  rw [if_pos (by omega)]

/-- C33 fails: when the number of harmonics that `sas_file_spectral_get_frame`
derives for a frame is above `MAX_NUMBER_OF_PARTIALS`, the function never
returns the frame.  The number is cut down to `MAX_NUMBER_OF_PARTIALS`, and the
loop `Scan partials` then reaches the partial of greatest frequency, whose
harmonic index is the derived number minus 1; the assertion `h < harmonics`
does not hold for it. -/
theorem harmonic_overflow_aborts (g : globals) (sp : sas_file_spectral_s) (dest : sas_frame_s)
    (n : Int) (fundamental : ℚ) (harmonics : Int)
    (hfind : find_fundamental sp n = .ok (fundamental, harmonics))
    (hover : (MAX_NUMBER_OF_PARTIALS : Int) < harmonics) :
    ∃ e, sas_file_spectral_get_frame g sp dest n = .error e := by
  cases hr : sas_file_spectral_get_frame g sp dest n with
  | error e => exact ⟨e, rfl⟩
  | ok r =>
    exfalso
    obtain ⟨f_max, hloop, hpos, hh⟩ := find_fundamental_ok sp n fundamental harmonics hfind
    have hmax := frequency_bounds_max sp (sp.t_min + n) _ _ _ hloop
    rcases hmax with h0 | ⟨j, p, hj, hp, halive, hf⟩
    · rw [h0] at hh
      have : harmonics = 0 := by
        rw [hh, zero_div]
        decide!
      rw [this] at hover
      exact absurd hover (by decide)
    · unfold sas_file_spectral_get_frame at hr
      simp only [] at hr
      split_ifs at hr with hn
      rw [hfind] at hr
      simp only [bind, Except.bind] at hr
      rw [if_pos (by exact_mod_cast hover)] at hr
      split at hr
      · cases hr
      · rename_i st0 hz
        split at hr
        · cases hr
        · rename_i st1 hs
          obtain ⟨sa, sb, -, hb, -⟩ := loop_at _ _ _ _ _ hs j (Nat.zero_le j) (by omega)
          rw [scan_file_track_overflow sp _ fundamental f_max _ j sa p hp halive hf
            (by rw [← hh]; exact hover)] at hb
          cases hb

/-- Witness for C33: the frame 0 of `wide_spectral` has 2000 harmonics. -/
theorem harmonic_overflow_aborts_witness :
    find_fundamental wide_spectral 0 = .ok (1, 2000) ∧
      ∃ e, sas_file_spectral_get_frame globals_start wide_spectral receiving_frame 0 =
        .error e :=
  ⟨by decide!, harmonic_overflow_aborts globals_start wide_spectral receiving_frame 0 1 2000
    (by decide!) (by decide)⟩

/-! ## The pool of cells of the skip list -/

theorem lookup_filter_ne (l : List (Nat × skip_list_cell_s)) (a b : Nat) (h : b ≠ a) :
    (l.filter (fun x => x.1 != a)).lookup b = l.lookup b := by
  induction l with
  | nil => rfl
  | cons x l ih =>
    obtain ⟨k, v⟩ := x
    by_cases hk : k = a
    · subst hk
      have hb : (b == k) = false := by simpa using h
      simp [List.filter, List.lookup, hb, ih]
    · have hka : (k != a) = true := by simpa using hk
      simp only [List.filter, hka, List.lookup]
      rw [ih]

theorem cell_load_store (sl : skip_list_s) (a b : Nat) (v : skip_list_cell_s) :
    cell_load (cell_store sl a v) b = if b = a then .ok v else cell_load sl b := by
  unfold cell_load cell_store
  split_ifs with h
  · subst h
    simp [List.lookup]
  · have hb : (b == a) = false := by simpa using h
    simp only [List.lookup, hb]
    rw [lookup_filter_ne _ _ _ h]

theorem fwps_set_eq_ok (sl sl1 : skip_list_s) (a i v : Nat) :
    fwps_set sl a i v = .ok sl1 ↔
      ∃ c, cell_load sl a = .ok c ∧ i < c.fwps.length ∧
        sl1 = cell_store sl a { c with fwps := c.fwps.set i (some v) } := by
  unfold fwps_set
  simp only [bind_ok_iff, array_set_eq_ok, pure, Except.pure, Except.ok.injEq]
  constructor
  · rintro ⟨c, hc, fw, ⟨hlt, rfl⟩, rfl⟩
    exact ⟨c, hc, hlt, rfl⟩
  · rintro ⟨c, hc, hlt, rfl⟩
    exact ⟨c, hc, _, ⟨hlt, rfl⟩, rfl⟩

theorem prev_set_eq_ok (sl sl1 : skip_list_s) (a v : Nat) :
    prev_set sl a v = .ok sl1 ↔
      ∃ c, cell_load sl a = .ok c ∧ sl1 = cell_store sl a { c with prev := some v } := by
  unfold prev_set
  simp only [bind_ok_iff, pure, Except.pure, Except.ok.injEq]
  constructor
  · rintro ⟨c, hc, rfl⟩
    exact ⟨c, hc, rfl⟩
  · rintro ⟨c, hc, rfl⟩
    exact ⟨c, hc, rfl⟩

/-- The skip list `sl1` is `sl` with other cells in the pool: the other fields
are the same. -/
theorem cell_store_fields (sl : skip_list_s) (a : Nat) (v : skip_list_cell_s) :
    (cell_store sl a v).level = sl.level ∧ (cell_store sl a v).header = sl.header ∧
      (cell_store sl a v).NIL = sl.NIL ∧ (cell_store sl a v).update = sl.update ∧
      (cell_store sl a v).cell_pool_top = sl.cell_pool_top ∧
      (cell_store sl a v).initial_cell_pool_top = sl.initial_cell_pool_top :=
  ⟨rfl, rfl, rfl, rfl, rfl, rfl⟩

theorem fwps_get_store (sl : skip_list_s) (a b j : Nat) (v : skip_list_cell_s) :
    fwps_get (cell_store sl a v) b j =
      if b = a then (match v.fwps.get? j with
        | some (some w) => .ok w
        | _ => .error .invalid_access)
      else fwps_get sl b j := by
  unfold fwps_get
  rw [cell_load_store]
  split_ifs with h
  · rfl
  · rfl

theorem prev_get_store (sl : skip_list_s) (a b : Nat) (v : skip_list_cell_s) :
    prev_get (cell_store sl a v) b =
      if b = a then (match v.prev with
        | some w => .ok w
        | none => .error .invalid_access)
      else prev_get sl b := by
  unfold prev_get
  rw [cell_load_store]
  split_ifs with h
  · rfl
  · rfl

/-- After `a->fwps[i] = v`, the forward pointers are as before but for this
one, and the backward pointers are as before. -/
theorem fwps_set_effect (sl sl1 : skip_list_s) (a i v : Nat) (h : fwps_set sl a i v = .ok sl1) :
    (∀ b j, fwps_get sl1 b j = if b = a ∧ j = i then .ok v else fwps_get sl b j) ∧
      (∀ b, prev_get sl1 b = prev_get sl b) ∧
      (∀ b w, cell_load sl b = .ok w → ∃ w1, cell_load sl1 b = .ok w1 ∧
        w1.fwps.length = w.fwps.length ∧ w1.data = w.data ∧ w1.prev = w.prev) ∧
      sl1.level = sl.level ∧ sl1.header = sl.header ∧ sl1.NIL = sl.NIL ∧
      sl1.update = sl.update ∧ sl1.cell_pool_top = sl.cell_pool_top ∧
      sl1.initial_cell_pool_top = sl.initial_cell_pool_top := by
  obtain ⟨c, hc, hlt, rfl⟩ := (fwps_set_eq_ok sl sl1 a i v).mp h
  refine ⟨?_, ?_, ?_, rfl, rfl, rfl, rfl, rfl, rfl⟩
  · intro b j
    rw [fwps_get_store]
    by_cases hb : b = a
    · subst hb
      rw [if_pos rfl]
      by_cases hj : j = i
      · subst hj
        rw [if_pos ⟨rfl, rfl⟩]
        simp [List.get?_eq_getElem?, List.getElem?_set_self hlt]
      · rw [if_neg (fun hh => hj hh.2)]
        unfold fwps_get
        rw [hc]
        simp [List.get?_eq_getElem?, List.getElem?_set_ne (Ne.symm hj), bind, Except.bind, pure,
          Except.pure]
    · rw [if_neg hb, if_neg (fun hh => hb hh.1)]
  · intro b
    rw [prev_get_store]
    split_ifs with hb
    · subst hb
      unfold prev_get
      rw [hc]
      rfl
    · rfl
  · intro b w hw
    rw [cell_load_store]
    split_ifs with hb
    · subst hb
      rw [hc] at hw
      cases hw
      exact ⟨_, rfl, by simp, rfl, rfl⟩
    · exact ⟨w, hw, rfl, rfl, rfl⟩

/-- After `a->prev = v`, the backward pointers are as before but for this one,
and the forward pointers are as before. -/
theorem prev_set_effect (sl sl1 : skip_list_s) (a v : Nat) (h : prev_set sl a v = .ok sl1) :
    (∀ b j, fwps_get sl1 b j = fwps_get sl b j) ∧
      (∀ b, prev_get sl1 b = if b = a then .ok v else prev_get sl b) ∧
      (∀ b w, cell_load sl b = .ok w → ∃ w1, cell_load sl1 b = .ok w1 ∧
        w1.fwps = w.fwps ∧ w1.data = w.data) ∧
      sl1.level = sl.level ∧ sl1.header = sl.header ∧ sl1.NIL = sl.NIL ∧
      sl1.update = sl.update ∧ sl1.cell_pool_top = sl.cell_pool_top ∧
      sl1.initial_cell_pool_top = sl.initial_cell_pool_top := by
  obtain ⟨c, hc, rfl⟩ := (prev_set_eq_ok sl sl1 a v).mp h
  refine ⟨?_, ?_, ?_, rfl, rfl, rfl, rfl, rfl, rfl⟩
  · intro b j
    rw [fwps_get_store]
    split_ifs with hb
    · subst hb
      unfold fwps_get
      rw [hc]
      rfl
    · rfl
  · intro b
    rw [prev_get_store]
  · intro b w hw
    rw [cell_load_store]
    split_ifs with hb
    · subst hb
      rw [hc] at hw
      cases hw
      exact ⟨_, rfl, rfl, rfl⟩
    · exact ⟨w, hw, rfl, rfl⟩

/-! ## The chains of the skip list -/

theorem chained_congr (sl sl1 : skip_list_s) (i : Nat) (hnil : sl1.NIL = sl.NIL) :
    ∀ (rest : List index_cell) (x : Nat),
      (∀ b, b = x ∨ b ∈ rest.map (fun c => c.place) → fwps_get sl1 b i = fwps_get sl b i) →
      chained sl i x rest → chained sl1 i x rest := by
  intro rest
  induction rest with
  | nil =>
    intro x hsame h
    unfold chained at h ⊢
    rw [hsame x (Or.inl rfl), hnil]
    exact h
  | cons c rest ih =>
    intro x hsame h
    unfold chained at h ⊢
    split_ifs at h ⊢ with hi
    · refine ⟨by rw [hsame x (Or.inl rfl)]; exact h.1, ih c.place ?_ h.2⟩
      intro b hb
      refine hsame b (Or.inr ?_)
      rcases hb with rfl | hb
      · simp
      · simp only [List.map_cons, List.mem_cons]
        exact Or.inr hb
    · refine ih x ?_ h
      intro b hb
      refine hsame b ?_
      rcases hb with rfl | hb
      · exact Or.inl rfl
      · simp only [List.map_cons, List.mem_cons]
        exact Or.inr (Or.inr hb)

theorem back_chained_congr (sl sl1 : skip_list_s) (hnil : sl1.NIL = sl.NIL) :
    ∀ (rest : List index_cell) (x : Nat),
      (∀ b, b = sl.NIL ∨ b ∈ rest.map (fun c => c.place) → prev_get sl1 b = prev_get sl b) →
      back_chained sl x rest → back_chained sl1 x rest := by
  intro rest
  induction rest with
  | nil =>
    intro x hsame h
    unfold back_chained at h ⊢
    rw [hnil, hsame _ (Or.inl rfl)]
    exact h
  | cons c rest ih =>
    intro x hsame h
    unfold back_chained at h ⊢
    refine ⟨by rw [hsame c.place (Or.inr (by simp))]; exact h.1, ih c.place ?_ h.2⟩
    intro b hb
    refine hsame b ?_
    rcases hb with rfl | hb
    · exact Or.inl rfl
    · simp only [List.map_cons, List.mem_cons]
      exact Or.inr (Or.inr hb)

theorem pred_at_mem (i : Nat) : ∀ (pre : List index_cell) (x : Nat),
    pred_at i x pre = x ∨ pred_at i x pre ∈ pre.map (fun c => c.place) := by
  intro pre
  induction pre with
  | nil =>
    intro x
    exact Or.inl rfl
  | cons c pre ih =>
    intro x
    unfold pred_at
    rcases ih (if i < c.height then c.place else x) with h | h
    · rw [h]
      split_ifs
      · exact Or.inr (by simp)
      · exact Or.inl rfl
    · exact Or.inr (by
        simp only [List.map_cons, List.mem_cons]
        exact Or.inr h)

theorem pred_at_append (i : Nat) : ∀ (pre post : List index_cell) (x : Nat),
    pred_at i x (pre ++ post) = pred_at i (pred_at i x pre) post := by
  intro pre
  induction pre with
  | nil =>
    intro post x
    rfl
  | cons c pre ih =>
    intro post x
    simp only [List.cons_append, pred_at]
    exact ih post _

theorem first_at_mem (nil i : Nat) : ∀ post : List index_cell,
    first_at nil i post = nil ∨ first_at nil i post ∈ post.map (fun c => c.place) := by
  intro post
  induction post with
  | nil => exact Or.inl rfl
  | cons c post ih =>
    unfold first_at
    split_ifs
    · exact Or.inr (by simp)
    · rcases ih with h | h
      · exact Or.inl h
      · exact Or.inr (by
          simp only [List.map_cons, List.mem_cons]
          exact Or.inr h)

/-- The chain of level `i`, cut at the cursor. -/
theorem chained_split (sl : skip_list_s) (i : Nat) : ∀ (pre post : List index_cell) (x : Nat),
    chained sl i x (pre ++ post) → chained sl i (pred_at i x pre) post := by
  intro pre
  induction pre with
  | nil =>
    intro post x h
    exact h
  | cons c pre ih =>
    intro post x h
    simp only [List.cons_append] at h
    unfold chained at h
    unfold pred_at
    split_ifs at h ⊢ with hi
    · exact ih post c.place h.2
    · exact ih post x h

theorem chained_head (sl : skip_list_s) (i : Nat) : ∀ (post : List index_cell) (u : Nat),
    chained sl i u post → fwps_get sl u i = .ok (first_at sl.NIL i post) := by
  intro post
  induction post with
  | nil =>
    intro u h
    exact h
  | cons c post ih =>
    intro u h
    unfold chained at h
    unfold first_at
    split_ifs at h ⊢ with hi
    · exact h.1
    · exact ih u h

theorem chained_skip (sl : skip_list_s) (i : Nat) (c : index_cell) (hc : ¬ i < c.height) :
    ∀ (pre post : List index_cell) (x : Nat),
      chained sl i x (pre ++ c :: post) ↔ chained sl i x (pre ++ post) := by
  intro pre
  induction pre with
  | nil =>
    intro post x
    simp only [List.nil_append]
    conv_lhs => unfold chained
    rw [if_neg hc]
  | cons d pre ih =>
    intro post x
    simp only [List.cons_append]
    conv_lhs => unfold chained
    conv_rhs => unfold chained
    split_ifs with hd
    · rw [ih post d.place]
    · rw [ih post x]


theorem chained_retarget (sl sl1 : skip_list_s) (i : Nat) (hnil : sl1.NIL = sl.NIL)
    (x y : Nat) : ∀ post : List index_cell,
      fwps_get sl1 y i = fwps_get sl x i →
      (∀ b, b ∈ post.map (fun c => c.place) → fwps_get sl1 b i = fwps_get sl b i) →
      chained sl i x post → chained sl1 i y post := by
  intro post
  induction post with
  | nil =>
    intro hy _ h
    unfold chained at h ⊢
    rw [hy, hnil]
    exact h
  | cons c post ih =>
    intro hy hsame h
    unfold chained at h ⊢
    split_ifs at h ⊢ with hi
    · refine ⟨by rw [hy]; exact h.1, chained_congr sl sl1 i hnil post c.place ?_ h.2⟩
      intro b hb
      refine hsame b ?_
      rcases hb with rfl | hb
      · simp
      · simp only [List.map_cons, List.mem_cons]
        exact Or.inr hb
    · refine ih hy ?_ h
      intro b hb
      refine hsame b ?_
      simp only [List.map_cons, List.mem_cons]
      exact Or.inr hb

/-- The chain of level `i` after a cell with more than `i` forward pointers
has been linked in at the cursor. -/
theorem chained_insert (sl sl1 : skip_list_s) (i : Nat) (hnil : sl1.NIL = sl.NIL)
    (cnew : index_cell) (hi : i < cnew.height) : ∀ (pre post : List index_cell) (x : Nat),
      (x :: (pre ++ post).map (fun c => c.place)).Nodup →
      cnew.place ≠ x → cnew.place ∉ (pre ++ post).map (fun c => c.place) →
      fwps_get sl1 cnew.place i = fwps_get sl (pred_at i x pre) i →
      fwps_get sl1 (pred_at i x pre) i = .ok cnew.place →
      (∀ b, b ≠ pred_at i x pre → b ≠ cnew.place → fwps_get sl1 b i = fwps_get sl b i) →
      chained sl i x (pre ++ post) → chained sl1 i x (pre ++ cnew :: post) := by
  intro pre
  induction pre with
  | nil =>
    intro post x hnd hx hfresh hnew hu hsame h
    simp only [List.nil_append, pred_at] at *
    unfold chained
    rw [if_pos hi]
    refine ⟨hu, chained_retarget sl sl1 i hnil x cnew.place post hnew ?_ h⟩
    intro b hb
    refine hsame b ?_ ?_
    · rintro rfl
      exact (List.nodup_cons.mp hnd).1 hb
    · rintro rfl
      exact hfresh hb
  | cons c pre ih =>
    intro post x hnd hx hfresh hnew hu hsame h
    simp only [List.cons_append, List.map_cons] at hnd hfresh h ⊢
    have hnd2 := (List.nodup_cons.mp hnd).2
    have hxc : x ≠ c.place := by
      rintro rfl
      exact (List.nodup_cons.mp hnd).1 (by simp)
    have hxrest : x ∉ (pre ++ post).map (fun c => c.place) := by
      intro hmem
      exact (List.nodup_cons.mp hnd).1 (List.mem_cons_of_mem _ hmem)
    unfold chained at h ⊢
    unfold pred_at at hnew hu hsame
    split_ifs at h hnew hu hsame ⊢ with hc
    · have hux : x ≠ pred_at i c.place pre := by
        rcases pred_at_mem i pre c.place with e | e
        · rw [e]
          exact hxc
        · intro hh
          rw [← hh] at e
          exact hxrest (by
            rw [List.map_append]
            exact List.mem_append_left _ e)
      refine ⟨by rw [hsame x hux (Ne.symm hx)]; exact h.1, ?_⟩
      exact ih post c.place hnd2 (fun hh => hfresh (by rw [hh]; simp))
        (fun hh => hfresh (List.mem_cons_of_mem _ hh)) hnew hu hsame h.2
    · refine ih post x ?_ hx (fun hh => hfresh (List.mem_cons_of_mem _ hh)) hnew hu hsame h
      exact List.nodup_cons.mpr ⟨hxrest, (List.nodup_cons.mp hnd2).2⟩

/-- The chain of level `i` after the cell at the cursor, which has more than
`i` forward pointers, has been linked out. -/
theorem chained_remove (sl sl1 : skip_list_s) (i : Nat) (hnil : sl1.NIL = sl.NIL)
    (c : index_cell) (hi : i < c.height) : ∀ (pre post : List index_cell) (x : Nat),
      (x :: (pre ++ c :: post).map (fun c => c.place)).Nodup →
      fwps_get sl1 (pred_at i x pre) i = fwps_get sl c.place i →
      (∀ b, b ≠ pred_at i x pre → fwps_get sl1 b i = fwps_get sl b i) →
      chained sl i x (pre ++ c :: post) → chained sl1 i x (pre ++ post) := by
  intro pre
  induction pre with
  | nil =>
    intro post x hnd hu hsame h
    simp only [List.nil_append, pred_at, List.map_cons] at *
    unfold chained at h
    rw [if_pos hi] at h
    refine chained_retarget sl sl1 i hnil c.place x post hu ?_ h.2
    intro b hb
    refine hsame b ?_
    rintro rfl
    exact (List.nodup_cons.mp hnd).1 (List.mem_cons_of_mem _ hb)
  | cons d pre ih =>
    intro post x hnd hu hsame h
    simp only [List.cons_append, List.map_cons] at hnd h ⊢
    have hnd2 := (List.nodup_cons.mp hnd).2
    have hxd : x ≠ d.place := by
      rintro rfl
      exact (List.nodup_cons.mp hnd).1 (by simp)
    have hxrest : x ∉ (pre ++ c :: post).map (fun c => c.place) := by
      intro hmem
      exact (List.nodup_cons.mp hnd).1 (List.mem_cons_of_mem _ hmem)
    unfold chained at h ⊢
    unfold pred_at at hu hsame
    split_ifs at h hu hsame ⊢ with hd
    · have hux : x ≠ pred_at i d.place pre := by
        rcases pred_at_mem i pre d.place with e | e
        · rw [e]
          exact hxd
        · intro hh
          rw [← hh] at e
          exact hxrest (by
            rw [List.map_append]
            exact List.mem_append_left _ e)
      refine ⟨by rw [hsame x hux]; exact h.1, ih post d.place hnd2 hu hsame h.2⟩
    · exact ih post x (List.nodup_cons.mpr ⟨hxrest, (List.nodup_cons.mp hnd2).2⟩) hu hsame h


theorem back_split (sl : skip_list_s) : ∀ (pre post : List index_cell) (x : Nat),
    (∀ c ∈ pre, 0 < c.height) → back_chained sl x (pre ++ post) →
      back_chained sl (pred_at 0 x pre) post := by
  intro pre
  induction pre with
  | nil =>
    intro post x _ h
    exact h
  | cons c pre ih =>
    intro post x hh h
    simp only [List.cons_append] at h
    unfold back_chained at h
    unfold pred_at
    rw [if_pos (hh c (by simp))]
    exact ih post c.place (fun d hd => hh d (List.mem_cons_of_mem _ hd)) h.2

theorem back_head (sl : skip_list_s) (post : List index_cell) (u : Nat)
    (hh : ∀ c ∈ post, 0 < c.height) (h : back_chained sl u post) :
    prev_get sl (first_at sl.NIL 0 post) = .ok u := by
  cases post with
  | nil => exact h
  | cons c post =>
    unfold back_chained at h
    unfold first_at
    rw [if_pos (hh c (by simp))]
    exact h.1

/-- The backward pointers after a cell has been linked in at the cursor. -/
theorem back_insert (sl sl1 : skip_list_s) (hnil : sl1.NIL = sl.NIL) (cnew : index_cell) :
    ∀ (pre post : List index_cell) (x : Nat),
      (∀ c ∈ pre ++ post, 0 < c.height) →
      ((pre ++ post).map (fun c => c.place)).Nodup →
      sl.NIL ∉ (pre ++ post).map (fun c => c.place) →
      cnew.place ≠ sl.NIL → cnew.place ∉ (pre ++ post).map (fun c => c.place) →
      prev_get sl1 cnew.place = .ok (pred_at 0 x pre) →
      prev_get sl1 (first_at sl.NIL 0 post) = .ok cnew.place →
      (∀ b, b ≠ cnew.place → b ≠ first_at sl.NIL 0 post → prev_get sl1 b = prev_get sl b) →
      back_chained sl x (pre ++ post) → back_chained sl1 x (pre ++ cnew :: post) := by
  intro pre
  induction pre with
  | nil =>
    intro post x hh hnd hnilp hcn hfresh hnew hnext hsame h
    simp only [List.nil_append, pred_at] at *
    unfold back_chained
    refine ⟨hnew, ?_⟩
    cases post with
    | nil =>
      unfold back_chained
      rw [hnil]
      exact hnext
    | cons c post =>
      unfold first_at at hnext hsame
      rw [if_pos (hh c (by simp))] at hnext hsame
      unfold back_chained at h ⊢
      refine ⟨hnext, back_chained_congr sl sl1 hnil post c.place ?_ h.2⟩
      simp only [List.map_cons, List.nodup_cons, List.mem_cons, not_or] at hnd hnilp hfresh
      intro b hb
      refine hsame b ?_ ?_
      · rintro rfl
        rcases hb with hb | hb
        · exact hcn hb
        · exact hfresh.2 hb
      · rintro rfl
        rcases hb with hb | hb
        · exact hnilp.1 hb.symm
        · exact hnd.1 hb
  | cons d pre ih =>
    intro post x hh hnd hnilp hcn hfresh hnew hnext hsame h
    simp only [List.cons_append, List.map_cons, List.nodup_cons, List.mem_cons, not_or] at *
    unfold back_chained at h ⊢
    unfold pred_at at hnew
    rw [if_pos (hh d (Or.inl rfl))] at hnew
    refine ⟨?_, ih post d.place (fun c hc => hh c (Or.inr hc)) hnd.2 hnilp.2 hcn hfresh.2 hnew
      hnext hsame h.2⟩
    rw [hsame d.place (Ne.symm hfresh.1) ?_]
    · exact h.1
    · intro hd
      rcases first_at_mem sl.NIL 0 post with e | e
      · exact hnilp.1 (by rw [← e, ← hd])
      · rw [← hd] at e
        exact hnd.1 (by
          rw [List.map_append]
          exact List.mem_append_right _ e)

/-- The backward pointers after the cell at the cursor has been linked out. -/
theorem back_remove (sl sl1 : skip_list_s) (hnil : sl1.NIL = sl.NIL) (c : index_cell) :
    ∀ (pre post : List index_cell) (x : Nat),
      (∀ d ∈ pre ++ c :: post, 0 < d.height) →
      ((pre ++ c :: post).map (fun c => c.place)).Nodup →
      sl.NIL ∉ (pre ++ c :: post).map (fun c => c.place) →
      prev_get sl1 (first_at sl.NIL 0 post) = .ok (pred_at 0 x pre) →
      (∀ b, b ≠ first_at sl.NIL 0 post → prev_get sl1 b = prev_get sl b) →
      back_chained sl x (pre ++ c :: post) → back_chained sl1 x (pre ++ post) := by
  intro pre
  induction pre with
  | nil =>
    intro post x hh hnd hnilp hnext hsame h
    simp only [List.nil_append, pred_at] at *
    unfold back_chained at h
    cases post with
    | nil =>
      unfold back_chained
      rw [hnil]
      exact hnext
    | cons e post =>
      unfold first_at at hnext hsame
      rw [if_pos (hh e (by simp))] at hnext hsame
      have h2 := h.2
      unfold back_chained at h2 ⊢
      refine ⟨hnext, back_chained_congr sl sl1 hnil post e.place ?_ h2.2⟩
      simp only [List.map_cons, List.nodup_cons, List.mem_cons, not_or] at hnd hnilp
      intro b hb
      refine hsame b ?_
      rintro rfl
      rcases hb with hb | hb
      · exact hnilp.2.1 hb.symm
      · exact hnd.2.1 hb
  | cons d pre ih =>
    intro post x hh hnd hnilp hnext hsame h
    simp only [List.cons_append, List.map_cons, List.nodup_cons, List.mem_cons, not_or] at *
    unfold back_chained at h ⊢
    unfold pred_at at hnext
    rw [if_pos (hh d (Or.inl rfl))] at hnext
    refine ⟨?_, ih post d.place (fun c hc => hh c (Or.inr hc)) hnd.2 hnilp.2 hnext hsame h.2⟩
    rw [hsame d.place ?_]
    · exact h.1
    · intro hd
      rcases first_at_mem sl.NIL 0 post with e | e
      · exact hnilp.1 (by rw [← e, ← hd])
      · rw [← hd] at e
        exact hnd.1 (by
          rw [List.map_append]
          exact List.mem_append_right _ (List.mem_cons_of_mem _ e))

/-! ## The search in the skip list -/

theorem index_inv_known (sl : skip_list_s) (pool : pool_of_masking_partials_s)
    (pre post : List index_cell) (hI : index_inv sl pool pre post) :
    ∀ c ∈ pre ++ post, cell_known sl pool c := by
  intro c hc
  obtain ⟨h1, h2, -, -, h5, h6⟩ := hI.cells c hc
  have hb := hI.base
  exact ⟨by omega, h5, h6⟩

theorem key_of_load (pool : pool_of_masking_partials_s) (d : Nat) (mp : masking_partial_s)
    (h : masking_partial_load pool d = .ok mp) : key_of pool d = mp.freqB := by
  unfold key_of
  rw [h]

theorem wrap_compare_nil (sl : skip_list_s) (pool : pool_of_masking_partials_s) (data : Nat) :
    skip_list_wrap_compare sl pool data sl.NIL = .ok INT_MIN := by
  unfold skip_list_wrap_compare
  rw [if_pos rfl]

theorem wrap_compare_cell (sl : skip_list_s) (pool : pool_of_masking_partials_s) (data : Nat)
    (c : index_cell) (hk : cell_known sl pool c)
    (hd : ∃ mp, masking_partial_load pool data = .ok mp) :
    skip_list_wrap_compare sl pool data c.place =
      .ok (c_bool (decide (key_of pool c.data < key_of pool data)) -
        c_bool (decide (key_of pool data < key_of pool c.data))) := by
  obtain ⟨hne, ⟨v, hv, -, hdata⟩, mp2, hmp2⟩ := hk
  obtain ⟨mp1, hmp1⟩ := hd
  unfold skip_list_wrap_compare
  rw [if_neg hne, hv]
  simp only [bind, Except.bind, hdata]
  unfold compare_frequencies
  rw [hmp1, hmp2]
  simp only [bind, Except.bind, pure, Except.pure]
  rw [key_of_load pool _ _ hmp1, key_of_load pool _ _ hmp2]

theorem wrap_compare_below (sl : skip_list_s) (pool : pool_of_masking_partials_s) (data : Nat)
    (c : index_cell) (hk : cell_known sl pool c)
    (hd : ∃ mp, masking_partial_load pool data = .ok mp)
    (hlt : key_of pool c.data < key_of pool data) :
    skip_list_wrap_compare sl pool data c.place = .ok 1 := by
  rw [wrap_compare_cell sl pool data c hk hd]
  have h2 : ¬ key_of pool data < key_of pool c.data := not_lt.mpr hlt.le
  simp [c_bool, hlt, h2]

theorem wrap_compare_above (sl : skip_list_s) (pool : pool_of_masking_partials_s) (data : Nat)
    (c : index_cell) (hk : cell_known sl pool c)
    (hd : ∃ mp, masking_partial_load pool data = .ok mp)
    (hle : key_of pool data ≤ key_of pool c.data) :
    ∃ v, skip_list_wrap_compare sl pool data c.place = .ok v ∧ ¬ v > 0 ∧
      (v = 0 ↔ key_of pool c.data = key_of pool data) := by
  rw [wrap_compare_cell sl pool data c hk hd]
  have h1 : ¬ key_of pool c.data < key_of pool data := not_lt.mpr hle
  refine ⟨_, rfl, ?_, ?_⟩
  · simp only [c_bool, h1, decide_False, Bool.false_eq_true, if_false]
    split_ifs <;> decide
  · simp only [c_bool, h1, decide_False, Bool.false_eq_true, if_false]
    constructor
    · intro h
      by_cases h2 : key_of pool data < key_of pool c.data
      · simp [h2] at h
      · exact le_antisymm (not_lt.mp h2) hle
    · intro h
      have h2 : ¬ key_of pool data < key_of pool c.data := by
        rw [h]
        exact lt_irrefl _
      simp [h2]

/-- The walk of `skip_list_search` at level `i` from the head `x` of a chain
whose first cells `restL` are below `data` and whose others are not: it stops
on the last cell of `restL` that has the level. -/
theorem search_walk_head (sl : skip_list_s) (pool : pool_of_masking_partials_s) (data i : Nat)
    (hd : ∃ mp, masking_partial_load pool data = .ok mp) (restR : List index_cell)
    (hR : ∀ c ∈ restR, cell_known sl pool c ∧ key_of pool data ≤ key_of pool c.data) :
    ∀ (restL : List index_cell) (x fuel : Nat),
      (∀ c ∈ restL, cell_known sl pool c ∧ key_of pool c.data < key_of pool data) →
      chained sl i x (restL ++ restR) → restL.length < fuel →
      search_walk sl pool data i fuel x = .ok (pred_at i x restL) := by
  intro restL
  induction restL with
  | nil =>
    intro x fuel _ hch hfuel
    obtain ⟨f, rfl⟩ : ∃ f, fuel = f + 1 := ⟨fuel - 1, by simp at hfuel; omega⟩
    simp only [List.nil_append] at hch
    have hnext := chained_head sl i restR x hch
    unfold search_walk
    rw [hnext]
    simp only [bind, Except.bind]
    rcases first_at_mem sl.NIL i restR with e | e
    · rw [e, wrap_compare_nil]
      simp only []
      rw [if_neg (by decide)]
      rfl
    · obtain ⟨c, hc, hcp⟩ := List.mem_map.mp e
      obtain ⟨v, hv, hnp, -⟩ := wrap_compare_above sl pool data c (hR c hc).1 hd (hR c hc).2
      rw [← hcp, hv]
      simp only []
      rw [if_neg hnp]
      rfl
  | cons c restL ih =>
    intro x fuel hL hch hfuel
    simp only [List.cons_append] at hch
    unfold chained at hch
    unfold pred_at
    split_ifs at hch ⊢ with hi
    · obtain ⟨f, rfl⟩ : ∃ f, fuel = f + 1 := ⟨fuel - 1, by simp at hfuel; omega⟩
      unfold search_walk
      rw [hch.1]
      simp only [bind, Except.bind]
      rw [wrap_compare_below sl pool data c (hL c (by simp)).1 hd (hL c (by simp)).2]
      simp only []
      rw [if_pos (by decide)]
      exact ih c.place f (fun d hd2 => hL d (List.mem_cons_of_mem _ hd2)) hch.2
        (by simp at hfuel; omega)
    · exact ih x fuel (fun d hd2 => hL d (List.mem_cons_of_mem _ hd2)) hch
        (by simp at hfuel; omega)


theorem pred_at_low (k : Nat) : ∀ (l : List index_cell) (y : Nat),
    (∀ c ∈ l, ¬ k < c.height) → pred_at k y l = y := by
  intro l
  induction l with
  | nil =>
    intro y _
    rfl
  | cons c l ih =>
    intro y h
    unfold pred_at
    rw [if_neg (h c (by simp))]
    exact ih y (fun d hd => h d (List.mem_cons_of_mem _ hd))

theorem pred_at_tall (k : Nat) : ∀ (l : List index_cell) (y z : Nat),
    (∃ c ∈ l, k < c.height) → pred_at k y l = pred_at k z l := by
  intro l
  induction l with
  | nil =>
    intro y z h
    obtain ⟨c, hc, -⟩ := h
    cases hc
  | cons c l ih =>
    intro y z h
    unfold pred_at
    by_cases hk : k < c.height
    · rw [if_pos hk, if_pos hk]
    · rw [if_neg hk, if_neg hk]
      obtain ⟨d, hd, hdk⟩ := h
      rcases List.mem_cons.mp hd with rfl | hd
      · exact absurd hdk hk
      · exact ih y z ⟨d, hd, hdk⟩

/-- The walk of `skip_list_search` at level `i`, from the cell where the walk
at a level `k` above has stopped. -/
theorem search_walk_from (sl : skip_list_s) (pool : pool_of_masking_partials_s)
    (data i k : Nat) (hik : i ≤ k) (hd : ∃ mp, masking_partial_load pool data = .ok mp)
    (restR : List index_cell)
    (hR : ∀ c ∈ restR, cell_known sl pool c ∧ key_of pool data ≤ key_of pool c.data) :
    ∀ (restL : List index_cell) (x fuel : Nat),
      (∀ c ∈ restL, cell_known sl pool c ∧ key_of pool c.data < key_of pool data) →
      chained sl i x (restL ++ restR) → restL.length < fuel →
      search_walk sl pool data i fuel (pred_at k x restL) = .ok (pred_at i x restL) := by
  intro restL
  induction restL with
  | nil =>
    intro x fuel hL hch hfuel
    exact search_walk_head sl pool data i hd restR hR [] x fuel hL hch hfuel
  | cons c restL ih =>
    intro x fuel hL hch hfuel
    have hL2 : ∀ d ∈ restL, cell_known sl pool d ∧ key_of pool d.data < key_of pool data :=
      fun d hd2 => hL d (List.mem_cons_of_mem _ hd2)
    have hfuel2 : restL.length < fuel := by
      simp at hfuel
      omega
    by_cases hi : i < c.height
    · have hch2 : chained sl i c.place (restL ++ restR) := by
        simp only [List.cons_append] at hch
        unfold chained at hch
        rw [if_pos hi] at hch
        exact hch.2
      have hgoal : pred_at i x (c :: restL) = pred_at i c.place restL := by
        conv_lhs => unfold pred_at
        rw [if_pos hi]
      by_cases hk : k < c.height
      · have hstart : pred_at k x (c :: restL) = pred_at k c.place restL := by
          conv_lhs => unfold pred_at
          rw [if_pos hk]
        rw [hstart, hgoal]
        exact ih c.place fuel hL2 hch2 hfuel2
      · have hstart : pred_at k x (c :: restL) = pred_at k x restL := by
          conv_lhs => unfold pred_at
          rw [if_neg hk]
        by_cases htall : ∃ d ∈ restL, k < d.height
        · rw [hstart, hgoal, pred_at_tall k restL x c.place htall]
          exact ih c.place fuel hL2 hch2 hfuel2
        · rw [hstart, pred_at_low k restL x (fun d hd2 hdk => htall ⟨d, hd2, hdk⟩)]
          exact search_walk_head sl pool data i hd restR hR (c :: restL) x fuel hL hch hfuel
    · have hk : ¬ k < c.height := by omega
      have hch2 : chained sl i x (restL ++ restR) := by
        simp only [List.cons_append] at hch
        unfold chained at hch
        rw [if_neg hi] at hch
        exact hch
      have hgoal : pred_at i x (c :: restL) = pred_at i x restL := by
        conv_lhs => unfold pred_at
        rw [if_neg hi]
      have hstart : pred_at k x (c :: restL) = pred_at k x restL := by
        conv_lhs => unfold pred_at
        rw [if_neg hk]
      rw [hstart, hgoal]
      exact ih x fuel hL2 hch2 hfuel2

theorem search_walk_update (sl : skip_list_s) (up : List Nat)
    (pool : pool_of_masking_partials_s) (data i : Nat) : ∀ (fuel x : Nat),
    search_walk { sl with update := up } pool data i fuel x =
      search_walk sl pool data i fuel x := by
  intro fuel
  induction fuel with
  | zero =>
    intro x
    rfl
  | succ f ih =>
    intro x
    unfold search_walk
    have h1 : fwps_get { sl with update := up } x i = fwps_get sl x i := rfl
    have h2 : ∀ nxt, skip_list_wrap_compare { sl with update := up } pool data nxt =
        skip_list_wrap_compare sl pool data nxt := fun _ => rfl
    rw [h1]
    cases fwps_get sl x i with
    | error e => rfl
    | ok nxt =>
      simp only [bind, Except.bind]
      rw [h2]
      cases skip_list_wrap_compare sl pool data nxt with
      | error e => rfl
      | ok cmp =>
        simp only []
        split_ifs
        · exact ih nxt
        · rfl


/-- The loop over the levels of `skip_list_search`: at each level the walk
stops on the last cell below `data`, which is stored in `update`. -/
theorem search_levels_spec (sl : skip_list_s) (pool : pool_of_masking_partials_s) (data : Nat)
    (hd : ∃ mp, masking_partial_load pool data = .ok mp) (restL restR : List index_cell)
    (hL : ∀ c ∈ restL, cell_known sl pool c ∧ key_of pool c.data < key_of pool data)
    (hR : ∀ c ∈ restR, cell_known sl pool c ∧ key_of pool data ≤ key_of pool c.data)
    (hfuel : restL.length ≤ sl.cell_pool.length) :
    ∀ (n : Nat) (up : List Nat), n ≤ up.length →
      (∀ i, i < n → chained sl i sl.header (restL ++ restR)) →
      ∃ up1, search_levels pool data n { sl with update := up } (pred_at n sl.header restL) =
          .ok ({ sl with update := up1 }, pred_at 0 sl.header restL) ∧
        up1.length = up.length ∧
        (∀ i, i < n → up1[i]? = some (pred_at i sl.header restL)) ∧
        ∀ i, n ≤ i → up1[i]? = up[i]? := by
  intro n
  induction n with
  | zero =>
    intro up _ _
    exact ⟨up, rfl, rfl, fun i hi => absurd hi (Nat.not_lt_zero i), fun _ _ => rfl⟩
  | succ n ih =>
    intro up hn hch
    have hwalk : search_walk { sl with update := up } pool data n
        (({ sl with update := up } : skip_list_s).cell_pool.length + 1)
        (pred_at (n + 1) sl.header restL) = .ok (pred_at n sl.header restL) := by
      rw [search_walk_update]
      exact search_walk_from sl pool data n (n + 1) (Nat.le_succ n) hd restR hR restL sl.header
        _ hL (hch n (Nat.lt_succ_self n)) (Nat.lt_succ_of_le hfuel)
    obtain ⟨up1, h1, h2, h3, h4⟩ := ih (up.set n (pred_at n sl.header restL))
      (by rw [List.length_set]; omega) (fun i hi => hch i (by omega))
    refine ⟨up1, ?_, by rw [h2, List.length_set], ?_, ?_⟩
    · unfold search_levels
      rw [hwalk]
      simp only [bind, Except.bind]
      rw [array_set_ok _ _ _ (show n < up.length by omega)]
      exact h1
    · intro i hi
      by_cases hin : i = n
      · subst hin
        rw [h4 i (Nat.le_refl i)]
        exact List.getElem?_set_self (by omega)
      · exact h3 i (by omega)
    · intro i hi
      rw [h4 i (by omega)]
      exact List.getElem?_set_ne (by omega)

theorem compare_value_zero (a b : ℚ) :
    c_bool (decide (a < b)) - c_bool (decide (b < a)) = 0 ↔ a = b := by
  unfold c_bool
  rcases lt_trichotomy a b with h | h | h
  · have h2 : ¬ b < a := not_lt.mpr h.le
    simp [h, h2, h.ne]
  · subst h
    simp
  · have h2 : ¬ a < b := not_lt.mpr h.le
    simp [h, h2, h.ne']

theorem sorted_dropWhile (pool : pool_of_masking_partials_s) (K : ℚ) :
    ∀ l : List index_cell, (l.map (fun c => key_of pool c.data)).Pairwise (fun a b => a ≤ b) →
      ∀ c ∈ l.dropWhile (fun c => decide (key_of pool c.data < K)), K ≤ key_of pool c.data := by
  intro l
  induction l with
  | nil =>
    intro _ c hc
    cases hc
  | cons d l ih =>
    intro hs c hc
    simp only [List.map_cons, List.pairwise_cons] at hs
    by_cases hd : key_of pool d.data < K
    · rw [List.dropWhile_cons_of_pos (by simpa using hd)] at hc
      exact ih hs.2 c hc
    · rw [List.dropWhile_cons_of_neg (by simpa using hd)] at hc
      rcases List.mem_cons.mp hc with rfl | hc
      · exact not_lt.mp hd
      · exact le_trans (not_lt.mp hd) (hs.1 _ (List.mem_map.mpr ⟨c, hc, rfl⟩))

/-- The invariant for another cursor on the same cells. -/
theorem index_inv_cursor (sl : skip_list_s) (pool : pool_of_masking_partials_s)
    (pre post pre1 post1 : List index_cell) (up : List Nat)
    (hI : index_inv sl pool pre post) (hcells : pre1 ++ post1 = pre ++ post)
    (hlen : up.length = SKIP_LIST_MAX_LEVEL)
    (hcur : ∀ i, i < SKIP_LIST_MAX_LEVEL → up[i]? = some (pred_at i sl.header pre1))
    (hbound : ∃ K : ℚ, (∀ c ∈ pre1, key_of pool c.data < K) ∧
      (∀ c ∈ post1, K ≤ key_of pool c.data)) :
    index_inv { sl with update := up } pool pre1 post1 := by
  refine
    { header_ne := hI.header_ne
      header_cell := hI.header_cell
      nil_cell := hI.nil_cell
      base := hI.base
      update_length := hlen
      level_range := hI.level_range
      places := by rw [hcells]; exact hI.places
      cells := by rw [hcells]; exact hI.cells
      chains := ?_
      back := ?_
      sorted := by rw [hcells]; exact hI.sorted
      cursor := hcur
      bound := hbound }
  · intro i hi
    rw [hcells]
    exact chained_congr sl { sl with update := up } i rfl _ _ (fun _ _ => rfl) (hI.chains i hi)
  · rw [hcells]
    exact back_chained_congr sl { sl with update := up } rfl _ _ (fun _ _ => rfl) hI.back


theorem cell_load_mem (sl : skip_list_s) (a : Nat) (v : skip_list_cell_s)
    (h : cell_load sl a = .ok v) : a ∈ sl.cell_pool.map (fun x => x.1) := by
  unfold cell_load at h
  by_contra hmem
  have hnone : sl.cell_pool.lookup a = none := by
    rw [List.lookup_eq_none_iff]
    intro p hp
    have : ¬ a = p.1 := by
      rintro rfl
      exact hmem (List.mem_map.mpr ⟨p, hp, rfl⟩)
    simpa using this
  rw [hnone] at h
  cases h

/-- The pool has at least as many cells as the index. -/
theorem index_size (sl : skip_list_s) (pool : pool_of_masking_partials_s)
    (pre post : List index_cell) (hI : index_inv sl pool pre post) :
    (pre ++ post).length ≤ sl.cell_pool.length := by
  have hsub : (pre ++ post).map (fun c => c.place) ⊆ sl.cell_pool.map (fun x => x.1) := by
    intro a ha
    obtain ⟨c, hc, rfl⟩ := List.mem_map.mp ha
    obtain ⟨-, -, -, -, ⟨v, hv, -⟩, -⟩ := hI.cells c hc
    exact cell_load_mem sl _ v hv
  have := (List.Nodup.subperm hI.places hsub).length_le
  simpa using this

theorem index_heights (sl : skip_list_s) (pool : pool_of_masking_partials_s)
    (pre post : List index_cell) (hI : index_inv sl pool pre post) (i : Nat)
    (hi : sl.level ≤ (i : Int)) : ∀ c ∈ pre ++ post, ¬ i < c.height := by
  intro c hc
  obtain ⟨-, -, -, h4, -⟩ := hI.cells c hc
  omega

/-- The cell after the cursor. -/
theorem index_current (sl : skip_list_s) (pool : pool_of_masking_partials_s)
    (pre post : List index_cell) (hI : index_inv sl pool pre post) :
    array_get sl.update 0 = .ok (pred_at 0 sl.header pre) ∧
      fwps_get sl (pred_at 0 sl.header pre) 0 = .ok (first_at sl.NIL 0 post) := by
  have h0 : 0 < SKIP_LIST_MAX_LEVEL := by decide
  refine ⟨(array_get_eq_ok _ _ _).mpr (hI.cursor 0 h0), ?_⟩
  exact chained_head sl 0 post _ (chained_split sl 0 pre post sl.header (hI.chains 0 h0))

theorem first_at_cons (sl : skip_list_s) (pool : pool_of_masking_partials_s)
    (pre post : List index_cell) (c : index_cell) (hI : index_inv sl pool pre (c :: post)) :
    first_at sl.NIL 0 (c :: post) = c.place := by
  obtain ⟨-, -, h3, -⟩ := hI.cells c (by simp)
  unfold first_at
  rw [if_pos (by omega)]

/-- The function `skip_list_search` returns and leaves the cursor at the
place of `data`: after the cells below `data` and before the others. -/
theorem skip_list_search_spec (sl : skip_list_s) (pool : pool_of_masking_partials_s)
    (pre post : List index_cell) (data : Nat) (hI : index_inv sl pool pre post)
    (hd : ∃ mp, masking_partial_load pool data = .ok mp) :
    ∃ (up : List Nat) (found : Option Nat) (pre1 post1 : List index_cell),
      skip_list_search sl pool data = .ok ({ sl with update := up }, found) ∧
      pre1 ++ post1 = pre ++ post ∧ index_inv { sl with update := up } pool pre1 post1 ∧
      (∀ c ∈ pre1, key_of pool c.data < key_of pool data) ∧
      (∀ c ∈ post1, key_of pool data ≤ key_of pool c.data) := by
  obtain ⟨hu0, hlast⟩ := index_current sl pool pre post hI
  have hknown := index_inv_known sl pool pre post hI
  -- the search through the levels
  have full : ∀ cmp : Int, skip_list_wrap_compare sl pool data (first_at sl.NIL 0 post) = .ok cmp →
      cmp ≠ 0 →
      ∃ (up : List Nat) (found : Option Nat) (pre1 post1 : List index_cell),
        skip_list_search sl pool data = .ok ({ sl with update := up }, found) ∧
        pre1 ++ post1 = pre ++ post ∧ index_inv { sl with update := up } pool pre1 post1 ∧
        (∀ c ∈ pre1, key_of pool c.data < key_of pool data) ∧
        (∀ c ∈ post1, key_of pool data ≤ key_of pool c.data) := by
    intro cmp hcmp hne
    have hsplit := List.takeWhile_append_dropWhile
      (fun c : index_cell => decide (key_of pool c.data < key_of pool data)) (pre ++ post)
    generalize hL : (pre ++ post).takeWhile
      (fun c : index_cell => decide (key_of pool c.data < key_of pool data)) = restL at hsplit
    generalize hR : (pre ++ post).dropWhile
      (fun c : index_cell => decide (key_of pool c.data < key_of pool data)) = restR at hsplit
    have hLk : ∀ c ∈ restL, key_of pool c.data < key_of pool data := by
      intro c hc
      rw [← hL] at hc
      simpa using List.mem_takeWhile_imp hc
    have hRk : ∀ c ∈ restR, key_of pool data ≤ key_of pool c.data := by
      intro c hc
      rw [← hR] at hc
      exact sorted_dropWhile pool _ _ hI.sorted c hc
    have hLm : ∀ c ∈ restL, c ∈ pre ++ post := fun c hc => by
      rw [← hsplit]
      exact List.mem_append_left _ hc
    have hRm : ∀ c ∈ restR, c ∈ pre ++ post := fun c hc => by
      rw [← hsplit]
      exact List.mem_append_right _ hc
    have hlev := hI.level_range
    have hmax : SKIP_LIST_MAX_LEVEL = 32 := rfl
    have hstart : pred_at sl.level.toNat sl.header restL = sl.header :=
      pred_at_low _ _ _ (fun c hc => index_heights sl pool pre post hI _ (by omega) c (hLm c hc))
    obtain ⟨up1, h1, h2, h3, h4⟩ := search_levels_spec sl pool data hd restL restR
      (fun c hc => ⟨hknown c (hLm c hc), hLk c hc⟩) (fun c hc => ⟨hknown c (hRm c hc), hRk c hc⟩)
      (by
        have := index_size sl pool pre post hI
        rw [← hsplit, List.length_append] at this
        omega)
      sl.level.toNat sl.update (by rw [hI.update_length]; omega)
      (fun i hi => by
        rw [hsplit]
        exact hI.chains i (by omega))
    rw [hstart] at h1
    have hcur : ∀ i, i < SKIP_LIST_MAX_LEVEL → up1[i]? = some (pred_at i sl.header restL) := by
      intro i hi
      by_cases hil : i < sl.level.toNat
      · exact h3 i hil
      · rw [h4 i (by omega), hI.cursor i hi,
          pred_at_low i pre _ (fun c hc => index_heights sl pool pre post hI i (by omega) c
            (List.mem_append_left _ hc)),
          pred_at_low i restL _ (fun c hc => index_heights sl pool pre post hI i (by omega) c
            (hLm c hc))]
    have hI1 := index_inv_cursor sl pool pre post restL restR up1 hI hsplit
      (by rw [h2, hI.update_length]) hcur ⟨key_of pool data, hLk, hRk⟩
    obtain ⟨-, hlast1⟩ := index_current _ pool restL restR hI1
    have hres : ∃ found, skip_list_search sl pool data = .ok ({ sl with update := up1 }, found) := by
      unfold skip_list_search
      rw [hu0]
      simp only [bind, Except.bind]
      rw [hlast]
      simp only []
      rw [hcmp]
      simp only []
      rw [if_neg hne]
      have e : ({ sl with update := sl.update } : skip_list_s) = sl := rfl
      rw [e] at h1
      rw [h1]
      simp only []
      rw [hlast1]
      simp only []
      rcases first_at_mem sl.NIL 0 restR with e1 | e1
      · have e2 : first_at ({ sl with update := up1 } : skip_list_s).NIL 0 restR = sl.NIL := e1
        rw [e2]
        have := wrap_compare_nil { sl with update := up1 } pool data
        rw [show ({ sl with update := up1 } : skip_list_s).NIL = sl.NIL from rfl] at this
        rw [this]
        simp only []
        rw [if_neg (by decide)]
        exact ⟨none, rfl⟩
      · obtain ⟨c, hc, hcp⟩ := List.mem_map.mp e1
        have e2 : first_at ({ sl with update := up1 } : skip_list_s).NIL 0 restR = c.place :=
          hcp.symm
        rw [e2]
        have hk := index_inv_known _ pool restL restR hI1 c (List.mem_append_right _ hc)
        rw [wrap_compare_cell _ pool data c hk hd]
        simp only []
        obtain ⟨-, ⟨v, hv, -⟩, -⟩ := hk
        split_ifs
        · rw [hv]
          exact ⟨_, rfl⟩
        · exact ⟨none, rfl⟩
    obtain ⟨found, hfound⟩ := hres
    exact ⟨up1, found, restL, restR, hfound, hsplit, hI1, hLk, hRk⟩
  cases post with
  | nil =>
    exact full INT_MIN (wrap_compare_nil sl pool data) (by decide)
  | cons c0 post =>
    have hfirst := first_at_cons sl pool pre post c0 hI
    have hk0 := hknown c0 (by simp)
    have hcmp := wrap_compare_cell sl pool data c0 hk0 hd
    by_cases heq : key_of pool c0.data = key_of pool data
    · -- the cell of the last search has the frequency of `data`
      obtain ⟨-, ⟨v, hv, -⟩, -⟩ := hk0
      obtain ⟨K, hK1, hK2⟩ := hI.bound
      refine ⟨sl.update, v.data, pre, c0 :: post, ?_, rfl, hI, ?_, ?_⟩
      · unfold skip_list_search
        rw [hu0]
        simp only [bind, Except.bind]
        rw [hlast, hfirst]
        simp only []
        rw [hcmp]
        simp only []
        rw [if_pos ((compare_value_zero _ _).mpr heq), hv]
        rfl
      · intro c hc
        have := hK2 c0 (by simp)
        rw [← heq]
        exact lt_of_lt_of_le (hK1 c hc) this
      · intro c hc
        rw [← heq]
        rcases List.mem_cons.mp hc with rfl | hc
        · exact le_refl _
        · have hs := hI.sorted
          rw [List.map_append, List.pairwise_append] at hs
          have hs2 := hs.2.1
          simp only [List.map_cons, List.pairwise_cons] at hs2
          exact hs2.1 _ (List.mem_map.mpr ⟨c, hc, rfl⟩)
    · rw [← hfirst] at hcmp
      exact full _ hcmp (fun h0 => heq ((compare_value_zero _ _).mp h0))

/-! ## Insertion in the skip list -/

theorem random_level_loop_ge (c : libc) : ∀ (fuel : Nat) (g g1 : globals) (level r : Int),
    random_level_loop c fuel g level = .ok (g1, r) → level ≤ r := by
  intro fuel
  induction fuel with
  | zero =>
    intro g g1 level r h
    cases h
  | succ f ih =>
    intro g g1 level r h
    unfold random_level_loop at h
    simp only [] at h
    split_ifs at h with h1 h2 h3 <;>
      first
      | (have hle := ih _ _ _ _ h
         omega)
      | (simp only [Except.ok.injEq, Prod.mk.injEq] at h
         omega)

/-- The level that `random_level` returns is between 1 and
`SKIP_LIST_MAX_LEVEL`. -/
theorem random_level_range (c : libc) (g g1 : globals) (level : Int)
    (h : random_level c g = .ok (g1, level)) : 1 ≤ level ∧ level ≤ SKIP_LIST_MAX_LEVEL := by
  unfold random_level at h
  simp only [bind_ok_iff] at h
  obtain ⟨⟨g2, r⟩, hloop, h⟩ := h
  simp only [pure, Except.pure, Except.ok.injEq, Prod.mk.injEq] at h
  have hr := random_level_loop_ge c _ _ _ _ _ hloop
  obtain ⟨-, rfl⟩ := h
  have hmax : (SKIP_LIST_MAX_LEVEL : Int) = 32 := rfl
  split_ifs with hle
  · exact ⟨hr, hle⟩
  · exact ⟨by omega, le_refl _⟩

theorem set_getElem_same {α : Type} (l : List α) (i : Nat) (a : α) (h : l[i]? = some a) :
    l.set i a = l := by
  apply List.ext_getElem?
  intro j
  by_cases hj : j = i
  · subst hj
    rw [List.getElem?_set_self (List.getElem?_eq_some_iff.mp h).1, h]
  · rw [List.getElem?_set_ne (Ne.symm hj)]

theorem pred_at_height (i : Nat) : ∀ (pre : List index_cell) (x : Nat),
    pred_at i x pre = x ∨ ∃ c ∈ pre, c.place = pred_at i x pre ∧ i < c.height := by
  intro pre
  induction pre with
  | nil =>
    intro x
    exact Or.inl rfl
  | cons c pre ih =>
    intro x
    unfold pred_at
    rcases ih (if i < c.height then c.place else x) with h | ⟨d, hd, h1, h2⟩
    · rw [h]
      split_ifs with hc
      · exact Or.inr ⟨c, by simp, rfl, hc⟩
      · exact Or.inl rfl
    · exact Or.inr ⟨d, List.mem_cons_of_mem _ hd, h1, h2⟩

/-- The statement `if (sl->level < level) ...` of `skip_list_insert` only
raises the level: the cells of `update` that it writes held the header
already. -/
theorem raise_level_spec (sl : skip_list_s) (pool : pool_of_masking_partials_s)
    (pre post : List index_cell) (hI : index_inv sl pool pre post) (level : Int)
    (hlev : level ≤ SKIP_LIST_MAX_LEVEL) :
    raise_level sl level = .ok { sl with level := max sl.level level } := by
  have hmax : SKIP_LIST_MAX_LEVEL = 32 := rfl
  have hr := hI.level_range
  unfold raise_level
  split_ifs with hlt
  · have hloop : for_loop (fun i (t : skip_list_s) => do
          let up ← array_set t.update i t.header
          pure { t with update := up })
        (level - sl.level).toNat sl.level.toNat sl = .ok sl := by
      obtain ⟨t, ht, rfl⟩ := for_loop_inv (fun i (t : skip_list_s) => do
          let up ← array_set t.update i t.header
          pure { t with update := up }) (fun _ t => t = sl)
        (level - sl.level).toNat sl.level.toNat sl rfl (fun j t hj1 hj2 ht => by
          subst ht
          have hj : j < SKIP_LIST_MAX_LEVEL := by omega
          have hcur := hI.cursor j hj
          rw [pred_at_low j pre _ (fun c hc => index_heights t pool pre post hI j (by omega) c
            (List.mem_append_left _ hc))] at hcur
          refine ⟨t, ?_, rfl⟩
          simp only [bind, Except.bind]
          rw [array_set_ok _ _ _ (List.getElem?_eq_some_iff.mp hcur).1,
            set_getElem_same _ _ _ hcur]
          rfl)
      exact ht
    refine bind_ok_of _ _ _ _ hloop ?_
    simp only [pure, Except.pure]
    rw [max_eq_right hlt.le]
  · simp only [pure, Except.pure]
    rw [max_eq_left (not_lt.mp hlt)]

theorem index_inv_level (sl : skip_list_s) (pool : pool_of_masking_partials_s)
    (pre post : List index_cell) (hI : index_inv sl pool pre post) (level : Int)
    (h1 : sl.level ≤ level) (h2 : level ≤ SKIP_LIST_MAX_LEVEL) :
    index_inv { sl with level := level } pool pre post := by
  refine
    { header_ne := hI.header_ne
      header_cell := hI.header_cell
      nil_cell := hI.nil_cell
      base := hI.base
      update_length := hI.update_length
      level_range := ⟨le_trans hI.level_range.1 h1, h2⟩
      places := hI.places
      cells := ?_
      chains := ?_
      back := ?_
      sorted := hI.sorted
      cursor := hI.cursor
      bound := hI.bound }
  · intro c hc
    obtain ⟨k1, k2, k3, k4, k5, k6⟩ := hI.cells c hc
    exact ⟨k1, k2, k3, le_trans k4 h1, k5, k6⟩
  · intro i hi
    exact chained_congr sl { sl with level := level } i rfl _ _ (fun _ _ => rfl) (hI.chains i hi)
  · exact back_chained_congr sl { sl with level := level } rfl _ _ (fun _ _ => rfl) hI.back


theorem same_cells_refl (sl : skip_list_s) : same_cells sl sl :=
  ⟨rfl, rfl, rfl, rfl, rfl, rfl, fun _ w hw => ⟨w, hw, rfl, rfl⟩⟩

theorem same_cells_trans (a b c : skip_list_s) (h1 : same_cells a b) (h2 : same_cells b c) :
    same_cells a c := by
  refine ⟨h2.level.trans h1.level, h2.header.trans h1.header, h2.nil.trans h1.nil,
    h2.update.trans h1.update, h2.top.trans h1.top, h2.initial.trans h1.initial, ?_⟩
  intro x w hw
  obtain ⟨w1, hw1, e1, e2⟩ := h1.cells x w hw
  obtain ⟨w2, hw2, e3, e4⟩ := h2.cells x w1 hw1
  exact ⟨w2, hw2, e3.trans e1, e4.trans e2⟩

theorem fwps_set_same (sl sl1 : skip_list_s) (a i v : Nat) (h : fwps_set sl a i v = .ok sl1) :
    same_cells sl sl1 := by
  obtain ⟨-, -, k3, k4, k5, k6, k7, k8, k9⟩ := fwps_set_effect sl sl1 a i v h
  refine ⟨k4, k5, k6, k7, k8, k9, ?_⟩
  intro b w hw
  obtain ⟨w1, hw1, e1, e2, -⟩ := k3 b w hw
  exact ⟨w1, hw1, e1, e2⟩

theorem prev_set_same (sl sl1 : skip_list_s) (a v : Nat) (h : prev_set sl a v = .ok sl1) :
    same_cells sl sl1 := by
  obtain ⟨-, -, k3, k4, k5, k6, k7, k8, k9⟩ := prev_set_effect sl sl1 a v h
  refine ⟨k4, k5, k6, k7, k8, k9, ?_⟩
  intro b w hw
  obtain ⟨w1, hw1, e1, e2⟩ := k3 b w hw
  exact ⟨w1, hw1, by rw [e1], e2⟩

theorem fwps_set_total (sl : skip_list_s) (a i v : Nat) (w : skip_list_cell_s)
    (hw : cell_load sl a = .ok w) (hi : i < w.fwps.length) :
    ∃ sl1, fwps_set sl a i v = .ok sl1 :=
  ⟨_, (fwps_set_eq_ok sl _ a i v).mpr ⟨w, hw, hi, rfl⟩⟩

/-- One step of the last loop of `skip_list_insert`: the new cell is linked
in at level `j`, and the other levels are as before. -/
theorem link_level_spec (t : skip_list_s) (pre post : List index_cell) (cnew : index_cell)
    (j : Nat) (hj : j < cnew.height) (hj32 : j < SKIP_LIST_MAX_LEVEL)
    (hup : t.update[j]? = some (pred_at j t.header pre))
    (hnd : (t.header :: (pre ++ post).map (fun c => c.place)).Nodup)
    (hnew1 : cnew.place ≠ t.header)
    (hnew2 : cnew.place ∉ (pre ++ post).map (fun c => c.place))
    (hch : chained t j t.header (pre ++ post))
    (hcells : ∀ c ∈ pre, ∃ w, cell_load t c.place = .ok w ∧ w.fwps.length = c.height)
    (hhdr : ∃ w, cell_load t t.header = .ok w ∧ w.fwps.length = SKIP_LIST_MAX_LEVEL)
    (hcell : ∃ w, cell_load t cnew.place = .ok w ∧ w.fwps.length = cnew.height) :
    ∃ t1, link_level cnew.place j t = .ok t1 ∧ same_cells t t1 ∧
      (∀ b, prev_get t1 b = prev_get t b) ∧
      (∀ b i, i ≠ j → fwps_get t1 b i = fwps_get t b i) ∧
      chained t1 j t1.header (pre ++ cnew :: post) := by
  have hu := chained_head t j post _ (chained_split t j pre post t.header hch)
  obtain ⟨w, hw, hwl⟩ := hcell
  obtain ⟨ta, hta⟩ := fwps_set_total t cnew.place j (first_at t.NIL j post) w hw (by omega)
  have sa := fwps_set_same _ _ _ _ _ hta
  obtain ⟨a1, a2, -⟩ := fwps_set_effect _ _ _ _ _ hta
  -- the cell `update[j]` has the level `j`
  have hucell : ∃ wu, cell_load t (pred_at j t.header pre) = .ok wu ∧ j < wu.fwps.length := by
    rcases pred_at_height j pre t.header with e | ⟨c, hc, e1, e2⟩
    · rw [e]
      obtain ⟨wh, hwh, hl⟩ := hhdr
      exact ⟨wh, hwh, by omega⟩
    · rw [← e1]
      obtain ⟨wc, hwc, hl⟩ := hcells c hc
      exact ⟨wc, hwc, by omega⟩
  obtain ⟨wu, hwu, hwul⟩ := hucell
  obtain ⟨wu1, hwu1, hl1, -⟩ := sa.cells _ wu hwu
  obtain ⟨tb, htb⟩ := fwps_set_total ta (pred_at j t.header pre) j cnew.place wu1 hwu1
    (by omega)
  have sb := fwps_set_same _ _ _ _ _ htb
  obtain ⟨b1, b2, -⟩ := fwps_set_effect _ _ _ _ _ htb
  have hne : cnew.place ≠ pred_at j t.header pre := by
    rcases pred_at_mem j pre t.header with e | e
    · rw [e]
      exact hnew1
    · intro hh
      rw [← hh] at e
      exact hnew2 (by
        rw [List.map_append]
        exact List.mem_append_left _ e)
  have hs := same_cells_trans _ _ _ sa sb
  refine ⟨tb, ?_, hs, ?_, ?_, ?_⟩
  · unfold link_level
    rw [(array_get_eq_ok _ _ _).mpr hup]
    simp only [bind, Except.bind]
    rw [hu]
    simp only []
    rw [hta]
    exact htb
  · intro b
    rw [b2, a2]
  · intro b i hi
    rw [b1, a1, if_neg (fun hh => hi hh.2), if_neg (fun hh => hi hh.2)]
  · rw [hs.header]
    refine chained_insert t tb j hs.nil cnew hj pre post t.header hnd hnew1 hnew2 ?_ ?_ ?_ hch
    · rw [b1, if_neg (fun hh => hne hh.1), a1, if_pos ⟨rfl, rfl⟩, hu]
    · rw [b1, if_pos ⟨rfl, rfl⟩]
    · intro b hb1 hb2
      rw [b1, if_neg (fun hh => hb1 hh.1), a1, if_neg (fun hh => hb2 hh.1)]


/-- The last loop of `skip_list_insert` links the new cell in at each of its
levels. -/
theorem link_loop_spec (t0 : skip_list_s) (pre post : List index_cell) (cnew : index_cell)
    (hL : cnew.height ≤ SKIP_LIST_MAX_LEVEL)
    (hup : ∀ i, i < SKIP_LIST_MAX_LEVEL → t0.update[i]? = some (pred_at i t0.header pre))
    (hnd : (t0.header :: (pre ++ post).map (fun c => c.place)).Nodup)
    (hnew1 : cnew.place ≠ t0.header)
    (hnew2 : cnew.place ∉ (pre ++ post).map (fun c => c.place))
    (hch : ∀ i, i < SKIP_LIST_MAX_LEVEL → chained t0 i t0.header (pre ++ post))
    (hcells : ∀ c ∈ pre, ∃ w, cell_load t0 c.place = .ok w ∧ w.fwps.length = c.height)
    (hhdr : ∃ w, cell_load t0 t0.header = .ok w ∧ w.fwps.length = SKIP_LIST_MAX_LEVEL)
    (hcell : ∃ w, cell_load t0 cnew.place = .ok w ∧ w.fwps.length = cnew.height) :
    ∃ t, for_loop (link_level cnew.place) cnew.height 0 t0 = .ok t ∧ same_cells t0 t ∧
      (∀ b, prev_get t b = prev_get t0 b) ∧
      ∀ i, i < SKIP_LIST_MAX_LEVEL → chained t i t.header (pre ++ cnew :: post) := by
  obtain ⟨t, ht, hs, hp, hdone, hrest⟩ := for_loop_inv (link_level cnew.place) (fun j t =>
      same_cells t0 t ∧ (∀ b, prev_get t b = prev_get t0 b) ∧
      (∀ i, i < j → chained t i t.header (pre ++ cnew :: post)) ∧
      ∀ i, j ≤ i → i < SKIP_LIST_MAX_LEVEL → chained t i t.header (pre ++ post))
    cnew.height 0 t0
    ⟨same_cells_refl t0, fun _ => rfl, fun i hi => absurd hi (Nat.not_lt_zero i),
      fun i _ hi => hch i hi⟩
    (fun j t _ hj ht => by
      obtain ⟨hs, hp, hdone, hrest⟩ := ht
      have hj2 : j < cnew.height := by omega
      have hj32 : j < SKIP_LIST_MAX_LEVEL := by omega
      obtain ⟨t1, h1, s1, p1, f1, c1⟩ := link_level_spec t pre post cnew j hj2 hj32
        (by rw [hs.update, hs.header]; exact hup j hj32)
        (by rw [hs.header]; exact hnd)
        (by rw [hs.header]; exact hnew1) hnew2 (hrest j (le_refl j) hj32)
        (fun c hc => by
          obtain ⟨w, hw, hl⟩ := hcells c hc
          obtain ⟨w1, hw1, e1, -⟩ := hs.cells _ w hw
          exact ⟨w1, hw1, e1.trans hl⟩)
        (by
          obtain ⟨w, hw, hl⟩ := hhdr
          obtain ⟨w1, hw1, e1, -⟩ := hs.cells _ w hw
          rw [hs.header]
          exact ⟨w1, hw1, e1.trans hl⟩)
        (by
          obtain ⟨w, hw, hl⟩ := hcell
          obtain ⟨w1, hw1, e1, -⟩ := hs.cells _ w hw
          exact ⟨w1, hw1, e1.trans hl⟩)
      refine ⟨t1, h1, same_cells_trans _ _ _ hs s1, fun b => (p1 b).trans (hp b), ?_, ?_⟩
      · intro i hi
        by_cases hij : i = j
        · subst hij
          exact c1
        · rw [s1.header]
          exact chained_congr t t1 i s1.nil _ _ (fun b _ => f1 b i hij) (hdone i (by omega))
      · intro i hi1 hi2
        rw [s1.header]
        exact chained_congr t t1 i s1.nil _ _ (fun b _ => f1 b i (by omega)) (hrest i (by omega) hi2))
  refine ⟨t, ht, hs, hp, ?_⟩
  intro i hi
  by_cases hil : i < cnew.height
  · exact hdone i (by omega)
  · exact (chained_skip t i cnew hil pre post t.header).mpr (hrest i (by omega) hi)


theorem prev_set_total (sl : skip_list_s) (a v : Nat) (w : skip_list_cell_s)
    (hw : cell_load sl a = .ok w) : ∃ sl1, prev_set sl a v = .ok sl1 :=
  ⟨_, (prev_set_eq_ok sl _ a v).mpr ⟨w, hw, rfl⟩⟩

theorem index_places (sl : skip_list_s) (pool : pool_of_masking_partials_s)
    (pre post : List index_cell) (hI : index_inv sl pool pre post) (a : Nat)
    (ha : a ∈ (pre ++ post).map (fun c => c.place)) :
    sl.initial_cell_pool_top ≤ a ∧ a < sl.cell_pool_top ∧ a ≠ sl.header ∧ a ≠ sl.NIL := by
  obtain ⟨c, hc, rfl⟩ := List.mem_map.mp ha
  obtain ⟨h1, h2, -⟩ := hI.cells c hc
  have hb := hI.base
  exact ⟨h1, h2, by omega, by omega⟩

theorem index_previous (sl : skip_list_s) (pool : pool_of_masking_partials_s)
    (pre post : List index_cell) (hI : index_inv sl pool pre post) :
    prev_get sl (first_at sl.NIL 0 post) = .ok (pred_at 0 sl.header pre) := by
  have hh : ∀ c ∈ pre ++ post, 0 < c.height := by
    intro c hc
    obtain ⟨-, -, h3, -⟩ := hI.cells c hc
    omega
  exact back_head sl post _ (fun c hc => hh c (List.mem_append_right _ hc))
    (back_split sl pre post sl.header (fun c hc => hh c (List.mem_append_left _ hc)) hI.back)


/-- The new cell is made at the top of the pool and linked in at the cursor:
the invariant then holds with the new cell first after the cursor. -/
theorem link_cell_spec (s2 : skip_list_s) (pool : pool_of_masking_partials_s)
    (pre post : List index_cell) (data L : Nat) (hI : index_inv s2 pool pre post)
    (hd : ∃ mp, masking_partial_load pool data = .ok mp) (hL1 : 1 ≤ L)
    (hL2 : (L : Int) ≤ s2.level)
    (hpre : ∀ c ∈ pre, key_of pool c.data < key_of pool data)
    (hpost : ∀ c ∈ post, key_of pool data ≤ key_of pool c.data)
    (hcap : s2.cell_pool_top + sizeof_cell + L * sizeof_cell_t < SIZEOF_POOL) :
    ∃ s3 t, skip_list_cell_make s2 L (some data) = .ok (s3, s2.cell_pool_top) ∧
      link_cell s3 s2.cell_pool_top L = .ok t ∧
      index_inv t pool pre (⟨s2.cell_pool_top, L, data⟩ :: post) ∧
      t.cell_pool_top = s2.cell_pool_top + sizeof_cell + L * sizeof_cell_t ∧
      t.initial_cell_pool_top = s2.initial_cell_pool_top ∧ t.header = s2.header ∧
      t.NIL = s2.NIL ∧ t.level = s2.level ∧ t.update = s2.update := by
  have hmax : SKIP_LIST_MAX_LEVEL = 32 := rfl
  have hbase := hI.base
  have hlev := hI.level_range
  obtain ⟨top, htop⟩ : ∃ top, top = s2.cell_pool_top := ⟨_, rfl⟩
  obtain ⟨newcell, hnewcell⟩ : ∃ w : skip_list_cell_s,
    w = { fwps := List.replicate L none, prev := none, data := some data } := ⟨_, rfl⟩
  obtain ⟨s3, hs3⟩ : ∃ s3, s3 = cell_store
    { s2 with cell_pool_top := s2.cell_pool_top + sizeof_cell + L * sizeof_cell_t }
    s2.cell_pool_top newcell := ⟨_, rfl⟩
  have hmake : skip_list_cell_make s2 L (some data) = .ok (s3, s2.cell_pool_top) := by
    unfold skip_list_cell_make
    simp only []
    rw [if_neg (by omega), hs3, hnewcell]
  rw [← htop] at hmake ⊢
  -- the state after the cell has been made
  have e_load : ∀ b, cell_load s3 b = if b = top then .ok newcell else cell_load s2 b := by
    intro b
    rw [hs3, cell_load_store, htop]
    rfl
  have e_fw : ∀ b i, b ≠ top → fwps_get s3 b i = fwps_get s2 b i := by
    intro b i hb
    rw [hs3, fwps_get_store, if_neg (by rw [← htop]; exact hb)]
    rfl
  have e_pv : ∀ b, b ≠ top → prev_get s3 b = prev_get s2 b := by
    intro b hb
    rw [hs3, prev_get_store, if_neg (by rw [← htop]; exact hb)]
    rfl
  have e_hdr : s3.header = s2.header := by rw [hs3]; rfl
  have e_nil : s3.NIL = s2.NIL := by rw [hs3]; rfl
  have e_up : s3.update = s2.update := by rw [hs3]; rfl
  have e_lev : s3.level = s2.level := by rw [hs3]; rfl
  have e_top : s3.cell_pool_top = top + sizeof_cell + L * sizeof_cell_t := by
    rw [hs3, htop]; rfl
  have e_init : s3.initial_cell_pool_top = s2.initial_cell_pool_top := by rw [hs3]; rfl
  -- the new place is fresh
  have hfresh : top ∉ (pre ++ post).map (fun c => c.place) := by
    intro hmem
    have := (index_places s2 pool pre post hI top hmem).2.1
    omega
  have hplace : ∀ a, a ∈ (pre ++ post).map (fun c => c.place) → a ≠ top := by
    rintro a ha rfl
    exact hfresh ha
  have htop_hdr : top ≠ s2.header := by omega
  have htop_nil : top ≠ s2.NIL := by omega
  have hnilp : s2.NIL ∉ (pre ++ post).map (fun c => c.place) := fun hmem =>
    (index_places s2 pool pre post hI _ hmem).2.2.2 rfl
  have hhdrp : s2.header ∉ (pre ++ post).map (fun c => c.place) := fun hmem =>
    (index_places s2 pool pre post hI _ hmem).2.2.1 rfl
  -- the cells around the cursor
  obtain ⟨hu0, hnxt⟩ := index_current s2 pool pre post hI
  have hpv := index_previous s2 pool pre post hI
  have hu0_ne : pred_at 0 s2.header pre ≠ top := by
    rcases pred_at_mem 0 pre s2.header with e | e
    · rw [e]
      exact Ne.symm htop_hdr
    · exact hplace _ (by
        rw [List.map_append]
        exact List.mem_append_left _ e)
  have hnxt_ne : first_at s2.NIL 0 post ≠ top := by
    rcases first_at_mem s2.NIL 0 post with e | e
    · rw [e]
      exact Ne.symm htop_nil
    · exact hplace _ (by
        rw [List.map_append]
        exact List.mem_append_right _ e)
  have hnxt_cell : ∃ w, cell_load s2 (first_at s2.NIL 0 post) = .ok w := by
    rcases first_at_mem s2.NIL 0 post with e | e
    · rw [e]
      exact hI.nil_cell
    · obtain ⟨c, hc, hcp⟩ := List.mem_map.mp e
      obtain ⟨-, -, -, -, ⟨w, hw, -⟩, -⟩ := hI.cells c (List.mem_append_right _ hc)
      rw [← hcp]
      exact ⟨w, hw⟩
  -- the two backward pointers
  obtain ⟨s4, hs4⟩ := prev_set_total s3 top (pred_at 0 s2.header pre) newcell (by
    rw [e_load, if_pos rfl])
  have same4 := prev_set_same _ _ _ _ hs4
  obtain ⟨a1, a2, -⟩ := prev_set_effect _ _ _ _ hs4
  obtain ⟨wn, hwn⟩ := hnxt_cell
  obtain ⟨wn1, hwn1, -⟩ := same4.cells _ wn (by rw [e_load, if_neg hnxt_ne]; exact hwn)
  obtain ⟨s5, hs5⟩ := prev_set_total s4 (first_at s2.NIL 0 post) top wn1 hwn1
  have same5 := same_cells_trans _ _ _ same4 (prev_set_same _ _ _ _ hs5)
  obtain ⟨b1, b2, -⟩ := prev_set_effect _ _ _ _ hs5
  have f_fw : ∀ b i, b ≠ top → fwps_get s5 b i = fwps_get s2 b i := by
    intro b i hb
    rw [b1, a1, e_fw b i hb]
  obtain ⟨cnew, hcnew⟩ : ∃ cnew : index_cell, cnew = ⟨top, L, data⟩ := ⟨_, rfl⟩
  have hnd : (s2.header :: (pre ++ post).map (fun c => c.place)).Nodup :=
    List.nodup_cons.mpr ⟨hhdrp, hI.places⟩
  -- the forward pointers
  obtain ⟨t, ht, same6, hprev6, hchains⟩ := link_loop_spec s5 pre post cnew
    (by rw [hcnew]; show L ≤ SKIP_LIST_MAX_LEVEL; omega)
    (by
      intro i hi
      rw [same5.update, same5.header, e_up, e_hdr]
      exact hI.cursor i hi)
    (by rw [same5.header, e_hdr]; exact hnd)
    (by rw [same5.header, e_hdr, hcnew]; exact htop_hdr)
    (by rw [hcnew]; exact hfresh)
    (by
      intro i hi
      rw [same5.header, e_hdr]
      refine chained_congr s2 s5 i (same5.nil.trans e_nil) _ _ ?_ (hI.chains i hi)
      intro b hb
      refine f_fw b i ?_
      rcases hb with rfl | hb
      · exact Ne.symm htop_hdr
      · exact hplace b hb)
    (by
      intro c hc
      obtain ⟨-, -, -, -, ⟨w, hw, hl, -⟩, -⟩ := hI.cells c (List.mem_append_left _ hc)
      obtain ⟨w1, hw1, e1, -⟩ := same5.cells _ w (by
        rw [e_load, if_neg (hplace _ (List.mem_map.mpr ⟨c, List.mem_append_left _ hc, rfl⟩))]
        exact hw)
      exact ⟨w1, hw1, e1.trans hl⟩)
    (by
      obtain ⟨w, hw, hl⟩ := hI.header_cell
      obtain ⟨w1, hw1, e1, -⟩ := same5.cells _ w (by
        rw [e_load, if_neg (Ne.symm htop_hdr)]
        exact hw)
      rw [same5.header, e_hdr]
      exact ⟨w1, hw1, e1.trans hl⟩)
    (by
      obtain ⟨w1, hw1, e1, -⟩ := same5.cells top newcell (by rw [e_load, if_pos rfl])
      rw [hcnew]
      exact ⟨w1, hw1, by rw [e1, hnewcell]; simp⟩)
  have same36 := same_cells_trans _ _ _ same5 same6
  have hcell_old : ∀ b w, b ≠ top → cell_load s2 b = .ok w →
      ∃ w1, cell_load t b = .ok w1 ∧ w1.fwps.length = w.fwps.length ∧ w1.data = w.data := by
    intro b w hb hw
    exact same36.cells b w (by rw [e_load, if_neg hb]; exact hw)
  refine ⟨s3, t, hmake, ?_, ?_, by rw [same36.top, e_top], by rw [same36.initial, e_init],
    by rw [same36.header, e_hdr], by rw [same36.nil, e_nil], by rw [same36.level, e_lev],
    by rw [same36.update, e_up]⟩
  · unfold link_cell
    rw [e_up, hu0]
    simp only [bind, Except.bind]
    rw [e_fw _ _ hu0_ne, hnxt]
    simp only []
    rw [e_pv _ hnxt_ne, hpv]
    simp only []
    rw [hs4]
    simp only []
    rw [hs5]
    simp only []
    rw [hcnew] at ht
    exact ht
  · rw [← hcnew]
    have hmem : ∀ c, c ∈ pre ++ cnew :: post → c = cnew ∨ c ∈ pre ++ post := by
      intro c hc
      rcases List.mem_append.mp hc with h | h
      · exact Or.inr (List.mem_append_left _ h)
      · rcases List.mem_cons.mp h with h | h
        · exact Or.inl h
        · exact Or.inr (List.mem_append_right _ h)
    refine
      { header_ne := by rw [same36.header, same36.nil, e_hdr, e_nil]; exact hI.header_ne
        header_cell := ?_
        nil_cell := ?_
        base := by
          rw [same36.header, same36.nil, same36.initial, same36.top, e_hdr, e_nil, e_init, e_top]
          omega
        update_length := by rw [same36.update, e_up]; exact hI.update_length
        level_range := by rw [same36.level, e_lev]; exact hlev
        places := ?_
        cells := ?_
        chains := hchains
        back := ?_
        sorted := ?_
        cursor := by
          intro i hi
          rw [same36.update, same36.header, e_up, e_hdr]
          exact hI.cursor i hi
        bound := ⟨key_of pool data, hpre, ?_⟩ }
    · obtain ⟨w, hw, hl⟩ := hI.header_cell
      obtain ⟨w1, hw1, e1, -⟩ := hcell_old _ w (Ne.symm htop_hdr) hw
      rw [same36.header, e_hdr]
      exact ⟨w1, hw1, e1.trans hl⟩
    · obtain ⟨w, hw⟩ := hI.nil_cell
      obtain ⟨w1, hw1, -⟩ := hcell_old _ w (Ne.symm htop_nil) hw
      rw [same36.nil, e_nil]
      exact ⟨w1, hw1⟩
    · rw [List.map_append, List.map_cons]
      refine List.nodup_middle.mpr (List.nodup_cons.mpr ⟨?_, ?_⟩)
      · rw [← List.map_append, hcnew]
        exact hfresh
      · rw [← List.map_append]
        exact hI.places
    · intro c hc
      rw [same36.initial, same36.top, same36.level, e_init, e_top, e_lev]
      rcases hmem c hc with rfl | hc
      · obtain ⟨w1, hw1, e1, e2⟩ := same36.cells top newcell (by rw [e_load, if_pos rfl])
        rw [hcnew]
        refine ⟨by show s2.initial_cell_pool_top ≤ top; omega, ?_, hL1, hL2,
          ⟨w1, hw1, by rw [e1, hnewcell]; simp, by rw [e2, hnewcell]⟩, hd⟩
        show top < top + sizeof_cell + L * sizeof_cell_t
        have : 0 < sizeof_cell := by decide
        omega
      · obtain ⟨k1, k2, k3, k4, ⟨w, hw, hl, hdat⟩, k6⟩ := hI.cells c hc
        obtain ⟨w1, hw1, e1, e2⟩ := hcell_old _ w
          (hplace _ (List.mem_map.mpr ⟨c, hc, rfl⟩)) hw
        exact ⟨k1, by omega, k3, k4, ⟨w1, hw1, e1.trans hl, e2.trans hdat⟩, k6⟩
    · rw [same36.header, e_hdr]
      refine back_chained_congr s5 t same6.nil _ _ (fun b _ => hprev6 b) ?_
      have hh : ∀ c ∈ pre ++ post, 0 < c.height := by
        intro c hc
        obtain ⟨-, -, h3, -⟩ := hI.cells c hc
        omega
      refine back_insert s2 s5 (same5.nil.trans e_nil) cnew pre post s2.header hh hI.places hnilp
        (by rw [hcnew]; exact htop_nil) (by rw [hcnew]; exact hfresh) ?_ ?_ ?_ hI.back
      · rw [hcnew, b2, if_neg (Ne.symm hnxt_ne), a2, if_pos rfl]
      · rw [hcnew, b2, if_pos rfl]
      · intro b hb1 hb2
        rw [hcnew] at hb1
        rw [b2, if_neg hb2, a2, if_neg hb1, e_pv b hb1]
    · have hs := hI.sorted
      rw [List.map_append, List.pairwise_append] at hs ⊢
      refine ⟨hs.1, ?_, ?_⟩
      · rw [List.map_cons, List.pairwise_cons]
        refine ⟨?_, hs.2.1⟩
        intro a ha
        obtain ⟨c, hc, rfl⟩ := List.mem_map.mp ha
        rw [hcnew]
        exact hpost c hc
      · intro a ha b hb
        obtain ⟨c, hc, rfl⟩ := List.mem_map.mp ha
        rw [List.map_cons] at hb
        rcases List.mem_cons.mp hb with rfl | hb
        · rw [hcnew]
          exact (hpre c hc).le
        · exact hs.2.2 _ ha b hb
    · intro c hc
      rcases List.mem_cons.mp hc with rfl | hc
      · rw [hcnew]
      · exact hpost c hc


/-- The function `skip_list_insert` returns when `random_level` does and the
pool has room for the new cell; the new cell is then the first after the
cursor, behind the cells below `data` and before the others. -/
theorem skip_list_insert_spec (c : libc) (g g1 : globals) (sl : skip_list_s)
    (pool : pool_of_masking_partials_s) (pre0 post0 : List index_cell) (data : Nat)
    (level : Int) (hI : index_inv sl pool pre0 post0)
    (hd : ∃ mp, masking_partial_load pool data = .ok mp)
    (hrand : random_level c g = .ok (g1, level))
    (hcap : sl.cell_pool_top + sizeof_cell + level.toNat * sizeof_cell_t < SIZEOF_POOL) :
    ∃ (t : skip_list_s) (pre post : List index_cell),
      skip_list_insert c g sl pool data = .ok (g1, t) ∧ pre ++ post = pre0 ++ post0 ∧
      index_inv t pool pre (⟨sl.cell_pool_top, level.toNat, data⟩ :: post) ∧
      (∀ c ∈ pre, key_of pool c.data < key_of pool data) ∧
      (∀ c ∈ post, key_of pool data ≤ key_of pool c.data) ∧
      t.cell_pool_top = sl.cell_pool_top + sizeof_cell + level.toNat * sizeof_cell_t ∧
      t.initial_cell_pool_top = sl.initial_cell_pool_top ∧ t.header = sl.header ∧
      t.NIL = sl.NIL := by
  obtain ⟨up, found, pre, post, hsearch, hcells, hI1, hpre, hpost⟩ :=
    skip_list_search_spec sl pool pre0 post0 data hI hd
  obtain ⟨hl1, hl2⟩ := random_level_range c g g1 level hrand
  have hraise := raise_level_spec _ pool pre post hI1 level hl2
  have hI2 := index_inv_level _ pool pre post hI1 (max sl.level level) (le_max_left _ _)
    (max_le hI1.level_range.2 hl2)
  obtain ⟨s3, t, hmake, hlink, hI3, k1, k2, k3, k4, -, -⟩ := link_cell_spec _ pool pre post data
    level.toNat hI2 hd (by omega) (by
      show (level.toNat : Int) ≤ max sl.level level
      have := le_max_right sl.level level
      omega) hpre hpost hcap
  refine ⟨t, pre, post, ?_, hcells, hI3, hpre, hpost, k1, k2, k3, k4⟩
  unfold skip_list_insert
  rw [hsearch]
  simp only [bind, Except.bind]
  rw [hrand]
  simp only []
  rw [hraise]
  simp only []
  rw [hmake]
  simp only []
  rw [hlink]
  rfl

/-- The function `skip_list_insert` ends in `exit (EXIT_FAILURE)` when the pool
has no room for the new cell. -/
theorem skip_list_insert_full (c : libc) (g g1 : globals) (sl : skip_list_s)
    (pool : pool_of_masking_partials_s) (pre0 post0 : List index_cell) (data : Nat)
    (level : Int) (hI : index_inv sl pool pre0 post0)
    (hd : ∃ mp, masking_partial_load pool data = .ok mp)
    (hrand : random_level c g = .ok (g1, level))
    (hcap : SIZEOF_POOL ≤ sl.cell_pool_top + sizeof_cell + level.toNat * sizeof_cell_t) :
    skip_list_insert c g sl pool data = .error .exit_failure := by
  obtain ⟨up, found, pre, post, hsearch, hcells, hI1, hpre, hpost⟩ :=
    skip_list_search_spec sl pool pre0 post0 data hI hd
  obtain ⟨hl1, hl2⟩ := random_level_range c g g1 level hrand
  have hraise := raise_level_spec _ pool pre post hI1 level hl2
  unfold skip_list_insert
  rw [hsearch]
  simp only [bind, Except.bind]
  rw [hrand]
  simp only []
  rw [hraise]
  simp only []
  unfold skip_list_cell_make
  simp only []
  rw [if_pos hcap]

/-! ## The neighbours of the cell at the cursor -/

/-- With the cursor before the cell `x`, `skip_list_previous` returns the data
of the cell before `x` and `skip_list_next` the data of the cell after `x`,
and `NULL` where there is no such cell. -/
theorem skip_list_neighbours (sl : skip_list_s) (pool : pool_of_masking_partials_s)
    (pre post : List index_cell) (x : index_cell) (hI : index_inv sl pool pre (x :: post)) :
    skip_list_previous sl = .ok (pre.getLast?.map (fun c => c.data)) ∧
      skip_list_next sl = .ok (post.head?.map (fun c => c.data)) := by
  obtain ⟨hu0, hcur⟩ := index_current sl pool pre (x :: post) hI
  have hpv := index_previous sl pool pre (x :: post) hI
  have hfirst := first_at_cons sl pool pre post x hI
  rw [hfirst] at hcur hpv
  have h0 : 0 < SKIP_LIST_MAX_LEVEL := by decide
  constructor
  · unfold skip_list_previous
    rw [hu0]
    simp only [bind, Except.bind]
    rw [hcur]
    simp only []
    rw [hpv]
    simp only []
    rcases List.eq_nil_or_concat pre with hnil | ⟨pre1, d, hpre⟩
    · subst hnil
      rw [show pred_at 0 sl.header [] = sl.header from rfl, if_pos rfl]
      rfl
    · rw [List.concat_eq_append] at hpre
      subst hpre
      obtain ⟨-, -, k3, -, ⟨w, hw, -, hdat⟩, -⟩ := hI.cells d (by simp)
      have hplace : pred_at 0 sl.header (pre1 ++ [d]) = d.place := by
        rw [pred_at_append]
        unfold pred_at
        rw [if_pos (by omega)]
        rfl
      have hne : d.place ≠ sl.header :=
        (index_places sl pool _ _ hI d.place (List.mem_map.mpr ⟨d, by simp, rfl⟩)).2.2.1
      rw [hplace, if_neg hne, hw, List.getLast?_concat]
      simp only [pure, Except.pure, Option.map_some', hdat]
  · have hch := chained_split sl 0 pre (x :: post) sl.header (hI.chains 0 h0)
    obtain ⟨-, -, k3, -⟩ := hI.cells x (by simp)
    unfold chained at hch
    rw [if_pos (by omega)] at hch
    have hnext := chained_head sl 0 post x.place hch.2
    unfold skip_list_next
    rw [hu0]
    simp only [bind, Except.bind]
    rw [hcur]
    simp only []
    rw [hnext]
    simp only []
    cases post with
    | nil =>
      rw [show first_at sl.NIL 0 [] = sl.NIL from rfl, if_pos rfl]
      rfl
    | cons y post =>
      obtain ⟨-, -, j3, -, ⟨w, hw, -, hdat⟩, -⟩ := hI.cells y (by simp)
      have hplace : first_at sl.NIL 0 (y :: post) = y.place := by
        unfold first_at
        rw [if_pos (by omega)]
      have hne : y.place ≠ sl.NIL :=
        (index_places sl pool _ _ hI y.place (List.mem_map.mpr ⟨y, by simp, rfl⟩)).2.2.2
      rw [hplace, if_neg hne, hw]
      simp only [pure, Except.pure, List.head?_cons, Option.map_some', hdat]

/-! ## Removal from the skip list -/

theorem first_at_none (nil i : Nat) : ∀ l : List index_cell,
    nil ∉ l.map (fun c => c.place) → first_at nil i l = nil → ∀ c ∈ l, ¬ i < c.height := by
  intro l
  induction l with
  | nil =>
    intro _ _ c hc
    cases hc
  | cons d l ih =>
    intro hnil h c hc
    simp only [List.map_cons, List.mem_cons, not_or] at hnil
    unfold first_at at h
    split_ifs at h with hd
    · exact absurd h.symm hnil.1
    · rcases List.mem_cons.mp hc with rfl | hc
      · exact hd
      · exact ih hnil.2 h c hc

/-- The invariant for a lower level that is still above the cells. -/
theorem index_inv_lower (sl : skip_list_s) (pool : pool_of_masking_partials_s)
    (pre post : List index_cell) (hI : index_inv sl pool pre post) (level : Int)
    (h0 : 0 ≤ level) (h1 : level ≤ sl.level)
    (hh : ∀ c ∈ pre ++ post, (c.height : Int) ≤ level) :
    index_inv { sl with level := level } pool pre post := by
  refine
    { header_ne := hI.header_ne
      header_cell := hI.header_cell
      nil_cell := hI.nil_cell
      base := hI.base
      update_length := hI.update_length
      level_range := ⟨h0, le_trans h1 hI.level_range.2⟩
      places := hI.places
      cells := ?_
      chains := ?_
      back := ?_
      sorted := hI.sorted
      cursor := hI.cursor
      bound := hI.bound }
  · intro c hc
    obtain ⟨k1, k2, k3, -, k5, k6⟩ := hI.cells c hc
    exact ⟨k1, k2, k3, hh c hc, k5, k6⟩
  · intro i hi
    exact chained_congr sl { sl with level := level } i rfl _ _ (fun _ _ => rfl) (hI.chains i hi)
  · exact back_chained_congr sl { sl with level := level } rfl _ _ (fun _ _ => rfl) hI.back

/-- The last loop of `skip_list_remove` lowers the level of the list as long
as the highest level is empty. -/
theorem lower_level_spec (pool : pool_of_masking_partials_s) (pre post : List index_cell) :
    ∀ (n : Nat) (sl : skip_list_s), index_inv sl pool pre post →
      ∃ level : Int, lower_level n sl = .ok { sl with level := level } ∧
        index_inv { sl with level := level } pool pre post := by
  intro n
  induction n with
  | zero =>
    intro sl hI
    exact ⟨sl.level, rfl, hI⟩
  | succ n ih =>
    intro sl hI
    have hmax : SKIP_LIST_MAX_LEVEL = 32 := rfl
    have hlev := hI.level_range
    unfold lower_level
    split_ifs with hpos
    · have hi : (sl.level - 1).toNat < SKIP_LIST_MAX_LEVEL := by omega
      have hf := chained_head sl _ _ _ (hI.chains _ hi)
      rw [hf]
      simp only [bind, Except.bind]
      split_ifs with hnil
      · have hnilp : sl.NIL ∉ (pre ++ post).map (fun c => c.place) := fun hmem =>
          (index_places sl pool pre post hI _ hmem).2.2.2 rfl
        have hh := first_at_none _ _ _ hnilp hnil
        obtain ⟨level, h1, h2⟩ := ih { sl with level := sl.level - 1 }
          (index_inv_lower sl pool pre post hI (sl.level - 1) (by omega) (by omega)
            (fun c hc => by
              have := hh c hc
              omega))
        exact ⟨level, h1, h2⟩
      · exact ⟨sl.level, rfl, hI⟩
    · exact ⟨sl.level, rfl, hI⟩

/-- The first loop of `skip_list_remove` links the cell `x` at the cursor out
at each of its levels, and stops. -/
theorem remove_levels_spec (pre post : List index_cell) (x : index_cell) (level : Nat)
    (hxl : x.height ≤ level) (hl32 : level ≤ SKIP_LIST_MAX_LEVEL) :
    ∀ (n i : Nat) (t : skip_list_s), i + n = level → i ≤ x.height →
      (∀ k, k < SKIP_LIST_MAX_LEVEL → t.update[k]? = some (pred_at k t.header pre)) →
      (t.header :: (pre ++ x :: post).map (fun c => c.place)).Nodup →
      t.NIL ∉ (pre ++ x :: post).map (fun c => c.place) →
      (∀ k, k < i → chained t k t.header (pre ++ post)) →
      (∀ k, i ≤ k → k < SKIP_LIST_MAX_LEVEL → chained t k t.header (pre ++ x :: post)) →
      (∀ c ∈ pre, ∃ w, cell_load t c.place = .ok w ∧ w.fwps.length = c.height) →
      (∃ w, cell_load t t.header = .ok w ∧ w.fwps.length = SKIP_LIST_MAX_LEVEL) →
      ∃ t1, remove_levels x.place n i t = .ok t1 ∧ same_cells t t1 ∧
        (∀ b, prev_get t1 b = prev_get t b) ∧
        ∀ k, k < SKIP_LIST_MAX_LEVEL → chained t1 k t1.header (pre ++ post) := by
  have hmax : SKIP_LIST_MAX_LEVEL = 32 := rfl
  intro n
  induction n with
  | zero =>
    intro i t hin hix hup hnd hnil hdone hrest hcells hhdr
    refine ⟨t, rfl, same_cells_refl t, fun _ => rfl, ?_⟩
    intro k hk
    by_cases hki : k < i
    · exact hdone k hki
    · exact (chained_skip t k x (by omega) pre post t.header).mp (hrest k (by omega) hk)
  | succ n ih =>
    intro i t hin hix hup hnd hnil hdone hrest hcells hhdr
    have hi32 : i < SKIP_LIST_MAX_LEVEL := by omega
    have hsplit := chained_split t i pre (x :: post) t.header (hrest i (le_refl i) hi32)
    have hf := chained_head t i (x :: post) _ hsplit
    have hxmem : x.place ∈ (pre ++ x :: post).map (fun c => c.place) :=
      List.mem_map.mpr ⟨x, by simp, rfl⟩
    unfold remove_levels
    rw [(array_get_eq_ok _ _ _).mpr (hup i hi32)]
    simp only [bind, Except.bind]
    rw [hf]
    simp only []
    by_cases hi : i < x.height
    · have hfx : first_at t.NIL i (x :: post) = x.place := by
        unfold first_at
        rw [if_pos hi]
      rw [hfx, if_neg (not_not.mpr rfl)]
      unfold chained at hsplit
      rw [if_pos hi] at hsplit
      have hnf := chained_head t i post x.place hsplit.2
      rw [hnf]
      simp only []
      have hucell : ∃ wu, cell_load t (pred_at i t.header pre) = .ok wu ∧
          i < wu.fwps.length := by
        rcases pred_at_height i pre t.header with e | ⟨c, hc, e1, e2⟩
        · rw [e]
          obtain ⟨wh, hwh, hl⟩ := hhdr
          exact ⟨wh, hwh, by omega⟩
        · rw [← e1]
          obtain ⟨wc, hwc, hl⟩ := hcells c hc
          exact ⟨wc, hwc, by omega⟩
      obtain ⟨wu, hwu, hwul⟩ := hucell
      obtain ⟨ta, hta⟩ := fwps_set_total t (pred_at i t.header pre) i (first_at t.NIL i post)
        wu hwu hwul
      have sa := fwps_set_same _ _ _ _ _ hta
      obtain ⟨a1, a2, -⟩ := fwps_set_effect _ _ _ _ _ hta
      rw [hta]
      simp only []
      have hne : x.place ≠ pred_at i t.header pre := by
        rcases pred_at_mem i pre t.header with e | e
        · rw [e]
          rintro hh
          exact (List.nodup_cons.mp hnd).1 (by rw [← hh]; exact hxmem)
        · intro hh
          rw [← hh] at e
          have hnd2 := (List.nodup_cons.mp hnd).2
          rw [List.map_append, List.map_cons] at hnd2
          have := (List.nodup_middle.mp hnd2)
          exact (List.nodup_cons.mp this).1 (List.mem_append_left _ e)
      obtain ⟨t1, h1, s1, p1, c1⟩ := ih (i + 1) ta (by omega) (by omega)
        (by
          intro k hk
          rw [sa.update, sa.header]
          exact hup k hk)
        (by rw [sa.header]; exact hnd) (by rw [sa.nil]; exact hnil)
        (by
          intro k hk
          rw [sa.header]
          by_cases hki : k = i
          · subst hki
            refine chained_remove t ta k sa.nil x hi pre post t.header hnd ?_ ?_
              (hrest k (le_refl k) hi32)
            · rw [a1, if_pos ⟨rfl, rfl⟩, hnf]
            · intro b hb
              rw [a1, if_neg (fun hh => hb hh.1)]
          · refine chained_congr t ta k sa.nil _ _ ?_ (hdone k (by omega))
            intro b _
            rw [a1, if_neg (fun hh => hki hh.2)])
        (by
          intro k hk1 hk2
          rw [sa.header]
          refine chained_congr t ta k sa.nil _ _ ?_ (hrest k (by omega) hk2)
          intro b _
          rw [a1, if_neg (fun hh => by omega)])
        (by
          intro c hc
          obtain ⟨w, hw, hl⟩ := hcells c hc
          obtain ⟨w1, hw1, e1, -⟩ := sa.cells _ w hw
          exact ⟨w1, hw1, e1.trans hl⟩)
        (by
          obtain ⟨w, hw, hl⟩ := hhdr
          obtain ⟨w1, hw1, e1, -⟩ := sa.cells _ w hw
          rw [sa.header]
          exact ⟨w1, hw1, e1.trans hl⟩)
      exact ⟨t1, h1, same_cells_trans _ _ _ sa s1, fun b => (p1 b).trans (a2 b), c1⟩
    · have hfx : first_at t.NIL i (x :: post) = first_at t.NIL i post := by
        conv_lhs => unfold first_at
        rw [if_neg hi]
      have hne : first_at t.NIL i post ≠ x.place := by
        rcases first_at_mem t.NIL i post with e | e
        · rw [e]
          rintro hh
          exact hnil (by rw [hh]; exact hxmem)
        · intro hh
          rw [hh] at e
          have hnd2 := (List.nodup_cons.mp hnd).2
          rw [List.map_append, List.map_cons] at hnd2
          have := (List.nodup_middle.mp hnd2)
          exact (List.nodup_cons.mp this).1 (List.mem_append_right _ e)
      rw [hfx, if_pos hne]
      refine ⟨t, rfl, same_cells_refl t, fun _ => rfl, ?_⟩
      intro k hk
      by_cases hki : k < i
      · exact hdone k hki
      · exact (chained_skip t k x (by omega) pre post t.header).mp (hrest k (by omega) hk)


/-- The function `skip_list_remove` returns and takes the cell at the cursor
out of the index; the cursor stays where it is. -/
theorem skip_list_remove_spec (sl : skip_list_s) (pool : pool_of_masking_partials_s)
    (pre post : List index_cell) (x : index_cell) (hI : index_inv sl pool pre (x :: post)) :
    ∃ t, skip_list_remove sl = .ok t ∧ index_inv t pool pre post ∧
      t.cell_pool_top = sl.cell_pool_top ∧
      t.initial_cell_pool_top = sl.initial_cell_pool_top ∧ t.header = sl.header ∧
      t.NIL = sl.NIL := by
  have hmax : SKIP_LIST_MAX_LEVEL = 32 := rfl
  have h0 : 0 < SKIP_LIST_MAX_LEVEL := by decide
  have hlev := hI.level_range
  obtain ⟨hu0, hcur⟩ := index_current sl pool pre (x :: post) hI
  have hpv := index_previous sl pool pre (x :: post) hI
  have hfirst := first_at_cons sl pool pre post x hI
  rw [hfirst] at hcur hpv
  obtain ⟨-, -, kx3, kx4, ⟨wx, hwx, -, -⟩, -⟩ := hI.cells x (by simp)
  have hch0 := chained_split sl 0 pre (x :: post) sl.header (hI.chains 0 h0)
  unfold chained at hch0
  rw [if_pos (by omega)] at hch0
  have hnext := chained_head sl 0 post x.place hch0.2
  have hxprev : wx.prev = some (pred_at 0 sl.header pre) := by
    unfold prev_get at hpv
    rw [hwx] at hpv
    simp only [bind, Except.bind] at hpv
    cases hp : wx.prev with
    | none => simp [hp] at hpv
    | some v =>
      simp only [hp, pure, Except.pure, Except.ok.injEq] at hpv
      rw [hpv]
  have hmemx : ∀ c, c ∈ pre ++ post → c ∈ pre ++ x :: post := by
    intro c hc
    rcases List.mem_append.mp hc with h | h
    · exact List.mem_append_left _ h
    · exact List.mem_append_right _ (List.mem_cons_of_mem _ h)
  have hnilp : sl.NIL ∉ (pre ++ x :: post).map (fun c => c.place) := fun hmem =>
    (index_places sl pool _ _ hI _ hmem).2.2.2 rfl
  have hhdrp : sl.header ∉ (pre ++ x :: post).map (fun c => c.place) := fun hmem =>
    (index_places sl pool _ _ hI _ hmem).2.2.1 rfl
  have hnd : (sl.header :: (pre ++ x :: post).map (fun c => c.place)).Nodup :=
    List.nodup_cons.mpr ⟨hhdrp, hI.places⟩
  have hnxt_cell : ∃ w, cell_load sl (first_at sl.NIL 0 post) = .ok w := by
    rcases first_at_mem sl.NIL 0 post with e | e
    · rw [e]
      exact hI.nil_cell
    · obtain ⟨c, hc, hcp⟩ := List.mem_map.mp e
      obtain ⟨-, -, -, -, ⟨w, hw, -⟩, -⟩ := hI.cells c
        (List.mem_append_right _ (List.mem_cons_of_mem _ hc))
      rw [← hcp]
      exact ⟨w, hw⟩
  obtain ⟨wn, hwn⟩ := hnxt_cell
  obtain ⟨s1, hs1⟩ : ∃ s1, s1 = cell_store sl (first_at sl.NIL 0 post)
    { wn with prev := wx.prev } := ⟨_, rfl⟩
  have e_pv : ∀ b, prev_get s1 b =
      if b = first_at sl.NIL 0 post then .ok (pred_at 0 sl.header pre) else prev_get sl b := by
    intro b
    rw [hs1, prev_get_store]
    split_ifs with hb
    · simp only [hxprev]
    · rfl
  have e_fw : ∀ b i, fwps_get s1 b i = fwps_get sl b i := by
    intro b i
    rw [hs1, fwps_get_store]
    split_ifs with hb
    · subst hb
      unfold fwps_get
      rw [hwn]
      rfl
    · rfl
  have same1 : same_cells sl s1 := by
    refine ⟨by rw [hs1]; rfl, by rw [hs1]; rfl, by rw [hs1]; rfl, by rw [hs1]; rfl,
      by rw [hs1]; rfl, by rw [hs1]; rfl, ?_⟩
    intro b w hw
    rw [hs1, cell_load_store]
    split_ifs with hb
    · subst hb
      rw [hwn] at hw
      cases hw
      exact ⟨_, rfl, rfl, rfl⟩
    · exact ⟨w, hw, rfl, rfl⟩
  obtain ⟨t1, ht1, same2, hprev2, hchains⟩ := remove_levels_spec pre post x sl.level.toNat
    (by omega) (by omega) sl.level.toNat 0 s1 (by omega) (Nat.zero_le _)
    (by
      intro k hk
      rw [same1.update, same1.header]
      exact hI.cursor k hk)
    (by rw [same1.header]; exact hnd) (by rw [same1.nil]; exact hnilp)
    (fun k hk => absurd hk (Nat.not_lt_zero k))
    (by
      intro k _ hk
      rw [same1.header]
      exact chained_congr sl s1 k same1.nil _ _ (fun b _ => e_fw b k) (hI.chains k hk))
    (by
      intro c hc
      obtain ⟨-, -, -, -, ⟨w, hw, hl, -⟩, -⟩ := hI.cells c (List.mem_append_left _ hc)
      obtain ⟨w1, hw1, e1, -⟩ := same1.cells _ w hw
      exact ⟨w1, hw1, e1.trans hl⟩)
    (by
      obtain ⟨w, hw, hl⟩ := hI.header_cell
      obtain ⟨w1, hw1, e1, -⟩ := same1.cells _ w hw
      rw [same1.header]
      exact ⟨w1, hw1, e1.trans hl⟩)
  have same12 := same_cells_trans _ _ _ same1 same2
  have hI1 : index_inv t1 pool pre post := by
    refine
      { header_ne := by rw [same12.header, same12.nil]; exact hI.header_ne
        header_cell := ?_
        nil_cell := ?_
        base := by
          rw [same12.header, same12.nil, same12.initial, same12.top]
          exact hI.base
        update_length := by rw [same12.update]; exact hI.update_length
        level_range := by rw [same12.level]; exact hlev
        places := ?_
        cells := ?_
        chains := hchains
        back := ?_
        sorted := ?_
        cursor := by
          intro i hi
          rw [same12.update, same12.header]
          exact hI.cursor i hi
        bound := ?_ }
    · obtain ⟨w, hw, hl⟩ := hI.header_cell
      obtain ⟨w1, hw1, e1, -⟩ := same12.cells _ w hw
      rw [same12.header]
      exact ⟨w1, hw1, e1.trans hl⟩
    · obtain ⟨w, hw⟩ := hI.nil_cell
      obtain ⟨w1, hw1, -⟩ := same12.cells _ w hw
      rw [same12.nil]
      exact ⟨w1, hw1⟩
    · have := hI.places
      rw [List.map_append, List.map_cons] at this
      rw [List.map_append]
      exact (List.nodup_cons.mp (List.nodup_middle.mp this)).2
    · intro c hc
      obtain ⟨k1, k2, k3, k4, ⟨w, hw, hl, hdat⟩, k6⟩ := hI.cells c (hmemx c hc)
      obtain ⟨w1, hw1, e1, e2⟩ := same12.cells _ w hw
      rw [same12.initial, same12.top, same12.level]
      exact ⟨k1, k2, k3, k4, ⟨w1, hw1, e1.trans hl, e2.trans hdat⟩, k6⟩
    · rw [same12.header]
      refine back_chained_congr s1 t1 same2.nil _ _ (fun b _ => hprev2 b) ?_
      have hh : ∀ c ∈ pre ++ x :: post, 0 < c.height := by
        intro c hc
        obtain ⟨-, -, h3, -⟩ := hI.cells c hc
        omega
      refine back_remove sl s1 same1.nil x pre post sl.header hh hI.places hnilp ?_ ?_ hI.back
      · rw [e_pv, if_pos rfl]
      · intro b hb
        rw [e_pv, if_neg hb]
    · have hs := hI.sorted
      rw [List.map_append, List.pairwise_append] at hs ⊢
      rw [List.map_cons, List.pairwise_cons] at hs
      refine ⟨hs.1, hs.2.1.2, ?_⟩
      intro a ha b hb
      exact hs.2.2 a ha b (List.mem_cons_of_mem _ hb)
    · obtain ⟨K, hK1, hK2⟩ := hI.bound
      exact ⟨K, hK1, fun c hc => hK2 c (List.mem_cons_of_mem _ hc)⟩
  obtain ⟨level, hlow, hI2⟩ := lower_level_spec pool pre post t1.level.toNat t1 hI1
  refine ⟨_, ?_, hI2, same12.top, same12.initial, same12.header, same12.nil⟩
  unfold skip_list_remove
  rw [hu0]
  simp only [bind, Except.bind]
  rw [hcur]
  simp only []
  rw [hnext]
  simp only []
  rw [hwx]
  simp only []
  rw [hwn]
  simp only []
  rw [← hs1, same1.level, ht1]
  simp only []
  exact hlow

/-! ## The empty skip list -/

theorem index_inv_shape (sl : skip_list_s) (pool : pool_of_masking_partials_s)
    (pre post : List index_cell) (hI : index_inv sl pool pre post) : index_shape sl :=
  ⟨hI.header_ne, hI.header_cell, hI.nil_cell, ⟨hI.base.1, hI.base.2.1⟩, hI.update_length⟩

/-- The loop of `skip_list_reset` makes every level of the header lead to NIL
and every cell of `update` designate the header. -/
theorem skip_list_clear_spec (sl : skip_list_s) (hS : index_shape sl) :
    ∃ t, skip_list_clear sl = .ok t ∧ t.level = sl.level ∧ t.header = sl.header ∧
      t.NIL = sl.NIL ∧ t.cell_pool_top = sl.cell_pool_top ∧
      t.initial_cell_pool_top = sl.initial_cell_pool_top ∧
      t.update.length = SKIP_LIST_MAX_LEVEL ∧
      (∃ v, cell_load t t.header = .ok v ∧ v.fwps.length = SKIP_LIST_MAX_LEVEL) ∧
      (∃ v, cell_load t t.NIL = .ok v) ∧
      ∀ k, k < SKIP_LIST_MAX_LEVEL →
        fwps_get t t.header k = .ok t.NIL ∧ t.update[k]? = some t.header := by
  have hmax : SKIP_LIST_MAX_LEVEL = 32 := rfl
  obtain ⟨t, ht, h1, h2, h3, h4, h5, h6, h7, h8, h9⟩ := for_loop_inv
    (fun i (t : skip_list_s) => do
      let t ← fwps_set t t.header i t.NIL
      let up ← array_set t.update i t.header
      pure { t with update := up })
    (fun j t => t.level = sl.level ∧ t.header = sl.header ∧ t.NIL = sl.NIL ∧
      t.cell_pool_top = sl.cell_pool_top ∧
      t.initial_cell_pool_top = sl.initial_cell_pool_top ∧
      t.update.length = SKIP_LIST_MAX_LEVEL ∧
      (∃ v, cell_load t t.header = .ok v ∧ v.fwps.length = SKIP_LIST_MAX_LEVEL) ∧
      (∃ v, cell_load t t.NIL = .ok v) ∧
      ∀ k, k < j → fwps_get t t.header k = .ok t.NIL ∧ t.update[k]? = some t.header)
    SKIP_LIST_MAX_LEVEL 0 sl
    ⟨rfl, rfl, rfl, rfl, rfl, hS.update_length, hS.header_cell, hS.nil_cell,
      fun k hk => absurd hk (Nat.not_lt_zero k)⟩
    (fun j t _ hj ht => by
      obtain ⟨h1, h2, h3, h4, h5, h6, ⟨wh, hwh, hwl⟩, ⟨wn, hwn⟩, h9⟩ := ht
      obtain ⟨ta, hta⟩ := fwps_set_total t t.header j t.NIL wh hwh (by omega)
      have sa := fwps_set_same _ _ _ _ _ hta
      obtain ⟨a1, -, -⟩ := fwps_set_effect _ _ _ _ _ hta
      obtain ⟨wh1, hwh1, e1, -⟩ := sa.cells _ wh hwh
      obtain ⟨wn1, hwn1, -⟩ := sa.cells _ wn hwn
      refine ⟨{ ta with update := ta.update.set j ta.header }, ?_, ?_⟩
      · simp only [bind, Except.bind]
        rw [hta]
        simp only []
        rw [array_set_ok _ _ _ (by rw [sa.update, h6]; omega)]
        rfl
      · refine ⟨sa.level.trans h1, sa.header.trans h2, sa.nil.trans h3, sa.top.trans h4,
          sa.initial.trans h5, ?_, ?_, ?_, ?_⟩
        · show (ta.update.set j ta.header).length = _
          rw [List.length_set, sa.update, h6]
        · show ∃ v, cell_load ta ta.header = .ok v ∧ _
          rw [sa.header]
          exact ⟨wh1, hwh1, e1.trans hwl⟩
        · show ∃ v, cell_load ta ta.NIL = .ok v
          rw [sa.nil]
          exact ⟨wn1, hwn1⟩
        · intro k hk
          show fwps_get ta ta.header k = .ok ta.NIL ∧
            (ta.update.set j ta.header)[k]? = some ta.header
          rw [sa.header, sa.nil, sa.update]
          by_cases hkj : k = j
          · subst hkj
            refine ⟨by rw [a1, if_pos ⟨rfl, rfl⟩], ?_⟩
            exact List.getElem?_set_self (by rw [h6]; omega)
          · refine ⟨by rw [a1, if_neg (fun hh => hkj hh.2)]; exact (h9 k (by omega)).1, ?_⟩
            rw [List.getElem?_set_ne (Ne.symm hkj)]
            exact (h9 k (by omega)).2)
  exact ⟨t, ht, h1, h2, h3, h4, h5, h6, h7, h8, fun k hk => h9 k (by omega)⟩

/-- The function `skip_list_reset` returns; it leaves the index empty, with
the cursor at its only place and the pool rewound to its initial top. -/
theorem skip_list_reset_spec (sl : skip_list_s) (pool : pool_of_masking_partials_s)
    (hS : index_shape sl) :
    ∃ t, skip_list_reset sl = .ok t ∧ index_inv t pool [] [] ∧
      t.cell_pool_top = sl.initial_cell_pool_top ∧
      t.initial_cell_pool_top = sl.initial_cell_pool_top ∧ t.header = sl.header ∧
      t.NIL = sl.NIL ∧ t.level = 1 := by
  have hS1 : index_shape { sl with level := 1 } :=
    ⟨hS.header_ne, hS.header_cell, hS.nil_cell, hS.base, hS.update_length⟩
  obtain ⟨t, ht, h1, h2, h3, h4, h5, h6, ⟨wh, hwh, hwl⟩, ⟨wn, hwn⟩, h9⟩ :=
    skip_list_clear_spec _ hS1
  obtain ⟨ta, hta⟩ := prev_set_total t t.NIL t.header wn hwn
  have sa := prev_set_same _ _ _ _ hta
  obtain ⟨a1, a2, -⟩ := prev_set_effect _ _ _ _ hta
  obtain ⟨wh1, hwh1, e1, -⟩ := sa.cells _ wh hwh
  obtain ⟨wn1, hwn1, -⟩ := sa.cells _ wn hwn
  have hb := hS.base
  refine ⟨{ ta with cell_pool_top := ta.initial_cell_pool_top }, ?_, ?_,
    sa.initial.trans h5, sa.initial.trans h5, sa.header.trans h2, sa.nil.trans h3,
    sa.level.trans h1⟩
  · unfold skip_list_reset
    simp only [bind, Except.bind]
    rw [ht]
    simp only []
    rw [hta]
    rfl
  · refine
      { header_ne := ?_
        header_cell := ?_
        nil_cell := ?_
        base := ?_
        update_length := ?_
        level_range := ?_
        places := List.nodup_nil
        cells := fun c hc => by cases hc
        chains := ?_
        back := ?_
        sorted := List.Pairwise.nil
        cursor := ?_
        bound := ⟨0, (fun c hc => by cases hc), (fun c hc => by cases hc)⟩ }
    · show ta.header ≠ ta.NIL
      rw [sa.header, sa.nil, h2, h3]
      exact hS.header_ne
    · show ∃ v, cell_load ta ta.header = .ok v ∧ _
      rw [sa.header]
      exact ⟨wh1, hwh1, e1.trans hwl⟩
    · show ∃ v, cell_load ta ta.NIL = .ok v
      rw [sa.nil]
      exact ⟨wn1, hwn1⟩
    · show ta.header < ta.initial_cell_pool_top ∧ ta.NIL < ta.initial_cell_pool_top ∧
        ta.initial_cell_pool_top ≤ ta.initial_cell_pool_top
      rw [sa.header, sa.nil, sa.initial, h2, h3, h5]
      exact ⟨hb.1, hb.2, le_refl _⟩
    · show ta.update.length = _
      rw [sa.update]
      exact h6
    · show 0 ≤ ta.level ∧ ta.level ≤ _
      rw [sa.level, h1]
      show (0 : Int) ≤ 1 ∧ (1 : Int) ≤ _
      exact ⟨by decide, by decide⟩
    · intro i hi
      show fwps_get ta ta.header i = .ok ta.NIL
      rw [a1, sa.header, sa.nil]
      exact (h9 i hi).1
    · show prev_get ta ta.NIL = .ok ta.header
      rw [a2, sa.nil, sa.header, if_pos rfl]
    · intro i hi
      show ta.update[i]? = some ta.header
      rw [sa.update, sa.header]
      exact (h9 i hi).2

/-! ## Sequences of insertions and removals -/

theorem ordered_insert_split (pool : pool_of_masking_partials_s) (x : Nat)
    (pre post : List index_cell)
    (hpre : ∀ c ∈ pre, key_of pool c.data < key_of pool x)
    (hpost : ∀ c ∈ post, key_of pool x ≤ key_of pool c.data) :
    ordered_insert pool x ((pre ++ post).map (fun c => c.data)) =
      pre.map (fun c => c.data) ++ x :: post.map (fun c => c.data) := by
  have hall : ∀ d ∈ pre.map (fun c => c.data),
      (fun d => decide (key_of pool d < key_of pool x)) d = true := by
    intro d hd
    obtain ⟨c, hc, rfl⟩ := List.mem_map.mp hd
    simpa using hpre c hc
  have hnone : (post.map (fun c => c.data)).takeWhile
      (fun d => decide (key_of pool d < key_of pool x)) = [] := by
    cases post with
    | nil => rfl
    | cons b rest =>
      have := hpost b (List.mem_cons_self _ _)
      simp only [List.map_cons]
      rw [List.takeWhile_cons_of_neg]
      simpa using this
  have hdrop : (post.map (fun c => c.data)).dropWhile
      (fun d => decide (key_of pool d < key_of pool x)) = post.map (fun c => c.data) := by
    cases post with
    | nil => rfl
    | cons b rest =>
      have := hpost b (List.mem_cons_self _ _)
      simp only [List.map_cons]
      rw [List.dropWhile_cons_of_neg]
      simpa using this
  unfold ordered_insert
  rw [List.map_append, List.takeWhile_append_of_pos hall, hnone, List.append_nil,
    List.dropWhile_append_of_pos hall, hdrop]

theorem draws_succ (c : libc) (n : Nat) (g g2 : globals)
    (h : draws c (n + 1) g = .ok g2) :
    ∃ g1 level, random_level c g = .ok (g1, level) ∧ draws c n g1 = .ok g2 := by
  simp only [draws, bind_ok_iff] at h
  obtain ⟨⟨g1, level⟩, h1, h2⟩ := h
  exact ⟨g1, level, h1, h2⟩

/-- A sequence of steps on an index returns while the generator delivers its
levels and the pool has room for cells of the greatest size; the index then
holds the elements `kept`. -/
theorem index_run_spec (c : libc) (pool : pool_of_masking_partials_s) :
    ∀ (steps : List (Nat × Bool)) (g g2 : globals) (sl : skip_list_s)
      (pre post : List index_cell),
      index_inv sl pool pre post →
      (∀ x ∈ steps, ∃ mp, masking_partial_load pool x.1 = .ok mp) →
      draws c steps.length g = .ok g2 →
      sl.cell_pool_top + sizeof_tall_cell * steps.length < SIZEOF_POOL →
      ∃ t pre1 post1, index_run c pool steps (g, sl) = .ok (g2, t) ∧
        index_inv t pool pre1 post1 ∧
        (pre1 ++ post1).map (fun c => c.data) =
          kept pool steps ((pre ++ post).map (fun c => c.data)) ∧
        t.cell_pool_top ≤ sl.cell_pool_top + sizeof_tall_cell * steps.length ∧
        sl.cell_pool_top ≤ t.cell_pool_top ∧
        t.initial_cell_pool_top = sl.initial_cell_pool_top ∧ t.header = sl.header ∧
        t.NIL = sl.NIL := by
  have hsz : sizeof_tall_cell = 280 := rfl
  have hc1 : sizeof_cell = 24 := rfl
  have hc2 : sizeof_cell_t = 8 := rfl
  intro steps
  induction steps with
  | nil =>
    intro g g2 sl pre post hI _ hg _
    simp only [List.length_nil, draws, Except.ok.injEq] at hg
    subst hg
    exact ⟨sl, pre, post, rfl, hI, rfl, by simp, le_refl _, rfl, rfl, rfl⟩
  | cons x xs ih =>
    intro g g2 sl pre post hI hd hg hcap
    obtain ⟨g1, level, hrand, hg1⟩ := draws_succ c _ _ _ hg
    obtain ⟨hl1, hl2⟩ := random_level_range c g g1 level hrand
    have hmax : (SKIP_LIST_MAX_LEVEL : Int) = 32 := rfl
    have hlen : (x :: xs).length = xs.length + 1 := rfl
    rw [hlen] at hcap
    have hroom : sl.cell_pool_top + sizeof_cell + level.toNat * sizeof_cell_t <
        SIZEOF_POOL := by
      have : level.toNat ≤ 32 := by omega
      rw [hsz] at hcap
      rw [hc1, hc2]
      have h1 : 280 * (xs.length + 1) = 280 * xs.length + 280 := by ring
      omega
    obtain ⟨t, pre1, post1, hins, hsplit, hI1, hlow, hhigh, htop, hinit, hhead, hnil⟩ :=
      skip_list_insert_spec c g g1 sl pool pre post x.1 level hI
        (hd x (List.mem_cons_self _ _)) hrand hroom
    have htop2 : t.cell_pool_top ≤ sl.cell_pool_top + 280 := by
      have : level.toNat ≤ 32 := by omega
      rw [htop, hc1, hc2]
      omega
    have hcap1 : 280 * (xs.length + 1) = 280 * xs.length + 280 := by ring
    by_cases hx : x.2 = true
    · obtain ⟨t2, hrem, hI2, r1, r2, r3, r4⟩ := skip_list_remove_spec t pool pre1 post1 _ hI1
      obtain ⟨t3, pre3, post3, hrun, hI3, hdata, k1, k2, k3, k4, k5⟩ :=
        ih g1 g2 t2 pre1 post1 hI2 (fun y hy => hd y (List.mem_cons_of_mem _ hy)) hg1
          (by rw [hsz] at hcap ⊢; omega)
      refine ⟨t3, pre3, post3, ?_, hI3, ?_, ?_, ?_, k3.trans (r2.trans hinit),
        k4.trans (r3.trans hhead), k5.trans (r4.trans hnil)⟩
      · simp only [index_run, index_step, bind, Except.bind]
        rw [hins]
        simp only [hx, if_true]
        rw [hrem]
        exact hrun
      · rw [hdata, hsplit]
        simp only [kept, hx, if_true]
      · rw [hsz] at k1 ⊢
        omega
      · omega
    · obtain ⟨t3, pre3, post3, hrun, hI3, hdata, k1, k2, k3, k4, k5⟩ :=
        ih g1 g2 t pre1 (⟨sl.cell_pool_top, level.toNat, x.1⟩ :: post1) hI1
          (fun y hy => hd y (List.mem_cons_of_mem _ hy)) hg1
          (by rw [hsz] at hcap ⊢; omega)
      refine ⟨t3, pre3, post3, ?_, hI3, ?_, ?_, ?_, k3.trans hinit, k4.trans hhead,
        k5.trans hnil⟩
      · simp only [index_run, index_step, bind, Except.bind]
        rw [hins]
        simp only [hx]
        exact hrun
      · rw [hdata]
        simp only [kept, hx]
        rw [← hsplit, ordered_insert_split pool x.1 pre1 post1 hlow hhigh]
        simp
      · rw [hsz] at k1 ⊢
        omega
      · rw [htop] at k2
        omega

/-! ## The chains as a walk reads them -/

theorem chain_walk_spec (sl : skip_list_s) (i : Nat) :
    ∀ (cells : List index_cell) (x n : Nat), chained sl i x cells →
      (∀ c ∈ cells, c.place ≠ sl.NIL ∧
        ∃ v, cell_load sl c.place = .ok v ∧ v.data = some c.data) →
      cells.length < n →
      chain_walk sl i n x = .ok ((cells.filter (fun c => decide (i < c.height))).map
        (fun c => (c.place, some c.data))) := by
  intro cells
  induction cells with
  | nil =>
    intro x n hch _ hn
    obtain ⟨m, rfl⟩ : ∃ m, n = m + 1 := ⟨n - 1, by simp at hn; omega⟩
    simp only [chained] at hch
    simp only [chain_walk, bind, Except.bind]
    rw [hch]
    simp only [if_true]
    rfl
  | cons c rest ih =>
    intro x n hch hk hn
    simp only [List.length_cons] at hn
    by_cases hi : i < c.height
    · obtain ⟨m, rfl⟩ : ∃ m, n = m + 1 := ⟨n - 1, by omega⟩
      simp only [chained, if_pos hi] at hch
      obtain ⟨hne, v, hv, hvd⟩ := hk c (List.mem_cons_self _ _)
      have hrest := ih c.place m hch.2 (fun d hd => hk d (List.mem_cons_of_mem _ hd))
        (by omega)
      simp only [chain_walk, bind, Except.bind]
      rw [hch.1]
      simp only [if_neg hne]
      rw [hv]
      simp only []
      rw [hrest, List.filter_cons_of_pos (by simpa using hi), hvd]
      rfl
    · simp only [chained, if_neg hi] at hch
      rw [List.filter_cons_of_neg (by simpa using hi)]
      exact ih x n hch (fun d hd => hk d (List.mem_cons_of_mem _ hd)) (by omega)

theorem chain_back (sl : skip_list_s) :
    ∀ (cells : List index_cell) (x : Nat), chained sl 0 x cells → back_chained sl x cells →
      (∀ c ∈ cells, 0 < c.height) →
      ∀ a, a = x ∨ a ∈ cells.map (fun c => c.place) →
        ∃ n, fwps_get sl a 0 = .ok n ∧ prev_get sl n = .ok a := by
  intro cells
  induction cells with
  | nil =>
    intro x hch hb _ a ha
    simp only [chained] at hch
    simp only [back_chained] at hb
    rcases ha with rfl | ha
    · exact ⟨sl.NIL, hch, hb⟩
    · cases ha
  | cons c rest ih =>
    intro x hch hb hh a ha
    have hc := hh c (List.mem_cons_self _ _)
    simp only [chained, if_pos hc] at hch
    simp only [back_chained] at hb
    rcases ha with rfl | ha
    · exact ⟨c.place, hch.1, hb.1⟩
    · simp only [List.map_cons, List.mem_cons] at ha
      exact ih c.place hch.2 hb.2 (fun d hd => hh d (List.mem_cons_of_mem _ hd)) a ha

theorem ordered_insert_perm (pool : pool_of_masking_partials_s) (x : Nat) (l : List Nat) :
    (ordered_insert pool x l).Perm (x :: l) := by
  unfold ordered_insert
  refine List.perm_middle.trans ?_
  rw [List.takeWhile_append_dropWhile]

theorem kept_perm (pool : pool_of_masking_partials_s) :
    ∀ (steps : List (Nat × Bool)) (l : List Nat),
      (kept pool steps l).Perm ((steps.filter (fun x => !x.2)).map (fun x => x.1) ++ l) := by
  intro steps
  induction steps with
  | nil => intro l; exact List.Perm.refl _
  | cons x xs ih =>
    intro l
    simp only [kept]
    by_cases hx : x.2 = true
    · rw [if_pos hx, List.filter_cons_of_neg (by simp [hx])]
      exact ih l
    · rw [if_neg hx, List.filter_cons_of_pos (by simpa using hx)]
      refine (ih _).trans ?_
      simp only [List.map_cons, List.cons_append]
      exact ((ordered_insert_perm pool x.1 l).append_left _).trans List.perm_middle

theorem kept_length (pool : pool_of_masking_partials_s) (steps : List (Nat × Bool)) :
    (kept pool steps []).length ≤ steps.length := by
  have h := (kept_perm pool steps []).length_eq
  rw [List.append_nil, List.length_map] at h
  rw [h]
  exact List.length_filter_le _ _

theorem kept_removed (pool : pool_of_masking_partials_s) (x : Nat) :
    ∀ (steps : List (Nat × Bool)) (l : List Nat),
      kept pool (steps ++ [(x, true)]) l = kept pool steps l := by
  intro steps
  induction steps with
  | nil => intro l; rfl
  | cons y ys ih => intro l; exact ih _

theorem kept_inserted (pool : pool_of_masking_partials_s) (x : Nat) :
    ∀ (steps : List (Nat × Bool)) (l : List Nat),
      kept pool (steps ++ [(x, false)]) l = ordered_insert pool x (kept pool steps l) := by
  intro steps
  induction steps with
  | nil => intro l; rfl
  | cons y ys ih => intro l; exact ih _

theorem index_run_append (c : libc) (pool : pool_of_masking_partials_s) :
    ∀ (steps more : List (Nat × Bool)) (st st1 : globals × skip_list_s),
      index_run c pool steps st = .ok st1 →
      index_run c pool (steps ++ more) st = index_run c pool more st1 := by
  intro steps
  induction steps with
  | nil =>
    intro more st st1 h
    simp only [index_run, Except.ok.injEq] at h
    subst h
    rfl
  | cons x xs ih =>
    intro more st st1 h
    simp only [index_run, bind_ok_iff] at h
    obtain ⟨st2, h1, h2⟩ := h
    simp only [List.cons_append, index_run, bind, Except.bind]
    rw [h1]
    exact ih more st2 st1 h2

theorem draws_append (c : libc) :
    ∀ (n : Nat) (g g2 : globals), draws c (n + 1) g = .ok g2 →
      ∃ g1 level, draws c n g = .ok g1 ∧ random_level c g1 = .ok (g2, level) := by
  intro n
  induction n with
  | zero =>
    intro g g2 h
    obtain ⟨g1, level, h1, h2⟩ := draws_succ c _ _ _ h
    simp only [draws, Except.ok.injEq] at h2
    subst h2
    exact ⟨g, level, rfl, h1⟩
  | succ n ih =>
    intro g g2 h
    obtain ⟨g1, level, h1, h2⟩ := draws_succ c _ _ _ h
    obtain ⟨g3, level3, h3, h4⟩ := ih g1 g2 h2
    refine ⟨g3, level3, ?_, h4⟩
    simp only [draws, bind, Except.bind]
    rw [h1]
    exact h3

/-- What the invariant of the index says to a walk along its chains. -/
theorem index_inv_walk (sl : skip_list_s) (pool : pool_of_masking_partials_s)
    (pre post : List index_cell) (hI : index_inv sl pool pre post) (n : Nat)
    (hn : (pre ++ post).length < n) :
    chain_walk sl 0 n sl.header =
        .ok ((pre ++ post).map (fun c => (c.place, some c.data))) ∧
      ((pre ++ post).map (fun c => c.data)).Pairwise
        (fun a b => key_of pool a ≤ key_of pool b) ∧
      (∀ a, a = sl.header ∨ a ∈ (pre ++ post).map (fun c => c.place) →
        ∃ m, fwps_get sl a 0 = .ok m ∧ prev_get sl m = .ok a) ∧
      ∀ i, i < SKIP_LIST_MAX_LEVEL →
        ∃ li, chain_walk sl i n sl.header = .ok li ∧
          li.Sublist ((pre ++ post).map (fun c => (c.place, some c.data))) := by
  have h0 : 0 < SKIP_LIST_MAX_LEVEL := by decide
  have hk : ∀ c ∈ pre ++ post, c.place ≠ sl.NIL ∧
      ∃ v, cell_load sl c.place = .ok v ∧ v.data = some c.data := by
    intro c hc
    obtain ⟨k1, ⟨v, hv, -, hvd⟩, -⟩ := index_inv_known sl pool pre post hI c hc
    exact ⟨k1, v, hv, hvd⟩
  have hh : ∀ c ∈ pre ++ post, 0 < c.height := by
    intro c hc
    obtain ⟨-, -, h3, -⟩ := hI.cells c hc
    omega
  refine ⟨?_, ?_, ?_, ?_⟩
  · rw [chain_walk_spec sl 0 _ _ n (hI.chains 0 h0) hk hn, List.filter_eq_self.mpr]
    intro c hc
    simpa using hh c hc
  · have := hI.sorted
    rw [List.pairwise_map] at this ⊢
    exact this
  · exact chain_back sl _ _ (hI.chains 0 h0) hI.back hh
  · intro i hi
    refine ⟨_, chain_walk_spec sl i _ _ n (hI.chains i hi) hk hn, ?_⟩
    exact List.Sublist.map _ (List.filter_sublist _)

/-- The function `skip_list_reset` followed by a sequence of steps returns
while the generator delivers its levels and the pool has room. -/
theorem index_session_spec (c : libc) (pool : pool_of_masking_partials_s) (g g2 : globals)
    (sl : skip_list_s) (steps : List (Nat × Bool)) (hS : index_shape sl)
    (hd : ∀ x ∈ steps, ∃ mp, masking_partial_load pool x.1 = .ok mp)
    (hrand : draws c steps.length g = .ok g2)
    (hcap : sl.initial_cell_pool_top + sizeof_tall_cell * steps.length < SIZEOF_POOL) :
    ∃ t pre post, index_session c pool g sl steps = .ok (g2, t) ∧
      index_inv t pool pre post ∧
      (pre ++ post).map (fun c => c.data) = kept pool steps [] ∧
      t.cell_pool_top ≤ sl.initial_cell_pool_top + sizeof_tall_cell * steps.length ∧
      sl.initial_cell_pool_top ≤ t.cell_pool_top ∧
      t.initial_cell_pool_top = sl.initial_cell_pool_top ∧ t.header = sl.header ∧
      t.NIL = sl.NIL := by
  obtain ⟨t0, hreset, hI0, r1, r2, r3, r4, -⟩ := skip_list_reset_spec sl pool hS
  obtain ⟨t, pre, post, hrun, hI, hdata, k1, k2, k3, k4, k5⟩ :=
    index_run_spec c pool steps g g2 t0 [] [] hI0 hd hrand (by rw [r1]; exact hcap)
  refine ⟨t, pre, post, ?_, hI, hdata, by rw [← r1]; exact k1, by rw [← r1]; exact k2,
    k3.trans r2, k4.trans r3, k5.trans r4⟩
  unfold index_session
  simp only [bind, Except.bind]
  rw [hreset]
  exact hrun

theorem sorted_neighbours (pool : pool_of_masking_partials_s) (x : Nat)
    (pre post : List index_cell)
    (hsorted : ((pre ++ post).map (fun c => key_of pool c.data)).Pairwise (fun a b => a ≤ b))
    (hlow : ∀ c ∈ pre, key_of pool c.data < key_of pool x)
    (hhigh : ∀ c ∈ post, key_of pool x ≤ key_of pool c.data) :
    greatest_below pool x ((pre ++ post).map (fun c => c.data))
        (pre.getLast?.map (fun c => c.data)) ∧
      least_above pool x ((pre ++ post).map (fun c => c.data))
        (post.head?.map (fun c => c.data)) := by
  rw [List.pairwise_map, List.pairwise_append] at hsorted
  obtain ⟨hp1, hp2, -⟩ := hsorted
  constructor
  · rcases List.eq_nil_or_concat pre with rfl | ⟨init, p, hpre⟩
    · simp only [List.getLast?_nil, Option.map_none', greatest_below, List.nil_append]
      intro d hd
      obtain ⟨c, hc, rfl⟩ := List.mem_map.mp hd
      exact hhigh c hc
    · rw [List.concat_eq_append] at hpre
      subst hpre
      have hlast : (init ++ [p]).getLast? = some p := by simp
      rw [hlast]
      simp only [Option.map_some', greatest_below]
      refine ⟨?_, hlow p (by simp), ?_⟩
      · exact List.mem_map.mpr ⟨p, by simp, rfl⟩
      · intro d hd hlt
        obtain ⟨c, hc, rfl⟩ := List.mem_map.mp hd
        rcases List.mem_append.mp hc with hc | hc
        · rcases List.mem_append.mp hc with hc | hc
          · rw [List.pairwise_append] at hp1
            exact hp1.2.2 c hc p (by simp)
          · simp only [List.mem_singleton] at hc
            subst hc
            exact le_refl _
        · exact absurd hlt (not_lt.mpr (hhigh c hc))
  · cases post with
    | nil =>
      simp only [List.head?_nil, Option.map_none', least_above, List.append_nil]
      intro d hd
      obtain ⟨c, hc, rfl⟩ := List.mem_map.mp hd
      exact hlow c hc
    | cons n rest =>
      simp only [List.head?_cons, Option.map_some', least_above]
      refine ⟨List.mem_map.mpr ⟨n, by simp, rfl⟩, hhigh n (by simp), ?_⟩
      intro d hd hle
      obtain ⟨c, hc, rfl⟩ := List.mem_map.mp hd
      rcases List.mem_append.mp hc with hc | hc
      · exact absurd (hlow c hc) (not_lt.mpr hle)
      · rcases List.mem_cons.mp hc with rfl | hc
        · exact le_refl _
        · exact (List.pairwise_cons.mp hp2).1 c hc

/-! ## The structure of the skip list -/

/-- C40: after `skip_list_reset` and any sequence of steps "insert `x`, then
possibly remove `x`", for which the generator delivers its levels and the pool
has room, the chain of level 0 from the header to NIL holds exactly the
elements inserted and not removed (`kept`), by non-decreasing `freqB`; the
header and every cell of the chain are the `prev` of their successor at level
0; the chain of each level is a subsequence of the chain of level 0; an
insertion followed at once by a removal leaves the sequence of elements as it
was; and after `skip_list_reset` alone the list is empty and the top of the
pool is back at its initial value. -/
theorem index_structure (c : libc) (pool : pool_of_masking_partials_s) (g : globals)
    (sl : skip_list_s) (steps : List (Nat × Bool)) (hS : index_shape sl)
    (hd : ∀ x ∈ steps, ∃ mp, masking_partial_load pool x.1 = .ok mp)
    (hrand : ∃ g2, draws c steps.length g = .ok g2)
    (hcap : sl.initial_cell_pool_top + sizeof_tall_cell * steps.length < SIZEOF_POOL) :
    ∃ g2 t l, index_session c pool g sl steps = .ok (g2, t) ∧
      chain_walk t 0 (steps.length + 1) t.header = .ok l ∧
      l.map (fun p => p.2) = (kept pool steps []).map some ∧
      (kept pool steps []).Perm ((steps.filter (fun x => !x.2)).map (fun x => x.1)) ∧
      (kept pool steps []).Pairwise (fun a b => key_of pool a ≤ key_of pool b) ∧
      (∀ a, a = t.header ∨ a ∈ l.map (fun p => p.1) →
        ∃ n, fwps_get t a 0 = .ok n ∧ prev_get t n = .ok a) ∧
      (∀ i, i < SKIP_LIST_MAX_LEVEL →
        ∃ li, chain_walk t i (steps.length + 1) t.header = .ok li ∧ li.Sublist l) ∧
      (∀ x, kept pool (steps ++ [(x, true)]) [] = kept pool steps []) ∧
      (steps = [] → l = [] ∧ t.cell_pool_top = sl.initial_cell_pool_top) := by
  obtain ⟨g2, hg⟩ := hrand
  obtain ⟨t, pre, post, hrun, hI, hdata, k1, k2, -, -, -⟩ :=
    index_session_spec c pool g g2 sl steps hS hd hg hcap
  have hlen : (pre ++ post).length < steps.length + 1 := by
    have h1 := congrArg List.length hdata
    rw [List.length_map] at h1
    have h2 := kept_length pool steps
    omega
  obtain ⟨w1, w2, w3, w4⟩ := index_inv_walk t pool pre post hI _ hlen
  have hplaces : ((pre ++ post).map (fun c => (c.place, some c.data))).map (fun p => p.1) =
      (pre ++ post).map (fun c => c.place) := by
    rw [List.map_map]
    rfl
  refine ⟨g2, t, _, hrun, w1, ?_, ?_, ?_, ?_, w4, fun x => kept_removed pool x steps [], ?_⟩
  · rw [← hdata, List.map_map, List.map_map]
    rfl
  · have := kept_perm pool steps []
    rwa [List.append_nil] at this
  · rw [← hdata]
    exact w2
  · rw [hplaces]
    exact w3
  · rintro rfl
    simp only [kept, List.map_eq_nil_iff] at hdata
    rw [hdata]
    refine ⟨rfl, ?_⟩
    simp only [List.length_nil, Nat.mul_zero, Nat.add_zero] at k1
    omega

theorem index_shape_empty_mask : index_shape empty_mask :=
  ⟨by decide, ⟨_, rfl, rfl⟩, ⟨_, rfl⟩, ⟨by decide, by decide⟩, rfl⟩

/-- Witness for C40: in the empty list, the elements 0 (2 Bark), 1 (1 Bark,
removed at once) and 2 (2 Bark) of `bark_pool` leave the element 2 followed by
the element 0. -/
theorem index_structure_witness :
    ∃ g2 t l, index_session libc_rational bark_pool globals_start empty_mask
        [(0, false), (1, true), (2, false)] = .ok (g2, t) ∧
      chain_walk t 0 4 t.header = .ok l ∧ l.map (fun p => p.2) = [some 2, some 0] := by
  obtain ⟨g2, t, l, h1, h2, h3, -⟩ :=
    index_structure libc_rational bark_pool globals_start empty_mask
      [(0, false), (1, true), (2, false)] index_shape_empty_mask
      (fun x hx => by
        simp only [List.mem_cons, List.mem_singleton, List.not_mem_nil, or_false] at hx
        rcases hx with rfl | rfl | rfl <;> exact ⟨_, rfl⟩)
      (exists_of_isOk _ (by decide!)) (by decide)
  have hk : kept bark_pool [(0, false), (1, true), (2, false)] [] = [2, 0] := by decide!
  rw [hk] at h3
  exact ⟨g2, t, l, h1, h2, h3⟩

/-! ## The neighbours of a new element of the index -/

/-- C24: after `skip_list_reset` and any sequence of steps "insert `x`, then
possibly remove `x`", right after one more `skip_list_insert (sl, x)`, the
function `skip_list_previous` returns a stored element of greatest `freqB`
below that of `x` (NULL when there is none), `skip_list_next` returns a stored
element, other than the new one, of least `freqB` not below that of `x` (NULL
when there is none), and the new element stands in the chain of level 0 before
the elements of equal `freqB`. -/
theorem index_neighbours (c : libc) (pool : pool_of_masking_partials_s) (g : globals)
    (sl : skip_list_s) (steps : List (Nat × Bool)) (x : Nat) (hS : index_shape sl)
    (hd : ∀ y ∈ steps ++ [(x, false)], ∃ mp, masking_partial_load pool y.1 = .ok mp)
    (hrand : ∃ g2, draws c (steps.length + 1) g = .ok g2)
    (hcap : sl.initial_cell_pool_top + sizeof_tall_cell * (steps.length + 1) < SIZEOF_POOL) :
    ∃ g2 t lo hi l, index_session c pool g sl (steps ++ [(x, false)]) = .ok (g2, t) ∧
      skip_list_previous t = .ok lo ∧ skip_list_next t = .ok hi ∧
      greatest_below pool x (kept pool steps []) lo ∧
      least_above pool x (kept pool steps []) hi ∧
      chain_walk t 0 (steps.length + 2) t.header = .ok l ∧
      l.map (fun p => p.2) = (ordered_insert pool x (kept pool steps [])).map some := by
  have hsz : sizeof_tall_cell = 280 := rfl
  have hc1 : sizeof_cell = 24 := rfl
  have hc2 : sizeof_cell_t = 8 := rfl
  have hmax : (SKIP_LIST_MAX_LEVEL : Int) = 32 := rfl
  obtain ⟨g2, hg⟩ := hrand
  obtain ⟨g1, level, hg1, hlevel⟩ := draws_append c _ _ _ hg
  obtain ⟨hl1, hl2⟩ := random_level_range c g1 g2 level hlevel
  obtain ⟨t0, hreset, hI0, r1, r2, r3, r4, -⟩ := skip_list_reset_spec sl pool hS
  obtain ⟨t1, pre, post, hrun, hI, hdata, k1, k2, k3, k4, k5⟩ :=
    index_run_spec c pool steps g g1 t0 [] [] hI0
      (fun y hy => hd y (List.mem_append_left _ hy)) hg1
      (by
        rw [r1]
        rw [hsz] at hcap ⊢
        have h1 : 280 * (steps.length + 1) = 280 * steps.length + 280 := by ring
        omega)
  have hroom : t1.cell_pool_top + sizeof_cell + level.toNat * sizeof_cell_t <
      SIZEOF_POOL := by
    have : level.toNat ≤ 32 := by omega
    rw [r1, hsz] at k1
    rw [hsz] at hcap
    rw [hc1, hc2]
    have h1 : 280 * (steps.length + 1) = 280 * steps.length + 280 := by ring
    omega
  obtain ⟨t, pre1, post1, hins, hsplit, hI1, hlow, hhigh, -⟩ :=
    skip_list_insert_spec c g1 g2 t1 pool pre post x level hI
      (hd (x, false) (List.mem_append_right _ (List.mem_singleton_self _))) hlevel hroom
  obtain ⟨n1, n2⟩ := skip_list_neighbours t pool pre1 post1 _ hI1
  have hsorted := hI.sorted
  rw [← hsplit] at hsorted
  obtain ⟨e1, e2⟩ := sorted_neighbours pool x pre1 post1 hsorted hlow hhigh
  rw [hsplit] at e1 e2
  simp only [List.nil_append, List.map_nil] at hdata
  have hdata1 : (pre1 ++ ⟨t1.cell_pool_top, level.toNat, x⟩ :: post1).map (fun c => c.data) =
      ordered_insert pool x (kept pool steps []) := by
    rw [← hdata, ← hsplit, ordered_insert_split pool x pre1 post1 hlow hhigh]
    simp
  have hlen : (pre1 ++ ⟨t1.cell_pool_top, level.toNat, x⟩ :: post1).length <
      steps.length + 2 := by
    have h1 := congrArg List.length hdata
    have h2 := congrArg List.length hsplit
    rw [List.length_map] at h1
    have h3 := kept_length pool steps
    simp only [List.length_append, List.length_cons] at h2 ⊢
    simp only [List.length_append] at h1
    omega
  obtain ⟨w1, -⟩ := index_inv_walk t pool _ _ hI1 _ hlen
  refine ⟨g2, t, _, _, _, ?_, n1, n2, ?_, ?_, w1, ?_⟩
  · unfold index_session
    simp only [bind, Except.bind]
    rw [hreset]
    simp only []
    rw [index_run_append c pool steps [(x, false)] (g, t0) (g1, t1) hrun]
    simp only [index_run, index_step, bind, Except.bind]
    rw [hins]
    rfl
  · rw [← hdata]
    exact e1
  · rw [← hdata]
    exact e2
  · rw [← hdata1, List.map_map, List.map_map]
    rfl

/-- Witness for C24: in the list that holds the elements 0 (2 Bark) and
1 (1 Bark) of `bark_pool`, the neighbours of the new element 2 (2 Bark) are the
element 1 below and the element 0 above. -/
theorem index_neighbours_witness :
    ∃ g2 t, index_session libc_rational bark_pool globals_start empty_mask
        [(0, false), (1, false), (2, false)] = .ok (g2, t) ∧
      skip_list_previous t = .ok (some 1) ∧ skip_list_next t = .ok (some 0) := by
  obtain ⟨g2, t, lo, hi, l, h1, h2, h3, h4, h5, -⟩ :=
    index_neighbours libc_rational bark_pool globals_start empty_mask
      [(0, false), (1, false)] 2 index_shape_empty_mask
      (fun x hx => by
        simp only [List.cons_append, List.nil_append, List.mem_cons, List.mem_singleton,
          List.not_mem_nil, or_false] at hx
        rcases hx with rfl | rfl | rfl <;> exact ⟨_, rfl⟩)
      (exists_of_isOk _ (by decide!)) (by decide)
  have hc : index_session libc_rational bark_pool globals_start empty_mask
      [(0, false), (1, false), (2, false)] = .ok (g2, t) := h1
  have hv : (do
      let r ← index_session libc_rational bark_pool globals_start empty_mask
        [(0, false), (1, false), (2, false)]
      let lo ← skip_list_previous r.2
      let hi ← skip_list_next r.2
      pure (lo, hi)) = (.ok (some 1, some 0) : Except fault (Option Nat × Option Nat)) := by
    decide!
  rw [hc] at hv
  simp only [bind, Except.bind, h2, h3, pure, Except.pure, Except.ok.injEq,
    Prod.mk.injEq] at hv
  exact ⟨g2, t, hc, by rw [h2, hv.1], by rw [h3, hv.2]⟩

/-! ## The capacity of the pool of cells -/

theorem random_level_loop_refill (c : libc) (n : Nat) (g : globals) (level : Int)
    (h : g.bits_left = 0) :
    random_level_loop c (n + 1) g level =
      random_level_loop c (n + 1)
        { g with random_bits := (c.random g.random_state).1 % 2 ^ 32,
                 random_state := (c.random g.random_state).2, bits_left := 4 } level := by
  simp only [random_level_loop, h, if_true]
  simp

theorem random_level_loop_zero (c : libc) (n : Nat) (g : globals) (level : Int)
    (h : g.bits_left ≠ 0) (hb : g.random_bits % 2 = 0) :
    random_level_loop c (n + 1) g level =
      random_level_loop c n
        { g with random_bits := g.random_bits / 2, bits_left := g.bits_left - 1 }
        (level + 1) := by
  simp only [random_level_loop, if_neg h, hb, if_true]

theorem random_level_loop_one (c : libc) (n : Nat) (g : globals) (level : Int)
    (h : g.bits_left ≠ 0) (hb : g.random_bits % 2 = 1) :
    random_level_loop c (n + 1) g level =
      .ok ({ g with random_bits := g.random_bits / 2, bits_left := g.bits_left - 1 },
        level) := by
  simp only [random_level_loop, if_neg h, hb]
  simp

/-- Four zero bits of `libc_tall`. -/
theorem tall_round_zero (n : Nat) (g : globals) (level : Int) (h0 : g.bits_left = 0)
    (hs : g.random_state % 8 ≠ 0) :
    random_level_loop libc_tall (n + 4) g level =
      random_level_loop libc_tall n
        { g with random_bits := 0, random_state := g.random_state + 1, bits_left := 0 }
        (level + 4) := by
  have hr : libc_tall.random g.random_state = (0, g.random_state + 1) := by
    show ((if g.random_state % 8 = 0 then 8 else 0), g.random_state + 1) = _
    rw [if_neg hs]
  rw [random_level_loop_refill _ _ _ _ h0, hr,
    random_level_loop_zero _ _ _ _ (by simp) (by simp),
    random_level_loop_zero _ _ _ _ (by simp) (by simp),
    random_level_loop_zero _ _ _ _ (by simp) (by simp),
    random_level_loop_zero _ _ _ _ (by simp) (by simp)]
  have hl : level + 1 + 1 + 1 + 1 = level + 4 := by ring
  rw [hl]
  congr 1
  simp

/-- Three zero bits and a one bit of `libc_tall`. -/
theorem tall_round_one (n : Nat) (g : globals) (level : Int) (h0 : g.bits_left = 0)
    (hs : g.random_state % 8 = 0) :
    random_level_loop libc_tall (n + 4) g level =
      .ok ({ g with random_bits := 0, random_state := g.random_state + 1, bits_left := 0 },
        level + 3) := by
  have hr : libc_tall.random g.random_state = (8, g.random_state + 1) := by
    show ((if g.random_state % 8 = 0 then 8 else 0), g.random_state + 1) = _
    rw [if_pos hs]
  rw [random_level_loop_refill _ _ _ _ h0, hr,
    random_level_loop_zero _ _ _ _ (by simp) (by simp),
    random_level_loop_zero _ _ _ _ (by simp) (by simp),
    random_level_loop_zero _ _ _ _ (by simp) (by simp),
    random_level_loop_one _ _ _ _ (by simp) (by simp)]
  have hl : level + 1 + 1 + 1 = level + 3 := by ring
  rw [hl]
  congr 1
  simp

/-- With `libc_tall`, `random_level` returns `SKIP_LIST_MAX_LEVEL`. -/
theorem tall_level (g : globals) (h0 : g.bits_left = 0) (hs : g.random_state % 8 = 1) :
    random_level libc_tall g =
      .ok ({ g with random_bits := 0, random_state := g.random_state + 8, bits_left := 0 },
        32) := by
  unfold random_level
  have hf : (2 : Nat) ^ 31 = 2147483616 + 4 + 4 + 4 + 4 + 4 + 4 + 4 + 4 := by norm_num
  rw [hf, tall_round_zero _ _ _ h0 (by omega),
    tall_round_zero _ _ _ rfl (by show (g.random_state + 1) % 8 ≠ 0; omega),
    tall_round_zero _ _ _ rfl (by show (g.random_state + 1 + 1) % 8 ≠ 0; omega),
    tall_round_zero _ _ _ rfl (by show (g.random_state + 1 + 1 + 1) % 8 ≠ 0; omega),
    tall_round_zero _ _ _ rfl (by show (g.random_state + 1 + 1 + 1 + 1) % 8 ≠ 0; omega),
    tall_round_zero _ _ _ rfl (by show (g.random_state + 1 + 1 + 1 + 1 + 1) % 8 ≠ 0; omega),
    tall_round_zero _ _ _ rfl
      (by show (g.random_state + 1 + 1 + 1 + 1 + 1 + 1) % 8 ≠ 0; omega),
    tall_round_one _ _ _ rfl
      (by show (g.random_state + 1 + 1 + 1 + 1 + 1 + 1 + 1) % 8 = 0; omega)]
  rfl

theorem skip_list_make_eq (g : globals) (tv_sec : Nat) :
    skip_list_make g tv_sec = .ok ({ g with random_state := tv_sec }, empty_mask) := by
  rfl

theorem SIZEOF_POOL_eq : SIZEOF_POOL = 1433600 := by
  rfl

theorem skip_list_cell_make_cases (sl : skip_list_s) (level : Nat) (data : Option Nat) :
    (skip_list_cell_make sl level data = .error .exit_failure ↔
        SIZEOF_POOL ≤ sl.cell_pool_top + sizeof_cell + level * sizeof_cell_t) ∧
      (sl.cell_pool_top + sizeof_cell + level * sizeof_cell_t < SIZEOF_POOL →
        ∃ r, skip_list_cell_make sl level data = .ok r) := by
  unfold skip_list_cell_make
  simp only [ge_iff_le]
  by_cases h : SIZEOF_POOL ≤ sl.cell_pool_top + sizeof_cell + level * sizeof_cell_t
  · rw [if_pos h]
    exact ⟨⟨fun _ => h, fun _ => rfl⟩, fun h1 => absurd h (by omega)⟩
  · rw [if_neg h]
    exact ⟨⟨(fun h1 => by cases h1), fun h1 => absurd h1 h⟩, fun _ => ⟨_, rfl⟩⟩

theorem uniform_pool_load (n k : Nat) (hk : k < n) :
    ∃ mp, masking_partial_load (uniform_pool n) k = .ok mp := by
  refine ⟨⟨⟨1, 0⟩, 0, 0, 1⟩, ?_⟩
  unfold masking_partial_load uniform_pool
  simp only [List.get?_eq_getElem?, List.getElem?_replicate, if_pos hk]

theorem insertions_mem (n : Nat) (x : Nat × Bool) (hx : x ∈ insertions n) :
    x.1 < n ∧ x.2 = false := by
  unfold insertions at hx
  obtain ⟨k, hk, rfl⟩ := List.mem_map.mp hx
  exact ⟨List.mem_range.mp hk, rfl⟩

theorem insertions_length (n : Nat) : (insertions n).length = n := by
  unfold insertions
  rw [List.length_map, List.length_range]

theorem insertions_succ (n : Nat) : insertions (n + 1) = insertions n ++ [(n, false)] := by
  unfold insertions
  rw [List.range_succ, List.map_append]
  rfl

/-- With `libc_tall` every insertion takes a cell of the greatest size. -/
theorem index_run_tall (pool : pool_of_masking_partials_s) :
    ∀ (steps : List (Nat × Bool)) (g : globals) (sl : skip_list_s)
      (pre post : List index_cell),
      index_inv sl pool pre post →
      (∀ x ∈ steps, (∃ mp, masking_partial_load pool x.1 = .ok mp) ∧ x.2 = false) →
      g.bits_left = 0 → g.random_state % 8 = 1 →
      sl.cell_pool_top + sizeof_tall_cell * steps.length < SIZEOF_POOL →
      ∃ g1 t pre1 post1, index_run libc_tall pool steps (g, sl) = .ok (g1, t) ∧
        index_inv t pool pre1 post1 ∧
        t.cell_pool_top = sl.cell_pool_top + sizeof_tall_cell * steps.length ∧
        g1.bits_left = 0 ∧ g1.random_state % 8 = 1 := by
  have hsz : sizeof_tall_cell = 280 := rfl
  have hc1 : sizeof_cell = 24 := rfl
  have hc2 : sizeof_cell_t = 8 := rfl
  have h32 : (32 : Int).toNat = 32 := rfl
  intro steps
  induction steps with
  | nil =>
    intro g sl pre post hI _ h0 hs _
    exact ⟨g, sl, pre, post, rfl, hI, by simp, h0, hs⟩
  | cons x xs ih =>
    intro g sl pre post hI hd h0 hs hcap
    have hlen : (x :: xs).length = xs.length + 1 := rfl
    rw [hlen, hsz] at hcap
    have hm : 280 * (xs.length + 1) = 280 * xs.length + 280 := by ring
    have hrand := tall_level g h0 hs
    obtain ⟨t, pre1, post1, hins, -, hI1, -, -, htop, -⟩ :=
      skip_list_insert_spec libc_tall g _ sl pool pre post x.1 32 hI
        (hd x (List.mem_cons_self _ _)).1 hrand
        (by rw [h32, hc1, hc2]; omega)
    rw [h32, hc1, hc2] at htop
    obtain ⟨g1, t1, pre2, post2, hrun, hI2, htop2, k1, k2⟩ :=
      ih { g with random_bits := 0, random_state := g.random_state + 8, bits_left := 0 }
        t _ _ hI1 (fun y hy => hd y (List.mem_cons_of_mem _ hy)) rfl
        (by show (g.random_state + 8) % 8 = 1; omega)
        (by rw [hsz, htop]; omega)
    refine ⟨g1, t1, pre2, post2, ?_, hI2, ?_, k1, k2⟩
    · simp only [index_run, index_step, bind, Except.bind]
      rw [hins]
      simp only [(hd x (List.mem_cons_self _ _)).2]
      exact hrun
    · rw [htop2, htop, hlen, hsz]
      omega

theorem index_session_eq (c : libc) (pool : pool_of_masking_partials_s) (g : globals)
    (sl t0 : skip_list_s) (steps : List (Nat × Bool)) (h : skip_list_reset sl = .ok t0) :
    index_session c pool g sl steps = index_run c pool steps (g, t0) := by
  unfold index_session
  simp only [bind, Except.bind]
  rw [h]

theorem index_step_error (c : libc) (pool : pool_of_masking_partials_s)
    (st : globals × skip_list_s) (x : Nat × Bool) (e : fault)
    (h : skip_list_insert c st.1 st.2 pool x.1 = .error e) :
    index_step c pool st x = .error e := by
  unfold index_step
  simp only [bind, Except.bind]
  rw [h]

theorem index_run_last_error (c : libc) (pool : pool_of_masking_partials_s)
    (steps : List (Nat × Bool)) (x : Nat × Bool) (st st1 : globals × skip_list_s) (e : fault)
    (h : index_run c pool steps st = .ok st1) (hx : index_step c pool st1 x = .error e) :
    index_run c pool (steps ++ [x]) st = .error e := by
  rw [index_run_append c pool steps [x] st st1 h]
  simp only [index_run, bind, Except.bind]
  rw [hx]

/-- C25, as amended: after `skip_list_reset`, a sequence of at most
`MAX_PARTIALS_PER_SYNTH - 2` insertions, with or without removals, returns
whatever levels `random_level` delivers, the header and NIL taking the room of
the two other cells; `skip_list_cell_make` ends in `exit (EXIT_FAILURE)`
exactly when the top of the pool after the allocation is at least
`SIZEOF_POOL`, and returns otherwise; `skip_list_make` sets the list up as
assumed here. -/
theorem pool_capacity (c : libc) (pool : pool_of_masking_partials_s) (g : globals)
    (sl : skip_list_s) (steps : List (Nat × Bool)) (hS : index_shape sl)
    (hinit : sl.initial_cell_pool_top = sizeof_tall_cell + sizeof_cell)
    (hlen : steps.length + 2 ≤ MAX_PARTIALS_PER_SYNTH)
    (hd : ∀ x ∈ steps, ∃ mp, masking_partial_load pool x.1 = .ok mp)
    (hrand : ∃ g2, draws c steps.length g = .ok g2) :
    (∃ r, index_session c pool g sl steps = .ok r) ∧
      (∀ (sl1 : skip_list_s) (level : Nat) (data : Option Nat),
        (skip_list_cell_make sl1 level data = .error .exit_failure ↔
          SIZEOF_POOL ≤ sl1.cell_pool_top + sizeof_cell + level * sizeof_cell_t) ∧
        (sl1.cell_pool_top + sizeof_cell + level * sizeof_cell_t < SIZEOF_POOL →
          ∃ r, skip_list_cell_make sl1 level data = .ok r)) ∧
      ∀ (g0 : globals) (tv_sec : Nat), ∃ g1 sl0, skip_list_make g0 tv_sec = .ok (g1, sl0) ∧
        index_shape sl0 ∧ sl0.initial_cell_pool_top = sizeof_tall_cell + sizeof_cell := by
  have hsz : sizeof_tall_cell = 280 := rfl
  have hc1 : sizeof_cell = 24 := rfl
  have hmp : MAX_PARTIALS_PER_SYNTH = 5120 := rfl
  obtain ⟨g2, hg⟩ := hrand
  refine ⟨?_, skip_list_cell_make_cases, fun g0 tv_sec =>
    ⟨_, _, skip_list_make_eq g0 tv_sec, index_shape_empty_mask, rfl⟩⟩
  obtain ⟨t, -, -, hrun, -⟩ := index_session_spec c pool g g2 sl steps hS hd hg
    (by rw [hinit, SIZEOF_POOL_eq, hsz, hc1]; omega)
  exact ⟨_, hrun⟩

/-- Witness for C25: two insertions and a removal in `empty_mask`. -/
theorem pool_capacity_witness :
    ∃ r, index_session libc_rational bark_pool globals_start empty_mask
      [(0, false), (1, true)] = .ok r :=
  (pool_capacity libc_rational bark_pool globals_start empty_mask [(0, false), (1, true)]
    index_shape_empty_mask rfl (by decide)
    (fun x hx => by
      simp only [List.mem_cons, List.mem_singleton, List.not_mem_nil, or_false] at hx
      rcases hx with rfl | rfl <;> exact ⟨_, rfl⟩)
    (exists_of_isOk _ (by decide!))).1

/-- Counterexample to C25: after `skip_list_reset`, `MAX_PARTIALS_PER_SYNTH - 1`
insertions that all draw the level `SKIP_LIST_MAX_LEVEL` end in the exit
"size of pool of skip list cells exceeded". -/
theorem pool_capacity_counterexample :
    (insertions 5119).length + 1 = MAX_PARTIALS_PER_SYNTH ∧
      index_session libc_tall (uniform_pool 5119) globals_start empty_mask (insertions 5119) =
        .error .exit_failure := by
  have hsz : sizeof_tall_cell = 280 := rfl
  have hc1 : sizeof_cell = 24 := rfl
  have hc2 : sizeof_cell_t = 8 := rfl
  have h32 : (32 : Int).toNat = 32 := rfl
  refine ⟨by rw [insertions_length]; rfl, ?_⟩
  obtain ⟨t0, hreset, hI0, r1, -⟩ :=
    skip_list_reset_spec empty_mask (uniform_pool 5119) index_shape_empty_mask
  have hinit : empty_mask.initial_cell_pool_top = 304 := rfl
  rw [hinit] at r1
  have hload : ∀ x ∈ insertions 5118,
      (∃ mp, masking_partial_load (uniform_pool 5119) x.1 = .ok mp) ∧ x.2 = false := by
    intro x hx
    obtain ⟨h1, h2⟩ := insertions_mem _ x hx
    exact ⟨uniform_pool_load _ _ (by omega), h2⟩
  obtain ⟨g1, t1, pre1, post1, hrun, hI1, htop, k1, k2⟩ :=
    index_run_tall (uniform_pool 5119) (insertions 5118) globals_start t0 [] [] hI0 hload
      rfl rfl (by rw [insertions_length, r1, hsz, SIZEOF_POOL_eq]; norm_num)
  rw [insertions_length, r1, hsz] at htop
  have hfull := skip_list_insert_full libc_tall g1 _ t1 (uniform_pool 5119) pre1 post1 5118 32
    hI1 (uniform_pool_load _ _ (by norm_num)) (tall_level g1 k1 k2)
    (by rw [h32, htop, hc1, hc2, SIZEOF_POOL_eq]; norm_num)
  rw [insertions_succ 5118, index_session_eq _ _ _ _ _ _ hreset]
  exact index_run_last_error _ _ _ _ _ _ _ hrun (index_step_error _ _ _ _ _ hfull)

/-! ## The masking partials and the mask -/

theorem masking_partial_load_grown (pool : pool_of_masking_partials_s) (n : Nat) (a : Int)
    (d : Nat) :
    masking_partial_load
        { pool with allocated := a, partials := pool.partials ++ List.replicate n none } d =
      masking_partial_load pool d := by
  unfold masking_partial_load
  simp only [List.get?_eq_getElem?]
  by_cases hd : d < pool.partials.length
  · rw [List.getElem?_append_left hd]
  · rw [List.getElem?_append_right (by omega), List.getElem?_replicate,
      List.getElem?_eq_none (by omega)]
    split_ifs <;> rfl

theorem masking_partial_load_set (pool : pool_of_masking_partials_s) (mp : Nat)
    (v : masking_partial_s) (u : Int) (d : Nat) :
    masking_partial_load { pool with partials := pool.partials.set mp (some v), used := u } d =
      if d = mp ∧ mp < pool.partials.length then .ok v else masking_partial_load pool d := by
  unfold masking_partial_load
  simp only [List.get?_eq_getElem?]
  by_cases hd : d = mp
  · subst hd
    by_cases hl : d < pool.partials.length
    · rw [if_pos ⟨rfl, hl⟩, List.getElem?_set_self hl]
    · rw [if_neg (fun h => hl h.2), List.getElem?_eq_none (by rw [List.length_set]; omega),
        List.getElem?_eq_none (by omega)]
  · rw [if_neg (fun h => hd h.1), List.getElem?_set_ne (Ne.symm hd)]

/-- The effect of `masking_partial_make` when it returns: the new masking
partial takes the place `used` of the pool, the others are as they were, and
its lower and greater levels are those of the two channels. -/
theorem masking_partial_make_effect (c : libc) (s s0 : sas_synthesizer_s) (p : partial_t)
    (mp : Nat) (h : masking_partial_make c s p = .ok (s0, mp)) :
    mp = s.pool.used.toNat ∧ 0 ≤ s.pool.used ∧ s0.pool.used = s.pool.used + 1 ∧
      s0.mask = s.mask ∧
      (∀ d, d ≠ mp → masking_partial_load s0.pool d = masking_partial_load s.pool d) ∧
      ∃ v src new_mp, partial_load s p = .ok v ∧ source_load s v.source = .ok src ∧
        masking_partial_load s0.pool mp = .ok new_mp ∧ new_mp.p = p ∧
        new_mp.freqB = f2B c v.f ∧
        new_mp.min_vdB = min (a2dB c (v.a * src.l_ratio)) (a2dB c (v.a * src.r_ratio)) ∧
        new_mp.max_vdB = max (a2dB c (v.a * src.l_ratio)) (a2dB c (v.a * src.r_ratio)) := by
  unfold masking_partial_make at h
  simp only [] at h
  split_ifs at h with hu hneg hneg
  all_goals
    simp only [bind_ok_iff, pure, Except.pure, Except.ok.injEq, Prod.mk.injEq] at h
    obtain ⟨v, hv, src, hsrc, ps, hps, rfl, rfl⟩ := h
    rw [array_set_eq_ok] at hps
    obtain ⟨hlt, rfl⟩ := hps
  · refine ⟨rfl, not_lt.mp hneg, rfl, rfl, ?_, v, src,
      (if a2dB c (v.a * src.l_ratio) < a2dB c (v.a * src.r_ratio) then
        ⟨p, a2dB c (v.a * src.l_ratio), a2dB c (v.a * src.r_ratio), f2B c v.f⟩
      else ⟨p, a2dB c (v.a * src.r_ratio), a2dB c (v.a * src.l_ratio), f2B c v.f⟩),
      hv, hsrc, ?_, ?_⟩
    · intro d hd
      exact ((masking_partial_load_set
        ⟨s.pool.partials ++ List.replicate MAX_PARTIALS_PER_SYNTH none,
          s.pool.allocated + MAX_PARTIALS_PER_SYNTH, s.pool.used⟩ _ _ _ d).trans
        (if_neg (fun hh => hd hh.1))).trans (masking_partial_load_grown s.pool _ _ d)
    · exact (masking_partial_load_set
        ⟨s.pool.partials ++ List.replicate MAX_PARTIALS_PER_SYNTH none,
          s.pool.allocated + MAX_PARTIALS_PER_SYNTH, s.pool.used⟩ _ _ _ _).trans
        (if_pos ⟨rfl, hlt⟩)
    · split_ifs with hlr
      · exact ⟨rfl, rfl, (min_eq_left (le_of_lt hlr)).symm, (max_eq_right (le_of_lt hlr)).symm⟩
      · exact ⟨rfl, rfl, (min_eq_right (not_lt.mp hlr)).symm,
          (max_eq_left (not_lt.mp hlr)).symm⟩
  · refine ⟨rfl, not_lt.mp hneg, rfl, rfl, ?_, v, src,
      (if a2dB c (v.a * src.l_ratio) < a2dB c (v.a * src.r_ratio) then
        ⟨p, a2dB c (v.a * src.l_ratio), a2dB c (v.a * src.r_ratio), f2B c v.f⟩
      else ⟨p, a2dB c (v.a * src.r_ratio), a2dB c (v.a * src.l_ratio), f2B c v.f⟩),
      hv, hsrc, ?_, ?_⟩
    · intro d hd
      exact (masking_partial_load_set s.pool _ _ _ d).trans (if_neg (fun hh => hd hh.1))
    · exact (masking_partial_load_set s.pool _ _ _ _).trans (if_pos ⟨rfl, hlt⟩)
    · split_ifs with hlr
      · exact ⟨rfl, rfl, (min_eq_left (le_of_lt hlr)).symm, (max_eq_right (le_of_lt hlr)).symm⟩
      · exact ⟨rfl, rfl, (min_eq_right (not_lt.mp hlr)).symm,
          (max_eq_left (not_lt.mp hlr)).symm⟩

/-- The function `masking_partial_make` returns for a partial of a source of
the synthesizer while the pool is as large as `allocated` says. -/
theorem masking_partial_make_total (c : libc) (s : sas_synthesizer_s) (p : partial_t)
    (v : partial_s) (src : sas_source_s) (hv : partial_load s p = .ok v)
    (hsrc : source_load s v.source = .ok src) (hused : 0 ≤ s.pool.used)
    (hle : s.pool.used ≤ s.pool.allocated)
    (hlen : s.pool.partials.length = s.pool.allocated.toNat) :
    ∃ s0, masking_partial_make c s p = .ok (s0, s.pool.used.toNat) ∧
      s0.pool.used ≤ s0.pool.allocated ∧
      s0.pool.partials.length = s0.pool.allocated.toNat := by
  have hm : MAX_PARTIALS_PER_SYNTH = 5120 := rfl
  unfold masking_partial_make
  simp only []
  by_cases hu : s.pool.used = s.pool.allocated
  · rw [if_pos hu, if_neg (by show ¬ s.pool.used < 0; omega)]
    simp only [bind, Except.bind]
    rw [hv]
    simp only []
    rw [hsrc]
    simp only []
    rw [array_set_ok _ _ _ (by
      show s.pool.used.toNat < (s.pool.partials ++ List.replicate _ none).length
      rw [List.length_append, List.length_replicate, hlen, hm]
      omega)]
    refine ⟨_, rfl, ?_, ?_⟩
    · show s.pool.used + 1 ≤ s.pool.allocated + (MAX_PARTIALS_PER_SYNTH : Int)
      rw [hm]
      push_cast
      omega
    · show (List.set _ _ _).length = (s.pool.allocated + (MAX_PARTIALS_PER_SYNTH : Int)).toNat
      rw [List.length_set, List.length_append, List.length_replicate, hlen, hm]
      push_cast
      omega
  · rw [if_neg hu, if_neg (by show ¬ s.pool.used < 0; omega)]
    simp only [bind, Except.bind]
    rw [hv]
    simp only []
    rw [hsrc]
    simp only []
    rw [array_set_ok _ _ _ (by rw [hlen]; omega)]
    refine ⟨_, rfl, ?_, ?_⟩
    · show s.pool.used + 1 ≤ s.pool.allocated
      omega
    · show (List.set _ _ _).length = s.pool.allocated.toNat
      rw [List.length_set, hlen]

theorem key_of_congr (pool pool1 : pool_of_masking_partials_s) (d : Nat)
    (h : masking_partial_load pool1 d = masking_partial_load pool d) :
    key_of pool1 d = key_of pool d := by
  unfold key_of
  rw [h]

theorem floor_of_congr (pool pool1 : pool_of_masking_partials_s) (d : Nat)
    (h : masking_partial_load pool1 d = masking_partial_load pool d) :
    floor_of pool1 d = floor_of pool d := by
  unfold floor_of
  rw [h]

/-- The invariant of the index only looks at the masking partials that the
index holds. -/
theorem index_inv_pool (sl : skip_list_s) (pool pool1 : pool_of_masking_partials_s)
    (pre post : List index_cell) (hI : index_inv sl pool pre post)
    (hsame : ∀ c ∈ pre ++ post,
      masking_partial_load pool1 c.data = masking_partial_load pool c.data) :
    index_inv sl pool1 pre post := by
  have hkey : ∀ c ∈ pre ++ post, key_of pool1 c.data = key_of pool c.data :=
    fun c hc => key_of_congr pool pool1 c.data (hsame c hc)
  refine
    { header_ne := hI.header_ne
      header_cell := hI.header_cell
      nil_cell := hI.nil_cell
      base := hI.base
      update_length := hI.update_length
      level_range := hI.level_range
      places := hI.places
      cells := ?_
      chains := hI.chains
      back := hI.back
      sorted := ?_
      cursor := hI.cursor
      bound := ?_ }
  · intro c hc
    obtain ⟨h1, h2, h3, h4, h5, h6⟩ := hI.cells c hc
    exact ⟨h1, h2, h3, h4, h5, by rw [hsame c hc]; exact h6⟩
  · have h := hI.sorted
    have hmap : (pre ++ post).map (fun c => key_of pool1 c.data) =
        (pre ++ post).map (fun c => key_of pool c.data) :=
      List.map_congr_left hkey
    rw [hmap]
    exact h
  · obtain ⟨K, k1, k2⟩ := hI.bound
    refine ⟨K, fun c hc => ?_, fun c hc => ?_⟩
    · rw [hkey c (List.mem_append_left _ hc)]
      exact k1 c hc
    · rw [hkey c (List.mem_append_right _ hc)]
      exact k2 c hc

theorem mask_contribution_eq (pool : pool_of_masking_partials_s) (coeff : ℚ)
    (new_mp : masking_partial_s) (o : Option Nat)
    (ho : ∀ m, o = some m → ∃ n, masking_partial_load pool m = .ok n) :
    mask_contribution pool coeff new_mp o =
      .ok (neighbour_threshold pool coeff new_mp.freqB o) := by
  cases o with
  | none => rfl
  | some m =>
    obtain ⟨n, hn⟩ := ho m rfl
    unfold mask_contribution neighbour_threshold key_of floor_of
    simp only [bind, Except.bind, hn]
    rfl

/-- The function `add_partial_to_mask` returns once the masking partial is
made, when `random_level` returns and the pool of cells has room; the two
neighbours of the new element are the stored elements next below and next not
below its `freqB`, the value returned compares `max_vdB` with the greater of
their two thresholds, and the new element stays in the index unless its
`min_vdB - DB_DIFF` is below this value. -/
theorem add_partial_to_mask_spec (c : libc) (g g1 : globals) (s s0 : sas_synthesizer_s)
    (p : partial_t) (mp : Nat) (pre post : List index_cell) (level : Int)
    (hmake : masking_partial_make c s p = .ok (s0, mp))
    (hI : index_inv s.mask s.pool pre post)
    (hfresh : ∀ c ∈ pre ++ post, c.data ≠ mp)
    (hrand : random_level c g = .ok (g1, level))
    (hcap : s.mask.cell_pool_top + sizeof_cell + level.toNat * sizeof_cell_t < SIZEOF_POOL) :
    ∃ (new_mp : masking_partial_s) (lo hi : Option Nat) (v : ℚ) (mask1 : skip_list_s)
      (pre1 post1 : List index_cell),
      masking_partial_load s0.pool mp = .ok new_mp ∧
      greatest_below s0.pool mp ((pre ++ post).map (fun c => c.data)) lo ∧
      least_above s0.pool mp ((pre ++ post).map (fun c => c.data)) hi ∧
      v = max (neighbour_threshold s0.pool RIGHT_LINE_COEFF new_mp.freqB lo)
        (neighbour_threshold s0.pool LEFT_LINE_COEFF new_mp.freqB hi) ∧
      add_partial_to_mask c g s p =
        .ok (g1, { s0 with mask := mask1 }, c_bool (decide (new_mp.max_vdB > v))) ∧
      index_inv mask1 s0.pool pre1 post1 ∧
      (pre1 ++ post1).map (fun c => c.data) =
        (if new_mp.min_vdB - DB_DIFF < v then (pre ++ post).map (fun c => c.data)
          else ordered_insert s0.pool mp ((pre ++ post).map (fun c => c.data))) ∧
      mask1.cell_pool_top = s.mask.cell_pool_top + sizeof_cell + level.toNat * sizeof_cell_t ∧
      mask1.initial_cell_pool_top = s.mask.initial_cell_pool_top := by
  obtain ⟨-, -, -, hmask, hsame, -, -, new_mp, -, -, hnew, -⟩ :=
    masking_partial_make_effect c s s0 p mp hmake
  have hI0 : index_inv s0.mask s0.pool pre post := by
    rw [hmask]
    exact index_inv_pool _ _ _ _ _ hI (fun c hc => hsame c.data (hfresh c hc))
  obtain ⟨t, pre1, post1, hins, hsplit, hI1, hlow, hhigh, htop, hinit, -, -⟩ :=
    skip_list_insert_spec c g g1 s0.mask s0.pool pre post mp level hI0 ⟨_, hnew⟩ hrand
      (by rw [hmask]; exact hcap)
  obtain ⟨n1, n2⟩ := skip_list_neighbours t s0.pool pre1 post1 _ hI1
  have hsorted := hI0.sorted
  rw [← hsplit] at hsorted
  obtain ⟨e1, e2⟩ := sorted_neighbours s0.pool mp pre1 post1 hsorted hlow hhigh
  rw [hsplit] at e1 e2
  have hknown : ∀ c ∈ pre1 ++ post1, ∃ n, masking_partial_load s0.pool c.data = .ok n := by
    intro c hc
    rw [hsplit] at hc
    exact (hI0.cells c hc).2.2.2.2.2
  have hc1 := mask_contribution_eq s0.pool RIGHT_LINE_COEFF new_mp
    (pre1.getLast?.map (fun c => c.data)) (by
      intro m hm
      rw [Option.map_eq_some'] at hm
      obtain ⟨c, hc, rfl⟩ := hm
      exact hknown c (List.mem_append_left _ (List.mem_of_getLast?_eq_some hc)))
  have hc2 := mask_contribution_eq s0.pool LEFT_LINE_COEFF new_mp
    (post1.head?.map (fun c => c.data)) (by
      intro m hm
      rw [Option.map_eq_some'] at hm
      obtain ⟨c, hc, rfl⟩ := hm
      exact hknown c (List.mem_append_right _ (List.mem_of_mem_head? hc)))
  have hstart : ∀ (mask1 : skip_list_s),
      (if new_mp.min_vdB - DB_DIFF <
            MAX (neighbour_threshold s0.pool RIGHT_LINE_COEFF new_mp.freqB
              (pre1.getLast?.map (fun c => c.data)))
            (neighbour_threshold s0.pool LEFT_LINE_COEFF new_mp.freqB
              (post1.head?.map (fun c => c.data)))
        then skip_list_remove t else .ok t) = .ok mask1 →
      add_partial_to_mask c g s p = .ok (g1, { s0 with mask := mask1 },
        c_bool (decide (new_mp.max_vdB >
          MAX (neighbour_threshold s0.pool RIGHT_LINE_COEFF new_mp.freqB
              (pre1.getLast?.map (fun c => c.data)))
            (neighbour_threshold s0.pool LEFT_LINE_COEFF new_mp.freqB
              (post1.head?.map (fun c => c.data)))))) := by
    intro mask1 hm
    unfold add_partial_to_mask
    simp only [bind, Except.bind]
    rw [hmake]
    simp only []
    rw [hnew]
    simp only []
    rw [hins]
    simp only []
    rw [n1]
    simp only []
    rw [hc1]
    simp only []
    rw [n2]
    simp only []
    rw [hc2]
    simp only []
    rw [hm]
    rfl
  have hhere := hstart
  rw [MAX_eq_max] at hhere
  by_cases hlt : new_mp.min_vdB - DB_DIFF <
      max (neighbour_threshold s0.pool RIGHT_LINE_COEFF new_mp.freqB
          (pre1.getLast?.map (fun c => c.data)))
        (neighbour_threshold s0.pool LEFT_LINE_COEFF new_mp.freqB
          (post1.head?.map (fun c => c.data)))
  · obtain ⟨t2, hrem, hI2, r1, r2, -, -⟩ := skip_list_remove_spec t s0.pool pre1 post1 _ hI1
    refine ⟨new_mp, _, _, _, t2, pre1, post1, hnew, e1, e2, rfl,
      hhere t2 (by rw [if_pos hlt]; exact hrem), hI2, ?_, ?_, ?_⟩
    · rw [if_pos hlt, hsplit]
    · rw [r1, htop, hmask]
    · rw [r2, hinit, hmask]
  · refine ⟨new_mp, _, _, _, t, pre1, _, hnew, e1, e2, rfl,
      hhere t (by rw [if_neg hlt]), hI1, ?_, ?_, ?_⟩
    · rw [if_neg hlt, ← hsplit, ordered_insert_split s0.pool mp pre1 post1 hlow hhigh]
      simp
    · rw [htop, hmask]
    · rw [hinit, hmask]

/-! ## The masking threshold and the verdict -/

theorem index_inv_empty_mask (pool : pool_of_masking_partials_s) :
    index_inv empty_mask pool [] [] := by
  obtain ⟨t, ht, hI, -⟩ := skip_list_reset_spec empty_mask pool index_shape_empty_mask
  have he : skip_list_reset empty_mask = .ok empty_mask := by decide
  rw [he] at ht
  cases ht
  exact hI

theorem c_bool_eq_one (b : Bool) : c_bool b = 1 ↔ b = true := by
  cases b <;> simp [c_bool]

theorem index_elements (sl : skip_list_s) (pool : pool_of_masking_partials_s)
    (pre post : List index_cell) (hI : index_inv sl pool pre post) :
    (chain_walk sl 0 ((pre ++ post).length + 1) sl.header).map
        (fun l => l.map (fun x => x.2)) =
      .ok (((pre ++ post).map (fun c => c.data)).map some) := by
  obtain ⟨w1, -⟩ := index_inv_walk sl pool pre post hI _ (Nat.lt_succ_self _)
  rw [w1]
  simp only [Except.map, List.map_map]
  rfl

/-- C23: `add_partial_to_mask` returns for a partial of a source of the
synthesizer (when `random_level` returns and the two pools have room); with
the elements of the mask index being `pre ++ post`, the value returned is 1
exactly when the level `max_vdB` of the new masking partial, that of its
louder channel, is above `max (v_low, v_high)`, where `v_low` is
`RIGHT_LINE_COEFF * (B_new - B_low) + min_vdB (low) - DB_DIFF` for a stored
element `low` of greatest `freqB` below `B_new` and `MIN_DB` without such an
element, and `v_high` is `LEFT_LINE_COEFF * (B_new - B_high) + min_vdB (high)
- DB_DIFF` for a stored element `high` of least `freqB` not below `B_new` and
`MIN_DB` without such an element; against an empty mask the value is 1 exactly
when `max_vdB` is above `MIN_DB`. -/
theorem mask_threshold (c : libc) (g : globals) (s : sas_synthesizer_s) (p : partial_t)
    (v : partial_s) (src : sas_source_s) (pre post : List index_cell)
    (hv : partial_load s p = .ok v) (hsrc : source_load s v.source = .ok src)
    (hused : 0 ≤ s.pool.used) (hle : s.pool.used ≤ s.pool.allocated)
    (hlen : s.pool.partials.length = s.pool.allocated.toNat)
    (hI : index_inv s.mask s.pool pre post)
    (hfresh : ∀ c ∈ pre ++ post, (c.data : Int) < s.pool.used)
    (hrand : ∃ r, random_level c g = .ok r)
    (hcap : s.mask.cell_pool_top + sizeof_tall_cell < SIZEOF_POOL) :
    ∃ (g1 : globals) (s1 : sas_synthesizer_s) (r : Int) (new_mp : masking_partial_s)
      (lo hi : Option Nat),
      add_partial_to_mask c g s p = .ok (g1, s1, r) ∧
      (chain_walk s.mask 0 ((pre ++ post).length + 1) s.mask.header).map
          (fun l => l.map (fun x => x.2)) =
        .ok (((pre ++ post).map (fun c => c.data)).map some) ∧
      masking_partial_load s1.pool s.pool.used.toNat = .ok new_mp ∧
      new_mp.freqB = f2B c v.f ∧
      new_mp.max_vdB = max (a2dB c (v.a * src.l_ratio)) (a2dB c (v.a * src.r_ratio)) ∧
      greatest_below s1.pool s.pool.used.toNat ((pre ++ post).map (fun c => c.data)) lo ∧
      least_above s1.pool s.pool.used.toNat ((pre ++ post).map (fun c => c.data)) hi ∧
      (r = 1 ↔ new_mp.max_vdB >
        max (neighbour_threshold s1.pool RIGHT_LINE_COEFF new_mp.freqB lo)
          (neighbour_threshold s1.pool LEFT_LINE_COEFF new_mp.freqB hi)) ∧
      (r = 0 ∨ r = 1) ∧
      (pre ++ post = [] → (r = 1 ↔ new_mp.max_vdB > MIN_DB)) := by
  have hsz : sizeof_tall_cell = 280 := rfl
  have hc1 : sizeof_cell = 24 := rfl
  have hc2 : sizeof_cell_t = 8 := rfl
  have hmax : (SKIP_LIST_MAX_LEVEL : Int) = 32 := rfl
  obtain ⟨⟨g1, level⟩, hrand⟩ := hrand
  obtain ⟨hl1, hl2⟩ := random_level_range c g g1 level hrand
  obtain ⟨s0, hmake, -, -⟩ := masking_partial_make_total c s p v src hv hsrc hused hle hlen
  obtain ⟨-, -, -, -, -, v1, src1, new_mp1, hv1, hsrc1, hnew1, -, hB, -, hmaxv⟩ :=
    masking_partial_make_effect c s s0 p _ hmake
  rw [hv] at hv1
  cases hv1
  rw [hsrc] at hsrc1
  cases hsrc1
  obtain ⟨new_mp, lo, hi, w, mask1, pre1, post1, hnew, e1, e2, hw, hadd, -⟩ :=
    add_partial_to_mask_spec c g g1 s s0 p _ pre post level hmake hI
      (fun c hc => by
        have := hfresh c hc
        omega)
      hrand (by
        have : level.toNat ≤ 32 := by omega
        rw [hsz] at hcap
        rw [hc1, hc2]
        omega)
  rw [hnew1] at hnew
  cases hnew
  have hr : c_bool (decide (new_mp1.max_vdB > w)) = 1 ↔ new_mp1.max_vdB > w := by
    rw [c_bool_eq_one, decide_eq_true_iff]
  refine ⟨g1, { s0 with mask := mask1 }, _, new_mp1, lo, hi, hadd,
    index_elements _ _ _ _ hI, hnew1, hB, hmaxv, e1, e2, ?_, ?_, ?_⟩
  · rw [hr, hw]
  · unfold c_bool
    split_ifs
    · exact Or.inr rfl
    · exact Or.inl rfl
  · intro hnil
    rw [hnil] at e1 e2
    have hlo : lo = none := by
      cases lo with
      | none => rfl
      | some a => exact absurd e1.1 (List.not_mem_nil _)
    have hhi : hi = none := by
      cases hi with
      | none => rfl
      | some a => exact absurd e2.1 (List.not_mem_nil _)
    rw [hr, hw, hlo, hhi]
    show new_mp1.max_vdB > max MIN_DB MIN_DB ↔ _
    rw [max_self]

/-- Witness for C23: the first track of `two_track_synth` (-20 dB in both
channels) against the empty mask. -/
theorem mask_threshold_witness :
    ∃ (g1 : globals) (s1 : sas_synthesizer_s),
      add_partial_to_mask libc_rational globals_start two_track_synth ⟨1, 0⟩ =
        .ok (g1, s1, 1) := by
  obtain ⟨g1, s1, r, new_mp, lo, hi, h1, -, -, -, h5, -, -, -, -, h10⟩ :=
    mask_threshold libc_rational globals_start two_track_synth ⟨1, 0⟩
      (track_at (1 / 5) 100 (some 0))
      (small_source decline [track_at (1 / 5) 100 (some 0), track_at (1 / 50) 200 (some 1)]
        2 2)
      [] [] rfl rfl (by decide) (by decide) (by decide)
      (index_inv_empty_mask _) (fun c hc => absurd hc (List.not_mem_nil _))
      (exists_of_isOk _ (by decide!)) (by decide)
  have hr : r = 1 := by
    rw [h10 rfl, h5]
    decide!
  rw [hr] at h1
  exact ⟨g1, s1, h1⟩

/-! ## The mask holds audible partials only -/

theorem mark_masked_mask (p : partial_t) (g g1 : globals) (s s1 : sas_synthesizer_s) (r : Int)
    (h : mark_masked p g s r = .ok (g1, s1)) : s1.mask = s.mask ∧ s1.pool = s.pool := by
  unfold mark_masked at h
  split_ifs at h with hr
  · simp only [bind_ok_iff, pure, Except.pure, Except.ok.injEq, Prod.mk.injEq] at h
    obtain ⟨v0, -, s2, hs2, -, rfl⟩ := h
    obtain ⟨-, -, -, -, -, -, -, f8, f9, -⟩ := partial_store_fields _ _ _ _ hs2
    exact ⟨f8, f9⟩
  · simp only [Except.ok.injEq, Prod.mk.injEq] at h
    obtain ⟨-, rfl⟩ := h
    exact ⟨rfl, rfl⟩

/-- When `skip_list_insert` returns, `random_level` has returned and the pool
had room for the new cell. -/
theorem skip_list_insert_ok (c : libc) (g g1 : globals) (sl t : skip_list_s)
    (pool : pool_of_masking_partials_s) (pre post : List index_cell) (data : Nat)
    (hI : index_inv sl pool pre post) (hd : ∃ mp, masking_partial_load pool data = .ok mp)
    (h : skip_list_insert c g sl pool data = .ok (g1, t)) :
    ∃ level, random_level c g = .ok (g1, level) ∧
      sl.cell_pool_top + sizeof_cell + level.toNat * sizeof_cell_t < SIZEOF_POOL := by
  have h0 := h
  unfold skip_list_insert at h0
  simp only [bind_ok_iff] at h0
  obtain ⟨⟨sl1, f⟩, -, ⟨g2, level⟩, hrand, sl2, -, ⟨sl3, slc⟩, -, sl4, -, heq⟩ := h0
  simp only [pure, Except.pure, Except.ok.injEq, Prod.mk.injEq] at heq
  obtain ⟨rfl, -⟩ := heq
  refine ⟨level, hrand, ?_⟩
  by_contra hcap
  have := skip_list_insert_full c g g2 sl pool pre post data level hI hd hrand (not_lt.mp hcap)
  rw [this] at h
  cases h

/-- The level of the quieter channel is not above the level of the louder
one, so that a masking partial at or below a threshold is below it by more
than `DB_DIFF` on its quieter channel. -/
theorem masked_is_removed (c : libc) (s s0 : sas_synthesizer_s) (p : partial_t) (mp : Nat)
    (new_mp : masking_partial_s) (hmake : masking_partial_make c s p = .ok (s0, mp))
    (hnew : masking_partial_load s0.pool mp = .ok new_mp) (v : ℚ)
    (hv : new_mp.max_vdB ≤ v) : new_mp.min_vdB - DB_DIFF < v := by
  obtain ⟨-, -, -, -, -, v1, src1, new_mp1, -, -, hnew1, -, -, hmin, hmax⟩ :=
    masking_partial_make_effect c s s0 p mp hmake
  rw [hnew] at hnew1
  cases hnew1
  have h1 : new_mp.min_vdB ≤ new_mp.max_vdB := by
    rw [hmin, hmax]
    exact le_trans (min_le_left _ _) (le_max_left _ _)
  have h2 : (0 : ℚ) < DB_DIFF := by
    unfold DB_DIFF
    norm_num
  linarith

theorem mask_sound_step (c : libc) (g : globals) (s s0 : sas_synthesizer_s)
    (hreset : reset_mask s = .ok s0) (j : Nat) (t t1 : globals × sas_synthesizer_s)
    (hb : mask_track c j t = .ok t1)
    (ht : mask_sound c g s { s0 with masked_tracks := 0 } j t) :
    mask_sound c g s { s0 with masked_tracks := 0 } (j + 1) t1 := by
  obtain ⟨gt, st⟩ := t
  obtain ⟨g1, s1⟩ := t1
  obtain ⟨pre, post, hI, hlen, hold⟩ := ht.index
  have hused : st.pool.used = (j : Int) := ht.used
  have hb0 := hb
  unfold mask_track at hb0
  simp only [bind_ok_iff] at hb0
  obtain ⟨cell, hcell, hb0⟩ := hb0
  rw [array_get_eq_ok] at hcell
  cases cell with
  | none => simp at hb0
  | some p =>
    simp only [bind_ok_iff] at hb0
    obtain ⟨⟨ga, sa, r⟩, ha, hm⟩ := hb0
    obtain ⟨m1, m2⟩ := mark_masked_mask p ga g1 sa s1 r hm
    obtain ⟨-, -, m3, -⟩ := mark_masked_partials p ga g1 sa s1 r hm
    obtain ⟨-, -, a3, -⟩ := add_partial_to_mask_fields c gt ga st sa p r ha
    have hverdict := mask_verdict_of_run c g gt ga s s0 st sa j p r hreset ht.reach hcell ha
    have ha0 := ha
    unfold add_partial_to_mask at ha0
    simp only [bind_ok_iff] at ha0
    obtain ⟨⟨sm, mp⟩, hmake, new_mp0, hnew0, ⟨g2, mask⟩, hins, -⟩ := ha0
    obtain ⟨hmp, -, hused1, hmask, hsame, -, -, new_mp1, -, -, hnew1, hp1, -⟩ :=
      masking_partial_make_effect c st sm p mp hmake
    have hmpj : mp = j := by
      rw [hmp, hused]
      rfl
    have hfresh : ∀ c ∈ pre ++ post, c.data ≠ mp := by
      intro c hc
      have := (hold c.data (List.mem_map.mpr ⟨c, hc, rfl⟩)).1
      omega
    have hI0 : index_inv sm.mask sm.pool pre post := by
      rw [hmask]
      exact index_inv_pool _ _ _ _ _ hI (fun c hc => hsame c.data (hfresh c hc))
    obtain ⟨level, hrand, hcap⟩ :=
      skip_list_insert_ok c gt g2 sm.mask mask sm.pool pre post mp hI0 ⟨_, hnew1⟩ hins
    obtain ⟨new_mp, lo, hi, v, mask1, pre1, post1, hnew, -, -, -, hadd, hI1, hdata, -⟩ :=
      add_partial_to_mask_spec c gt g2 st sm p mp pre post level hmake hI hfresh hrand
        (by rw [← hmask]; exact hcap)
    rw [ha] at hadd
    simp only [Except.ok.injEq, Prod.mk.injEq] at hadd
    obtain ⟨-, rfl, hr⟩ := hadd
    have hpool : s1.pool = sm.pool := m2
    have hmask1 : s1.mask = mask1 := m1
    have hkeep : ∀ d ∈ (pre ++ post).map (fun c => c.data),
        d < j + 1 ∧ mask_verdict c g s d = .ok 1 ∧
          ∃ mp p, masking_partial_load s1.pool d = .ok mp ∧
            ({ s0 with masked_tracks := 0 } : sas_synthesizer_s).tracks2[d]? =
              some (some p) ∧ mp.p = p := by
      intro d hd
      obtain ⟨k1, k2, q, p0, k3, k4, k5⟩ := hold d hd
      refine ⟨by omega, k2, q, p0, ?_, k4, k5⟩
      rw [hpool, hsame d (by omega)]
      exact k3
    refine ⟨for_loop_succ _ j _ _ _ ht.reach hb, (m3.trans a3).trans ht.tracks2, ?_, ?_⟩
    · show s1.pool.used = ((j + 1 : Nat) : Int)
      rw [hpool, hused1, hused]
      push_cast
      rfl
    · refine ⟨pre1, post1, ?_, ?_, ?_⟩
      · show index_inv s1.mask s1.pool pre1 post1
        rw [hmask1, hpool]
        exact hI1
      · have h1 := congrArg List.length hdata
        rw [List.length_map] at h1
        rw [h1]
        split_ifs
        · rw [List.length_map]
          omega
        · rw [(ordered_insert_perm _ _ _).length_eq, List.length_cons, List.length_map]
          omega
      · intro d hd
        rw [hdata] at hd
        split_ifs at hd with hlt
        · exact hkeep d hd
        · rcases List.mem_cons.mp ((ordered_insert_perm _ _ _).mem_iff.mp hd) with rfl | hd1
          · have haud : r = 1 := by
              rw [hr, c_bool_eq_one, decide_eq_true_iff]
              by_contra hle
              exact hlt (masked_is_removed c st sm p d new_mp hmake hnew v (not_lt.mp hle))
            rw [hnew1] at hnew
            cases hnew
            refine ⟨by omega, ?_, new_mp1, p, ?_, ?_, hp1⟩
            · rw [hmpj, ← haud]
              exact hverdict
            · rw [hpool]
              exact hnew1
            · rw [hmpj, ← ht.tracks2]
              exact hcell
          · exact hkeep d hd1

/-- C36: a masking partial whose level `max_vdB` is at or below a threshold `v`
(the verdict "masked") also has `min_vdB - DB_DIFF < v` (the condition of its
removal); and when `update_mask` returns, every element of the chain of level
0 of the mask index is the masking partial of a track `tracks2[d]` for which
`add_partial_to_mask` returned 1. -/
theorem masked_leaves_mask (c : libc) (g g1 : globals) (s s1 : sas_synthesizer_s)
    (hS : index_shape s.mask) (h : update_mask c g s = .ok (g1, s1)) :
    (∀ (sa sb : sas_synthesizer_s) (p : partial_t) (mp : Nat) (new_mp : masking_partial_s)
      (v : ℚ), masking_partial_make c sa p = .ok (sb, mp) →
      masking_partial_load sb.pool mp = .ok new_mp →
      new_mp.max_vdB ≤ v → new_mp.min_vdB - DB_DIFF < v) ∧
    ∃ l, chain_walk s1.mask 0 (s.audible_tracks.toNat + 1) s1.mask.header = .ok l ∧
      ∀ x ∈ l, ∃ d, x.2 = some d ∧ d < s.audible_tracks.toNat ∧
        mask_verdict c g s d = .ok 1 ∧
        ∃ mp p, masking_partial_load s1.pool d = .ok mp ∧
          s.tracks2[d]? = some (some p) ∧ mp.p = p := by
  refine ⟨fun sa sb p mp new_mp v hmake hnew hv =>
    masked_is_removed c sa sb p mp new_mp hmake hnew v hv, ?_⟩
  have h0 := h
  unfold update_mask at h0
  simp only [bind_ok_iff] at h0
  obtain ⟨s0, hreset, ⟨g2, s2⟩, hloop, h0⟩ := h0
  simp only [pure, Except.pure, Except.ok.injEq, Prod.mk.injEq] at h0
  obtain ⟨rfl, rfl⟩ := h0
  obtain ⟨-, -, r3, -, r5⟩ := reset_mask_fields s s0 hreset
  have hn : ({ s0 with masked_tracks := 0 } : sas_synthesizer_s).audible_tracks.toNat =
      s.audible_tracks.toNat := by
    show s0.audible_tracks.toNat = _
    rw [r5]
  rw [hn] at hloop
  have hbase : mask_sound c g s { s0 with masked_tracks := 0 } 0
      (g, { s0 with masked_tracks := 0 }) := by
    have hr := hreset
    unfold reset_mask at hr
    simp only [bind_ok_iff, pure, Except.pure, Except.ok.injEq] at hr
    obtain ⟨m, hm, rfl⟩ := hr
    obtain ⟨t, ht, hI, -⟩ := skip_list_reset_spec s.mask { s.pool with used := 0 } hS
    rw [hm] at ht
    cases ht
    exact ⟨rfl, rfl, rfl, [], [], hI, le_refl _, fun d hd => absurd hd (List.not_mem_nil _)⟩
  have hP := for_loop_preserves (mask_track c)
    (mask_sound c g s { s0 with masked_tracks := 0 }) s.audible_tracks.toNat 0
    (g, { s0 with masked_tracks := 0 }) (g2, s2)
    (fun j t t1 _ _ hb ht => mask_sound_step c g s s0 hreset j t t1 hb ht) hloop hbase
  rw [Nat.zero_add] at hP
  obtain ⟨pre, post, hI, hlen, hold⟩ := hP.index
  obtain ⟨w1, -⟩ := index_inv_walk s2.mask s2.pool pre post hI (s.audible_tracks.toNat + 1)
    (by omega)
  refine ⟨_, w1, ?_⟩
  intro x hx
  obtain ⟨cell, hc, rfl⟩ := List.mem_map.mp hx
  obtain ⟨k1, k2, q, p0, k3, k4, k5⟩ := hold cell.data (List.mem_map.mpr ⟨cell, hc, rfl⟩)
  refine ⟨cell.data, rfl, k1, k2, q, p0, k3, ?_, k5⟩
  rw [← r3]
  exact k4

/-- Witness for C36: after `update_mask` on `two_track_synth` the mask index
holds the masking partial of the first track only; `add_partial_to_mask`
returned 1 for both tracks, the second one having left the index again. -/
theorem masked_leaves_mask_witness :
    ∃ g1 s1 l, update_mask libc_rational globals_start two_track_synth = .ok (g1, s1) ∧
      chain_walk s1.mask 0 3 s1.mask.header = .ok l ∧ l.map (fun x => x.2) = [some 0] ∧
      (∀ x ∈ l, ∃ d, x.2 = some d ∧
        mask_verdict libc_rational globals_start two_track_synth d = .ok 1) ∧
      mask_verdict libc_rational globals_start two_track_synth 1 = .ok 1 := by
  obtain ⟨r, hr⟩ := exists_of_isOk (update_mask libc_rational globals_start two_track_synth)
    (by decide!)
  obtain ⟨g1, s1⟩ := r
  obtain ⟨-, l, h1, h2⟩ :=
    masked_leaves_mask libc_rational globals_start g1 two_track_synth s1
      index_shape_empty_mask hr
  have hv : (do
      let r ← update_mask libc_rational globals_start two_track_synth
      let l ← chain_walk r.2.mask 0 3 r.2.mask.header
      pure (l.map (fun x => x.2))) = (.ok [some 0] : Except fault (List (Option Nat))) := by
    decide!
  rw [hr] at hv
  simp only [bind, Except.bind] at hv
  have h1a : chain_walk s1.mask 0 3 s1.mask.header = .ok l := h1
  rw [h1a] at hv
  simp only [pure, Except.pure, Except.ok.injEq] at hv
  refine ⟨g1, s1, l, hr, h1a, hv, ?_, by decide!⟩
  intro x hx
  obtain ⟨d, k1, -, k2, -⟩ := h2 x hx
  exact ⟨d, k1, k2⟩

/-! ## The links of the partials of a source -/

/-- The first loop of `update_source` links the young partials that enter
state 2, which come first among the young ones; `m` of them are linked. -/
theorem first_loop_zones (c : libc) (st0 : update_state) (hI : source_inv st0.source)
    (hl0 : st0.links = 0) (n1 : Nat) (hn1 : (n1 : Int) ≤ st0.source.active_tracks)
    (t1 : update_state) (h1 : for_loop (continuing_harmonic c) n1 0 st0 = .ok t1) :
    ∃ m : Nat, t1.links = (m : Int) ∧
      st0.source.linked_tracks + m ≤ max st0.source.linked_tracks n1 ∧
      (∀ (k : Nat) (q : partial_s), k < n1 → t1.source.tracks[k]? = some q →
        ∃ p, st0.source.tracks[k]? = some p ∧ q.state = p.state + 1 ∧
          (q.link ≠ none ↔ (k : Int) < st0.source.linked_tracks + m) ∧
          (q.link = none → q.state = 1 ∨ q.state = 2)) ∧
      ∀ k : Nat, n1 ≤ k → t1.source.tracks[k]? = st0.source.tracks[k]? := by
  have hP := for_loop_preserves (continuing_harmonic c)
    (fun j t => ∃ m : Nat, t.links = (m : Int) ∧
      st0.source.linked_tracks + m ≤ max st0.source.linked_tracks j ∧
      (∀ (k : Nat) (q : partial_s), k < j → t.source.tracks[k]? = some q →
        ∃ p, st0.source.tracks[k]? = some p ∧ q.state = p.state + 1 ∧
          (q.link ≠ none ↔ (k : Int) < st0.source.linked_tracks + m) ∧
          (q.link = none → q.state = 1 ∨ q.state = 2)) ∧
      (∀ k : Nat, j ≤ k → t.source.tracks[k]? = st0.source.tracks[k]?) ∧
      (st0.source.linked_tracks + m < j →
        (¬ t.s.active_tracks < t.s.allocated) ∨
          ∃ (k0 : Nat) (p0 : partial_s), st0.source.linked_tracks ≤ (k0 : Int) ∧ k0 < j ∧
            st0.source.tracks[k0]? = some p0 ∧ p0.state = 0))
    n1 0 st0 t1 ?_ h1 ?_
  · rw [Nat.zero_add] at hP
    obtain ⟨m, k1, k2, k3, k4, -⟩ := hP
    exact ⟨m, k1, k2, k3, k4⟩
  · intro j t t2 _ hj hb ht
    obtain ⟨m, k1, k2, k3, k4, k5⟩ := ht
    rw [Nat.zero_add] at hj
    obtain ⟨p, p1, hp, hsrc, hstate, -, -, -, -, -, hcase⟩ := continuing_harmonic_step c j t t2 hb
    have hpT : st0.source.tracks[j]? = some p := by rw [← k4 j (le_refl _)]; exact hp
    have hjlen : j < t.source.tracks.length := by
      by_contra hlen
      rw [List.getElem?_eq_none (by omega)] at hp
      cases hp
    have hset : ∀ k, t2.source.tracks[k]? = if k = j then some p1 else t.source.tracks[k]? := by
      intro k
      rw [hsrc]
      show (t.source.tracks.set j p1)[k]? = _
      by_cases hk : k = j
      · subst hk
        rw [if_pos rfl, List.getElem?_set_self hjlen]
      · rw [if_neg hk, List.getElem?_set_ne (Ne.symm hk)]
    have hpre := hI.prefix_linked j p hpT
    rcases hcase with ⟨hwhy, hlink, -, -, hs, -, hlinks⟩ | ⟨hnone, hst2, hcap, -, -, hlink, -, -, hs, -, hlinks⟩
    · refine ⟨m, by rw [hlinks]; exact k1, ?_, ?_, ?_, ?_⟩
      · have : max st0.source.linked_tracks (j : Int) ≤
            max st0.source.linked_tracks ((j + 1 : Nat) : Int) :=
          max_le_max (le_refl _) (by push_cast; omega)
        exact le_trans k2 this
      · intro k q hk hq
        rw [hset] at hq
        by_cases hkj : k = j
        · subst hkj
          rw [if_pos rfl] at hq
          cases hq
          refine ⟨p, hpT, hstate, ?_, ?_⟩
          · rw [hlink, hpre]
            constructor
            · intro h
              omega
            · intro h
              by_contra hge
              have : max st0.source.linked_tracks (k : Int) = k := max_eq_right (by omega)
              omega
          · intro hn
            rw [hlink] at hn
            rcases hwhy with h | h | h
            · exact absurd hn h
            · exact Or.inl (by rw [hstate]; exact h)
            · exact Or.inr (by rw [hstate]; exact h.1)
        · rw [if_neg hkj] at hq
          exact k3 k q (by omega) hq
      · intro k hk
        rw [hset, if_neg (by omega)]
        exact k4 k (by omega)
      · intro hlt
        rw [hs]
        by_cases hlt2 : st0.source.linked_tracks + m < (j : Int)
        · rcases k5 hlt2 with h | ⟨k0, p0, h1, h2, h3, h4⟩
          · exact Or.inl h
          · exact Or.inr ⟨k0, p0, h1, by omega, h3, h4⟩
        · have hjL : st0.source.linked_tracks ≤ (j : Int) := by
            push_cast at hlt
            omega
          have hnone : p.link = none := by
            by_contra hne
            have := hpre.mp hne
            omega
          rcases hwhy with h | h | h
          · exact absurd hnone h
          · exact Or.inr ⟨j, p, hjL, by omega, hpT, by omega⟩
          · exact Or.inl h.2
    · have hjL : st0.source.linked_tracks ≤ (j : Int) := by
        by_contra hlt
        exact (hpre.mpr (by omega)) hnone
      have hmax : max st0.source.linked_tracks (j : Int) = j := max_eq_right hjL
      have hexact : st0.source.linked_tracks + m = (j : Int) := by
        by_contra hne
        have hlt : st0.source.linked_tracks + m < (j : Int) := by omega
        rcases k5 hlt with h | ⟨k0, p0, h1, h2, h3, h4⟩
        · exact h hcap
        · obtain ⟨y1, y2, -⟩ := hI.young k0 j p0 p h1 (by omega) (by omega) h3 hpT
          omega
      refine ⟨m + 1, by rw [hlinks, k1]; push_cast; rfl, ?_, ?_, ?_, ?_⟩
      · have : max st0.source.linked_tracks ((j + 1 : Nat) : Int) = ((j + 1 : Nat) : Int) :=
          max_eq_right (by push_cast; omega)
        rw [this]
        push_cast
        omega
      · intro k q hk hq
        rw [hset] at hq
        by_cases hkj : k = j
        · subst hkj
          rw [if_pos rfl] at hq
          cases hq
          refine ⟨p, hpT, hstate, ?_, ?_⟩
          · rw [hlink]
            constructor
            · intro _
              push_cast
              omega
            · intro _
              exact Option.some_ne_none _
          · intro hn
            rw [hlink] at hn
            cases hn
        · rw [if_neg hkj] at hq
          obtain ⟨p2, a1, a2, a3, a4⟩ := k3 k q (by omega) hq
          refine ⟨p2, a1, a2, ?_, a4⟩
          rw [a3]
          constructor
          · intro h
            push_cast
            omega
          · intro _
            omega
      · intro k hk
        rw [hset, if_neg (by omega)]
        exact k4 k (by omega)
      · intro hlt
        push_cast at hlt
        omega
  · refine ⟨0, by rw [hl0]; rfl, ?_, ?_, fun k _ => rfl, ?_⟩
    · simp
    · intro k q hk
      exact absurd hk (Nat.not_lt_zero k)
    · intro hlt
      have := hI.linked_range.1
      push_cast at hlt
      omega

/-- The last loop of `update_source` unlinks the dying partials that reach
state -2, which come last among the dying ones; `u` of them are unlinked. -/
theorem last_loop_zones (src : sas_source_s) (hI : source_inv src) (e3 n4 : Nat)
    (hA : src.active_tracks ≤ (e3 : Int))
    (hL : n4 = 0 ∨ ((e3 + n4 : Nat) : Int) ≤ src.linked_tracks) (t3 st : update_state)
    (hu3 : ∀ k : Nat, e3 ≤ k → t3.source.tracks[k]? = src.tracks[k]?)
    (h4 : for_loop dying_harmonic n4 e3 t3 = .ok st) :
    ∃ u : Nat, st.links = t3.links - (u : Int) ∧ u ≤ n4 ∧
      (∀ (k : Nat) (q : partial_s), e3 ≤ k → k < e3 + n4 → st.source.tracks[k]? = some q →
        ∃ p, src.tracks[k]? = some p ∧ q.state = p.state - 1 ∧
          (q.link ≠ none ↔ k + u < e3 + n4) ∧ (q.link ≠ none → q.state = -1)) ∧
      (∀ k : Nat, k < e3 ∨ e3 + n4 ≤ k → st.source.tracks[k]? = t3.source.tracks[k]?) := by
  have hP := for_loop_preserves dying_harmonic
    (fun j t => ∃ u : Nat, t.links = t3.links - (u : Int) ∧ e3 + u ≤ j ∧
      (∀ (k : Nat) (q : partial_s), e3 ≤ k → k < j → t.source.tracks[k]? = some q →
        ∃ p, src.tracks[k]? = some p ∧ q.state = p.state - 1 ∧
          (q.link ≠ none ↔ k + u < j) ∧ (q.link ≠ none → q.state = -1) ∧
          (q.link = none → p.state = -1)) ∧
      (∀ k : Nat, k < e3 ∨ j ≤ k → t.source.tracks[k]? = t3.source.tracks[k]?))
    n4 e3 t3 st ?_ h4 ?_
  · obtain ⟨u, k1, k2, k3, k4⟩ := hP
    refine ⟨u, k1, by omega, ?_, k4⟩
    intro k q hk1 hk2 hq
    obtain ⟨p, a1, a2, a3, a4, -⟩ := k3 k q hk1 hk2 hq
    exact ⟨p, a1, a2, a3, a4⟩
  · intro j t t2 hj1 hj2 hb ht
    obtain ⟨u, k1, k2, k3, k4⟩ := ht
    obtain ⟨p, hp, hcase⟩ := dying_harmonic_step j t t2 hb
    have hpT : src.tracks[j]? = some p := by
      rw [← hu3 j hj1, ← k4 j (Or.inr (le_refl _))]
      exact hp
    have hjlen : j < t.source.tracks.length := by
      by_contra hlen
      rw [List.getElem?_eq_none (by omega)] at hp
      cases hp
    have hjL : (j : Int) < src.linked_tracks := by
      rcases hL with h0 | hL
      · omega
      · push_cast at hL
        omega
    have hlinked := (hI.prefix_linked j p hpT).mpr hjL
    obtain ⟨d1, -, d3⟩ := hI.dying j j p p (by omega) (le_refl _) hjL hpT hpT
    rcases hcase with ⟨hst, l, hl, -, rfl⟩ | ⟨hst, rfl⟩
    · refine ⟨u + 1, ?_, by omega, ?_, ?_⟩
      · show t.links - 1 = t3.links - ((u + 1 : Nat) : Int)
        rw [k1]
        push_cast
        ring
      · intro k q hk1 hk2 hq
        by_cases hkj : k = j
        · subst hkj
          have hq1 : (t.source.tracks.set k { p with state := p.state - 1, link := none })[k]? =
              some q := hq
          rw [List.getElem?_set_self hjlen] at hq1
          cases hq1
          refine ⟨p, hpT, rfl, ?_, ?_, ?_⟩
          · constructor
            · intro h
              exact absurd rfl h
            · intro h
              omega
          · intro h
            exact absurd rfl h
          · intro _
            omega
        · have hq1 : (t.source.tracks.set j { p with state := p.state - 1, link := none })[k]? =
              some q := hq
          rw [List.getElem?_set_ne (Ne.symm hkj)] at hq1
          obtain ⟨p2, a1, a2, a3, a4, a5⟩ := k3 k q hk1 (by omega) hq1
          refine ⟨p2, a1, a2, ?_, a4, a5⟩
          rw [a3]
          omega
      · intro k hk
        show (t.source.tracks.set j { p with state := p.state - 1, link := none })[k]? = _
        rw [List.getElem?_set_ne (by omega)]
        exact k4 k (by omega)
    · have hp0 : p.state = 0 := by omega
      have hu0 : u = 0 := by
        by_contra hne
        have hj0 : e3 ≤ j - 1 ∧ j - 1 < j := by omega
        have hlen1 : j - 1 < t.source.tracks.length := by omega
        obtain ⟨q0, hq0⟩ : ∃ q0, t.source.tracks[j - 1]? = some q0 :=
          ⟨_, List.getElem?_eq_getElem hlen1⟩
        obtain ⟨p2, a1, a2, a3, a4, a5⟩ := k3 (j - 1) q0 hj0.1 hj0.2 hq0
        have hun : q0.link = none := by
          by_contra hne2
          have := a3.mp hne2
          omega
        have := a5 hun
        obtain ⟨y1, y2, -⟩ := hI.dying (j - 1) j p2 p (by omega) (by omega) hjL a1 hpT
        omega
      subst hu0
      refine ⟨0, k1, by omega, ?_, ?_⟩
      · intro k q hk1 hk2 hq
        by_cases hkj : k = j
        · subst hkj
          have hq1 : (t.source.tracks.set k { p with
              state := p.state - 1
              aenv := shift_envelope p.aenv (2 * p.aenv.x3 - p.aenv.x2)
              fenv := shift_envelope p.fenv p.f })[k]? = some q := hq
          rw [List.getElem?_set_self hjlen] at hq1
          cases hq1
          refine ⟨p, hpT, rfl, ?_, ?_, ?_⟩
          · constructor
            · intro _
              omega
            · intro _
              exact hlinked
          · intro _
            show p.state - 1 = -1
            omega
          · intro h
            exact absurd h hlinked
        · have hq1 : (t.source.tracks.set j { p with
              state := p.state - 1
              aenv := shift_envelope p.aenv (2 * p.aenv.x3 - p.aenv.x2)
              fenv := shift_envelope p.fenv p.f })[k]? = some q := hq
          rw [List.getElem?_set_ne (Ne.symm hkj)] at hq1
          obtain ⟨p2, a1, a2, a3, a4, a5⟩ := k3 k q hk1 (by omega) hq1
          refine ⟨p2, a1, a2, ?_, a4, a5⟩
          rw [a3]
          omega
      · intro k hk
        show (t.source.tracks.set j { p with
          state := p.state - 1
          aenv := shift_envelope p.aenv (2 * p.aenv.x3 - p.aenv.x2)
          fenv := shift_envelope p.fenv p.f })[k]? = _
        rw [List.getElem?_set_ne (by omega)]
        exact k4 k (by omega)
  · refine ⟨0, by simp, by omega, ?_, fun k _ => rfl⟩
    intro k q hk1 hk2
    omega

/-- What the four track loops of `update_source` do to the partials of a
source, zone by zone: `m` young partials are linked by the first loop and `u`
dying partials are unlinked by the last one. -/
theorem update_partials_profile (c : libc) (g : globals) (s : sas_synthesizer_s)
    (source : sas_source_s) (harmonics active : Int) (st : update_state) (n1 n2 n3 n4 : Nat)
    (hI : source_inv source) (h0 : 0 ≤ active) (hA : active ≤ source.active_tracks)
    (hn : loop_counts source harmonics active = (n1, n2, n3, n4))
    (h : update_partials c g s source harmonics active = .ok st) :
    ∃ m u : Nat, st.links = (m : Int) - (u : Int) ∧
      source.linked_tracks + m ≤ max source.linked_tracks n1 ∧ u ≤ n4 ∧
      (∀ (k : Nat) (q : partial_s), k < n1 → st.source.tracks[k]? = some q →
        ∃ p, source.tracks[k]? = some p ∧ q.state = p.state + 1 ∧
          (q.link ≠ none ↔ (k : Int) < source.linked_tracks + m) ∧
          (q.link = none → q.state = 1 ∨ q.state = 2)) ∧
      (∀ (k : Nat) (q : partial_s), n1 ≤ k → k < n1 + n2 + n3 →
        st.source.tracks[k]? = some q →
        ∃ p, source.tracks[k]? = some p ∧ q.state = 0 ∧ q.link = p.link) ∧
      (∀ (k : Nat) (q : partial_s), n1 + n2 + n3 ≤ k → k < n1 + n2 + n3 + n4 →
        st.source.tracks[k]? = some q →
        ∃ p, source.tracks[k]? = some p ∧ q.state = p.state - 1 ∧
          (q.link ≠ none ↔ k + u < n1 + n2 + n3 + n4) ∧ (q.link ≠ none → q.state = -1)) ∧
      (∀ k : Nat, n1 + n2 + n3 + n4 ≤ k → st.source.tracks[k]? = source.tracks[k]?) := by
  obtain ⟨e1, e2, e3, e4⟩ := loop_counts_eq source harmonics active n1 n2 n3 n4 hn
  obtain ⟨t1, t2, t3, l1, l2, l3, l4⟩ :=
    update_partials_ok c g s source harmonics active st n1 n2 n3 n4 hn h
  have hlen := (update_partials_frame c g s source harmonics active st h).tracks_length
  have hlen0 : st.source.tracks.length = source.tracks.length := hlen
  have hAr := hI.active_range
  have hLr := hI.linked_range
  obtain ⟨m, a1, a2, a3, a4⟩ := first_loop_zones c
    { g := g, s := s, source := source, birth := 0, death := 0, links := 0 } hI rfl n1
    (by show (n1 : Int) ≤ source.active_tracks; omega) t1 l1
  have u2 : ∀ k : Nat, k < n1 ∨ n1 + n2 ≤ k → t2.source.tracks[k]? = t1.source.tracks[k]? :=
    fun k hk => loop_untouched birth_of_harmonic birth_untouched n2 n1 t1 t2 l2 k hk
  have u3 : ∀ k : Nat, k < n1 + n2 ∨ n1 + n2 + n3 ≤ k →
      t3.source.tracks[k]? = t2.source.tracks[k]? :=
    fun k hk => loop_untouched death_of_harmonic death_untouched n3 (n1 + n2) t2 t3 l3 k hk
  have hlinks : t3.links = t1.links := middle_loops_links n2 n3 n1 (n1 + n2) t1 t2 t3 l2 l3
  obtain ⟨u, b1, b2, b3, b4⟩ := last_loop_zones source hI (n1 + n2 + n3) n4
    (by push_cast; omega)
    (by
      by_cases hz : n4 = 0
      · exact Or.inl hz
      · refine Or.inr ?_
        push_cast
        omega)
    t3 st
    (fun k hk => by
      rw [u3 k (Or.inr hk), u2 k (Or.inr (by omega))]
      exact a4 k (by omega))
    l4
  refine ⟨m, u, by rw [b1, hlinks, a1], a2, b2, ?_, ?_, b3, ?_⟩
  · intro k q hk hq
    rw [b4 k (Or.inl (by omega)), u3 k (Or.inl (by omega)), u2 k (Or.inl hk)] at hq
    exact a3 k q hk hq
  · intro k q hk1 hk2 hq
    have hklen : k < source.tracks.length := by
      by_contra hge
      rw [List.getElem?_eq_none (by omega)] at hq
      cases hq
    obtain ⟨p, hp⟩ : ∃ p, source.tracks[k]? = some p := ⟨_, List.getElem?_eq_getElem hklen⟩
    by_cases hb : k < n1 + n2
    · have := update_partials_birth c g s source harmonics active st k p h hp h0
        (by omega) (by omega)
      rw [this] at hq
      cases hq
      exact ⟨p, hp, rfl, rfl⟩
    · have := update_partials_death c g s source harmonics active st k p h hp h0
        (by omega) (by omega) (by omega)
      rw [this] at hq
      cases hq
      exact ⟨p, hp, rfl, rfl⟩
  · intro k hk
    rw [b4 k (Or.inr hk), u3 k (Or.inr (by omega)), u2 k (Or.inr (by omega))]
    exact a4 k (by omega)

/-- The four track loops of `update_source` keep the shape of the partials of
the source. -/
theorem update_partials_zones (c : libc) (g : globals) (s : sas_synthesizer_s)
    (source : sas_source_s) (harmonics active : Int) (st : update_state)
    (hI : source_inv source) (h0 : 0 ≤ active) (hA : active ≤ source.active_tracks)
    (hh : 0 ≤ harmonics ∧ harmonics ≤ MAX_PARTIALS_PER_SOURCE)
    (hcase : active = source.active_tracks ∨ harmonics ≤ active)
    (h : update_partials c g s source harmonics active = .ok st) :
    source_inv (step_source st) := by
  obtain ⟨n1, n2, n3, n4, hn⟩ : ∃ n1 n2 n3 n4,
      loop_counts source harmonics active = (n1, n2, n3, n4) := ⟨_, _, _, _, rfl⟩
  obtain ⟨e1, e2, e3, e4⟩ := loop_counts_eq source harmonics active n1 n2 n3 n4 hn
  obtain ⟨m, u, p0, p1, p2, q1, q2, q3, q4⟩ :=
    update_partials_profile c g s source harmonics active st n1 n2 n3 n4 hI h0 hA hn h
  obtain ⟨sA, sT⟩ := step_source_active c g s source harmonics active st n1 n2 n3 n4 hn h h0 hA
    hcase
  obtain ⟨-, -, -, cL, -⟩ := update_partials_counts c g s source harmonics active st n1 n2 n3 n4
    hn h
  have sL : (step_source st).linked_tracks = source.linked_tracks + (m : Int) - (u : Int) := by
    rw [(step_source_fields st).2.2.2.2.2.2.2.2.2.2.2.2.2, cL, p0]
    ring
  have hlen := (update_partials_frame c g s source harmonics active st h).tracks_length
  have hAr := hI.active_range
  have hLr := hI.linked_range
  have hmax : (MAX_PARTIALS_PER_SOURCE : Int) = 1024 := rfl
  rw [hmax] at hAr hLr hh
  have f1 : (n1 : Int) = active := by omega
  have f0 : (n1 : Int) ≤ source.active_tracks := by omega
  have f2 : ((n1 + n2 : Nat) : Int) ≤ 1024 := by omega
  have f3 : source.active_tracks ≤ ((n1 + n2 + n3 : Nat) : Int) := by omega
  have f4 : n4 = 0 ∨ ((n1 + n2 + n3 + n4 : Nat) : Int) = source.linked_tracks := by omega
  have f5 : source.linked_tracks ≤ ((n1 + n2 + n3 + n4 : Nat) : Int) := by omega
  have f6 : 0 < m → source.linked_tracks + (m : Int) ≤ (n1 : Int) := by
    intro hm
    rcases le_total source.linked_tracks (n1 : Int) with hle | hle
    · rw [max_eq_right hle] at p1
      exact p1
    · rw [max_eq_left hle] at p1
      omega
  have f7 : 0 < m → n4 = 0 := by
    intro hm
    have := f6 hm
    omega
  have f8 : 0 < u → m = 0 ∧ ((n1 + n2 + n3 + n4 : Nat) : Int) = source.linked_tracks := by
    intro hu
    have h4 : n4 ≠ 0 := by omega
    refine ⟨?_, by omega⟩
    by_contra hm
    have := f7 (by omega)
    omega
  clear e1 e2 e3 e4 p1 hcase hA h0
  have hpre : ∀ (k : Nat) (q : partial_s), st.source.tracks[k]? = some q →
      (q.link ≠ none ↔ (k : Int) < source.linked_tracks + (m : Int) - (u : Int)) := by
    intro k q hq
    by_cases hk1 : k < n1
    · obtain ⟨p, -, -, a3, -⟩ := q1 k q hk1 hq
      rw [a3]
      rcases Nat.eq_zero_or_pos u with hu | hu
      · omega
      · have := f8 hu
        omega
    · by_cases hk2 : k < n1 + n2 + n3
      · obtain ⟨p, a1, -, a3⟩ := q2 k q (by omega) hk2 hq
        rw [a3, hI.prefix_linked k p a1]
        rcases Nat.eq_zero_or_pos u with hu | hu
        · rcases Nat.eq_zero_or_pos m with hm | hm
          · omega
          · have := f6 hm
            omega
        · have := f8 hu
          omega
      · by_cases hk3 : k < n1 + n2 + n3 + n4
        · obtain ⟨p, -, -, a3, -⟩ := q3 k q (by omega) hk3 hq
          rw [a3]
          have h4 : 0 < n4 := by omega
          have hm : m = 0 := by
            by_contra hm
            have := f7 (by omega)
            omega
          omega
        · rw [q4 k (by omega)] at hq
          rw [hI.prefix_linked k q hq]
          rcases Nat.eq_zero_or_pos m with hm | hm
          · omega
          · have := f6 hm
            omega
  refine
    { tracks_length := ?_
      active_range := ?_
      linked_range := ?_
      prefix_linked := ?_
      young := ?_
      dying := ?_ }
  · rw [sT]
    exact hlen.trans hI.tracks_length
  · rw [sA, hmax]
    omega
  · rw [sL, hmax]
    rcases Nat.eq_zero_or_pos u with hu | hu
    · rcases Nat.eq_zero_or_pos m with hm | hm
      · omega
      · have := f6 hm
        omega
    · have := f8 hu
      omega
  · intro k q hq
    rw [sT] at hq
    rw [sL]
    exact hpre k q hq
  · intro i j p q hi hij hj hp hq
    rw [sT] at hp hq
    rw [sL] at hi
    rw [sA] at hj
    have hu : u = 0 := by
      by_contra hu
      have := f8 (by omega)
      omega
    subst hu
    have hpn : p.link = none := by
      by_contra hne
      have := (hpre i p hp).mp hne
      omega
    by_cases hi1 : i < n1
    · obtain ⟨pT, a1, a2, -, a4⟩ := q1 i p hi1 hp
      have hps := a4 hpn
      by_cases hj1 : j < n1
      · obtain ⟨qT, b1, b2, -, -⟩ := q1 j q hj1 hq
        obtain ⟨y1, y2, -⟩ := hI.young i j pT qT (by omega) hij (by omega) a1 b1
        omega
      · obtain ⟨qT, -, b2, -⟩ := q2 j q (by omega) (by omega) hq
        omega
    · obtain ⟨pT, -, a2, -⟩ := q2 i p (by omega) (by omega) hp
      obtain ⟨qT, -, b2, -⟩ := q2 j q (by omega) (by omega) hq
      omega
  · intro i j p q hi hij hj hp hq
    rw [sT] at hp hq
    rw [sL] at hj
    rw [sA] at hi
    have hstate : ∀ (k : Nat) (r : partial_s), n1 + n2 ≤ k →
        (k : Int) < source.linked_tracks + (m : Int) - (u : Int) →
        st.source.tracks[k]? = some r →
        (k < n1 + n2 + n3 ∧ r.state = 0) ∨ (n1 + n2 + n3 ≤ k ∧ r.state = -1) := by
      intro k r hk1 hk2 hr
      have hm : m = 0 := by
        by_contra hm
        have := f6 (by omega)
        omega
      by_cases hk3 : k < n1 + n2 + n3
      · obtain ⟨rT, -, b2, -⟩ := q2 k r (by omega) hk3 hr
        exact Or.inl ⟨hk3, b2⟩
      · have hk4 : k < n1 + n2 + n3 + n4 := by omega
        obtain ⟨rT, -, -, b3, b4⟩ := q3 k r (by omega) hk4 hr
        exact Or.inr ⟨by omega, b4 ((hpre k r hr).mpr hk2)⟩
    rcases hstate i p (by omega) (by omega) hp with ⟨x1, x2⟩ | ⟨x1, x2⟩ <;>
      rcases hstate j q (by omega) hj hq with ⟨y1, y2⟩ | ⟨y1, y2⟩ <;> omega

theorem getElem?_set_cases {α : Type} (xs : List α) (j k : Nat) (x : α) (hj : j < xs.length) :
    (xs.set j x)[k]? = if k = j then some x else xs[k]? := by
  by_cases hk : k = j
  · subst hk
    rw [if_pos rfl, List.getElem?_set_self hj]
  · rw [if_neg hk, List.getElem?_set_ne (Ne.symm hk)]

theorem getElem?_lt {α : Type} (xs : List α) (j : Nat) (x : α) (h : xs[j]? = some x) :
    j < xs.length := by
  by_contra hlen
  rw [List.getElem?_eq_none (by omega)] at h
  cases h

/-- An iteration of a track loop keeps the bookkeeping of the links. -/
theorem link_move_keeps (s : sas_synthesizer_s) (j : Nat) (t t1 : update_state)
    (hm : link_move j t t1) (hJ : loop_links s t) : loop_links s t1 := by
  obtain ⟨hid, halloc, hsrc, p, p1, hp, htr, hcase⟩ := hm
  have hjlen := getElem?_lt _ _ _ hp
  have hget : ∀ k, t1.source.tracks[k]? = if k = j then some p1 else t.source.tracks[k]? := by
    intro k
    rw [htr]
    exact getElem?_set_cases _ _ _ _ hjlen
  rcases hcase with ⟨hl, hs, ha⟩ | ⟨hnone, ha0, ha1, ha2, hl, hs, ha⟩ | ⟨l0, hl0, hlen0, hl, hs, ha⟩
  · refine ⟨hsrc.trans hJ.sources, by rw [ha, halloc]; exact hJ.active_range, ?_, ?_, ?_⟩
    · intro i l q hq hql
      rw [hget] at hq
      rw [ha, hs, hid]
      by_cases hij : i = j
      · subst hij
        rw [if_pos rfl] at hq
        cases hq
        exact hJ.mine i l p hp (by rw [← hl]; exact hql)
      · rw [if_neg hij] at hq
        exact hJ.mine i l q hq hql
    · intro q v l hq hv hvl
      rw [ha, hs]
      exact hJ.others q v l (by rw [← hid]; exact hq) hv hvl
    · intro l q hlt hq
      rw [ha] at hlt
      rw [hs] at hq
      obtain ⟨x1, x2⟩ := hJ.slots l q hlt hq
      rw [hid]
      refine ⟨fun hqs => ?_, x2⟩
      obtain ⟨p2, y1, y2⟩ := x1 hqs
      rw [hget]
      by_cases hij : q.index = j
      · rw [if_pos hij]
        rw [hij, hp] at y1
        cases y1
        exact ⟨p1, rfl, by rw [hl]; exact y2⟩
      · rw [if_neg hij]
        exact ⟨p2, y1, y2⟩
  · have hcast : ((t.s.active_tracks.toNat : Nat) : Int) = t.s.active_tracks :=
      Int.toNat_of_nonneg ha0
    have hslot : ∀ k, t1.s.tracks[k]? =
        if k = t.s.active_tracks.toNat then some (some ⟨t.source.id, j⟩)
        else t.s.tracks[k]? := by
      intro k
      rw [hs]
      exact getElem?_set_cases _ _ _ _ ha2
    refine ⟨hsrc.trans hJ.sources, by rw [ha, halloc]; omega, ?_, ?_, ?_⟩
    · intro i l q hq hql
      rw [hget] at hq
      rw [ha, hslot, hid]
      by_cases hij : i = j
      · subst hij
        rw [if_pos rfl] at hq
        cases hq
        rw [hl] at hql
        cases hql
        rw [if_pos rfl]
        exact ⟨by omega, rfl⟩
      · rw [if_neg hij] at hq
        obtain ⟨x1, x2⟩ := hJ.mine i l q hq hql
        rw [if_neg (by omega)]
        exact ⟨by omega, x2⟩
    · intro q v l hq hv hvl
      obtain ⟨x1, x2⟩ := hJ.others q v l (by rw [← hid]; exact hq) hv hvl
      rw [ha, hslot, if_neg (by omega)]
      exact ⟨by omega, x2⟩
    · intro l q hlt hq
      rw [ha] at hlt
      rw [hslot] at hq
      rw [hid]
      by_cases hla : l = t.s.active_tracks.toNat
      · rw [if_pos hla] at hq
        cases hq
        refine ⟨fun _ => ?_, fun hne => absurd rfl hne⟩
        rw [hget, if_pos rfl]
        exact ⟨p1, rfl, by rw [hl, hla]⟩
      · rw [if_neg hla] at hq
        obtain ⟨x1, x2⟩ := hJ.slots l q (by omega) hq
        refine ⟨fun hqs => ?_, x2⟩
        obtain ⟨p2, y1, y2⟩ := x1 hqs
        rw [hget]
        by_cases hij : q.index = j
        · rw [hij, hp] at y1
          cases y1
          rw [hnone] at y2
          cases y2
        · rw [if_neg hij]
          exact ⟨p2, y1, y2⟩
  · have hslot : ∀ k, t1.s.tracks[k]? = if k = l0 then some none else t.s.tracks[k]? := by
      intro k
      rw [hs]
      exact getElem?_set_cases _ _ _ _ hlen0
    obtain ⟨z1, z2⟩ := hJ.mine j l0 p hp hl0
    refine ⟨hsrc.trans hJ.sources, by rw [ha, halloc]; exact hJ.active_range, ?_, ?_, ?_⟩
    · intro i l q hq hql
      rw [hget] at hq
      rw [ha, hslot, hid]
      by_cases hij : i = j
      · subst hij
        rw [if_pos rfl] at hq
        cases hq
        rw [hl] at hql
        cases hql
      · rw [if_neg hij] at hq
        obtain ⟨x1, x2⟩ := hJ.mine i l q hq hql
        have hne : l ≠ l0 := by
          rintro rfl
          rw [z2] at x2
          simp only [Option.some.injEq, partial_t.mk.injEq, true_and] at x2
          exact hij x2.symm
        rw [if_neg hne]
        exact ⟨x1, x2⟩
    · intro q v l hq hv hvl
      obtain ⟨x1, x2⟩ := hJ.others q v l (by rw [← hid]; exact hq) hv hvl
      have hne : l ≠ l0 := by
        rintro rfl
        rw [z2] at x2
        simp only [Option.some.injEq] at x2
        rw [hid] at hq
        exact hq (by rw [← x2])
      rw [ha, hslot, if_neg hne]
      exact ⟨x1, x2⟩
    · intro l q hlt hq
      rw [ha] at hlt
      rw [hslot] at hq
      rw [hid]
      by_cases hla : l = l0
      · rw [if_pos hla] at hq
        cases hq
      · rw [if_neg hla] at hq
        obtain ⟨x1, x2⟩ := hJ.slots l q hlt hq
        refine ⟨fun hqs => ?_, x2⟩
        obtain ⟨p2, y1, y2⟩ := x1 hqs
        rw [hget]
        by_cases hij : q.index = j
        · rw [hij, hp] at y1
          cases y1
          rw [hl0] at y2
          cases y2
          exact absurd rfl hla
        · rw [if_neg hij]
          exact ⟨p2, y1, y2⟩

theorem continuing_link_move (c : libc) (j : Nat) (t t1 : update_state)
    (h : continuing_harmonic c j t = .ok t1) : link_move j t t1 := by
  obtain ⟨p, p1, hp, hsrc, -, -, -, -, -, -, hcase⟩ := continuing_harmonic_step c j t t1 h
  rcases hcase with ⟨-, hl, -, -, hs, -, -⟩ | ⟨hn, -, hcap, h0, hlen, hl, -, -, hs, -, -⟩
  · refine ⟨by rw [hsrc], by rw [hs], by rw [hs], p, p1, hp, by rw [hsrc], Or.inl ?_⟩
    exact ⟨hl, by rw [hs], by rw [hs]⟩
  · refine ⟨by rw [hsrc], by rw [hs], by rw [hs], p, p1, hp, by rw [hsrc], Or.inr (Or.inl ?_)⟩
    exact ⟨hn, h0, hcap, hlen, hl, by rw [hs], by rw [hs]⟩

theorem birth_link_move (j : Nat) (t t1 : update_state)
    (h : birth_of_harmonic j t = .ok t1) : link_move j t t1 := by
  obtain ⟨p, hp, rfl⟩ := birth_of_harmonic_step j t t1 h
  exact ⟨rfl, rfl, rfl, p, _, hp, rfl, Or.inl ⟨rfl, rfl, rfl⟩⟩

theorem death_link_move (j : Nat) (t t1 : update_state)
    (h : death_of_harmonic j t = .ok t1) : link_move j t t1 := by
  obtain ⟨p, hp, rfl⟩ := death_of_harmonic_step j t t1 h
  exact ⟨rfl, rfl, rfl, p, _, hp, rfl, Or.inl ⟨rfl, rfl, rfl⟩⟩

theorem dying_link_move (j : Nat) (t t1 : update_state)
    (h : dying_harmonic j t = .ok t1) : link_move j t t1 := by
  obtain ⟨p, hp, hcase⟩ := dying_harmonic_step j t t1 h
  rcases hcase with ⟨-, l, hl, hlen, rfl⟩ | ⟨-, rfl⟩
  · exact ⟨rfl, rfl, rfl, p, _, hp, rfl, Or.inr (Or.inr ⟨l, hl, hlen, rfl, rfl, rfl⟩)⟩
  · exact ⟨rfl, rfl, rfl, p, _, hp, rfl, Or.inl ⟨rfl, rfl, rfl⟩⟩

theorem loop_keeps_links (s : sas_synthesizer_s)
    (body : Nat → update_state → Except fault update_state)
    (hbody : ∀ j t t1, body j t = .ok t1 → link_move j t t1) (n i : Nat)
    (t t1 : update_state) (h : for_loop body n i t = .ok t1) (hJ : loop_links s t) :
    loop_links s t1 :=
  for_loop_preserves body (fun _ t => loop_links s t) n i t t1
    (fun j a b _ _ hb ha => link_move_keeps s j a b (hbody j a b hb) ha) h hJ

/-- The four track loops of `update_source` keep the bookkeeping of the
links. -/
theorem update_partials_links (c : libc) (g : globals) (s : sas_synthesizer_s)
    (source : sas_source_s) (harmonics active : Int) (st : update_state)
    (hJ : loop_links s
      { g := g, s := s, source := source, birth := 0, death := 0, links := 0 })
    (h : update_partials c g s source harmonics active = .ok st) : loop_links s st := by
  obtain ⟨n1, n2, n3, n4, hn⟩ : ∃ n1 n2 n3 n4,
      loop_counts source harmonics active = (n1, n2, n3, n4) := ⟨_, _, _, _, rfl⟩
  obtain ⟨t1, t2, t3, l1, l2, l3, l4⟩ :=
    update_partials_ok c g s source harmonics active st n1 n2 n3 n4 hn h
  have j1 := loop_keeps_links s _ (continuing_link_move c) _ _ _ _ l1 hJ
  have j2 := loop_keeps_links s _ birth_link_move _ _ _ _ l2 j1
  have j3 := loop_keeps_links s _ death_link_move _ _ _ _ l3 j2
  exact loop_keeps_links s _ dying_link_move _ _ _ _ l4 j3

theorem lifecycle_getElem (xs ys : List partial_s)
    (h : xs.map lifecycle = ys.map lifecycle) (i : Nat) (p : partial_s)
    (hp : xs[i]? = some p) :
    ∃ q, ys[i]? = some q ∧ q.link = p.link ∧ q.state = p.state := by
  have hm := congrArg (fun l => l[i]?) h
  simp only [List.getElem?_map, hp, Option.map_some'] at hm
  cases hq : ys[i]? with
  | none => simp [hq] at hm
  | some q =>
    simp only [hq, Option.map_some', Option.some.injEq] at hm
    have h1 := congrArg (fun x => x.link) hm
    have h2 := congrArg (fun x => x.state) hm
    exact ⟨q, rfl, h1.symm, h2.symm⟩

/-- The shape of the partials of a source only depends on the two counters
and on the links and the state counters of the partials. -/
theorem source_inv_congr (src src1 : sas_source_s) (hI : source_inv src)
    (hA : src1.active_tracks = src.active_tracks)
    (hL : src1.linked_tracks = src.linked_tracks)
    (hT : src1.tracks.map lifecycle = src.tracks.map lifecycle) : source_inv src1 := by
  have hlen : src1.tracks.length = src.tracks.length := by
    have := congrArg List.length hT
    simpa using this
  refine
    { tracks_length := hlen.trans hI.tracks_length
      active_range := by rw [hA]; exact hI.active_range
      linked_range := by rw [hL]; exact hI.linked_range
      prefix_linked := ?_
      young := ?_
      dying := ?_ }
  · intro i p hp
    obtain ⟨q, hq, e1, -⟩ := lifecycle_getElem _ _ hT i p hp
    rw [hL, ← e1]
    exact hI.prefix_linked i q hq
  · intro i j p q hi hij hj hp hq
    obtain ⟨p2, hp2, -, e2⟩ := lifecycle_getElem _ _ hT i p hp
    obtain ⟨q2, hq2, -, e4⟩ := lifecycle_getElem _ _ hT j q hq
    rw [← e2, ← e4]
    exact hI.young i j p2 q2 (by rw [← hL]; exact hi) hij (by rw [← hA]; exact hj) hp2 hq2
  · intro i j p q hi hij hj hp hq
    obtain ⟨p2, hp2, -, e2⟩ := lifecycle_getElem _ _ hT i p hp
    obtain ⟨q2, hq2, -, e4⟩ := lifecycle_getElem _ _ hT j q hq
    rw [← e2, ← e4]
    exact hI.dying i j p2 q2 (by rw [← hA]; exact hi) hij (by rw [← hL]; exact hj) hp2 hq2

theorem scan_counts (c : libc) (g : globals) (s : sas_synthesizer_s) (src : sas_source_s)
    (r : scan_result) (h : harmonic_scan c g s src = .ok r) (hA : 0 ≤ src.active_tracks) :
    0 ≤ r.active ∧ r.active ≤ r.source.active_tracks ∧
      (r.active = r.source.active_tracks ∨ r.harmonics ≤ r.active) := by
  obtain ⟨-, -, -, -, hact, -, -, -, hH, -, hcase⟩ := harmonic_scan_fields c g s src r h
  rw [hact]
  rcases hcase with hc | ⟨h1, h2⟩ | ⟨h1, h2⟩
  · unfold MIN at hc
    split_ifs at hc with hlt
    · exact ⟨by omega, by omega, Or.inl hc⟩
    · exact ⟨by omega, by omega, Or.inr (by omega)⟩
  · exact ⟨by omega, by omega, Or.inr (by omega)⟩
  · exact ⟨by omega, by omega, Or.inl h2⟩

theorem partial_t_eta (q : partial_t) : (⟨q.source, q.index⟩ : partial_t) = q := by
  cases q
  rfl

/-- The bookkeeping of the links at the start of the track loops of
`update_source`, on a copy of a source whose partials have the links and the
state counters of the original. -/
theorem loop_links_start (g : globals) (s : sas_synthesizer_s) (id : Nat)
    (src source : sas_source_s) (hI : link_inv s) (hsrc : source_load s id = .ok src)
    (hid : source.id = id) (hT : source.tracks.map lifecycle = src.tracks.map lifecycle) :
    loop_links s { g := g, s := s, source := source, birth := 0, death := 0, links := 0 } := by
  refine ⟨rfl, hI.active_range, ?_, ?_, ?_⟩
  · intro i l p hp hl
    obtain ⟨q, hq, e1, -⟩ := lifecycle_getElem _ _ hT i p hp
    have hload : partial_load s ⟨id, i⟩ = .ok q :=
      (partial_load_iff s ⟨id, i⟩ q).mpr ⟨src, hsrc, hq⟩
    have := hI.links ⟨id, i⟩ q l hload (by rw [e1]; exact hl)
    show (l : Int) < s.active_tracks ∧ s.tracks[l]? = some (some ⟨source.id, i⟩)
    rw [hid]
    exact this
  · intro q v l _ hv hl
    exact hI.links q v l hv hl
  · intro l q hlt hq
    obtain ⟨v, hv, hvl⟩ := hI.slots l q hlt hq
    refine ⟨fun hqs => ?_, fun _ => ⟨v, hv, hvl⟩⟩
    obtain ⟨src1, h1, h2⟩ := (partial_load_iff s q v).mp hv
    have hqs1 : q.source = id := hqs.trans hid
    rw [hqs1, hsrc] at h1
    cases h1
    obtain ⟨p, hp, e1, -⟩ := lifecycle_getElem _ _ hT.symm q.index v h2
    exact ⟨p, hp, by rw [e1]; exact hvl⟩

/-- The bookkeeping of the links once the copy of the source is written back
after the track loops. -/
theorem link_inv_store (s : sas_synthesizer_s) (id : Nat) (src v : sas_source_s)
    (st : update_state) (hI : link_inv s) (hsrc : source_load s id = .ok src)
    (hJ : loop_links s st) (hid : st.source.id = id) (hvid : v.id = id)
    (hvt : v.tracks = st.source.tracks) (hv : source_inv v) :
    link_inv (source_store st.s v) := by
  have hsrc1 : source_load st.s id = .ok src := by
    unfold source_load
    rw [hJ.sources]
    exact hsrc
  have hsid := source_load_id s id src hsrc
  have hself : source_load (source_store st.s v) id = .ok v :=
    source_load_store_self st.s src v id hsrc1 (by rw [hvid, hsid])
  have hother : ∀ q, q ≠ id → source_load (source_store st.s v) q = source_load s q := by
    intro q hq
    rw [source_load_store_ne st.s v q (by rw [hvid]; exact hq)]
    unfold source_load
    rw [hJ.sources]
  obtain ⟨-, f2, f3, f4, -⟩ := source_store_fields st.s v
  refine ⟨?_, by rw [f3, f4]; exact hJ.active_range, ?_, ?_⟩
  · intro q w hq
    by_cases hqi : q = id
    · subst hqi
      rw [hself] at hq
      cases hq
      exact hv
    · rw [hother q hqi] at hq
      exact hI.shape q w hq
  · intro q w l hq hl
    rw [f2, f3]
    obtain ⟨src1, h1, h2⟩ := (partial_load_iff _ q w).mp hq
    by_cases hqi : q.source = id
    · rw [hqi, hself] at h1
      cases h1
      rw [hvt] at h2
      have := hJ.mine q.index l w h2 hl
      rw [hid, ← hqi, partial_t_eta] at this
      exact this
    · rw [hother q.source hqi] at h1
      exact hJ.others q w l (by rw [hid]; exact hqi)
        ((partial_load_iff s q w).mpr ⟨src1, h1, h2⟩) hl
  · intro l q hlt hq
    rw [f3] at hlt
    rw [f2] at hq
    obtain ⟨x1, x2⟩ := hJ.slots l q hlt hq
    by_cases hqi : q.source = id
    · obtain ⟨p, y1, y2⟩ := x1 (by rw [hid]; exact hqi)
      refine ⟨p, (partial_load_iff _ q p).mpr ⟨v, ?_, ?_⟩, y2⟩
      · rw [hqi]
        exact hself
      · rw [hvt]
        exact y1
    · obtain ⟨w, y1, y2⟩ := x2 (by rw [hid]; exact hqi)
      obtain ⟨src1, h1, h2⟩ := (partial_load_iff s q w).mp y1
      refine ⟨w, (partial_load_iff _ q w).mpr ⟨src1, ?_, h2⟩, y2⟩
      rw [hother q.source hqi]
      exact h1

theorem find_filter_ne (l : List sas_source_s) (id q : Nat) (hq : q ≠ id) :
    (l.filter (fun x => decide (x.id ≠ id))).find? (fun x => decide (x.id = q)) =
      l.find? (fun x => decide (x.id = q)) := by
  induction l with
  | nil => rfl
  | cons x xs ih =>
    by_cases hx : x.id = id
    · have hxq : ¬ x.id = q := by
        rw [hx]
        exact Ne.symm hq
      rw [List.filter_cons_of_neg (by simpa using hx),
        List.find?_cons_of_neg _ (by simpa using hxq)]
      exact ih
    · rw [List.filter_cons_of_pos (by simpa using hx)]
      by_cases hxq : x.id = q
      · rw [List.find?_cons_of_pos _ (by simpa using hxq),
          List.find?_cons_of_pos _ (by simpa using hxq)]
      · rw [List.find?_cons_of_neg _ (by simpa using hxq),
          List.find?_cons_of_neg _ (by simpa using hxq)]
        exact ih

/-- The function `sas_synthesizer_source_delayed_free` leaves the active-track
array alone when the source has no linked partial. -/
theorem delayed_free_unlinked (c : libc) (g g2 : globals) (s s2 : sas_synthesizer_s)
    (id : Nat) (src : sas_source_s) (hsrc : source_load s id = .ok src)
    (hL : src.linked_tracks = 0)
    (h : sas_synthesizer_source_delayed_free c g s id = .ok (g2, s2)) :
    s2.sources = s.sources.filter (fun x => decide (x.id ≠ id)) ∧ s2.tracks = s.tracks ∧
      s2.active_tracks = s.active_tracks ∧ s2.allocated = s.allocated := by
  unfold sas_synthesizer_source_delayed_free at h
  unfold source_load at hsrc
  cases hf : s.sources.find? (fun x => decide (x.id = id)) with
  | none =>
    rw [hf] at hsrc
    cases hsrc
  | some src0 =>
    rw [hf] at hsrc
    simp only [Except.ok.injEq] at hsrc
    subst hsrc
    simp only [hf, bind_ok_iff] at h
    obtain ⟨s1, h1, g1, -, h3⟩ := h
    rw [hL] at h1
    simp only [Int.toNat_zero, for_loop, Except.ok.injEq] at h1
    subst h1
    split_ifs at h3 with h0
    all_goals
      simp only [pure, Except.pure, Except.ok.injEq, Prod.mk.injEq] at h3
      obtain ⟨-, rfl⟩ := h3
      exact ⟨rfl, rfl, rfl, rfl⟩

/-- The bookkeeping of the links after the removal of a source that has no
linked partial. -/
theorem link_inv_removed (s s2 : sas_synthesizer_s) (id : Nat) (src : sas_source_s)
    (hI : link_inv s) (hsrc : source_load s id = .ok src) (hL : src.linked_tracks = 0)
    (h1 : s2.sources = s.sources.filter (fun x => decide (x.id ≠ id)))
    (h2 : s2.tracks = s.tracks) (h3 : s2.active_tracks = s.active_tracks)
    (h4 : s2.allocated = s.allocated) : link_inv s2 := by
  have hback : ∀ q w, source_load s2 q = .ok w → source_load s q = .ok w :=
    fun q w hq => source_load_filter s s2 id q w h1 hq
  have hforth : ∀ q, q ≠ id → source_load s2 q = source_load s q := by
    intro q hq
    unfold source_load
    rw [h1, find_filter_ne _ _ _ hq]
  refine ⟨fun q w hq => hI.shape q w (hback q w hq), by rw [h3, h4]; exact hI.active_range,
    ?_, ?_⟩
  · intro q w l hq hl
    obtain ⟨src1, a1, a2⟩ := (partial_load_iff _ q w).mp hq
    rw [h2, h3]
    exact hI.links q w l ((partial_load_iff s q w).mpr ⟨src1, hback _ _ a1, a2⟩) hl
  · intro l q hlt hq
    rw [h3] at hlt
    rw [h2] at hq
    obtain ⟨w, a1, a2⟩ := hI.slots l q hlt hq
    obtain ⟨src1, b1, b2⟩ := (partial_load_iff s q w).mp a1
    have hne : q.source ≠ id := by
      intro hqi
      rw [hqi, hsrc] at b1
      cases b1
      have := (hI.shape id src hsrc).prefix_linked q.index w b2
      rw [hL, a2] at this
      have h0 := this.mp (Option.some_ne_none l)
      omega
    refine ⟨w, (partial_load_iff _ q w).mpr ⟨src1, ?_, b2⟩, a2⟩
    rw [hforth q.source hne]
    exact b1

/-- The function `update_source` keeps the bookkeeping of the links. -/
theorem update_source_links (c : libc) (g g2 : globals) (s s2 : sas_synthesizer_s) (id : Nat)
    (hI : link_inv s) (h : update_source c g s id = .ok (g2, s2)) : link_inv s2 := by
  obtain ⟨src, r, st, hsrc, hr, hst, hcase⟩ := update_source_cases c g g2 s s2 id h
  obtain ⟨hid, -, -, -, hact, hlinked, -, hmap, hH, hH2, -⟩ :=
    harmonic_scan_fields c g s src r hr
  have hIs := hI.shape id src hsrc
  obtain ⟨a0, a1, a2⟩ := scan_counts c g s src r hr hIs.active_range.1
  have hIr : source_inv r.source := source_inv_congr src r.source hIs hact hlinked hmap
  have hsid := source_load_id s id src hsrc
  have hrid : r.source.id = id := hid.trans hsid
  have hJ0 := loop_links_start r.g s id src r.source hI hsrc hrid hmap
  have hJ := update_partials_links c r.g s r.source r.harmonics r.active st hJ0 hst
  have hZ := update_partials_zones c r.g s r.source r.harmonics r.active st hIr a0 a1
    ⟨hH, hH2⟩ a2 hst
  have hstid : st.source.id = id := by
    rw [(loops_frame_source _ _ (update_partials_frame c r.g s r.source r.harmonics r.active st
      hst)).1]
    exact hrid
  obtain ⟨f1, -, -, -, -, -, -, -, -, -, f11, -⟩ := step_source_fields st
  have hI1 : link_inv (source_store st.s (step_source st)) :=
    link_inv_store s id src (step_source st) st hI hsrc hJ hstid (f1.trans hstid) f11 hZ
  rcases hcase with ⟨-, hz, hfree⟩ | ⟨-, -, rfl⟩
  · have hsrc1 : source_load st.s id = .ok src := by
      unfold source_load
      rw [hJ.sources]
      exact hsrc
    have hself : source_load (source_store st.s (step_source st)) id =
        .ok (step_source st) :=
      source_load_store_self st.s src (step_source st) id hsrc1 (by rw [f1, hstid, hsid])
    rw [f1, hstid] at hfree
    obtain ⟨d1, d2, d3, d4⟩ := delayed_free_unlinked c _ _ _ _ id _ hself hz hfree
    exact link_inv_removed _ s2 id _ hI1 hself hz d1 d2 d3 d4
  · exact hI1

/-- The shape of the partials of a source only depends on the two counters,
on the state counters and on which partials are linked. -/
theorem source_inv_pointwise (src src1 : sas_source_s) (hI : source_inv src)
    (hA : src1.active_tracks = src.active_tracks)
    (hL : src1.linked_tracks = src.linked_tracks)
    (hlen : src1.tracks.length = src.tracks.length)
    (hT : ∀ (i : Nat) (p1 : partial_s), src1.tracks[i]? = some p1 →
      ∃ p, src.tracks[i]? = some p ∧ p1.state = p.state ∧ (p1.link ≠ none ↔ p.link ≠ none)) :
    source_inv src1 := by
  refine
    { tracks_length := hlen.trans hI.tracks_length
      active_range := by rw [hA]; exact hI.active_range
      linked_range := by rw [hL]; exact hI.linked_range
      prefix_linked := ?_
      young := ?_
      dying := ?_ }
  · intro i p hp
    obtain ⟨q, hq, -, e1⟩ := hT i p hp
    rw [hL, e1]
    exact hI.prefix_linked i q hq
  · intro i j p q hi hij hj hp hq
    obtain ⟨p2, hp2, e2, -⟩ := hT i p hp
    obtain ⟨q2, hq2, e4, -⟩ := hT j q hq
    rw [e2, e4]
    exact hI.young i j p2 q2 (by rw [← hL]; exact hi) hij (by rw [← hA]; exact hj) hp2 hq2
  · intro i j p q hi hij hj hp hq
    obtain ⟨p2, hp2, e2, -⟩ := hT i p hp
    obtain ⟨q2, hq2, e4, -⟩ := hT j q hq
    rw [e2, e4]
    exact hI.dying i j p2 q2 (by rw [← hA]; exact hi) hij (by rw [← hL]; exact hj) hp2 hq2

/-- The sources after a write through a pointer to a partial. -/
theorem partial_store_source (s s1 : sas_synthesizer_s) (q : partial_t) (v : partial_s)
    (h : partial_store s q v = .ok s1) (id : Nat) (src1 : sas_source_s)
    (h1 : source_load s1 id = .ok src1) :
    ∃ src, source_load s id = .ok src ∧
      src1 = if id = q.source then { src with tracks := src.tracks.set q.index v } else src := by
  unfold partial_store at h
  simp only [bind_ok_iff, pure, Except.pure, Except.ok.injEq] at h
  obtain ⟨src0, hsrc0, ts, hts, rfl⟩ := h
  obtain ⟨-, rfl⟩ := (array_set_eq_ok _ _ _ _).mp hts
  have hid0 := source_load_id s q.source src0 hsrc0
  rw [source_load_store] at h1
  cases hl : source_load s id with
  | error e =>
    rw [hl] at h1
    cases h1
  | ok src =>
    rw [hl] at h1
    simp only [Except.map, Except.ok.injEq] at h1
    have hid := source_load_id s id src hl
    refine ⟨src, rfl, ?_⟩
    by_cases hq : id = q.source
    · rw [if_pos hq]
      subst hq
      rw [hsrc0] at hl
      cases hl
      rw [if_pos rfl] at h1
      exact h1.symm
    · rw [if_neg hq]
      rw [if_neg (by
        show ¬ src.id = src0.id
        rw [hid, hid0]
        exact hq)] at h1
      exact h1.symm

/-- A write that changes the cell that a link designates keeps the shape of
the sources. -/
theorem partial_store_shape (s s1 : sas_synthesizer_s) (q : partial_t) (v : partial_s)
    (l l1 : Nat) (hv : partial_load s q = .ok v) (hl : v.link = some l)
    (h : partial_store s q { v with link := some l1 } = .ok s1)
    (hS : ∀ id src, source_load s id = .ok src → source_inv src) :
    ∀ id src1, source_load s1 id = .ok src1 → source_inv src1 := by
  intro id src1 h1
  obtain ⟨src, a1, a2⟩ := partial_store_source s s1 q _ h id src1 h1
  by_cases hq : id = q.source
  · rw [if_pos hq] at a2
    subst a2
    obtain ⟨src0, b1, b2⟩ := (partial_load_iff s q v).mp hv
    rw [← hq, a1] at b1
    cases b1
    have hlen := getElem?_lt _ _ _ b2
    refine source_inv_pointwise src _ (hS id src a1) rfl rfl (by simp) ?_
    intro i p1 hp1
    have hp2 : (src.tracks.set q.index { v with link := some l1 })[i]? = some p1 := hp1
    rw [getElem?_set_cases _ _ _ _ hlen] at hp2
    by_cases hi : i = q.index
    · rw [if_pos hi] at hp2
      cases hp2
      refine ⟨v, by rw [hi]; exact b2, rfl, ?_⟩
      rw [hl]
      simp
    · rw [if_neg hi] at hp2
      exact ⟨p1, hp2, rfl, Iff.rfl⟩
  · rw [if_neg hq] at a2
    subst a2
    exact hS id src1 a1

theorem source_load_congr (s1 s2 : sas_synthesizer_s) (id : Nat)
    (h : s1.sources = s2.sources) : source_load s1 id = source_load s2 id := by
  unfold source_load
  rw [h]

/-- The move of a pointer by the loop of `update_tracks` keeps the bookkeeping
of the links. -/
theorem compact_move_links (s : sas_synthesizer_s) (i : Nat) (t : tracks_state)
    (q : partial_t) (v : partial_s) (y s2 : sas_synthesizer_s)
    (tr : List (Option partial_t)) (hK : compact_links s i t)
    (hi : (i : Int) < s.active_tracks) (hcell : t.s.tracks[i]? = some (some q))
    (hv : partial_load t.s q = .ok v) (hy1 : y.sources = t.s.sources)
    (hy2 : y.tracks = t.s.tracks) (hy3 : y.active_tracks = t.s.active_tracks)
    (hy4 : y.allocated = t.s.allocated)
    (htr : array_set y.tracks t.dst (some q) = .ok tr)
    (hs2 : partial_store { y with tracks := tr } q { v with link := some t.dst } = .ok s2) :
    compact_links s (i + 1) { t with s := s2, dst := t.dst + 1 } := by
  obtain ⟨hdlen, rfl⟩ := (array_set_eq_ok _ _ _ _).mp htr
  rw [hy2] at hdlen
  obtain ⟨f1, -, f3, -, -, f6, -⟩ := partial_store_fields _ _ _ _ hs2
  have htracks : ∀ k, s2.tracks[k]? =
      if k = t.dst then some (some q) else t.s.tracks[k]? := by
    intro k
    rw [f1]
    show (y.tracks.set t.dst (some q))[k]? = _
    rw [hy2]
    exact getElem?_set_cases _ _ _ _ hdlen
  have hvl : v.link = some i := by
    obtain ⟨v1, a1, a2⟩ := hK.rest i q (le_refl _) hi hcell
    rw [hv] at a1
    cases a1
    exact a2
  have hsame : partial_load s2 q = .ok { v with link := some t.dst } :=
    partial_load_store_same _ _ _ _ hs2
  have hother : ∀ q1, q1 ≠ q → partial_load s2 q1 = partial_load t.s q1 := by
    intro q1 hq1
    rw [partial_load_store_other _ _ _ _ _ hs2 hq1]
    exact partial_load_congr _ _ q1 hy1
  have hdst := hK.dst_le
  refine
    { dst_le := by show t.dst + 1 ≤ i + 1; omega
      closed := ?_
      active := by show s2.active_tracks = _; rw [f3]; exact hy3.trans hK.active
      allocated := by show s2.allocated = _; rw [f6]; exact hy4.trans hK.allocated
      shape := ?_
      moved := ?_
      rest := ?_
      links := ?_ }
  · show t.closed_tracks = ((i + 1 : Nat) : Int) - ((t.dst + 1 : Nat) : Int)
    rw [hK.closed]
    push_cast
    ring
  · show ∀ id src1, source_load s2 id = .ok src1 → source_inv src1
    refine partial_store_shape { y with tracks := y.tracks.set t.dst (some q) } s2 q v i t.dst
      ((partial_load_congr { y with tracks := y.tracks.set t.dst (some q) } t.s q hy1).trans hv)
      hvl hs2 ?_
    intro id src hsrc
    exact hK.shape id src
      ((source_load_congr { y with tracks := y.tracks.set t.dst (some q) } t.s id hy1).symm.trans
        hsrc)
  · intro l hl
    show ∃ q1 v1, s2.tracks[l]? = some (some q1) ∧ partial_load s2 q1 = .ok v1 ∧
      v1.link = some l
    rw [htracks]
    by_cases hld : l = t.dst
    · rw [if_pos hld]
      exact ⟨q, _, rfl, hsame, by rw [hld]⟩
    · rw [if_neg hld]
      have hl2 : l < t.dst := by
        have : l < t.dst + 1 := hl
        omega
      obtain ⟨q1, v1, a1, a2, a3⟩ := hK.moved l hl2
      have hne : q1 ≠ q := by
        rintro rfl
        rw [hv] at a2
        cases a2
        rw [hvl] at a3
        cases a3
        omega
      exact ⟨q1, v1, a1, by rw [hother q1 hne]; exact a2, a3⟩
  · intro l q1 hl1 hl2 hq1
    show ∃ v1, partial_load s2 q1 = .ok v1 ∧ v1.link = some l
    have hq2 : s2.tracks[l]? = some (some q1) := hq1
    rw [htracks, if_neg (by omega)] at hq2
    obtain ⟨v1, a1, a2⟩ := hK.rest l q1 (by omega) hl2 hq2
    have hne : q1 ≠ q := by
      rintro rfl
      rw [hv] at a1
      cases a1
      rw [hvl] at a2
      cases a2
      omega
    exact ⟨v1, by rw [hother q1 hne]; exact a1, a2⟩
  · intro q1 v1 l hq1 hl
    show s2.tracks[l]? = some (some q1) ∧
      (l < t.dst + 1 ∨ (i + 1 ≤ l ∧ (l : Int) < s.active_tracks))
    have hq2 : partial_load s2 q1 = .ok v1 := hq1
    rw [htracks]
    by_cases hne : q1 = q
    · subst hne
      rw [hsame] at hq2
      cases hq2
      cases hl
      rw [if_pos rfl]
      exact ⟨rfl, Or.inl (by omega)⟩
    · rw [hother q1 hne] at hq2
      obtain ⟨a1, a2⟩ := hK.links q1 v1 l hq2 hl
      have hli : l ≠ i := by
        rintro rfl
        rw [hcell] at a1
        cases a1
        exact hne rfl
      have hld : l ≠ t.dst := by
        rcases a2 with h1 | h1
        · omega
        · omega
      rw [if_neg hld]
      refine ⟨a1, ?_⟩
      rcases a2 with h1 | h1
      · exact Or.inl (by omega)
      · exact Or.inr ⟨by omega, h1.2⟩

/-- An iteration of the loop of `update_tracks` keeps the bookkeeping of the
links. -/
theorem compact_track_links (s : sas_synthesizer_s) (i : Nat) (t t1 : tracks_state)
    (hi : (i : Int) < s.active_tracks) (h : compact_track i t = .ok t1)
    (hK : compact_links s i t) : compact_links s (i + 1) t1 := by
  unfold compact_track at h
  simp only [bind_ok_iff] at h
  obtain ⟨cell, hcell, h⟩ := h
  rw [array_get_eq_ok] at hcell
  cases cell with
  | none =>
    simp only [pure, Except.pure, Except.ok.injEq] at h
    subst h
    have hdst := hK.dst_le
    refine
      { dst_le := by show t.dst ≤ i + 1; omega
        closed := ?_
        active := hK.active
        allocated := hK.allocated
        shape := hK.shape
        moved := hK.moved
        rest := fun l q hl1 hl2 hq => hK.rest l q (by omega) hl2 hq
        links := ?_ }
    · show t.closed_tracks + 1 = ((i + 1 : Nat) : Int) - (t.dst : Int)
      rw [hK.closed]
      push_cast
      ring
    · intro q v l hq hl
      obtain ⟨a1, a2⟩ := hK.links q v l hq hl
      refine ⟨a1, ?_⟩
      rcases a2 with h1 | h1
      · exact Or.inl h1
      · refine Or.inr ⟨?_, h1.2⟩
        have hli : l ≠ i := by
          rintro rfl
          have a3 : t.s.tracks[l]? = some (some q) := a1
          rw [hcell] at a3
          cases a3
        omega
  | some q =>
    simp only [bind_ok_iff] at h
    obtain ⟨v, hv, h⟩ := h
    split_ifs at h with h1 h2
    · simp only [bind_ok_iff] at h
      obtain ⟨y, hy, -⟩ := h
      cases hy
    · simp only [bind_ok_iff, pure, Except.pure, Except.ok.injEq] at h
      obtain ⟨t2, -, y, rfl, tr, htr, s2, hs2, rfl⟩ := h
      exact compact_move_links s i t q v
        { t.s with tracks2 := t2, audible_tracks := t.s.audible_tracks + 1 } s2 tr hK hi hcell
        hv rfl rfl rfl rfl htr hs2
    · simp only [bind_ok_iff, pure, Except.pure, Except.ok.injEq] at h
      obtain ⟨y, rfl, tr, htr, s2, hs2, rfl⟩ := h
      exact compact_move_links s i t q v t.s s2 tr hK hi hcell hv rfl rfl rfl rfl htr hs2

/-- The function `update_tracks` keeps the bookkeeping of the links. -/
theorem update_tracks_links (c : libc) (s s1 : sas_synthesizer_s) (hI : link_inv s)
    (h : update_tracks c s = .ok s1) : link_inv s1 := by
  unfold update_tracks at h
  simp only [bind_ok_iff, pure, Except.pure, Except.ok.injEq] at h
  obtain ⟨st, hst, rfl⟩ := h
  have h0 := hI.active_range.1
  have hn : ((s.active_tracks.toNat : Nat) : Int) = s.active_tracks := Int.toNat_of_nonneg h0
  have hK := for_loop_preserves compact_track (compact_links s) s.active_tracks.toNat 0
    { s := { s with audible_tracks := 0 }, dst := 0, closed_tracks := 0 } st
    (fun j t t1 _ hj hb ht => compact_track_links s j t t1 (by omega) hb ht) hst
    { dst_le := le_refl _
      closed := by simp
      active := rfl
      allocated := rfl
      shape := fun id src hsrc => hI.shape id src hsrc
      moved := fun l hl => absurd hl (Nat.not_lt_zero l)
      rest := fun l q _ hl hq => hI.slots l q hl hq
      links := fun q v l hq hl => by
        obtain ⟨a1, a2⟩ := hI.links q v l hq hl
        exact ⟨a2, Or.inr ⟨Nat.zero_le _, a1⟩⟩ }
  rw [Nat.zero_add] at hK
  have hdst := hK.dst_le
  have hact : st.s.active_tracks - st.closed_tracks = (st.dst : Int) := by
    rw [hK.active, hK.closed]
    omega
  refine ⟨fun id src hsrc => hK.shape id src hsrc, ?_, ?_, ?_⟩
  · show 0 ≤ st.s.active_tracks - st.closed_tracks ∧
      st.s.active_tracks - st.closed_tracks ≤ st.s.allocated
    rw [hact, hK.allocated]
    have := hI.active_range.2
    omega
  · intro q v l hq hl
    show (l : Int) < st.s.active_tracks - st.closed_tracks ∧ st.s.tracks[l]? = some (some q)
    rw [hact]
    obtain ⟨a1, a2⟩ := hK.links q v l hq hl
    refine ⟨?_, a1⟩
    rcases a2 with h1 | h1
    · omega
    · omega
  · intro l q hl hq
    have hl2 : (l : Int) < st.s.active_tracks - st.closed_tracks := hl
    rw [hact] at hl2
    obtain ⟨q1, v1, a1, a2, a3⟩ := hK.moved l (by omega)
    have hq2 : st.s.tracks[l]? = some (some q) := hq
    rw [a1] at hq2
    cases hq2
    exact ⟨v1, a2, a3⟩

theorem foldr_max_ge (l : List Nat) (x : Nat) (hx : x ∈ l) : x ≤ l.foldr max 0 := by
  induction l with
  | nil => cases hx
  | cons y ys ih =>
    rcases List.mem_cons.mp hx with rfl | h
    · exact le_max_left _ _
    · exact le_trans (ih h) (le_max_right _ _)

/-- The address that `malloc` gives to a new source is the address of no
source of the synthesizer. -/
theorem source_malloc_fresh (s : sas_synthesizer_s) (src : sas_source_s) :
    source_load s (source_malloc s) ≠ .ok src := by
  intro h
  have hid := source_load_id s _ src h
  unfold source_load at h
  cases hf : s.sources.find? (fun x => decide (x.id = source_malloc s)) with
  | none =>
    rw [hf] at h
    cases h
  | some w =>
    rw [hf] at h
    have hw : w = src := by
      cases h
      rfl
    subst hw
    have hmem := List.mem_of_find?_eq_some hf
    have hle := foldr_max_ge (s.sources.map (fun x => x.id)) w.id
      (List.mem_map.mpr ⟨w, hmem, rfl⟩)
    unfold source_malloc at hid
    omega

/-- A source made by `sas_synthesizer_source_make` has no linked partial, and
the bookkeeping of the links holds with it. -/
theorem source_make_links (c : libc) (g g1 : globals) (s s1 : sas_synthesizer_s)
    (pos : sas_position_s) (update : sas_update_callback_t) (call_data id : Nat)
    (hI : link_inv s)
    (h : sas_synthesizer_source_make c g s pos update call_data = .ok (g1, s1, id)) :
    link_inv s1 := by
  unfold sas_synthesizer_source_make at h
  split_ifs at h with h0
  simp only [bind_ok_iff] at h
  obtain ⟨r, -, h⟩ := h
  simp only [pure, Except.pure, Except.ok.injEq, Prod.mk.injEq] at h
  obtain ⟨-, rfl, -⟩ := h
  have hfresh : ∀ (i : Nat) (p : partial_s),
      (List.replicate MAX_PARTIALS_PER_SOURCE
        ({ source := source_malloc s, link := none, a := 0, f := 440,
           aenv := { x0 := 0, x1 := 0, x2 := 0, x3 := 0 },
           fenv := { x0 := 440, x1 := 440, x2 := 440, x3 := 440 },
           state := 0, v1 := 0, v2 := 0 } : partial_s))[i]? = some p → p.link = none := by
    intro i p hp
    rw [List.getElem?_replicate] at hp
    split_ifs at hp
    cases hp
    rfl
  refine ⟨?_, hI.active_range, ?_, ?_⟩
  · intro q v hv
    rcases source_load_cons _ _ q v hv with rfl | hv2
    · refine
        { tracks_length := List.length_replicate _ _
          active_range := ⟨le_refl _, (by decide : (0 : Int) ≤ (MAX_PARTIALS_PER_SOURCE : Int))⟩
          linked_range := ⟨le_refl _, (by decide : (0 : Int) ≤ (MAX_PARTIALS_PER_SOURCE : Int))⟩
          prefix_linked := ?_
          young := ?_
          dying := ?_ }
      · intro i p hp
        have hn := hfresh i p hp
        constructor
        · intro hne
          exact absurd hn hne
        · intro hlt
          have : (i : Int) < 0 := hlt
          omega
      · intro i j p q hi hij hj
        have : (j : Int) < 0 := hj
        omega
      · intro i j p q hi hij hj
        have : (j : Int) < 0 := hj
        omega
    · exact hI.shape q v hv2
  · intro q v l hq hl
    obtain ⟨src1, a1, a2⟩ := (partial_load_iff _ q v).mp hq
    rcases source_load_cons _ _ q.source src1 a1 with rfl | hv2
    · have := hfresh q.index v a2
      rw [this] at hl
      cases hl
    · exact hI.links q v l ((partial_load_iff s q v).mpr ⟨src1, hv2, a2⟩) hl
  · intro l q hl hq
    obtain ⟨v, a1, a2⟩ := hI.slots l q hl hq
    obtain ⟨src1, b1, b2⟩ := (partial_load_iff s q v).mp a1
    refine ⟨v, (partial_load_iff _ q v).mpr ⟨src1, ?_, b2⟩, a2⟩
    have hne : ¬ source_malloc s = q.source := by
      intro he
      rw [← he] at b1
      exact source_malloc_fresh s src1 b1
    unfold source_load at b1 ⊢
    rw [List.find?_cons_of_neg _ (by simpa using hne)]
    exact b1

theorem link_inv_no_source (s : sas_synthesizer_s) (h0 : s.sources = [])
    (h1 : s.active_tracks = 0) (h2 : 0 ≤ s.allocated) : link_inv s := by
  have hload : ∀ id src, source_load s id ≠ .ok src := by
    intro id src h
    unfold source_load at h
    rw [h0] at h
    cases h
  refine ⟨fun id src h => absurd h (hload id src), by rw [h1]; exact ⟨le_refl _, h2⟩, ?_, ?_⟩
  · intro q v l hq
    obtain ⟨src, a1, -⟩ := (partial_load_iff s q v).mp hq
    exact absurd a1 (hload _ _)
  · intro l q hl
    rw [h1] at hl
    omega

theorem synthesizer_make_links (c : libc) (g g1 : globals) (tv_sec : Nat)
    (s : sas_synthesizer_s) (h : sas_synthesizer_make c g tv_sec = .ok (g1, s)) :
    link_inv s := by
  unfold sas_synthesizer_make at h
  simp only [bind_ok_iff, pure, Except.pure, Except.ok.injEq, Prod.mk.injEq] at h
  obtain ⟨r1, -, r2, -, -, rfl⟩ := h
  exact link_inv_no_source _ rfl rfl
    (by decide : (0 : Int) ≤ (MAX_PARTIALS_PER_SYNTH : Int))

/-- C35: the bookkeeping of the links `link_inv` holds for a synthesizer that
`sas_synthesizer_make` returns, and where it holds it holds again after
`sas_synthesizer_source_make`, after `update_source` and after
`update_tracks`.  Where it holds, the counters `active_tracks` and
`linked_tracks` of every source are between 0 and `MAX_PARTIALS_PER_SOURCE`,
the partials of the source with a link are those of index below
`linked_tracks`, the link of each of them designates a cell below
`active_tracks` of the active-track array that holds this partial, and
`active_tracks` of the synthesizer is between 0 and `allocated`. -/
theorem link_bookkeeping (c : libc) (g : globals) (s : sas_synthesizer_s)
    (hI : link_inv s) :
    (∀ id src, source_load s id = .ok src →
      (0 ≤ src.active_tracks ∧ src.active_tracks ≤ MAX_PARTIALS_PER_SOURCE) ∧
      (0 ≤ src.linked_tracks ∧ src.linked_tracks ≤ MAX_PARTIALS_PER_SOURCE) ∧
      (∀ (i : Nat) (p : partial_s), src.tracks[i]? = some p →
        (p.link ≠ none ↔ (i : Int) < src.linked_tracks)) ∧
      (∀ i : Nat, (i : Int) < src.linked_tracks →
        ∃ p l, src.tracks[i]? = some p ∧ p.link = some l ∧ (l : Int) < s.active_tracks ∧
          s.tracks[l]? = some (some ⟨id, i⟩))) ∧
    (0 ≤ s.active_tracks ∧ s.active_tracks ≤ s.allocated) ∧
    (∀ id g2 s2, update_source c g s id = .ok (g2, s2) → link_inv s2) ∧
    (∀ s1, update_tracks c s = .ok s1 → link_inv s1) ∧
    (∀ pos update call_data g1 s1 id,
      sas_synthesizer_source_make c g s pos update call_data = .ok (g1, s1, id) →
      link_inv s1) ∧
    (∀ g0 tv_sec g1 s0, sas_synthesizer_make c g0 tv_sec = .ok (g1, s0) → link_inv s0) := by
  refine ⟨?_, hI.active_range, fun id g2 s2 h => update_source_links c g g2 s s2 id hI h,
    fun s1 h => update_tracks_links c s s1 hI h,
    fun pos update call_data g1 s1 id h =>
      source_make_links c g g1 s s1 pos update call_data id hI h,
    fun g0 tv_sec g1 s0 h => synthesizer_make_links c g0 g1 tv_sec s0 h⟩
  intro id src hsrc
  have hS := hI.shape id src hsrc
  refine ⟨hS.active_range, hS.linked_range, hS.prefix_linked, ?_⟩
  intro i hi
  have hmax : (MAX_PARTIALS_PER_SOURCE : Int) = 1024 := rfl
  have hlen : i < src.tracks.length := by
    have h1 := hS.tracks_length
    have h2 := hS.linked_range.2
    rw [hmax] at h2
    have h3 : MAX_PARTIALS_PER_SOURCE = 1024 := rfl
    omega
  obtain ⟨p, hp⟩ : ∃ p, src.tracks[i]? = some p := ⟨_, List.getElem?_eq_getElem hlen⟩
  have hlinked := (hS.prefix_linked i p hp).mpr hi
  obtain ⟨l, hl⟩ := Option.ne_none_iff_exists'.mp hlinked
  obtain ⟨a1, a2⟩ := hI.links ⟨id, i⟩ p l ((partial_load_iff s ⟨id, i⟩ p).mpr ⟨src, hsrc, hp⟩) hl
  exact ⟨p, l, hp, hl, a1, a2⟩

/-- Witness for C35: `empty_synth`, which has no source, and the first source
made on it. -/
theorem link_bookkeeping_witness :
    link_inv empty_synth ∧
      ∃ g1 s1 id, sas_synthesizer_source_make libc_rational globals_start empty_synth ⟨0, 0, 0⟩
          decline 1 = .ok (g1, s1, id) ∧ link_inv s1 := by
  have h0 : link_inv empty_synth := link_inv_no_source _ rfl rfl (by decide)
  obtain ⟨r, hr⟩ := exists_of_isOk (sas_synthesizer_source_make libc_rational globals_start
    empty_synth ⟨0, 0, 0⟩ decline 1) (by decide!)
  obtain ⟨g1, s1, id⟩ := r
  exact ⟨h0, g1, s1, id, hr,
    (link_bookkeeping libc_rational globals_start empty_synth h0).2.2.2.2.1
      ⟨0, 0, 0⟩ decline 1 g1 s1 id hr⟩

theorem link_inv_fields (s s1 : sas_synthesizer_s) (hI : link_inv s)
    (h1 : s1.sources = s.sources) (h2 : s1.tracks = s.tracks)
    (h3 : s1.active_tracks = s.active_tracks) (h4 : s1.allocated = s.allocated) :
    link_inv s1 := by
  have hl : ∀ id, source_load s1 id = source_load s id := fun id =>
    source_load_congr s1 s id h1
  have hp : ∀ q, partial_load s1 q = partial_load s q := fun q =>
    partial_load_congr s1 s q h1
  refine ⟨?_, ?_, ?_, ?_⟩
  · intro id src h
    rw [hl] at h
    exact hI.shape id src h
  · rw [h3, h4]
    exact hI.active_range
  · intro q v l hq hv
    rw [hp] at hq
    rw [h3, h2]
    exact hI.links q v l hq hv
  · intro l q hl1 hq
    rw [h3] at hl1
    rw [h2] at hq
    rw [hp]
    exact hI.slots l q hl1 hq

theorem link_inv_partial_store (s s1 : sas_synthesizer_s) (p : partial_t) (v0 v : partial_s)
    (hI : link_inv s) (h0 : partial_load s p = .ok v0) (hl : v.link = v0.link)
    (hs : v.state = v0.state) (h : partial_store s p v = .ok s1) : link_inv s1 := by
  obtain ⟨f1, -, f3, -, -, f6, -⟩ := partial_store_fields s s1 p v h
  have hsame := partial_load_store_same s s1 p v h
  have hother := fun q hq => partial_load_store_other s s1 p q v h hq
  have hback : ∀ q w1, partial_load s1 q = .ok w1 →
      ∃ w, partial_load s q = .ok w ∧ w1.link = w.link := by
    intro q w1 hq
    by_cases e : q = p
    · subst e
      rw [hsame] at hq
      cases hq
      exact ⟨v0, h0, hl⟩
    · rw [hother q e] at hq
      exact ⟨w1, hq, rfl⟩
  have hforth : ∀ q w, partial_load s q = .ok w →
      ∃ w1, partial_load s1 q = .ok w1 ∧ w1.link = w.link := by
    intro q w hq
    by_cases e : q = p
    · subst e
      rw [h0] at hq
      cases hq
      exact ⟨v, hsame, hl⟩
    · exact ⟨w, (hother q e).trans hq, rfl⟩
  refine ⟨?_, ?_, ?_, ?_⟩
  · intro id src1 h1
    obtain ⟨src, a1, a2⟩ := partial_store_source s s1 p v h id src1 h1
    have hI0 := hI.shape id src a1
    by_cases e : id = p.source
    · rw [if_pos e] at a2
      subst a2
      obtain ⟨src0, b1, b2⟩ := (partial_load_iff s p v0).mp h0
      rw [← e, a1] at b1
      cases b1
      have hlt := getElem?_lt _ _ _ b2
      refine source_inv_pointwise src _ hI0 rfl rfl (List.length_set _ _ _) ?_
      intro i p1 hp1
      rw [getElem?_set_cases _ _ _ _ hlt] at hp1
      split_ifs at hp1 with hi
      · cases hp1
        subst hi
        exact ⟨v0, b2, hs, by rw [hl]⟩
      · exact ⟨p1, hp1, rfl, Iff.rfl⟩
    · rw [if_neg e] at a2
      subst a2
      exact hI0
  · rw [f3, f6]
    exact hI.active_range
  · intro q w1 l hq hw
    obtain ⟨w, b1, b2⟩ := hback q w1 hq
    rw [f3, f1]
    exact hI.links q w l b1 (b2 ▸ hw)
  · intro l q hl1 hq
    rw [f3] at hl1
    rw [f1] at hq
    obtain ⟨w, b1, b2⟩ := hI.slots l q hl1 hq
    obtain ⟨w1, d1, d2⟩ := hforth q w b1
    exact ⟨w1, d1, d2.trans b2⟩

theorem add_partial_to_mask_allocated (c : libc) (g g1 : globals) (s s1 : sas_synthesizer_s)
    (p : partial_t) (r : Int) (h : add_partial_to_mask c g s p = .ok (g1, s1, r)) :
    s1.allocated = s.allocated := by
  unfold add_partial_to_mask at h
  simp only [bind_ok_iff] at h
  obtain ⟨⟨s0, mp⟩, h1, new_mp, h2, ⟨g2, mask⟩, h3, lo, h4, v_lowf, h5, hi, h6, v_highf, h7,
    mask1, h8, h9⟩ := h
  simp only [pure, Except.pure, Except.ok.injEq, Prod.mk.injEq] at h9
  obtain ⟨-, rfl, -⟩ := h9
  unfold masking_partial_make at h1
  by_cases hu : s.pool.used = s.pool.allocated
  · simp only [hu, if_true] at h1
    split_ifs at h1 with hneg
    simp only [bind_ok_iff, pure, Except.pure, Except.ok.injEq, Prod.mk.injEq] at h1
    obtain ⟨v, -, src, -, ps, -, rfl, -⟩ := h1
    rfl
  · simp only [hu, if_false] at h1
    split_ifs at h1 with hneg
    simp only [bind_ok_iff, pure, Except.pure, Except.ok.injEq, Prod.mk.injEq] at h1
    obtain ⟨v, -, src, -, ps, -, rfl, -⟩ := h1
    rfl

theorem mask_track_links (c : libc) (i : Nat) (t t1 : globals × sas_synthesizer_s)
    (h : mask_track c i t = .ok t1) (hI : link_inv t.2) : link_inv t1.2 := by
  unfold mask_track at h
  simp only [bind_ok_iff] at h
  obtain ⟨cell, -, h⟩ := h
  cases cell with
  | none => cases h
  | some p =>
    simp only [bind_ok_iff] at h
    obtain ⟨⟨ga, sa, r⟩, hadd, h⟩ := h
    obtain ⟨e1, e2, -, e4, -, -⟩ := add_partial_to_mask_fields c t.1 ga t.2 sa p r hadd
    have e5 : sa.allocated = t.2.allocated := add_partial_to_mask_allocated c t.1 ga t.2 sa p r hadd
    have f1 : link_inv sa := link_inv_fields _ _ hI e1 e2 e4 e5
    unfold mark_masked at h
    simp only [] at h
    split_ifs at h with hr
    · simp only [bind_ok_iff, pure, Except.pure, Except.ok.injEq] at h
      obtain ⟨v0, hv0, s2, hs2, rfl⟩ := h
      have f2 : link_inv { sa with masked_tracks := sa.masked_tracks + 1 } :=
        link_inv_fields _ _ f1 rfl rfl rfl rfl
      exact link_inv_partial_store _ _ p v0
        { v0 with aenv := { v0.aenv with x3 := BELOW_MIN_AMP } } f2 hv0 rfl rfl hs2
    · simp only [Except.ok.injEq] at h
      subst h
      exact f1

theorem update_mask_links (c : libc) (g g1 : globals) (s s1 : sas_synthesizer_s)
    (h : update_mask c g s = .ok (g1, s1)) (hI : link_inv s) : link_inv s1 := by
  unfold update_mask at h
  simp only [bind_ok_iff, pure, Except.pure, Except.ok.injEq, Prod.mk.injEq] at h
  obtain ⟨s0, hreset, ⟨g2, s2⟩, hloop, -, rfl⟩ := h
  obtain ⟨e1, e2, -, e4, -⟩ := reset_mask_fields s s0 hreset
  have e5 : s0.allocated = s.allocated := by
    unfold reset_mask at hreset
    simp only [bind_ok_iff, pure, Except.pure, Except.ok.injEq] at hreset
    obtain ⟨m, -, rfl⟩ := hreset
    rfl
  have f0 : link_inv { s0 with masked_tracks := 0 } := link_inv_fields _ _ hI e1 e2 e4 e5
  have k : link_inv s2 :=
    for_loop_preserves _ (fun _ (t : globals × sas_synthesizer_s) => link_inv t.2) _ _ _ _
      (fun j t t1 _ _ hb ht => mask_track_links c j t t1 hb ht) hloop f0
  exact link_inv_fields _ _ k rfl rfl rfl rfl

theorem synthesize_track_links (c : libc) (i : Nat) (t t1 : sas_synthesizer_s × List ℚ)
    (h : synthesize_track c i t = .ok t1) (hI : link_inv t.1) : link_inv t1.1 := by
  unfold synthesize_track at h
  simp only [bind_ok_iff] at h
  obtain ⟨cell, -, h⟩ := h
  cases cell with
  | none => cases h
  | some p =>
    simp only [bind_ok_iff, pure, Except.pure, Except.ok.injEq] at h
    obtain ⟨v, hv, src, -, ⟨v2, b2⟩, hsteps, s2, hs2, rfl⟩ := h
    have hrot : { v2 with v1 := 0, v2 := 0 } = { v with v1 := 0, v2 := 0 } :=
      synthesize_steps_rotated c _ _ _ _ _ _ _ _ hsteps
    exact link_inv_partial_store _ _ p v v2 hI hv (congrArg (fun x => x.link) hrot)
      (congrArg (fun x => x.state) hrot) hs2

theorem synthesis_links (c : libc) (n : Nat) (t t1 : sas_synthesizer_s × List ℚ)
    (h : for_loop (synthesize_track c) n 0 t = .ok t1) (hI : link_inv t.1) : link_inv t1.1 :=
  for_loop_preserves _ (fun _ (x : sas_synthesizer_s × List ℚ) => link_inv x.1) _ _ _ _
    (fun j x x1 _ _ hb hx => synthesize_track_links c j x x1 hb hx) h hI

theorem update_sources_loop_links (c : libc) (n : Nat) (cur : Option Nat) (g g1 : globals)
    (s s1 : sas_synthesizer_s) (h : update_sources_loop c n cur g s = .ok (g1, s1))
    (hI : link_inv s) : link_inv s1 := by
  induction n generalizing cur g s with
  | zero =>
    cases cur with
    | none =>
      simp only [update_sources_loop, Except.ok.injEq, Prod.mk.injEq] at h
      rw [← h.2]
      exact hI
    | some x => simp [update_sources_loop] at h
  | succ n ih =>
    cases cur with
    | none =>
      simp only [update_sources_loop, Except.ok.injEq, Prod.mk.injEq] at h
      rw [← h.2]
      exact hI
    | some x =>
      simp only [update_sources_loop, bind_ok_iff] at h
      obtain ⟨⟨g2, s2⟩, h1, nxt, -, h3⟩ := h
      exact ih nxt g2 s2 h3 (update_source_links c g g2 s s2 x hI h1)

theorem synthesize_links (c : libc) (g g1 : globals) (s s1 : sas_synthesizer_s)
    (buffer buffer1 : List ℚ)
    (h : sas_synthesizer_synthesize c g s buffer = .ok (g1, s1, buffer1)) (hI : link_inv s) :
    link_inv s1 := by
  unfold sas_synthesizer_synthesize at h
  simp only [bind_ok_iff, pure, Except.pure, Except.ok.injEq, Prod.mk.injEq] at h
  obtain ⟨b0, -, ⟨g2, s2⟩, h2, s3, h3, ⟨g4, s4⟩, h4, ⟨s5, b5⟩, h5, -, rfl, -⟩ := h
  have k2 : link_inv s2 := update_sources_loop_links c _ _ g g2 s s2 h2 hI
  have k3 := update_tracks_links c s2 s3 k2 h3
  have k4 := update_mask_links c g2 g4 s3 s4 h4 k3
  exact synthesis_links c _ (s4, b0) (s5, b5) h5 k4

theorem phase_kept_refl (v : partial_s) : phase_kept v v := fun h => ⟨h, rfl⟩

theorem phase_kept_trans (a b d : partial_s) (h1 : phase_kept a b) (h2 : phase_kept b d) :
    phase_kept a d := by
  intro hd
  obtain ⟨hb, e2⟩ := h2 hd
  obtain ⟨ha, e1⟩ := h1 hb
  exact ⟨ha, e2.trans e1⟩

theorem unit_phases_follow (s s1 : sas_synthesizer_s) (h : partials_follow phase_kept s s1)
    (hU : unit_phases s) : unit_phases s1 := by
  intro q v1 hq hl
  obtain ⟨v, hv, hR⟩ := h.2 q v1 hq
  obtain ⟨a1, a2⟩ := hR hl
  rw [a2]
  exact hU q v hv a1

theorem partials_follow_mono (R R1 : partial_s → partial_s → Prop)
    (hR : ∀ v v1, R v v1 → R1 v v1) (s s1 : sas_synthesizer_s) (h : partials_follow R s s1) :
    partials_follow R1 s s1 :=
  ⟨h.1, fun q v1 hq => by
    obtain ⟨v, hv, hr⟩ := h.2 q v1 hq
    exact ⟨v, hv, hR v v1 hr⟩⟩

theorem update_mask_phases (c : libc) (g g1 : globals) (s s1 : sas_synthesizer_s)
    (h : update_mask c g s = .ok (g1, s1)) (hU : unit_phases s) : unit_phases s1 := by
  refine unit_phases_follow s s1 (partials_follow_mono only_newest_amplitude phase_kept ?_ s s1
    (update_mask_follow c g g1 s s1 h)) hU
  intro v v1 hr hl
  have e1 : v1.link = v.link := by rw [hr.1]
  have e2 : v1.v1 = v.v1 := by rw [hr.1]
  have e3 : v1.v2 = v.v2 := by rw [hr.1]
  rw [e2, e3]
  exact ⟨by rw [← e1]; exact hl, rfl⟩

theorem synthesize_track_phases (c : libc) (hpyth : ∀ x : ℚ, c.cos x ^ 2 + c.sin x ^ 2 = 1)
    (i : Nat) (t t1 : sas_synthesizer_s × List ℚ)
    (h : synthesize_track c i t = .ok t1) : partials_follow phase_kept t.1 t1.1 := by
  unfold synthesize_track at h
  simp only [bind_ok_iff] at h
  obtain ⟨cell, -, h⟩ := h
  cases cell with
  | none => cases h
  | some p =>
    simp only [bind_ok_iff, pure, Except.pure, Except.ok.injEq] at h
    obtain ⟨v, hv, src, -, ⟨v2, b2⟩, hsteps, s2, hs2, rfl⟩ := h
    obtain ⟨m1, m2⟩ := synthesize_steps_magnitude c _ _ _ _ hpyth _ _ _ _ hsteps
    have e1 : v2.link = v.link := congrArg (fun x => x.link) m2
    exact partials_follow_store phase_kept phase_kept_refl _ _ p v v2 hv
      (fun hl => ⟨by rw [← e1]; exact hl, m1⟩) hs2

theorem synthesis_phases (c : libc) (hpyth : ∀ x : ℚ, c.cos x ^ 2 + c.sin x ^ 2 = 1)
    (n : Nat) (t t1 : sas_synthesizer_s × List ℚ)
    (h : for_loop (synthesize_track c) n 0 t = .ok t1) (hU : unit_phases t.1) :
    unit_phases t1.1 := by
  refine unit_phases_follow t.1 t1.1 ?_ hU
  refine for_loop_preserves _ (fun _ (x : sas_synthesizer_s × List ℚ) =>
    partials_follow phase_kept t.1 x.1) _ _ _ _ ?_ h (partials_follow_refl _ phase_kept_refl _)
  intro j x x1 _ _ hb hx
  exact partials_follow_trans _ phase_kept_trans _ _ _ hx
    (synthesize_track_phases c hpyth j x x1 hb)

theorem compact_track_phases (s : sas_synthesizer_s) (i : Nat) (t t1 : tracks_state)
    (hi : (i : Int) < s.active_tracks) (h : compact_track i t = .ok t1)
    (hK : compact_links s i t) : partials_follow phase_kept t.s t1.s := by
  unfold compact_track at h
  simp only [bind_ok_iff] at h
  obtain ⟨cell, hcell, h⟩ := h
  rw [array_get_eq_ok] at hcell
  cases cell with
  | none =>
    simp only [pure, Except.pure, Except.ok.injEq] at h
    subst h
    exact partials_follow_refl _ phase_kept_refl _
  | some p =>
    simp only [bind_ok_iff] at h
    obtain ⟨v, hv, h⟩ := h
    obtain ⟨v0, a1, a2⟩ := hK.rest i p (le_refl _) hi hcell
    rw [hv] at a1
    cases a1
    have key : ∀ s1 : sas_synthesizer_s, s1.sources = t.s.sources →
        (∃ tr s2, partial_store { s1 with tracks := tr } p { v with link := some t.dst } = .ok s2 ∧
          t1.s = s2) → partials_follow phase_kept t.s t1.s := by
      intro s1 e1 ⟨tr, s2, hs2, e2⟩
      rw [e2]
      have f1 : partials_follow phase_kept t.s { s1 with tracks := tr } :=
        partials_follow_sources _ phase_kept_refl _ _ e1
      have hv2 : partial_load { s1 with tracks := tr } p = .ok v :=
        (partial_load_congr _ t.s p e1).trans hv
      exact partials_follow_trans _ phase_kept_trans _ _ _ f1
        (partials_follow_store _ phase_kept_refl _ _ p v { v with link := some t.dst } hv2
          (fun _ => ⟨by rw [a2]; exact Option.some_ne_none _, rfl⟩) hs2)
    split_ifs at h with h1 h2
    · simp only [bind_ok_iff] at h
      obtain ⟨y, hy, -⟩ := h
      cases hy
    · simp only [bind_ok_iff, pure, Except.pure, Except.ok.injEq] at h
      obtain ⟨t2, -, y, rfl, tr, -, s2, hs2, rfl⟩ := h
      exact key { t.s with tracks2 := t2, audible_tracks := t.s.audible_tracks + 1 } rfl
        ⟨tr, s2, hs2, rfl⟩
    · simp only [bind_ok_iff, pure, Except.pure, Except.ok.injEq] at h
      obtain ⟨y, rfl, tr, -, s2, hs2, rfl⟩ := h
      exact key t.s rfl ⟨tr, s2, hs2, rfl⟩

theorem update_tracks_phases (c : libc) (s s1 : sas_synthesizer_s) (hI : link_inv s)
    (hU : unit_phases s) (h : update_tracks c s = .ok s1) : unit_phases s1 := by
  unfold update_tracks at h
  simp only [bind_ok_iff, pure, Except.pure, Except.ok.injEq] at h
  obtain ⟨st, hst, rfl⟩ := h
  have h0 := hI.active_range.1
  have hn : ((s.active_tracks.toNat : Nat) : Int) = s.active_tracks := Int.toNat_of_nonneg h0
  have hK := for_loop_preserves compact_track
    (fun j t => compact_links s j t ∧ partials_follow phase_kept s t.s) s.active_tracks.toNat 0
    { s := { s with audible_tracks := 0 }, dst := 0, closed_tracks := 0 } st
    (fun j t t1 _ hj hb ht =>
      ⟨compact_track_links s j t t1 (by omega) hb ht.1,
        partials_follow_trans _ phase_kept_trans _ _ _ ht.2
          (compact_track_phases s j t t1 (by omega) hb ht.1)⟩) hst
    ⟨{ dst_le := le_refl _
       closed := by simp
       active := rfl
       allocated := rfl
       shape := fun id src hsrc => hI.shape id src hsrc
       moved := fun l hl => absurd hl (Nat.not_lt_zero l)
       rest := fun l q _ hl hq => hI.slots l q hl hq
       links := fun q v l hq hl => by
         obtain ⟨a1, a2⟩ := hI.links q v l hq hl
         exact ⟨a2, Or.inr ⟨Nat.zero_le _, a1⟩⟩ },
      partials_follow_sources _ phase_kept_refl _ _ rfl⟩
  exact unit_phases_follow s _ (partials_follow_trans _ phase_kept_trans _ _ _ hK.2
    (partials_follow_sources _ phase_kept_refl _ _ rfl)) hU

theorem unit_tracks_set (ts : List partial_s) (i : Nat) (p p1 : partial_s)
    (hU : unit_tracks ts) (hp : ts[i]? = some p)
    (h : p1.link ≠ none → p1.v1 ^ 2 + p1.v2 ^ 2 = 1) : unit_tracks (ts.set i p1) := by
  intro k q hq hl
  rw [getElem?_set_cases _ _ _ _ (getElem?_lt _ _ _ hp)] at hq
  split_ifs at hq with hk
  · cases hq
    exact h hl
  · exact hU k q hq hl

theorem continuing_harmonic_unit (c : libc) (hpyth : ∀ x : ℚ, c.cos x ^ 2 + c.sin x ^ 2 = 1)
    (i : Nat) (st st1 : update_state) (h : continuing_harmonic c i st = .ok st1)
    (hU : unit_tracks st.source.tracks) : unit_tracks st1.source.tracks := by
  obtain ⟨p, p1, hp, hsrc, -, -, -, -, -, -, hcase⟩ := continuing_harmonic_step c i st st1 h
  rw [hsrc]
  refine unit_tracks_set _ i p p1 hU hp ?_
  intro hl
  rcases hcase with ⟨-, e1, e2, e3, -⟩ | ⟨-, -, -, -, -, -, e2, e3, -⟩
  · rw [e2, e3]
    exact hU i p hp (by rw [← e1]; exact hl)
  · rw [e2, e3]
    exact hpyth _

theorem birth_of_harmonic_unit (i : Nat) (st st1 : update_state)
    (h : birth_of_harmonic i st = .ok st1) (hU : unit_tracks st.source.tracks) :
    unit_tracks st1.source.tracks := by
  obtain ⟨p, hp, rfl⟩ := birth_of_harmonic_step i st st1 h
  exact unit_tracks_set _ i p _ hU hp (fun hl => hU i p hp hl)

theorem death_of_harmonic_unit (i : Nat) (st st1 : update_state)
    (h : death_of_harmonic i st = .ok st1) (hU : unit_tracks st.source.tracks) :
    unit_tracks st1.source.tracks := by
  obtain ⟨p, hp, rfl⟩ := death_of_harmonic_step i st st1 h
  exact unit_tracks_set _ i p _ hU hp (fun hl => hU i p hp hl)

theorem dying_harmonic_unit (i : Nat) (st st1 : update_state)
    (h : dying_harmonic i st = .ok st1) (hU : unit_tracks st.source.tracks) :
    unit_tracks st1.source.tracks := by
  obtain ⟨p, hp, hcase⟩ := dying_harmonic_step i st st1 h
  rcases hcase with ⟨-, l, -, -, rfl⟩ | ⟨-, rfl⟩
  · exact unit_tracks_set _ i p _ hU hp (fun hl => absurd rfl hl)
  · exact unit_tracks_set _ i p _ hU hp (fun hl => hU i p hp hl)

theorem update_partials_unit (c : libc) (hpyth : ∀ x : ℚ, c.cos x ^ 2 + c.sin x ^ 2 = 1)
    (g : globals) (s : sas_synthesizer_s) (source : sas_source_s) (harmonics active : Int)
    (st : update_state) (h : update_partials c g s source harmonics active = .ok st)
    (hU : unit_tracks source.tracks) : unit_tracks st.source.tracks := by
  unfold update_partials at h
  simp only [bind_ok_iff, pure, Except.pure, Except.ok.injEq] at h
  obtain ⟨st1, h1, st2, h2, st3, h3, st4, h4, rfl⟩ := h
  have k1 := for_loop_preserves _ (fun _ (t : update_state) => unit_tracks t.source.tracks)
    _ _ _ _ (fun j t t1 _ _ hb ht => continuing_harmonic_unit c hpyth j t t1 hb ht) h1 hU
  have k2 := for_loop_preserves _ (fun _ (t : update_state) => unit_tracks t.source.tracks)
    _ _ _ _ (fun j t t1 _ _ hb ht => birth_of_harmonic_unit j t t1 hb ht) h2 k1
  have k3 := for_loop_preserves _ (fun _ (t : update_state) => unit_tracks t.source.tracks)
    _ _ _ _ (fun j t t1 _ _ hb ht => death_of_harmonic_unit j t t1 hb ht) h3 k2
  exact for_loop_preserves _ (fun _ (t : update_state) => unit_tracks t.source.tracks)
    _ _ _ _ (fun j t t1 _ _ hb ht => dying_harmonic_unit j t t1 hb ht) h4 k3

theorem update_source_phases (c : libc) (hpyth : ∀ x : ℚ, c.cos x ^ 2 + c.sin x ^ 2 = 1)
    (g g2 : globals) (s s2 : sas_synthesizer_s) (id : Nat) (hU : unit_phases s)
    (h : update_source c g s id = .ok (g2, s2)) : unit_phases s2 := by
  obtain ⟨src, r, st, hsrc, hr, hst, hcase⟩ := update_source_cases c g g2 s s2 id h
  obtain ⟨hid, -, -, -, -, -, -, hmap, -⟩ := harmonic_scan_fields c g s src r hr
  have hsid := source_load_id s id src hsrc
  have u0 : unit_tracks src.tracks := fun i p hp hl =>
    hU ⟨id, i⟩ p ((partial_load_iff s ⟨id, i⟩ p).mpr ⟨src, hsrc, hp⟩) hl
  have u1 : unit_tracks r.source.tracks := by
    intro i p hp hl
    have hm := congrArg (fun l => l[i]?) hmap
    simp only [List.getElem?_map, hp, Option.map_some'] at hm
    cases hq : src.tracks[i]? with
    | none => simp [hq] at hm
    | some q =>
      simp only [hq, Option.map_some', Option.some.injEq] at hm
      have e1 : p.link = q.link := congrArg (fun x => x.link) hm
      have e2 : p.v1 = q.v1 := congrArg (fun x => x.v1) hm
      have e3 : p.v2 = q.v2 := congrArg (fun x => x.v2) hm
      rw [e2, e3]
      exact u0 i q hq (by rw [← e1]; exact hl)
  have u2 := update_partials_unit c hpyth r.g s r.source r.harmonics r.active st hst u1
  have hfr := update_partials_frame c r.g s r.source r.harmonics r.active st hst
  have hsources : st.s.sources = s.sources := congrArg (fun x => x.sources) hfr.synth_fields
  have hstid : st.source.id = id := by
    rw [(loops_frame_source _ _ hfr).1]
    exact hid.trans hsid
  obtain ⟨f1, -, -, -, -, -, -, -, -, -, f11, -⟩ := step_source_fields st
  have hU1 : unit_phases (source_store st.s (step_source st)) := by
    intro q v hq hl
    obtain ⟨src1, a1, a2⟩ := (partial_load_iff _ q v).mp hq
    rw [source_load_store, source_load_congr st.s s q.source hsources] at a1
    cases hx : source_load s q.source with
    | error e => simp [hx, Except.map] at a1
    | ok x =>
      simp only [hx, Except.map, Except.ok.injEq] at a1
      split_ifs at a1 with hc
      · subst a1
        rw [f11] at a2
        exact u2 q.index v a2 hl
      · subst a1
        exact hU q v ((partial_load_iff s q v).mpr ⟨x, hx, a2⟩) hl
  rcases hcase with ⟨-, hz, hfree⟩ | ⟨-, -, rfl⟩
  · have hsrc1 : source_load st.s id = .ok src := by
      rw [source_load_congr st.s s id hsources]
      exact hsrc
    have hself : source_load (source_store st.s (step_source st)) id =
        .ok (step_source st) :=
      source_load_store_self st.s src (step_source st) id hsrc1 (by rw [f1, hstid, hsid])
    rw [f1, hstid] at hfree
    obtain ⟨d1, -⟩ := delayed_free_unlinked c _ _ _ _ id _ hself hz hfree
    intro q v hq hl
    obtain ⟨src1, a1, a2⟩ := (partial_load_iff _ q v).mp hq
    exact hU1 q v ((partial_load_iff _ q v).mpr
      ⟨src1, source_load_filter _ s2 id q.source src1 d1 a1, a2⟩) hl
  · exact hU1

theorem update_sources_loop_phases (c : libc)
    (hpyth : ∀ x : ℚ, c.cos x ^ 2 + c.sin x ^ 2 = 1) (n : Nat) (cur : Option Nat)
    (g g1 : globals) (s s1 : sas_synthesizer_s)
    (h : update_sources_loop c n cur g s = .ok (g1, s1)) (hU : unit_phases s) :
    unit_phases s1 := by
  induction n generalizing cur g s with
  | zero =>
    cases cur with
    | none =>
      simp only [update_sources_loop, Except.ok.injEq, Prod.mk.injEq] at h
      rw [← h.2]
      exact hU
    | some x => simp [update_sources_loop] at h
  | succ n ih =>
    cases cur with
    | none =>
      simp only [update_sources_loop, Except.ok.injEq, Prod.mk.injEq] at h
      rw [← h.2]
      exact hU
    | some x =>
      simp only [update_sources_loop, bind_ok_iff] at h
      obtain ⟨⟨g2, s2⟩, h1, nxt, -, h3⟩ := h
      exact ih nxt g2 s2 h3 (update_source_phases c hpyth g g2 s s2 x hU h1)

theorem synthesize_phases (c : libc) (hpyth : ∀ x : ℚ, c.cos x ^ 2 + c.sin x ^ 2 = 1)
    (g g1 : globals) (s s1 : sas_synthesizer_s) (buffer buffer1 : List ℚ)
    (h : sas_synthesizer_synthesize c g s buffer = .ok (g1, s1, buffer1)) (hI : link_inv s)
    (hU : unit_phases s) : unit_phases s1 := by
  unfold sas_synthesizer_synthesize at h
  simp only [bind_ok_iff, pure, Except.pure, Except.ok.injEq, Prod.mk.injEq] at h
  obtain ⟨b0, -, ⟨g2, s2⟩, h2, s3, h3, ⟨g4, s4⟩, h4, ⟨s5, b5⟩, h5, -, rfl, -⟩ := h
  have k2 : link_inv s2 := update_sources_loop_links c _ _ g g2 s s2 h2 hI
  have u2 : unit_phases s2 := update_sources_loop_phases c hpyth _ _ g g2 s s2 h2 hU
  have u3 := update_tracks_phases c s2 s3 k2 u2 h3
  have u4 := update_mask_phases c g2 g4 s3 s4 h4 u3
  exact synthesis_phases c hpyth _ (s4, b0) (s5, b5) h5 u4

theorem synthesize_blocks_phases (c : libc)
    (hpyth : ∀ x : ℚ, c.cos x ^ 2 + c.sin x ^ 2 = 1) (n : Nat)
    (st st1 : globals × sas_synthesizer_s × List ℚ)
    (h : synthesize_blocks c n st = .ok st1) (hI : link_inv st.2.1)
    (hU : unit_phases st.2.1) : link_inv st1.2.1 ∧ unit_phases st1.2.1 := by
  induction n generalizing st with
  | zero =>
    simp only [synthesize_blocks, Except.ok.injEq] at h
    subst h
    exact ⟨hI, hU⟩
  | succ n ih =>
    simp only [synthesize_blocks, bind_ok_iff] at h
    obtain ⟨⟨g2, s2, b2⟩, h1, h2⟩ := h
    exact ih (g2, s2, b2) h2 (synthesize_links c _ g2 _ s2 _ b2 h1 hI)
      (synthesize_phases c hpyth _ g2 _ s2 _ b2 h1 hI hU)

theorem source_make_phases (c : libc) (g g1 : globals) (s s1 : sas_synthesizer_s)
    (pos : sas_position_s) (update : sas_update_callback_t) (call_data id : Nat)
    (hU : unit_phases s)
    (h : sas_synthesizer_source_make c g s pos update call_data = .ok (g1, s1, id)) :
    unit_phases s1 := by
  unfold sas_synthesizer_source_make at h
  split_ifs at h with h0
  simp only [bind_ok_iff] at h
  obtain ⟨r, -, h⟩ := h
  simp only [pure, Except.pure, Except.ok.injEq, Prod.mk.injEq] at h
  obtain ⟨-, rfl, -⟩ := h
  intro q v hq hl
  obtain ⟨src1, a1, a2⟩ := (partial_load_iff _ q v).mp hq
  rcases source_load_cons _ _ q.source src1 a1 with rfl | hv2
  · exfalso
    apply hl
    have a3 : (List.replicate MAX_PARTIALS_PER_SOURCE
        ({ source := source_malloc s, link := none, a := 0, f := 440,
           aenv := { x0 := 0, x1 := 0, x2 := 0, x3 := 0 },
           fenv := { x0 := 440, x1 := 440, x2 := 440, x3 := 440 },
           state := 0, v1 := 0, v2 := 0 } : partial_s))[q.index]? = some v := a2
    rw [List.getElem?_replicate] at a3
    split_ifs at a3
    cases a3
    rfl
  · exact hU q v ((partial_load_iff s q v).mpr ⟨src1, hv2, a2⟩) hl

theorem unit_phases_no_source (s : sas_synthesizer_s) (h0 : s.sources = []) :
    unit_phases s := by
  intro q v hq
  obtain ⟨src, a1, -⟩ := (partial_load_iff s q v).mp hq
  unfold source_load at a1
  rw [h0] at a1
  cases a1

theorem continuing_loop_capacity (c : libc) (j : Nat) (st0 sa : update_state)
    (h : for_loop (continuing_harmonic c) j 0 st0 = .ok sa) :
    sa.s.active_tracks ≤ st0.s.active_tracks + j ∧ st0.s.active_tracks ≤ sa.s.active_tracks ∧
      sa.s.allocated = st0.s.allocated := by
  have k := for_loop_preserves _ (fun (k : Nat) (t : update_state) =>
    t.s.active_tracks ≤ st0.s.active_tracks + k ∧ st0.s.active_tracks ≤ t.s.active_tracks ∧
      t.s.allocated = st0.s.allocated) _ _ _ _ (fun k t t1 _ _ hb ht => by
      obtain ⟨p, p1, -, -, -, -, -, -, -, -, hcase⟩ := continuing_harmonic_step c k t t1 hb
      obtain ⟨a1, a2, a3⟩ := ht
      rcases hcase with ⟨-, -, -, -, e, -⟩ | ⟨-, -, -, -, -, -, -, -, e, -⟩
      · rw [e]
        refine ⟨?_, a2, a3⟩
        push_cast
        omega
      · rw [e]
        refine ⟨?_, ?_, a3⟩
        · show t.s.active_tracks + 1 ≤ st0.s.active_tracks + ((k + 1 : Nat) : Int)
          push_cast
          omega
        · show st0.s.active_tracks ≤ t.s.active_tracks + 1
          omega) h ⟨by simp, le_refl _, rfl⟩
  simpa using k

theorem framed_block_active (c : libc) (g : globals) (s : sas_synthesizer_s)
    (source : sas_source_s) (H : Int) (st : update_state) (h0 : 0 ≤ H)
    (ha : 0 ≤ source.active_tracks)
    (h : update_partials c g s source H (MIN H source.active_tracks) = .ok st) :
    (step_source st).active_tracks = H := by
  obtain ⟨b1, b2, b3, -, -⟩ := update_partials_counts c g s source H
    (MIN H source.active_tracks) st _ _ _ _ rfl h
  obtain ⟨-, -, -, -, -, -, -, -, -, -, -, -, f13, -⟩ := step_source_fields st
  rw [f13, b1, b2, b3]
  unfold MIN
  split_ifs with hc
  · omega
  · omega

theorem block_successor (c : libc) (g : globals) (s : sas_synthesizer_s)
    (source source1 : sas_source_s) (H : Int) (st : update_state) (h0 : 0 ≤ H)
    (ha : 0 ≤ source.active_tracks)
    (h : update_partials c g s source H (MIN H source.active_tracks) = .ok st)
    (hnext : same_lifecycle (step_source st) source1) (i : Nat) (p : partial_s)
    (hp : st.source.tracks[i]? = some p) :
    source1.active_tracks = H ∧
      ∃ q, source1.tracks[i]? = some q ∧ q.state = p.state ∧ (q.link ≠ none ↔ p.link ≠ none) := by
  refine ⟨hnext.active.trans (framed_block_active c g s source H st h0 ha h), ?_⟩
  obtain ⟨-, -, -, -, -, -, -, -, -, -, f11, -⟩ := step_source_fields st
  exact hnext.tracks i p (by rw [f11]; exact hp)

theorem block_birth (c : libc) (g : globals) (s : sas_synthesizer_s)
    (source : sas_source_s) (H : Int) (st : update_state) (hI : source_inv source)
    (hH : H ≤ MAX_PARTIALS_PER_SOURCE)
    (h : update_partials c g s source H (MIN H source.active_tracks) = .ok st) (i : Nat)
    (hi : (i : Int) < H) (ha : source.active_tracks ≤ (i : Int))
    (hl : source.linked_tracks ≤ (i : Int)) :
    ∃ p, st.source.tracks[i]? = some p ∧ p.state = 0 ∧ p.link = none := by
  have hmax : (MAX_PARTIALS_PER_SOURCE : Int) = 1024 := rfl
  have hlen : i < source.tracks.length := by
    have h1 := hI.tracks_length
    have h3 : MAX_PARTIALS_PER_SOURCE = 1024 := rfl
    omega
  obtain ⟨q, hq⟩ : ∃ q, source.tracks[i]? = some q := ⟨_, List.getElem?_eq_getElem hlen⟩
  have hA : MIN H source.active_tracks ≤ (i : Int) := by
    unfold MIN
    split_ifs <;> omega
  have hA0 : 0 ≤ MIN H source.active_tracks := by
    have := hI.active_range.1
    unfold MIN
    split_ifs <;> omega
  have hb := update_partials_birth c g s source H _ st i q h hq hA0 hA hi
  refine ⟨_, hb, rfl, ?_⟩
  show q.link = none
  by_contra hne
  have := (hI.prefix_linked i q hq).mp hne
  omega

theorem block_continuing (c : libc) (g : globals) (s : sas_synthesizer_s)
    (source : sas_source_s) (H : Int) (st : update_state)
    (h : update_partials c g s source H (MIN H source.active_tracks) = .ok st) (i : Nat)
    (q : partial_s) (hq : source.tracks[i]? = some q)
    (hi : (i : Int) < H) (ha : (i : Int) < source.active_tracks) :
    ∃ p, st.source.tracks[i]? = some p ∧ p.state = q.state + 1 ∧ p.a = q.a ∧
      (q.link ≠ none → p.link = q.link) ∧
      (q.link = none → q.state = 0 → p.link = none) ∧
      (q.link = none → q.state = 1 → s.active_tracks + (i : Int) < s.allocated →
        ∃ l, p.link = some l ∧ s.active_tracks ≤ (l : Int)) := by
  have hA : (i : Int) < MIN H source.active_tracks := by
    unfold MIN
    split_ifs <;> omega
  obtain ⟨sa, sb, hsa, hsb, e1, e2⟩ := update_partials_continuing c g s source H _ st i h hA
  obtain ⟨p, p1, hp, hsrc, s1, s2, -, -, -, -, hcase⟩ := continuing_harmonic_step c i sa sb hsb
  rw [e1, hq] at hp
  cases hp
  have hlt : i < sa.source.tracks.length := getElem?_lt _ _ _ (e1.trans hq)
  have hp1 : st.source.tracks[i]? = some p1 := by
    rw [e2, hsrc]
    show (sa.source.tracks.set i p1)[i]? = some p1
    rw [getElem?_set_cases _ _ _ _ hlt, if_pos rfl]
  obtain ⟨c1, c2, c3⟩ : sa.s.active_tracks ≤ s.active_tracks + (i : Int) ∧
      s.active_tracks ≤ sa.s.active_tracks ∧ sa.s.allocated = s.allocated :=
    continuing_loop_capacity c i _ sa hsa
  refine ⟨p1, hp1, s1, s2, ?_, ?_, ?_⟩
  · intro hl
    rcases hcase with ⟨-, e, -⟩ | ⟨e, -⟩
    · exact e
    · exact absurd e hl
  · intro hl hs
    rcases hcase with ⟨-, e, -⟩ | ⟨-, e, -⟩
    · rw [e]
      exact hl
    · omega
  · intro hl hs hcap
    rcases hcase with ⟨hno, -⟩ | ⟨-, -, -, e0, -, e, -⟩
    · exfalso
      rcases hno with hno | hno | ⟨-, hno⟩
      · exact hno hl
      · omega
      · apply hno
        rw [c3]
        omega
    · refine ⟨_, e, ?_⟩
      rw [Int.toNat_of_nonneg e0]
      exact c2

theorem block_death (c : libc) (g : globals) (s : sas_synthesizer_s)
    (source : sas_source_s) (H : Int) (st : update_state) (h0 : 0 ≤ H)
    (h : update_partials c g s source H (MIN H source.active_tracks) = .ok st) (i : Nat)
    (q : partial_s) (hq : source.tracks[i]? = some q)
    (hi : H ≤ (i : Int)) (ha : (i : Int) < source.active_tracks) :
    ∃ p, st.source.tracks[i]? = some p ∧ p.state = 0 ∧ p.a = BELOW_MIN_AMP ∧
      p.aenv.x3 = BELOW_MIN_AMP ∧ p.link = q.link := by
  have hA : MIN H source.active_tracks ≤ (i : Int) := by
    unfold MIN
    split_ifs <;> omega
  have hA0 : 0 ≤ MIN H source.active_tracks := by
    unfold MIN
    split_ifs <;> omega
  exact ⟨_, update_partials_death c g s source H _ st i q h hq hA0 hA hi ha, rfl, rfl, rfl, rfl⟩

theorem block_dying (c : libc) (g : globals) (s : sas_synthesizer_s)
    (source : sas_source_s) (H : Int) (st : update_state) (h0 : 0 ≤ H)
    (ha0 : 0 ≤ source.active_tracks)
    (h : update_partials c g s source H (MIN H source.active_tracks) = .ok st) (i : Nat)
    (q : partial_s) (hq : source.tracks[i]? = some q)
    (hi : H ≤ (i : Int)) (ha : source.active_tracks ≤ (i : Int))
    (hl : (i : Int) < source.linked_tracks) :
    ∃ p, st.source.tracks[i]? = some p ∧ p.state = q.state - 1 ∧ p.a = q.a ∧
      (q.state = -1 → p.link = none) ∧ (q.state ≠ -1 → p.link = q.link) := by
  have hA : MIN H source.active_tracks ≤ (i : Int) := by
    unfold MIN
    split_ifs <;> omega
  have hA0 : 0 ≤ MIN H source.active_tracks := by
    unfold MIN
    split_ifs <;> omega
  rcases update_partials_dying c g s source H _ st i q h hq hA0 hA hi ha hl with
    ⟨e1, -, e2⟩ | ⟨e1, e2⟩
  · exact ⟨_, e2, rfl, rfl, fun _ => rfl, fun hne => absurd (by omega) hne⟩
  · exact ⟨_, e2, rfl, rfl, fun he => absurd (by omega) e1, fun _ => rfl⟩

theorem block_rest (c : libc) (g : globals) (s : sas_synthesizer_s)
    (source : sas_source_s) (H : Int) (st : update_state)
    (h : update_partials c g s source H (MIN H source.active_tracks) = .ok st) (i : Nat)
    (hi : H ≤ (i : Int)) (ha : source.active_tracks ≤ (i : Int))
    (hl : source.linked_tracks ≤ (i : Int)) :
    st.source.tracks[i]? = source.tracks[i]? := by
  have hA : MIN H source.active_tracks ≤ (i : Int) := by
    unfold MIN
    split_ifs <;> omega
  exact update_partials_rest c g s source H _ st i h hA hi ha hl

theorem block_chain_successor (c : libc) (n last : Nat) (g : Nat → globals)
    (s : Nat → sas_synthesizer_s) (src : Nat → sas_source_s) (H : Nat → Int)
    (st : Nat → update_state) (hC : block_chain c n last g s src H st) (i k : Nat)
    (h1 : n ≤ k) (h2 : k < last) (p : partial_s) (hp : (st k).source.tracks[i]? = some p) :
    (src (k + 1)).active_tracks = H k ∧
      ∃ q, (src (k + 1)).tracks[i]? = some q ∧ q.state = p.state ∧
        (q.link ≠ none ↔ p.link ≠ none) :=
  block_successor c (g k) (s k) (src k) (src (k + 1)) (H k) (st k)
    (hC.counts k h1 (by omega)).1 (hC.shape k h1 (by omega)).active_range.1
    (hC.run k h1 (by omega)) (hC.next k h1 h2) i p hp

theorem block_chain_young (c : libc) (n last : Nat) (g : Nat → globals)
    (s : Nat → sas_synthesizer_s) (src : Nat → sas_source_s) (H : Nat → Int)
    (st : Nat → update_state) (hC : block_chain c n last g s src H st) (i : Nat)
    (hn : n ≤ last) (hi : (i : Int) < H n)
    (hnew : (src n).active_tracks ≤ (i : Int) ∧ (src n).linked_tracks ≤ (i : Int)) :
    (∃ p, (st n).source.tracks[i]? = some p ∧ p.state = 0 ∧ p.link = none) ∧
      (n + 1 ≤ last → (i : Int) < H (n + 1) →
        ∃ p, (st (n + 1)).source.tracks[i]? = some p ∧ p.state = 1 ∧ p.link = none) := by
  obtain ⟨p0, t0, s0, l0⟩ := block_birth c (g n) (s n) (src n) (H n) (st n)
    (hC.shape n (le_refl _) hn) (hC.counts n (le_refl _) hn).2 (hC.run n (le_refl _) hn) i hi
    hnew.1 hnew.2
  refine ⟨⟨p0, t0, s0, l0⟩, ?_⟩
  intro h1 hi1
  obtain ⟨a1, q1, hq1, qs1, ql1⟩ :=
    block_chain_successor c n last g s src H st hC i n (le_refl _) (by omega) p0 t0
  have ql : q1.link = none := by
    by_contra hne
    exact (ql1.mp hne) l0
  obtain ⟨p1, t1, s1, -, -, l1, -⟩ := block_continuing c (g (n + 1)) (s (n + 1)) (src (n + 1))
    (H (n + 1)) (st (n + 1)) (hC.run (n + 1) (by omega) h1) i q1 hq1 hi1 (by rw [a1]; exact hi)
  exact ⟨p1, t1, by rw [s1, qs1, s0]; rfl, l1 ql (qs1.trans s0)⟩

/-- C20: the lifecycle schedule of the harmonic of index `i` of a source, over
the blocks `n` to `m + 3` of the source (`block_chain`), when the harmonic is
neither active nor linked before block `n`, is below the number of harmonics
found in the blocks `n` to `m`, where `n + 2 ≤ m`, and not in the blocks
`m + 1` to `m + 3`, and when the active-track array has more than `i` free
cells at the start of block `n + 2`.  After the track loops of block `k` the
state counter of the partial is `k - n` up to block `m`, then 0, -1 and -2; the
partial is linked exactly after the blocks `n + 2` to `m + 2`: it is not
linked in the blocks `n` and `n + 1`, gets in block `n + 2` a cell that was
free at the start of the block, keeps a link through the blocks `m + 1` and
`m + 2` and loses it in block `m + 3`, where its state counter is -2.  Block
`m + 1` sets its amplitude target and the newest point of its amplitude
envelope to `BELOW_MIN_AMP`, and block `m + 2` leaves the amplitude target
alone. -/
theorem lifecycle_schedule (c : libc) (i n m : Nat) (g : Nat → globals)
    (s : Nat → sas_synthesizer_s) (src : Nat → sas_source_s) (H : Nat → Int)
    (st : Nat → update_state) (hC : block_chain c n (m + 3) g s src H st)
    (hm : n + 2 ≤ m)
    (helig : ∀ k, n ≤ k → k ≤ m → (i : Int) < H k)
    (habsent : ∀ k, m < k → k ≤ m + 3 → H k ≤ (i : Int))
    (hnew : (src n).active_tracks ≤ (i : Int) ∧ (src n).linked_tracks ≤ (i : Int))
    (hcap : (s (n + 2)).active_tracks + (i : Int) < (s (n + 2)).allocated) :
    ∀ k, n ≤ k → k ≤ m + 3 →
      ∃ p, (st k).source.tracks[i]? = some p ∧
        p.state = (if k ≤ m then (k : Int) - n else (m : Int) + 1 - k) ∧
        (p.link ≠ none ↔ n + 2 ≤ k ∧ k ≤ m + 2) ∧
        (k = n + 2 → ∃ l, p.link = some l ∧ (s k).active_tracks ≤ (l : Int)) ∧
        (k = m + 1 → p.a = BELOW_MIN_AMP ∧ p.aenv.x3 = BELOW_MIN_AMP) ∧
        (k = m + 2 → ∀ q, (src k).tracks[i]? = some q → p.a = q.a) := by
  have hsucc := fun k h1 h2 p hp =>
    block_chain_successor c n (m + 3) g s src H st hC i k h1 h2 p hp
  obtain ⟨⟨p0, t0, s0, l0⟩, hy⟩ :=
    block_chain_young c n (m + 3) g s src H st hC i (by omega) (helig n (le_refl _) (by omega))
      hnew
  obtain ⟨p1, t1, s1, l1⟩ := hy (by omega) (helig (n + 1) (by omega) (by omega))
  -- block n + 2: the partial is linked
  obtain ⟨a2, q2, hq2, qs2, ql2⟩ := hsucc (n + 1) (by omega) (by omega) p1 t1
  have ql2n : q2.link = none := by
    by_contra hne
    exact (ql2.mp hne) l1
  obtain ⟨p2, t2, s2, -, -, -, l2⟩ := block_continuing c (g (n + 2)) (s (n + 2)) (src (n + 2))
    (H (n + 2)) (st (n + 2)) (hC.run (n + 2) (by omega) (by omega)) i q2 hq2
    (helig (n + 2) (by omega) hm) (by rw [a2]; exact helig (n + 1) (by omega) (by omega))
  obtain ⟨l, hl2, hslot⟩ := l2 ql2n (qs2.trans s1) hcap
  -- blocks n + 2 to m: the partial continues
  have mid : ∀ k, n + 2 ≤ k → k ≤ m →
      ∃ p, (st k).source.tracks[i]? = some p ∧ p.link ≠ none ∧ p.state = (k : Int) - n := by
    intro k hk
    induction k, hk using Nat.le_induction with
    | base =>
      intro _
      refine ⟨p2, t2, by rw [hl2]; exact Option.some_ne_none _, ?_⟩
      rw [s2, qs2, s1]
      push_cast
      ring
    | succ k hk ih =>
      intro hkm
      obtain ⟨p, tp, lp, sp⟩ := ih (by omega)
      obtain ⟨a, q, hq, qs, ql⟩ := hsucc k (by omega) (by omega) p tp
      obtain ⟨p3, t3, s3, -, l3, -, -⟩ := block_continuing c (g (k + 1)) (s (k + 1))
        (src (k + 1)) (H (k + 1)) (st (k + 1)) (hC.run (k + 1) (by omega) (by omega)) i q hq
        (helig (k + 1) (by omega) hkm) (by rw [a]; exact helig k (by omega) (by omega))
      refine ⟨p3, t3, by rw [l3 (ql.mpr lp)]; exact ql.mpr lp, ?_⟩
      rw [s3, qs, sp]
      push_cast
      ring
  -- block m + 1: death
  obtain ⟨pm, tm, lm, sm⟩ := mid m hm (le_refl _)
  obtain ⟨a4, q4, hq4, qs4, ql4⟩ := hsucc m (by omega) (by omega) pm tm
  obtain ⟨p4, t4, s4, am4, e4, l4⟩ := block_death c (g (m + 1)) (s (m + 1)) (src (m + 1))
    (H (m + 1)) (st (m + 1)) (hC.counts (m + 1) (by omega) (by omega)).1
    (hC.run (m + 1) (by omega) (by omega)) i q4 hq4 (habsent (m + 1) (by omega) (by omega))
    (by rw [a4]; exact helig m (by omega) (le_refl _))
  have l4n : p4.link ≠ none := by rw [l4]; exact ql4.mpr lm
  -- block m + 2: dying, state -1
  obtain ⟨a5, q5, hq5, qs5, ql5⟩ := hsucc (m + 1) (by omega) (by omega) p4 t4
  have hI5 := hC.shape (m + 2) (by omega) (by omega)
  obtain ⟨p5, t5, s5, am5, -, l5⟩ := block_dying c (g (m + 2)) (s (m + 2)) (src (m + 2))
    (H (m + 2)) (st (m + 2)) (hC.counts (m + 2) (by omega) (by omega)).1 hI5.active_range.1
    (hC.run (m + 2) (by omega) (by omega)) i q5 hq5 (habsent (m + 2) (by omega) (by omega))
    (by rw [a5]; exact habsent (m + 1) (by omega) (by omega))
    ((hI5.prefix_linked i q5 hq5).mp (ql5.mpr l4n))
  have q5s : q5.state = 0 := qs5.trans s4
  have l5n : p5.link ≠ none := by
    rw [l5 (by omega)]
    exact ql5.mpr l4n
  -- block m + 3: dying, state -2
  obtain ⟨a6, q6, hq6, qs6, ql6⟩ := hsucc (m + 2) (by omega) (by omega) p5 t5
  have hI6 := hC.shape (m + 3) (by omega) (le_refl _)
  obtain ⟨p6, t6, s6, -, l6, -⟩ := block_dying c (g (m + 3)) (s (m + 3)) (src (m + 3))
    (H (m + 3)) (st (m + 3)) (hC.counts (m + 3) (by omega) (le_refl _)).1 hI6.active_range.1
    (hC.run (m + 3) (by omega) (le_refl _)) i q6 hq6 (habsent (m + 3) (by omega) (le_refl _))
    (by rw [a6]; exact habsent (m + 2) (by omega) (by omega))
    ((hI6.prefix_linked i q6 hq6).mp (ql6.mpr l5n))
  have q6s : q6.state = -1 := by rw [qs6, s5, q5s]; rfl
  intro k hk1 hk2
  rcases (by omega : k = n ∨ k = n + 1 ∨ (n + 2 ≤ k ∧ k ≤ m) ∨ k = m + 1 ∨ k = m + 2 ∨
      k = m + 3) with rfl | rfl | ⟨h1, h2⟩ | rfl | rfl | rfl
  · refine ⟨p0, t0, ?_, ?_, fun h => by omega, fun h => by omega, fun h => by omega⟩
    · rw [if_pos (by omega), s0]
      ring
    · constructor
      · intro hne
        exact absurd l0 hne
      · intro h
        omega
  · refine ⟨p1, t1, ?_, ?_, fun h => by omega, fun h => by omega, fun h => by omega⟩
    · rw [if_pos (by omega), s1]
      push_cast
      ring
    · constructor
      · intro hne
        exact absurd l1 hne
      · intro h
        omega
  · obtain ⟨p, tp, lp, sp⟩ := mid k h1 h2
    refine ⟨p, tp, ?_, ?_, ?_, fun h => by omega, fun h => by omega⟩
    · rw [if_pos h2, sp]
    · exact ⟨fun _ => ⟨h1, by omega⟩, fun _ => lp⟩
    · intro hk
      subst hk
      rw [t2] at tp
      cases tp
      exact ⟨l, hl2, hslot⟩
  · refine ⟨p4, t4, ?_, ?_, fun h => by omega, fun _ => ⟨am4, e4⟩, fun h => by omega⟩
    · rw [if_neg (by omega), s4]
      push_cast
      ring
    · exact ⟨fun _ => ⟨by omega, by omega⟩, fun _ => l4n⟩
  · refine ⟨p5, t5, ?_, ?_, fun h => by omega, fun h => by omega, ?_⟩
    · rw [if_neg (by omega), s5, q5s]
      push_cast
      ring
    · exact ⟨fun _ => ⟨by omega, by omega⟩, fun _ => l5n⟩
    · intro _ q hq
      rw [hq5] at hq
      cases hq
      exact am5
  · refine ⟨p6, t6, ?_, ?_, fun h => by omega, fun h => by omega, fun h => by omega⟩
    · rw [if_neg (by omega), s6, q6s]
      push_cast
      ring
    · constructor
      · intro hne
        exact absurd (l6 q6s) hne
      · intro h
        omega

theorem same_lifecycle_refl (a : sas_source_s) : same_lifecycle a a :=
  ⟨rfl, rfl, fun _ p hp => ⟨p, hp, rfl, Iff.rfl⟩⟩

theorem fresh_source_shape : source_inv fresh_source := by
  have hfresh : ∀ (i : Nat) (p : partial_s),
      (List.replicate MAX_PARTIALS_PER_SOURCE silent_partial)[i]? = some p → p.link = none := by
    intro i p hp
    rw [List.getElem?_replicate] at hp
    split_ifs at hp
    cases hp
    rfl
  refine
    { tracks_length := List.length_replicate _ _
      active_range := ⟨le_refl _, (by decide : (0 : Int) ≤ (MAX_PARTIALS_PER_SOURCE : Int))⟩
      linked_range := ⟨le_refl _, (by decide : (0 : Int) ≤ (MAX_PARTIALS_PER_SOURCE : Int))⟩
      prefix_linked := ?_
      young := ?_
      dying := ?_ }
  · intro i p hp
    have hn := hfresh i p hp
    constructor
    · intro hne
      exact absurd hn hne
    · intro hlt
      have : (i : Int) < 0 := hlt
      omega
  · intro i j p q hi hij hj
    have : (j : Int) < 0 := hj
    omega
  · intro i j p q hi hij hj
    have : (j : Int) < 0 := hj
    omega

theorem framed_block_shape (c : libc) (g : globals) (s : sas_synthesizer_s)
    (source : sas_source_s) (H : Int) (st : update_state) (hI : source_inv source)
    (hH : 0 ≤ H ∧ H ≤ MAX_PARTIALS_PER_SOURCE)
    (h : update_partials c g s source H (MIN H source.active_tracks) = .ok st) :
    source_inv (step_source st) := by
  have ha := hI.active_range.1
  refine update_partials_zones c g s source H _ st hI ?_ ?_ hH ?_ h
  · unfold MIN
    split_ifs <;> omega
  · unfold MIN
    split_ifs <;> omega
  · unfold MIN
    split_ifs with hc
    · exact Or.inl rfl
    · exact Or.inr (le_refl _)

theorem block_output_eq (c : libc) (H : Nat → Int) (k : Nat) (st : update_state)
    (h : update_partials c (block_input c H k).g (block_input c H k).s
      (block_input c H k).source (H k) (MIN (H k) (block_input c H k).source.active_tracks) =
        .ok st) :
    block_output c H k = st ∧
      block_input c H (k + 1) =
        { g := st.g, s := st.s, source := step_source st, birth := 0, death := 0, links := 0 } := by
  constructor
  · unfold block_output
    rw [h]
  · rw [block_input, h]

theorem block_input_error (c : libc) (H : Nat → Int) (k : Nat) (e : fault)
    (h : update_partials c (block_input c H k).g (block_input c H k).s
      (block_input c H k).source (H k) (MIN (H k) (block_input c H k).source.active_tracks) =
        .error e) :
    block_input c H (k + 1) = block_input c H k := by
  rw [block_input, h]

theorem block_input_shape (c : libc) (H : Nat → Int)
    (hH : ∀ k, 0 ≤ H k ∧ H k ≤ MAX_PARTIALS_PER_SOURCE) (k : Nat) :
    source_inv (block_input c H k).source := by
  induction k with
  | zero => exact fresh_source_shape
  | succ k ih =>
    cases hr : update_partials c (block_input c H k).g (block_input c H k).s
        (block_input c H k).source (H k)
        (MIN (H k) (block_input c H k).source.active_tracks) with
    | error e =>
      rw [block_input_error c H k e hr]
      exact ih
    | ok st =>
      rw [(block_output_eq c H k st hr).2]
      exact framed_block_shape c _ _ _ (H k) st ih (hH k) hr

theorem block_chain_concrete (c : libc) (H : Nat → Int) (last : Nat)
    (hH : ∀ k, 0 ≤ H k ∧ H k ≤ MAX_PARTIALS_PER_SOURCE)
    (hrun : ∀ k, k ≤ last →
      (update_partials c (block_input c H k).g (block_input c H k).s
        (block_input c H k).source (H k)
        (MIN (H k) (block_input c H k).source.active_tracks)).isOk = true) :
    block_chain c 0 last (fun k => (block_input c H k).g) (fun k => (block_input c H k).s)
      (fun k => (block_input c H k).source) H (block_output c H) := by
  have hok : ∀ k, k ≤ last → ∃ st,
      update_partials c (block_input c H k).g (block_input c H k).s
        (block_input c H k).source (H k)
        (MIN (H k) (block_input c H k).source.active_tracks) = .ok st :=
    fun k hk => exists_of_isOk _ (hrun k hk)
  refine ⟨fun k _ _ => block_input_shape c H hH k, fun k _ _ => hH k, ?_, ?_⟩
  · intro k _ hk
    obtain ⟨st, hst⟩ := hok k hk
    show update_partials c (block_input c H k).g (block_input c H k).s
      (block_input c H k).source (H k) (MIN (H k) (block_input c H k).source.active_tracks) =
        .ok (block_output c H k)
    rw [(block_output_eq c H k st hst).1]
    exact hst
  · intro k _ hk
    obtain ⟨st, hst⟩ := hok k (by omega)
    show same_lifecycle (step_source (block_output c H k)) (block_input c H (k + 1)).source
    rw [(block_output_eq c H k st hst).1, (block_output_eq c H k st hst).2]
    exact same_lifecycle_refl _

/-- Witness for C20: the source `fresh_source` in a synthesizer with four free
slots, whose first harmonic is found in the blocks 0, 1 and 2 and not in the
blocks 3, 4 and 5.  After the blocks 0 and 1 the partial has the states 0 and
1 and no link, after block 2 the state 2 and a link, after the blocks 3 and 4
the states 0 and -1 and still a link, and after block 5 the state -2 and no
link. -/
theorem lifecycle_schedule_witness :
    (∃ p, (block_output libc_rational three_blocks 0).source.tracks[0]? = some p ∧
      p.state = 0 ∧ p.link = none) ∧
    (∃ p, (block_output libc_rational three_blocks 1).source.tracks[0]? = some p ∧
      p.state = 1 ∧ p.link = none) ∧
    (∃ p, (block_output libc_rational three_blocks 2).source.tracks[0]? = some p ∧
      p.state = 2 ∧ p.link ≠ none) ∧
    (∃ p, (block_output libc_rational three_blocks 3).source.tracks[0]? = some p ∧
      p.state = 0 ∧ p.link ≠ none ∧ p.a = BELOW_MIN_AMP) ∧
    (∃ p, (block_output libc_rational three_blocks 4).source.tracks[0]? = some p ∧
      p.state = -1 ∧ p.link ≠ none) ∧
    (∃ p, (block_output libc_rational three_blocks 5).source.tracks[0]? = some p ∧
      p.state = -2 ∧ p.link = none) := by
  have h := lifecycle_schedule libc_rational 0 0 2
    (fun k => (block_input libc_rational three_blocks k).g)
    (fun k => (block_input libc_rational three_blocks k).s)
    (fun k => (block_input libc_rational three_blocks k).source) three_blocks
    (block_output libc_rational three_blocks)
    (block_chain_concrete libc_rational three_blocks (2 + 3)
      (fun k => by unfold three_blocks; split_ifs <;> decide)
      (fun k hk => by interval_cases k <;> decide!))
    (by decide)
    (fun k _ hk => by interval_cases k <;> decide)
    (fun k h1 h2 => by interval_cases k <;> decide)
    ⟨by decide, by decide⟩
    (by decide!)
  refine ⟨?_, ?_, ?_, ?_, ?_, ?_⟩
  · obtain ⟨p, hp, hs, hl, -⟩ := h 0 (by decide) (by decide)
    refine ⟨p, hp, hs.trans (by decide), ?_⟩
    by_contra hne
    exact absurd (hl.mp hne) (by decide)
  · obtain ⟨p, hp, hs, hl, -⟩ := h 1 (by decide) (by decide)
    refine ⟨p, hp, hs.trans (by decide), ?_⟩
    by_contra hne
    exact absurd (hl.mp hne) (by decide)
  · obtain ⟨p, hp, hs, hl, -⟩ := h 2 (by decide) (by decide)
    exact ⟨p, hp, hs.trans (by decide), hl.mpr (by decide)⟩
  · obtain ⟨p, hp, hs, hl, -, ha, -⟩ := h 3 (by decide) (by decide)
    exact ⟨p, hp, hs.trans (by decide), hl.mpr (by decide), (ha rfl).1⟩
  · obtain ⟨p, hp, hs, hl, -⟩ := h 4 (by decide) (by decide)
    exact ⟨p, hp, hs.trans (by decide), hl.mpr (by decide)⟩
  · obtain ⟨p, hp, hs, hl, -⟩ := h 5 (by decide) (by decide)
    refine ⟨p, hp, hs.trans (by decide), ?_⟩
    by_contra hne
    exact absurd (hl.mp hne) (by decide)

theorem short_lived_blocks (k : Nat) (hk : k ≤ 3) :
    unrendered_block libc_rational one_block k := by
  unfold unrendered_block
  have hrun : (update_partials libc_rational (block_input libc_rational one_block k).g
      (block_input libc_rational one_block k).s
      (block_input libc_rational one_block k).source (one_block k)
      (MIN (one_block k) (block_input libc_rational one_block k).source.active_tracks)).isOk =
        true := by
    interval_cases k <;> decide!
  obtain ⟨st, hst⟩ := exists_of_isOk _ hrun
  refine ⟨by rw [(block_output_eq libc_rational one_block k st hst).1]; exact hst, ?_, ?_, ?_⟩
  · interval_cases k <;> decide!
  · interval_cases k <;> decide!
  · have hl : ((block_output libc_rational one_block k).source.tracks[0]?).map
        (fun p => p.link) = some none := by
      interval_cases k <;> decide!
    cases hp : (block_output libc_rational one_block k).source.tracks[0]? with
    | none =>
      rw [hp] at hl
      cases hl
    | some p =>
      rw [hp] at hl
      simp only [Option.map_some', Option.some.injEq] at hl
      exact ⟨p, rfl, hl⟩

/-- Counterexample for C2: the first harmonic of `fresh_source` is found in
block 0 only, in a synthesizer with four free slots.  The track loops of the
blocks 0 to 3 return, and after each of them the partial has no link, the
number of active tracks of the synthesizer is 0 and its active-track array is
empty: the harmonic is rendered in no block. -/
theorem short_lived_counterexample :
    unrendered_block libc_rational one_block 0 ∧ unrendered_block libc_rational one_block 1 ∧
      unrendered_block libc_rational one_block 2 ∧ unrendered_block libc_rational one_block 3 :=
  ⟨short_lived_blocks 0 (by decide), short_lived_blocks 1 (by decide),
    short_lived_blocks 2 (by decide), short_lived_blocks 3 (by decide)⟩

/-- C2, amended: a harmonic of index `i` that is neither active nor linked
before block `n`, is below the number of harmonics found in the blocks `n` to
`m`, where `m` is `n` or `n + 1`, and not in the later blocks up to block
`last`, is linked in none of these blocks.  After the track loops of block `k`
its state counter is `k - n` up to block `m` and 0 afterwards, and block
`m + 1` sets its amplitude target to `BELOW_MIN_AMP`. -/
theorem short_lived_harmonic (c : libc) (i n m last : Nat) (g : Nat → globals)
    (s : Nat → sas_synthesizer_s) (src : Nat → sas_source_s) (H : Nat → Int)
    (st : Nat → update_state) (hC : block_chain c n last g s src H st)
    (hnm : n ≤ m) (hm : m ≤ n + 1) (hlast : m < last)
    (helig : ∀ k, n ≤ k → k ≤ m → (i : Int) < H k)
    (habsent : ∀ k, m < k → k ≤ last → H k ≤ (i : Int))
    (hnew : (src n).active_tracks ≤ (i : Int) ∧ (src n).linked_tracks ≤ (i : Int)) :
    ∀ k, n ≤ k → k ≤ last →
      ∃ p, (st k).source.tracks[i]? = some p ∧ p.link = none ∧
        p.state = (if k ≤ m then (k : Int) - n else 0) ∧
        (k = m + 1 → p.a = BELOW_MIN_AMP) := by
  have hsucc := fun k h1 h2 p hp =>
    block_chain_successor c n last g s src H st hC i k h1 h2 p hp
  obtain ⟨⟨p0, t0, s0, l0⟩, hy⟩ :=
    block_chain_young c n last g s src H st hC i (by omega) (helig n (le_refl _) hnm) hnew
  have young : ∀ k, n ≤ k → k ≤ m →
      ∃ p, (st k).source.tracks[i]? = some p ∧ p.link = none ∧ p.state = (k : Int) - n := by
    intro k h1 h2
    rcases (by omega : k = n ∨ (k = n + 1 ∧ m = n + 1)) with rfl | ⟨rfl, hmn⟩
    · exact ⟨p0, t0, l0, by rw [s0]; ring⟩
    · obtain ⟨p1, t1, s1, l1⟩ := hy (by omega) (helig (n + 1) (by omega) (by omega))
      exact ⟨p1, t1, l1, by rw [s1]; push_cast; ring⟩
  -- block m + 1: death of an unlinked partial
  obtain ⟨pm, tm, lm, sm⟩ := young m hnm (le_refl _)
  obtain ⟨a4, q4, hq4, qs4, ql4⟩ := hsucc m hnm hlast pm tm
  have q4n : q4.link = none := by
    by_contra hne
    exact (ql4.mp hne) lm
  obtain ⟨p4, t4, s4, am4, -, l4⟩ := block_death c (g (m + 1)) (s (m + 1)) (src (m + 1))
    (H (m + 1)) (st (m + 1)) (hC.counts (m + 1) (by omega) hlast).1
    (hC.run (m + 1) (by omega) hlast) i q4 hq4 (habsent (m + 1) (by omega) hlast)
    (by rw [a4]; exact helig m hnm (le_refl _))
  -- later blocks: the loops pass the partial by
  have late : ∀ k, m + 1 ≤ k → k ≤ last →
      ∃ p, (st k).source.tracks[i]? = some p ∧ p.link = none ∧ p.state = 0 := by
    intro k hk
    induction k, hk using Nat.le_induction with
    | base =>
      intro _
      exact ⟨p4, t4, l4.trans q4n, s4⟩
    | succ k hk ih =>
      intro hkl
      obtain ⟨p, tp, lp, sp⟩ := ih (by omega)
      obtain ⟨a, q, hq, qs, ql⟩ := hsucc k (by omega) (by omega) p tp
      have qn : q.link = none := by
        by_contra hne
        exact (ql.mp hne) lp
      have hI := hC.shape (k + 1) (by omega) hkl
      have hlinked : (src (k + 1)).linked_tracks ≤ (i : Int) := by
        by_contra hlt
        exact ((hI.prefix_linked i q hq).mpr (by omega)) qn
      have hrest := block_rest c (g (k + 1)) (s (k + 1)) (src (k + 1)) (H (k + 1)) (st (k + 1))
        (hC.run (k + 1) (by omega) hkl) i (habsent (k + 1) (by omega) hkl)
        (by rw [a]; exact habsent k (by omega) (by omega)) hlinked
      exact ⟨q, hrest.trans hq, qn, qs.trans sp⟩
  intro k hk1 hk2
  by_cases hkm : k ≤ m
  · obtain ⟨p, tp, lp, sp⟩ := young k hk1 hkm
    exact ⟨p, tp, lp, by rw [if_pos hkm, sp], fun h => by omega⟩
  · by_cases hk : k = m + 1
    · subst hk
      exact ⟨p4, t4, l4.trans q4n, by rw [if_neg hkm, s4], fun _ => am4⟩
    · obtain ⟨p, tp, lp, sp⟩ := late k (by omega) hk2
      exact ⟨p, tp, lp, by rw [if_neg hkm, sp], fun h => absurd h hk⟩

/-- Witness for C2: the source `fresh_source`, whose first harmonic is found in
block 0 and not in the blocks 1, 2 and 3: after each of the four blocks the
partial has the state 0 and no link, and block 1 sets its amplitude target to
`BELOW_MIN_AMP`. -/
theorem short_lived_harmonic_witness :
    (∃ p, (block_output libc_rational one_block 0).source.tracks[0]? = some p ∧
      p.link = none ∧ p.state = 0) ∧
    (∃ p, (block_output libc_rational one_block 1).source.tracks[0]? = some p ∧
      p.link = none ∧ p.state = 0 ∧ p.a = BELOW_MIN_AMP) ∧
    (∃ p, (block_output libc_rational one_block 2).source.tracks[0]? = some p ∧
      p.link = none ∧ p.state = 0) ∧
    (∃ p, (block_output libc_rational one_block 3).source.tracks[0]? = some p ∧
      p.link = none ∧ p.state = 0) := by
  have h := short_lived_harmonic libc_rational 0 0 0 3
    (fun k => (block_input libc_rational one_block k).g)
    (fun k => (block_input libc_rational one_block k).s)
    (fun k => (block_input libc_rational one_block k).source) one_block
    (block_output libc_rational one_block)
    (block_chain_concrete libc_rational one_block 3
      (fun k => by unfold one_block; split_ifs <;> decide)
      (fun k hk => by interval_cases k <;> decide!))
    (le_refl _) (by decide) (by decide)
    (fun k _ hk => by interval_cases k; decide)
    (fun k h1 h2 => by interval_cases k <;> decide)
    ⟨by decide, by decide⟩
  refine ⟨?_, ?_, ?_, ?_⟩
  · obtain ⟨p, hp, hl, hs, -⟩ := h 0 (by decide) (by decide)
    exact ⟨p, hp, hl, hs.trans (by decide)⟩
  · obtain ⟨p, hp, hl, hs, ha⟩ := h 1 (by decide) (by decide)
    exact ⟨p, hp, hl, hs.trans (by decide), ha rfl⟩
  · obtain ⟨p, hp, hl, hs, -⟩ := h 2 (by decide) (by decide)
    exact ⟨p, hp, hl, hs.trans (by decide)⟩
  · obtain ⟨p, hp, hl, hs, -⟩ := h 3 (by decide) (by decide)
    exact ⟨p, hp, hl, hs.trans (by decide)⟩

theorem zero_fill_result (n : Nat) (b b1 : List ℚ)
    (h : for_loop (fun i (b : List ℚ) => array_set b i 0) n 0 b = .ok b1) :
    b1.length = b.length ∧ ∀ i, i < n → b1[i]? = some 0 := by
  have k := for_loop_preserves _ (fun (k : Nat) (t : List ℚ) =>
    t.length = b.length ∧ ∀ i, i < k → t[i]? = some 0) _ _ _ _ (fun j t t1 _ _ hb ht => by
      rw [array_set_eq_ok] at hb
      obtain ⟨hlt, rfl⟩ := hb
      refine ⟨by rw [List.length_set]; exact ht.1, ?_⟩
      intro i hi
      rw [getElem?_set_cases _ _ _ _ hlt]
      split_ifs with hij
      · rfl
      · exact ht.2 i (by omega)) h ⟨rfl, fun i hi => absurd hi (Nat.not_lt_zero i)⟩
  simpa using k

theorem zero_fill (n : Nat) (b : List ℚ) (hn : n ≤ b.length) :
    ∃ b1, for_loop (fun i (b : List ℚ) => array_set b i 0) n 0 b = .ok b1 := by
  obtain ⟨b1, h, -⟩ := for_loop_inv (fun i (b : List ℚ) => array_set b i 0)
    (fun (_ : Nat) (t : List ℚ) => t.length = b.length) n 0 b rfl (fun j t _ hj ht =>
      ⟨t.set j 0, array_set_ok t j 0 (by have : t.length = b.length := ht; omega),
        (List.length_set t j 0).trans ht⟩)
  exact ⟨b1, h⟩

theorem far_scan (c : libc) (g g0 : globals) (s : sas_synthesizer_s) (src : sas_source_s)
    (frame : sas_frame_s) (pos : sas_position_s) (r : scan_result)
    (hupd : src.update src.call_data g = (g0, some frame, some pos))
    (hfar : MAX_PROPAGATION_DISTANCE ≤ DISTANCE c pos.x pos.y pos.z)
    (h : harmonic_scan c g s src = .ok r) :
    r.harmonics = 0 ∧ r.active = 0 ∧ r.source.tracks = src.tracks ∧
      r.source.distance = DISTANCE c pos.x pos.y pos.z := by
  unfold harmonic_scan at h
  rw [hupd] at h
  simp only [bind_ok_iff] at h
  obtain ⟨dest, -, ⟨g2, dest2⟩, -, frames, -, h⟩ := h
  split_ifs at h with hd
  · simp only [pure, Except.pure, Except.ok.injEq] at h
    subst h
    exact ⟨rfl, rfl, rfl, rfl⟩
  · exact absurd hfar hd

theorem late_loops_active (body : Nat → update_state → Except fault update_state)
    (hbody : ∀ j t t1, body j t = .ok t1 → t1.s.active_tracks = t.s.active_tracks)
    (n i : Nat) (st st1 : update_state) (h : for_loop body n i st = .ok st1) :
    st1.s.active_tracks = st.s.active_tracks :=
  for_loop_preserves body (fun _ t => t.s.active_tracks = st.s.active_tracks) n i st st1
    (fun j t t1 _ _ hb ht => (hbody j t t1 hb).trans ht) h rfl

theorem far_update_partials (c : libc) (g : globals) (s : sas_synthesizer_s)
    (source : sas_source_s) (st : update_state)
    (h : update_partials c g s source 0 0 = .ok st) :
    st.s.active_tracks = s.active_tracks := by
  unfold update_partials at h
  simp only [bind_ok_iff, pure, Except.pure, Except.ok.injEq] at h
  obtain ⟨st1, h1, st2, h2, st3, h3, st4, h4, rfl⟩ := h
  have e1 : st1 = { g := g, s := s, source := source, birth := 0, death := 0, links := 0 } := by
    have h1a : for_loop (continuing_harmonic c) 0 0
        { g := g, s := s, source := source, birth := 0, death := 0, links := 0 } = .ok st1 := h1
    simp only [for_loop, Except.ok.injEq] at h1a
    exact h1a.symm
  have k2 := late_loops_active _ (fun j t t1 hb => by
    obtain ⟨p, -, rfl⟩ := birth_of_harmonic_step j t t1 hb
    rfl) _ _ _ _ h2
  have k3 := late_loops_active _ (fun j t t1 hb => by
    obtain ⟨p, -, rfl⟩ := death_of_harmonic_step j t t1 hb
    rfl) _ _ _ _ h3
  have k4 := late_loops_active _ (fun j t t1 hb => by
    obtain ⟨p, -, hcase⟩ := dying_harmonic_step j t t1 hb
    rcases hcase with ⟨-, l, -, -, rfl⟩ | ⟨-, rfl⟩
    · rfl
    · rfl) _ _ _ _ h4
  rw [k4, k3, k2, e1]

theorem far_update_source (c : libc) (g g0 g2 : globals) (s s2 : sas_synthesizer_s)
    (src : sas_source_s) (frame : sas_frame_s) (pos : sas_position_s)
    (hsrc : source_load s src.id = .ok src)
    (hupd : src.update src.call_data g = (g0, some frame, some pos))
    (hfar : MAX_PROPAGATION_DISTANCE ≤ DISTANCE c pos.x pos.y pos.z)
    (h : update_source c g s src.id = .ok (g2, s2)) :
    s2.active_tracks = s.active_tracks := by
  obtain ⟨src1, r, st, hsrc1, hr, hst, hcase⟩ := update_source_cases c g g2 s s2 src.id h
  rw [hsrc] at hsrc1
  cases hsrc1
  obtain ⟨r1, r2, -, -⟩ := far_scan c g g0 s src frame pos r hupd hfar hr
  rw [r1, r2] at hst
  have k := far_update_partials c r.g s r.source st hst
  obtain ⟨hid, -⟩ := harmonic_scan_fields c g s src r hr
  have hfr := update_partials_frame c r.g s r.source 0 0 st hst
  have hsources : st.s.sources = s.sources := congrArg (fun x => x.sources) hfr.synth_fields
  have hstid : st.source.id = src.id := by
    rw [(loops_frame_source _ _ hfr).1]
    exact hid
  obtain ⟨f1, -⟩ := step_source_fields st
  rcases hcase with ⟨-, hz, hfree⟩ | ⟨-, -, rfl⟩
  · have hsrc2 : source_load st.s src.id = .ok src := by
      rw [source_load_congr st.s s src.id hsources]
      exact hsrc
    have hself : source_load (source_store st.s (step_source st)) src.id =
        .ok (step_source st) :=
      source_load_store_self st.s src (step_source st) src.id hsrc2 (by rw [f1, hstid])
    rw [f1, hstid] at hfree
    obtain ⟨-, -, d3, -⟩ := delayed_free_unlinked c _ _ _ _ src.id _ hself hz hfree
    rw [d3]
    exact k
  · exact k

theorem update_sources_single (c : libc) (g g2 : globals) (s s2 : sas_synthesizer_s)
    (src : sas_source_s) (hs : s.sources = [src])
    (h : update_sources c g s = .ok (g2, s2)) :
    update_source c g s src.id = .ok (g2, s2) := by
  unfold update_sources at h
  rw [hs] at h
  simp only [List.length_singleton, List.head?_cons, Option.map_some', update_sources_loop,
    bind_ok_iff] at h
  obtain ⟨⟨g3, s3⟩, h1, nxt, -, h3⟩ := h
  cases nxt with
  | none =>
    simp only [update_sources_loop, Except.ok.injEq, Prod.mk.injEq] at h3
    rw [← h3.1, ← h3.2]
    exact h1
  | some x => simp [update_sources_loop] at h3

theorem source_load_single (s : sas_synthesizer_s) (src : sas_source_s)
    (hs : s.sources = [src]) : source_load s src.id = .ok src := by
  unfold source_load
  rw [hs]
  simp

theorem idle_tracks (c : libc) (s : sas_synthesizer_s) (h0 : s.active_tracks = 0) :
    update_tracks c s = .ok
      { my_qsort c { s with audible_tracks := 0 } 0 with active_tracks := 0 } := by
  unfold update_tracks
  simp only [h0, Int.toNat_zero, for_loop, bind_pure_comp, map_pure, pure, Except.pure,
    sub_zero]
  rfl

theorem update_mask_active (c : libc) (g g1 : globals) (s s1 : sas_synthesizer_s)
    (h : update_mask c g s = .ok (g1, s1)) : s1.active_tracks = s.active_tracks := by
  unfold update_mask at h
  simp only [bind_ok_iff, pure, Except.pure, Except.ok.injEq, Prod.mk.injEq] at h
  obtain ⟨s0, hreset, ⟨g2, s2⟩, hloop, -, rfl⟩ := h
  obtain ⟨-, -, -, e4, -⟩ := reset_mask_fields s s0 hreset
  have k : s2.active_tracks = s.active_tracks :=
    for_loop_preserves _ (fun _ (t : globals × sas_synthesizer_s) =>
      t.2.active_tracks = s.active_tracks) _ _ _ _ (fun j t t1 _ _ hb ht => by
        unfold mask_track at hb
        simp only [bind_ok_iff] at hb
        obtain ⟨cell, -, hb⟩ := hb
        cases cell with
        | none => cases hb
        | some p =>
          simp only [bind_ok_iff] at hb
          obtain ⟨⟨ga, sa, r⟩, hadd, hb⟩ := hb
          obtain ⟨-, -, -, a4, -, -⟩ := add_partial_to_mask_fields c t.1 ga t.2 sa p r hadd
          unfold mark_masked at hb
          simp only [] at hb
          split_ifs at hb with hr
          · simp only [bind_ok_iff, pure, Except.pure, Except.ok.injEq] at hb
            obtain ⟨v0, hv0, s3, hs3, rfl⟩ := hb
            obtain ⟨-, -, f3, -⟩ := partial_store_fields _ _ _ _ hs3
            exact (f3.trans a4).trans ht
          · simp only [Except.ok.injEq] at hb
            subst hb
            exact a4.trans ht) hloop e4
  exact k

theorem idle_mask (c : libc) (g : globals) (s : sas_synthesizer_s) (mask : skip_list_s)
    (h0 : s.audible_tracks = 0) (hm : skip_list_reset s.mask = .ok mask) :
    ∃ r, update_mask c g s = .ok r := by
  have hreset : reset_mask s = .ok { s with mask := mask, pool := { s.pool with used := 0 } } := by
    unfold reset_mask
    rw [hm]
    rfl
  have hn : s.audible_tracks.toNat = 0 := by
    rw [h0]
    rfl
  have hloop : for_loop (mask_track c) s.audible_tracks.toNat 0
      (g, { s with mask := mask, pool := { s.pool with used := 0 }, masked_tracks := 0 }) =
      .ok (g, { s with mask := mask, pool := { s.pool with used := 0 }, masked_tracks := 0 }) := by
    rw [hn]
    rfl
  unfold update_mask
  exact ⟨_, bind_ok_of _ _ _ _ hreset (bind_ok_of _ _ _ _ hloop rfl)⟩

theorem forward_sample_first (l_a_inc r_a_inc r_inc i_inc : ℚ) (offset i : Nat)
    (st : oscillator_state) (hlen : offset + 2 * i + 1 < st.buffer.length) :
    ∃ st1, forward_sample l_a_inc r_a_inc r_inc i_inc offset i st = .ok st1 ∧
      st1.buffer.length = st.buffer.length ∧
      (∀ j, j < offset + 2 * i → st1.buffer[j]? = st.buffer[j]?) ∧
      (∀ x, st.buffer[offset + 2 * i]? = some x →
        st1.buffer[offset + 2 * i]? = some (x + st.l_a * st.i_exp)) := by
  have h0 : offset + 2 * i < st.buffer.length := by omega
  obtain ⟨x0, hx0⟩ : ∃ x0, st.buffer[offset + 2 * i]? = some x0 :=
    ⟨_, List.getElem?_eq_getElem h0⟩
  have hlen1 : offset + 2 * i + 1 <
      (st.buffer.set (offset + 2 * i) (x0 + st.l_a * st.i_exp)).length := by
    rw [List.length_set]
    exact hlen
  obtain ⟨x1, hx1⟩ : ∃ x1,
      (st.buffer.set (offset + 2 * i) (x0 + st.l_a * st.i_exp))[offset + 2 * i + 1]? = some x1 :=
    ⟨_, List.getElem?_eq_getElem hlen1⟩
  refine ⟨⟨(st.buffer.set (offset + 2 * i) (x0 + st.l_a * st.i_exp)).set
      (offset + 2 * i + 1) (x1 + st.r_a * st.i_exp), st.l_a + l_a_inc, st.r_a + r_a_inc,
    st.r_exp * r_inc - st.i_exp * i_inc, st.r_exp * i_inc + st.i_exp * r_inc⟩, ?_, ?_, ?_, ?_⟩
  · unfold forward_sample
    exact bind_ok_of _ _ _ _ ((array_get_eq_ok _ _ _).mpr hx0)
      (bind_ok_of _ _ _ _ (array_set_ok _ _ _ h0)
        (bind_ok_of _ _ _ _ ((array_get_eq_ok _ _ _).mpr hx1)
          (bind_ok_of _ _ _ _ (array_set_ok _ _ _ hlen1) rfl)))
  · show ((st.buffer.set (offset + 2 * i) (x0 + st.l_a * st.i_exp)).set
      (offset + 2 * i + 1) (x1 + st.r_a * st.i_exp)).length = st.buffer.length
    rw [List.length_set, List.length_set]
  · intro j hj
    show ((st.buffer.set (offset + 2 * i) (x0 + st.l_a * st.i_exp)).set
      (offset + 2 * i + 1) (x1 + st.r_a * st.i_exp))[j]? = st.buffer[j]?
    rw [getElem?_set_cases _ _ _ _ hlen1, if_neg (by omega),
      getElem?_set_cases _ _ _ _ h0, if_neg (by omega)]
  · intro x hx
    rw [hx0] at hx
    cases hx
    show ((st.buffer.set (offset + 2 * i) (x0 + st.l_a * st.i_exp)).set
      (offset + 2 * i + 1) (x1 + st.r_a * st.i_exp))[offset + 2 * i]? = _
    rw [getElem?_set_cases _ _ _ _ hlen1, if_neg (by omega),
      getElem?_set_cases _ _ _ _ h0, if_pos rfl]

theorem forward_synthesis_first (c : libc) (l_ratio r_ratio : ℚ) (p : partial_s)
    (a a_next f : ℚ) (buffer : List ℚ) (offset : Nat)
    (hlen : offset + 2 * STEP_SAMPLES ≤ buffer.length) :
    ∃ p1 buf, partial_forward_synthesis c l_ratio r_ratio p a a_next f buffer offset =
        .ok (p1, buf) ∧ buf.length = buffer.length ∧
      (∀ j, j < offset → buf[j]? = buffer[j]?) ∧
      (∀ x, buffer[offset]? = some x → buf[offset]? = some (x + l_ratio * a * p.v2)) := by
  have hS : STEP_SAMPLES = 64 := rfl
  obtain ⟨st, hst, hP⟩ := for_loop_inv
    (forward_sample (l_ratio * ((a_next - a) / (STEP_SAMPLES : ℚ)))
      (r_ratio * ((a_next - a) / (STEP_SAMPLES : ℚ))) (c.cos (FREQCOEFF * f))
      (c.sin (FREQCOEFF * f)) offset)
    (fun (k : Nat) (t : oscillator_state) =>
      t.buffer.length = buffer.length ∧ (∀ j, j < offset → t.buffer[j]? = buffer[j]?) ∧
      (k = 0 → t.buffer = buffer ∧ t.l_a = l_ratio * a ∧ t.i_exp = p.v2) ∧
      (0 < k → ∀ x, buffer[offset]? = some x →
        t.buffer[offset]? = some (x + l_ratio * a * p.v2)))
    STEP_SAMPLES 0
    { buffer := buffer, l_a := l_ratio * a, r_a := r_ratio * a, r_exp := p.v1, i_exp := p.v2 }
    ⟨rfl, fun _ _ => rfl, fun _ => ⟨rfl, rfl, rfl⟩, fun h => absurd h (lt_irrefl 0)⟩
    (fun k t _ hk ht => by
      obtain ⟨t1, ht1, hl1, hlow, hat⟩ := forward_sample_first
        (l_ratio * ((a_next - a) / (STEP_SAMPLES : ℚ)))
        (r_ratio * ((a_next - a) / (STEP_SAMPLES : ℚ))) (c.cos (FREQCOEFF * f))
        (c.sin (FREQCOEFF * f)) offset k t (by rw [ht.1]; omega)
      refine ⟨t1, ht1, hl1.trans ht.1, ?_, fun h => absurd h (Nat.succ_ne_zero k), ?_⟩
      · intro j hj
        rw [hlow j (by omega)]
        exact ht.2.1 j hj
      · intro _ x hx
        by_cases hk0 : k = 0
        · subst hk0
          obtain ⟨e1, e2, e3⟩ := ht.2.2.1 rfl
          have := hat x (by rw [e1]; exact hx)
          rw [e2, e3] at this
          exact this
        · rw [hlow offset (by omega)]
          exact ht.2.2.2 (Nat.pos_of_ne_zero hk0) x hx)
  refine ⟨{ p with v1 := st.r_exp, v2 := st.i_exp }, st.buffer, ?_, hP.1, hP.2.1, ?_⟩
  · unfold partial_forward_synthesis
    exact bind_ok_of _ _ _ _ hst rfl
  · exact hP.2.2.2 (by rw [Nat.zero_add, hS]; decide)

theorem synthesize_step_low (c : libc) (l_ratio r_ratio : ℚ) (inta intf : Nat → ℚ)
    (step : Nat) (st : partial_s × List ℚ)
    (hlen : step * 2 * STEP_SAMPLES + 2 * STEP_SAMPLES ≤ st.2.length) :
    ∃ st1, synthesize_step c l_ratio r_ratio inta intf step st = .ok st1 ∧
      st1.2.length = st.2.length ∧
      (∀ j, j < step * 2 * STEP_SAMPLES → st1.2[j]? = st.2[j]?) ∧
      (¬ (inta step < MIN_AMP ∧ inta (step + 1) < MIN_AMP) →
        ∀ x, st.2[step * 2 * STEP_SAMPLES]? = some x →
          st1.2[step * 2 * STEP_SAMPLES]? = some (x + l_ratio * inta step * st.1.v2)) := by
  unfold synthesize_step
  simp only []
  split_ifs with hc
  · exact ⟨_, rfl, rfl, fun _ _ => rfl, fun hn => absurd hc hn⟩
  · obtain ⟨p1, buf, h, hl, hlow, hat⟩ := forward_synthesis_first c l_ratio r_ratio st.1
      (inta step) (inta (step + 1)) (intf step) st.2 (step * 2 * STEP_SAMPLES) hlen
    exact ⟨(p1, buf), h, hl, hlow, fun _ => hat⟩

theorem synthesize_steps_first (c : libc) (l_ratio r_ratio : ℚ) (inta intf : Nat → ℚ)
    (v : partial_s) (buffer : List ℚ) (hlen : 2 * SAS_SAMPLES ≤ buffer.length)
    (hloud : ¬ (inta 0 < MIN_AMP ∧ inta 1 < MIN_AMP)) :
    ∃ st1, synthesize_steps c l_ratio r_ratio inta intf INTERPOLATION_STEPS 0 (v, buffer) =
        .ok st1 ∧
      ∀ x, buffer[0]? = some x → st1.2[0]? = some (x + l_ratio * inta 0 * v.v2) := by
  have hS : STEP_SAMPLES = 64 := rfl
  have hN : SAS_SAMPLES = 512 := rfl
  have hI : INTERPOLATION_STEPS = 8 := rfl
  unfold synthesize_steps
  obtain ⟨st1, h, hP⟩ := for_loop_inv (synthesize_step c l_ratio r_ratio inta intf)
    (fun (k : Nat) (t : partial_s × List ℚ) =>
      t.2.length = buffer.length ∧ (k = 0 → t = (v, buffer)) ∧
      (0 < k → ∀ x, buffer[0]? = some x → t.2[0]? = some (x + l_ratio * inta 0 * v.v2)))
    INTERPOLATION_STEPS 0 (v, buffer)
    ⟨rfl, fun _ => rfl, fun h => absurd h (lt_irrefl 0)⟩
    (fun k t _ hk ht => by
      obtain ⟨t1, ht1, hl1, hlow, hat⟩ := synthesize_step_low c l_ratio r_ratio inta intf k t
        (by rw [ht.1, hS]; omega)
      refine ⟨t1, ht1, hl1.trans ht.1, fun h => absurd h (Nat.succ_ne_zero k), ?_⟩
      intro _ x hx
      by_cases hk0 : k = 0
      · subst hk0
        have e := ht.2.1 rfl
        subst e
        have := hat hloud x (by simpa using hx)
        simpa using this
      · rw [hlow 0 (by rw [hS]; omega)]
        exact ht.2.2 (Nat.pos_of_ne_zero hk0) x hx)
  exact ⟨st1, h, hP.2.2 (by rw [Nat.zero_add, hI]; decide)⟩

theorem synthesize_of_updates (c : libc) (g g4 : globals) (s s4 s5 : sas_synthesizer_s)
    (buffer b0 b5 : List ℚ)
    (hb0 : for_loop (fun i (b : List ℚ) => array_set b i 0) (2 * SAS_SAMPLES) 0 buffer = .ok b0)
    (hu : block_updates c g s = .ok (g4, s4))
    (h5 : for_loop (synthesize_track c) s4.active_tracks.toNat 0 (s4, b0) = .ok (s5, b5)) :
    sas_synthesizer_synthesize c g s buffer = .ok (g4, s5, b5) := by
  unfold block_updates at hu
  simp only [bind_ok_iff] at hu
  obtain ⟨⟨g2, s2⟩, h2, s3, h3, h4⟩ := hu
  unfold sas_synthesizer_synthesize
  exact bind_ok_of _ _ _ _ hb0 (bind_ok_of _ _ _ _ h2 (bind_ok_of _ _ _ _ h3
    (bind_ok_of _ _ _ _ h4 (bind_ok_of _ _ _ _ h5 rfl))))

theorem synthesize_first_sample (c : libc) (s : sas_synthesizer_s) (b0 : List ℚ)
    (v : partial_s) (src : sas_source_s) (q : partial_t)
    (hact : s.active_tracks = 1) (hcell : s.tracks[0]? = some (some q))
    (hv : partial_load s q = .ok v) (hsrc : source_load s v.source = .ok src)
    (hloud : MIN_AMP ≤ v.aenv.x1) (hlen : 2 * SAS_SAMPLES ≤ b0.length) :
    ∃ s5 b5, for_loop (synthesize_track c) s.active_tracks.toNat 0 (s, b0) = .ok (s5, b5) ∧
      ∀ x, b0[0]? = some x → b5[0]? = some (x + src.l_ratio * v.aenv.x1 * v.v2) := by
  have h0 : interpolated v.aenv 0 = v.aenv.x1 := by
    unfold interpolated
    rw [if_pos rfl]
  obtain ⟨⟨v1, b5⟩, hsteps, hfirst⟩ := synthesize_steps_first c src.l_ratio src.r_ratio
    (interpolated v.aenv) (interpolated v.fenv) v b0 hlen (by
      rw [h0]
      intro hc
      exact absurd hc.1 (not_lt.mpr hloud))
  obtain ⟨s5, hs5⟩ := partial_store_ok s q v v1 hv
  refine ⟨s5, b5, ?_, ?_⟩
  · rw [hact]
    refine for_loop_succ (synthesize_track c) 0 (s, b0) (s, b0) (s5, b5) rfl ?_
    unfold synthesize_track
    exact bind_ok_of _ _ _ _ ((array_get_eq_ok _ _ _).mpr hcell)
      (bind_ok_of _ _ _ _ hv (bind_ok_of _ _ _ _ hsrc (bind_ok_of _ _ _ _ hsteps
        (bind_ok_of _ _ _ _ hs5 rfl))))
  · intro x hx
    rw [← h0]
    exact hfirst x hx

/-- Counterexample for C9: the only source of `fading_synth` was rendered in
the block before and its callback now leaves it at (0, 3000, 0), at 3000
metres, beyond `MAX_PROPAGATION_DISTANCE`.  The block is not silent: its first
sample is 1/8, because the partial that is still linked fades out and is
synthesized. -/
theorem out_of_range_counterexample :
    (∃ src, fading_synth.sources = [src] ∧
      src.update src.call_data heard_globals =
        (heard_globals, some ⟨1 / 2, 10000, 1, 2⟩, some ⟨0, 3000, 0⟩)) ∧
    DISTANCE libc_rational 0 3000 0 = 3000 ∧ MAX_PROPAGATION_DISTANCE < 3000 ∧
    ∃ g1 s1 buffer1,
      sas_synthesizer_synthesize libc_rational heard_globals fading_synth
        (List.replicate (2 * SAS_SAMPLES) 0) = .ok (g1, s1, buffer1) ∧
      buffer1[0]? = some (1 / 8) := by
  refine ⟨⟨_, rfl, rfl⟩, by decide!, by decide!, ?_⟩
  obtain ⟨b0, hb0⟩ := zero_fill (2 * SAS_SAMPLES) (List.replicate (2 * SAS_SAMPLES) 0)
    (by rw [List.length_replicate])
  obtain ⟨hl0, hz0⟩ := zero_fill_result _ _ _ hb0
  obtain ⟨⟨g4, s4⟩, hu⟩ := exists_of_isOk
    (block_updates libc_rational heard_globals fading_synth) (by decide!)
  have hfacts : ((block_updates libc_rational heard_globals fading_synth).bind (fun r =>
      .ok (decide (r.2.active_tracks = 1 ∧ r.2.tracks[0]? = some (some ⟨1, 0⟩) ∧
        ((partial_load r.2 ⟨1, 0⟩).bind (fun v =>
          (source_load r.2 v.source).bind (fun src =>
            .ok (decide (v.aenv.x1 = 1 / 4 ∧ v.v2 = 1 ∧ src.l_ratio = 1 / 2))))) =
          (.ok true : Except fault Bool))))) = (.ok true : Except fault Bool) := by
    decide!
  rw [hu] at hfacts
  simp only [Except.bind, Except.ok.injEq, decide_eq_true_eq] at hfacts
  obtain ⟨hact, hcell, hrest⟩ := hfacts
  cases hv : partial_load s4 ⟨1, 0⟩ with
  | error e =>
    rw [hv] at hrest
    cases hrest
  | ok v =>
    rw [hv] at hrest
    cases hsrc : source_load s4 v.source with
    | error e =>
      simp only [hsrc] at hrest
      cases hrest
    | ok src =>
      simp only [hsrc, Except.ok.injEq, decide_eq_true_eq] at hrest
      obtain ⟨e1, e2, e3⟩ := hrest
      obtain ⟨s5, b5, h5, hfirst⟩ := synthesize_first_sample libc_rational s4 b0 v src ⟨1, 0⟩
        hact hcell hv hsrc (by rw [e1]; decide!) (by rw [hl0, List.length_replicate])
      refine ⟨g4, s5, b5, synthesize_of_updates _ _ _ _ _ _ _ _ _ hb0 hu h5, ?_⟩
      rw [hfirst 0 (hz0 0 (by decide)), e1, e2, e3]
      norm_num

/-- C9, amended: in a block in which the callback of the only source `src` of
the synthesizer leaves it at a distance of at least
`MAX_PROPAGATION_DISTANCE`, the harmonic scan finds no harmonic and no
continuing harmonic, and `update_sources` leaves the number of active tracks
of the synthesizer as it is.  When this number is 0, every one of the
`2 * SAS_SAMPLES` samples that `sas_synthesizer_synthesize` writes is 0, and
the call returns as soon as the buffer has `2 * SAS_SAMPLES` cells,
`update_sources` returns and the mask can be reset. -/
theorem out_of_range_silent (c : libc) (g g0 : globals) (s : sas_synthesizer_s)
    (src : sas_source_s) (frame : sas_frame_s) (pos : sas_position_s)
    (hs : s.sources = [src])
    (hupd : src.update src.call_data g = (g0, some frame, some pos))
    (hfar : MAX_PROPAGATION_DISTANCE ≤ DISTANCE c pos.x pos.y pos.z) :
    (∀ r, harmonic_scan c g s src = .ok r → r.harmonics = 0 ∧ r.active = 0) ∧
    (∀ g2 s2, update_sources c g s = .ok (g2, s2) → s2.active_tracks = s.active_tracks) ∧
    (∀ buffer g1 s1 buffer1, s.active_tracks = 0 →
      sas_synthesizer_synthesize c g s buffer = .ok (g1, s1, buffer1) →
      buffer1.length = buffer.length ∧ ∀ i, i < 2 * SAS_SAMPLES → buffer1[i]? = some 0) ∧
    (∀ buffer g2 s2 mask, s.active_tracks = 0 → 2 * SAS_SAMPLES ≤ buffer.length →
      update_sources c g s = .ok (g2, s2) → skip_list_reset s2.mask = .ok mask →
      ∃ r, sas_synthesizer_synthesize c g s buffer = .ok r) := by
  have hsrc := source_load_single s src hs
  have hkeep : ∀ g2 s2, update_sources c g s = .ok (g2, s2) →
      s2.active_tracks = s.active_tracks := fun g2 s2 h =>
    far_update_source c g g0 g2 s s2 src frame pos hsrc hupd hfar
      (update_sources_single c g g2 s s2 src hs h)
  refine ⟨fun r hr => ?_, hkeep, ?_, ?_⟩
  · obtain ⟨r1, r2, -⟩ := far_scan c g g0 s src frame pos r hupd hfar hr
    exact ⟨r1, r2⟩
  · intro buffer g1 s1 buffer1 h0 h
    unfold sas_synthesizer_synthesize at h
    simp only [bind_ok_iff, pure, Except.pure, Except.ok.injEq, Prod.mk.injEq] at h
    obtain ⟨b0, hb0, ⟨g2, s2⟩, h2, s3, h3, ⟨g4, s4⟩, h4, ⟨s5, b5⟩, h5, -, -, rfl⟩ := h
    have a2 : s2.active_tracks = 0 := (hkeep g2 s2 h2).trans h0
    rw [idle_tracks c s2 a2] at h3
    simp only [Except.ok.injEq] at h3
    subst h3
    have a4 : s4.active_tracks = 0 := update_mask_active c g2 g4 _ s4 h4
    rw [a4] at h5
    simp only [Int.toNat_zero, for_loop, Except.ok.injEq, Prod.mk.injEq] at h5
    rw [← h5.2]
    exact zero_fill_result _ _ _ hb0
  · intro buffer g2 s2 mask h0 hlen h2 hm
    obtain ⟨b0, hb0⟩ := zero_fill (2 * SAS_SAMPLES) buffer hlen
    have a2 : s2.active_tracks = 0 := (hkeep g2 s2 h2).trans h0
    have h3 := idle_tracks c s2 a2
    obtain ⟨⟨g4, s4⟩, h4⟩ := idle_mask c g2
      { my_qsort c { s2 with audible_tracks := 0 } 0 with active_tracks := 0 } mask rfl hm
    have a4 : s4.active_tracks = 0 := update_mask_active c g2 g4 _ s4 h4
    have h5 : for_loop (synthesize_track c) s4.active_tracks.toNat 0 (s4, b0) = .ok (s4, b0) := by
      rw [a4]
      rfl
    unfold sas_synthesizer_synthesize
    exact ⟨_, bind_ok_of _ _ _ _ hb0 (bind_ok_of _ _ _ _ h2 (bind_ok_of _ _ _ _ h3
      (bind_ok_of _ _ _ _ h4 (bind_ok_of _ _ _ _ h5 rfl))))⟩

/-- Witness for C9: the synthesizer `distant_synth`, whose only source is left
at 3000 metres by its callback and has no active track: the block is written
and all its samples are 0. -/
theorem out_of_range_silent_witness :
    ∃ g1 s1 buffer1,
      sas_synthesizer_synthesize libc_rational heard_globals distant_synth
        (List.replicate (2 * SAS_SAMPLES) 1) = .ok (g1, s1, buffer1) ∧
      buffer1.length = (List.replicate (2 * SAS_SAMPLES) (1 : ℚ)).length ∧
      ∀ i, i < 2 * SAS_SAMPLES → buffer1[i]? = some 0 := by
  have hT := out_of_range_silent libc_rational heard_globals heard_globals distant_synth
    _ ⟨1 / 2, 10000, 1, 2⟩ ⟨0, 3000, 0⟩ rfl rfl (by decide!)
  obtain ⟨m, hm⟩ := exists_of_isOk
    ((update_sources libc_rational heard_globals distant_synth).bind (fun r =>
      skip_list_reset r.2.mask)) (by decide!)
  cases h2 : update_sources libc_rational heard_globals distant_synth with
  | error e =>
    rw [h2] at hm
    cases hm
  | ok r2 =>
    rw [h2] at hm
    obtain ⟨g2, s2⟩ := r2
    obtain ⟨⟨g1, s1, buffer1⟩, hr⟩ := hT.2.2.2 (List.replicate (2 * SAS_SAMPLES) 1) g2 s2 m rfl
      (by rw [List.length_replicate]) h2 hm
    exact ⟨g1, s1, buffer1, hr, hT.2.2.1 _ g1 s1 buffer1 rfl hr⟩

/-! ## Deleting a source -/

theorem envelope_free_held (g : globals) (b : sas_envelope_t) (rest : List sas_envelope_t)
    (h : envelopes_held g (b :: rest)) :
    ∃ g1, sas_envelope_free g b = .ok g1 ∧ envelopes_held g1 rest := by
  obtain ⟨v, hv, hv32, hcount⟩ := h b (List.mem_cons_self b rest)
  have hlt := envelope_load_lt g b v hv
  have hcb : (b :: rest).count b = rest.count b + 1 := List.count_cons_self b rest
  rw [hcb] at hcount
  by_cases hfree : (v.refcount + (2 ^ 32 - 1)) % 2 ^ 32 = 0 ∧ v.lock = 0
  · refine ⟨_, free_step_destroy g b v hv hfree, ?_⟩
    obtain ⟨hz, hlock⟩ := hfree
    have hc : rest.count b + 1 ≤ v.refcount := by
      rcases hcount with h1 | h1
      · exact absurd hlock h1
      · exact h1
    have hnot : b ∉ rest := by
      intro hmem
      have := List.count_pos_iff.mpr hmem
      omega
    intro a ha
    have hab : a ≠ b := fun e => hnot (e ▸ ha)
    obtain ⟨w, hw, hw32, hwc⟩ := h a (List.mem_cons_of_mem b ha)
    rw [List.count_cons_of_ne hab] at hwc
    refine ⟨w, ?_, hw32, hwc⟩
    rw [(envelope_load_destroyed g b v hv).2 a hab]
    exact hw
  · refine ⟨_, free_step_live g b v hv hfree, ?_⟩
    intro a ha
    by_cases hab : a = b
    · subst hab
      refine ⟨_, envelope_load_store g a _ hlt, Nat.mod_lt _ (by norm_num), ?_⟩
      show v.lock ≠ 0 ∨ rest.count a ≤ (v.refcount + (2 ^ 32 - 1)) % 2 ^ 32
      rcases hcount with h1 | h1
      · exact Or.inl h1
      · right
        omega
    · obtain ⟨w, hw, hw32, hwc⟩ := h a (List.mem_cons_of_mem b ha)
      rw [List.count_cons_of_ne hab] at hwc
      refine ⟨w, ?_, hw32, hwc⟩
      rw [envelope_load_store_ne g b a _ hab]
      exact hw

theorem held_envelopes_drop (frames : List sas_frame_s) (j : Nat) (f : sas_frame_s)
    (hj : j < MAX_PROPAGATED_FRAMES) (hf : frames[j]? = some f) :
    (((frames.take MAX_PROPAGATED_FRAMES).drop j).map (fun f => [f.color, f.warp])).flatten =
      f.color :: f.warp ::
        (((frames.take MAX_PROPAGATED_FRAMES).drop (j + 1)).map
          (fun f => [f.color, f.warp])).flatten := by
  have h1 : (frames.take MAX_PROPAGATED_FRAMES)[j]? = some f := by
    rw [List.getElem?_take_of_lt hj]
    exact hf
  have hlt : j < (frames.take MAX_PROPAGATED_FRAMES).length := by
    by_contra hn
    rw [List.getElem?_eq_none_iff.mpr (Nat.le_of_not_lt hn)] at h1
    cases h1
  have h2 : (frames.take MAX_PROPAGATED_FRAMES)[j] = f := by
    rw [List.getElem?_eq_getElem hlt] at h1
    exact Option.some.inj h1
  rw [List.drop_eq_getElem_cons hlt, h2]
  rfl

theorem release_frames (g : globals) (frames : List sas_frame_s)
    (hlen : MAX_PROPAGATED_FRAMES ≤ frames.length) (hheld : frames_held g frames) :
    ∃ g2, for_loop (fun i (g : globals) => do
        let f ← array_get frames i
        sas_frame_free g f) MAX_PROPAGATED_FRAMES 0 g = .ok g2 := by
  have := for_loop_inv (fun i (g : globals) => do
      let f ← array_get frames i
      sas_frame_free g f)
    (fun i t => envelopes_held t
      ((((frames.take MAX_PROPAGATED_FRAMES).drop i).map
        (fun (f : sas_frame_s) => [f.color, f.warp])).flatten))
    MAX_PROPAGATED_FRAMES 0 g hheld
    (by
      intro j t _ hj hP
      have hlt : j < frames.length := by omega
      have hf : frames[j]? = some frames[j] := List.getElem?_eq_getElem hlt
      rw [held_envelopes_drop frames j _ (by omega) hf] at hP
      obtain ⟨t1, ht1, hP1⟩ := envelope_free_held t _ _ hP
      obtain ⟨t2, ht2, hP2⟩ := envelope_free_held t1 _ _ hP1
      refine ⟨t2, ?_, hP2⟩
      show (array_get frames j >>= fun f => sas_frame_free t f) = .ok t2
      rw [array_get_ok frames j hlt]
      simp only [bind, Except.bind, sas_frame_free, List.get_eq_getElem, ht1, ht2])
  obtain ⟨g2, hg2, -⟩ := this
  exact ⟨g2, hg2⟩

theorem delayed_free_returns (c : libc) (g : globals) (s : sas_synthesizer_s) (id : Nat)
    (src : sas_source_s) (hsrc : source_load s id = .ok src) (hl : src.linked_tracks = 0)
    (hlen : MAX_PROPAGATED_FRAMES ≤ src.propagated_frames.length)
    (hheld : frames_held g src.propagated_frames) :
    ∃ g2 s2, sas_synthesizer_source_delayed_free c g s id = .ok (g2, s2) := by
  obtain ⟨g2, hg2⟩ := release_frames g src.propagated_frames hlen hheld
  have hfind : s.sources.find? (fun x => decide (x.id = id)) = some src := by
    unfold source_load at hsrc
    cases hf : s.sources.find? (fun x => decide (x.id = id)) with
    | none => simp [hf] at hsrc
    | some v =>
      simp only [hf, Except.ok.injEq] at hsrc
      rw [hsrc]
  simp only [bind, Except.bind] at hg2
  unfold sas_synthesizer_source_delayed_free
  simp only [hfind, hl, Int.toNat_zero, for_loop, bind, Except.bind, hg2, pure, Except.pure]
  split_ifs
  · exact ⟨_, _, rfl⟩
  · exact ⟨_, _, rfl⟩

theorem distant_frames_held :
    frames_held heard_globals (List.replicate MAX_PROPAGATED_FRAMES ⟨1 / 2, 10000, 1, 2⟩) := by
  have hcount : (held_envelopes (List.replicate MAX_PROPAGATED_FRAMES ⟨1 / 2, 10000, 1, 2⟩)).count 1
        = 492 ∧
      (held_envelopes (List.replicate MAX_PROPAGATED_FRAMES ⟨1 / 2, 10000, 1, 2⟩)).count 2
        = 492 ∧
      (held_envelopes (List.replicate MAX_PROPAGATED_FRAMES ⟨1 / 2, 10000, 1, 2⟩)).all
        (fun a => a == 1 || a == 2) = true := by
    decide!
  obtain ⟨h1, h2, h3⟩ := hcount
  intro a ha
  have hall := List.all_eq_true.mp h3 a ha
  simp only [Bool.or_eq_true, beq_iff_eq] at hall
  rcases hall with rfl | rfl
  · exact ⟨_, rfl, by decide, Or.inr (by rw [h1]; decide)⟩
  · exact ⟨_, rfl, by decide, Or.inr (by rw [h2]; decide)⟩

/-- C3: for a registered source on which no deletion is pending:
(1) with no linked partial, `sas_synthesizer_source_free`, when it returns,
has removed the source and decremented `number_of_sources`, and it does return
when the source has its `MAX_PROPAGATED_FRAMES` frames and these hold their
envelopes (`frames_held`); (2) with linked partials it returns, leaves the
memory, `number_of_sources`, the list of sources and every other source as
they were, sets `delayed_free` and sets the amplitude of all
`MAX_PROPAGATED_FRAMES` propagated frames to 0; (3) a later
`update_source` on a source whose deletion is pending either leaves
`number_of_sources` alone, the source staying registered with linked partials,
or finds `linked_tracks` at 0 after its track loops, removes the source and
decrements `number_of_sources`; and on a source with no pending deletion it
never changes `number_of_sources`. -/
theorem source_free_schedule (c : libc) (g : globals) (s : sas_synthesizer_s) (id : Nat)
    (src : sas_source_s) (hsrc : source_load s id = .ok src) (hdf : src.delayed_free = 0) :
    (src.linked_tracks = 0 → ∀ g2 s2, sas_synthesizer_source_free c g s id = .ok (g2, s2) →
      s2.number_of_sources = s.number_of_sources - 1 ∧
      s2.sources = s.sources.filter (fun x => decide (x.id ≠ id)) ∧
      ∀ x ∈ s2.sources, x.id ≠ id) ∧
    (src.linked_tracks = 0 → MAX_PROPAGATED_FRAMES ≤ src.propagated_frames.length →
      frames_held g src.propagated_frames →
      ∃ g2 s2, sas_synthesizer_source_free c g s id = .ok (g2, s2) ∧
        s2.number_of_sources = s.number_of_sources - 1 ∧
        s2.sources = s.sources.filter (fun x => decide (x.id ≠ id)) ∧
        ∀ x ∈ s2.sources, x.id ≠ id) ∧
    (src.linked_tracks ≠ 0 → MAX_PROPAGATED_FRAMES ≤ src.propagated_frames.length →
      ∃ s2 src2, sas_synthesizer_source_free c g s id = .ok (g, s2) ∧
        s2.number_of_sources = s.number_of_sources ∧
        s2.sources.map (fun x => x.id) = s.sources.map (fun x => x.id) ∧
        (∀ q, q ≠ id → source_load s2 q = source_load s q) ∧
        source_load s2 id = .ok src2 ∧ src2.delayed_free = 1 ∧
        src2.linked_tracks = src.linked_tracks ∧ src2.tracks = src.tracks ∧
        ∀ i f, i < MAX_PROPAGATED_FRAMES → src2.propagated_frames[i]? = some f →
          f.amplitude = 0) ∧
    (∀ gA sA srcA gB sB, source_load sA id = .ok srcA →
      update_source c gA sA id = .ok (gB, sB) →
      (srcA.delayed_free = 0 → sB.number_of_sources = sA.number_of_sources) ∧
      (srcA.delayed_free ≠ 0 →
        (sB.number_of_sources = sA.number_of_sources ∧
          ∃ srcB, source_load sB id = .ok srcB ∧ srcB.linked_tracks ≠ 0 ∧
            srcB.delayed_free = srcA.delayed_free) ∨
        (sB.number_of_sources = sA.number_of_sources - 1 ∧ (∀ x ∈ sB.sources, x.id ≠ id) ∧
          ∃ r st, harmonic_scan c gA sA srcA = .ok r ∧
            update_partials c r.g sA r.source r.harmonics r.active = .ok st ∧
            (step_source st).linked_tracks = 0))) := by
  have hid : src.id = id := source_load_id s id src hsrc
  have himm : src.linked_tracks = 0 → ∀ g2 s2,
      sas_synthesizer_source_free c g s id = .ok (g2, s2) →
      s2.number_of_sources = s.number_of_sources - 1 ∧
      s2.sources = s.sources.filter (fun x => decide (x.id ≠ id)) ∧
      ∀ x ∈ s2.sources, x.id ≠ id := by
    intro hl g2 s2 h
    unfold sas_synthesizer_source_free at h
    rw [hsrc] at h
    simp only [bind, Except.bind, hdf, ne_eq, not_true_eq_false, if_false, hl, if_true] at h
    obtain ⟨e1, e2⟩ := (delayed_free_effect c g g2 s s2 id h).2 src hsrc
    refine ⟨e2, e1, ?_⟩
    intro x hx
    rw [e1] at hx
    simpa using (List.mem_filter.mp hx).2
  refine ⟨himm, ?_, ?_, ?_⟩
  · intro hl hlen hheld
    obtain ⟨g2, s2, h⟩ := delayed_free_returns c g s id src hsrc hl hlen hheld
    have hfree : sas_synthesizer_source_free c g s id = .ok (g2, s2) := by
      unfold sas_synthesizer_source_free
      rw [hsrc]
      simp only [bind, Except.bind, hdf, ne_eq, not_true_eq_false, if_false, hl, if_true]
      exact h
    exact ⟨g2, s2, hfree, himm hl g2 s2 hfree⟩
  · intro hl hlen
    obtain ⟨fs, hfs, -, hamp⟩ := mute_frames src.propagated_frames hlen
    refine ⟨source_store s { src with propagated_frames := fs, delayed_free := 1 },
      { src with propagated_frames := fs, delayed_free := 1 }, ?_, ?_, ?_, ?_, ?_, rfl, rfl, rfl,
      hamp⟩
    · unfold sas_synthesizer_source_free
      rw [hsrc]
      simp only [ok_bind, hdf, ne_eq, not_true_eq_false, if_false, hl, hfs]
      rfl
    · exact (source_store_fields s _).1
    · exact (source_store_fields s _).2.2.2.2
    · intro q hq
      exact source_load_store_ne s _ q (by
        show q ≠ src.id
        rw [hid]
        exact hq)
    · exact source_load_store_self s src _ id hsrc rfl
  · intro gA sA srcA gB sB hA h
    obtain ⟨src1, r, st, h1, h2, h3, h4⟩ := update_source_cases c gA gB sA sB id h
    rw [hA] at h1
    cases h1
    have hk := harmonic_scan_fields c gA sA srcA r h2
    obtain ⟨k1, -, -, -, -, -, k7, -⟩ := hk
    have hfr := update_partials_frame c _ sA r.source r.harmonics r.active st h3
    obtain ⟨f1, -, -, -, -, -, -, -, -, -, -, -, -, f14⟩ := loops_frame_source _ st hfr
    obtain ⟨y1, y2, -⟩ := loops_frame_synth _ st hfr
    simp only [] at f1 f14 y1 y2
    have hsid : (step_source st).id = id := by
      rw [(step_source_fields st).1, f1, k1]
      exact source_load_id sA id srcA hA
    have hsdf : (step_source st).delayed_free = srcA.delayed_free := by
      rw [(step_source_fields st).2.2.2.2.2.2.2.2.2.2.2.1, f14, k7]
    have hloadst : source_load st.s id = .ok srcA := by
      unfold source_load
      rw [y1]
      exact hA
    have hstored : source_load (source_store st.s (step_source st)) id = .ok (step_source st) :=
      source_load_store_self st.s srcA _ id hloadst (by
        rw [hsid]
        exact (source_load_id sA id srcA hA).symm)
    rcases h4 with ⟨c1, c2, c3⟩ | ⟨c1, c2, c3⟩
    · rw [hsid] at c3
      obtain ⟨e1, e2⟩ := (delayed_free_effect c _ gB _ sB id c3).2 _ hstored
      refine ⟨fun h0 => absurd (hsdf.trans h0) c1, fun _ => Or.inr ⟨?_, ?_, r, st, h2, h3, c2⟩⟩
      · rw [e2, (source_store_fields st.s _).1, y2]
      · intro x hx
        rw [e1] at hx
        simpa using (List.mem_filter.mp hx).2
    · subst c3
      have hn : (source_store st.s (step_source st)).number_of_sources = sA.number_of_sources := by
        rw [(source_store_fields st.s _).1, y2]
      refine ⟨fun _ => hn, fun hne => Or.inl ⟨hn, step_source st, hstored, ?_, hsdf⟩⟩
      intro hl
      exact c1 ⟨by rw [hsdf]; exact hne, hl⟩

/-- Witness for C3: the source of `distant_synth` has no linked partial and
492 frames whose two envelopes have 493 holders each: freeing it returns, the
list of sources is empty and the count is 0 afterwards.  The source of
`framed_synth` has three linked partials; freeing it returns, keeps the count
of sources at 1, sets `delayed_free` and mutes the propagated frames. -/
theorem source_free_schedule_witness :
    (∃ g2 s2, sas_synthesizer_source_free libc_rational heard_globals distant_synth 1 =
        .ok (g2, s2) ∧
      s2.number_of_sources = 0 ∧ s2.sources = []) ∧
    ∃ s2 src2, sas_synthesizer_source_free libc_rational globals_start framed_synth 1 =
        .ok (globals_start, s2) ∧
      s2.number_of_sources = framed_synth.number_of_sources ∧
      source_load s2 1 = .ok src2 ∧ src2.delayed_free = 1 ∧
      ∀ i f, i < MAX_PROPAGATED_FRAMES → src2.propagated_frames[i]? = some f →
        f.amplitude = 0 := by
  refine ⟨?_, ?_⟩
  · obtain ⟨g2, s2, h1, h2, h3, -⟩ :=
      (source_free_schedule libc_rational heard_globals distant_synth 1 _ rfl rfl).2.1
        rfl (le_of_eq (List.length_replicate _ _).symm) distant_frames_held
    exact ⟨g2, s2, h1, h2, h3⟩
  · obtain ⟨s2, src2, h1, h2, -, -, h5, h6, -, -, h9⟩ :=
      (source_free_schedule libc_rational globals_start framed_synth 1 _ rfl rfl).2.2.1
        (by decide) (le_of_eq (List.length_replicate _ _).symm)
    exact ⟨s2, src2, h1, h2, h5, h6, h9⟩

/-! ## Error bounds for rounded arithmetic -/

theorem source_free_cases (c : libc) (g g1 : globals) (s s1 : sas_synthesizer_s) (id : Nat)
    (h : sas_synthesizer_source_free c g s id = .ok (g1, s1)) :
    ∃ src, source_load s id = .ok src ∧
      ((src.linked_tracks = 0 ∧
          sas_synthesizer_source_delayed_free c g s id = .ok (g1, s1)) ∨
        ∃ frames, s1 = source_store s { src with propagated_frames := frames, delayed_free := 1 }) := by
  unfold sas_synthesizer_source_free at h
  simp only [bind_ok_iff] at h
  obtain ⟨src, hsrc, h⟩ := h
  refine ⟨src, hsrc, ?_⟩
  split_ifs at h with h1 h2
  · exact Or.inl ⟨h2, h⟩
  · simp only [bind_ok_iff, pure, Except.pure, Except.ok.injEq, Prod.mk.injEq] at h
    obtain ⟨frames, -, -, rfl⟩ := h
    exact Or.inr ⟨frames, rfl⟩

theorem partial_load_restore (s : sas_synthesizer_s) (id : Nat) (src src1 : sas_source_s)
    (hsrc : source_load s id = .ok src) (hid : src1.id = src.id)
    (ht : src1.tracks = src.tracks) (q : partial_t) :
    partial_load (source_store s src1) q = partial_load s q := by
  have hsid := source_load_id s id src hsrc
  unfold partial_load
  rw [source_load_store]
  cases hx : source_load s q.source with
  | error e => rfl
  | ok x =>
    have hxid := source_load_id s q.source x hx
    simp only [Except.map]
    split_ifs with hc
    · have hq : q.source = id := by rw [← hxid, hc, hid, hsid]
      rw [hq, hsrc] at hx
      cases hx
      show (array_get src1.tracks q.index) = (array_get src.tracks q.index)
      rw [ht]
    · rfl

theorem link_inv_restore (s : sas_synthesizer_s) (id : Nat) (src src1 : sas_source_s)
    (hI : link_inv s) (hsrc : source_load s id = .ok src) (hid : src1.id = src.id)
    (ht : src1.tracks = src.tracks) (ha : src1.active_tracks = src.active_tracks)
    (hl : src1.linked_tracks = src.linked_tracks) : link_inv (source_store s src1) := by
  have hP := partial_load_restore s id src src1 hsrc hid ht
  obtain ⟨-, f2, f3, f4, -⟩ := source_store_fields s src1
  refine
    { shape := ?_
      active_range := by rw [f3, f4]; exact hI.active_range
      links := ?_
      slots := ?_ }
  · intro q y hy
    rw [source_load_store] at hy
    cases hx : source_load s q with
    | error e =>
      rw [hx] at hy
      cases hy
    | ok x =>
      rw [hx] at hy
      simp only [Except.map, Except.ok.injEq] at hy
      split_ifs at hy with hc
      · subst hy
        exact source_inv_congr src src1 (hI.shape id src hsrc) ha hl (by rw [ht])
      · subst hy
        exact hI.shape q x hx
  · intro q v l hq hvl
    rw [hP] at hq
    rw [f2, f3]
    exact hI.links q v l hq hvl
  · intro l q hlt hq
    rw [f3] at hlt
    rw [f2] at hq
    obtain ⟨v, a1, a2⟩ := hI.slots l q hlt hq
    exact ⟨v, by rw [hP]; exact a1, a2⟩

theorem source_free_links (c : libc) (g g1 : globals) (s s1 : sas_synthesizer_s) (id : Nat)
    (hI : link_inv s) (h : sas_synthesizer_source_free c g s id = .ok (g1, s1)) :
    link_inv s1 := by
  obtain ⟨src, hsrc, hcase⟩ := source_free_cases c g g1 s s1 id h
  rcases hcase with ⟨hz, hfree⟩ | ⟨frames, rfl⟩
  · obtain ⟨d1, d2, d3, d4⟩ := delayed_free_unlinked c g g1 s s1 id src hsrc hz hfree
    exact link_inv_removed s s1 id src hI hsrc hz d1 d2 d3 d4
  · exact link_inv_restore s id src _ hI hsrc rfl rfl rfl rfl

theorem source_free_phases (c : libc) (g g1 : globals) (s s1 : sas_synthesizer_s) (id : Nat)
    (hU : unit_phases s) (h : sas_synthesizer_source_free c g s id = .ok (g1, s1)) :
    unit_phases s1 := by
  obtain ⟨src, hsrc, hcase⟩ := source_free_cases c g g1 s s1 id h
  rcases hcase with ⟨hz, hfree⟩ | ⟨frames, rfl⟩
  · obtain ⟨d1, -⟩ := delayed_free_unlinked c g g1 s s1 id src hsrc hz hfree
    intro q v hq hl
    obtain ⟨src1, a1, a2⟩ := (partial_load_iff _ q v).mp hq
    exact hU q v ((partial_load_iff _ q v).mpr
      ⟨src1, source_load_filter s s1 id q.source src1 d1 a1, a2⟩) hl
  · intro q v hq hl
    have hP := partial_load_restore s id src
      { src with propagated_frames := frames, delayed_free := 1 } hsrc rfl rfl q
    rw [hP] at hq
    exact hU q v hq hl

theorem engine_step_phases (c : libc) (hpyth : ∀ x : ℚ, c.cos x ^ 2 + c.sin x ^ 2 = 1)
    (s s1 : sas_synthesizer_s) (h : engine_step c s s1) (hI : link_inv s)
    (hU : unit_phases s) : link_inv s1 ∧ unit_phases s1 := by
  cases h with
  | source g g1 _ _ id h =>
    exact ⟨update_source_links c g g1 s s1 id hI h, update_source_phases c hpyth g g1 s s1 id hU h⟩
  | tracks _ _ h =>
    exact ⟨update_tracks_links c s s1 hI h, update_tracks_phases c s s1 hI hU h⟩
  | mask g g1 _ _ h =>
    exact ⟨update_mask_links c g g1 s s1 h hI, update_mask_phases c g g1 s s1 h hU⟩
  | synthesis _ _ buffer buffer1 h =>
    exact ⟨synthesis_links c _ (s, buffer) (s1, buffer1) h hI,
      synthesis_phases c hpyth _ (s, buffer) (s1, buffer1) h hU⟩
  | make g g1 _ _ pos update call_data id h =>
    exact ⟨source_make_links c g g1 s s1 pos update call_data id hI h,
      source_make_phases c g g1 s s1 pos update call_data id hU h⟩
  | free g g1 _ _ id h =>
    exact ⟨source_free_links c g g1 s s1 id hI h, source_free_phases c g g1 s s1 id hU h⟩

theorem engine_run_phases (c : libc) (hpyth : ∀ x : ℚ, c.cos x ^ 2 + c.sin x ^ 2 = 1)
    (s s1 : sas_synthesizer_s) (h : Relation.ReflTransGen (engine_step c) s s1)
    (hI : link_inv s) (hU : unit_phases s) : link_inv s1 ∧ unit_phases s1 := by
  induction h with
  | refl => exact ⟨hI, hU⟩
  | tail _ hstep ih => exact engine_step_phases c hpyth _ _ hstep ih.1 ih.2

theorem update_sources_loop_run (c : libc) (n : Nat) (cur : Option Nat) (g g1 : globals)
    (s s1 : sas_synthesizer_s) (h : update_sources_loop c n cur g s = .ok (g1, s1)) :
    Relation.ReflTransGen (engine_step c) s s1 := by
  induction n generalizing cur g s with
  | zero =>
    cases cur with
    | none =>
      simp only [update_sources_loop, Except.ok.injEq, Prod.mk.injEq] at h
      rw [← h.2]
    | some x => simp [update_sources_loop] at h
  | succ n ih =>
    cases cur with
    | none =>
      simp only [update_sources_loop, Except.ok.injEq, Prod.mk.injEq] at h
      rw [← h.2]
    | some x =>
      simp only [update_sources_loop, bind_ok_iff] at h
      obtain ⟨⟨g2, s2⟩, h1, nxt, -, h3⟩ := h
      exact Relation.ReflTransGen.head (engine_step.source g g2 s s2 x h1) (ih nxt g2 s2 h3)

theorem synthesize_run (c : libc) (g g1 : globals) (s s1 : sas_synthesizer_s)
    (buffer buffer1 : List ℚ)
    (h : sas_synthesizer_synthesize c g s buffer = .ok (g1, s1, buffer1)) :
    Relation.ReflTransGen (engine_step c) s s1 := by
  unfold sas_synthesizer_synthesize at h
  simp only [bind_ok_iff, pure, Except.pure, Except.ok.injEq, Prod.mk.injEq] at h
  obtain ⟨b0, -, ⟨g2, s2⟩, h2, s3, h3, ⟨g4, s4⟩, h4, ⟨s5, b5⟩, h5, -, rfl, -⟩ := h
  exact ((((update_sources_loop_run c _ _ g g2 s s2 h2).tail (engine_step.tracks s2 s3 h3)).tail
    (engine_step.mask g2 g4 s3 s4 h4)).tail (engine_step.synthesis s4 s5 b0 b5 h5))

theorem synthesis_cells (c : libc) (n : Nat) (t t1 : sas_synthesizer_s × List ℚ)
    (h : for_loop (synthesize_track c) n 0 t = .ok t1) :
    t1.1.tracks = t.1.tracks ∧ t1.1.active_tracks = t.1.active_tracks :=
  for_loop_preserves _ (fun _ (x : sas_synthesizer_s × List ℚ) =>
    x.1.tracks = t.1.tracks ∧ x.1.active_tracks = t.1.active_tracks) _ _ _ _
    (fun j x x1 _ _ hb hx => by
      unfold synthesize_track at hb
      simp only [bind_ok_iff] at hb
      obtain ⟨cell, -, hb⟩ := hb
      cases cell with
      | none => cases hb
      | some p =>
        simp only [bind_ok_iff, pure, Except.pure, Except.ok.injEq] at hb
        obtain ⟨v, -, src, -, ⟨v2, b2⟩, -, s2, hs2, rfl⟩ := hb
        obtain ⟨f1, -, f3, -⟩ := partial_store_fields _ _ _ _ hs2
        exact ⟨f1.trans hx.1, f3.trans hx.2⟩) h ⟨rfl, rfl⟩

theorem turning_source_load (id : Nat) (src : sas_source_s)
    (h : source_load turning_synth id = .ok src) :
    id = 1 ∧ src.tracks = track_at (1 / 4) 440 (some 0) ::
        List.replicate (MAX_PARTIALS_PER_SOURCE - 1) silent_partial ∧
      src.active_tracks = 1 ∧ src.linked_tracks = 1 := by
  have hid := source_load_id _ _ _ h
  unfold source_load at h
  cases hf : turning_synth.sources.find? (fun x => decide (x.id = id)) with
  | none =>
    rw [hf] at h
    cases h
  | some y =>
    rw [hf] at h
    simp only [Except.ok.injEq] at h
    subst h
    have hmem := List.mem_of_find?_eq_some hf
    obtain rfl : y = _ := List.mem_singleton.mp hmem
    exact ⟨hid.symm, rfl, rfl, rfl⟩

theorem turning_tracks (i : Nat) (p : partial_s)
    (h : (track_at (1 / 4) 440 (some 0) ::
      List.replicate (MAX_PARTIALS_PER_SOURCE - 1) silent_partial)[i]? = some p) :
    (i = 0 ∧ p = track_at (1 / 4) 440 (some 0)) ∨ (0 < i ∧ p = silent_partial) := by
  cases i with
  | zero =>
    simp only [List.getElem?_cons_zero, Option.some.injEq] at h
    exact Or.inl ⟨rfl, h.symm⟩
  | succ k =>
    simp only [List.getElem?_cons_succ, List.getElem?_replicate] at h
    split_ifs at h
    cases h
    exact Or.inr ⟨Nat.succ_pos k, rfl⟩

theorem turning_partial (q : partial_t) (v : partial_s)
    (h : partial_load turning_synth q = .ok v) :
    q.source = 1 ∧ ((q.index = 0 ∧ v = track_at (1 / 4) 440 (some 0)) ∨
      (0 < q.index ∧ v = silent_partial)) := by
  obtain ⟨src, a1, a2⟩ := (partial_load_iff _ q v).mp h
  obtain ⟨b1, b2, -⟩ := turning_source_load q.source src a1
  rw [b2] at a2
  exact ⟨b1, turning_tracks q.index v a2⟩

theorem turning_links : link_inv turning_synth := by
  refine
    { shape := ?_
      active_range := by decide
      links := ?_
      slots := ?_ }
  · intro id src h
    obtain ⟨-, ht, ha, hl⟩ := turning_source_load id src h
    refine
      { tracks_length := by rw [ht, List.length_cons, List.length_replicate]; decide
        active_range := by rw [ha]; decide
        linked_range := by rw [hl]; decide
        prefix_linked := ?_
        young := ?_
        dying := ?_ }
    · intro i p hp
      rw [ht] at hp
      rw [hl]
      rcases turning_tracks i p hp with ⟨rfl, rfl⟩ | ⟨hi, rfl⟩
      · exact ⟨fun _ => by decide, fun _ => by decide⟩
      · constructor
        · intro hne
          exact absurd rfl hne
        · intro hlt
          have : ((i : Nat) : Int) < 1 := hlt
          omega
    · intro i j p q hi hij hj _ _
      rw [hl] at hi
      rw [ha] at hj
      omega
    · intro i j p q hi hij hj _ _
      rw [ha] at hi
      rw [hl] at hj
      omega
  · intro q v l hq hvl
    obtain ⟨hs, hcase⟩ := turning_partial q v hq
    rcases hcase with ⟨hi, rfl⟩ | ⟨-, rfl⟩
    · have hl0 : l = 0 := by
        have : (some 0 : Option Nat) = some l := hvl
        exact (Option.some.inj this).symm
      subst hl0
      have hq1 : q = ⟨1, 0⟩ := by
        cases q
        simp only at hs hi
        rw [hs, hi]
      rw [hq1]
      exact ⟨by decide, rfl⟩
    · cases hvl
  · intro l q hlt hq
    have hl0 : l = 0 := by
      have : ((l : Nat) : Int) < 1 := hlt
      omega
    subst hl0
    have hq1 : q = ⟨1, 0⟩ := by
      have : (some (some (⟨1, 0⟩ : partial_t)) : Option (Option partial_t)) = some (some q) := hq
      exact (Option.some.inj (Option.some.inj this)).symm
    subst hq1
    exact ⟨track_at (1 / 4) 440 (some 0), rfl, rfl⟩

theorem turning_phases : unit_phases turning_synth := by
  intro q v hq hl
  obtain ⟨-, hcase⟩ := turning_partial q v hq
  rcases hcase with ⟨-, rfl⟩ | ⟨-, rfl⟩
  · decide!
  · exact absurd rfl hl

theorem ending_source_load (id : Nat) (src : sas_source_s)
    (h : source_load ending_synth id = .ok src) :
    id = 1 ∧ src.tracks = { track_at 0 440 (some 0) with state := -1 } ::
        List.replicate (MAX_PARTIALS_PER_SOURCE - 1) silent_partial ∧
      src.active_tracks = 0 ∧ src.linked_tracks = 1 := by
  have hid := source_load_id _ _ _ h
  unfold source_load at h
  cases hf : ending_synth.sources.find? (fun x => decide (x.id = id)) with
  | none =>
    rw [hf] at h
    cases h
  | some y =>
    rw [hf] at h
    simp only [Except.ok.injEq] at h
    subst h
    have hmem := List.mem_of_find?_eq_some hf
    obtain rfl : y = _ := List.mem_singleton.mp hmem
    exact ⟨hid.symm, rfl, rfl, rfl⟩

theorem ending_tracks (i : Nat) (p : partial_s)
    (h : ({ track_at 0 440 (some 0) with state := -1 } ::
      List.replicate (MAX_PARTIALS_PER_SOURCE - 1) silent_partial)[i]? = some p) :
    (i = 0 ∧ p = { track_at 0 440 (some 0) with state := -1 }) ∨ (0 < i ∧ p = silent_partial) := by
  cases i with
  | zero =>
    simp only [List.getElem?_cons_zero, Option.some.injEq] at h
    exact Or.inl ⟨rfl, h.symm⟩
  | succ k =>
    simp only [List.getElem?_cons_succ, List.getElem?_replicate] at h
    split_ifs at h
    cases h
    exact Or.inr ⟨Nat.succ_pos k, rfl⟩

theorem ending_partial (q : partial_t) (v : partial_s)
    (h : partial_load ending_synth q = .ok v) :
    q.source = 1 ∧ ((q.index = 0 ∧ v = { track_at 0 440 (some 0) with state := -1 }) ∨
      (0 < q.index ∧ v = silent_partial)) := by
  obtain ⟨src, a1, a2⟩ := (partial_load_iff _ q v).mp h
  obtain ⟨b1, b2, -⟩ := ending_source_load q.source src a1
  rw [b2] at a2
  exact ⟨b1, ending_tracks q.index v a2⟩

theorem ending_links : link_inv ending_synth := by
  refine
    { shape := ?_
      active_range := by decide
      links := ?_
      slots := ?_ }
  · intro id src h
    obtain ⟨-, ht, ha, hl⟩ := ending_source_load id src h
    refine
      { tracks_length := by rw [ht, List.length_cons, List.length_replicate]; decide
        active_range := by rw [ha]; decide
        linked_range := by rw [hl]; decide
        prefix_linked := ?_
        young := ?_
        dying := ?_ }
    · intro i p hp
      rw [ht] at hp
      rw [hl]
      rcases ending_tracks i p hp with ⟨rfl, rfl⟩ | ⟨hi, rfl⟩
      · exact ⟨fun _ => by decide, fun _ => by decide⟩
      · constructor
        · intro hne
          exact absurd rfl hne
        · intro hlt
          have : ((i : Nat) : Int) < 1 := hlt
          omega
    · intro i j p q hi hij hj _ _
      rw [hl] at hi
      rw [ha] at hj
      omega
    · intro i j p q hi hij hj hp hq
      rw [hl] at hj
      have hj0 : j = 0 := by omega
      have hi0 : i = 0 := by omega
      subst hj0
      subst hi0
      rw [ht] at hp hq
      rcases ending_tracks 0 p hp with ⟨-, rfl⟩ | ⟨hi, -⟩
      · rcases ending_tracks 0 q hq with ⟨-, rfl⟩ | ⟨hi, -⟩
        · decide
        · exact absurd hi (lt_irrefl 0)
      · exact absurd hi (lt_irrefl 0)
  · intro q v l hq hvl
    obtain ⟨hs, hcase⟩ := ending_partial q v hq
    rcases hcase with ⟨hi, rfl⟩ | ⟨-, rfl⟩
    · have hl0 : l = 0 := by
        have : (some 0 : Option Nat) = some l := hvl
        exact (Option.some.inj this).symm
      subst hl0
      have hq1 : q = ⟨1, 0⟩ := by
        cases q
        simp only at hs hi
        rw [hs, hi]
      rw [hq1]
      exact ⟨by decide, rfl⟩
    · cases hvl
  · intro l q hlt hq
    have hl0 : l = 0 := by
      have : ((l : Nat) : Int) < 1 := hlt
      omega
    subst hl0
    have hq1 : q = ⟨1, 0⟩ := by
      have : (some (some (⟨1, 0⟩ : partial_t)) : Option (Option partial_t)) = some (some q) := hq
      exact (Option.some.inj (Option.some.inj this)).symm
    subst hq1
    exact ⟨{ track_at 0 440 (some 0) with state := -1 }, rfl, rfl⟩

theorem ending_phases : unit_phases ending_synth := by
  intro q v hq hl
  obtain ⟨-, hcase⟩ := ending_partial q v hq
  rcases hcase with ⟨-, rfl⟩ | ⟨-, rfl⟩
  · decide!
  · exact absurd rfl hl

theorem exists_ok_with {α : Type} (x : Except fault α) (f : α → Bool)
    (h : x.bind (fun r => .ok (f r)) = (.ok true : Except fault Bool)) :
    ∃ r, x = .ok r ∧ f r = true := by
  cases x with
  | error e => cases h
  | ok r =>
    simp only [Except.bind, Except.ok.injEq] at h
    exact ⟨r, rfl, h⟩

/-- C28: over the rationals, with a `cos` and a `sin` whose squares add up to
1, the phase state `(v1, v2)` of every linked partial has magnitude 1 after
any number of blocks.  The partial that the loop of the continuing harmonics
links gets the phase state `(cos phi, sin phi)`; `partial_fast_forward` and
`partial_forward_synthesis` keep `v1 ^ 2 + v2 ^ 2` for every frequency; a
synthesizer that `sas_synthesizer_make` returns has no linked partial; and
`unit_phases` holds, together with the bookkeeping of the links `link_inv`,
after `sas_synthesizer_source_make` and after any number of calls of
`sas_synthesizer_synthesize` when the two hold before.  The two also hold
after every single call of `update_source`, the one that completes a deferred
deletion included, after `sas_synthesizer_source_free`, and after every run of
the engine, a sequence of steps `engine_step`; a call of
`sas_synthesizer_synthesize` that returns is such a run. -/
theorem unit_phase_vectors (c : libc) (hpyth : ∀ x : ℚ, c.cos x ^ 2 + c.sin x ^ 2 = 1) :
    (∀ i st st1 p p1, continuing_harmonic c i st = .ok st1 →
      st.source.tracks[i]? = some p → st1.source.tracks[i]? = some p1 →
      p.link = none → p1.link ≠ none →
      ∃ phi, p1.v1 = c.cos phi ∧ p1.v2 = c.sin phi) ∧
    (∀ p f, (partial_fast_forward c p f).v1 ^ 2 + (partial_fast_forward c p f).v2 ^ 2 =
      p.v1 ^ 2 + p.v2 ^ 2) ∧
    (∀ l_ratio r_ratio p a a_next f buffer offset p1 buf,
      partial_forward_synthesis c l_ratio r_ratio p a a_next f buffer offset = .ok (p1, buf) →
      p1.v1 ^ 2 + p1.v2 ^ 2 = p.v1 ^ 2 + p.v2 ^ 2) ∧
    (∀ g tv_sec g1 s, sas_synthesizer_make c g tv_sec = .ok (g1, s) →
      link_inv s ∧ unit_phases s) ∧
    (∀ g s pos update call_data g1 s1 id, link_inv s → unit_phases s →
      sas_synthesizer_source_make c g s pos update call_data = .ok (g1, s1, id) →
      link_inv s1 ∧ unit_phases s1) ∧
    (∀ n g s buffer g1 s1 buffer1, link_inv s → unit_phases s →
      synthesize_blocks c n (g, s, buffer) = .ok (g1, s1, buffer1) →
      link_inv s1 ∧ unit_phases s1) ∧
    (∀ g s id g1 s1, link_inv s → unit_phases s →
      update_source c g s id = .ok (g1, s1) → link_inv s1 ∧ unit_phases s1) ∧
    (∀ g s id g1 s1, link_inv s → unit_phases s →
      sas_synthesizer_source_free c g s id = .ok (g1, s1) → link_inv s1 ∧ unit_phases s1) ∧
    (∀ s s1, link_inv s → unit_phases s → Relation.ReflTransGen (engine_step c) s s1 →
      link_inv s1 ∧ unit_phases s1) ∧
    (∀ g s buffer g1 s1 buffer1,
      sas_synthesizer_synthesize c g s buffer = .ok (g1, s1, buffer1) →
      Relation.ReflTransGen (engine_step c) s s1) := by
  refine ⟨?_, fun p f => (fast_forward_magnitude c p f hpyth).1,
    fun l_ratio r_ratio p a a_next f buffer offset p1 buf h =>
      (forward_synthesis_magnitude c l_ratio r_ratio p p1 a a_next f buffer buf offset hpyth h).1,
    ?_, fun g s pos update call_data g1 s1 id hI hU h =>
      ⟨source_make_links c g g1 s s1 pos update call_data id hI h,
        source_make_phases c g g1 s s1 pos update call_data id hU h⟩,
    fun n g s buffer g1 s1 buffer1 hI hU h =>
      synthesize_blocks_phases c hpyth n (g, s, buffer) (g1, s1, buffer1) h hI hU,
    fun g s id g1 s1 hI hU h =>
      ⟨update_source_links c g g1 s s1 id hI h, update_source_phases c hpyth g g1 s s1 id hU h⟩,
    fun g s id g1 s1 hI hU h =>
      ⟨source_free_links c g g1 s s1 id hI h, source_free_phases c g g1 s s1 id hU h⟩,
    fun s s1 hI hU h => engine_run_phases c hpyth s s1 h hI hU,
    fun g s buffer g1 s1 buffer1 h => synthesize_run c g g1 s s1 buffer buffer1 h⟩
  · intro i st st1 p p1 h hp hp1 hl hl1
    obtain ⟨q, q1, hq, hsrc, -, -, -, -, -, -, hcase⟩ := continuing_harmonic_step c i st st1 h
    rw [hp] at hq
    cases hq
    rw [hsrc] at hp1
    have hp2 : (st.source.tracks.set i q1)[i]? = some p1 := hp1
    rw [getElem?_set_cases _ _ _ _ (getElem?_lt _ _ _ hp), if_pos rfl] at hp2
    cases hp2
    rcases hcase with ⟨-, e1, -⟩ | ⟨-, -, -, -, -, -, e2, e3, -⟩
    · rw [e1] at hl1
      exact absurd hl hl1
    · exact ⟨_, e2, e3⟩
  · intro g tv_sec g1 s h
    refine ⟨synthesizer_make_links c g g1 tv_sec s h, ?_⟩
    unfold sas_synthesizer_make at h
    simp only [bind_ok_iff, pure, Except.pure, Except.ok.injEq, Prod.mk.injEq] at h
    obtain ⟨r1, -, r2, -, -, rfl⟩ := h
    exact unit_phases_no_source _ rfl

/-- Witness for C28, with the exact rotations of `libc_rotation`.  A linked
partial with the phase state (0, 1) keeps its magnitude through
`partial_fast_forward`, and the first source made on `empty_synth` keeps the
two invariants.  One block of `sas_synthesizer_synthesize` runs on
`turning_synth`, whose first partial is linked and is synthesized while it
fades out: the call returns, the two invariants hold afterwards, and the
partial is still linked to cell 0 with a phase state of magnitude 1.  On
`ending_synth` the call of `update_source` completes the deferred deletion of
the source and returns with the two invariants, while `update_sources` reads
`current->next` in the freed source. -/
theorem unit_phase_vectors_witness :
    (∀ x : ℚ, libc_rotation.cos x ^ 2 + libc_rotation.sin x ^ 2 = 1) ∧
      (partial_fast_forward libc_rotation (track_with (1 / 4) (some 0)) 1).v1 ^ 2 +
          (partial_fast_forward libc_rotation (track_with (1 / 4) (some 0)) 1).v2 ^ 2 = 1 ∧
      link_inv empty_synth ∧ unit_phases empty_synth ∧
      (∃ g1 s1 id, sas_synthesizer_source_make libc_rotation globals_start empty_synth ⟨0, 0, 0⟩
          decline 1 = .ok (g1, s1, id) ∧ link_inv s1 ∧ unit_phases s1) ∧
      link_inv turning_synth ∧ unit_phases turning_synth ∧
      (∃ g1 s1 buffer1,
        sas_synthesizer_synthesize libc_rotation heard_globals turning_synth
          (List.replicate (2 * SAS_SAMPLES) 0) = .ok (g1, s1, buffer1) ∧
        link_inv s1 ∧ unit_phases s1 ∧
        ∃ v, partial_load s1 ⟨1, 0⟩ = .ok v ∧ v.link = some 0 ∧ v.v1 ^ 2 + v.v2 ^ 2 = 1) ∧
      link_inv ending_synth ∧ unit_phases ending_synth ∧
      (∃ g2 s2, update_source libc_rotation heard_globals ending_synth 1 = .ok (g2, s2) ∧
        s2.sources = [] ∧ link_inv s2 ∧ unit_phases s2) ∧
      (update_sources libc_rotation heard_globals ending_synth).map (fun _ => ()) =
        .error .invalid_access := by
  have hpyth : ∀ x : ℚ, libc_rotation.cos x ^ 2 + libc_rotation.sin x ^ 2 = 1 :=
    fun x => rotation_unit _
  have hT := unit_phase_vectors libc_rotation hpyth
  have h0 : link_inv empty_synth := link_inv_no_source _ rfl rfl (by decide)
  have u0 : unit_phases empty_synth := unit_phases_no_source _ rfl
  obtain ⟨r, hr⟩ := exists_of_isOk (sas_synthesizer_source_make libc_rotation globals_start
    empty_synth ⟨0, 0, 0⟩ decline 1) (by decide!)
  obtain ⟨g1, s1, id⟩ := r
  have hex2 := exists_ok_with
    (update_source libc_rotation heard_globals ending_synth 1)
    (fun (r : globals × sas_synthesizer_s) => decide (r.2.sources.length = 0)) (by decide!)
  obtain ⟨⟨g2, s2⟩, h2, hs2⟩ := hex2
  have hs2 := List.length_eq_zero.mp (of_decide_eq_true hs2)
  refine ⟨hpyth, ?_, h0, u0, ⟨g1, s1, id, hr,
    hT.2.2.2.2.1 globals_start empty_synth ⟨0, 0, 0⟩ decline 1 g1 s1 id h0 u0 hr⟩,
    turning_links, turning_phases, ?_, ending_links, ending_phases, ?_, ?_⟩
  · rw [hT.2.1]
    decide!
  · obtain ⟨b0, hb0⟩ := zero_fill (2 * SAS_SAMPLES) (List.replicate (2 * SAS_SAMPLES) 0)
      (by rw [List.length_replicate])
    obtain ⟨hl0, -⟩ := zero_fill_result _ _ _ hb0
    have hex := exists_ok_with
      (block_updates libc_rotation heard_globals turning_synth)
      (fun (r : globals × sas_synthesizer_s) =>
        decide (r.2.active_tracks = 1 ∧ r.2.tracks[0]? = some (some (⟨1, 0⟩ : partial_t)) ∧
          ((partial_load r.2 ⟨1, 0⟩).bind (fun v =>
            (source_load r.2 v.source).bind (fun _ =>
              .ok (decide (v.aenv.x1 = 1 / 4))))) =
            (.ok true : Except fault Bool))) (by decide!)
    obtain ⟨⟨g4, s4⟩, hu, hfacts⟩ := hex
    obtain ⟨hact, hcell, hrest⟩ := of_decide_eq_true hfacts
    cases hv : partial_load s4 ⟨1, 0⟩ with
    | error e =>
      rw [hv] at hrest
      cases hrest
    | ok v =>
      rw [hv] at hrest
      cases hsrc : source_load s4 v.source with
      | error e =>
        simp only [Except.bind, hsrc] at hrest
        cases hrest
      | ok src =>
        simp only [Except.bind, hsrc, Except.ok.injEq, decide_eq_true_eq] at hrest
        obtain ⟨s5, b5, h5, -⟩ := synthesize_first_sample libc_rotation s4 b0 v src ⟨1, 0⟩
          hact hcell hv hsrc (by rw [hrest]; decide!) (by rw [hl0, List.length_replicate])
        have hsyn := synthesize_of_updates _ _ _ _ _ _ _ _ _ hb0 hu h5
        obtain ⟨hI5, hU5⟩ := hT.2.2.2.2.2.2.2.2.1 turning_synth s5 turning_links turning_phases
          (hT.2.2.2.2.2.2.2.2.2 _ _ _ _ _ _ hsyn)
        obtain ⟨k1, k2⟩ := synthesis_cells libc_rotation _ (s4, b0) (s5, b5) h5
        obtain ⟨w, hw, hwl⟩ := hI5.slots 0 ⟨1, 0⟩ (by
          rw [k2, hact]
          decide) (by
          rw [k1]
          exact hcell)
        exact ⟨g4, s5, b5, hsyn, hI5, hU5, w, hw, hwl,
          hU5 ⟨1, 0⟩ w hw (by rw [hwl]; exact Option.some_ne_none 0)⟩
  · obtain ⟨hI2, hU2⟩ := hT.2.2.2.2.2.2.1 heard_globals ending_synth 1 g2 s2 ending_links
      ending_phases h2
    exact ⟨g2, s2, h2, hs2, hI2, hU2⟩
  · have hnext : source_next s2 1 = .error .invalid_access := by
      unfold source_next
      rw [hs2]
      rfl
    have e1 : update_sources libc_rotation heard_globals ending_synth =
        update_sources_loop libc_rotation (0 + 1) (some 1) heard_globals ending_synth := rfl
    rw [e1]
    simp only [update_sources_loop, h2, hnext, bind, Except.bind, Except.map]

end SAS
